import Mathlib

/-!
# Frogito VM: bounded big integers and the bytecode loader

A shallow embedding of `frogitovm/src/runtime/bigint.h` and
`frogitovm/src/bytecode/bytecode_loader.cpp`, with the properties that the
design document states about them.

Conventions of the embedding

* `std::uint32_t` / `std::uint64_t` values are natural numbers; where the C++
  arithmetic could wrap for some well-typed operands the wrap is written out
  (`% 2 ^ 64`, `sub32`). A cast to `std::uint32_t` of a value reduced modulo
  `kBase` is the identity and is not written. Sums of a limb and a carry stay
  far below `2 ^ 64` for all operands and are not reduced.
* A C++ function that may throw returns `Except String _`, the string being the
  message of the exception.
* `std::array<std::uint32_t, 20> digits_` is a `List Nat`; the shape predicate
  `BigInt.Shaped` says that it has exactly `kMaxDigits` entries.
* A `for` loop over an index range is a fold over `List.range`; a descending
  loop is a structural recursion on `i + 1`; a `while` loop whose trip count is
  bounded by a guard of the code carries a fuel argument, and running out of
  fuel is reported by the distinguished message `fuelMsg`, which the theorems
  show is never produced.
-/

namespace Frogito

deriving instance DecidableEq for Except

/-! ## BigInt: data -/

/-- The limb base, `BigInt::kBase`. -/
def kBase : Nat := 1000000000

/-- Decimal digits per limb, `BigInt::kBaseDigits`. -/
def kBaseDigits : Nat := 9

/-- Limb capacity, `BigInt::kMaxDigits`. -/
def kMaxDigits : Nat := 20

/-- Message of the `RuntimeError` thrown on capacity exhaustion. -/
def overflowMsg : String := "integer overflow"

/-- Message of the `RuntimeError` thrown on a zero divisor. -/
def divZeroMsg : String := "division by zero"

/-- Reported by a fuelled loop that ran out of fuel; no C++ path produces it. -/
def fuelMsg : String := "<out of fuel>"

/-- The three data members of `class BigInt`. -/
structure BigInt where
  negative_ : Bool
  len_ : Nat
  digits_ : List Nat
deriving DecidableEq, Repr

namespace BigInt

/-- Result of `BigInt() = default` (written `BigInt{}` in the code): the data
members take their default initialisers. -/
def zero : BigInt := { negative_ := false, len_ := 0, digits_ := List.replicate kMaxDigits 0 }

/-- Member `digits_[i]`. -/
def digit (x : BigInt) (i : Nat) : Nat := x.digits_.getD i 0

/-- Assignment `digits_[i] = v`. -/
def setDigit (x : BigInt) (i v : Nat) : BigInt := { x with digits_ := x.digits_.set i v }

def is_zero (x : BigInt) : Bool := x.len_ == 0

def is_negative (x : BigInt) : Bool := x.negative_

def normalize_zero (x : BigInt) : BigInt :=
  if x.len_ = 0 then { x with negative_ := false } else x

/-- The loop of `trim`: `while (len_ > 0 && digits_[len_ - 1] == 0) --len_;`,
by recursion on `len_`. -/
def trim_len (ds : List Nat) : Nat → Nat
  | 0 => 0
  | n + 1 => if ds.getD n 0 = 0 then trim_len ds n else n + 1

def trim (x : BigInt) : BigInt :=
  normalize_zero { x with len_ := trim_len x.digits_ x.len_ }

/-- The loop `while (mag > 0)` of `assign`. Each round either throws or
increases `len_`, and `len_ >= kMaxDigits` throws, so `kMaxDigits + 1` rounds of
fuel are enough. -/
def assign_loop : Nat → Nat → BigInt → Except String BigInt
  | 0, _, _ => .error fuelMsg
  | fuel + 1, mag, x =>
    if mag > 0 then
      if x.len_ ≥ kMaxDigits then .error overflowMsg
      else assign_loop fuel (mag / kBase)
        { (x.setDigit x.len_ (mag % kBase)) with len_ := x.len_ + 1 }
    else .ok x

/-- Member `assign(std::int64_t v)`; `v` ranges over `[-2^63, 2^63)`. The
magnitude of a negative `v` is computed as `uint64(-(v + 1)) + 1`. -/
def assign (v : Int) : Except String BigInt :=
  if v = 0 then .ok zero
  else if v < 0 then
    assign_loop (kMaxDigits + 1) (((-(v + 1)).toNat + 1) % 2 ^ 64) { zero with negative_ := true }
  else
    assign_loop (kMaxDigits + 1) v.toNat zero

/-- Constructor `explicit BigInt(std::int64_t v)`. -/
def ofInt64 (v : Int) : Except String BigInt := assign v

/-- The loop of `compare_abs`, for `i` from `n - 1` down to `0`. -/
def compare_abs_loop (a b : BigInt) : Nat → Int
  | 0 => 0
  | i + 1 =>
    if a.digit i ≠ b.digit i then (if a.digit i < b.digit i then -1 else 1)
    else compare_abs_loop a b i

def compare_abs (a b : BigInt) : Int :=
  if a.len_ ≠ b.len_ then (if a.len_ < b.len_ then -1 else 1)
  else compare_abs_loop a b a.len_

/-- Friend `operator==`. -/
def eq (a b : BigInt) : Bool :=
  if a.len_ ≠ b.len_ then false
  else if a.len_ = 0 then true
  else if a.negative_ ≠ b.negative_ then false
  else (List.range a.len_).all (fun i => a.digit i == b.digit i)

/-- Friend `operator!=`. -/
def ne (a b : BigInt) : Bool := !(eq a b)

/-- Friend `operator<`. -/
def lt (a b : BigInt) : Bool :=
  if a.negative_ ≠ b.negative_ then a.negative_
  else if a.negative_ then decide (compare_abs a b > 0) else decide (compare_abs a b < 0)

/-- Friend `operator<=`. -/
def le (a b : BigInt) : Bool := !(lt b a)

/-- Friend `operator>`. -/
def gt (a b : BigInt) : Bool := lt b a

/-- Friend `operator>=`. -/
def ge (a b : BigInt) : Bool := !(lt a b)

/-- Unary `operator-`. -/
def neg (x : BigInt) : BigInt :=
  if !x.is_zero then { x with negative_ := !x.negative_ } else x

/-- The loop of `add_abs`; `i < kMaxDigits` is checked on every round, so
`kMaxDigits + 1` rounds of fuel are enough. The 64-bit `sum` cannot wrap: it is
at most `carry + 2 * (2^32 - 1)`. -/
def add_abs_loop (a b : BigInt) (max_len : Nat) : Nat → Nat → Nat → BigInt → Except String BigInt
  | 0, _, _, _ => .error fuelMsg
  | fuel + 1, i, carry, out =>
    if i < max_len ∨ carry ≠ 0 then
      if i ≥ kMaxDigits then .error overflowMsg
      else
        let sum := carry + (if i < a.len_ then a.digit i else 0) + (if i < b.len_ then b.digit i else 0)
        add_abs_loop a b max_len fuel (i + 1) (sum / kBase)
          { (out.setDigit i (sum % kBase)) with len_ := i + 1 }
    else .ok out

def add_abs (a b : BigInt) : Except String BigInt :=
  let max_len := if a.len_ > b.len_ then a.len_ else b.len_
  (add_abs_loop a b max_len (kMaxDigits + 1) 0 0 zero).map trim

/-- One round of the loop of `sub_abs`; the state is `(out, borrow)` and `cur`
is a signed 64-bit value. -/
def sub_abs_step (a b : BigInt) (st : BigInt × Int) (i : Nat) : BigInt × Int :=
  let cur0 : Int := (a.digit i : Int) - st.2
  let cur1 : Int := if i < b.len_ then cur0 - (b.digit i : Int) else cur0
  if cur1 < 0 then (st.1.setDigit i ((cur1 + (kBase : Int)) % 2 ^ 32).toNat, 1)
  else (st.1.setDigit i (cur1 % 2 ^ 32).toNat, 0)

def sub_abs (a b : BigInt) : BigInt :=
  trim ((List.range a.len_).foldl (sub_abs_step a b) ({ zero with len_ := a.len_ }, 0)).1

/-- The statement `if (n > out.len_) out.len_ = n;` of `mul_abs`. -/
def raise_len (x : BigInt) (n : Nat) : BigInt :=
  if n > x.len_ then { x with len_ := n } else x

/-- The inner loop of `mul_abs` for a fixed `i`; `idx = i + j < kMaxDigits` is
checked on every round, so `kMaxDigits + 1` rounds of fuel are enough. -/
def mul_abs_inner (a b : BigInt) (i : Nat) : Nat → Nat → Nat → BigInt → Except String BigInt
  | 0, _, _, _ => .error fuelMsg
  | fuel + 1, j, carry, out =>
    if j < b.len_ ∨ carry ≠ 0 then
      let idx := i + j
      if idx ≥ kMaxDigits then .error overflowMsg
      else
        let cur0 := out.digit idx + carry
        let cur := if j < b.len_ then (cur0 + a.digit i * b.digit j) % 2 ^ 64 else cur0
        let out1 := out.setDigit idx (cur % kBase)
        mul_abs_inner a b i fuel (j + 1) (cur / kBase) (raise_len out1 (idx + 1))
    else .ok out

def mul_abs (a b : BigInt) : Except String BigInt :=
  if a.len_ = 0 ∨ b.len_ = 0 then .ok zero
  else
    ((List.range a.len_).foldlM
      (fun out i => mul_abs_inner a b i (kMaxDigits + 1) 0 0 out) zero).map trim

/-- Friend `operator+`. -/
def add (a b : BigInt) : Except String BigInt :=
  if a.negative_ = b.negative_ then
    (add_abs a b).map (fun out => normalize_zero { out with negative_ := a.negative_ })
  else
    let cmp := compare_abs a b
    if cmp = 0 then .ok zero
    else if cmp > 0 then
      .ok (normalize_zero { (sub_abs a b) with negative_ := a.negative_ })
    else
      .ok (normalize_zero { (sub_abs b a) with negative_ := b.negative_ })

/-- Friend `operator-`: `a + (-b)`. -/
def sub (a b : BigInt) : Except String BigInt := add a (neg b)

/-- Friend `operator*`. -/
def mul (a b : BigInt) : Except String BigInt :=
  if a.is_zero ∨ b.is_zero then .ok zero
  else
    (mul_abs a b).map
      (fun out => normalize_zero { out with negative_ := (a.negative_ != b.negative_) })

/-- Wrapping subtraction on `std::uint32_t`. -/
def sub32 (x y : Nat) : Nat := (x + 2 ^ 32 - y) % 2 ^ 32

/-- One round of the loop of `mul_uint_abs_no_throw`; the state is
`(out, carry)`. -/
def mul_uint_step (a : BigInt) (m : Nat) (st : BigInt × Nat) (i : Nat) : BigInt × Nat :=
  let cur := (st.2 + a.digit i * m) % 2 ^ 64
  ({ (st.1.setDigit i (cur % kBase)) with len_ := i + 1 }, cur / kBase)

/-- Static `mul_uint_abs_no_throw(a, m, out)`: the returned pair is the `bool`
result and the final contents of `out`. -/
def mul_uint_abs_no_throw (a : BigInt) (m : Nat) : Bool × BigInt :=
  if a.len_ = 0 ∨ m = 0 then (true, zero)
  else
    let st := (List.range a.len_).foldl (mul_uint_step a m) (zero, 0)
    if st.2 ≠ 0 then
      if st.1.len_ ≥ kMaxDigits then (false, st.1)
      else (true, trim { (st.1.setDigit st.1.len_ (st.2 % 2 ^ 32)) with len_ := st.1.len_ + 1 })
    else (true, trim st.1)

/-- The loop of `shift_base_add`, for `i` from `n` down to `1`:
`digits_[i] = digits_[i - 1]`. -/
def shift_loop (x : BigInt) : Nat → BigInt
  | 0 => x
  | i + 1 => shift_loop (x.setDigit (i + 1) (x.digit i)) i

/-- Member `shift_base_add(digit)`, returning the updated object. -/
def shift_base_add (x : BigInt) (d : Nat) : Except String BigInt :=
  if x.len_ = 0 then
    if d = 0 then .ok x
    else .ok { (x.setDigit 0 d) with len_ := 1 }
  else if x.len_ ≥ kMaxDigits then .error overflowMsg
  else
    let y := shift_loop x x.len_
    .ok { (y.setDigit 0 d) with len_ := x.len_ + 1 }

/-- The long-division loop of `divmod_abs` for a one-limb divisor, for `i`
from `n - 1` down to `0`; the state is `(q, rem)`. -/
def divmod_small_loop (a : BigInt) (divisor : Nat) : Nat → BigInt × Nat → BigInt × Nat
  | 0, st => st
  | i + 1, st =>
    let cur := (a.digit i + st.2 * kBase) % 2 ^ 64
    divmod_small_loop a divisor i (st.1.setDigit i ((cur / divisor) % 2 ^ 32), cur % divisor)

/-- The binary search `while (lo <= hi)` of `divmod_abs`, returning `best`.
Every round removes `mid` from the interval `[lo, hi]`, so its initial size
bounds the number of rounds. -/
def div_search (b r : BigInt) : Nat → Nat → Nat → Nat → Except String Nat
  | 0, _, _, _ => .error fuelMsg
  | fuel + 1, lo, hi, best =>
    if lo ≤ hi then
      let mid := lo + (hi - lo) / 2
      let p := mul_uint_abs_no_throw b mid
      if !p.1 || decide (compare_abs p.2 r > 0) then
        div_search b r fuel lo (sub32 mid 1) best
      else
        div_search b r fuel (mid + 1) hi mid
    else .ok best

/-- The body of the multi-limb loop of `divmod_abs` at index `i`; the
state is `(q, r)`. -/
def divmod_big_step (a b : BigInt) (i : Nat) (st : BigInt × BigInt) :
    Except String (BigInt × BigInt) := do
  let r ← shift_base_add st.2 (a.digit i)
  let best ← div_search b r (kBase + 1) 0 (kBase - 1) 0
  let q := st.1.setDigit i best
  if best ≠ 0 then
    let p := mul_uint_abs_no_throw b best
    if !p.1 then .error overflowMsg
    else .ok (q, sub_abs r p.2)
  else .ok (q, r)

/-- The multi-limb loop of `divmod_abs`, for `i` from `n - 1` down to `0`. -/
def divmod_big_loop (a b : BigInt) : Nat → BigInt × BigInt → Except String (BigInt × BigInt)
  | 0, st => .ok st
  | i + 1, st => do
    let st1 ← divmod_big_step a b i st
    divmod_big_loop a b i st1

/-- Static `divmod_abs(a, b)`. -/
def divmod_abs (a b : BigInt) : Except String (BigInt × BigInt) :=
  if b.len_ = 0 then .error divZeroMsg
  else if a.len_ = 0 then .ok (zero, zero)
  else
    let cmp := compare_abs a b
    if cmp < 0 then .ok (zero, a)
    else if cmp = 0 then do
      let one ← ofInt64 1
      .ok (one, zero)
    else if b.len_ = 1 then do
      let st := divmod_small_loop a (b.digit 0) a.len_ ({ zero with len_ := a.len_ }, 0)
      let r ← ofInt64 (st.2 : Int)
      .ok (trim st.1, r)
    else do
      let st ← divmod_big_loop a b a.len_ ({ zero with len_ := a.len_ }, zero)
      .ok (trim st.1, trim st.2)

/-- Static `divmod(a, b)`. -/
def divmod (a b : BigInt) : Except String (BigInt × BigInt) :=
  if b.len_ = 0 then .error divZeroMsg
  else do
    let qr ← divmod_abs { a with negative_ := false } { b with negative_ := false }
    let q := { qr.1 with negative_ := (a.negative_ != b.negative_) && !qr.1.is_zero }
    let r := { qr.2 with negative_ := a.negative_ && !qr.2.is_zero }
    .ok (normalize_zero q, normalize_zero r)

/-- Friend `operator/`. -/
def div (a b : BigInt) : Except String BigInt := (divmod a b).map Prod.fst

/-- Friend `operator%`. -/
def mod (a b : BigInt) : Except String BigInt := (divmod a b).map Prod.snd

/-- The loop of `TryToInt64`, for `i` from `n - 1` down to `0`, carrying
`acc`; `none` is the early `return false`. `limit` is at least `2^63 - 1` and a
limb is below `2^32`, so `limit - digit` does not wrap. -/
def TryToInt64_loop (x : BigInt) (limit : Nat) : Nat → Nat → Option Nat
  | 0, acc => some acc
  | i + 1, acc =>
    if acc > (limit - x.digit i) / kBase then none
    else TryToInt64_loop x limit i ((acc * kBase + x.digit i) % 2 ^ 64)

/-- Member `TryToInt64(out)`: `some v` when it returns `true` with `out = v`,
`none` when it returns `false`. -/
def TryToInt64 (x : BigInt) : Option Int :=
  if x.len_ = 0 then some 0
  else
    let limit : Nat := if x.negative_ then 2 ^ 63 - 1 + 1 else 2 ^ 63 - 1
    match TryToInt64_loop x limit x.len_ 0 with
    | none => none
    | some acc =>
      if !x.negative_ then some (acc : Int)
      else if acc = 2 ^ 63 - 1 + 1 then some (-(2 ^ 63 : Int))
      else some (-(acc : Int))

/-- The library function `std::to_string` on an unsigned value: its decimal
numeral. -/
def to_string (n : Nat) : String := Nat.repr n

/-- The loop of `ToString`, for `i` from `n - 1` down to `0`; the padding
count `kBaseDigits - part.size()` is a `std::size_t`. -/
def ToString_loop (x : BigInt) : Nat → String → String
  | 0, out => out
  | i + 1, out =>
    let part := to_string (x.digit i)
    ToString_loop x i
      ((out ++ String.mk (List.replicate ((kBaseDigits + 2 ^ 64 - part.length) % 2 ^ 64) '0'))
        ++ part)

/-- Member `ToString()`. -/
def ToString (x : BigInt) : String :=
  if x.len_ = 0 then "0"
  else
    let out := if x.negative_ then "".push '-'  else ""
    ToString_loop x (x.len_ - 1) (out ++ to_string (x.digit (x.len_ - 1)))

/-! ## BigInt: the integer denoted, and canonical form -/

/-- The number read back from a string of decimal digit characters. -/
def decimalValue (cs : List Char) : Nat :=
  cs.foldl (fun acc c => 10 * acc + (c.toNat - 48)) 0


/-- The number `f 0 + f 1 * kBase + ... + f (n-1) * kBase^(n-1)`. -/
def psum (f : Nat → Nat) : Nat → Nat
  | 0 => 0
  | n + 1 => psum f n + f n * kBase ^ n

/-- The limb a loop reads under the guard `i < len_`: `digits_[i]` below
`len_`, and `0` otherwise. -/
def limb (x : BigInt) (i : Nat) : Nat := if i < x.len_ then x.digit i else 0

/-- The magnitude denoted by the first `len_` limbs. -/
def mag (x : BigInt) : Nat := psum x.digit x.len_

/-- The integer denoted by a `BigInt`. -/
def value (x : BigInt) : Int := if x.negative_ then -(mag x : Int) else (mag x : Int)

/-- The magnitude part of canonical form: `digits_` has `kMaxDigits` entries,
`len_ <= kMaxDigits`, every live limb is below `kBase` and the top live limb
is not zero. -/
def MagOk (x : BigInt) : Prop :=
  x.digits_.length = kMaxDigits ∧ x.len_ ≤ kMaxDigits ∧
  (∀ i, i < x.len_ → x.digit i < kBase) ∧
  (0 < x.len_ → x.digit (x.len_ - 1) ≠ 0)

/-- Canonical form: the magnitude part, `len_ == 0` exactly for the value
zero, and a zero is not negative. -/
def Canonical (x : BigInt) : Prop :=
  MagOk x ∧ (x.len_ = 0 ↔ x.value = 0) ∧ (x.len_ = 0 → x.negative_ = false)

instance (x : BigInt) : Decidable (MagOk x) := by
  unfold MagOk; infer_instance

instance (x : BigInt) : Decidable (Canonical x) := by
  unfold Canonical; infer_instance

/-- The `BigInt` whose live limbs are `l`, least significant first, stored in
a zero-filled array; used to write concrete operands. -/
def ofLimbs (neg : Bool) (l : List Nat) : BigInt :=
  { negative_ := neg, len_ := l.length, digits_ := l ++ List.replicate (kMaxDigits - l.length) 0 }

/-- A 64-bit signed integer. -/
def IsInt64 (v : Int) : Prop := -(2 ^ 63 : Int) ≤ v ∧ v < (2 ^ 63 : Int)

instance (v : Int) : Decidable (IsInt64 v) := by
  unfold IsInt64; infer_instance

end BigInt

/-! ## Bytecode module and loader: data -/

/-- `enum class ConstTag : std::uint8_t`, values 1 to 4. -/
inductive ConstTag where
  | kInt | kFloat | kBool | kString
deriving DecidableEq, Repr

/-- `enum class TypeTag : std::uint8_t`, values 1 to 6. -/
inductive TypeTag where
  | kInt | kFloat | kBool | kString | kVoid | kArray
deriving DecidableEq, Repr

/-- `enum class OpCode : std::uint8_t`, values 0 to 27 in declaration order. -/
inductive OpCode where
  | kPushConst | kLoadLocal | kStoreLocal | kLoadGlobal | kStoreGlobal
  | kAdd | kSub | kMul | kDiv | kMod | kNeg
  | kEq | kNeq | kLt | kLe | kGt | kGe
  | kAnd | kOr | kNot
  | kJump | kJumpFalse | kCall | kRet
  | kNewArray | kLoadIndex | kStoreIndex | kPop
deriving DecidableEq, Repr

/-- `std::variant<std::int32_t, double, bool, std::string>`. A `double` is
represented by its 64-bit pattern (the loader and the encoder only `memcpy`
it), a `std::string` by its bytes. -/
inductive ConstValue where
  | int (v : Int)
  | float (bits : Nat)
  | bool (b : Bool)
  | string (s : List Nat)
deriving DecidableEq, Repr

structure Constant where
  tag : ConstTag
  value : ConstValue
deriving DecidableEq, Repr

structure FunctionInfo where
  name_const_index : Nat
  param_count : Nat
  local_count : Nat
  entry_ip : Nat
  return_type : TypeTag
  param_types : List TypeTag
deriving DecidableEq, Repr

structure Instruction where
  op : OpCode
  a : Nat
  b : Nat
  has_a : Bool
  has_b : Bool
deriving DecidableEq, Repr

structure BytecodeModule where
  const_pool : List Constant
  functions : List FunctionInfo
  code : List Instruction
deriving DecidableEq, Repr

/-- `static_cast<std::uint8_t>(tag)`. -/
def ConstTag.toByte : ConstTag → Nat
  | .kInt => 1 | .kFloat => 2 | .kBool => 3 | .kString => 4

/-- `static_cast<std::uint8_t>(tag)`. -/
def TypeTag.toByte : TypeTag → Nat
  | .kInt => 1 | .kFloat => 2 | .kBool => 3 | .kString => 4 | .kVoid => 5 | .kArray => 6

/-- `static_cast<std::uint8_t>(op)`. -/
def OpCode.toByte : OpCode → Nat
  | .kPushConst => 0 | .kLoadLocal => 1 | .kStoreLocal => 2 | .kLoadGlobal => 3
  | .kStoreGlobal => 4 | .kAdd => 5 | .kSub => 6 | .kMul => 7 | .kDiv => 8 | .kMod => 9
  | .kNeg => 10 | .kEq => 11 | .kNeq => 12 | .kLt => 13 | .kLe => 14 | .kGt => 15
  | .kGe => 16 | .kAnd => 17 | .kOr => 18 | .kNot => 19 | .kJump => 20 | .kJumpFalse => 21
  | .kCall => 22 | .kRet => 23 | .kNewArray => 24 | .kLoadIndex => 25 | .kStoreIndex => 26
  | .kPop => 27

/-- `static_cast<OpCode>(v)` for `v <= 27`. -/
def OpCode.ofByte : Nat → OpCode
  | 0 => .kPushConst | 1 => .kLoadLocal | 2 => .kStoreLocal | 3 => .kLoadGlobal
  | 4 => .kStoreGlobal | 5 => .kAdd | 6 => .kSub | 7 => .kMul | 8 => .kDiv | 9 => .kMod
  | 10 => .kNeg | 11 => .kEq | 12 => .kNeq | 13 => .kLt | 14 => .kLe | 15 => .kGt
  | 16 => .kGe | 17 => .kAnd | 18 => .kOr | 19 => .kNot | 20 => .kJump | 21 => .kJumpFalse
  | 22 => .kCall | 23 => .kRet | 24 => .kNewArray | 25 => .kLoadIndex | 26 => .kStoreIndex
  | _ => .kPop

/-! ## Bytecode loader: `bytecode_loader.cpp`

The input stream is the list of the bytes not yet read; a reader returns the
value read and the remaining stream. -/

def eofMsg : String := "unexpected end of file"

/-- `ReadExact(in, buffer, size)`: the `size` bytes read and the rest. -/
def ReadExact (inp : List Nat) (size : Nat) : Except String (List Nat × List Nat) :=
  if inp.length < size then .error eofMsg else .ok (inp.take size, inp.drop size)

def ReadU8 (inp : List Nat) : Except String (Nat × List Nat) := do
  let r ← ReadExact inp 1
  .ok (r.1.getD 0 0, r.2)

def ReadU16Be (inp : List Nat) : Except String (Nat × List Nat) := do
  let r ← ReadExact inp 2
  .ok (((r.1.getD 0 0 <<< 8) ||| r.1.getD 1 0) % 2 ^ 16, r.2)

def ReadU32Be (inp : List Nat) : Except String (Nat × List Nat) := do
  let r ← ReadExact inp 4
  .ok ((((r.1.getD 0 0 % 2 ^ 32) <<< 24) % 2 ^ 32 ||| ((r.1.getD 1 0 % 2 ^ 32) <<< 16) % 2 ^ 32 |||
    ((r.1.getD 2 0 % 2 ^ 32) <<< 8) % 2 ^ 32 ||| r.1.getD 3 0 % 2 ^ 32), r.2)

/-- `static_cast<std::int32_t>` of a 32-bit unsigned value. -/
def toInt32 (u : Nat) : Int := if u % 2 ^ 32 < 2 ^ 31 then (u % 2 ^ 32 : Nat) else ((u % 2 ^ 32 : Nat) : Int) - 2 ^ 32

def ReadI32Be (inp : List Nat) : Except String (Int × List Nat) := do
  let r ← ReadU32Be inp
  .ok (toInt32 r.1, r.2)

/-- `ReadF64Be`: the 64-bit pattern copied into the `double`. -/
def ReadF64Be (inp : List Nat) : Except String (Nat × List Nat) := do
  let r ← ReadExact inp 8
  .ok ((((r.1.getD 0 0 <<< 56) % 2 ^ 64) ||| ((r.1.getD 1 0 <<< 48) % 2 ^ 64) |||
    ((r.1.getD 2 0 <<< 40) % 2 ^ 64) ||| ((r.1.getD 3 0 <<< 32) % 2 ^ 64) |||
    ((r.1.getD 4 0 <<< 24) % 2 ^ 64) ||| ((r.1.getD 5 0 <<< 16) % 2 ^ 64) |||
    ((r.1.getD 6 0 <<< 8) % 2 ^ 64) ||| (r.1.getD 7 0 % 2 ^ 64)), r.2)

def ReadStringBe (inp : List Nat) : Except String (List Nat × List Nat) := do
  let r ← ReadU32Be inp
  if r.1 > 0 then ReadExact r.2 r.1
  else .ok ([], r.2)

def ConstTagFromByte (v : Nat) : Except String ConstTag :=
  match v with
  | 1 => .ok .kInt
  | 2 => .ok .kFloat
  | 3 => .ok .kBool
  | 4 => .ok .kString
  | _ => .error "invalid const tag"

def TypeTagFromByte (v : Nat) : Except String TypeTag :=
  match v with
  | 1 => .ok .kInt
  | 2 => .ok .kFloat
  | 3 => .ok .kBool
  | 4 => .ok .kString
  | 5 => .ok .kVoid
  | 6 => .ok .kArray
  | _ => .error "invalid type tag"

def OpCodeFromByte (v : Nat) : Except String OpCode :=
  if v > OpCode.kPop.toByte then .error "invalid opcode" else .ok (OpCode.ofByte v)

/-- The check `ValidateModule` makes on one instruction. -/
def validate_instruction (const_count func_count code_size : Nat) (ins : Instruction) :
    Except String Unit :=
  match ins.op with
  | .kPushConst =>
    if !ins.has_a || decide (ins.a ≥ const_count) then .error "invalid constIndex in PUSH_CONST"
    else .ok ()
  | .kLoadGlobal | .kStoreGlobal =>
    if !ins.has_a || decide (ins.a ≥ const_count) then
      .error "invalid name constIndex in LOAD/STORE_GLOBAL"
    else .ok ()
  | .kCall =>
    if !ins.has_a || !ins.has_b || decide (ins.a ≥ func_count) then
      .error "invalid funcIndex in CALL"
    else .ok ()
  | .kJump | .kJumpFalse =>
    if !ins.has_a || decide (ins.a ≥ code_size) then .error "invalid jump target"
    else .ok ()
  | _ => .ok ()

/-- The first loop of `ValidateModule`, over the instructions in order. -/
def validate_code (const_count func_count code_size : Nat) : List Instruction → Except String Unit
  | [] => .ok ()
  | ins :: rest => do
    validate_instruction const_count func_count code_size ins
    validate_code const_count func_count code_size rest

/-- The second loop of `ValidateModule`, over the functions in order. -/
def validate_functions (const_count : Nat) : List FunctionInfo → Except String Unit
  | [] => .ok ()
  | f :: rest =>
    if f.name_const_index ≥ const_count then .error "function nameConstIndex out of range"
    else validate_functions const_count rest

def ValidateModule (m : BytecodeModule) : Except String Unit := do
  validate_code m.const_pool.length m.functions.length m.code.length m.code
  validate_functions m.const_pool.length m.functions

/-- The body of the constants loop of `load_frogc`: one constant. -/
def read_constant (inp : List Nat) : Except String (Constant × List Nat) := do
  let t ← ReadU8 inp
  let tag ← ConstTagFromByte t.1
  match tag with
  | .kInt => do
    let r ← ReadI32Be t.2
    .ok ({ tag := tag, value := .int r.1 }, r.2)
  | .kFloat => do
    let r ← ReadF64Be t.2
    .ok ({ tag := tag, value := .float r.1 }, r.2)
  | .kBool => do
    let r ← ReadU8 t.2
    .ok ({ tag := tag, value := .bool (decide (r.1 ≠ 0)) }, r.2)
  | .kString => do
    let r ← ReadStringBe t.2
    .ok ({ tag := tag, value := .string r.1 }, r.2)

/-- The constants loop of `load_frogc`, with `n` rounds left; `acc` is
`m.const_pool`. -/
def read_constants : Nat → List Nat → List Constant → Except String (List Constant × List Nat)
  | 0, inp, acc => .ok (acc, inp)
  | n + 1, inp, acc => do
    let r ← read_constant inp
    read_constants n r.2 (acc ++ [r.1])

/-- The parameter-type loop of `load_frogc`, with `n` rounds left. -/
def read_param_types : Nat → List Nat → List TypeTag → Except String (List TypeTag × List Nat)
  | 0, inp, acc => .ok (acc, inp)
  | n + 1, inp, acc => do
    let r ← ReadU8 inp
    let t ← TypeTagFromByte r.1
    read_param_types n r.2 (acc ++ [t])

/-- The body of the functions loop of `load_frogc`: one descriptor. -/
def read_function (inp : List Nat) : Except String (FunctionInfo × List Nat) := do
  let r1 ← ReadU32Be inp
  let r2 ← ReadU16Be r1.2
  let r3 ← ReadU16Be r2.2
  let r4 ← ReadU32Be r3.2
  let r5 ← ReadU8 r4.2
  let ret ← TypeTagFromByte r5.1
  let r6 ← read_param_types r2.1 r5.2 []
  .ok ({ name_const_index := r1.1, param_count := r2.1, local_count := r3.1, entry_ip := r4.1,
         return_type := ret, param_types := r6.1 }, r6.2)

/-- The functions loop of `load_frogc`, with `n` rounds left. -/
def read_functions : Nat → List Nat → List FunctionInfo →
    Except String (List FunctionInfo × List Nat)
  | 0, inp, acc => .ok (acc, inp)
  | n + 1, inp, acc => do
    let r ← read_function inp
    read_functions n r.2 (acc ++ [r.1])

/-- The body of the code loop of `load_frogc`: one instruction. -/
def read_instruction (inp : List Nat) : Except String (Instruction × List Nat) := do
  let r1 ← ReadU8 inp
  let op ← OpCodeFromByte r1.1
  let r2 ← ReadU8 r1.2
  let has_a := decide ((r2.1 &&& 1) ≠ 0)
  let has_b := decide ((r2.1 &&& 2) ≠ 0)
  let ra ← if has_a then ReadU32Be r2.2 else .ok (0, r2.2)
  let rb ← if has_b then ReadU16Be ra.2 else .ok (0, ra.2)
  .ok ({ op := op, a := ra.1, b := rb.1, has_a := has_a, has_b := has_b }, rb.2)

/-- The code loop of `load_frogc`, with `n` rounds left. -/
def read_code : Nat → List Nat → List Instruction → Except String (List Instruction × List Nat)
  | 0, inp, acc => .ok (acc, inp)
  | n + 1, inp, acc => do
    let r ← read_instruction inp
    read_code n r.2 (acc ++ [r.1])

/-- The memory that the process can get, as `load_frogc` meets it:
`reserves cc fc cs` says whether the three calls `m.const_pool.reserve(cc)`,
`m.functions.reserve(fc)` and `m.code.reserve(cs)`, which come before the
first constant is read, all return. The counts are below 2^32, which on a
64-bit target is below `max_size()` of the three vectors, so that a call which
does not return throws `std::bad_alloc`. -/
structure Memory where
  reserves : Nat → Nat → Nat → Bool

/-- A memory in which every `reserve` of the loader returns. -/
def Memory.ample : Memory := { reserves := fun _ _ _ => true }

/-- A memory with room for `n` items in the three vectors together. -/
def Memory.ofItems (n : Nat) : Memory := { reserves := fun cc fc cs => decide (cc + fc + cs ≤ n) }

/-- Reported where a `reserve` of the loader does not return: it throws
`std::bad_alloc`, whose `what()` this is in libstdc++. -/
def badAllocMsg : String := "std::bad_alloc"

/-- The reads of `load_frogc`, from the magic to the last instruction, with
the three `reserve` calls that follow the reading of the counts: the module
`m` as it stands when `ValidateModule(m)` is called, and the bytes of the file
left unread at that point. -/
def decode_frogc (mem : Memory) (file : List Nat) :
    Except String (BytecodeModule × List Nat) := do
  let magic ← ReadExact file 4
  if magic.1.getD 0 0 ≠ 70 ∨ magic.1.getD 1 0 ≠ 82 ∨ magic.1.getD 2 0 ≠ 79 ∨
      magic.1.getD 3 0 ≠ 71 then .error "bad magic"
  else do
    let version ← ReadU16Be magic.2
    if version.1 ≠ 1 then .error "unsupported version"
    else do
      let const_count ← ReadU32Be version.2
      let func_count ← ReadU32Be const_count.2
      let code_size ← ReadU32Be func_count.2
      if mem.reserves const_count.1 func_count.1 code_size.1 = false then .error badAllocMsg
      else do
        let consts ← read_constants const_count.1 code_size.2 []
        let funcs ← read_functions func_count.1 consts.2 []
        let code ← read_code code_size.1 funcs.2 []
        .ok ({ const_pool := consts.1, functions := funcs.1, code := code.1 }, code.2)

/-- `load_frogc` on the contents of the file, in the memory `mem` (an
existing file; opening it is not modelled): the reads, then
`ValidateModule(m); return m;`. Of what the loader allocates, the three
`reserve` calls for the counts of the header are modelled; the `resize(len)`
of `ReadStringBe`, the `reserve(param_count)` of a function's parameter types
and the buffers of the stream and of the messages are taken to find their
memory. -/
def load_frogc (mem : Memory) (file : List Nat) : Except String BytecodeModule := do
  let r ← decode_frogc mem file
  ValidateModule r.1
  .ok r.1

/-! ## The encoder of the loader tests: `EncodeModule` of
`bytecode_loader_test.cpp` -/

def AppendU16 (out : List Nat) (value : Nat) : List Nat :=
  out ++ [((value >>> 8) &&& 0xFF) % 2 ^ 8, (value &&& 0xFF) % 2 ^ 8]

def AppendU32 (out : List Nat) (value : Nat) : List Nat :=
  out ++ [((value >>> 24) &&& 0xFF) % 2 ^ 8, ((value >>> 16) &&& 0xFF) % 2 ^ 8,
    ((value >>> 8) &&& 0xFF) % 2 ^ 8, (value &&& 0xFF) % 2 ^ 8]

/-- `AppendF64`: `tmp` is the 64-bit pattern of the `double`; the loop runs
over `shift = 56, 48, ..., 0`. -/
def AppendF64 (out : List Nat) (tmp : Nat) : List Nat :=
  [56, 48, 40, 32, 24, 16, 8, 0].foldl
    (fun o shift => o ++ [((tmp >>> shift) &&& 0xFF) % 2 ^ 8]) out

def AppendString (out : List Nat) (value : List Nat) : List Nat :=
  AppendU32 out (value.length % 2 ^ 32) ++ value

/-- `static_cast<std::uint32_t>` of a 32-bit signed value. -/
def ofInt32 (v : Int) : Nat := (v % 2 ^ 32).toNat

/-- Message of `std::bad_variant_access`, thrown by `std::get` when the
variant holds another alternative than the tag says. -/
def badVariantMsg : String := "bad variant access"

/-- The body of the constants loop of `EncodeModule`. -/
def encode_constant (out : List Nat) (c : Constant) : Except String (List Nat) :=
  let out1 := out ++ [c.tag.toByte]
  match c.tag, c.value with
  | .kInt, .int v => .ok (AppendU32 out1 (ofInt32 v))
  | .kFloat, .float bits => .ok (AppendF64 out1 bits)
  | .kBool, .bool b => .ok (out1 ++ [if b then 1 else 0])
  | .kString, .string s => .ok (AppendString out1 s)
  | _, _ => .error badVariantMsg

/-- The body of the functions loop of `EncodeModule`. -/
def encode_function (out : List Nat) (f : FunctionInfo) : List Nat :=
  let out1 := AppendU32 out f.name_const_index
  let out2 := AppendU16 out1 f.param_count
  let out3 := AppendU16 out2 f.local_count
  let out4 := AppendU32 out3 f.entry_ip
  let out5 := out4 ++ [f.return_type.toByte]
  f.param_types.foldl (fun o pt => o ++ [pt.toByte]) out5

/-- The body of the code loop of `EncodeModule`. -/
def encode_instruction (out : List Nat) (ins : Instruction) : List Nat :=
  let out1 := out ++ [ins.op.toByte]
  let flags0 : Nat := 0
  let flags1 := if ins.has_a then flags0 ||| 1 else flags0
  let flags := if ins.has_b then flags1 ||| 2 else flags1
  let out2 := out1 ++ [flags]
  let out3 := if ins.has_a then AppendU32 out2 ins.a else out2
  if ins.has_b then AppendU16 out3 ins.b else out3

/-- `EncodeModule(module, version).bytes`. -/
def EncodeModule (module : BytecodeModule) (version : Nat) : Except String (List Nat) := do
  let out0 : List Nat := [70, 82, 79, 71]
  let out1 := AppendU16 out0 version
  let out2 := AppendU32 out1 (module.const_pool.length % 2 ^ 32)
  let out3 := AppendU32 out2 (module.functions.length % 2 ^ 32)
  let out4 := AppendU32 out3 (module.code.length % 2 ^ 32)
  let out5 ← module.const_pool.foldlM encode_constant out4
  let out6 := module.functions.foldl encode_function out5
  .ok (module.code.foldl encode_instruction out6)

/-! ## Well-typed modules -/

/-- The payload lies in the range of its C++ type and the tag names the
alternative the variant holds. -/
def Constant.WellTyped (c : Constant) : Prop :=
  match c.value with
  | .int v => -(2 ^ 31 : Int) ≤ v ∧ v < 2 ^ 31
  | .float bits => bits < 2 ^ 64
  | .bool _ => True
  | .string s => ∀ x ∈ s, x < 2 ^ 8

instance (c : Constant) : Decidable c.WellTyped := by
  unfold Constant.WellTyped
  cases c.value <;> infer_instance

/-- The byte count of a string constant, `0` for the other constants. -/
def Constant.byteCount (c : Constant) : Nat :=
  match c.value with
  | .string s => s.length
  | _ => 0

/-- The fields lie in the ranges of their C++ types. -/
def FunctionInfo.WellTyped (f : FunctionInfo) : Prop :=
  f.name_const_index < 2 ^ 32 ∧ f.param_count < 2 ^ 16 ∧ f.local_count < 2 ^ 16 ∧
  f.entry_ip < 2 ^ 32

instance (f : FunctionInfo) : Decidable f.WellTyped := by
  unfold FunctionInfo.WellTyped; infer_instance

/-- The fields lie in the ranges of their C++ types. -/
def Instruction.WellTyped (ins : Instruction) : Prop :=
  ins.a < 2 ^ 32 ∧ ins.b < 2 ^ 16

instance (ins : Instruction) : Decidable ins.WellTyped := by
  unfold Instruction.WellTyped; infer_instance

/-- Every field of the module lies in the range of its C++ type. -/
def BytecodeModule.WellTyped (m : BytecodeModule) : Prop :=
  (∀ c ∈ m.const_pool, c.WellTyped) ∧ (∀ f ∈ m.functions, f.WellTyped) ∧
  (∀ ins ∈ m.code, ins.WellTyped)

instance (m : BytecodeModule) : Decidable m.WellTyped := by
  unfold BytecodeModule.WellTyped; infer_instance

/-- The counts the format stores in 32 bits fit in 32 bits: the numbers of
constants, functions and instructions, and the byte count of every string
constant. -/
def BytecodeModule.CountsFit (m : BytecodeModule) : Prop :=
  m.const_pool.length < 2 ^ 32 ∧ m.functions.length < 2 ^ 32 ∧ m.code.length < 2 ^ 32 ∧
  (∀ c ∈ m.const_pool, c.byteCount < 2 ^ 32)

instance (m : BytecodeModule) : Decidable m.CountsFit := by
  unfold BytecodeModule.CountsFit; infer_instance

/-- Every function carries exactly `param_count` parameter types. -/
def BytecodeModule.ParamsMatch (m : BytecodeModule) : Prop :=
  ∀ f ∈ m.functions, f.param_types.length = f.param_count

instance (m : BytecodeModule) : Decidable m.ParamsMatch := by
  unfold BytecodeModule.ParamsMatch; infer_instance

/-- An operand whose presence flag is off is zero. -/
def BytecodeModule.AbsentOperandsZero (m : BytecodeModule) : Prop :=
  ∀ ins ∈ m.code, (ins.has_a = false → ins.a = 0) ∧ (ins.has_b = false → ins.b = 0)

instance (m : BytecodeModule) : Decidable m.AbsentOperandsZero := by
  unfold BytecodeModule.AbsentOperandsZero; infer_instance

/-- `MakeInstruction(op, a, b)` of the loader tests. -/
def MakeInstruction (op : OpCode) (a : Option Nat) (b : Option Nat) : Instruction :=
  { op := op, a := a.getD 0, b := b.getD 0, has_a := a.isSome, has_b := b.isSome }

/-- `MakeBaselineModule()` of the loader tests; the bytes of the strings are
"main", "helper", "msg" and the `double` is 3.5. -/
def MakeBaselineModule : BytecodeModule :=
  { const_pool := [
      { tag := .kString, value := .string [109, 97, 105, 110] },
      { tag := .kString, value := .string [104, 101, 108, 112, 101, 114] },
      { tag := .kString, value := .string [109, 115, 103] },
      { tag := .kInt, value := .int 42 },
      { tag := .kFloat, value := .float 4615063718147915776 },
      { tag := .kBool, value := .bool true }],
    functions := [
      { name_const_index := 0, param_count := 2, local_count := 2, entry_ip := 0,
        return_type := .kString, param_types := [.kInt, .kBool] },
      { name_const_index := 1, param_count := 1, local_count := 1, entry_ip := 3,
        return_type := .kVoid, param_types := [.kFloat] }],
    code := [
      MakeInstruction .kPushConst (some 3) none,
      MakeInstruction .kLoadGlobal (some 2) none,
      MakeInstruction .kCall (some 1) (some 1),
      MakeInstruction .kJumpFalse (some 6) none,
      MakeInstruction .kStoreGlobal (some 2) none,
      MakeInstruction .kPop none none,
      MakeInstruction .kPushConst (some 5) none] }

/-! ## Loader: readers that take from the front of the stream -/

/-- A reader takes what it reads from the front of the stream only: on a
longer stream it reads the same value and leaves the added bytes unread, and
where it fails it fails with "unexpected end of file" or fails in the same way
however the stream is continued. -/
def FrontReader {α : Type} (R : List Nat → Except String (α × List Nat)) : Prop :=
  (∀ inp v rest, R inp = .ok (v, rest) → ∀ ext, R (inp ++ ext) = .ok (v, rest ++ ext)) ∧
  (∀ inp e, R inp = .error e → e = eofMsg ∨ ∀ ext, R (inp ++ ext) = .error e)

/-- The 41 bytes of `kHelloModule` in `real_file_test.cpp`: the constants
`"x"` and `70`, no function, and the code `PUSH_CONST 1; STORE_GLOBAL 0`. -/
def kHelloModule : List Nat :=
  [0x46, 0x52, 0x4F, 0x47, 0x00, 0x01, 0x00, 0x00, 0x00, 0x02,
   0x00, 0x00, 0x00, 0x00, 0x00, 0x00, 0x00, 0x02, 0x04, 0x00,
   0x00, 0x00, 0x01, 0x78, 0x01, 0x00, 0x00, 0x00, 0x46, 0x00,
   0x01, 0x00, 0x00, 0x00, 0x01, 0x04, 0x01, 0x00, 0x00, 0x00,
   0x00]

/-! ## Loader: headers, validation rules and opcode order -/

/-- The 18 bytes with which the tests' `EncodeModule` starts a version-1 file
announcing `cc` constants, `fc` functions and `cs` instructions. -/
def frogcHeader (cc fc cs : Nat) : List Nat :=
  AppendU32 (AppendU32 (AppendU32 (AppendU16 [70, 82, 79, 71] 1) cc) fc) cs

/-- Following the statement of the validation rules: the instruction is a
PUSH_CONST, LOAD_GLOBAL or STORE_GLOBAL without operand `a` or with `a` not
below the number of constants, or a CALL without operand `a` or `b` or with
`a` not below the number of functions, or a JUMP or JUMP_FALSE without operand
`a` or with `a` not below the number of instructions. -/
def Instruction.BreaksRule (const_count func_count code_size : Nat) (ins : Instruction) : Prop :=
  ((ins.op = .kPushConst ∨ ins.op = .kLoadGlobal ∨ ins.op = .kStoreGlobal) ∧
    (ins.has_a = false ∨ ins.a ≥ const_count)) ∨
  (ins.op = .kCall ∧ (ins.has_a = false ∨ ins.has_b = false ∨ ins.a ≥ func_count)) ∨
  ((ins.op = .kJump ∨ ins.op = .kJumpFalse) ∧ (ins.has_a = false ∨ ins.a ≥ code_size))

instance (cc fc cs : Nat) (ins : Instruction) : Decidable (ins.BreaksRule cc fc cs) := by
  unfold Instruction.BreaksRule
  infer_instance

/-- The opcodes in the order of the opcode table of the specification, §4.5:
PUSH_CONST, POP, LOAD_LOCAL, STORE_LOCAL, LOAD_GLOBAL, STORE_GLOBAL, ADD, SUB,
MUL, DIV, MOD, NEG, EQ, NEQ, LT, LE, GT, GE, AND, OR, NOT, JUMP, JUMP_FALSE,
CALL, RET, NEW_ARRAY, LOAD_INDEX, STORE_INDEX. -/
def specOpcodeTable : List OpCode :=
  [.kPushConst, .kPop, .kLoadLocal, .kStoreLocal, .kLoadGlobal, .kStoreGlobal,
   .kAdd, .kSub, .kMul, .kDiv, .kMod, .kNeg, .kEq, .kNeq, .kLt, .kLe, .kGt, .kGe,
   .kAnd, .kOr, .kNot, .kJump, .kJumpFalse, .kCall, .kRet,
   .kNewArray, .kLoadIndex, .kStoreIndex]

/-- The enumerators of `enum class OpCode` in the order of their declaration
in `bytecode_module.h`. -/
def OpCode.declOrder : List OpCode :=
  [.kPushConst, .kLoadLocal, .kStoreLocal, .kLoadGlobal, .kStoreGlobal,
   .kAdd, .kSub, .kMul, .kDiv, .kMod, .kNeg, .kEq, .kNeq, .kLt, .kLe, .kGt, .kGe,
   .kAnd, .kOr, .kNot, .kJump, .kJumpFalse, .kCall, .kRet,
   .kNewArray, .kLoadIndex, .kStoreIndex, .kPop]

/-! ## Values, heap objects and the collector -/

/-- `enum class ValueTag : std::uint8_t`. -/
inductive ValueTag where
  | kNull | kInt | kFloat | kBool | kString | kArray
deriving DecidableEq, Repr

/-- A `Value` as the factory functions of `value.h` build it, the tag naming
the alternative that `storage` holds: `Null()`, `FromInt`, `FromFloat` (the
double as its 64-bit pattern), `FromBool`, and `FromRaw(p, kString)`,
`FromRaw(p, kArray)`, the only two tags `FromRaw` is called with. A pointer is
an address, 0 for `nullptr`. -/
inductive Value where
  | null
  | int (v : BigInt)
  | float (bits : Nat)
  | bool (b : Bool)
  | string (p : Nat)
  | array (p : Nat)
deriving DecidableEq, Repr

/-- Member `tag`. -/
def Value.tag : Value → ValueTag
  | .null => .kNull
  | .int _ => .kInt
  | .float _ => .kFloat
  | .bool _ => .kBool
  | .string _ => .kString
  | .array _ => .kArray

/-- `std::get<HeapObject*>(v.storage)` for a value tagged `kString` or
`kArray`; no pointer is held under another tag. -/
def Value.pointer : Value → Option Nat
  | .string p => some p
  | .array p => some p
  | _ => none

/-- `enum class ObjectKind : std::uint8_t`. -/
inductive ObjectKind where
  | kString | kArray
deriving DecidableEq, Repr

/-- A `HeapObject` with the members of its two final subclasses side by side:
`value` of a `StringObject` (its bytes) and `elements` of an `ArrayObject`;
the member that the kind does not have is empty. -/
structure HeapObject where
  kind : ObjectKind
  marked : Bool
  size_bytes : Nat
  value : List Nat
  elements : List Value
deriving DecidableEq, Repr

/-- `class Heap`. The vector `objects_` of owning pointers is the list of the
addresses, each with the object it points to; there are no other objects. -/
structure Heap where
  objects_ : List (Nat × HeapObject)
  heap_bytes_ : Nat
  threshold_ : Nat
deriving DecidableEq, Repr

namespace Heap

/-- Result of `Heap() = default`. -/
def init : Heap := { objects_ := [], heap_bytes_ := 0, threshold_ := 1024 * 1024 }

/-- Reported where the code goes through a non-null pointer that points to no
object of the heap, which C++ leaves undefined. -/
def danglingMsg : String := "<pointer to no object of the heap>"

/-- The object `*p`. -/
def deref (objects : List (Nat × HeapObject)) (p : Nat) : Option HeapObject :=
  (objects.find? (fun o => o.1 = p)).map Prod.snd

/-- Assignment `p->marked = b`. -/
def setMarked (objects : List (Nat × HeapObject)) (p : Nat) (b : Bool) :
    List (Nat × HeapObject) :=
  objects.map (fun o => if o.1 = p then (o.1, { o.2 with marked := b }) else o)

/-- The objects, the local `worklist` of `MarkFromRoots` (its back first) and
its `marked_count`. -/
structure MarkState where
  objects : List (Nat × HeapObject)
  worklist : List Nat
  marked_count : Nat
deriving DecidableEq, Repr

def MarkValue (st : MarkState) (v : Value) : Except String MarkState :=
  if v.tag ≠ .kString ∧ v.tag ≠ .kArray then .ok st
  else
    match v.pointer with
    | none => .ok st
    | some p =>
      if p = 0 then .ok st
      else
        match deref st.objects p with
        | none => .error danglingMsg
        | some obj =>
          if obj.marked then .ok st
          else .ok { objects := setMarked st.objects p true, worklist := p :: st.worklist,
                     marked_count := st.marked_count + 1 }

/-- The `while (!worklist.empty())` loop of `MarkFromRoots`, with `fuel`
rounds allowed. -/
def mark_loop : Nat → MarkState → Except String MarkState
  | 0, _ => .error fuelMsg
  | fuel + 1, st =>
    match st.worklist with
    | [] => .ok st
    | p :: rest =>
      match deref st.objects p with
      | none => .error danglingMsg
      | some obj =>
        if obj.kind = .kArray then do
          let st2 ← obj.elements.foldlM MarkValue { st with worklist := rest }
          mark_loop fuel st2
        else mark_loop fuel { st with worklist := rest }

/-- `MarkFromRoots`; `roots` lists the values that the roots enumerator hands
to its visitor, in order. The loop is given one round per object and one
more. -/
def MarkFromRoots (objects : List (Nat × HeapObject)) (roots : List Value) :
    Except String MarkState := do
  let st ← roots.foldlM MarkValue { objects := objects, worklist := [], marked_count := 0 }
  mark_loop (objects.length + 1) st

/-- State of the loop of `Sweep`: the slots `objects_[0..write)` written so
far, `heap_bytes_`, `freed_count`, and the pointers passed to `delete`, in
order. -/
structure SweepState where
  kept : List (Nat × HeapObject)
  heap_bytes_ : Nat
  freed_count : Nat
  deleted : List Nat
deriving DecidableEq, Repr

/-- One round of the loop of `Sweep`; `heap_bytes_` is a `std::size_t`. -/
def Sweep_step (st : SweepState) (o : Nat × HeapObject) : SweepState :=
  if !o.2.marked then
    { st with heap_bytes_ := (st.heap_bytes_ + 2 ^ 64 - o.2.size_bytes % 2 ^ 64) % 2 ^ 64,
              freed_count := st.freed_count + 1,
              deleted := st.deleted ++ [o.1] }
  else { st with kept := st.kept ++ [(o.1, { o.2 with marked := false })] }

def Sweep (h : Heap) : SweepState :=
  h.objects_.foldl Sweep_step
    { kept := [], heap_bytes_ := h.heap_bytes_, freed_count := 0, deleted := [] }

/-- What a run of `Collect` leaves: the heap, the two counters it logs, and
the pointers it passed to `delete`. -/
structure Collected where
  heap : Heap
  marked_count : Nat
  freed_count : Nat
  deleted : List Nat
deriving DecidableEq, Repr

def Collect (h : Heap) (roots : List Value) : Except String Collected := do
  let cleared := h.objects_.map (fun o => (o.1, { o.2 with marked := false }))
  let st ← MarkFromRoots cleared roots
  let sw := Sweep { h with objects_ := st.objects }
  .ok { heap := { objects_ := sw.kept, heap_bytes_ := sw.heap_bytes_, threshold_ := h.threshold_ },
        marked_count := st.marked_count, freed_count := sw.freed_count, deleted := sw.deleted }

def MaybeCollect (h : Heap) (upcoming_bytes : Nat) (roots : List Value) : Except String Heap :=
  if (h.heap_bytes_ + upcoming_bytes) % 2 ^ 64 > h.threshold_ then do
    let c ← Collect h roots
    .ok { c.heap with
          threshold_ := max ((c.heap.threshold_ * 2) % 2 ^ 64) ((c.heap.heap_bytes_ * 2) % 2 ^ 64) }
  else .ok h

end Heap

/-- What the code takes from the platform: `sizeof(StringObject)`,
`sizeof(ArrayObject)`, `sizeof(Value)`, and the address that `new` returns
when the given addresses are in use. -/
structure Platform where
  sizeofStringObject : Nat
  sizeofArrayObject : Nat
  sizeofValue : Nat
  newAddr : List Nat → Nat

/-- `new` returns a non-null address that is not in use. -/
def Platform.Sound (P : Platform) : Prop :=
  ∀ used, P.newAddr used ≠ 0 ∧ P.newAddr used ∉ used

namespace Heap

/-- `AllocateString`: the pointer returned and the heap; memory is taken to be
at hand. -/
def AllocateString (P : Platform) (h : Heap) (s : List Nat) (roots : List Value) :
    Except String (Nat × Heap) := do
  let estimate := (P.sizeofStringObject + s.length) % 2 ^ 64
  let h1 ← MaybeCollect h estimate roots
  let obj := P.newAddr (h1.objects_.map Prod.fst)
  .ok (obj, { h1 with
    objects_ := h1.objects_ ++
      [(obj, { kind := .kString, marked := false, size_bytes := estimate, value := s,
               elements := [] })],
    heap_bytes_ := (h1.heap_bytes_ + estimate) % 2 ^ 64 })

/-- `AllocateArray`: the pointer returned and the heap; memory is taken to be
at hand. -/
def AllocateArray (P : Platform) (h : Heap) (length : Nat) (roots : List Value) :
    Except String (Nat × Heap) := do
  let estimate := (P.sizeofArrayObject + (P.sizeofValue * length) % 2 ^ 64) % 2 ^ 64
  let h1 ← MaybeCollect h estimate roots
  let obj := P.newAddr (h1.objects_.map Prod.fst)
  .ok (obj, { h1 with
    objects_ := h1.objects_ ++
      [(obj, { kind := .kArray, marked := false, size_bytes := estimate, value := [],
               elements := List.replicate length Value.null })],
    heap_bytes_ := (h1.heap_bytes_ + estimate) % 2 ^ 64 })

/-- The addresses in `objects_`. -/
def addrs (h : Heap) : List Nat := h.objects_.map Prod.fst

/-- The pointers of the heap are pairwise distinct and none is null. -/
def Wf (h : Heap) : Prop := h.addrs.Nodup ∧ 0 ∉ h.addrs

/-- The pointer that the value holds, if it holds one, is null or one of
`addrs`. -/
def PointsInto (addrs : List Nat) (v : Value) : Prop :=
  match v.pointer with
  | none => True
  | some p => p = 0 ∨ p ∈ addrs

instance (addrs : List Nat) (v : Value) : Decidable (PointsInto addrs v) := by
  unfold PointsInto
  split <;> infer_instance

/-- Every pointer held by a root or by an element of an array of the heap is
null or points to an object of the heap. -/
def Closed (h : Heap) (roots : List Value) : Prop :=
  (∀ v ∈ roots, PointsInto h.addrs v) ∧
  (∀ o ∈ h.objects_, o.2.kind = .kArray → ∀ v ∈ o.2.elements, PointsInto h.addrs v)

instance (h : Heap) (roots : List Value) : Decidable (Closed h roots) := by
  unfold Closed
  infer_instance

instance (h : Heap) : Decidable (Wf h) := by
  unfold Wf
  infer_instance

/-- The object at `p` is reachable from a root value by following array
elements: a root holds the non-null pointer `p`, or an element of a reachable
array of the heap does. -/
inductive Reachable (h : Heap) (roots : List Value) : Nat → Prop where
  | root (v : Value) (p : Nat) : v ∈ roots → v.pointer = some p → p ≠ 0 → Reachable h roots p
  | elem (q : Nat) (o : HeapObject) (v : Value) (p : Nat) : Reachable h roots q →
      (q, o) ∈ h.objects_ → o.kind = .kArray → v ∈ o.elements → v.pointer = some p → p ≠ 0 →
      Reachable h roots p

end Heap

/-! ## Heap: notions used to state the collector's properties -/

namespace Heap

/-- The object with its mark bit cleared. -/
def unmark (o : Nat × HeapObject) : Nat × HeapObject := (o.1, { o.2 with marked := false })

/-- The object at `p` has its mark bit set. -/
def IsMarked (objects : List (Nat × HeapObject)) (p : Nat) : Prop :=
  ∃ o, deref objects p = some o ∧ o.marked = true

/-- Number of objects whose mark bit is clear. -/
def unmarkedCount (objects : List (Nat × HeapObject)) : Nat :=
  (objects.filter (fun o => !o.2.marked)).length

/-- What marking does between two states of `MarkFromRoots`, `N` naming the
pointers handed to `MarkValue` in between. -/
structure MarkStep (st st1 : MarkState) (N : Nat → Prop) : Prop where
  shape : st1.objects.map unmark = st.objects.map unmark
  marked : ∀ q, IsMarked st1.objects q ↔ IsMarked st.objects q ∨ N q
  pushed : ∃ new, st1.worklist = new ++ st.worklist ∧ ∀ q ∈ new, ¬ IsMarked st.objects q ∧ N q
  fresh : ∀ q, IsMarked st1.objects q → ¬ IsMarked st.objects q → q ∈ st1.worklist
  measure : st1.worklist.length + unmarkedCount st1.objects ≤
    st.worklist.length + unmarkedCount st.objects
  count : st1.marked_count + unmarkedCount st1.objects =
    st.marked_count + unmarkedCount st.objects

/-- The invariant of the loop of `MarkFromRoots` on the heap `h`. -/
structure MarkInv (h : Heap) (roots : List Value) (st : MarkState) : Prop where
  shape : st.objects.map unmark = h.objects_.map unmark
  wl_marked : ∀ p ∈ st.worklist, IsMarked st.objects p
  sound : ∀ p, IsMarked st.objects p → Reachable h roots p
  roots : ∀ v ∈ roots, ∀ p, v.pointer = some p → p ≠ 0 → IsMarked st.objects p
  closed : ∀ q, IsMarked st.objects q → q ∉ st.worklist → ∀ o v p, (q, o) ∈ h.objects_ →
    o.kind = .kArray → v ∈ o.elements → v.pointer = some p → p ≠ 0 → IsMarked st.objects p

/-- The counter `heap_bytes_` after the sizes of the objects `del` have been
subtracted from it, one by one, in `std::size_t` arithmetic. -/
def sweptBytes (hb : Nat) (del : List (Nat × HeapObject)) : Nat :=
  del.foldl (fun b o => (b + 2 ^ 64 - o.2.size_bytes % 2 ^ 64) % 2 ^ 64) hb

/-- Sum of `size_bytes` over a list of objects. -/
def sumSizes (objs : List (Nat × HeapObject)) : Nat := (objs.map (fun o => o.2.size_bytes)).sum

end Heap

/-- The sizes under the x86-64 System V ABI with libstdc++, and an allocator
that hands out the address after the highest one in use. -/
def lp64 : Platform :=
  { sizeofStringObject := 56, sizeofArrayObject := 48, sizeofValue := 104,
    newAddr := fun used => used.foldl max 0 + 1 }

/-- The heap of the test `GarbageCollectorTraversesArrays` before its large
allocation: the string "nested", an array of one element that holds it, and the
string "discard". -/
def sampleHeap : Heap :=
  { objects_ :=
      [(1, { kind := .kString, marked := false, size_bytes := 62,
             value := [110, 101, 115, 116, 101, 100], elements := [] }),
       (2, { kind := .kArray, marked := false, size_bytes := 152, value := [],
             elements := [Value.string 1] }),
       (3, { kind := .kString, marked := false, size_bytes := 63,
             value := [100, 105, 115, 99, 97, 114, 100], elements := [] })],
    heap_bytes_ := 277,
    threshold_ := 1024 * 1024 }

/-- The roots of that test: the array. -/
def sampleRoots : List Value := [Value.array 2]

namespace Heap

/-- Assignment to the elements of the array at `p` by the holder of the
pointer, as `arr->elements[0] = v` in the tests; the heap's own members are
not touched. -/
def setElements (h : Heap) (p : Nat) (elements : List Value) : Heap :=
  { h with objects_ := h.objects_.map (fun o =>
      if o.1 = p ∧ o.2.kind = .kArray then (o.1, { o.2 with elements := elements }) else o) }

/-- The heap states reachable from a fresh heap by calls of `AllocateString`,
`AllocateArray` and `Collect` that return, and by assignments to the elements
of its arrays in between. -/
inductive Reached (P : Platform) : Heap → Prop where
  | init : Reached P Heap.init
  | string (h h1 : Heap) (s : List Nat) (roots : List Value) (p : Nat) : Reached P h →
      AllocateString P h s roots = .ok (p, h1) → Reached P h1
  | array (h h1 : Heap) (length : Nat) (roots : List Value) (p : Nat) : Reached P h →
      AllocateArray P h length roots = .ok (p, h1) → Reached P h1
  | collect (h : Heap) (roots : List Value) (c : Collected) : Reached P h →
      Collect h roots = .ok c → Reached P c.heap
  | store (h : Heap) (p : Nat) (elements : List Value) : Reached P h →
      Reached P (setElements h p elements)

end Heap

/-! ## Doubles: IEEE-754 binary64 arithmetic on bit patterns -/

namespace Double

/-- The sign bit of the pattern. -/
def sign (x : Nat) : Bool := x / 2 ^ 63 % 2 = 1

/-- The biased exponent field. -/
def expo (x : Nat) : Nat := x / 2 ^ 52 % 2 ^ 11

/-- The fraction field. -/
def frac (x : Nat) : Nat := x % 2 ^ 52

def isNaN (x : Nat) : Bool := expo x = 2047 ∧ frac x ≠ 0

def isInf (x : Nat) : Bool := expo x = 2047 ∧ frac x = 0

/-- The comparison `d == 0.0`: either zero. -/
def isZero (x : Nat) : Bool := expo x = 0 ∧ frac x = 0

/-- The magnitude of a finite double in units of 2^-1074. -/
def units (x : Nat) : Nat :=
  if expo x = 0 then frac x else (2 ^ 52 + frac x) * 2 ^ (expo x - 1)

def signBit (s : Bool) : Nat := if s then 2 ^ 63 else 0

def zero (s : Bool) : Nat := signBit s

def inf (s : Bool) : Nat := signBit s + 2047 * 2 ^ 52

/-- The default NaN that an invalid operation produces on x86-64. -/
def defaultNaN : Nat := 0xFFF8000000000000

/-- The NaN operand as the result of an operation: its quiet bit set. -/
def quiet (x : Nat) : Nat := x ||| 2 ^ 51

/-- The quotient `a / b` rounded to the nearest integer, ties to even. -/
def roundHalfEven (a b : Nat) : Nat :=
  let q := a / b
  let r := a % b
  if 2 * r < b then q else if 2 * r > b then q + 1 else q + q % 2

/-- The double of sign `s` nearest to `n / d` units of 2^-1074 (ties to even,
overflow to infinity); `d` is positive. -/
def round (s : Bool) (n d : Nat) : Nat :=
  if n = 0 then zero s
  else
    let k := Nat.log2 (n / d)
    let p := k - 52
    let m := roundHalfEven n (d * 2 ^ p)
    let m1 := if m = 2 ^ 53 then 2 ^ 52 else m
    let p1 := if m = 2 ^ 53 then p + 1 else p
    if m1 < 2 ^ 52 then signBit s + m1
    else if p1 + 1 ≥ 2047 then inf s
    else signBit s + (p1 + 1) * 2 ^ 52 + (m1 - 2 ^ 52)

/-- The result when an operand is a NaN: the first operand's if it is one,
else the second's. -/
def nanOf (a b : Nat) : Nat := if isNaN a then quiet a else quiet b

/-- `a + b`. -/
def add (a b : Nat) : Nat :=
  if isNaN a ∨ isNaN b then nanOf a b
  else if isInf a then (if isInf b ∧ sign a ≠ sign b then defaultNaN else a)
  else if isInf b then b
  else
    let va : Int := if sign a then -(units a : Int) else units a
    let vb : Int := if sign b then -(units b : Int) else units b
    let r := va + vb
    if r = 0 then zero (sign a && sign b)
    else round (decide (r < 0)) r.natAbs 1

/-- `-a`. -/
def neg (a : Nat) : Nat := if sign a then a - 2 ^ 63 else a + 2 ^ 63

/-- `a - b`. -/
def sub (a b : Nat) : Nat :=
  if isNaN a ∨ isNaN b then nanOf a b else add a (neg b)

/-- `a * b`. -/
def mul (a b : Nat) : Nat :=
  let s := sign a != sign b
  if isNaN a ∨ isNaN b then nanOf a b
  else if isInf a ∨ isInf b then
    (if isZero a ∨ isZero b then defaultNaN else inf s)
  else round s (units a * units b) (2 ^ 1074)

/-- `a / b`. -/
def div (a b : Nat) : Nat :=
  let s := sign a != sign b
  if isNaN a ∨ isNaN b then nanOf a b
  else if isInf a then (if isInf b then defaultNaN else inf s)
  else if isInf b then zero s
  else if isZero b then (if isZero a then defaultNaN else inf s)
  else round s (units a * 2 ^ 1074) (units b)

/-- The order key of a double that is not a NaN; both zeros have key 0. -/
def key (x : Nat) : Int := if sign x then -((x % 2 ^ 63 : Nat) : Int) else ((x % 2 ^ 63 : Nat) : Int)

/-- `a == b`. -/
def eq (a b : Nat) : Bool := !isNaN a && !isNaN b && decide (key a = key b)

/-- `a < b`. -/
def lt (a b : Nat) : Bool := !isNaN a && !isNaN b && decide (key a < key b)

/-- `a <= b`. -/
def le (a b : Nat) : Bool := !isNaN a && !isNaN b && decide (key a ≤ key b)

/-- The pattern is one of a finite `double`: it has 64 bits and its exponent
field is not all ones. -/
def Finite (x : Nat) : Prop := x < 2 ^ 64 ∧ expo x < 2047

/-- The number that a finite double denotes, in units of 2^-1074. -/
def value (x : Nat) : Int := if sign x then -(units x : Int) else (units x : Int)

/-- The finite double `c` is nearest to the number `r` (in units of
2^-1074): no finite double is nearer, and if another is as near, the pattern
of `c` is even. -/
def Nearest (r : Int) (c : Nat) : Prop :=
  Finite c ∧ (∀ d, Finite d → (value c - r).natAbs ≤ (value d - r).natAbs) ∧
  (∀ d, Finite d → value d ≠ value c → (value d - r).natAbs = (value c - r).natAbs →
    c % 2 = 0)

/-- The least magnitude, in units of 2^-1074, that rounds to an infinity: the
largest finite double and half a unit of its last place. -/
def overflowUnits : Nat := (2 ^ 54 - 1) * 2 ^ 2044

/-- The double `c` is the sum of the doubles `a` and `b` as IEEE 754 defines
it for rounding to nearest, ties to even: a NaN if an operand is one or if
the operands are infinities of opposite sign; the operand that is an
infinity otherwise; for finite operands, the number `r` that is the exact
sum of the two numbers rounded: a zero if `r` is 0 (negative only if both
operands are negative), else of the sign of `r` and nearest to `r` if `r` is
below `overflowUnits` in magnitude, and the infinity if not. -/
def IsSum (a b c : Nat) : Prop :=
  c < 2 ^ 64 ∧
  (isNaN a = true ∨ isNaN b = true → isNaN c = true) ∧
  (isInf a = true → isInf b = true → sign a ≠ sign b → isNaN c = true) ∧
  (isInf a = true → isInf b = true → sign a = sign b → c = a) ∧
  (isInf a = true → Finite b → c = a) ∧
  (Finite a → isInf b = true → c = b) ∧
  (Finite a → Finite b →
    (value a + value b = 0 → isZero c = true ∧ sign c = (sign a && sign b)) ∧
    (value a + value b ≠ 0 →
      sign c = decide (value a + value b < 0) ∧
      ((value a + value b).natAbs < overflowUnits → Nearest (value a + value b) c) ∧
      (overflowUnits ≤ (value a + value b).natAbs → isInf c = true)))

end Double

/-! ## The interpreter: state (vm.h) -/

/-- `struct CallFrame`. -/
structure CallFrame where
  func_index : Nat
  ip : Nat
  return_ip : Nat
  base_stack_size : Nat
  locals : List Value
deriving DecidableEq, Repr

/-- The static member functions of `Vm` that `Dispatch()` enters in its
table; a `Handler` is a pointer to one of them. -/
inductive Handler where
  | H_PushConst | H_Pop | H_StoreGlobal | H_LoadGlobal | H_StoreLocal | H_LoadLocal
  | H_Add | H_Sub | H_Mul | H_Div | H_Mod | H_Neg
  | H_Eq | H_Neq | H_Lt | H_Le | H_Gt | H_Ge
  | H_And | H_Or | H_Not
  | H_Jump | H_JumpFalse | H_Call | H_Ret
  | H_NewArray | H_LoadIndex | H_StoreIndex
deriving DecidableEq, Repr

/-- `struct CompiledFunc`; a null handler is `none`. -/
structure CompiledFunc where
  func_index : Nat
  entry_ip : Nat
  end_ip : Nat
  handlers : List (Option Handler)
deriving DecidableEq, Repr

/-- A line that the built-in `print` writes to `std::cout`: the text of an
int, a double (by its pattern), `true` or `false`, or the bytes of a string. -/
inductive Printed where
  | int (text : String)
  | float (bits : Nat)
  | bool (b : Bool)
  | string (s : List Nat)
deriving DecidableEq, Repr

/-- The data members of `class Vm`, with all `VmOptions` off, and what has
been written to `std::cout`. A vector has its front first; the unordered map
`code_cache_` is the list of its entries. -/
structure Vm where
  module_ : BytecodeModule
  heap_ : Heap
  const_values_ : List Value
  stack_ : List Value
  globals_values_ : List Value
  globals_set_ : List Nat
  frames_ : List CallFrame
  temp_roots_ : List Value
  func_end_ip_ : List Nat
  hot_counters_ : List Nat
  code_cache_ : List (Nat × CompiledFunc)
  cout : List Printed
deriving DecidableEq, Repr

/-- How a call of a member function ends: it returns a value or it throws an
exception with a message; either way the Vm is left in a state. -/
inductive Res (α : Type) where
  | ok (a : α) (vm : Vm)
  | throw (msg : String) (vm : Vm)
deriving DecidableEq, Repr

/-- A member function of `Vm`. -/
def VmM (α : Type) : Type := Vm → Res α

instance : Monad VmM where
  pure a := fun vm => Res.ok a vm
  bind x f := fun vm =>
    match x vm with
    | Res.ok a vm1 => f a vm1
    | Res.throw msg vm1 => Res.throw msg vm1

namespace Vm

def kBuiltinEntryIp : Nat := 0xFFFFFFFF

def kGlobalFuncIndex : Nat := 0xFFFFFFFF

def kHotFuncThreshold : Nat := 50

/-- The statement `throw RuntimeError(msg)`. -/
def raise {α : Type} (msg : String) : VmM α := fun vm => Res.throw msg vm

/-- The object `*this`. -/
def self : VmM Vm := fun vm => Res.ok vm vm

/-- An assignment to data members. -/
def update (f : Vm → Vm) : VmM Unit := fun vm => Res.ok () (f vm)

/-- A call that returns `Except`: an error is thrown. -/
def lift {α : Type} (x : Except String α) : VmM α :=
  match x with
  | .ok a => pure a
  | .error msg => raise msg

/-- Reported where the code writes through an index past the end of a
vector, which C++ leaves undefined. -/
def oobMsg : String := "<index past the end of a vector>"

/-- Reported where `vm.cpp` initialises a `std::int64_t` from an int that
`TryToInt64` does not narrow; `value.h` and `bigint.h` declare no conversion
for it. -/
def narrowMsg : String := "<int does not fit std::int64_t>"

/-- Reported where a signed 64-bit operation overflows, which C++ leaves
undefined. -/
def signedOverflowMsg : String := "<signed overflow>"

/-- Reported where the code goes through a pointer to an object of the other
kind. -/
def kindMsg : String := "<pointer to an object of the other kind>"

/-- The characters of a byte string, for a message. -/
def bytesToString (bs : List Nat) : String := String.mk (bs.map Char.ofNat)

/-- The table of `Dispatch()`. -/
def Dispatch : OpCode → Option Handler
  | .kPushConst => some .H_PushConst
  | .kLoadLocal => some .H_LoadLocal
  | .kStoreLocal => some .H_StoreLocal
  | .kLoadGlobal => some .H_LoadGlobal
  | .kStoreGlobal => some .H_StoreGlobal
  | .kAdd => some .H_Add
  | .kSub => some .H_Sub
  | .kMul => some .H_Mul
  | .kDiv => some .H_Div
  | .kMod => some .H_Mod
  | .kNeg => some .H_Neg
  | .kEq => some .H_Eq
  | .kNeq => some .H_Neq
  | .kLt => some .H_Lt
  | .kLe => some .H_Le
  | .kGt => some .H_Gt
  | .kGe => some .H_Ge
  | .kAnd => some .H_And
  | .kOr => some .H_Or
  | .kNot => some .H_Not
  | .kJump => some .H_Jump
  | .kJumpFalse => some .H_JumpFalse
  | .kCall => some .H_Call
  | .kRet => some .H_Ret
  | .kNewArray => some .H_NewArray
  | .kLoadIndex => some .H_LoadIndex
  | .kStoreIndex => some .H_StoreIndex
  | .kPop => some .H_Pop

/-- The values that the enumerator `Roots()` hands to its visitor, in order:
the constants, the stack, the locals of every frame, the global slots that
are set, the temporary roots. -/
def Roots (vm : Vm) : List Value :=
  vm.const_values_ ++ vm.stack_ ++ (vm.frames_.map (fun f => f.locals)).flatten ++
    ((vm.globals_values_.zip vm.globals_set_).filter (fun g => g.2 ≠ 0)).map Prod.fst ++
    vm.temp_roots_

def push (v : Value) : VmM Unit := update fun vm => { vm with stack_ := vm.stack_ ++ [v] }

def pop : VmM Value := fun vm =>
  match vm.stack_.getLast? with
  | none => Res.throw "stack underflow" vm
  | some v => Res.ok v { vm with stack_ := vm.stack_.dropLast }

/-- `peek_args(argc)`: the top `argc` values, in the order in which they were
pushed. -/
def peek_args (argc : Nat) : VmM (List Value) := fun vm =>
  if argc > vm.stack_.length then Res.throw "stack underflow" vm
  else Res.ok (vm.stack_.drop (vm.stack_.length - argc)) vm

/-- `frame()`: the frame at the back of `frames_`. -/
def frame : VmM CallFrame := fun vm =>
  match vm.frames_.getLast? with
  | none => Res.throw "no current frame" vm
  | some f => Res.ok f vm

/-- An assignment through the reference that `frame()` returned. -/
def setFrame (f : CallFrame) : VmM Unit :=
  update fun vm => { vm with frames_ := vm.frames_.dropLast ++ [f] }

/-- The scope of a `TempRoots guard`: the values are appended to
`temp_roots_`, and when the scope is left, by return or by exception,
`temp_roots_` is cut back to its earlier length. -/
def TempRoots {α : Type} (values : List Value) (body : VmM α) : VmM α := fun vm =>
  let start_ := vm.temp_roots_.length
  match body { vm with temp_roots_ := vm.temp_roots_ ++ values } with
  | Res.ok a vm1 => Res.ok a { vm1 with temp_roots_ := vm1.temp_roots_.take start_ }
  | Res.throw msg vm1 => Res.throw msg { vm1 with temp_roots_ := vm1.temp_roots_.take start_ }

def const_string_view (const_index : Nat) : VmM (List Nat) := fun vm =>
  if const_index ≥ vm.module_.const_pool.length then Res.throw "const index out of range" vm
  else
    match vm.module_.const_pool.get? const_index with
    | none => Res.throw "const index out of range" vm
    | some c =>
      if c.tag ≠ .kString then Res.throw "const is not string" vm
      else
        match c.value with
        | .string s => Res.ok s vm
        | _ => Res.throw badVariantMsg vm

def func_name_view (func_index : Nat) : VmM (List Nat) := fun vm =>
  match vm.module_.functions.get? func_index with
  | none => Res.throw "bad func index" vm
  | some f => const_string_view f.name_const_index vm

def is_void_return (func_index : Nat) : VmM Bool := fun vm =>
  if func_index = kGlobalFuncIndex then Res.ok true vm
  else
    match vm.module_.functions.get? func_index with
    | none => Res.throw "bad func index" vm
    | some f => Res.ok (decide (f.return_type = .kVoid)) vm

end Vm

namespace Heap

/-- The `value` of the `StringObject` at `p`. -/
def stringAt (h : Heap) (p : Nat) : Except String (List Nat) :=
  match deref h.objects_ p with
  | none => .error danglingMsg
  | some o => if o.kind = .kString then .ok o.value else .error Vm.kindMsg

/-- The `elements` of the `ArrayObject` at `p`. -/
def elementsAt (h : Heap) (p : Nat) : Except String (List Value) :=
  match deref h.objects_ p with
  | none => .error danglingMsg
  | some o => if o.kind = .kArray then .ok o.elements else .error Vm.kindMsg

/-- Assignment `arr->elements[i] = v` for the `ArrayObject` at `p`. -/
def storeElement (h : Heap) (p i : Nat) (v : Value) : Except String Heap := do
  let es ← elementsAt h p
  if i < es.length then .ok (setElements h p (es.set i v)) else .error Vm.oobMsg

end Heap

/-! ## The interpreter: operations on values and built-ins (vm.cpp) -/

namespace Vm

/-- `Value::FromInt(std::int64_t)`. -/
def FromInt (v : Int) : Except String Value := do
  let b ← BigInt.ofInt64 v
  .ok (Value.int b)

/-- The initialisation of a `std::int64_t` from `AsInt()`. -/
def asInt64 (b : BigInt) : Except String Int :=
  match BigInt.TryToInt64 b with
  | some v => .ok v
  | none => .error narrowMsg

def INT64_MAX : Int := 2 ^ 63 - 1

def INT64_MIN : Int := -(2 ^ 63)

/-- Division of two `std::int64_t`. -/
def div64 (a b : Int) : Except String Int :=
  if a = INT64_MIN ∧ b = -1 then .error signedOverflowMsg else .ok (Int.tdiv a b)

/-- Remainder of two `std::int64_t`. -/
def mod64 (a b : Int) : Except String Int :=
  if a = INT64_MIN ∧ b = -1 then .error signedOverflowMsg else .ok (Int.tmod a b)

/-- Product of two `std::int64_t`. -/
def mul64 (a b : Int) : Except String Int :=
  if a * b < INT64_MIN ∨ a * b > INT64_MAX then .error signedOverflowMsg else .ok (a * b)

def add_values (P : Platform) (l r : Value) : VmM Value :=
  match l, r with
  | .int a, .int b => do
    let s ← lift (BigInt.add a b)
    pure (Value.int s)
  | .float a, .float b => pure (Value.float (Double.add a b))
  | .string p, .string q =>
    TempRoots [l, r] (do
      let vm ← self
      let a ← lift (Heap.stringAt vm.heap_ p)
      let b ← lift (Heap.stringAt vm.heap_ q)
      let res ← lift (Heap.AllocateString P vm.heap_ (a ++ b) vm.Roots)
      update fun vm => { vm with heap_ := res.2 }
      pure (Value.string res.1))
  | _, _ => raise "ADD type mismatch"

def sub_values (l r : Value) : Except String Value :=
  match l, r with
  | .int a, .int b => do
    let s ← BigInt.sub a b
    .ok (Value.int s)
  | .float a, .float b => .ok (Value.float (Double.sub a b))
  | _, _ => .error "SUB type mismatch"

def mul_values (l r : Value) : Except String Value :=
  match l, r with
  | .int x, .int y => do
    let a ← asInt64 x
    let b ← asInt64 y
    if a > 0 ∧ b > 0 ∧ a > Int.tdiv INT64_MAX b then .error "integer overflow"
    else if a < 0 ∧ b < 0 ∧ a < Int.tdiv INT64_MAX b then .error "integer overflow"
    else if ((a > 0 ∧ b < 0) ∨ (a < 0 ∧ b > 0)) ∧ a ≠ 0 then do
      let q ← div64 INT64_MIN a
      if b < q then .error "integer overflow"
      else do
        let p ← mul64 a b
        FromInt p
    else do
      let p ← mul64 a b
      FromInt p
  | .float a, .float b => .ok (Value.float (Double.mul a b))
  | _, _ => .error "MUL type mismatch"

def div_values (l r : Value) : Except String Value :=
  match l, r with
  | .int x, .int y => do
    let d ← asInt64 y
    if d = 0 then .error "division by zero"
    else do
      let a ← asInt64 x
      let q ← div64 a d
      FromInt q
  | .float a, .float d =>
    if Double.isZero d then .error "division by zero"
    else .ok (Value.float (Double.div a d))
  | _, _ => .error "DIV type mismatch"

def mod_values (l r : Value) : Except String Value :=
  match l, r with
  | .int x, .int y => do
    let d ← asInt64 y
    if d = 0 then .error "modulo by zero"
    else do
      let a ← asInt64 x
      let q ← mod64 a d
      FromInt q
  | _, _ => .error "MOD requires int"

def neg_value (v : Value) : Except String Value :=
  match v with
  | .int a => .ok (Value.int (BigInt.neg a))
  | .float a => .ok (Value.float (Double.neg a))
  | _ => .error "NEG type mismatch"

/-- `eq_values`; it reads the two strings through their pointers. -/
def eq_values (h : Heap) (l r : Value) : Except String Value :=
  if l.tag ≠ r.tag then .error "EQ type mismatch"
  else
    match l, r with
    | .int a, .int b => .ok (Value.bool (BigInt.eq a b))
    | .float a, .float b => .ok (Value.bool (Double.eq a b))
    | .bool a, .bool b => .ok (Value.bool (a == b))
    | .string p, .string q => do
      let a ← Heap.stringAt h p
      let b ← Heap.stringAt h q
      .ok (Value.bool (decide (a = b)))
    | .array p, .array q => .ok (Value.bool (decide (p = q)))
    | _, _ => .ok (Value.bool true)

def neq_values (h : Heap) (l r : Value) : Except String Value := do
  let e ← eq_values h l r
  match e with
  | .bool b => .ok (Value.bool (!b))
  | _ => .error "expected bool"

def lt_values (l r : Value) : Except String Value :=
  if l.tag ≠ r.tag then .error "LT type mismatch"
  else
    match l, r with
    | .int a, .int b => .ok (Value.bool (BigInt.lt a b))
    | .float a, .float b => .ok (Value.bool (Double.lt a b))
    | _, _ => .error "LT requires numeric"

def le_values (l r : Value) : Except String Value :=
  if l.tag ≠ r.tag then .error "LE type mismatch"
  else
    match l, r with
    | .int a, .int b => .ok (Value.bool (BigInt.le a b))
    | .float a, .float b => .ok (Value.bool (Double.le a b))
    | _, _ => .error "LE requires numeric"

def gt_values (l r : Value) : Except String Value :=
  if l.tag ≠ r.tag then .error "GT type mismatch"
  else
    match l, r with
    | .int a, .int b => .ok (Value.bool (BigInt.gt a b))
    | .float a, .float b => .ok (Value.bool (Double.lt b a))
    | _, _ => .error "GT requires numeric"

def ge_values (l r : Value) : Except String Value :=
  if l.tag ≠ r.tag then .error "GE type mismatch"
  else
    match l, r with
    | .int a, .int b => .ok (Value.bool (BigInt.ge a b))
    | .float a, .float b => .ok (Value.bool (Double.le b a))
    | _, _ => .error "GE requires numeric"

def and_values (l r : Value) : Except String Value :=
  match l, r with
  | .bool a, .bool b => .ok (Value.bool (a && b))
  | _, _ => .error "AND requires bool"

def or_values (l r : Value) : Except String Value :=
  match l, r with
  | .bool a, .bool b => .ok (Value.bool (a || b))
  | _, _ => .error "OR requires bool"

def not_value (v : Value) : Except String Value :=
  match v with
  | .bool a => .ok (Value.bool (!a))
  | _ => .error "NOT requires bool"

/-- The bytes of `"print"`. -/
def printName : List Nat := [112, 114, 105, 110, 116]

/-- The bytes of `"len"`. -/
def lenName : List Nat := [108, 101, 110]

/-- The bytes of `"new_array_bool"`. -/
def newArrayBoolName : List Nat := [110, 101, 119, 95, 97, 114, 114, 97, 121, 95, 98, 111, 111, 108]

/-- The bytes of `"push_int"`. -/
def pushIntName : List Nat := [112, 117, 115, 104, 95, 105, 110, 116]

/-- The branch `name == "print"` of `call_builtin`. -/
def builtin_print (args : List Value) : VmM Value :=
  if args.length ≠ 1 then raise "print expects 1 argument"
  else
    match args.head? with
    | some (.int b) => do
      update fun vm => { vm with cout := vm.cout ++ [Printed.int (BigInt.ToString b)] }
      pure Value.null
    | some (.float d) => do
      update fun vm => { vm with cout := vm.cout ++ [Printed.float d] }
      pure Value.null
    | some (.bool b) => do
      update fun vm => { vm with cout := vm.cout ++ [Printed.bool b] }
      pure Value.null
    | some (.string p) => do
      let vm ← self
      let s ← lift (Heap.stringAt vm.heap_ p)
      update fun vm => { vm with cout := vm.cout ++ [Printed.string s] }
      pure Value.null
    | _ => raise "print unsupported type"

/-- The branch `name == "len"` of `call_builtin`. -/
def builtin_len (args : List Value) : VmM Value :=
  if args.length ≠ 1 then raise "len expects 1 argument"
  else
    match args.head? with
    | some (.array p) => do
      let vm ← self
      let es ← lift (Heap.elementsAt vm.heap_ p)
      lift (FromInt es.length)
    | _ => raise "len expects array"

/-- The branch `name == "new_array_bool"` of `call_builtin`. -/
def builtin_new_array_bool (P : Platform) (args : List Value) : VmM Value :=
  if args.length ≠ 2 then raise "new_array_bool expects 2 arguments"
  else
    match args.get? 0, args.get? 1 with
    | some (.int b), some (.bool fill) => do
      let n ← lift (asInt64 b)
      if n < 0 then raise "new_array_bool negative size"
      else do
        let vm ← self
        let res ← lift (Heap.AllocateArray P vm.heap_ n.toNat vm.Roots)
        update fun vm => { vm with
          heap_ := Heap.setElements res.2 res.1 (List.replicate n.toNat (Value.bool fill)) }
        pure (Value.array res.1)
    | _, _ => raise "new_array_bool type mismatch"

/-- The copy loop of `push_int`: `out->elements[i] = old_arr->elements[i]`
for `i` from `i` up, with `n` rounds left. -/
def copy_elements (old_arr out : Nat) : Nat → Nat → Heap → Except String Heap
  | 0, _, h => .ok h
  | n + 1, i, h => do
    let es ← Heap.elementsAt h old_arr
    match es.get? i with
    | none => .error oobMsg
    | some v => do
      let h1 ← Heap.storeElement h out i v
      copy_elements old_arr out n (i + 1) h1

/-- The branch `name == "push_int"` of `call_builtin`. -/
def builtin_push_int (P : Platform) (args : List Value) : VmM Value :=
  if args.length ≠ 2 then raise "push_int expects 2 arguments"
  else
    match args.get? 0, args.get? 1 with
    | some (.array old_arr), some (.int x) => do
      let vm ← self
      let es ← lift (Heap.elementsAt vm.heap_ old_arr)
      let old_size := es.length
      let res ← lift (Heap.AllocateArray P vm.heap_ ((old_size + 1) % 2 ^ 64) vm.Roots)
      let h1 ← lift (copy_elements old_arr res.1 old_size 0 res.2)
      let h2 ← lift (Heap.storeElement h1 res.1 old_size (Value.int x))
      update fun vm => { vm with heap_ := h2 }
      pure (Value.array res.1)
    | _, _ => raise "push_int type mismatch"

def call_builtin (P : Platform) (name : List Nat) (args : List Value) : VmM Value :=
  if name = printName then builtin_print args
  else if name = lenName then builtin_len args
  else if name = newArrayBoolName then builtin_new_array_bool P args
  else if name = pushIntName then builtin_push_int P args
  else raise ("unknown builtin: " ++ bytesToString name)

end Vm

/-! ## The interpreter: calls, handlers and the run loop (vm.cpp) -/

namespace Vm

/-- The loop of `jit_compile` over the instructions of the range: the
handlers, or `none` where it returns false. -/
def compile_handlers : List Instruction → Option (List (Option Handler))
  | [] => some []
  | ins :: rest =>
    match Dispatch ins.op with
    | none => none
    | some h =>
      match compile_handlers rest with
      | none => none
      | some hs => some (some h :: hs)

/-- `jit_compile`; the Vm with the cache entry added, and the value
returned. -/
def jit_compile (func_index : Nat) (vm : Vm) : Bool × Vm :=
  match vm.module_.functions.get? func_index with
  | none => (false, vm)
  | some fn =>
    if fn.entry_ip = kBuiltinEntryIp then (false, vm)
    else
      match vm.func_end_ip_.get? func_index with
      | none => (false, vm)
      | some end_ip =>
        let entry := fn.entry_ip % 2 ^ 32
        if entry ≥ vm.module_.code.length ∨ end_ip > vm.module_.code.length ∨ end_ip < entry then
          (false, vm)
        else
          match compile_handlers ((vm.module_.code.drop entry).take (end_ip - entry)) with
          | none => (false, vm)
          | some hs =>
            if (vm.code_cache_.find? (fun e => e.1 = func_index)).isSome then (false, vm)
            else
              (true, { vm with code_cache_ := vm.code_cache_ ++
                [(func_index, { func_index := func_index, entry_ip := entry, end_ip := end_ip,
                                handlers := hs })] })

def maybe_jit_compile (func_index : Nat) (vm : Vm) : Vm :=
  match vm.module_.functions.get? func_index with
  | none => vm
  | some fn =>
    if fn.entry_ip = kBuiltinEntryIp then vm
    else
      let c := (vm.hot_counters_.getD func_index 0 + 1) % 2 ^ 32
      let vm1 := { vm with hot_counters_ := vm.hot_counters_.set func_index c }
      if c ≥ kHotFuncThreshold ∧ (vm1.code_cache_.find? (fun e => e.1 = func_index)).isNone then
        (jit_compile func_index vm1).2
      else vm1

/-- The loop of `call_function` that pops the arguments into the locals of
the callee, for `i` from `i` down to 1. -/
def pop_args : Nat → List Value → VmM (List Value)
  | 0, locals => pure locals
  | i + 1, locals => do
    let v ← pop
    if i < locals.length then pop_args i (locals.set i v)
    else raise oobMsg

def call_function (P : Platform) (func_index argc : Nat) : VmM Unit := do
  let vm ← self
  match vm.module_.functions.get? func_index with
  | none => raise "CALL bad func index"
  | some fn =>
    if argc ≠ fn.param_count then raise "CALL argc mismatch"
    else if fn.entry_ip = kBuiltinEntryIp then do
      let args ← peek_args argc
      TempRoots args (do
        let has_ret := decide (fn.return_type ≠ .kVoid)
        let name ← func_name_view func_index
        let out ← call_builtin P name args
        update fun vm => { vm with stack_ := vm.stack_.take (vm.stack_.length - argc) }
        if has_ret then push out else pure ())
    else do
      update (maybe_jit_compile func_index)
      let caller ← frame
      let vm1 ← self
      let base := (vm1.stack_.length + 2 ^ 64 - argc) % 2 ^ 64
      let locals ← pop_args argc (List.replicate fn.local_count Value.null)
      update fun vm => { vm with frames_ := vm.frames_ ++
        [{ func_index := func_index, ip := fn.entry_ip % 2 ^ 32, return_ip := caller.ip,
           base_stack_size := base, locals := locals }] }

def ret_from_function : VmM Unit := do
  let vm ← self
  match vm.frames_.getLast? with
  | none => raise "RET with no frame"
  | some finished => do
    let void ← is_void_return finished.func_index
    let has_ret := !void
    let ret ← if has_ret then pop else pure Value.null
    let vm1 ← self
    if vm1.stack_.length < finished.base_stack_size then raise "stack corrupted on return"
    else do
      update fun vm => { vm with
        stack_ := vm.stack_.take finished.base_stack_size ++
          List.replicate (finished.base_stack_size - vm.stack_.length) Value.null,
        frames_ := vm.frames_.dropLast }
      let vm2 ← self
      match vm2.frames_.getLast? with
      | none => pure ()
      | some caller => do
        setFrame { caller with ip := finished.return_ip }
        if has_ret then push ret else pure ()

def H_PushConst (ins : Instruction) : VmM Unit := do
  if !ins.has_a then raise "PUSH_CONST missing a"
  else do
    let vm ← self
    match vm.const_values_.get? ins.a with
    | none => raise "PUSH_CONST const index out of range"
    | some v => push v

def H_Pop : VmM Unit := do
  let _ ← pop
  pure ()

def H_StoreGlobal (ins : Instruction) : VmM Unit := do
  if !ins.has_a then raise "STORE_GLOBAL missing a"
  else do
    let vm ← self
    if ins.a ≥ vm.globals_values_.length then raise "STORE_GLOBAL const index out of range"
    else do
      let _ ← const_string_view ins.a
      let v ← pop
      update fun vm => { vm with globals_values_ := vm.globals_values_.set ins.a v,
                                 globals_set_ := vm.globals_set_.set ins.a 1 }

def H_LoadGlobal (ins : Instruction) : VmM Unit := do
  if !ins.has_a then raise "LOAD_GLOBAL missing a"
  else do
    let vm ← self
    match vm.globals_values_.get? ins.a with
    | none => raise "LOAD_GLOBAL const index out of range"
    | some v =>
      if vm.globals_set_.getD ins.a 0 = 0 then do
        let name ← const_string_view ins.a
        raise ("LOAD_GLOBAL unknown global: " ++ bytesToString name)
      else push v

def H_StoreLocal (ins : Instruction) : VmM Unit := do
  if !ins.has_b then raise "STORE_LOCAL missing b"
  else do
    let f ← frame
    if ins.b ≥ f.locals.length then raise "STORE_LOCAL slot out of range"
    else do
      let v ← pop
      setFrame { f with locals := f.locals.set ins.b v }

def H_LoadLocal (ins : Instruction) : VmM Unit := do
  if !ins.has_b then raise "LOAD_LOCAL missing b"
  else do
    let f ← frame
    match f.locals.get? ins.b with
    | none => raise "LOAD_LOCAL slot out of range"
    | some v => push v

/-- The body shared by the handlers of the binary operators: the right
operand is popped, then the left, and the result is pushed. -/
def binary (op : Value → Value → VmM Value) : VmM Unit := do
  let r ← pop
  let l ← pop
  let v ← op l r
  push v

/-- The body shared by `H_Neg` and `H_Not`. -/
def unary (op : Value → Except String Value) : VmM Unit := do
  let x ← pop
  let v ← lift (op x)
  push v

def H_Jump (ins : Instruction) : VmM Unit := do
  if !ins.has_a then raise "JUMP missing a"
  else do
    let f ← frame
    let vm ← self
    if ins.a ≥ vm.module_.code.length then raise "JUMP target out of range"
    else setFrame { f with ip := ins.a }

def H_JumpFalse (ins : Instruction) : VmM Unit := do
  if !ins.has_a then raise "JUMP_FALSE missing a"
  else do
    let f ← frame
    let vm ← self
    if ins.a ≥ vm.module_.code.length then raise "JUMP_FALSE target out of range"
    else do
      let cond ← pop
      match cond with
      | .bool b => if !b then setFrame { f with ip := ins.a } else pure ()
      | _ => raise "JUMP_FALSE expects bool"

def H_Call (P : Platform) (ins : Instruction) : VmM Unit :=
  if !ins.has_a || !ins.has_b then raise "CALL missing operands"
  else call_function P ins.a ins.b

/-- The loop of `H_NewArray`: `arr->elements[i] = vm.pop()` for `i` from
`i - 1` down to 0. -/
def fill_array (arr : Nat) : Nat → VmM Unit
  | 0 => pure ()
  | i + 1 => do
    let v ← pop
    let vm ← self
    let h ← lift (Heap.storeElement vm.heap_ arr i v)
    update fun vm => { vm with heap_ := h }
    fill_array arr i

def H_NewArray (P : Platform) (ins : Instruction) : VmM Unit := do
  if !ins.has_b then raise "NEW_ARRAY missing b"
  else do
    let vm ← self
    let res ← lift (Heap.AllocateArray P vm.heap_ ins.b vm.Roots)
    update fun vm => { vm with heap_ := res.2 }
    fill_array res.1 ins.b
    push (Value.array res.1)

def H_LoadIndex : VmM Unit := do
  let idx ← pop
  let arrv ← pop
  match idx with
  | .int b =>
    match arrv with
    | .array arr => do
      let i ← lift (asInt64 b)
      let vm ← self
      let es ← lift (Heap.elementsAt vm.heap_ arr)
      if i < 0 ∨ i.toNat ≥ es.length then raise "array index out of bounds"
      else
        match es.get? i.toNat with
        | none => raise oobMsg
        | some v => push v
    | _ => raise "LOAD_INDEX expects array"
  | _ => raise "LOAD_INDEX expects int index"

def H_StoreIndex : VmM Unit := do
  let val ← pop
  let idx ← pop
  let arrv ← pop
  match idx with
  | .int b =>
    match arrv with
    | .array arr => do
      let i ← lift (asInt64 b)
      let vm ← self
      let es ← lift (Heap.elementsAt vm.heap_ arr)
      if i < 0 ∨ i.toNat ≥ es.length then raise "array index out of bounds"
      else do
        let h ← lift (Heap.storeElement vm.heap_ arr i.toNat val)
        update fun vm => { vm with heap_ := h }
    | _ => raise "STORE_INDEX expects array"
  | _ => raise "STORE_INDEX expects int index"

/-- The call `h(*this, ins)` through a handler pointer. -/
def invoke (P : Platform) (h : Handler) (ins : Instruction) : VmM Unit :=
  match h with
  | .H_PushConst => H_PushConst ins
  | .H_Pop => H_Pop
  | .H_StoreGlobal => H_StoreGlobal ins
  | .H_LoadGlobal => H_LoadGlobal ins
  | .H_StoreLocal => H_StoreLocal ins
  | .H_LoadLocal => H_LoadLocal ins
  | .H_Add => binary (add_values P)
  | .H_Sub => binary (fun l r => lift (sub_values l r))
  | .H_Mul => binary (fun l r => lift (mul_values l r))
  | .H_Div => binary (fun l r => lift (div_values l r))
  | .H_Mod => binary (fun l r => lift (mod_values l r))
  | .H_Neg => unary neg_value
  | .H_Eq => binary (fun l r => do
      let vm ← self
      lift (eq_values vm.heap_ l r))
  | .H_Neq => binary (fun l r => do
      let vm ← self
      lift (neq_values vm.heap_ l r))
  | .H_Lt => binary (fun l r => lift (lt_values l r))
  | .H_Le => binary (fun l r => lift (le_values l r))
  | .H_Gt => binary (fun l r => lift (gt_values l r))
  | .H_Ge => binary (fun l r => lift (ge_values l r))
  | .H_And => binary (fun l r => lift (and_values l r))
  | .H_Or => binary (fun l r => lift (or_values l r))
  | .H_Not => unary not_value
  | .H_Jump => H_Jump ins
  | .H_JumpFalse => H_JumpFalse ins
  | .H_Call => H_Call P ins
  | .H_Ret => ret_from_function
  | .H_NewArray => H_NewArray P ins
  | .H_LoadIndex => H_LoadIndex
  | .H_StoreIndex => H_StoreIndex

def step (P : Platform) : VmM Unit := do
  let f ← frame
  let vm ← self
  match vm.module_.code.get? f.ip with
  | none => raise "ip out of range"
  | some ins => do
    setFrame { f with ip := (f.ip + 1) % 2 ^ 32 }
    match Dispatch ins.op with
    | none => raise "opcode not implemented"
    | some h => invoke P h ins

/-- The loop of `run_jit`, with `fuel` rounds allowed. -/
def run_jit (P : Platform) (cf : CompiledFunc) : Nat → VmM Unit
  | 0 => raise fuelMsg
  | fuel + 1 => do
    let vm ← self
    match vm.frames_.getLast? with
    | none => pure ()
    | some cur =>
      if cur.func_index ≠ cf.func_index then pure ()
      else if cur.ip < cf.entry_ip ∨ cur.ip ≥ cf.end_ip then pure ()
      else
        match vm.module_.code.get? cur.ip with
        | none => raise oobMsg
        | some ins => do
          setFrame { cur with ip := (cur.ip + 1) % 2 ^ 32 }
          match cf.handlers.get? (cur.ip - cf.entry_ip) with
          | none => raise "jit handler out of range"
          | some none => raise "jit null handler"
          | some (some h) => do
            invoke P h ins
            run_jit P cf fuel

/-- The loop of `run`, with `fuel` rounds allowed, each with as much fuel for
`run_jit` as is left. -/
def run_loop (P : Platform) : Nat → VmM Unit
  | 0 => raise fuelMsg
  | fuel + 1 => do
    let vm ← self
    match vm.frames_.getLast? with
    | none => pure ()
    | some f =>
      if f.ip ≥ vm.module_.code.length then do
        update fun vm => { vm with frames_ := vm.frames_.dropLast }
        run_loop P fuel
      else
        match vm.code_cache_.find? (fun e => e.1 = f.func_index) with
        | some e =>
          if f.func_index ≠ kGlobalFuncIndex then do
            run_jit P e.2 fuel
            run_loop P fuel
          else do
            step P
            run_loop P fuel
        | none => do
          step P
          run_loop P fuel

/-- What `run` does before its loop. -/
def run_reset (vm : Vm) : Vm :=
  { vm with
    stack_ := [],
    frames_ := [{ func_index := kGlobalFuncIndex, ip := 0, return_ip := 0, base_stack_size := 0,
                  locals := [] }],
    temp_roots_ := [],
    globals_set_ := vm.globals_set_.map (fun _ => 0),
    globals_values_ := vm.globals_values_.map (fun _ => Value.null) }

/-- `run()`, its loop allowed `fuel` rounds; it returns 0. -/
def run (P : Platform) (fuel : Nat) : VmM Nat := do
  update run_reset
  run_loop P fuel
  pure 0

/-- The loop of `run` for an interpreter that executes every instruction
through `step`. -/
def step_loop (P : Platform) : Nat → VmM Unit
  | 0 => raise fuelMsg
  | fuel + 1 => do
    let vm ← self
    match vm.frames_.getLast? with
    | none => pure ()
    | some f =>
      if f.ip ≥ vm.module_.code.length then do
        update fun vm => { vm with frames_ := vm.frames_.dropLast }
        step_loop P fuel
      else do
        step P
        step_loop P fuel

/-- The interpreter that executes every instruction through `step`: `run`
with `step_loop` for its loop. -/
def run_step_only (P : Platform) (fuel : Nat) : VmM Nat := do
  update run_reset
  step_loop P fuel
  pure 0

/-- One round of the loop of `BuildConstValues`. -/
def BuildConstValues_step (P : Platform) (c : Constant) : VmM Unit :=
  match c.tag, c.value with
  | .kInt, .int v => do
    let x ← lift (FromInt v)
    update fun vm => { vm with const_values_ := vm.const_values_ ++ [x] }
  | .kFloat, .float d => update fun vm => { vm with const_values_ := vm.const_values_ ++ [Value.float d] }
  | .kBool, .bool b => update fun vm => { vm with const_values_ := vm.const_values_ ++ [Value.bool b] }
  | .kString, .string s => do
    let vm ← self
    let res ← lift (Heap.AllocateString P vm.heap_ s vm.Roots)
    update fun vm => { vm with heap_ := res.2,
                               const_values_ := vm.const_values_ ++ [Value.string res.1] }
  | _, _ => raise badVariantMsg

def BuildConstValues (P : Platform) : List Constant → VmM Unit
  | [] => pure ()
  | c :: rest => do
    BuildConstValues_step P c
    BuildConstValues P rest

/-- The last loop of `BuildFuncRanges`, at position `i` of the sorted
`entries`. -/
def BuildFuncRanges_loop (code_size : Nat) (entries : List (Nat × Nat)) :
    Nat → List (Nat × Nat) → List Nat → List Nat
  | _, [], ends => ends
  | i, e :: rest, ends =>
    let end0 := if i + 1 < entries.length then (entries.getD (i + 1) (0, 0)).1 else code_size % 2 ^ 32
    let end_ip := if end0 < e.1 ∨ end0 > code_size then code_size % 2 ^ 32 else end0
    BuildFuncRanges_loop code_size entries (i + 1) rest (ends.set e.2 end_ip)

/-- `BuildFuncRanges`: the vector `func_end_ip_`. `std::sort` is taken to
keep the given order among entries of equal `entry_ip`. -/
def BuildFuncRanges (m : BytecodeModule) : List Nat :=
  let entries := ((m.functions.enum.filter (fun e => e.2.entry_ip ≠ kBuiltinEntryIp)).map
    (fun e => (e.2.entry_ip % 2 ^ 32, e.1))).insertionSort (fun a b => a.1 ≤ b.1)
  BuildFuncRanges_loop m.code.length entries 0 entries
    (List.replicate m.functions.length (m.code.length % 2 ^ 32))

/-- The constructor `Vm(module, options)`. -/
def create (P : Platform) (m : BytecodeModule) : Except String Vm :=
  let vm0 : Vm :=
    { module_ := m, heap_ := Heap.init, const_values_ := [], stack_ := [], globals_values_ := [],
      globals_set_ := [], frames_ := [], temp_roots_ := [], func_end_ip_ := [],
      hot_counters_ := [], code_cache_ := [], cout := [] }
  match BuildConstValues P m.const_pool vm0 with
  | Res.throw msg _ => .error msg
  | Res.ok _ vm1 =>
    .ok { vm1 with
      func_end_ip_ := BuildFuncRanges m,
      hot_counters_ := List.replicate m.functions.length 0,
      globals_values_ := List.replicate m.const_pool.length Value.null,
      globals_set_ := List.replicate m.const_pool.length 0 }

/-- The accessor `globals()`: the name and the value of every set slot whose
constant is a string; of two entries with one name the map keeps the first. -/
def globals (vm : Vm) : List (List Nat × Value) :=
  ((vm.globals_values_.zip (vm.globals_set_.zip vm.module_.const_pool)).filterMap (fun g =>
    if g.2.1 = 0 then none
    else
      match g.2.2.tag, g.2.2.value with
      | .kString, .string s => some (s, g.1)
      | _, _ => none))

end Vm

/-! ## The interpreter: outcomes of calls, and a module that leaves its function -/

/-- The call returned, rather than threw. -/
def Res.returned {α : Type} : Res α → Bool
  | .ok _ _ => true
  | .throw _ _ => false

/-- The state in which the call left the Vm. -/
def Res.state {α : Type} : Res α → Vm
  | .ok _ vm => vm
  | .throw _ vm => vm

/-- The message of the exception, if the call threw. -/
def Res.message {α : Type} : Res α → Option String
  | .ok _ _ => none
  | .throw msg _ => some msg

namespace Vm

/-- One round of the loop of `run` that does not enter `run_jit`: the frame
is popped, or one `step` is made; `none` if there is no frame or the round
enters `run_jit`. -/
def plain_round (P : Platform) (vm : Vm) : Option (Res Unit) :=
  match vm.frames_.getLast? with
  | none => none
  | some f =>
    if f.ip ≥ vm.module_.code.length then
      some (Res.ok () { vm with frames_ := vm.frames_.dropLast })
    else
      match vm.code_cache_.find? (fun e => e.1 = f.func_index) with
      | some _ => if f.func_index ≠ kGlobalFuncIndex then none else some (step P vm)
      | none => some (step P vm)

/-- The state after `k` rounds that return and do not enter `run_jit`. -/
def plain_rounds (P : Platform) : Nat → Vm → Option Vm
  | 0, vm => some vm
  | k + 1, vm =>
    match plain_round P vm with
    | some (Res.ok _ vm1) => plain_rounds P k vm1
    | _ => none

/-- A module whose function `f` leaves its own code: the script jumps over a
`RET` at 1, calls `f` fifty times and returns; `f`, at 53, is `JUMP 1`. -/
def livelockModule : BytecodeModule :=
  { const_pool := [{ tag := .kString, value := .string [102] }],
    functions := [{ name_const_index := 0, param_count := 0, local_count := 0, entry_ip := 53,
                    return_type := .kVoid, param_types := [] }],
    code := [{ op := .kJump, a := 2, b := 0, has_a := true, has_b := false },
             { op := .kRet, a := 0, b := 0, has_a := false, has_b := false }] ++
      List.replicate 50 { op := .kCall, a := 0, b := 0, has_a := true, has_b := true } ++
      [{ op := .kRet, a := 0, b := 0, has_a := false, has_b := false },
       { op := .kJump, a := 1, b := 0, has_a := true, has_b := false }] }

/-- The Vm that the constructor builds for `livelockModule`. -/
def livelockVm : Vm :=
  { module_ := livelockModule,
    heap_ := { objects_ := [(1, { kind := .kString, marked := false, size_bytes := 57,
                                  value := [102], elements := [] })],
               heap_bytes_ := 57, threshold_ := 1048576 },
    const_values_ := [Value.string 1], stack_ := [], globals_values_ := [Value.null],
    globals_set_ := [0], frames_ := [], temp_roots_ := [], func_end_ip_ := [54],
    hot_counters_ := [0], code_cache_ := [], cout := [] }

/-- The state of `livelockVm` when `f` has been called for the fiftieth time
and its frame has just been pushed. -/
def livelockHot : Vm := (plain_rounds lp64 149 (run_reset livelockVm)).getD livelockVm

/-- The state of `livelockVm` after `f`, cached, has made its jump. -/
def livelockStuck : Vm :=
  (run_jit lp64 { func_index := 0, entry_ip := 53, end_ip := 54, handlers := [some .H_Jump] } 2
    livelockHot).state

/-- The cache entry that the fiftieth call of `f` makes. -/
def livelockEntry : Nat × CompiledFunc :=
  (0, { func_index := 0, entry_ip := 53, end_ip := 54, handlers := [some .H_Jump] })

end Vm

/-! ## The interpreter: notions used to state its properties -/

/-- The outcome of a call meets `post` if the call returned and `epost` if it
threw. -/
def Res.Sat {α : Type} (r : Res α) (post : α → Vm → Prop) (epost : String → Vm → Prop) : Prop :=
  match r with
  | .ok a vm => post a vm
  | .throw msg vm => epost msg vm

namespace Vm

/-- A Vm with no code, no constants and no frames whose heap is `sampleHeap`. -/
def sampleVm : Vm :=
  { module_ := { const_pool := [], functions := [], code := [] }, heap_ := sampleHeap,
    const_values_ := [], stack_ := [], globals_values_ := [], globals_set_ := [], frames_ := [],
    temp_roots_ := [], func_end_ip_ := [], hot_counters_ := [], code_cache_ := [], cout := [] }

end Vm

namespace Vm

/-- Between the two states only the stack, the heap, the temporary roots and
the output may differ. -/
def Quiet (vm vm1 : Vm) : Prop :=
  vm1.module_ = vm.module_ ∧ vm1.const_values_ = vm.const_values_ ∧
  vm1.globals_values_ = vm.globals_values_ ∧ vm1.globals_set_ = vm.globals_set_ ∧
  vm1.frames_ = vm.frames_ ∧ vm1.func_end_ip_ = vm.func_end_ip_ ∧
  vm1.hot_counters_ = vm.hot_counters_ ∧ vm1.code_cache_ = vm.code_cache_

/-- Whatever the state and however the call ends, the state it leaves is
related to the state it found by `R`. -/
structure Keeps {α : Type} (R : Vm → Vm → Prop) (x : VmM α) : Prop where
  rel : ∀ vm, R vm (x vm).state

/-- A relation between the state found and the state left that holds
whenever only the stack, the heap, the temporary roots and the output differ,
and that holds across two calls if it holds across each. -/
structure Footprint (R : Vm → Vm → Prop) : Prop where
  of_quiet : ∀ a b, Quiet a b → R a b
  trans : ∀ a b c, R a b → R b c → R a c

/-- Between the two states only the heap and the output may differ. -/
def Calm (vm vm1 : Vm) : Prop :=
  Quiet vm vm1 ∧ vm1.stack_ = vm.stack_ ∧ vm1.temp_roots_ = vm.temp_roots_

/-- The global slots and their set-bits are the same in the two states. -/
def SameGlobals (vm vm1 : Vm) : Prop :=
  vm1.globals_values_ = vm.globals_values_ ∧ vm1.globals_set_ = vm.globals_set_

end Vm

namespace Vm

/-- The states of one `run` on `vm0`, each with what `STORE_GLOBAL` has
stored in that run so far, the latest first: the run starts in the state that
`run` resets `vm0` to, with nothing stored; a handler other than
`H_StoreGlobal` that returns, and the assignments of the loops to `frames_`,
leave what is stored as it is; a `STORE_GLOBAL a` that returns has stored the
value on top of the stack in `a`. -/
inductive GlobalsRun (P : Platform) (vm0 : Vm) : List (Nat × Value) → Vm → Prop where
  | reset : GlobalsRun P vm0 [] (run_reset vm0)
  | other (st : List (Nat × Value)) (vm vm1 : Vm) (h : Handler) (ins : Instruction) :
      GlobalsRun P vm0 st vm → h ≠ .H_StoreGlobal → invoke P h ins vm = Res.ok () vm1 →
      GlobalsRun P vm0 st vm1
  | store (st : List (Nat × Value)) (vm vm1 : Vm) (ins : Instruction) (v : Value) :
      GlobalsRun P vm0 st vm → vm.stack_.getLast? = some v →
      H_StoreGlobal ins vm = Res.ok () vm1 → GlobalsRun P vm0 ((ins.a, v) :: st) vm1
  | frames (st : List (Nat × Value)) (vm : Vm) (fs : List CallFrame) :
      GlobalsRun P vm0 st vm → GlobalsRun P vm0 st { vm with frames_ := fs }

/-- A Vm for a module whose only constant is the string "x" and whose code is
`PUSH_CONST 0; STORE_GLOBAL 0; LOAD_GLOBAL 0`, as its constructor leaves it
on `lp64`. -/
def globalVm : Vm :=
  { module_ := { const_pool := [{ tag := .kString, value := .string [120] }], functions := [],
                 code := [{ op := .kPushConst, a := 0, b := 0, has_a := true, has_b := false },
                          { op := .kStoreGlobal, a := 0, b := 0, has_a := true, has_b := false },
                          { op := .kLoadGlobal, a := 0, b := 0, has_a := true, has_b := false }] },
    heap_ := { objects_ := [(1, { kind := .kString, marked := false, size_bytes := 57,
                                  value := [120], elements := [] })],
               heap_bytes_ := 57, threshold_ := 1048576 },
    const_values_ := [Value.string 1], stack_ := [], globals_values_ := [Value.null],
    globals_set_ := [0], frames_ := [], temp_roots_ := [], func_end_ip_ := [],
    hot_counters_ := [], code_cache_ := [], cout := [] }

end Vm

namespace Heap

/-- The value holds no pointer, or it points to an object of the heap. -/
def Owns (h : Heap) (v : Value) : Prop :=
  match v.pointer with
  | none => True
  | some p => p ∈ h.addrs

instance (h : Heap) (v : Value) : Decidable (Owns h v) := by
  unfold Owns
  split <;> infer_instance

/-- No dangling pointer: the pointers of the heap are pairwise distinct and
non-null, and every pointer held by one of `roots` or by an element of an
array of the heap points to an object of the heap. -/
def NoDangling (h : Heap) (roots : List Value) : Prop :=
  h.Wf ∧ (∀ v ∈ roots, h.Owns v) ∧
  (∀ o ∈ h.objects_, o.2.kind = .kArray → ∀ v ∈ o.2.elements, h.Owns v)

instance (h : Heap) (roots : List Value) : Decidable (NoDangling h roots) := by
  unfold NoDangling
  infer_instance

end Heap

namespace Vm

/-- A Vm for a module that declares the built-in `len`, with the heap
`sampleHeap` and the array of that heap on the stack. -/
def lenVm : Vm :=
  { module_ := { const_pool := [{ tag := .kString, value := .string lenName }],
                 functions := [{ name_const_index := 0, param_count := 1, local_count := 0,
                                 entry_ip := kBuiltinEntryIp, return_type := .kInt,
                                 param_types := [.kArray] }],
                 code := [{ op := .kCall, a := 0, b := 1, has_a := true, has_b := true }] },
    heap_ := sampleHeap, const_values_ := [Value.string 1], stack_ := [Value.bool true, Value.array 2],
    globals_values_ := [Value.null], globals_set_ := [0],
    frames_ := [{ func_index := kGlobalFuncIndex, ip := 1, return_ip := 0, base_stack_size := 0,
                  locals := [] }],
    temp_roots_ := [], func_end_ip_ := [1], hot_counters_ := [0], code_cache_ := [], cout := [] }

end Vm

namespace Vm

/-- A module whose function `f` has one parameter and no local: the script
pushes the int 7 and calls `f` with it. -/
def badLocalsModule : BytecodeModule :=
  { const_pool := [{ tag := .kString, value := .string [102] }, { tag := .kInt, value := .int 7 }],
    functions := [{ name_const_index := 0, param_count := 1, local_count := 0, entry_ip := 3,
                    return_type := .kVoid, param_types := [.kInt] }],
    code := [{ op := .kPushConst, a := 1, b := 0, has_a := true, has_b := false },
             { op := .kCall, a := 0, b := 1, has_a := true, has_b := true },
             { op := .kRet, a := 0, b := 0, has_a := false, has_b := false },
             { op := .kRet, a := 0, b := 0, has_a := false, has_b := false }] }

/-- A module whose void function `f` has one parameter: the script pushes the
int 7 twice and calls `f` with the second; `f` returns at once. -/
def retModule : BytecodeModule :=
  { const_pool := [{ tag := .kString, value := .string [102] }, { tag := .kInt, value := .int 7 }],
    functions := [{ name_const_index := 0, param_count := 1, local_count := 1, entry_ip := 4,
                    return_type := .kVoid, param_types := [.kInt] }],
    code := [{ op := .kPushConst, a := 1, b := 0, has_a := true, has_b := false },
             { op := .kPushConst, a := 1, b := 0, has_a := true, has_b := false },
             { op := .kCall, a := 0, b := 1, has_a := true, has_b := true },
             { op := .kRet, a := 0, b := 0, has_a := false, has_b := false },
             { op := .kRet, a := 0, b := 0, has_a := false, has_b := false }] }

/-- A module whose function `f` has no parameter and pops a value that its
caller pushed: the script pushes the int 7 and calls `f`. -/
def popModule : BytecodeModule :=
  { const_pool := [{ tag := .kString, value := .string [102] }, { tag := .kInt, value := .int 7 }],
    functions := [{ name_const_index := 0, param_count := 0, local_count := 0, entry_ip := 3,
                    return_type := .kVoid, param_types := [] }],
    code := [{ op := .kPushConst, a := 1, b := 0, has_a := true, has_b := false },
             { op := .kCall, a := 0, b := 0, has_a := true, has_b := true },
             { op := .kRet, a := 0, b := 0, has_a := false, has_b := false },
             { op := .kPop, a := 0, b := 0, has_a := false, has_b := false },
             { op := .kRet, a := 0, b := 0, has_a := false, has_b := false }] }

/-- The Vm that the constructor builds on `lp64` for a module `m` of one
function whose constants are the string "f" and the int 7, `end_ip` being the
end of the range of the function. -/
def fSevenVm (m : BytecodeModule) (end_ip : Nat) : Vm :=
  { module_ := m,
    heap_ := { objects_ := [(1, { kind := .kString, marked := false, size_bytes := 57,
                                  value := [102], elements := [] })],
               heap_bytes_ := 57, threshold_ := 1048576 },
    const_values_ := [Value.string 1, Value.int (BigInt.ofLimbs false [7])], stack_ := [],
    globals_values_ := [Value.null, Value.null], globals_set_ := [0, 0], frames_ := [],
    temp_roots_ := [], func_end_ip_ := [end_ip], hot_counters_ := [0], code_cache_ := [],
    cout := [] }

/-- The state of the run of `retModule` in which `f` is about to return. -/
def retVm : Vm :=
  { fSevenVm retModule 5 with
    stack_ := [Value.int (BigInt.ofLimbs false [7])],
    frames_ := [{ func_index := kGlobalFuncIndex, ip := 3, return_ip := 0, base_stack_size := 0,
                  locals := [] },
                { func_index := 0, ip := 4, return_ip := 3, base_stack_size := 1,
                  locals := [Value.int (BigInt.ofLimbs false [7])] }],
    hot_counters_ := [1] }

/-- The state of the run of `popModule` in which `f` has popped the value of
its caller. -/
def popVm : Vm :=
  { fSevenVm popModule 5 with
    stack_ := [],
    frames_ := [{ func_index := kGlobalFuncIndex, ip := 2, return_ip := 0, base_stack_size := 0,
                  locals := [] },
                { func_index := 0, ip := 4, return_ip := 2, base_stack_size := 1, locals := [] }],
    hot_counters_ := [1] }

end Vm

/-! ## The interpreter: the defensive messages and validated states -/

namespace Vm

/-- The messages of the checks that the handlers make on the operands of an
instruction and that `ValidateModule` makes as well. -/
def defensiveMsgs : List String :=
  ["PUSH_CONST missing a", "PUSH_CONST const index out of range", "LOAD_GLOBAL missing a",
   "STORE_GLOBAL missing a", "LOAD_GLOBAL const index out of range",
   "STORE_GLOBAL const index out of range", "CALL missing operands", "CALL bad func index",
   "JUMP missing a", "JUMP_FALSE missing a", "JUMP target out of range",
   "JUMP_FALSE target out of range"]

/-- A message that is neither one of `defensiveMsgs` nor the report of a
dangling pointer. -/
def Plain (msg : String) : Prop := msg ∉ Heap.danglingMsg :: defensiveMsgs

instance (msg : String) : Decidable (Plain msg) := by
  unfold Plain
  infer_instance

/-- A message that is none of `defensiveMsgs`. -/
def Undefended (msg : String) : Prop := msg ∉ defensiveMsgs

instance (msg : String) : Decidable (Undefended msg) := by
  unfold Undefended
  infer_instance

/-- However the call ends, if it throws, the message meets `B`. -/
structure Avoids {α : Type} (B : String → Prop) (x : VmM α) : Prop where
  msgs : ∀ vm m, (x vm).message = some m → B m

/-- If the call returns an error, the message meets `B`. -/
structure AvoidsE {α : Type} (B : String → Prop) (x : Except String α) : Prop where
  msgs : ∀ m, x = .error m → B m

/-- The cache entry `cf` agrees with the code `code`: each of its handlers is
the one that `Dispatch` gives for the instruction at its place. -/
def CompiledOk (code : List Instruction) (cf : CompiledFunc) : Prop :=
  ∀ off h, cf.handlers.get? off = some (some h) →
    ∃ ins, code.get? (cf.entry_ip + off) = some ins ∧ Dispatch ins.op = some h

/-- The state of a Vm for a validated module: the module has passed
`ValidateModule`, there is a constant value and a global slot for each
constant, and every cache entry agrees with the code. -/
def Validated (vm : Vm) : Prop :=
  ValidateModule vm.module_ = .ok () ∧
  vm.const_values_.length = vm.module_.const_pool.length ∧
  vm.globals_values_.length = vm.module_.const_pool.length ∧
  ∀ e ∈ vm.code_cache_, CompiledOk vm.module_.code e.2

/-- Between the two states the module and the constant values are the same,
the number of global slots is the same, and cache entries that agree with
the code have stayed so. -/
def Static (vm vm1 : Vm) : Prop :=
  vm1.module_ = vm.module_ ∧ vm1.const_values_ = vm.const_values_ ∧
  vm1.globals_values_.length = vm.globals_values_.length ∧
  ((∀ e ∈ vm.code_cache_, CompiledOk vm.module_.code e.2) →
    ∀ e ∈ vm1.code_cache_, CompiledOk vm1.module_.code e.2)

end Vm

/-! ## BigInt: the states of the multi-limb division loop -/

namespace BigInt

/-- The states `(q, r)` of the multi-limb loop of `divmod_abs(a, b)`, each
with the index of the round it is about to enter plus one: the loop starts at
`a.len_` with `q` of length `a.len_` and `r` zero, and the round at index `i`
that returns leads from a state at `i + 1` to a state at `i`. -/
inductive BigLoopAt (a b : BigInt) : Nat → BigInt × BigInt → Prop where
  | start : BigLoopAt a b a.len_ ({ zero with len_ := a.len_ }, zero)
  | round (i : Nat) (st st1 : BigInt × BigInt) : BigLoopAt a b (i + 1) st →
      divmod_big_step a b i st = .ok st1 → BigLoopAt a b i st1

end BigInt

/-! ## Heap: a heap with cycles -/

/-- A heap with cycles: the array at 1 holds itself, the arrays at 2 and 3
hold each other, the array at 2 also holds the string at 4, and nothing
holds the string at 5. -/
def cyclicHeap : Heap :=
  { objects_ :=
      [(1, { kind := .kArray, marked := false, size_bytes := 152, value := [],
             elements := [Value.array 1] }),
       (2, { kind := .kArray, marked := false, size_bytes := 256, value := [],
             elements := [Value.array 3, Value.string 4] }),
       (3, { kind := .kArray, marked := false, size_bytes := 152, value := [],
             elements := [Value.array 2] }),
       (4, { kind := .kString, marked := false, size_bytes := 57, value := [120], elements := [] }),
       (5, { kind := .kString, marked := false, size_bytes := 57, value := [121], elements := [] })],
    heap_bytes_ := 674,
    threshold_ := 1024 * 1024 }

/-- Roots into `cyclicHeap`: the arrays at 1 and 2, the latter twice. -/
def cyclicRoots : List Value := [Value.array 1, Value.array 2, Value.array 2]

/-! ## The interpreter: modules whose functions share or overshoot an entry -/

namespace Vm

end Vm

/-! ## The interpreter: safe states -/

namespace Heap

/-- The value holds no pointer, or it holds one of the addresses `A`. -/
def Within (A : List Nat) (v : Value) : Prop :=
  match v.pointer with
  | none => True
  | some p => p ∈ A

/-- The objects of the heap are at the addresses `A`, which are pairwise
distinct and non-null, and every pointer held by an element of an array of
the heap is one of `A`. -/
def Good (A : List Nat) (h : Heap) : Prop :=
  h.addrs = A ∧ h.Wf ∧ ∀ o ∈ h.objects_, o.2.kind = .kArray → ∀ v ∈ o.2.elements, Within A v

end Heap

namespace Vm

/-- The Vm `sampleVm` with the two strings of its heap on the stack and the
threshold of the heap at 0, so that the next allocation collects. -/
def tightVm : Vm :=
  { sampleVm with heap_ := { sampleHeap with threshold_ := 0 },
                  stack_ := [Value.string 1, Value.string 3] }

/-- No dangling reference in the state: the pointers of the heap are pairwise
distinct and non-null, and every pointer held by a value that `Roots()`
enumerates (the constants, the stack, the locals of every frame, the global
slots that are set, the temporary roots) or by an element of an array of the
heap points to an object of the heap. -/
def Safe (vm : Vm) : Prop := vm.heap_.NoDangling vm.Roots

instance (vm : Vm) : Decidable (Safe vm) := by
  unfold Safe
  infer_instance

/-- The state is safe and the objects of its heap are at the addresses
`A`. -/
def Inv (A : List Nat) (vm : Vm) : Prop :=
  Heap.Good A vm.heap_ ∧ ∀ v ∈ vm.Roots, Heap.Within A v

/-- If the call returns a value, the value meets `Q`. -/
structure YieldsE {α : Type} (Q : α → Prop) (x : Except String α) : Prop where
  vals : ∀ a, x = .ok a → Q a

/-- From a safe state with the objects at `A` the call leaves such a state,
whether it returns or throws; what it returns meets `G`, and what it throws
is not the report of a dangling pointer. -/
structure Tidy {α : Type} (A : List Nat) (G : α → Prop) (x : VmM α) : Prop where
  sat : ∀ vm, Inv A vm →
    (x vm).Sat (fun a vm1 => Inv A vm1 ∧ G a) (fun m vm1 => Inv A vm1 ∧ m ≠ Heap.danglingMsg)

/-- From a safe state with the objects at `A` the call leaves a safe state,
whether it returns or throws, with the objects at some `A1`; what it returns
meets `G A1`, and what it throws is not the report of a dangling pointer. -/
structure Moves {α : Type} (A : List Nat) (G : List Nat → α → Prop) (x : VmM α) : Prop where
  sat : ∀ vm, Inv A vm →
    (x vm).Sat (fun a vm1 => ∃ A1, Inv A1 vm1 ∧ G A1 a)
      (fun m vm1 => (∃ A1, Inv A1 vm1) ∧ m ≠ Heap.danglingMsg)

/-- As `Moves`, from the states that hold the values `K` among their
roots. -/
structure MovesFrom {α : Type} (A : List Nat) (K : List Value) (G : List Nat → α → Prop)
    (x : VmM α) : Prop where
  sat : ∀ vm, Inv A vm → (∀ v ∈ K, v ∈ vm.Roots) →
    (x vm).Sat (fun a vm1 => ∃ A1, Inv A1 vm1 ∧ G A1 a)
      (fun m vm1 => (∃ A1, Inv A1 vm1) ∧ m ≠ Heap.danglingMsg)

end Vm

namespace BigInt

/-! ## Limb sums and limb storage -/

theorem kBase_pos : 0 < kBase := by decide

theorem kBase_eq : kBase = 1000000000 := rfl

theorem pow_kBase_pos (n : Nat) : 0 < kBase ^ n := Nat.pow_pos kBase_pos

theorem psum_congr (f g : Nat → Nat) (n : Nat) (h : ∀ k, k < n → f k = g k) :
    psum f n = psum g n := by
  induction n with
  | zero => rfl
  | succ n ih =>
    simp only [psum]
    rw [ih (fun k hk => h k (Nat.lt_succ_of_lt hk)), h n (Nat.lt_succ_self n)]

theorem psum_lt (f : Nat → Nat) (n : Nat) (h : ∀ k, k < n → f k < kBase) :
    psum f n < kBase ^ n := by
  induction n with
  | zero => simp [psum]
  | succ n ih =>
    have h1 := ih (fun k hk => h k (Nat.lt_succ_of_lt hk))
    have h2 : f n + 1 ≤ kBase := h n (Nat.lt_succ_self n)
    have h3 : (f n + 1) * kBase ^ n ≤ kBase * kBase ^ n := Nat.mul_le_mul_right _ h2
    simp only [psum, pow_succ]
    nlinarith

theorem psum_ext_zero (f : Nat → Nat) (m n : Nat) (hmn : m ≤ n)
    (h : ∀ k, m ≤ k → k < n → f k = 0) : psum f n = psum f m := by
  induction n with
  | zero =>
    have : m = 0 := Nat.le_zero.mp hmn
    subst this; rfl
  | succ n ih =>
    rcases Nat.eq_or_lt_of_le hmn with h1 | h1
    · rw [h1]
    · have h2 : m ≤ n := Nat.lt_succ_iff.mp h1
      simp only [psum]
      rw [h n h2 (Nat.lt_succ_self n), ih h2 (fun k hk1 hk2 => h k hk1 (Nat.lt_succ_of_lt hk2))]
      simp

theorem psum_ge_top (f : Nat → Nat) (n : Nat) (hn : 0 < n) (h : f (n - 1) ≠ 0) :
    kBase ^ (n - 1) ≤ psum f n := by
  obtain ⟨m, rfl⟩ : ∃ m, n = m + 1 := ⟨n - 1, by omega⟩
  simp only [psum, Nat.add_sub_cancel] at *
  have : 1 ≤ f m := Nat.pos_of_ne_zero h
  have := Nat.mul_le_mul_right (kBase ^ m) this
  omega

theorem psum_inj (f g : Nat → Nat) (n : Nat) (hf : ∀ k, k < n → f k < kBase)
    (hg : ∀ k, k < n → g k < kBase) (h : psum f n = psum g n) :
    ∀ k, k < n → f k = g k := by
  induction n with
  | zero => intro k hk; omega
  | succ n ih =>
    have hf1 := psum_lt f n (fun k hk => hf k (Nat.lt_succ_of_lt hk))
    have hg1 := psum_lt g n (fun k hk => hg k (Nat.lt_succ_of_lt hk))
    simp only [psum] at h
    have hp := pow_kBase_pos n
    have htop : f n = g n := by
      rcases Nat.lt_trichotomy (f n) (g n) with h1 | h1 | h1
      · have : (f n + 1) * kBase ^ n ≤ g n * kBase ^ n := Nat.mul_le_mul_right _ h1
        nlinarith
      · exact h1
      · have : (g n + 1) * kBase ^ n ≤ f n * kBase ^ n := Nat.mul_le_mul_right _ h1
        nlinarith
    rw [htop] at h
    have hrest : psum f n = psum g n := by omega
    intro k hk
    rcases Nat.eq_or_lt_of_le (Nat.lt_succ_iff.mp hk) with h1 | h1
    · rw [h1]; exact htop
    · exact ih (fun k hk => hf k (Nat.lt_succ_of_lt hk)) (fun k hk => hg k (Nat.lt_succ_of_lt hk)) hrest k h1

/-- Comparison is decided by the top differing limb. -/
theorem psum_lt_of_top_lt (f g : Nat → Nat) (n : Nat) (hf : ∀ k, k < n → f k < kBase)
    (h : f n < g n) : psum f (n + 1) < psum g (n + 1) := by
  have hf1 := psum_lt f n hf
  simp only [psum]
  have : (f n + 1) * kBase ^ n ≤ g n * kBase ^ n := Nat.mul_le_mul_right _ h
  nlinarith

theorem digit_setDigit (x : BigInt) (i v j : Nat) :
    (x.setDigit i v).digit j = if i = j ∧ i < x.digits_.length then v else x.digit j := by
  simp only [digit, setDigit, List.getD_eq_getElem?_getD, List.getElem?_set]
  by_cases h1 : i = j
  · subst h1
    by_cases h2 : i < x.digits_.length
    · simp [h2]
    · simp only [if_true, h2, if_false, and_false]
      rw [List.getElem?_eq_none (by omega)]
  · simp [h1]

theorem digit_setDigit_ne (x : BigInt) (i v j : Nat) (h : i ≠ j) :
    (x.setDigit i v).digit j = x.digit j := by
  rw [digit_setDigit]; simp [h]

theorem digit_setDigit_self (x : BigInt) (i v : Nat) (h : i < x.digits_.length) :
    (x.setDigit i v).digit i = v := by
  rw [digit_setDigit]; simp [h]

@[simp] theorem setDigit_length (x : BigInt) (i v : Nat) :
    (x.setDigit i v).digits_.length = x.digits_.length := by
  simp [setDigit]

@[simp] theorem setDigit_len (x : BigInt) (i v : Nat) : (x.setDigit i v).len_ = x.len_ := rfl

@[simp] theorem setDigit_negative (x : BigInt) (i v : Nat) :
    (x.setDigit i v).negative_ = x.negative_ := rfl

theorem zero_digit (k : Nat) : zero.digit k = 0 := by
  simp only [digit, zero, List.getD_eq_getElem?_getD]
  by_cases h : k < kMaxDigits
  · rw [List.getElem?_eq_getElem (by simpa using h)]; simp
  · rw [List.getElem?_eq_none (by simpa using h)]; rfl

theorem zero_length : zero.digits_.length = kMaxDigits := by simp [zero]

/-! ## Trimming, canonical form and magnitude comparison -/

theorem trim_len_le (ds : List Nat) (n : Nat) : trim_len ds n ≤ n := by
  induction n with
  | zero => simp [trim_len]
  | succ n ih =>
    simp only [trim_len]
    split
    · omega
    · omega

theorem trim_len_zero_above (ds : List Nat) (n : Nat) :
    ∀ k, trim_len ds n ≤ k → k < n → ds.getD k 0 = 0 := by
  induction n with
  | zero => intro k _ hk; omega
  | succ n ih =>
    intro k h1 h2
    simp only [trim_len] at h1
    split at h1
    · rename_i h0
      rcases Nat.eq_or_lt_of_le (Nat.lt_succ_iff.mp h2) with h3 | h3
      · rw [h3]; exact h0
      · exact ih k h1 h3
    · omega

theorem trim_len_top (ds : List Nat) (n : Nat) (h : 0 < trim_len ds n) :
    ds.getD (trim_len ds n - 1) 0 ≠ 0 := by
  induction n with
  | zero => simp [trim_len] at h
  | succ n ih =>
    simp only [trim_len] at h ⊢
    split
    · rename_i h0
      rw [if_pos h0] at h
      exact ih h
    · rename_i h0
      simpa using h0

theorem normalize_zero_len (x : BigInt) : (normalize_zero x).len_ = x.len_ := by
  unfold normalize_zero; split <;> rfl

theorem normalize_zero_digits (x : BigInt) : (normalize_zero x).digits_ = x.digits_ := by
  unfold normalize_zero; split <;> rfl

theorem normalize_zero_digit (x : BigInt) (i : Nat) : (normalize_zero x).digit i = x.digit i := by
  simp [digit, normalize_zero_digits]

theorem normalize_zero_negative (x : BigInt) :
    (normalize_zero x).negative_ = (if x.len_ = 0 then false else x.negative_) := by
  unfold normalize_zero; split <;> rfl

theorem normalize_zero_mag (x : BigInt) : (normalize_zero x).mag = x.mag := by
  unfold mag
  rw [normalize_zero_len]
  exact psum_congr _ _ _ (fun k _ => normalize_zero_digit x k)

theorem trim_len_eq (x : BigInt) : (trim x).len_ = trim_len x.digits_ x.len_ := by
  simp [trim, normalize_zero_len]

theorem trim_digits (x : BigInt) : (trim x).digits_ = x.digits_ := by
  simp [trim, normalize_zero_digits]

theorem trim_digit (x : BigInt) (i : Nat) : (trim x).digit i = x.digit i := by
  simp [digit, trim_digits]

theorem trim_negative (x : BigInt) :
    (trim x).negative_ = (if (trim x).len_ = 0 then false else x.negative_) := by
  simp [trim, normalize_zero_negative, normalize_zero_len]

theorem trim_mag (x : BigInt) : (trim x).mag = x.mag := by
  unfold mag
  rw [psum_congr _ _ _ (fun k _ => trim_digit x k), trim_len_eq]
  exact (psum_ext_zero x.digit _ _ (trim_len_le _ _)
    (fun k h1 h2 => trim_len_zero_above x.digits_ x.len_ k h1 h2)).symm

/-- After `trim` the magnitude part of canonical form holds. -/
theorem trim_magOk (x : BigInt) (hs : x.digits_.length = kMaxDigits) (hl : x.len_ ≤ kMaxDigits)
    (hd : ∀ i, i < x.len_ → x.digit i < kBase) : MagOk (trim x) := by
  refine ⟨by rw [trim_digits]; exact hs, ?_, ?_, ?_⟩
  · rw [trim_len_eq]; exact le_trans (trim_len_le _ _) hl
  · intro i hi
    rw [trim_digit]
    rw [trim_len_eq] at hi
    exact hd i (lt_of_lt_of_le hi (trim_len_le _ _))
  · intro h
    rw [trim_len_eq] at h ⊢
    rw [trim_digit]
    exact trim_len_top x.digits_ x.len_ h

theorem MagOk.mag_lt {x : BigInt} (h : MagOk x) : x.mag < kBase ^ x.len_ :=
  psum_lt _ _ h.2.2.1

theorem pow_kBase_mono {m n : Nat} (h : m ≤ n) : kBase ^ m ≤ kBase ^ n :=
  Nat.pow_le_pow_right kBase_pos h

theorem MagOk.mag_lt_cap {x : BigInt} (h : MagOk x) : x.mag < kBase ^ kMaxDigits :=
  lt_of_lt_of_le h.mag_lt (pow_kBase_mono h.2.1)

theorem MagOk.mag_ge {x : BigInt} (h : MagOk x) (hl : 0 < x.len_) :
    kBase ^ (x.len_ - 1) ≤ x.mag :=
  psum_ge_top _ _ hl (h.2.2.2 hl)

theorem MagOk.len_eq_zero_iff {x : BigInt} (h : MagOk x) : x.len_ = 0 ↔ x.mag = 0 := by
  constructor
  · intro h0
    simp [mag, h0, psum]
  · intro h0
    by_contra hne
    have := h.mag_ge (Nat.pos_of_ne_zero hne)
    have := pow_kBase_pos (x.len_ - 1)
    omega

theorem MagOk.with_negative {x : BigInt} (h : MagOk x) (s : Bool) :
    MagOk { x with negative_ := s } := h

theorem mag_with_negative (x : BigInt) (s : Bool) : ({ x with negative_ := s } : BigInt).mag = x.mag :=
  rfl

theorem zero_magOk : MagOk zero := by decide

theorem zero_mag : zero.mag = 0 := rfl

theorem zero_canonical : Canonical zero := by decide

theorem zero_value : zero.value = 0 := by decide

theorem value_eq_zero_iff (x : BigInt) : x.value = 0 ↔ x.mag = 0 := by
  unfold value
  split <;> omega

/-- From the magnitude part and the sign rule to canonical form. -/
theorem MagOk.canonical {x : BigInt} (h : MagOk x) (hz : x.len_ = 0 → x.negative_ = false) :
    Canonical x :=
  ⟨h, by rw [value_eq_zero_iff]; exact h.len_eq_zero_iff, hz⟩

theorem normalize_zero_canonical {x : BigInt} (h : MagOk x) : Canonical (normalize_zero x) := by
  refine MagOk.canonical ?_ ?_
  · unfold normalize_zero
    split
    · exact h.with_negative false
    · exact h
  · intro h0
    rw [normalize_zero_negative]
    rw [normalize_zero_len] at h0
    simp [h0]

theorem normalize_zero_value_of_canonical_mag (x : BigInt) (h : MagOk x) :
    (normalize_zero x).value = x.value := by
  unfold value
  rw [normalize_zero_mag, normalize_zero_negative]
  by_cases h0 : x.len_ = 0
  · have := h.len_eq_zero_iff.mp h0
    simp [h0, this]
  · simp [h0]

theorem compare_abs_loop_spec (a b : BigInt) (n : Nat)
    (ha : ∀ i, i < n → a.digit i < kBase) (hb : ∀ i, i < n → b.digit i < kBase) :
    (compare_abs_loop a b n = -1 ∧ psum a.digit n < psum b.digit n) ∨
    (compare_abs_loop a b n = 0 ∧ psum a.digit n = psum b.digit n) ∨
    (compare_abs_loop a b n = 1 ∧ psum b.digit n < psum a.digit n) := by
  induction n with
  | zero => right; left; simp [compare_abs_loop, psum]
  | succ n ih =>
    have ha1 : ∀ i, i < n → a.digit i < kBase := fun k hk => ha k (Nat.lt_succ_of_lt hk)
    have hb1 : ∀ i, i < n → b.digit i < kBase := fun k hk => hb k (Nat.lt_succ_of_lt hk)
    simp only [compare_abs_loop]
    by_cases h1 : a.digit n = b.digit n
    · simp only [h1, ne_eq, not_true_eq_false, if_false, psum]
      rcases ih ha1 hb1 with h | h | h
      · left; exact ⟨h.1, by omega⟩
      · right; left; exact ⟨h.1, by omega⟩
      · right; right; exact ⟨h.1, by omega⟩
    · simp only [ne_eq, h1, not_false_eq_true, if_true]
      by_cases h2 : a.digit n < b.digit n
      · left; simp only [h2, if_true, true_and]
        exact psum_lt_of_top_lt _ _ n ha1 h2
      · right; right; simp only [h2, if_false, true_and]
        exact psum_lt_of_top_lt _ _ n hb1 (by omega)

theorem compare_abs_spec (a b : BigInt) (ha : MagOk a) (hb : MagOk b) :
    (compare_abs a b = -1 ∧ a.mag < b.mag) ∨
    (compare_abs a b = 0 ∧ a.mag = b.mag) ∨
    (compare_abs a b = 1 ∧ b.mag < a.mag) := by
  unfold compare_abs
  by_cases h : a.len_ = b.len_
  · simp only [h, ne_eq, not_true_eq_false, if_false]
    have := compare_abs_loop_spec a b b.len_ (by rw [← h]; exact ha.2.2.1) hb.2.2.1
    unfold mag
    rw [h]
    exact this
  · simp only [ne_eq, h, not_false_eq_true, if_true]
    by_cases h2 : a.len_ < b.len_
    · left; simp only [h2, if_true, true_and]
      have h3 := ha.mag_lt
      have h4 := hb.mag_ge (by omega)
      have h5 : kBase ^ a.len_ ≤ kBase ^ (b.len_ - 1) := pow_kBase_mono (by omega)
      omega
    · right; right; simp only [h2, if_false, true_and]
      have h3 := hb.mag_lt
      have h4 := ha.mag_ge (by omega)
      have h5 : kBase ^ b.len_ ≤ kBase ^ (a.len_ - 1) := pow_kBase_mono (by omega)
      omega

theorem compare_abs_lt_iff (a b : BigInt) (ha : MagOk a) (hb : MagOk b) :
    compare_abs a b < 0 ↔ a.mag < b.mag := by
  rcases compare_abs_spec a b ha hb with h | h | h <;> rw [h.1] <;> constructor <;> intro h' <;> omega

theorem compare_abs_gt_iff (a b : BigInt) (ha : MagOk a) (hb : MagOk b) :
    compare_abs a b > 0 ↔ b.mag < a.mag := by
  rcases compare_abs_spec a b ha hb with h | h | h <;> rw [h.1] <;> constructor <;> intro h' <;> omega

theorem compare_abs_eq_iff (a b : BigInt) (ha : MagOk a) (hb : MagOk b) :
    compare_abs a b = 0 ↔ a.mag = b.mag := by
  rcases compare_abs_spec a b ha hb with h | h | h <;> rw [h.1] <;> constructor <;> intro h' <;> omega

/-! ## Magnitude addition and subtraction -/

theorem limb_lt (x : BigInt) (h : MagOk x) (i : Nat) : limb x i < kBase := by
  unfold limb
  split
  · exact h.2.2.1 i (by assumption)
  · exact kBase_pos

theorem psum_limb (x : BigInt) (n : Nat) (h : x.len_ ≤ n) : psum (limb x) n = x.mag := by
  rw [psum_ext_zero (limb x) x.len_ n h (fun k h1 _ => by simp [limb]; omega)]
  exact psum_congr _ _ _ (fun k hk => by simp [limb, hk])

theorem psum_limb_le (x : BigInt) (n : Nat) : psum (limb x) n ≤ x.mag := by
  by_cases h : x.len_ ≤ n
  · rw [psum_limb x n h]
  · have h1 : psum (limb x) n = psum x.digit n :=
      psum_congr _ _ _ (fun k hk => by simp [limb]; omega)
    rw [h1]
    have : ∀ m, psum x.digit n ≤ psum x.digit (n + m) := by
      intro m
      induction m with
      | zero => exact le_refl _
      | succ m ih => rw [← Nat.add_assoc]; simp only [psum]; omega
    have h2 := this (x.len_ - n)
    rw [show n + (x.len_ - n) = x.len_ by omega] at h2
    exact h2

/-- Writing `cur % kBase` at weight `P` and carrying `cur / kBase` to weight
`P * kBase` adds `cur * P`. -/
theorem carry_arith (P acc cur : Nat) :
    acc + (cur % kBase) * P + (cur / kBase) * (P * kBase) = acc + cur * P := by
  have h := Nat.mod_add_div cur kBase
  have : (cur % kBase) * P + (cur / kBase) * (P * kBase) = (cur % kBase + kBase * (cur / kBase)) * P := by
    ring
  rw [Nat.add_assoc, this, h]

/-- The value of the first `n` limbs is not changed by a write at `i >= n`. -/
theorem psum_setDigit_ge (x : BigInt) (i v n : Nat) (h : n ≤ i) :
    psum (x.setDigit i v).digit n = psum x.digit n :=
  psum_congr _ _ _ (fun k hk => digit_setDigit_ne x i v k (by omega))

theorem add_abs_loop_spec (a b : BigInt) (ha : MagOk a) (hb : MagOk b) (max_len : Nat)
    (hmax : max_len = if a.len_ > b.len_ then a.len_ else b.len_) :
    ∀ (fuel i carry : Nat) (out : BigInt),
      i ≤ kMaxDigits → kMaxDigits + 1 ≤ fuel + i → carry ≤ 1 →
      out.digits_.length = kMaxDigits → out.len_ = i →
      (∀ k, k < i → out.digit k < kBase) →
      psum out.digit i + carry * kBase ^ i = psum (limb a) i + psum (limb b) i →
      (∃ r, add_abs_loop a b max_len fuel i carry out = .ok r ∧
          r.digits_.length = kMaxDigits ∧ r.len_ ≤ kMaxDigits ∧
          (∀ k, k < r.len_ → r.digit k < kBase) ∧ r.mag = a.mag + b.mag) ∨
      (add_abs_loop a b max_len fuel i carry out = .error overflowMsg ∧
          kBase ^ kMaxDigits ≤ a.mag + b.mag) := by
  have hla := ha.2.1
  have hlb := hb.2.1
  have hml : max_len ≤ kMaxDigits := by rw [hmax]; split <;> assumption
  have hma : a.len_ ≤ max_len := by rw [hmax]; split <;> omega
  have hmb : b.len_ ≤ max_len := by rw [hmax]; split <;> omega
  intro fuel
  induction fuel with
  | zero => intro i carry out hi hf; omega
  | succ fuel ih =>
    intro i carry out hi hf hc hs hl hd hinv
    simp only [add_abs_loop]
    have hsumeq : (carry + (if i < a.len_ then a.digit i else 0) +
        (if i < b.len_ then b.digit i else 0)) = carry + limb a i + limb b i := rfl
    rw [hsumeq]
    by_cases hcond : i < max_len ∨ carry ≠ 0
    · rw [if_pos hcond]
      by_cases hov : i ≥ kMaxDigits
      · rw [if_pos hov]
        right
        refine ⟨rfl, ?_⟩
        have hi20 : i = kMaxDigits := by omega
        have hc1 : carry = 1 := by omega
        rw [psum_limb a i (by omega), psum_limb b i (by omega), hc1, hi20] at hinv
        omega
      · rw [if_neg hov]
        have hal := limb_lt a ha i
        have hbl := limb_lt b hb i
        have hsum : carry + limb a i + limb b i < 2 * kBase := by omega
        have hlt : i < out.digits_.length := by omega
        apply ih
        · omega
        · omega
        · have := (Nat.div_lt_iff_lt_mul kBase_pos).mpr hsum
          show (carry + limb a i + limb b i) / kBase ≤ 1
          omega
        · simp [hs]
        · rfl
        · intro k hk
          show (out.setDigit i _).digit k < kBase
          rw [digit_setDigit]
          split
          · exact Nat.mod_lt _ kBase_pos
          · exact hd k (by omega)
        · show psum (out.setDigit i _).digit (i + 1) + _ * kBase ^ (i + 1) = _
          simp only [psum]
          rw [psum_setDigit_ge _ _ _ _ (le_refl i), digit_setDigit_self _ _ _ hlt, pow_succ]
          rw [carry_arith (kBase ^ i) (psum out.digit i) (carry + limb a i + limb b i)]
          rw [Nat.add_mul, Nat.add_mul]
          omega
    · rw [if_neg hcond]
      left
      have hc0 : carry = 0 := by omega
      refine ⟨out, rfl, hs, by omega, by rw [hl]; exact hd, ?_⟩
      rw [psum_limb a i (by omega), psum_limb b i (by omega), hc0] at hinv
      show psum out.digit out.len_ = a.mag + b.mag
      rw [hl]
      omega

/-- Magnitude addition: exact, and it throws exactly on a carry out of the last
limb. -/
theorem add_abs_spec (a b : BigInt) (ha : MagOk a) (hb : MagOk b) :
    (∃ r, add_abs a b = .ok r ∧ MagOk r ∧ r.mag = a.mag + b.mag) ∨
    (add_abs a b = .error overflowMsg ∧ kBase ^ kMaxDigits ≤ a.mag + b.mag) := by
  unfold add_abs
  rcases add_abs_loop_spec a b ha hb _ rfl (kMaxDigits + 1) 0 0 zero (by omega) (by omega)
    (by omega) zero_length rfl (fun k hk => by omega) (by simp [psum]) with ⟨r, h1, h2, h3, h4, h5⟩ | ⟨h1, h2⟩
  · left
    refine ⟨trim r, ?_, trim_magOk r h2 h3 h4, by rw [trim_mag, h5]⟩
    simp only [h1]
    rfl
  · right
    refine ⟨?_, h2⟩
    simp only [h1]
    rfl

theorem len_le_of_mag_le (a b : BigInt) (ha : MagOk a) (hb : MagOk b) (h : b.mag ≤ a.mag) :
    b.len_ ≤ a.len_ := by
  by_contra hlt
  have h1 := ha.mag_lt
  have h2 := hb.mag_ge (by omega)
  have h3 : kBase ^ a.len_ ≤ kBase ^ (b.len_ - 1) := pow_kBase_mono (by omega)
  omega

theorem sub_abs_fold_spec (a b : BigInt) (ha : MagOk a) (hb : MagOk b) (n : Nat) (hn : n ≤ a.len_) :
    ∃ (out : BigInt) (bw : Nat),
      (List.range n).foldl (sub_abs_step a b) ({ zero with len_ := a.len_ }, 0) = (out, (bw : Int)) ∧
      bw ≤ 1 ∧ out.digits_.length = kMaxDigits ∧ out.len_ = a.len_ ∧
      (∀ k, k < n → out.digit k < kBase) ∧
      psum out.digit n + psum (limb b) n = psum a.digit n + bw * kBase ^ n := by
  induction n with
  | zero =>
    exact ⟨_, 0, rfl, by omega, zero_length, rfl, fun k hk => by omega, by simp [psum]⟩
  | succ n ih =>
    obtain ⟨out, bw, h1, h2, h3, h4, h5, h6⟩ := ih (by omega)
    rw [List.range_succ, List.foldl_append, h1]
    have han : a.digit n < kBase := ha.2.2.1 n (by omega)
    have hbn := limb_lt b hb n
    have hlt : n < out.digits_.length := by have := ha.2.1; omega
    have hk32 : (kBase : Int) < 2 ^ 32 := by decide
    have hcur1 : (if n < b.len_ then (a.digit n : Int) - (bw : Int) - (b.digit n : Int)
        else (a.digit n : Int) - (bw : Int)) = (a.digit n : Int) - (bw : Int) - (limb b n : Int) := by
      unfold limb; split <;> simp
    simp only [List.foldl_cons, List.foldl_nil, sub_abs_step, hcur1]
    by_cases hneg : (a.digit n : Int) - (bw : Int) - (limb b n : Int) < 0
    · rw [if_pos hneg]
      have hr : 0 ≤ (a.digit n : Int) - (bw : Int) - (limb b n : Int) + (kBase : Int) := by omega
      have hr2 : (a.digit n : Int) - (bw : Int) - (limb b n : Int) + (kBase : Int) < 2 ^ 32 := by omega
      rw [Int.emod_eq_of_lt hr hr2]
      obtain ⟨d, hd⟩ := Int.eq_ofNat_of_zero_le hr
      rw [hd]
      refine ⟨_, 1, rfl, by omega, by simp [h3], h4, ?_, ?_⟩
      · intro k hk
        rw [digit_setDigit]
        split
        · simp only [Int.toNat_ofNat]; omega
        · exact h5 k (by omega)
      · simp only [psum, Int.toNat_ofNat]
        rw [psum_setDigit_ge _ _ _ _ (le_refl n), digit_setDigit_self _ _ _ hlt, pow_succ]
        have e : d + limb b n + bw = a.digit n + kBase := by omega
        have e2 : (d + limb b n + bw) * kBase ^ n = (a.digit n + kBase) * kBase ^ n := by rw [e]
        simp only [Nat.add_mul] at e2
        have e3 : kBase * kBase ^ n = 1 * (kBase ^ n * kBase) := by ring
        omega
    · rw [if_neg hneg]
      have hr : 0 ≤ (a.digit n : Int) - (bw : Int) - (limb b n : Int) := by omega
      have hr2 : (a.digit n : Int) - (bw : Int) - (limb b n : Int) < 2 ^ 32 := by omega
      rw [Int.emod_eq_of_lt hr hr2]
      obtain ⟨d, hd⟩ := Int.eq_ofNat_of_zero_le hr
      rw [hd]
      refine ⟨_, 0, rfl, by omega, by simp [h3], h4, ?_, ?_⟩
      · intro k hk
        rw [digit_setDigit]
        split
        · simp only [Int.toNat_ofNat]; omega
        · exact h5 k (by omega)
      · simp only [psum, Int.toNat_ofNat]
        rw [psum_setDigit_ge _ _ _ _ (le_refl n), digit_setDigit_self _ _ _ hlt]
        have e : d + limb b n + bw = a.digit n := by omega
        have e2 : (d + limb b n + bw) * kBase ^ n = a.digit n * kBase ^ n := by rw [e]
        simp only [Nat.add_mul] at e2
        omega

/-- Magnitude subtraction of a smaller magnitude is exact. -/
theorem sub_abs_spec (a b : BigInt) (ha : MagOk a) (hb : MagOk b) (h : b.mag ≤ a.mag) :
    MagOk (sub_abs a b) ∧ (sub_abs a b).mag = a.mag - b.mag := by
  obtain ⟨out, bw, h1, h2, h3, h4, h5, h6⟩ := sub_abs_fold_spec a b ha hb a.len_ (le_refl _)
  have hlen := len_le_of_mag_le a b ha hb h
  unfold sub_abs
  rw [h1]
  rw [psum_limb b _ hlen] at h6
  have hlt := psum_lt out.digit a.len_ h5
  have hbw : bw = 0 := by
    by_contra hne
    have : bw = 1 := by omega
    rw [this] at h6
    have : a.mag = psum a.digit a.len_ := rfl
    omega
  rw [hbw] at h6
  refine ⟨trim_magOk out h3 (by rw [h4]; exact ha.2.1) (by rw [h4]; exact h5), ?_⟩
  rw [trim_mag]
  show out.mag = a.mag - b.mag
  have e1 : out.mag = psum out.digit a.len_ := by unfold mag; rw [h4]
  have e2 : a.mag = psum a.digit a.len_ := rfl
  omega

/-! ## Signed addition, subtraction and negation -/

theorem cap_eq : (kBase : Int) ^ kMaxDigits = 10 ^ 180 := by
  norm_num [kBase, kMaxDigits]

theorem cap_eq_nat : kBase ^ kMaxDigits = 10 ^ 180 := by
  norm_num [kBase, kMaxDigits]

/-- Setting the sign of a magnitude and resetting the sign of zero gives a
canonical value. -/
theorem signed_spec (r : BigInt) (s : Bool) (h : MagOk r) :
    Canonical (normalize_zero { r with negative_ := s }) ∧
    (normalize_zero { r with negative_ := s }).value = (if s then -(r.mag : Int) else (r.mag : Int)) := by
  refine ⟨normalize_zero_canonical (h.with_negative s), ?_⟩
  rw [normalize_zero_value_of_canonical_mag _ (h.with_negative s)]
  rfl

theorem Canonical.magOk {x : BigInt} (h : Canonical x) : MagOk x := h.1

theorem Canonical.mag_below_cap {x : BigInt} (h : Canonical x) : x.mag < kBase ^ kMaxDigits :=
  h.1.mag_lt_cap

theorem Canonical.value_eq {x : BigInt} (_h : Canonical x) :
    x.value = (if x.negative_ then -(x.mag : Int) else (x.mag : Int)) := rfl

theorem Canonical.mag_pos_of_negative {x : BigInt} (h : Canonical x) (hn : x.negative_ = true) :
    0 < x.mag := by
  have h1 : x.len_ ≠ 0 := by
    intro h0
    have := h.2.2 h0
    rw [hn] at this
    exact Bool.noConfusion this
  have := h.1.len_eq_zero_iff
  omega

theorem Canonical.natAbs_value {x : BigInt} (_h : Canonical x) : x.value.natAbs = x.mag := by
  unfold value
  split <;> simp

theorem neg_spec (x : BigInt) (h : Canonical x) :
    Canonical (neg x) ∧ (neg x).value = -x.value := by
  unfold neg is_zero
  by_cases h0 : x.len_ = 0
  · have hm := h.1.len_eq_zero_iff.mp h0
    simp only [h0, beq_self_eq_true, Bool.not_true, Bool.false_eq_true, if_false]
    refine ⟨h, ?_⟩
    unfold value
    rw [hm]
    split <;> simp
  · have hb : (x.len_ == 0) = false := by simpa using h0
    simp only [hb, Bool.not_false, if_true]
    refine ⟨MagOk.canonical (h.1.with_negative _) (fun h1 => absurd h1 h0), ?_⟩
    unfold value
    show (if (!x.negative_) = true then -(x.mag : Int) else (x.mag : Int)) = _
    cases x.negative_ <;> simp

/-- Addition: the exact sum when its magnitude is below `kBase ^ kMaxDigits`,
and the overflow error otherwise. -/
theorem add_spec (a b : BigInt) (ha : Canonical a) (hb : Canonical b) :
    (∃ r, add a b = .ok r ∧ Canonical r ∧ r.value = a.value + b.value ∧
        |a.value + b.value| < (kBase : Int) ^ kMaxDigits) ∨
    (add a b = .error overflowMsg ∧ (kBase : Int) ^ kMaxDigits ≤ |a.value + b.value|) := by
  have hma := ha.1
  have hmb := hb.1
  have hca := ha.1.mag_lt_cap
  have hcb := hb.1.mag_lt_cap
  have hcapI : ((kBase ^ kMaxDigits : Nat) : Int) = (kBase : Int) ^ kMaxDigits := by push_cast; rfl
  unfold add
  by_cases hs : a.negative_ = b.negative_
  · rw [if_pos hs]
    rcases add_abs_spec a b hma hmb with ⟨r, h1, h2, h3⟩ | ⟨h1, h2⟩
    · left
      rw [h1]
      have hsp := signed_spec r a.negative_ h2
      refine ⟨_, rfl, hsp.1, ?_, ?_⟩
      · rw [hsp.2, h3]
        unfold value
        rw [← hs]
        split <;> push_cast <;> ring
      · have hr := h2.mag_lt_cap
        rw [h3] at hr
        rw [← hcapI]
        unfold value
        rw [← hs]
        split <;> rw [abs_lt] <;> constructor <;> omega
    · right
      rw [h1]
      refine ⟨rfl, ?_⟩
      rw [← hcapI]
      unfold value
      rw [← hs]
      split <;> rw [le_abs] <;> omega
  · rw [if_neg hs]
    have hval : |a.value + b.value| < (kBase : Int) ^ kMaxDigits := by
      rw [← hcapI]
      unfold value
      rw [abs_lt]
      cases hna : a.negative_ <;> cases hnb : b.negative_
      · exact absurd (hna.trans hnb.symm) hs
      · simp; constructor <;> omega
      · simp; constructor <;> omega
      · exact absurd (hna.trans hnb.symm) hs
    left
    simp only []
    rcases compare_abs_spec a b hma hmb with ⟨h1, h2⟩ | ⟨h1, h2⟩ | ⟨h1, h2⟩
    · rw [h1]
      have hsub := sub_abs_spec b a hmb hma (by omega)
      have hsp := signed_spec (sub_abs b a) b.negative_ hsub.1
      simp only [show ((-1 : Int) = 0) = False by decide, show ((-1 : Int) > 0) = False by decide, if_false]
      refine ⟨_, rfl, hsp.1, ?_, hval⟩
      rw [hsp.2, hsub.2]
      unfold value
      cases hna : a.negative_ <;> cases hnb : b.negative_ <;> simp_all <;> omega
    · rw [h1]
      simp only [if_true]
      refine ⟨_, rfl, zero_canonical, ?_, hval⟩
      rw [zero_value]
      unfold value
      cases hna : a.negative_ <;> cases hnb : b.negative_ <;> simp_all
    · rw [h1]
      have hsub := sub_abs_spec a b hma hmb (by omega)
      have hsp := signed_spec (sub_abs a b) a.negative_ hsub.1
      simp only [show ((1 : Int) = 0) = False by decide, show ((1 : Int) > 0) = True by decide, if_false, if_true]
      refine ⟨_, rfl, hsp.1, ?_, hval⟩
      rw [hsp.2, hsub.2]
      unfold value
      cases hna : a.negative_ <;> cases hnb : b.negative_ <;> simp_all <;> omega

theorem sub_spec (a b : BigInt) (ha : Canonical a) (hb : Canonical b) :
    (∃ r, sub a b = .ok r ∧ Canonical r ∧ r.value = a.value - b.value ∧
        |a.value - b.value| < (kBase : Int) ^ kMaxDigits) ∨
    (sub a b = .error overflowMsg ∧ (kBase : Int) ^ kMaxDigits ≤ |a.value - b.value|) := by
  have hn := neg_spec b hb
  have := add_spec a (neg b) ha hn.1
  rw [hn.2] at this
  simpa [sub, sub_eq_add_neg] using this

/-! ## Multiplication -/

theorem psum_le_of_le (f : Nat → Nat) {m n : Nat} (h : m ≤ n) : psum f m ≤ psum f n := by
  induction n with
  | zero =>
    have : m = 0 := Nat.le_zero.mp h
    rw [this]
  | succ n ih =>
    rcases Nat.eq_or_lt_of_le h with h1 | h1
    · rw [h1]
    · have := ih (Nat.lt_succ_iff.mp h1)
      simp only [psum]
      omega

/-- Effect on the limb sum of a write inside the summed range. -/
theorem psum_setDigit_lt (x : BigInt) (i v n : Nat) (hi : i < n) (hl : i < x.digits_.length) :
    psum (x.setDigit i v).digit n + x.digit i * kBase ^ i = psum x.digit n + v * kBase ^ i := by
  induction n with
  | zero => omega
  | succ n ih =>
    simp only [psum]
    rcases Nat.eq_or_lt_of_le (Nat.lt_succ_iff.mp hi) with h1 | h1
    · subst h1
      rw [psum_setDigit_ge _ _ _ _ (le_refl i), digit_setDigit_self _ _ _ hl]
      omega
    · have := ih h1
      rw [digit_setDigit_ne _ _ _ _ (by omega)]
      omega

theorem mul_step_arith (S S1 d m q cur carry ai lj L T P Bi Bj B : Nat)
    (h1 : S1 + d * P = S + m * P) (h2 : m + B * q = cur) (h3 : cur = d + carry + ai * lj)
    (h4 : S + carry * P = T + ai * L * Bi) (h5 : P = Bi * Bj) :
    S1 + q * (P * B) = T + ai * (L + lj * Bj) * Bi := by
  subst h5 h3
  zify at *
  linear_combination h1 + (Bi : Int) * Bj * h2 + h4

theorem kBase_sq_lt : kBase * kBase < 2 ^ 64 := by decide

theorem limb_mul_lt (x y : Nat) (hx : x < kBase) (hy : y < kBase) :
    x * y + 2 * kBase ≤ kBase * kBase + 1 := by
  have h1 : x ≤ kBase - 1 := by omega
  have h2 : y ≤ kBase - 1 := by omega
  have h3 := Nat.mul_le_mul h1 h2
  have h4 : (kBase - 1) * (kBase - 1) + 2 * kBase = kBase * kBase + 1 := by decide
  omega

theorem raise_len_digits (x : BigInt) (n : Nat) : (raise_len x n).digits_ = x.digits_ := by
  unfold raise_len; split <;> rfl

theorem raise_len_digit (x : BigInt) (n k : Nat) : (raise_len x n).digit k = x.digit k := by
  unfold digit; rw [raise_len_digits]

theorem raise_len_len (x : BigInt) (n : Nat) :
    (raise_len x n).len_ = if n > x.len_ then n else x.len_ := by
  unfold raise_len; split <;> rfl

theorem mul_abs_inner_spec (a b : BigInt) (ha : MagOk a) (hb : MagOk b) (i : Nat)
    (hi : i < a.len_) (T : Nat) (hT : T + a.digit i * b.mag * kBase ^ i ≤ a.mag * b.mag) :
    ∀ (fuel j carry : Nat) (out : BigInt),
      i + j ≤ kMaxDigits → kMaxDigits + 1 ≤ fuel + (i + j) → carry < kBase →
      out.digits_.length = kMaxDigits → out.len_ ≤ kMaxDigits →
      (∀ k, k < kMaxDigits → out.digit k < kBase) →
      (∀ k, out.len_ ≤ k → k < kMaxDigits → out.digit k = 0) →
      psum out.digit kMaxDigits + carry * kBase ^ (i + j) =
        T + a.digit i * psum (limb b) j * kBase ^ i →
      (∃ r, mul_abs_inner a b i fuel j carry out = .ok r ∧
          r.digits_.length = kMaxDigits ∧ r.len_ ≤ kMaxDigits ∧
          (∀ k, k < kMaxDigits → r.digit k < kBase) ∧
          (∀ k, r.len_ ≤ k → k < kMaxDigits → r.digit k = 0) ∧
          psum r.digit kMaxDigits = T + a.digit i * b.mag * kBase ^ i) ∨
      (mul_abs_inner a b i fuel j carry out = .error overflowMsg ∧
          kBase ^ kMaxDigits ≤ a.mag * b.mag) := by
  have hai : a.digit i < kBase := ha.2.2.1 i hi
  intro fuel
  induction fuel with
  | zero => intro j carry out h1 h2; omega
  | succ fuel ih =>
    intro j carry out hij hf hc hs hl hd hz hinv
    simp only [mul_abs_inner]
    by_cases hcond : j < b.len_ ∨ carry ≠ 0
    · rw [if_pos hcond]
      by_cases hov : i + j ≥ kMaxDigits
      · rw [if_pos hov]
        right
        refine ⟨rfl, ?_⟩
        by_cases hj : j < b.len_
        · have h1 := ha.mag_ge (by omega)
          have h2 := hb.mag_ge (by omega)
          have h3 := Nat.mul_le_mul h1 h2
          rw [← pow_add] at h3
          exact le_trans (pow_kBase_mono (by omega)) h3
        · have hc0 : 1 ≤ carry := by omega
          rw [psum_limb b j (by omega)] at hinv
          have h20 : i + j = kMaxDigits := by omega
          rw [h20] at hinv
          have := Nat.mul_le_mul_right (kBase ^ kMaxDigits) hc0
          omega
      · rw [if_neg hov]
        have hbl := limb_lt b hb j
        have hdi := hd (i + j) (by omega)
        have hprod := limb_mul_lt _ _ hai hbl
        have hsq := kBase_sq_lt
        have hcur : (if j < b.len_ then (out.digit (i + j) + carry + a.digit i * b.digit j) % 2 ^ 64
            else out.digit (i + j) + carry) = out.digit (i + j) + carry + a.digit i * limb b j := by
          unfold limb
          split
          · rename_i hj
            have : b.digit j = limb b j := by simp [limb, hj]
            rw [this]
            exact Nat.mod_eq_of_lt (by omega)
          · simp
        rw [hcur]
        have hlt : i + j < out.digits_.length := by omega
        have hcb : out.digit (i + j) + carry + a.digit i * limb b j < kBase * kBase := by omega
        have hq : (out.digit (i + j) + carry + a.digit i * limb b j) / kBase < kBase :=
          (Nat.div_lt_iff_lt_mul kBase_pos).mpr hcb
        have hset := psum_setDigit_lt out (i + j)
          ((out.digit (i + j) + carry + a.digit i * limb b j) % kBase) kMaxDigits (by omega) hlt
        apply ih
        · omega
        · omega
        · exact hq
        · rw [raise_len_digits]; simp [hs]
        · rw [raise_len_len]
          split
          · omega
          · exact hl
        · intro k hk
          rw [raise_len_digit, digit_setDigit]
          split
          · exact Nat.mod_lt _ kBase_pos
          · exact hd k hk
        · intro k hk1 hk2
          rw [raise_len_len] at hk1
          rw [raise_len_digit]
          have hk3 : i + j + 1 ≤ k ∧ out.len_ ≤ k := by
            simp only [setDigit_len] at hk1
            split at hk1 <;> omega
          rw [digit_setDigit_ne _ _ _ _ (by omega)]
          exact hz k hk3.2 hk2
        · rw [psum_congr _ _ _ (fun k _ => raise_len_digit _ _ k)]
          simp only [psum]
          rw [show i + (j + 1) = (i + j) + 1 by omega, pow_succ]
          exact mul_step_arith _ _ _ _ _ _ _ _ _ _ _ _ _ _ _ hset
            (Nat.mod_add_div _ _) rfl hinv (pow_add kBase i j)
    · rw [if_neg hcond]
      left
      have hc0 : carry = 0 := by omega
      rw [psum_limb b j (by omega), hc0] at hinv
      exact ⟨out, rfl, hs, hl, hd, hz, by omega⟩

theorem mul_abs_outer_spec (a b : BigInt) (ha : MagOk a) (hb : MagOk b) (n : Nat)
    (hn : n ≤ a.len_) :
    (∃ r, (List.range n).foldlM (fun out i => mul_abs_inner a b i (kMaxDigits + 1) 0 0 out) zero
          = .ok r ∧
        r.digits_.length = kMaxDigits ∧ r.len_ ≤ kMaxDigits ∧
        (∀ k, k < kMaxDigits → r.digit k < kBase) ∧
        (∀ k, r.len_ ≤ k → k < kMaxDigits → r.digit k = 0) ∧
        psum r.digit kMaxDigits = psum a.digit n * b.mag) ∨
    ((List.range n).foldlM (fun out i => mul_abs_inner a b i (kMaxDigits + 1) 0 0 out) zero
          = .error overflowMsg ∧
        kBase ^ kMaxDigits ≤ a.mag * b.mag) := by
  induction n with
  | zero =>
    left
    refine ⟨zero, rfl, zero_length, by decide, fun k _ => by rw [zero_digit]; exact kBase_pos,
      fun k _ _ => zero_digit k, ?_⟩
    rw [psum_ext_zero zero.digit 0 kMaxDigits (by omega) (fun k _ _ => zero_digit k)]
    simp [psum]
  | succ n ih =>
    rw [List.range_succ, List.foldlM_append]
    rcases ih (by omega) with ⟨r, h1, h2, h3, h4, h5, h6⟩ | ⟨h1, h2⟩
    · rw [h1]
      have hT : psum r.digit kMaxDigits + a.digit n * b.mag * kBase ^ n ≤ a.mag * b.mag := by
        have h7 : psum a.digit (n + 1) ≤ a.mag := psum_le_of_le a.digit hn
        have h8 := Nat.mul_le_mul_right b.mag h7
        simp only [psum] at h8
        rw [h6]
        calc psum a.digit n * b.mag + a.digit n * b.mag * kBase ^ n
            = (psum a.digit n + a.digit n * kBase ^ n) * b.mag := by ring
          _ ≤ a.mag * b.mag := h8
      have := mul_abs_inner_spec a b ha hb n (by omega) (psum r.digit kMaxDigits) hT
        (kMaxDigits + 1) 0 0 r (by have := ha.2.1; omega) (by omega) kBase_pos h2 h3 h4 h5
        (by simp [psum])
      rcases this with ⟨r2, g1, g2, g3, g4, g5, g6⟩ | ⟨g1, g2⟩
      · left
        refine ⟨r2, ?_, g2, g3, g4, g5, ?_⟩
        · show (mul_abs_inner a b n (kMaxDigits + 1) 0 0 r >>= fun s => List.foldlM _ s []) = _
          rw [g1]; rfl
        · rw [g6, h6]
          simp only [psum]
          ring
      · right
        refine ⟨?_, g2⟩
        show (mul_abs_inner a b n (kMaxDigits + 1) 0 0 r >>= fun s => List.foldlM _ s []) = _
        rw [g1]; rfl
    · right
      rw [h1]
      exact ⟨rfl, h2⟩

/-- Magnitude multiplication: exact, and it throws exactly when the product
needs more than `kMaxDigits` limbs. -/
theorem mul_abs_spec (a b : BigInt) (ha : MagOk a) (hb : MagOk b) :
    (∃ r, mul_abs a b = .ok r ∧ MagOk r ∧ r.mag = a.mag * b.mag) ∨
    (mul_abs a b = .error overflowMsg ∧ kBase ^ kMaxDigits ≤ a.mag * b.mag) := by
  unfold mul_abs
  by_cases h0 : a.len_ = 0 ∨ b.len_ = 0
  · rw [if_pos h0]
    left
    refine ⟨zero, rfl, zero_magOk, ?_⟩
    rw [zero_mag]
    rcases h0 with h | h
    · rw [ha.len_eq_zero_iff.mp h]; simp
    · rw [hb.len_eq_zero_iff.mp h]; simp
  · rw [if_neg h0]
    rcases mul_abs_outer_spec a b ha hb a.len_ (le_refl _) with ⟨r, h1, h2, h3, h4, h5, h6⟩ | ⟨h1, h2⟩
    · left
      rw [h1]
      refine ⟨trim r, rfl, trim_magOk r h2 h3 (fun k hk => h4 k (by omega)), ?_⟩
      rw [trim_mag]
      show psum r.digit r.len_ = a.mag * b.mag
      rw [← psum_ext_zero r.digit r.len_ kMaxDigits h3 h5, h6]
      rfl
    · right
      rw [h1]
      exact ⟨rfl, h2⟩

/-- Multiplication: the exact product when its magnitude is below
`kBase ^ kMaxDigits`, and the overflow error otherwise. -/
theorem mul_spec (a b : BigInt) (ha : Canonical a) (hb : Canonical b) :
    (∃ r, mul a b = .ok r ∧ Canonical r ∧ r.value = a.value * b.value ∧
        |a.value * b.value| < (kBase : Int) ^ kMaxDigits) ∨
    (mul a b = .error overflowMsg ∧ (kBase : Int) ^ kMaxDigits ≤ |a.value * b.value|) := by
  have hcapI : ((kBase ^ kMaxDigits : Nat) : Int) = (kBase : Int) ^ kMaxDigits := by push_cast; rfl
  have habs : |a.value * b.value| = ((a.mag * b.mag : Nat) : Int) := by
    rw [abs_mul, Int.abs_eq_natAbs, Int.abs_eq_natAbs, ha.natAbs_value, hb.natAbs_value]
    push_cast; rfl
  rw [habs, ← hcapI]
  unfold mul is_zero
  by_cases h0 : a.len_ = 0 ∨ b.len_ = 0
  · have h0b : ((a.len_ == 0) = true ∨ (b.len_ == 0) = true) := by simpa using h0
    rw [if_pos h0b]
    left
    have hz : a.mag * b.mag = 0 := by
      rcases h0 with h | h
      · rw [ha.1.len_eq_zero_iff.mp h]; simp
      · rw [hb.1.len_eq_zero_iff.mp h]; simp
    refine ⟨zero, rfl, zero_canonical, ?_, ?_⟩
    · rw [zero_value]
      have : |a.value * b.value| = 0 := by rw [habs, hz]; rfl
      exact (abs_eq_zero.mp this).symm
    · rw [hz]
      have := pow_kBase_pos kMaxDigits
      exact_mod_cast this
  · have h0b : ¬ ((a.len_ == 0) = true ∨ (b.len_ == 0) = true) := by simpa using h0
    rw [if_neg h0b]
    rcases mul_abs_spec a b ha.1 hb.1 with ⟨r, h1, h2, h3⟩ | ⟨h1, h2⟩
    · left
      rw [h1]
      have hsp := signed_spec r (a.negative_ != b.negative_) h2
      refine ⟨_, rfl, hsp.1, ?_, ?_⟩
      · rw [hsp.2, h3]
        unfold value
        cases a.negative_ <;> cases b.negative_ <;> simp
      · have := h2.mag_lt_cap
        rw [h3] at this
        exact_mod_cast this
    · right
      rw [h1]
      exact ⟨rfl, by exact_mod_cast h2⟩

/-! ## Construction from a 64-bit integer, one-limb multiplication and limb shift -/

/-- Limb bound after appending a limb at position `i`. -/
theorem digit_setDigit_lt (x : BigInt) (i v : Nat) (hv : v < kBase)
    (h : ∀ k, k < i → x.digit k < kBase) :
    ∀ k, k < i + 1 → (x.setDigit i v).digit k < kBase := by
  intro k hk
  rw [digit_setDigit]
  split
  · exact hv
  · by_cases hki : k = i
    · subst hki
      rw [digit, List.getD_eq_getElem?_getD, List.getElem?_eq_none (by
        rename_i hne
        simp only [true_and, not_lt] at hne
        exact hne)]
      exact kBase_pos
    · exact h k (by omega)

theorem assign_loop_spec :
    ∀ (fuel mag : Nat) (x : BigInt),
      x.len_ ≤ kMaxDigits → kMaxDigits + 1 ≤ fuel + x.len_ →
      x.digits_.length = kMaxDigits → mag < kBase ^ (kMaxDigits - x.len_) →
      (∀ k, k < x.len_ → x.digit k < kBase) →
      ∃ r, assign_loop fuel mag x = .ok r ∧ r.digits_.length = kMaxDigits ∧
        r.len_ ≤ kMaxDigits ∧ r.negative_ = x.negative_ ∧
        (∀ k, k < r.len_ → r.digit k < kBase) ∧
        (0 < mag → 0 < r.len_ ∧ r.digit (r.len_ - 1) ≠ 0) ∧
        (mag = 0 → r = x) ∧
        psum r.digit r.len_ = psum x.digit x.len_ + mag * kBase ^ x.len_ := by
  intro fuel
  induction fuel with
  | zero => intro mag x h1 h2; omega
  | succ fuel ih =>
    intro mag x hl hf hs hm hd
    simp only [assign_loop]
    by_cases hpos : mag > 0
    · rw [if_pos hpos]
      have hlen : x.len_ < kMaxDigits := by
        by_contra hge
        have : kMaxDigits - x.len_ = 0 := by omega
        rw [this] at hm
        simp at hm
        omega
      rw [if_neg (by omega)]
      have hm1 : mag / kBase < kBase ^ (kMaxDigits - (x.len_ + 1)) := by
        rw [Nat.div_lt_iff_lt_mul kBase_pos, ← pow_succ]
        rw [show kMaxDigits - (x.len_ + 1) + 1 = kMaxDigits - x.len_ by omega]
        exact hm
      have hlt : x.len_ < x.digits_.length := by omega
      obtain ⟨r, g1, g2, g3, g4, g5, g6, g7, g8⟩ := ih (mag / kBase)
        { (x.setDigit x.len_ (mag % kBase)) with len_ := x.len_ + 1 }
        (by show x.len_ + 1 ≤ kMaxDigits; omega) (by show kMaxDigits + 1 ≤ fuel + (x.len_ + 1); omega)
        (by simp [hs]) hm1
        (digit_setDigit_lt x x.len_ _ (Nat.mod_lt _ kBase_pos) hd)
      refine ⟨r, g1, g2, g3, g4, g5, ?_, fun h0 => by omega, ?_⟩
      · intro _
        by_cases hq : 0 < mag / kBase
        · exact g6 hq
        · have hq0 : mag / kBase = 0 := Nat.eq_zero_of_not_pos hq
          rw [g7 hq0]
          refine ⟨by show 0 < x.len_ + 1; omega, ?_⟩
          show (x.setDigit x.len_ _).digit (x.len_ + 1 - 1) ≠ 0
          rw [Nat.add_sub_cancel, digit_setDigit_self _ _ _ hlt]
          have := Nat.mod_add_div mag kBase
          rw [hq0] at this
          omega
      · rw [g8]
        show psum (x.setDigit x.len_ _).digit (x.len_ + 1) + _ * kBase ^ (x.len_ + 1) = _
        simp only [psum]
        rw [psum_setDigit_ge _ _ _ _ (le_refl _), digit_setDigit_self _ _ _ hlt, pow_succ]
        exact carry_arith _ _ _
    · rw [if_neg hpos]
      have h0 : mag = 0 := by omega
      exact ⟨x, rfl, hs, hl, rfl, hd, fun h => absurd h hpos, fun _ => rfl, by rw [h0]; simp⟩

theorem int64_lt_cap : (2 : Nat) ^ 63 < kBase ^ (kMaxDigits - 0) := by
  norm_num [kBase, kMaxDigits]

/-- Construction from a 64-bit integer succeeds and denotes that integer. -/
theorem assign_spec (v : Int) (hv : IsInt64 v) :
    ∃ r, assign v = .ok r ∧ Canonical r ∧ r.value = v := by
  unfold assign
  obtain ⟨hv1, hv2⟩ := hv
  have hcap := int64_lt_cap
  by_cases h0 : v = 0
  · rw [if_pos h0]
    exact ⟨zero, rfl, zero_canonical, by rw [zero_value, h0]⟩
  · rw [if_neg h0]
    by_cases hneg : v < 0
    · rw [if_pos hneg]
      have hmag : ((-(v + 1)).toNat + 1) % 2 ^ 64 = (-v).toNat := by
        rw [Nat.mod_eq_of_lt (by omega)]
        omega
      rw [hmag]
      obtain ⟨r, g1, g2, g3, g4, g5, g6, g7, g8⟩ := assign_loop_spec (kMaxDigits + 1) (-v).toNat
        { zero with negative_ := true } (by decide) (by show kMaxDigits + 1 ≤ kMaxDigits + 1 + 0; omega)
        zero_length (by show (-v).toNat < kBase ^ (kMaxDigits - 0); omega)
        (fun k hk => by have : k < 0 := hk; omega)
      have hpos : 0 < (-v).toNat := by omega
      have hmo : MagOk r := ⟨g2, g3, g5, fun _ => (g6 hpos).2⟩
      refine ⟨r, g1, hmo.canonical (fun h => by have := (g6 hpos).1; omega), ?_⟩
      unfold value mag
      rw [g8, g4]
      show (if true = true then -((psum _ 0 + (-v).toNat * kBase ^ 0 : Nat) : Int) else _) = v
      simp only [psum, if_true, pow_zero]
      omega
    · rw [if_neg hneg]
      obtain ⟨r, g1, g2, g3, g4, g5, g6, g7, g8⟩ := assign_loop_spec (kMaxDigits + 1) v.toNat
        zero (by decide) (by show kMaxDigits + 1 ≤ kMaxDigits + 1 + 0; omega)
        zero_length (by show v.toNat < kBase ^ (kMaxDigits - 0); omega)
        (fun k hk => by have : k < 0 := hk; omega)
      have hpos : 0 < v.toNat := by omega
      have hmo : MagOk r := ⟨g2, g3, g5, fun _ => (g6 hpos).2⟩
      refine ⟨r, g1, hmo.canonical (fun h => by have := (g6 hpos).1; omega), ?_⟩
      unfold value mag
      rw [g8, g4]
      show (if false = true then _ else ((psum _ 0 + v.toNat * kBase ^ 0 : Nat) : Int)) = v
      simp only [psum, pow_zero]
      simp
      omega

theorem mul_uint_fold_spec (a : BigInt) (ha : MagOk a) (m : Nat) (hm : m < kBase) (n : Nat)
    (hn : n ≤ a.len_) :
    ∃ (out : BigInt) (carry : Nat),
      (List.range n).foldl (mul_uint_step a m) (zero, 0) = (out, carry) ∧
      carry < kBase ∧ out.digits_.length = kMaxDigits ∧ out.len_ = n ∧
      (∀ k, k < n → out.digit k < kBase) ∧
      psum out.digit n + carry * kBase ^ n = psum a.digit n * m := by
  induction n with
  | zero =>
    exact ⟨zero, 0, rfl, kBase_pos, zero_length, rfl, fun k hk => by omega, by simp [psum]⟩
  | succ n ih =>
    obtain ⟨out, carry, h1, h2, h3, h4, h5, h6⟩ := ih (by omega)
    rw [List.range_succ, List.foldl_append, h1]
    have han : a.digit n < kBase := ha.2.2.1 n (by omega)
    have hprod := limb_mul_lt _ _ han hm
    have hsq := kBase_sq_lt
    have hlt : n < out.digits_.length := by have := ha.2.1; omega
    have hcur : (carry + a.digit n * m) % 2 ^ 64 = carry + a.digit n * m :=
      Nat.mod_eq_of_lt (by omega)
    simp only [List.foldl_cons, List.foldl_nil, mul_uint_step, hcur]
    refine ⟨_, _, rfl, ?_, by simp [h3], rfl, ?_, ?_⟩
    · rw [Nat.div_lt_iff_lt_mul kBase_pos]; omega
    · intro k hk
      show (out.setDigit n _).digit k < kBase
      rw [digit_setDigit]
      split
      · exact Nat.mod_lt _ kBase_pos
      · exact h5 k (by omega)
    · show psum (out.setDigit n _).digit (n + 1) + _ * kBase ^ (n + 1) = _
      simp only [psum]
      rw [psum_setDigit_ge _ _ _ _ (le_refl n), digit_setDigit_self _ _ _ hlt, pow_succ,
        carry_arith]
      have e : (carry + a.digit n * m) * kBase ^ n = carry * kBase ^ n + a.digit n * kBase ^ n * m := by
        ring
      rw [e, Nat.add_mul]
      omega

/-- Multiplication of a magnitude by one limb: exact when it reports success,
and a failure report means that the product needs more than `kMaxDigits`
limbs. -/
theorem mul_uint_spec (a : BigInt) (ha : MagOk a) (m : Nat) (hm : m < kBase) :
    (∃ p, mul_uint_abs_no_throw a m = (true, p) ∧ MagOk p ∧ p.mag = a.mag * m) ∨
    ((mul_uint_abs_no_throw a m).1 = false ∧ kBase ^ kMaxDigits ≤ a.mag * m) := by
  unfold mul_uint_abs_no_throw
  by_cases h0 : a.len_ = 0 ∨ m = 0
  · rw [if_pos h0]
    left
    refine ⟨zero, rfl, zero_magOk, ?_⟩
    rw [zero_mag]
    rcases h0 with h | h
    · rw [ha.len_eq_zero_iff.mp h]; simp
    · rw [h]; simp
  · rw [if_neg h0]
    obtain ⟨out, carry, h1, h2, h3, h4, h5, h6⟩ := mul_uint_fold_spec a ha m hm a.len_ (le_refl _)
    rw [h1]
    simp only []
    by_cases hc : carry ≠ 0
    · rw [if_pos hc]
      by_cases hfull : out.len_ ≥ kMaxDigits
      · rw [if_pos hfull]
        right
        refine ⟨rfl, ?_⟩
        have h20 : a.len_ = kMaxDigits := by have := ha.2.1; omega
        rw [h20] at h6
        have : 1 ≤ carry := by omega
        have := Nat.mul_le_mul_right (kBase ^ kMaxDigits) this
        show kBase ^ kMaxDigits ≤ psum a.digit a.len_ * m
        rw [h20]
        omega
      · rw [if_neg hfull]
        left
        have hc32 : carry % 2 ^ 32 = carry := Nat.mod_eq_of_lt (by
          have : kBase < 2 ^ 32 := by decide
          omega)
        rw [hc32]
        have hlt : out.len_ < out.digits_.length := by omega
        refine ⟨_, rfl, ?_, ?_⟩
        · apply trim_magOk
          · simp [h3]
          · show out.len_ + 1 ≤ kMaxDigits; omega
          · exact digit_setDigit_lt out out.len_ carry h2 (by rw [h4]; exact h5)
        · rw [trim_mag]
          show psum (out.setDigit out.len_ carry).digit (out.len_ + 1) = a.mag * m
          simp only [psum]
          rw [psum_setDigit_ge _ _ _ _ (le_refl _), digit_setDigit_self _ _ _ hlt, h4]
          exact h6
    · rw [if_neg hc]
      left
      have hc0 : carry = 0 := by omega
      rw [hc0] at h6
      refine ⟨_, rfl, trim_magOk out h3 (by rw [h4]; exact ha.2.1) (by rw [h4]; exact h5), ?_⟩
      rw [trim_mag]
      show psum out.digit out.len_ = a.mag * m
      rw [h4]
      simpa using h6

theorem shift_loop_spec (n : Nat) :
    ∀ (x : BigInt), n + 1 ≤ x.digits_.length →
      (shift_loop x n).digits_.length = x.digits_.length ∧
      (shift_loop x n).len_ = x.len_ ∧
      (shift_loop x n).negative_ = x.negative_ ∧
      (∀ k, k < n → (shift_loop x n).digit (k + 1) = x.digit k) ∧
      (∀ k, n < k → (shift_loop x n).digit k = x.digit k) := by
  induction n with
  | zero =>
    intro x _
    exact ⟨rfl, rfl, rfl, fun k hk => by omega, fun k _ => rfl⟩
  | succ n ih =>
    intro x hx
    simp only [shift_loop]
    obtain ⟨g1, g2, g3, g4, g5⟩ := ih (x.setDigit (n + 1) (x.digit n)) (by simp; omega)
    refine ⟨by rw [g1]; simp, by rw [g2]; rfl, by rw [g3]; rfl, ?_, ?_⟩
    · intro k hk
      rcases Nat.eq_or_lt_of_le (Nat.lt_succ_iff.mp hk) with h1 | h1
      · subst h1
        rw [g5 (k + 1) (by omega), digit_setDigit_self _ _ _ (by omega)]
      · rw [g4 k h1, digit_setDigit_ne _ _ _ _ (by omega)]
    · intro k hk
      rw [g5 k (by omega), digit_setDigit_ne _ _ _ _ (by omega)]

theorem psum_shift (f g : Nat → Nat) (n : Nat) (h : ∀ k, k < n → g (k + 1) = f k) :
    psum g (n + 1) = g 0 + kBase * psum f n := by
  induction n with
  | zero => simp [psum]
  | succ n ih =>
    have := ih (fun k hk => h k (by omega))
    rw [psum, this, h n (by omega), psum, pow_succ]
    ring

/-- `shift_base_add` multiplies by the base and adds the limb; it cannot
throw while fewer than `kMaxDigits` limbs are in use. -/
theorem shift_base_add_spec (x : BigInt) (hx : MagOk x) (d : Nat) (hd : d < kBase)
    (hl : x.len_ < kMaxDigits) :
    ∃ r, shift_base_add x d = .ok r ∧ MagOk r ∧ r.mag = x.mag * kBase + d := by
  unfold shift_base_add
  obtain ⟨hs, _, hdig, htop⟩ := hx
  by_cases h0 : x.len_ = 0
  · rw [if_pos h0]
    have hm0 : x.mag = 0 := by simp [mag, h0, psum]
    by_cases hd0 : d = 0
    · rw [if_pos hd0]
      exact ⟨x, rfl, ⟨hs, by omega, hdig, htop⟩, by rw [hm0, hd0]; simp⟩
    · rw [if_neg hd0]
      have hlt : 0 < x.digits_.length := by rw [hs]; decide
      refine ⟨_, rfl, ⟨by simp [hs], by show 1 ≤ kMaxDigits; decide, ?_, ?_⟩, ?_⟩
      · intro i hi
        have hi0 : i = 0 := by have : i < 1 := hi; omega
        subst hi0
        show (x.setDigit 0 d).digit 0 < kBase
        rw [digit_setDigit_self _ _ _ hlt]; exact hd
      · intro _
        show (x.setDigit 0 d).digit (1 - 1) ≠ 0
        rw [digit_setDigit_self _ _ _ hlt]; exact hd0
      · show psum (x.setDigit 0 d).digit 1 = _
        simp only [psum]
        rw [digit_setDigit_self _ _ _ hlt, hm0]
        simp
  · rw [if_neg h0, if_neg (by omega)]
    obtain ⟨g1, g2, g3, g4, g5⟩ := shift_loop_spec x.len_ x (by omega)
    have hlt : 0 < (shift_loop x x.len_).digits_.length := by rw [g1, hs]; decide
    have hdk : ∀ k, k < x.len_ →
        ((shift_loop x x.len_).setDigit 0 d).digit (k + 1) = x.digit k := by
      intro k hk
      rw [digit_setDigit_ne _ _ _ _ (by omega)]
      exact g4 k hk
    refine ⟨_, rfl, ⟨by simp [g1, hs], by show x.len_ + 1 ≤ kMaxDigits; omega, ?_, ?_⟩, ?_⟩
    · intro i hi
      have hi1 : i < x.len_ + 1 := hi
      show ((shift_loop x x.len_).setDigit 0 d).digit i < kBase
      rcases Nat.eq_zero_or_pos i with h | h
      · subst h
        rw [digit_setDigit_self _ _ _ hlt]; exact hd
      · obtain ⟨k, rfl⟩ : ∃ k, i = k + 1 := ⟨i - 1, by omega⟩
        rw [hdk k (by omega)]
        exact hdig k (by omega)
    · intro _
      show ((shift_loop x x.len_).setDigit 0 d).digit (x.len_ + 1 - 1) ≠ 0
      rw [Nat.add_sub_cancel]
      have := hdk (x.len_ - 1) (by omega)
      rw [show x.len_ - 1 + 1 = x.len_ by omega] at this
      rw [this]
      exact htop (by omega)
    · show psum ((shift_loop x x.len_).setDigit 0 d).digit (x.len_ + 1) = _
      rw [psum_shift x.digit _ x.len_ hdk, digit_setDigit_self _ _ _ hlt]
      show d + kBase * x.mag = x.mag * kBase + d
      ring

/-! ## Division loops -/

theorem sub32_one (m : Nat) (h1 : 1 ≤ m) (h2 : m < kBase) : sub32 m 1 = m - 1 := by
  unfold sub32
  have : kBase < 2 ^ 32 := by decide
  rw [show m + 2 ^ 32 - 1 = (m - 1) + 2 ^ 32 by omega, Nat.add_mod_right]
  exact Nat.mod_eq_of_lt (by omega)

theorem len_le_of_mag_lt (x : BigInt) (hx : MagOk x) (m : Nat) (h : x.mag < kBase ^ m) :
    x.len_ ≤ m := by
  by_contra hlt
  have h1 := hx.mag_ge (by omega)
  have h2 : kBase ^ m ≤ kBase ^ (x.len_ - 1) := pow_kBase_mono (by omega)
  omega

/-- The binary search returns the largest limb `q` with `b * q <= r`. -/
theorem div_search_spec (b r : BigInt) (hb : MagOk b) (hr : MagOk r) :
    ∀ (fuel lo hi best : Nat),
      hi < kBase → lo ≤ hi + 1 → hi + 1 - lo < fuel → b.mag * best ≤ r.mag →
      (best + 1 = lo ∨ (lo = 0 ∧ best = 0)) → (∀ m, hi < m → r.mag < b.mag * m) →
      ∃ q, div_search b r fuel lo hi best = .ok q ∧ q < kBase ∧ b.mag * q ≤ r.mag ∧
        r.mag < b.mag * (q + 1) := by
  intro fuel
  induction fuel with
  | zero => intro lo hi best _ _ h; omega
  | succ fuel ih =>
    intro lo hi best hhi hlo hf hbest hbl hup
    simp only [div_search]
    by_cases hle : lo ≤ hi
    · rw [if_pos hle]
      have hmid1 : lo ≤ lo + (hi - lo) / 2 := by omega
      have hmid2 : lo + (hi - lo) / 2 ≤ hi := by omega
      generalize hmid : lo + (hi - lo) / 2 = mid at hmid1 hmid2
      have hcond : (!(mul_uint_abs_no_throw b mid).1 ||
          decide (compare_abs (mul_uint_abs_no_throw b mid).2 r > 0)) = true ↔
          r.mag < b.mag * mid := by
        rcases mul_uint_spec b hb mid (by omega) with ⟨p, h1, h2, h3⟩ | ⟨h1, h2⟩
        · rw [h1]
          simp only [Bool.not_true, Bool.false_or, decide_eq_true_eq]
          rw [compare_abs_gt_iff p r h2 hr, h3]
        · rw [h1]
          simp only [Bool.not_false, Bool.true_or, true_iff]
          exact lt_of_lt_of_le hr.mag_lt_cap h2
      by_cases hP : r.mag < b.mag * mid
      · rw [if_pos (hcond.mpr hP)]
        have hm1 : 1 ≤ mid := by
          by_contra h0
          have : mid = 0 := by omega
          rw [this] at hP
          simp at hP
        rw [sub32_one mid hm1 (by omega)]
        apply ih
        · omega
        · omega
        · omega
        · exact hbest
        · exact hbl
        · intro m hm
          have : mid ≤ m := by omega
          exact lt_of_lt_of_le hP (Nat.mul_le_mul_left _ this)
      · rw [if_neg (fun h => hP (hcond.mp h))]
        apply ih
        · exact hhi
        · omega
        · omega
        · omega
        · left; rfl
        · exact hup
    · rw [if_neg hle]
      have hbest1 : best + 1 = lo := by omega
      refine ⟨best, rfl, by omega, hbest, ?_⟩
      exact hup (best + 1) (by omega)

theorem divmod_big_step_spec (a b : BigInt) (hb : MagOk b) (i : Nat)
    (hai : a.digit i < kBase) (q r : BigInt) (hr : MagOk r) (hrb : r.mag < b.mag)
    (hrl : r.len_ < kMaxDigits) :
    ∃ best r1, divmod_big_step a b i (q, r) = .ok (q.setDigit i best, r1) ∧ best < kBase ∧
      MagOk r1 ∧ r1.mag < b.mag ∧ r.mag * kBase + a.digit i = best * b.mag + r1.mag := by
  obtain ⟨s, hs1, hs2, hs3⟩ := shift_base_add_spec r hr (a.digit i) hai hrl
  have hslt : s.mag < b.mag * kBase := by
    rw [hs3]
    have : (r.mag + 1) * kBase ≤ b.mag * kBase := Nat.mul_le_mul_right _ hrb
    rw [Nat.add_mul] at this
    omega
  obtain ⟨best, hq1, hq2, hq3, hq4⟩ := div_search_spec b s hb hs2 (kBase + 1) 0 (kBase - 1) 0
    (by have := kBase_pos; omega) (by omega) (by have := kBase_pos; omega) (by simp)
    (Or.inr ⟨rfl, rfl⟩)
    (fun m hm => lt_of_lt_of_le hslt (Nat.mul_le_mul_left _ (by have := kBase_pos; omega)))
  unfold divmod_big_step
  simp only [hs1, hq1, bind, Except.bind]
  by_cases hb0 : best ≠ 0
  · rw [if_pos hb0]
    rcases mul_uint_spec b hb best hq2 with ⟨p, h1, h2, h3⟩ | ⟨h1, h2⟩
    · rw [h1]
      simp only [Bool.not_true, Bool.false_eq_true, if_false]
      have hsub := sub_abs_spec s p hs2 h2 (by rw [h3]; exact hq3)
      refine ⟨best, sub_abs s p, rfl, hq2, hsub.1, ?_, ?_⟩
      · rw [hsub.2, h3]
        rw [Nat.mul_add] at hq4
        omega
      · rw [hsub.2, h3, ← hs3, Nat.mul_comm best]
        omega
    · exfalso
      have := hs2.mag_lt_cap
      omega
  · rw [if_neg hb0]
    have hb00 : best = 0 := by omega
    rw [hb00] at hq4 ⊢
    refine ⟨0, s, rfl, kBase_pos, hs2, by simpa using hq4, ?_⟩
    rw [hs3]; simp

theorem divmod_big_loop_spec (a b : BigInt) (hb : MagOk b) :
    ∀ (n : Nat) (q r : BigInt),
      n ≤ kMaxDigits → (∀ k, k < n → a.digit k < kBase) → MagOk r → r.mag < b.mag →
      r.mag < kBase ^ (kMaxDigits - n) → q.digits_.length = kMaxDigits →
      ∃ q1 r1, divmod_big_loop a b n (q, r) = .ok (q1, r1) ∧
        q1.digits_.length = kMaxDigits ∧ q1.len_ = q.len_ ∧
        (∀ k, k < n → q1.digit k < kBase) ∧ (∀ k, n ≤ k → q1.digit k = q.digit k) ∧
        MagOk r1 ∧ r1.mag < b.mag ∧
        psum q1.digit n * b.mag + r1.mag = r.mag * kBase ^ n + psum a.digit n := by
  intro n
  induction n with
  | zero =>
    intro q r _ _ hr hrb _ hq
    exact ⟨q, r, rfl, hq, rfl, fun k hk => by omega, fun k _ => rfl, hr, hrb, by simp [psum]⟩
  | succ n ih =>
    intro q r hn ha hr hrb hrc hq
    have hrl : r.len_ < kMaxDigits := by
      have := len_le_of_mag_lt r hr _ hrc
      omega
    obtain ⟨best, r1, h1, h2, h3, h4, h5⟩ :=
      divmod_big_step_spec a b hb n (ha n (by omega)) q r hr hrb hrl
    have hr1c : r1.mag < kBase ^ (kMaxDigits - n) := by
      have e : kMaxDigits - n = (kMaxDigits - (n + 1)) + 1 := by omega
      rw [e, pow_succ]
      have h6 : (r.mag + 1) * kBase ≤ kBase ^ (kMaxDigits - (n + 1)) * kBase :=
        Nat.mul_le_mul_right _ hrc
      rw [Nat.add_mul] at h6
      have h7 := ha n (by omega)
      have h8 : r1.mag ≤ r.mag * kBase + a.digit n := by omega
      omega
    obtain ⟨q2, r2, g1, g2, g3, g4, g5, g6, g7, g8⟩ := ih (q.setDigit n best) r1 (by omega)
      (fun k hk => ha k (by omega)) h3 h4 hr1c (by simp [hq])
    refine ⟨q2, r2, ?_, g2, by rw [g3]; rfl, ?_, ?_, g6, g7, ?_⟩
    · simp only [divmod_big_loop, h1, bind, Except.bind]
      exact g1
    · intro k hk
      rcases Nat.eq_or_lt_of_le (Nat.lt_succ_iff.mp hk) with h | h
      · rw [h, g5 n (le_refl _), digit_setDigit_self _ _ _ (by omega)]
        exact h2
      · exact g4 k h
    · intro k hk
      rw [g5 k (by omega), digit_setDigit_ne _ _ _ _ (by omega)]
    · simp only [psum]
      rw [g5 n (le_refl _), digit_setDigit_self _ _ _ (by omega), pow_succ]
      have e1 : (psum q2.digit n + best * kBase ^ n) * b.mag + r2.mag
          = psum q2.digit n * b.mag + r2.mag + (best * b.mag) * kBase ^ n := by ring
      have e2 : r.mag * (kBase ^ n * kBase) + (psum a.digit n + a.digit n * kBase ^ n)
          = (r.mag * kBase + a.digit n) * kBase ^ n + psum a.digit n := by ring
      rw [e1, e2, g8, h5]
      ring

theorem divmod_small_loop_spec (a : BigInt) (divisor : Nat) (hd0 : 0 < divisor)
    (hdB : divisor < kBase) :
    ∀ (n : Nat) (q : BigInt) (rem : Nat),
      n ≤ kMaxDigits → (∀ k, k < n → a.digit k < kBase) → rem < divisor →
      q.digits_.length = kMaxDigits →
      (divmod_small_loop a divisor n (q, rem)).1.digits_.length = kMaxDigits ∧
      (divmod_small_loop a divisor n (q, rem)).1.len_ = q.len_ ∧
      (∀ k, k < n → (divmod_small_loop a divisor n (q, rem)).1.digit k < kBase) ∧
      (∀ k, n ≤ k → (divmod_small_loop a divisor n (q, rem)).1.digit k = q.digit k) ∧
      (divmod_small_loop a divisor n (q, rem)).2 < divisor ∧
      psum (divmod_small_loop a divisor n (q, rem)).1.digit n * divisor +
        (divmod_small_loop a divisor n (q, rem)).2 = rem * kBase ^ n + psum a.digit n := by
  intro n
  induction n with
  | zero =>
    intro q rem _ _ hrem hq
    exact ⟨hq, rfl, fun k hk => by omega, fun k _ => rfl, hrem, by simp [psum, divmod_small_loop]⟩
  | succ n ih =>
    intro q rem hn ha hrem hq
    have han := ha n (by omega)
    have hsq := kBase_sq_lt
    have hcb : a.digit n + rem * kBase < divisor * kBase := by
      have : (rem + 1) * kBase ≤ divisor * kBase := Nat.mul_le_mul_right _ hrem
      rw [Nat.add_mul] at this
      omega
    have hdk : divisor * kBase < kBase * kBase := Nat.mul_lt_mul_of_pos_right hdB kBase_pos
    have hcur : (a.digit n + rem * kBase) % 2 ^ 64 = a.digit n + rem * kBase :=
      Nat.mod_eq_of_lt (by omega)
    have hq1 : (a.digit n + rem * kBase) / divisor < kBase := by
      rw [Nat.div_lt_iff_lt_mul hd0, Nat.mul_comm kBase divisor]; exact hcb
    have hq32 : ((a.digit n + rem * kBase) / divisor) % 2 ^ 32 = (a.digit n + rem * kBase) / divisor :=
      Nat.mod_eq_of_lt (by have : kBase < 2 ^ 32 := by decide
                           omega)
    simp only [divmod_small_loop, hcur, hq32]
    obtain ⟨g1, g2, g3, g4, g5, g6⟩ := ih (q.setDigit n ((a.digit n + rem * kBase) / divisor))
      ((a.digit n + rem * kBase) % divisor) (by omega) (fun k hk => ha k (by omega))
      (Nat.mod_lt _ hd0) (by simp [hq])
    refine ⟨g1, by rw [g2]; rfl, ?_, ?_, g5, ?_⟩
    · intro k hk
      rcases Nat.eq_or_lt_of_le (Nat.lt_succ_iff.mp hk) with h | h
      · rw [h, g4 n (le_refl _), digit_setDigit_self _ _ _ (by omega)]
        exact hq1
      · exact g3 k h
    · intro k hk
      rw [g4 k (by omega), digit_setDigit_ne _ _ _ _ (by omega)]
    · simp only [psum]
      rw [g4 n (le_refl _), digit_setDigit_self _ _ _ (by omega), pow_succ]
      have hdm := Nat.mod_add_div (a.digit n + rem * kBase) divisor
      generalize (a.digit n + rem * kBase) / divisor = qd at *
      generalize (a.digit n + rem * kBase) % divisor = rd at *
      generalize divmod_small_loop a divisor n (q.setDigit n qd, rd) = res at *
      have e1 : (psum res.1.digit n + qd * kBase ^ n) * divisor + res.2
          = psum res.1.digit n * divisor + res.2 + (divisor * qd) * kBase ^ n := by ring
      have e2 : rem * (kBase ^ n * kBase) + (psum a.digit n + a.digit n * kBase ^ n)
          = (a.digit n + rem * kBase) * kBase ^ n + psum a.digit n := by ring
      rw [e1, e2, g6, ← hdm]
      ring

/-! ## Signed division -/

theorem Canonical.mag_of_value {x : BigInt} (h : Canonical x) (n : Nat) (hv : x.value = (n : Int)) :
    x.mag = n := by
  have := h.natAbs_value
  rw [hv] at this
  simpa using this.symm

theorem mag_one_limb (x : BigInt) (h : x.len_ = 1) : x.mag = x.digit 0 := by
  unfold mag
  rw [h]
  simp [psum]

/-- Magnitude division: quotient and remainder of the magnitudes. -/
theorem divmod_abs_spec (a b : BigInt) (ha : MagOk a) (hb : MagOk b) (hb0 : b.len_ ≠ 0) :
    ∃ q r, divmod_abs a b = .ok (q, r) ∧ MagOk q ∧ MagOk r ∧
      a.mag = q.mag * b.mag + r.mag ∧ r.mag < b.mag := by
  have hbpos : 0 < b.mag := by
    have := hb.len_eq_zero_iff
    omega
  unfold divmod_abs
  rw [if_neg hb0]
  by_cases ha0 : a.len_ = 0
  · rw [if_pos ha0]
    refine ⟨zero, zero, rfl, zero_magOk, zero_magOk, ?_, by rw [zero_mag]; exact hbpos⟩
    rw [zero_mag, ha.len_eq_zero_iff.mp ha0]; simp
  · rw [if_neg ha0]
    simp only []
    rcases compare_abs_spec a b ha hb with ⟨h1, h2⟩ | ⟨h1, h2⟩ | ⟨h1, h2⟩
    · rw [h1]
      simp only [show ((-1 : Int) < 0) = True by decide, if_true]
      exact ⟨zero, a, rfl, zero_magOk, ha, by rw [zero_mag]; simp, h2⟩
    · rw [h1]
      simp only [show ((0 : Int) < 0) = False by decide, if_false, if_true]
      obtain ⟨one, g1, g2, g3⟩ := assign_spec 1 (by decide)
      have g4 : one.mag = 1 := g2.mag_of_value 1 (by rw [g3]; rfl)
      refine ⟨one, zero, ?_, g2.1, zero_magOk, by rw [g4, zero_mag, h2]; simp,
        by rw [zero_mag]; exact hbpos⟩
      simp only [ofInt64, g1, bind, Except.bind]
    · rw [h1]
      simp only [show ((1 : Int) < 0) = False by decide, show ((1 : Int) = 0) = False by decide,
        if_false]
      by_cases hb1 : b.len_ = 1
      · rw [if_pos hb1]
        have hbm := mag_one_limb b hb1
        have hdB : b.digit 0 < kBase := hb.2.2.1 0 (by omega)
        obtain ⟨g1, g2, g3, g4, g5, g6⟩ := divmod_small_loop_spec a (b.digit 0) (by omega) hdB
          a.len_ { zero with len_ := a.len_ } 0 ha.2.1 ha.2.2.1 (by omega) zero_length
        generalize divmod_small_loop a (b.digit 0) a.len_ ({ zero with len_ := a.len_ }, 0) = st
          at g1 g2 g3 g4 g5 g6 ⊢
        obtain ⟨r, k1, k2, k3⟩ := assign_spec (st.2 : Int) (by
          have : kBase < 2 ^ 63 := by decide
          constructor <;> omega)
        have k4 : r.mag = st.2 := k2.mag_of_value st.2 k3
        have hlen : st.1.len_ = a.len_ := g2
        refine ⟨trim st.1, r, ?_, trim_magOk st.1 g1 (by rw [hlen]; exact ha.2.1)
          (by rw [hlen]; exact g3), k2.1, ?_, by rw [k4, hbm]; exact g5⟩
        · simp only [ofInt64, k1, bind, Except.bind]
        · rw [trim_mag, k4, hbm]
          show a.mag = psum st.1.digit st.1.len_ * b.digit 0 + st.2
          rw [hlen, g6]
          simp [mag]
      · rw [if_neg hb1]
        obtain ⟨q1, r1, g1, g2, g3, g4, g5, g6, g7, g8⟩ := divmod_big_loop_spec a b hb a.len_
          { zero with len_ := a.len_ } zero ha.2.1 ha.2.2.1 zero_magOk (by rw [zero_mag]; exact hbpos)
          (by rw [zero_mag]; exact pow_kBase_pos _) zero_length
        have hlen : q1.len_ = a.len_ := g3
        refine ⟨trim q1, trim r1, ?_, trim_magOk q1 g2 (by rw [hlen]; exact ha.2.1)
          (by rw [hlen]; exact g4), trim_magOk r1 g6.1 g6.2.1 g6.2.2.1, ?_, by rw [trim_mag]; exact g7⟩
        · simp only [g1, bind, Except.bind]
        · rw [trim_mag, trim_mag]
          show a.mag = psum q1.digit q1.len_ * b.mag + r1.mag
          rw [hlen, g8, zero_mag]
          simp [mag]

theorem neg_tmod (a b : Int) : (-a).tmod b = -(a.tmod b) := by
  have h1 := Int.tmod_add_tdiv a b
  have h2 := Int.tmod_add_tdiv (-a) b
  rw [Int.neg_tdiv] at h2
  have e : b * -(a.tdiv b) = -(b * a.tdiv b) := by ring
  rw [e] at h2
  omega

/-- Signed division: the quotient truncated toward zero and the remainder
with the sign of the dividend. -/
theorem divmod_spec (a b : BigInt) (ha : Canonical a) (hb : Canonical b) (hb0 : b.len_ ≠ 0) :
    ∃ q r, divmod a b = .ok (q, r) ∧ Canonical q ∧ Canonical r ∧
      q.value = Int.tdiv a.value b.value ∧ r.value = Int.tmod a.value b.value ∧
      a.mag = q.mag * b.mag + r.mag ∧ r.mag < b.mag ∧
      q.negative_ = ((a.negative_ != b.negative_) && !q.is_zero) ∧
      r.negative_ = (a.negative_ && !r.is_zero) := by
  obtain ⟨q, r, h1, h2, h3, h4, h5⟩ := divmod_abs_spec { a with negative_ := false }
    { b with negative_ := false } (ha.1.with_negative false) (hb.1.with_negative false) hb0
  replace h4 : a.mag = q.mag * b.mag + r.mag := h4
  replace h5 : r.mag < b.mag := h5
  have hbpos : 0 < b.mag := by omega
  have hdm : a.mag / b.mag = q.mag ∧ a.mag % b.mag = r.mag :=
    (Nat.div_mod_unique hbpos).mpr ⟨by rw [h4]; ring, h5⟩
  unfold divmod
  rw [if_neg hb0]
  simp only [h1, bind, Except.bind]
  have hq := signed_spec q ((a.negative_ != b.negative_) && !q.is_zero) h2
  have hr := signed_spec r (a.negative_ && !r.is_zero) h3
  have hflag : ∀ (x : BigInt) (t : Bool),
      (normalize_zero { x with negative_ := t && !x.is_zero }).negative_ =
        (t && !(normalize_zero { x with negative_ := t && !x.is_zero }).is_zero) := by
    intro x t
    rw [normalize_zero_negative]
    unfold is_zero
    rw [normalize_zero_len]
    show (if x.len_ = 0 then false else (t && !(x.len_ == 0))) = (t && !(x.len_ == 0))
    by_cases hx0 : x.len_ = 0
    · simp [hx0]
    · simp [hx0]
  refine ⟨_, _, rfl, hq.1, hr.1, ?_, ?_, ?_, ?_, hflag q _, hflag r _⟩
  rotate_left 2
  · rw [normalize_zero_mag, normalize_zero_mag]
    exact h4
  · rw [normalize_zero_mag]
    exact h5
  · rw [hq.2]
    have hqz : q.is_zero = true ↔ q.mag = 0 := by
      unfold is_zero
      rw [beq_iff_eq]
      exact h2.len_eq_zero_iff
    have : (if ((a.negative_ != b.negative_) && !q.is_zero) = true then -(q.mag : Int) else (q.mag : Int))
        = (if (a.negative_ != b.negative_) = true then -(q.mag : Int) else (q.mag : Int)) := by
      by_cases hz : q.is_zero = true
      · have := hqz.mp hz
        rw [this]; simp
      · have hz2 : q.is_zero = false := by simpa using hz
        rw [hz2]; simp
    rw [this, ← hdm.1]
    unfold value
    cases a.negative_ <;> cases b.negative_
    · show ((a.mag / b.mag : Nat) : Int) = Int.tdiv a.mag b.mag
      exact Int.ofNat_tdiv _ _
    · show -((a.mag / b.mag : Nat) : Int) = Int.tdiv a.mag (-b.mag)
      rw [Int.tdiv_neg, Int.ofNat_tdiv]
    · show -((a.mag / b.mag : Nat) : Int) = Int.tdiv (-a.mag) b.mag
      rw [Int.neg_tdiv, Int.ofNat_tdiv]
    · show ((a.mag / b.mag : Nat) : Int) = Int.tdiv (-a.mag) (-b.mag)
      rw [Int.tdiv_neg, Int.neg_tdiv, neg_neg, Int.ofNat_tdiv]
  · rw [hr.2]
    have hrz : r.is_zero = true ↔ r.mag = 0 := by
      unfold is_zero
      rw [beq_iff_eq]
      exact h3.len_eq_zero_iff
    have : (if (a.negative_ && !r.is_zero) = true then -(r.mag : Int) else (r.mag : Int))
        = (if a.negative_ = true then -(r.mag : Int) else (r.mag : Int)) := by
      by_cases hz : r.is_zero = true
      · have := hrz.mp hz
        rw [this]; simp
      · have hz2 : r.is_zero = false := by simpa using hz
        rw [hz2]; simp
    rw [this, ← hdm.2]
    unfold value
    cases a.negative_ <;> cases b.negative_
    · show ((a.mag % b.mag : Nat) : Int) = Int.tmod a.mag b.mag
      exact Int.ofNat_tmod _ _
    · show ((a.mag % b.mag : Nat) : Int) = Int.tmod a.mag (-b.mag)
      rw [Int.tmod_neg, Int.ofNat_tmod]
    · show -((a.mag % b.mag : Nat) : Int) = Int.tmod (-a.mag) b.mag
      rw [neg_tmod, Int.ofNat_tmod]
    · show -((a.mag % b.mag : Nat) : Int) = Int.tmod (-a.mag) (-b.mag)
      rw [Int.tmod_neg, neg_tmod, Int.ofNat_tmod]

theorem div_spec (a b : BigInt) (ha : Canonical a) (hb : Canonical b) (hb0 : b.len_ ≠ 0) :
    ∃ q, div a b = .ok q ∧ Canonical q ∧ q.value = Int.tdiv a.value b.value := by
  obtain ⟨q, r, h1, h2, _, h4, _⟩ := divmod_spec a b ha hb hb0
  exact ⟨q, by simp only [div, h1]; rfl, h2, h4⟩

theorem mod_spec (a b : BigInt) (ha : Canonical a) (hb : Canonical b) (hb0 : b.len_ ≠ 0) :
    ∃ r, mod a b = .ok r ∧ Canonical r ∧ r.value = Int.tmod a.value b.value := by
  obtain ⟨q, r, h1, _, h3, _, h5, _⟩ := divmod_spec a b ha hb hb0
  exact ⟨r, by simp only [mod, h1]; rfl, h3, h5⟩

theorem div_zero (a b : BigInt) (hb0 : b.len_ = 0) : div a b = .error divZeroMsg := by
  simp only [div, divmod, hb0, if_true]; rfl

theorem mod_zero (a b : BigInt) (hb0 : b.len_ = 0) : mod a b = .error divZeroMsg := by
  simp only [mod, divmod, hb0, if_true]; rfl

/-! ## Comparison operators and narrowing -/

theorem Canonical.mag_eq_of_value_eq {a b : BigInt} (ha : Canonical a) (hb : Canonical b)
    (h : a.value = b.value) : a.mag = b.mag := by
  rw [← ha.natAbs_value, ← hb.natAbs_value, h]

theorem Canonical.len_eq_of_mag_eq {a b : BigInt} (ha : Canonical a) (hb : Canonical b)
    (h : a.mag = b.mag) : a.len_ = b.len_ := by
  have h1 := len_le_of_mag_le a b ha.1 hb.1 (by omega)
  have h2 := len_le_of_mag_le b a hb.1 ha.1 (by omega)
  omega

/-- `operator==` decides equality of the denoted integers. -/
theorem eq_spec (a b : BigInt) (ha : Canonical a) (hb : Canonical b) :
    eq a b = true ↔ a.value = b.value := by
  unfold eq
  by_cases hl : a.len_ = b.len_
  · rw [if_neg (by simpa using hl)]
    by_cases h0 : a.len_ = 0
    · rw [if_pos h0]
      have h1 := ha.2.1.mp h0
      have h2 := hb.2.1.mp (by omega)
      simp [h1, h2]
    · rw [if_neg h0]
      have hma : 0 < a.mag := by have := ha.1.len_eq_zero_iff; omega
      have hmb : 0 < b.mag := by have := hb.1.len_eq_zero_iff; omega
      by_cases hs : a.negative_ = b.negative_
      · rw [if_neg (by simpa using hs)]
        rw [List.all_eq_true]
        constructor
        · intro h
          have hp : psum a.digit a.len_ = psum b.digit a.len_ :=
            psum_congr _ _ _ (fun k hk => by
              have := h k (List.mem_range.mpr hk)
              simpa using this)
          unfold value mag
          rw [hs, hp, hl]
        · intro h x hx
          have hm := ha.mag_eq_of_value_eq hb h
          unfold mag at hm
          rw [← hl] at hm
          have := psum_inj a.digit b.digit a.len_ ha.1.2.2.1 (by rw [hl]; exact hb.1.2.2.1) hm x
            (List.mem_range.mp hx)
          simpa using this
      · rw [if_pos (by simpa using hs)]
        simp only [Bool.false_eq_true, false_iff]
        unfold value
        cases hna : a.negative_ <;> cases hnb : b.negative_
        · exact absurd (hna.trans hnb.symm) hs
        · simp; omega
        · simp; omega
        · exact absurd (hna.trans hnb.symm) hs
  · rw [if_pos (by simpa using hl)]
    simp only [Bool.false_eq_true, false_iff]
    intro h
    exact hl (ha.len_eq_of_mag_eq hb (ha.mag_eq_of_value_eq hb h))

/-- `operator<` decides the order of the denoted integers. -/
theorem lt_spec (a b : BigInt) (ha : Canonical a) (hb : Canonical b) :
    lt a b = true ↔ a.value < b.value := by
  unfold lt
  by_cases hs : a.negative_ = b.negative_
  · rw [if_neg (by simpa using hs)]
    unfold value
    rw [← hs]
    cases hna : a.negative_
    · simp only [Bool.false_eq_true, if_false, decide_eq_true_eq]
      rw [compare_abs_lt_iff a b ha.1 hb.1]
      omega
    · simp only [if_true, decide_eq_true_eq]
      rw [compare_abs_gt_iff a b ha.1 hb.1]
      omega
  · rw [if_pos (by simpa using hs)]
    unfold value
    cases hna : a.negative_ <;> cases hnb : b.negative_
    · exact absurd (hna.trans hnb.symm) hs
    · have := hb.mag_pos_of_negative hnb
      simp; omega
    · have := ha.mag_pos_of_negative hna
      simp; omega
    · exact absurd (hna.trans hnb.symm) hs

theorem TryToInt64_loop_spec (x : BigInt) (limit : Nat) (hlim : limit < 2 ^ 64)
    (hlim2 : kBase ≤ limit) :
    ∀ (n acc : Nat), (∀ k, k < n → x.digit k < kBase) → acc ≤ limit →
      TryToInt64_loop x limit n acc =
        if acc * kBase ^ n + psum x.digit n ≤ limit then some (acc * kBase ^ n + psum x.digit n)
        else none := by
  intro n
  induction n with
  | zero => intro acc _ hacc; simp [TryToInt64_loop, psum]; omega
  | succ n ih =>
    intro acc hd hacc
    have hdn := hd n (by omega)
    have hpw := pow_kBase_pos n
    simp only [TryToInt64_loop]
    have hcond : acc > (limit - x.digit n) / kBase ↔ limit < acc * kBase + x.digit n := by
      show (limit - x.digit n) / kBase < acc ↔ _
      rw [Nat.div_lt_iff_lt_mul kBase_pos]
      omega
    have e : acc * kBase ^ (n + 1) + psum x.digit (n + 1)
        = (acc * kBase + x.digit n) * kBase ^ n + psum x.digit n := by
      simp only [psum, pow_succ]; ring
    rw [e]
    by_cases hc : limit < acc * kBase + x.digit n
    · rw [if_pos (hcond.mpr hc)]
      have : (acc * kBase + x.digit n) * 1 ≤ (acc * kBase + x.digit n) * kBase ^ n :=
        Nat.mul_le_mul_left _ hpw
      rw [if_neg (by omega)]
    · rw [if_neg (fun h => hc (hcond.mp h))]
      rw [Nat.mod_eq_of_lt (by omega)]
      exact ih _ (fun k hk => hd k (by omega)) (by omega)

/-- Narrowing succeeds exactly on the 64-bit range and returns the denoted
integer. -/
theorem TryToInt64_spec (x : BigInt) (hx : Canonical x) :
    TryToInt64 x = if IsInt64 x.value then some x.value else none := by
  unfold TryToInt64 IsInt64
  have hB : kBase ≤ 2 ^ 63 - 1 := by decide
  by_cases h0 : x.len_ = 0
  · rw [if_pos h0]
    have := hx.2.1.mp h0
    rw [this]
    rfl
  · rw [if_neg h0]
    simp only []
    cases hn : x.negative_
    · simp only [Bool.false_eq_true, if_false]
      rw [TryToInt64_loop_spec x (2 ^ 63 - 1) (by decide) hB x.len_ 0 hx.1.2.2.1 (by omega)]
      simp only [Nat.zero_mul, Nat.zero_add]
      have hv : x.value = (x.mag : Int) := by unfold value; rw [hn]; rfl
      rw [hv]
      show (match (if x.mag ≤ 2 ^ 63 - 1 then some x.mag else none) with
        | none => none
        | some acc => if (!false) = true then some (acc : Int) else _) = _
      by_cases hle : x.mag ≤ 2 ^ 63 - 1
      · rw [if_pos hle, if_pos (by constructor <;> omega)]
        rfl
      · rw [if_neg hle, if_neg (by intro h; omega)]
    · simp only [if_true]
      rw [TryToInt64_loop_spec x (2 ^ 63 - 1 + 1) (by decide) (by omega) x.len_ 0 hx.1.2.2.1 (by omega)]
      simp only [Nat.zero_mul, Nat.zero_add]
      have hv : x.value = -(x.mag : Int) := by unfold value; rw [hn]; rfl
      rw [hv]
      show (match (if x.mag ≤ 2 ^ 63 - 1 + 1 then some x.mag else none) with
        | none => none
        | some acc => if (!true) = true then some (acc : Int)
            else if acc = 2 ^ 63 - 1 + 1 then some (-(2 ^ 63 : Int)) else some (-(acc : Int))) = _
      by_cases hle : x.mag ≤ 2 ^ 63 - 1 + 1
      · rw [if_pos hle, if_pos (by constructor <;> omega)]
        simp only [Bool.not_true, Bool.false_eq_true, if_false]
        by_cases he : x.mag = 2 ^ 63 - 1 + 1
        · rw [if_pos he]
          congr 1
          omega
        · rw [if_neg he]
      · rw [if_neg hle, if_neg (by intro h; omega)]

/-! ## String form -/

theorem toDigitsCore_append (f : Nat) :
    ∀ (n : Nat) (ds : List Char),
      Nat.toDigitsCore 10 f n ds = Nat.toDigitsCore 10 f n [] ++ ds := by
  induction f with
  | zero => intro n ds; simp [Nat.toDigitsCore]
  | succ f ih =>
    intro n ds
    simp only [Nat.toDigitsCore]
    split
    · simp
    · rw [ih (n / 10) (Nat.digitChar (n % 10) :: ds), ih (n / 10) [Nat.digitChar (n % 10)]]
      simp

theorem toDigitsCore_eq (f : Nat) :
    ∀ n, 0 < n → n < f →
      Nat.toDigitsCore 10 f n [] = (Nat.digits 10 n).reverse.map Nat.digitChar := by
  induction f with
  | zero => intro n _ h; omega
  | succ f ih =>
    intro n hn hf
    simp only [Nat.toDigitsCore]
    rw [Nat.digits_def' (by decide) hn]
    by_cases h : n / 10 = 0
    · rw [if_pos h, h]
      simp
    · rw [if_neg h, toDigitsCore_append, ih (n / 10) (by omega) (by omega)]
      simp

theorem toDigits_pos (n : Nat) (hn : 0 < n) :
    Nat.toDigits 10 n = (Nat.digits 10 n).reverse.map Nat.digitChar :=
  toDigitsCore_eq (n + 1) n hn (by omega)

theorem repr_data (n : Nat) : (Nat.repr n).data = Nat.toDigits 10 n := rfl

theorem digits_length_le_nine (d : Nat) (hd : d < kBase) : (Nat.digits 10 d).length ≤ 9 := by
  by_contra h
  have h1 : 10 ^ 9 ≤ 10 ^ ((Nat.digits 10 d).length - 1) := Nat.pow_le_pow_right (by decide) (by omega)
  have hd0 : d ≠ 0 := by
    intro h0
    rw [h0] at h
    simp at h
  have h2 := Nat.base_pow_length_digits_le 10 d (by decide) hd0
  have h3 : 10 ^ (Nat.digits 10 d).length = 10 ^ ((Nat.digits 10 d).length - 1) * 10 := by
    rw [← pow_succ]
    congr 1
    omega
  have : kBase = 10 ^ 9 := by decide
  omega

theorem toDigits_length_le_nine (d : Nat) (hd : d < kBase) :
    (Nat.toDigits 10 d).length ≤ 9 ∧ 0 < (Nat.toDigits 10 d).length := by
  rcases Nat.eq_zero_or_pos d with h | h
  · subst h
    decide
  · rw [toDigits_pos d h]
    simp only [List.length_map, List.length_reverse]
    refine ⟨digits_length_le_nine d hd, ?_⟩
    have : Nat.digits 10 d ≠ [] := Nat.digits_ne_nil_iff_ne_zero.mpr (by omega)
    exact List.length_pos.mpr this

/-- The numeral of `h * kBase + d` is the numeral of `h` followed by the
numeral of `d` padded with zeros to nine digits. -/
theorem toDigits_limb (h d : Nat) (hh : 0 < h) (hd : d < kBase) :
    Nat.toDigits 10 (h * kBase + d) =
      Nat.toDigits 10 h ++
        (List.replicate (9 - (Nat.toDigits 10 d).length) '0' ++ Nat.toDigits 10 d) := by
  have hk : kBase = 10 ^ 9 := by decide
  have hpos : 0 < h * kBase + d := by
    have := Nat.mul_pos hh kBase_pos
    omega
  rw [toDigits_pos _ hpos, toDigits_pos h hh]
  rcases Nat.eq_zero_or_pos d with h0 | h0
  · subst h0
    have e : h * kBase + 0 = 0 + 10 ^ ((Nat.digits 10 0).length + 9) * h := by
      rw [hk]; simp; ring
    rw [e, ← Nat.digits_append_zeroes_append_digits (by decide) hh]
    simp
    decide
  · have hL := digits_length_le_nine d hd
    have e : h * kBase + d
        = d + 10 ^ ((Nat.digits 10 d).length + (9 - (Nat.digits 10 d).length)) * h := by
      rw [show (Nat.digits 10 d).length + (9 - (Nat.digits 10 d).length) = 9 by omega, hk]
      ring
    rw [e, ← Nat.digits_append_zeroes_append_digits (by decide) hh, toDigits_pos d h0]
    simp
    exact Or.inr rfl

theorem pad_count (L : Nat) (hL : L ≤ 9) : (kBaseDigits + 2 ^ 64 - L) % 2 ^ 64 = 9 - L := by
  unfold kBaseDigits
  omega

theorem ToString_loop_spec (x : BigInt) :
    ∀ (n : Nat) (out : String) (pre : List Char) (h : Nat),
      (∀ k, k < n → x.digit k < kBase) → 0 < h → out.data = pre ++ Nat.toDigits 10 h →
      (ToString_loop x n out).data = pre ++ Nat.toDigits 10 (h * kBase ^ n + psum x.digit n) ∧
      (Nat.toDigits 10 (h * kBase ^ n + psum x.digit n)).length =
        (Nat.toDigits 10 h).length + 9 * n := by
  intro n
  induction n with
  | zero =>
    intro out pre h _ _ ho
    simp [ToString_loop, psum, ho]
  | succ n ih =>
    intro out pre h hd hh ho
    have hdn := hd n (by omega)
    have hlen := toDigits_length_le_nine (x.digit n) hdn
    simp only [ToString_loop, to_string]
    have hpl : (Nat.repr (x.digit n)).length = (Nat.toDigits 10 (x.digit n)).length := rfl
    rw [hpl, pad_count _ hlen.1]
    have e : h * kBase ^ (n + 1) + psum x.digit (n + 1)
        = (h * kBase + x.digit n) * kBase ^ n + psum x.digit n := by
      simp only [psum, pow_succ]; ring
    rw [e]
    have hstep := toDigits_limb h (x.digit n) hh hdn
    obtain ⟨g1, g2⟩ := ih
      ((out ++ String.mk (List.replicate (9 - (Nat.toDigits 10 (x.digit n)).length) '0')) ++
        Nat.repr (x.digit n)) pre (h * kBase + x.digit n)
      (fun k hk => hd k (by omega)) (by have := Nat.mul_pos hh kBase_pos; omega)
      (by
        rw [String.data_append, String.data_append, ho, repr_data, hstep]
        simp)
    refine ⟨g1, ?_⟩
    rw [g2, hstep]
    simp only [List.length_append, List.length_replicate]
    omega

theorem digitChar_toNat (d : Nat) (hd : d < 10) : (Nat.digitChar d).toNat - 48 = d := by
  interval_cases d <;> rfl

theorem digitChar_ne_zero (d : Nat) (hd : d < 10) (h0 : d ≠ 0) : Nat.digitChar d ≠ '0' := by
  interval_cases d <;> first | exact absurd rfl h0 | decide

theorem decimalValue_snoc (cs : List Char) (c : Char) :
    decimalValue (cs ++ [c]) = 10 * decimalValue cs + (c.toNat - 48) := by
  simp [decimalValue, List.foldl_append]

theorem decimalValue_digits (l : List Nat) (hl : ∀ d ∈ l, d < 10) :
    decimalValue (l.reverse.map Nat.digitChar) = Nat.ofDigits 10 l := by
  induction l with
  | nil => rfl
  | cons d l ih =>
    rw [List.reverse_cons, List.map_append, List.map_singleton, decimalValue_snoc,
      ih (fun e he => hl e (List.mem_cons_of_mem _ he)),
      digitChar_toNat d (hl d (List.mem_cons_self _ _)), Nat.ofDigits_cons]
    ring

/-- Reading a decimal numeral back gives the number. -/
theorem decimalValue_toDigits (n : Nat) : decimalValue (Nat.toDigits 10 n) = n := by
  rcases Nat.eq_zero_or_pos n with h | h
  · subst h; rfl
  · rw [toDigits_pos n h, decimalValue_digits _ (fun d hd => Nat.digits_lt_base (by decide) hd),
      Nat.ofDigits_digits]

/-- A positive number's numeral does not start with the digit zero. -/
theorem toDigits_head (n : Nat) (hn : 0 < n) : (Nat.toDigits 10 n).head? ≠ some '0' := by
  rw [toDigits_pos n hn]
  have hne : Nat.digits 10 n ≠ [] := Nat.digits_ne_nil_iff_ne_zero.mpr (by omega)
  have hlast := Nat.getLast_digit_ne_zero 10 (show n ≠ 0 by omega)
  have hlt : (Nat.digits 10 n).getLast hne < 10 :=
    Nat.digits_lt_base (by decide) (List.getLast_mem hne)
  rw [List.head?_map, List.head?_reverse, List.getLast?_eq_getLast _ hne]
  simp only [Option.map_some', ne_eq, Option.some.injEq]
  exact digitChar_ne_zero _ hlt hlast

/-- The string form is the sign followed by the decimal numeral of the
magnitude. -/
theorem ToString_spec (x : BigInt) (hx : Canonical x) :
    (ToString x).data = (if x.negative_ then ['-'] else []) ++ (Nat.repr x.mag).data ∧
    (x.len_ ≠ 0 →
      (Nat.repr x.mag).length = (Nat.repr (x.digit (x.len_ - 1))).length + 9 * (x.len_ - 1)) := by
  unfold ToString
  by_cases h0 : x.len_ = 0
  · rw [if_pos h0]
    have hm := hx.1.len_eq_zero_iff.mp h0
    have hn := hx.2.2 h0
    rw [hm, hn]
    exact ⟨rfl, fun h => absurd h0 h⟩
  · rw [if_neg h0]
    have htop : 0 < x.digit (x.len_ - 1) := Nat.pos_of_ne_zero (hx.1.2.2.2 (by omega))
    obtain ⟨g1, g2⟩ := ToString_loop_spec x (x.len_ - 1)
      ((if x.negative_ then "".push '-' else "") ++ to_string (x.digit (x.len_ - 1)))
      (if x.negative_ then ['-'] else []) (x.digit (x.len_ - 1))
      (fun k hk => hx.1.2.2.1 k (by omega)) htop
      (by
        rw [String.data_append]
        cases x.negative_ <;> rfl)
    have hmag : x.digit (x.len_ - 1) * kBase ^ (x.len_ - 1) + psum x.digit (x.len_ - 1) = x.mag := by
      unfold mag
      conv_rhs => rw [show x.len_ = (x.len_ - 1) + 1 by omega]
      simp only [psum]
      exact Nat.add_comm _ _
    rw [hmag] at g1 g2
    exact ⟨g1, fun _ => g2⟩

/-! ## Claims about BigInt arithmetic -/

theorem Canonical.negative_iff {x : BigInt} (h : Canonical x) :
    x.negative_ = true ↔ x.value < 0 := by
  constructor
  · intro hn
    have := h.mag_pos_of_negative hn
    unfold value
    rw [hn]
    simp only [if_true]
    omega
  · intro hv
    unfold value at hv
    cases hn : x.negative_
    · rw [hn] at hv
      simp only [Bool.false_eq_true, if_false] at hv
      omega
    · rfl

theorem Canonical.is_zero_iff {x : BigInt} (h : Canonical x) :
    x.is_zero = true ↔ x.value = 0 := by
  unfold is_zero
  rw [beq_iff_eq]
  exact h.2.1

theorem Canonical.abs_value {x : BigInt} (h : Canonical x) : |x.value| = (x.mag : Int) := by
  rw [Int.abs_eq_natAbs, h.natAbs_value]

theorem Canonical.abs_value_lt_cap {x : BigInt} (h : Canonical x) :
    |x.value| < (kBase : Int) ^ kMaxDigits := by
  rw [h.abs_value]
  have := h.mag_below_cap
  exact_mod_cast this

theorem Canonical.len_ne_zero_iff {x : BigInt} (h : Canonical x) :
    x.len_ ≠ 0 ↔ x.value ≠ 0 := not_congr h.2.1

/-- C2. Canonical-form invariant: a `BigInt` built from a 64-bit integer,
the negation of a canonical `BigInt`, and every result returned by `+`, `-`,
`*`, `/`, `%` on canonical operands is canonical: it has at most 20 live
limbs, each below `10^9`, a non-zero top limb, `len_ == 0` exactly for the
value zero, and a non-negative zero. -/
theorem canonical_invariant (a b : BigInt) (v : Int) (ha : Canonical a) (hb : Canonical b)
    (hv : IsInt64 v) :
    (∃ r, ofInt64 v = .ok r ∧ Canonical r) ∧
    Canonical (neg a) ∧
    (∀ r, add a b = .ok r → Canonical r) ∧
    (∀ r, sub a b = .ok r → Canonical r) ∧
    (∀ r, mul a b = .ok r → Canonical r) ∧
    (∀ r, div a b = .ok r → Canonical r) ∧
    (∀ r, mod a b = .ok r → Canonical r) := by
  refine ⟨?_, (neg_spec a ha).1, ?_, ?_, ?_, ?_, ?_⟩
  · obtain ⟨r, h1, h2, _⟩ := assign_spec v hv
    exact ⟨r, h1, h2⟩
  · intro r hr
    rcases add_spec a b ha hb with ⟨s, h1, h2, _⟩ | ⟨h1, _⟩
    · rw [h1] at hr; cases hr; exact h2
    · rw [h1] at hr; cases hr
  · intro r hr
    rcases sub_spec a b ha hb with ⟨s, h1, h2, _⟩ | ⟨h1, _⟩
    · rw [h1] at hr; cases hr; exact h2
    · rw [h1] at hr; cases hr
  · intro r hr
    rcases mul_spec a b ha hb with ⟨s, h1, h2, _⟩ | ⟨h1, _⟩
    · rw [h1] at hr; cases hr; exact h2
    · rw [h1] at hr; cases hr
  · intro r hr
    by_cases hb0 : b.len_ = 0
    · rw [div_zero a b hb0] at hr; cases hr
    · obtain ⟨q, h1, h2, _⟩ := div_spec a b ha hb hb0
      rw [h1] at hr; cases hr; exact h2
  · intro r hr
    by_cases hb0 : b.len_ = 0
    · rw [mod_zero a b hb0] at hr; cases hr
    · obtain ⟨q, h1, h2, _⟩ := mod_spec a b ha hb hb0
      rw [h1] at hr; cases hr; exact h2

theorem canonical_invariant_witness :
    Canonical (ofLimbs true [5, 7, 9]) ∧ Canonical (ofLimbs false [999999999, 3]) ∧
    IsInt64 (-9223372036854775808) ∧
    ((∃ r, ofInt64 (-9223372036854775808) = .ok r ∧ Canonical r) ∧
      Canonical (neg (ofLimbs true [5, 7, 9])) ∧
      (∀ r, add (ofLimbs true [5, 7, 9]) (ofLimbs false [999999999, 3]) = .ok r → Canonical r) ∧
      (∀ r, sub (ofLimbs true [5, 7, 9]) (ofLimbs false [999999999, 3]) = .ok r → Canonical r) ∧
      (∀ r, mul (ofLimbs true [5, 7, 9]) (ofLimbs false [999999999, 3]) = .ok r → Canonical r) ∧
      (∀ r, div (ofLimbs true [5, 7, 9]) (ofLimbs false [999999999, 3]) = .ok r → Canonical r) ∧
      (∀ r, mod (ofLimbs true [5, 7, 9]) (ofLimbs false [999999999, 3]) = .ok r → Canonical r)) :=
  ⟨by decide, by decide, by decide,
    canonical_invariant (ofLimbs true [5, 7, 9]) (ofLimbs false [999999999, 3])
      (-9223372036854775808) (by decide) (by decide) (by decide)⟩

/-- C3. Addition and subtraction are exact up to capacity: on canonical
operands, `a + b` returns the canonical `BigInt` denoting `value a + value b`
when `|value a + value b| < 10^180`, and otherwise throws
"integer overflow"; likewise `a - b` with `value a - value b`. -/
theorem add_sub_exact_up_to_capacity (a b : BigInt) (ha : Canonical a) (hb : Canonical b) :
    (|a.value + b.value| < 10 ^ 180 →
      ∃ r, add a b = .ok r ∧ Canonical r ∧ r.value = a.value + b.value) ∧
    (¬ |a.value + b.value| < 10 ^ 180 → add a b = .error overflowMsg) ∧
    (|a.value - b.value| < 10 ^ 180 →
      ∃ r, sub a b = .ok r ∧ Canonical r ∧ r.value = a.value - b.value) ∧
    (¬ |a.value - b.value| < 10 ^ 180 → sub a b = .error overflowMsg) ∧
    overflowMsg = "integer overflow" := by
  rw [← cap_eq]
  refine ⟨?_, ?_, ?_, ?_, rfl⟩
  · intro h
    rcases add_spec a b ha hb with ⟨r, h1, h2, h3, _⟩ | ⟨_, h2⟩
    · exact ⟨r, h1, h2, h3⟩
    · omega
  · intro h
    rcases add_spec a b ha hb with ⟨r, _, _, _, h4⟩ | ⟨h1, _⟩
    · exact absurd h4 h
    · exact h1
  · intro h
    rcases sub_spec a b ha hb with ⟨r, h1, h2, h3, _⟩ | ⟨_, h2⟩
    · exact ⟨r, h1, h2, h3⟩
    · omega
  · intro h
    rcases sub_spec a b ha hb with ⟨r, _, _, _, h4⟩ | ⟨h1, _⟩
    · exact absurd h4 h
    · exact h1

theorem add_sub_exact_up_to_capacity_witness :
    Canonical (ofLimbs true [5, 7, 9]) ∧ Canonical (ofLimbs false [999999999, 3]) ∧
    ((|(ofLimbs true [5, 7, 9]).value + (ofLimbs false [999999999, 3]).value| < 10 ^ 180 →
      ∃ r, add (ofLimbs true [5, 7, 9]) (ofLimbs false [999999999, 3]) = .ok r ∧ Canonical r ∧
        r.value = (ofLimbs true [5, 7, 9]).value + (ofLimbs false [999999999, 3]).value) ∧
    (¬ |(ofLimbs true [5, 7, 9]).value + (ofLimbs false [999999999, 3]).value| < 10 ^ 180 →
      add (ofLimbs true [5, 7, 9]) (ofLimbs false [999999999, 3]) = .error overflowMsg) ∧
    (|(ofLimbs true [5, 7, 9]).value - (ofLimbs false [999999999, 3]).value| < 10 ^ 180 →
      ∃ r, sub (ofLimbs true [5, 7, 9]) (ofLimbs false [999999999, 3]) = .ok r ∧ Canonical r ∧
        r.value = (ofLimbs true [5, 7, 9]).value - (ofLimbs false [999999999, 3]).value) ∧
    (¬ |(ofLimbs true [5, 7, 9]).value - (ofLimbs false [999999999, 3]).value| < 10 ^ 180 →
      sub (ofLimbs true [5, 7, 9]) (ofLimbs false [999999999, 3]) = .error overflowMsg) ∧
    overflowMsg = "integer overflow") :=
  ⟨by decide, by decide,
    add_sub_exact_up_to_capacity (ofLimbs true [5, 7, 9]) (ofLimbs false [999999999, 3])
      (by decide) (by decide)⟩

/-- C4. Multiplication is exact up to capacity: on canonical operands,
`a * b` returns the canonical `BigInt` denoting `value a * value b` when
`|value a * value b| < 10^180`, and it throws "integer overflow" exactly when
the magnitude of the product does not fit in 20 limbs; no other error is
raised. -/
theorem mul_exact_up_to_capacity (a b : BigInt) (ha : Canonical a) (hb : Canonical b) :
    (|a.value * b.value| < 10 ^ 180 →
      ∃ r, mul a b = .ok r ∧ Canonical r ∧ r.value = a.value * b.value) ∧
    (mul a b = .error overflowMsg ↔ 10 ^ 180 ≤ |a.value * b.value|) ∧
    (∀ e, mul a b = .error e → e = overflowMsg) ∧
    overflowMsg = "integer overflow" := by
  rw [← cap_eq]
  refine ⟨?_, ?_, ?_, rfl⟩
  · intro h
    rcases mul_spec a b ha hb with ⟨r, h1, h2, h3, _⟩ | ⟨_, h2⟩
    · exact ⟨r, h1, h2, h3⟩
    · omega
  · rcases mul_spec a b ha hb with ⟨r, h1, _, _, h4⟩ | ⟨h1, h2⟩
    · rw [h1]
      constructor
      · intro h; cases h
      · intro h; omega
    · exact ⟨fun _ => h2, fun _ => h1⟩
  · intro e he
    rcases mul_spec a b ha hb with ⟨r, h1, _, _, _⟩ | ⟨h1, _⟩
    · rw [h1] at he; cases he
    · rw [h1] at he; cases he; rfl

theorem mul_exact_up_to_capacity_witness :
    Canonical (ofLimbs true [5, 7, 9]) ∧ Canonical (ofLimbs false [999999999, 3]) ∧
    ((|(ofLimbs true [5, 7, 9]).value * (ofLimbs false [999999999, 3]).value| < 10 ^ 180 →
      ∃ r, mul (ofLimbs true [5, 7, 9]) (ofLimbs false [999999999, 3]) = .ok r ∧ Canonical r ∧
        r.value = (ofLimbs true [5, 7, 9]).value * (ofLimbs false [999999999, 3]).value) ∧
    (mul (ofLimbs true [5, 7, 9]) (ofLimbs false [999999999, 3]) = .error overflowMsg ↔
      10 ^ 180 ≤ |(ofLimbs true [5, 7, 9]).value * (ofLimbs false [999999999, 3]).value|) ∧
    (∀ e, mul (ofLimbs true [5, 7, 9]) (ofLimbs false [999999999, 3]) = .error e →
      e = overflowMsg) ∧
    overflowMsg = "integer overflow") :=
  ⟨by decide, by decide,
    mul_exact_up_to_capacity (ofLimbs true [5, 7, 9]) (ofLimbs false [999999999, 3])
      (by decide) (by decide)⟩

/-- C5. Division law: for canonical `a` and `b` with `b != 0`, `a / b` and
`a % b` both succeed with canonical results `q` and `r` such that
`q * b + r == a` (on the denoted integers, and as computed by `operator*`,
`operator+` and `operator==`), `|r| < |b|`, `r` is zero or carries the sign of
`a`, and `q` is negative iff the signs of `a` and `b` differ and `q` is not
zero; `q` is the quotient truncated toward zero. One-limb and multi-limb
divisors are both covered. -/
theorem division_law (a b : BigInt) (ha : Canonical a) (hb : Canonical b) (hb0 : b.value ≠ 0) :
    ∃ q r, div a b = .ok q ∧ mod a b = .ok r ∧ Canonical q ∧ Canonical r ∧
      q.value * b.value + r.value = a.value ∧
      (∃ p s, mul q b = .ok p ∧ add p r = .ok s ∧ eq s a = true) ∧
      |r.value| < |b.value| ∧
      (r.value = 0 ∨ r.is_negative = a.is_negative) ∧
      (q.is_negative = true ↔ (a.is_negative ≠ b.is_negative ∧ q.value ≠ 0)) ∧
      q.value = Int.tdiv a.value b.value ∧ r.value = Int.tmod a.value b.value := by
  have hbl : b.len_ ≠ 0 := hb.len_ne_zero_iff.mpr hb0
  obtain ⟨q, r, h1, hq, hr, hqv, hrv, hmag, hrm, hqn, hrn⟩ := divmod_spec a b ha hb hbl
  have hlaw : q.value * b.value + r.value = a.value := by
    rw [hqv, hrv, Int.mul_comm]
    exact Int.tdiv_add_tmod _ _
  refine ⟨q, r, by simp only [div, h1]; rfl, by simp only [mod, h1]; rfl, hq, hr, hlaw, ?_, ?_, ?_,
    ?_, hqv, hrv⟩
  · have hcap := ha.mag_below_cap
    have hprod : |q.value * b.value| < (kBase : Int) ^ kMaxDigits := by
      rw [abs_mul, hq.abs_value, hb.abs_value]
      have : q.mag * b.mag < kBase ^ kMaxDigits := by omega
      exact_mod_cast this
    rcases mul_spec q b hq hb with ⟨p, g1, g2, g3, _⟩ | ⟨_, g2⟩
    · have hsum : |p.value + r.value| < (kBase : Int) ^ kMaxDigits := by
        rw [g3, hlaw]
        exact ha.abs_value_lt_cap
      rcases add_spec p r g2 hr with ⟨s, k1, k2, k3, _⟩ | ⟨_, k2⟩
      · refine ⟨p, s, g1, k1, ?_⟩
        rw [eq_spec s a k2 ha, k3, g3, hlaw]
      · omega
    · omega
  · rw [hr.abs_value, hb.abs_value]
    exact_mod_cast hrm
  · by_cases hrz : r.value = 0
    · exact Or.inl hrz
    · right
      have : r.is_zero = false := by
        have := hr.is_zero_iff
        cases h : r.is_zero
        · rfl
        · exact absurd (this.mp h) hrz
      show r.negative_ = a.negative_
      rw [hrn, this]
      simp
  · show q.negative_ = true ↔ (a.negative_ ≠ b.negative_ ∧ q.value ≠ 0)
    rw [hqn]
    have hz := hq.is_zero_iff
    cases hqz : q.is_zero
    · have : q.value ≠ 0 := fun h => by
        have := hz.mpr h
        rw [hqz] at this
        cases this
      simp [this]
    · have : q.value = 0 := hz.mp hqz
      simp [this]

theorem division_law_witness :
    Canonical (ofLimbs true [5, 7, 9]) ∧ Canonical (ofLimbs false [999999999, 3]) ∧
    (ofLimbs false [999999999, 3]).value ≠ 0 ∧
    (∃ q r, div (ofLimbs true [5, 7, 9]) (ofLimbs false [999999999, 3]) = .ok q ∧
      mod (ofLimbs true [5, 7, 9]) (ofLimbs false [999999999, 3]) = .ok r ∧
      Canonical q ∧ Canonical r ∧
      q.value * (ofLimbs false [999999999, 3]).value + r.value = (ofLimbs true [5, 7, 9]).value ∧
      (∃ p s, mul q (ofLimbs false [999999999, 3]) = .ok p ∧ add p r = .ok s ∧
        eq s (ofLimbs true [5, 7, 9]) = true) ∧
      |r.value| < |(ofLimbs false [999999999, 3]).value| ∧
      (r.value = 0 ∨ r.is_negative = (ofLimbs true [5, 7, 9]).is_negative) ∧
      (q.is_negative = true ↔
        ((ofLimbs true [5, 7, 9]).is_negative ≠ (ofLimbs false [999999999, 3]).is_negative ∧
          q.value ≠ 0)) ∧
      q.value = Int.tdiv (ofLimbs true [5, 7, 9]).value (ofLimbs false [999999999, 3]).value ∧
      r.value = Int.tmod (ofLimbs true [5, 7, 9]).value (ofLimbs false [999999999, 3]).value) :=
  ⟨by decide, by decide, by decide,
    division_law (ofLimbs true [5, 7, 9]) (ofLimbs false [999999999, 3])
      (by decide) (by decide) (by decide)⟩

/-- C6. Add/subtract round trip: for canonical `a` and `b` whose sum does not
overflow, `(a + b) - b` succeeds and `operator==` finds it equal to `a`. -/
theorem add_sub_round_trip (a b s : BigInt) (ha : Canonical a) (hb : Canonical b)
    (hs : add a b = .ok s) :
    ∃ d, sub s b = .ok d ∧ eq d a = true := by
  rcases add_spec a b ha hb with ⟨r, h1, h2, h3, _⟩ | ⟨h1, _⟩
  · rw [h1] at hs
    cases hs
    rcases sub_spec s b h2 hb with ⟨d, g1, g2, g3, _⟩ | ⟨_, g2⟩
    · refine ⟨d, g1, ?_⟩
      rw [eq_spec d a g2 ha, g3, h3]
      ring
    · have := ha.abs_value_lt_cap
      rw [h3] at g2
      rw [show a.value + b.value - b.value = a.value by ring] at g2
      omega
  · rw [h1] at hs; cases hs

theorem add_sub_round_trip_witness :
    Canonical (ofLimbs true [5, 7, 9]) ∧ Canonical (ofLimbs false [999999999, 3]) ∧
    add (ofLimbs true [5, 7, 9]) (ofLimbs false [999999999, 3]) = .ok (ofLimbs true [6, 3, 9]) ∧
    (∃ d, sub (ofLimbs true [6, 3, 9]) (ofLimbs false [999999999, 3]) = .ok d ∧
      eq d (ofLimbs true [5, 7, 9]) = true) :=
  ⟨by decide, by decide, by decide,
    add_sub_round_trip (ofLimbs true [5, 7, 9]) (ofLimbs false [999999999, 3])
      (ofLimbs true [6, 3, 9]) (by decide) (by decide) (by decide)⟩

/-- C7. Multiply/divide round trip: for canonical `a` and `b` with `b != 0`
whose product does not overflow, `(a * b) / b` succeeds and `operator==` finds
it equal to `a`, and `(a * b) % b` succeeds and is zero. -/
theorem mul_div_round_trip (a b p : BigInt) (ha : Canonical a) (hb : Canonical b)
    (hb0 : b.value ≠ 0) (hp : mul a b = .ok p) :
    ∃ q r, div p b = .ok q ∧ mod p b = .ok r ∧ eq q a = true ∧ r.is_zero = true ∧
      r.value = 0 := by
  have hbl : b.len_ ≠ 0 := hb.len_ne_zero_iff.mpr hb0
  rcases mul_spec a b ha hb with ⟨m, h1, h2, h3, _⟩ | ⟨h1, _⟩
  · rw [h1] at hp
    cases hp
    obtain ⟨q, r, g1, hq, hr, hqv, hrv, _⟩ := divmod_spec p b h2 hb hbl
    rw [h3, Int.mul_tdiv_cancel _ hb0] at hqv
    rw [h3, Int.mul_tmod_left] at hrv
    exact ⟨q, r, by simp only [div, g1]; rfl, by simp only [mod, g1]; rfl,
      (eq_spec q a hq ha).mpr hqv, hr.is_zero_iff.mpr hrv, hrv⟩
  · rw [h1] at hp; cases hp

theorem mul_div_round_trip_witness :
    Canonical (ofLimbs true [5, 7, 9]) ∧ Canonical (ofLimbs false [999999999, 3]) ∧
    (ofLimbs false [999999999, 3]).value ≠ 0 ∧
    mul (ofLimbs true [5, 7, 9]) (ofLimbs false [999999999, 3])
      = .ok (ofLimbs true [999999995, 12, 19, 36]) ∧
    (∃ q r, div (ofLimbs true [999999995, 12, 19, 36]) (ofLimbs false [999999999, 3]) = .ok q ∧
      mod (ofLimbs true [999999995, 12, 19, 36]) (ofLimbs false [999999999, 3]) = .ok r ∧
      eq q (ofLimbs true [5, 7, 9]) = true ∧ r.is_zero = true ∧ r.value = 0) :=
  ⟨by decide, by decide, by decide, by decide,
    mul_div_round_trip (ofLimbs true [5, 7, 9]) (ofLimbs false [999999999, 3])
      (ofLimbs true [999999995, 12, 19, 36]) (by decide) (by decide) (by decide) (by decide)⟩

/-! ## Claims about narrowing, string form and comparisons -/

/-- C8. Narrowing: every 64-bit signed `v` (the two extremes included) is
constructed successfully and narrowed back to `v`; on a canonical `x`,
`TryToInt64` succeeds exactly when `INT64_MIN <= value x <= INT64_MAX`, and
then returns `value x`; in particular `INT64_MAX + 1` and `INT64_MIN - 1` are
rejected. -/
theorem narrowing (v : Int) (x : BigInt) (hv : IsInt64 v) (hx : Canonical x) :
    (∃ r, ofInt64 v = .ok r ∧ TryToInt64 r = some v) ∧
    ((TryToInt64 x).isSome = true ↔
      (-9223372036854775808 ≤ x.value ∧ x.value ≤ 9223372036854775807)) ∧
    (∀ w, TryToInt64 x = some w → w = x.value) ∧
    (x.value = 9223372036854775807 + 1 → TryToInt64 x = none) ∧
    (x.value = -9223372036854775808 - 1 → TryToInt64 x = none) := by
  have hspec := TryToInt64_spec x hx
  unfold IsInt64 at hspec
  refine ⟨?_, ?_, ?_, ?_, ?_⟩
  · obtain ⟨r, h1, h2, h3⟩ := assign_spec v hv
    refine ⟨r, h1, ?_⟩
    rw [TryToInt64_spec r h2, h3, if_pos hv]
  · rw [hspec]
    by_cases h : -(2 ^ 63 : Int) ≤ x.value ∧ x.value < 2 ^ 63
    · rw [if_pos h]
      simp only [Option.isSome_some, true_iff]
      constructor <;> omega
    · rw [if_neg h]
      simp only [Option.isSome_none, Bool.false_eq_true, false_iff]
      intro h2
      exact h (by constructor <;> omega)
  · intro w hw
    rw [hspec] at hw
    by_cases h : -(2 ^ 63 : Int) ≤ x.value ∧ x.value < 2 ^ 63
    · rw [if_pos h] at hw
      cases hw; rfl
    · rw [if_neg h] at hw
      cases hw
  · intro h
    rw [hspec, if_neg (by rw [h]; decide)]
  · intro h
    rw [hspec, if_neg (by rw [h]; decide)]

theorem narrowing_witness :
    IsInt64 (-9223372036854775808) ∧ Canonical (ofLimbs false [854775808, 223372036, 9]) ∧
    ((∃ r, ofInt64 (-9223372036854775808) = .ok r ∧ TryToInt64 r = some (-9223372036854775808)) ∧
    ((TryToInt64 (ofLimbs false [854775808, 223372036, 9])).isSome = true ↔
      (-9223372036854775808 ≤ (ofLimbs false [854775808, 223372036, 9]).value ∧
        (ofLimbs false [854775808, 223372036, 9]).value ≤ 9223372036854775807)) ∧
    (∀ w, TryToInt64 (ofLimbs false [854775808, 223372036, 9]) = some w →
      w = (ofLimbs false [854775808, 223372036, 9]).value) ∧
    ((ofLimbs false [854775808, 223372036, 9]).value = 9223372036854775807 + 1 →
      TryToInt64 (ofLimbs false [854775808, 223372036, 9]) = none) ∧
    ((ofLimbs false [854775808, 223372036, 9]).value = -9223372036854775808 - 1 →
      TryToInt64 (ofLimbs false [854775808, 223372036, 9]) = none)) :=
  ⟨by decide, by decide,
    narrowing (-9223372036854775808) (ofLimbs false [854775808, 223372036, 9])
      (by decide) (by decide)⟩

/-- C9. String form: for a canonical `x`, `ToString x` is "0" when `x` is
zero; in general it is a `-` exactly when `x` is negative followed by the
decimal numeral of `|value x|`, which for a non-zero `x` has no leading zero
and has nine digits for every limb below the top one; reading the digits back
as a decimal number gives `|value x|`. -/
theorem string_form (x : BigInt) (hx : Canonical x) :
    (x.value = 0 → ToString x = "0") ∧
    (ToString x).data =
      (if x.is_negative then ['-'] else []) ++ (Nat.repr x.value.natAbs).data ∧
    (x.value ≠ 0 → (Nat.repr x.value.natAbs).data.head? ≠ some '0') ∧
    (x.value ≠ 0 → (Nat.repr x.value.natAbs).length =
      (to_string (x.digit (x.len_ - 1))).length + 9 * (x.len_ - 1)) ∧
    decimalValue (if x.is_negative then (ToString x).data.tail else (ToString x).data)
      = x.value.natAbs := by
  have hsp := ToString_spec x hx
  rw [hx.natAbs_value]
  have hdata : (ToString x).data =
      (if x.is_negative then ['-'] else []) ++ (Nat.repr x.mag).data := hsp.1
  refine ⟨?_, hdata, ?_, ?_, ?_⟩
  · intro h0
    have hl := hx.2.1.mpr h0
    unfold ToString
    rw [if_pos hl]
  · intro h0
    have hm : 0 < x.mag := by
      have := (value_eq_zero_iff x).not.mp h0
      omega
    exact toDigits_head x.mag hm
  · intro h0
    exact hsp.2 (hx.len_ne_zero_iff.mpr h0)
  · rw [hdata]
    have : (if x.is_negative = true then
        ((if x.is_negative = true then ['-'] else []) ++ (Nat.repr x.mag).data).tail
        else (if x.is_negative = true then ['-'] else []) ++ (Nat.repr x.mag).data)
        = (Nat.repr x.mag).data := by
      cases x.is_negative <;> simp
    rw [this]
    exact decimalValue_toDigits x.mag

theorem string_form_witness :
    Canonical (ofLimbs true [5, 7, 9]) ∧
    (((ofLimbs true [5, 7, 9]).value = 0 → ToString (ofLimbs true [5, 7, 9]) = "0") ∧
    (ToString (ofLimbs true [5, 7, 9])).data =
      (if (ofLimbs true [5, 7, 9]).is_negative then ['-'] else []) ++
        (Nat.repr (ofLimbs true [5, 7, 9]).value.natAbs).data ∧
    ((ofLimbs true [5, 7, 9]).value ≠ 0 →
      (Nat.repr (ofLimbs true [5, 7, 9]).value.natAbs).data.head? ≠ some '0') ∧
    ((ofLimbs true [5, 7, 9]).value ≠ 0 →
      (Nat.repr (ofLimbs true [5, 7, 9]).value.natAbs).length =
        (to_string ((ofLimbs true [5, 7, 9]).digit ((ofLimbs true [5, 7, 9]).len_ - 1))).length +
          9 * ((ofLimbs true [5, 7, 9]).len_ - 1)) ∧
    decimalValue (if (ofLimbs true [5, 7, 9]).is_negative
        then (ToString (ofLimbs true [5, 7, 9])).data.tail
        else (ToString (ofLimbs true [5, 7, 9])).data)
      = (ofLimbs true [5, 7, 9]).value.natAbs) :=
  ⟨by decide, string_form (ofLimbs true [5, 7, 9]) (by decide)⟩

/-- C10. The comparison operators agree with the integers: on canonical
operands `==`, `!=`, `<`, `<=`, `>`, `>=` decide the corresponding relations
between `value a` and `value b`, and exactly one of `a < b`, `a == b`, `b < a`
holds. -/
theorem comparisons_agree (a b : BigInt) (ha : Canonical a) (hb : Canonical b) :
    (eq a b = true ↔ a.value = b.value) ∧
    (ne a b = true ↔ a.value ≠ b.value) ∧
    (lt a b = true ↔ a.value < b.value) ∧
    (le a b = true ↔ a.value ≤ b.value) ∧
    (gt a b = true ↔ a.value > b.value) ∧
    (ge a b = true ↔ a.value ≥ b.value) ∧
    ((lt a b = true ∧ eq a b = false ∧ lt b a = false) ∨
      (lt a b = false ∧ eq a b = true ∧ lt b a = false) ∨
      (lt a b = false ∧ eq a b = false ∧ lt b a = true)) := by
  have he := eq_spec a b ha hb
  have hl := lt_spec a b ha hb
  have hg := lt_spec b a hb ha
  have hef : eq a b = false ↔ ¬ a.value = b.value := by
    rw [← he]; cases eq a b <;> simp
  have hlf : lt a b = false ↔ ¬ a.value < b.value := by
    rw [← hl]; cases lt a b <;> simp
  have hgf : lt b a = false ↔ ¬ b.value < a.value := by
    rw [← hg]; cases lt b a <;> simp
  refine ⟨he, ?_, hl, ?_, hg, ?_, ?_⟩
  · unfold ne
    rw [Bool.not_eq_true', hef]
  · unfold le
    rw [Bool.not_eq_true', hgf]
    omega
  · unfold ge
    rw [Bool.not_eq_true', hlf]
    omega
  · rw [he, hl, hg, hef, hlf, hgf]
    omega

theorem comparisons_agree_witness :
    Canonical (ofLimbs true [5, 7, 9]) ∧ Canonical (ofLimbs false [999999999, 3]) ∧
    ((eq (ofLimbs true [5, 7, 9]) (ofLimbs false [999999999, 3]) = true ↔
      (ofLimbs true [5, 7, 9]).value = (ofLimbs false [999999999, 3]).value) ∧
    (ne (ofLimbs true [5, 7, 9]) (ofLimbs false [999999999, 3]) = true ↔
      (ofLimbs true [5, 7, 9]).value ≠ (ofLimbs false [999999999, 3]).value) ∧
    (lt (ofLimbs true [5, 7, 9]) (ofLimbs false [999999999, 3]) = true ↔
      (ofLimbs true [5, 7, 9]).value < (ofLimbs false [999999999, 3]).value) ∧
    (le (ofLimbs true [5, 7, 9]) (ofLimbs false [999999999, 3]) = true ↔
      (ofLimbs true [5, 7, 9]).value ≤ (ofLimbs false [999999999, 3]).value) ∧
    (gt (ofLimbs true [5, 7, 9]) (ofLimbs false [999999999, 3]) = true ↔
      (ofLimbs true [5, 7, 9]).value > (ofLimbs false [999999999, 3]).value) ∧
    (ge (ofLimbs true [5, 7, 9]) (ofLimbs false [999999999, 3]) = true ↔
      (ofLimbs true [5, 7, 9]).value ≥ (ofLimbs false [999999999, 3]).value) ∧
    ((lt (ofLimbs true [5, 7, 9]) (ofLimbs false [999999999, 3]) = true ∧
        eq (ofLimbs true [5, 7, 9]) (ofLimbs false [999999999, 3]) = false ∧
        lt (ofLimbs false [999999999, 3]) (ofLimbs true [5, 7, 9]) = false) ∨
      (lt (ofLimbs true [5, 7, 9]) (ofLimbs false [999999999, 3]) = false ∧
        eq (ofLimbs true [5, 7, 9]) (ofLimbs false [999999999, 3]) = true ∧
        lt (ofLimbs false [999999999, 3]) (ofLimbs true [5, 7, 9]) = false) ∨
      (lt (ofLimbs true [5, 7, 9]) (ofLimbs false [999999999, 3]) = false ∧
        eq (ofLimbs true [5, 7, 9]) (ofLimbs false [999999999, 3]) = false ∧
        lt (ofLimbs false [999999999, 3]) (ofLimbs true [5, 7, 9]) = true))) :=
  ⟨by decide, by decide,
    comparisons_agree (ofLimbs true [5, 7, 9]) (ofLimbs false [999999999, 3])
      (by decide) (by decide)⟩

end BigInt

/-! ## Loader: byte-level readers against the encoder -/

theorem byte_of (v k : Nat) : ((v >>> k) &&& 0xFF) % 2 ^ 8 = (v / 2 ^ k) % 256 := by
  rw [Nat.shiftRight_eq_div_pow, show (0xFF : Nat) = 2 ^ 8 - 1 by rfl,
    Nat.and_pow_two_sub_one_eq_mod]
  omega

theorem byte_low (v : Nat) : (v &&& 0xFF) % 2 ^ 8 = v % 256 := by
  rw [show (0xFF : Nat) = 2 ^ 8 - 1 by rfl, Nat.and_pow_two_sub_one_eq_mod]
  omega

theorem or_shift (hi lo k : Nat) (h : lo < 2 ^ k) : (hi <<< k) ||| lo = hi * 2 ^ k + lo := by
  rw [Nat.shiftLeft_eq, Nat.mul_comm, ← Nat.mul_add_lt_is_or h]

theorem AppendU16_eq (out : List Nat) (v : Nat) :
    AppendU16 out v = out ++ [v / 2 ^ 8 % 256, v % 256] := by
  simp only [AppendU16, byte_of, byte_low, Nat.shiftRight_eq_div_pow]

theorem AppendU32_eq (out : List Nat) (v : Nat) :
    AppendU32 out v = out ++ [v / 2 ^ 24 % 256, v / 2 ^ 16 % 256, v / 2 ^ 8 % 256, v % 256] := by
  simp only [AppendU32, byte_of, byte_low, Nat.shiftRight_eq_div_pow]

theorem AppendF64_eq (out : List Nat) (v : Nat) :
    AppendF64 out v = out ++ [v / 2 ^ 56 % 256, v / 2 ^ 48 % 256, v / 2 ^ 40 % 256,
      v / 2 ^ 32 % 256, v / 2 ^ 24 % 256, v / 2 ^ 16 % 256, v / 2 ^ 8 % 256, v / 2 ^ 0 % 256] := by
  simp only [AppendF64, List.foldl_cons, List.foldl_nil, byte_of, List.append_assoc,
    List.cons_append, List.nil_append]

theorem ReadExact_append (xs rest : List Nat) :
    ReadExact (xs ++ rest) xs.length = .ok (xs, rest) := by
  unfold ReadExact
  rw [if_neg (by simp)]
  simp

theorem ReadU8_cons (b : Nat) (rest : List Nat) : ReadU8 (b :: rest) = .ok (b, rest) := by
  have := ReadExact_append [b] rest
  simp only [List.length_singleton, List.singleton_append] at this
  simp only [ReadU8, this, bind, Except.bind]
  rfl

theorem ReadU16Be_append (v : Nat) (hv : v < 2 ^ 16) (rest : List Nat) :
    ReadU16Be ([v / 2 ^ 8 % 256, v % 256] ++ rest) = .ok (v, rest) := by
  have := ReadExact_append [v / 2 ^ 8 % 256, v % 256] rest
  simp only [List.length_cons, List.length_nil] at this
  simp only [ReadU16Be, this, bind, Except.bind, List.getD_cons_zero, List.getD_cons_succ]
  rw [or_shift _ _ 8 (by omega)]
  congr 2
  omega

theorem ReadU32Be_append (v : Nat) (hv : v < 2 ^ 32) (rest : List Nat) :
    ReadU32Be ([v / 2 ^ 24 % 256, v / 2 ^ 16 % 256, v / 2 ^ 8 % 256, v % 256] ++ rest)
      = .ok (v, rest) := by
  have := ReadExact_append [v / 2 ^ 24 % 256, v / 2 ^ 16 % 256, v / 2 ^ 8 % 256, v % 256] rest
  simp only [List.length_cons, List.length_nil] at this
  simp only [ReadU32Be, this, bind, Except.bind, List.getD_cons_zero, List.getD_cons_succ]
  congr 2
  have h1 : v % 256 % 2 ^ 32 = v % 256 := by omega
  have h2 : ((v / 2 ^ 8 % 256 % 2 ^ 32) <<< 8) % 2 ^ 32 = (v / 256 % 256) <<< 8 := by
    simp only [Nat.shiftLeft_eq]; omega
  have h3 : ((v / 2 ^ 16 % 256 % 2 ^ 32) <<< 16) % 2 ^ 32 = (v / 65536 % 256) <<< 16 := by
    simp only [Nat.shiftLeft_eq]; omega
  have h4 : ((v / 2 ^ 24 % 256 % 2 ^ 32) <<< 24) % 2 ^ 32 = (v / 16777216) <<< 24 := by
    simp only [Nat.shiftLeft_eq]; omega
  rw [h1, h2, h3, h4, Nat.or_assoc, Nat.or_assoc]
  rw [or_shift _ _ 8 (by omega), or_shift _ _ 16 (by omega), or_shift _ _ 24 (by omega)]
  omega

theorem ReadF64Be_append (v : Nat) (hv : v < 2 ^ 64) (rest : List Nat) :
    ReadF64Be ([v / 2 ^ 56 % 256, v / 2 ^ 48 % 256, v / 2 ^ 40 % 256,
      v / 2 ^ 32 % 256, v / 2 ^ 24 % 256, v / 2 ^ 16 % 256, v / 2 ^ 8 % 256, v / 2 ^ 0 % 256] ++ rest)
      = .ok (v, rest) := by
  have := ReadExact_append [v / 2 ^ 56 % 256, v / 2 ^ 48 % 256, v / 2 ^ 40 % 256,
      v / 2 ^ 32 % 256, v / 2 ^ 24 % 256, v / 2 ^ 16 % 256, v / 2 ^ 8 % 256, v / 2 ^ 0 % 256] rest
  simp only [List.length_cons, List.length_nil] at this
  simp only [ReadF64Be, this, bind, Except.bind, List.getD_cons_zero, List.getD_cons_succ]
  congr 2
  have h0 : v / 2 ^ 0 % 256 % 2 ^ 64 = v % 256 := by omega
  have h1 : ((v / 2 ^ 8 % 256) <<< 8) % 2 ^ 64 = (v / 2 ^ 8 % 256) <<< 8 := by
    simp only [Nat.shiftLeft_eq]; omega
  have h2 : ((v / 2 ^ 16 % 256) <<< 16) % 2 ^ 64 = (v / 2 ^ 16 % 256) <<< 16 := by
    simp only [Nat.shiftLeft_eq]; omega
  have h3 : ((v / 2 ^ 24 % 256) <<< 24) % 2 ^ 64 = (v / 2 ^ 24 % 256) <<< 24 := by
    simp only [Nat.shiftLeft_eq]; omega
  have h4 : ((v / 2 ^ 32 % 256) <<< 32) % 2 ^ 64 = (v / 2 ^ 32 % 256) <<< 32 := by
    simp only [Nat.shiftLeft_eq]; omega
  have h5 : ((v / 2 ^ 40 % 256) <<< 40) % 2 ^ 64 = (v / 2 ^ 40 % 256) <<< 40 := by
    simp only [Nat.shiftLeft_eq]; omega
  have h6 : ((v / 2 ^ 48 % 256) <<< 48) % 2 ^ 64 = (v / 2 ^ 48 % 256) <<< 48 := by
    simp only [Nat.shiftLeft_eq]; omega
  have h7 : ((v / 2 ^ 56 % 256) <<< 56) % 2 ^ 64 = (v / 2 ^ 56 % 256) <<< 56 := by
    simp only [Nat.shiftLeft_eq]; omega
  rw [h0, h1, h2, h3, h4, h5, h6, h7]
  simp only [Nat.or_assoc]
  rw [or_shift _ _ 8 (by omega), or_shift _ _ 16 (by omega), or_shift _ _ 24 (by omega),
    or_shift _ _ 32 (by omega), or_shift _ _ 40 (by omega), or_shift _ _ 48 (by omega),
    or_shift _ _ 56 (by omega)]
  omega

theorem toInt32_ofInt32 (v : Int) (h1 : -(2 ^ 31 : Int) ≤ v) (h2 : v < 2 ^ 31) :
    toInt32 (ofInt32 v) = v ∧ ofInt32 v < 2 ^ 32 := by
  unfold toInt32 ofInt32
  have hlt : (v % 2 ^ 32).toNat < 2 ^ 32 := by omega
  refine ⟨?_, hlt⟩
  rw [Nat.mod_eq_of_lt hlt]
  split <;> omega

theorem ReadStringBe_append (s rest : List Nat) (hs : s.length < 2 ^ 32) :
    ReadStringBe ([s.length / 2 ^ 24 % 256, s.length / 2 ^ 16 % 256, s.length / 2 ^ 8 % 256,
      s.length % 256] ++ (s ++ rest)) = .ok (s, rest) := by
  simp only [ReadStringBe, ReadU32Be_append s.length hs (s ++ rest), bind, Except.bind]
  by_cases h : s.length > 0
  · rw [if_pos h]
    exact ReadExact_append s rest
  · rw [if_neg h]
    have : s = [] := List.length_eq_zero.mp (by omega)
    subst this
    rfl

theorem ConstTagFromByte_toByte (t : ConstTag) : ConstTagFromByte t.toByte = .ok t := by
  cases t <;> rfl

theorem TypeTagFromByte_toByte (t : TypeTag) : TypeTagFromByte t.toByte = .ok t := by
  cases t <;> rfl

theorem OpCodeFromByte_toByte (op : OpCode) : OpCodeFromByte op.toByte = .ok op := by
  cases op <;> rfl

/-! ## Loader: decoding an encoded module -/

/-- One constant: what the encoder appends is read back as the constant. -/
theorem read_constant_encode (out out1 : List Nat) (c : Constant) (hc : c.WellTyped)
    (hlen : c.byteCount < 2 ^ 32) (h : encode_constant out c = .ok out1) :
    ∃ e, out1 = out ++ e ∧ ∀ rest, read_constant (e ++ rest) = .ok (c, rest) := by
  obtain ⟨tag, value⟩ := c
  unfold encode_constant at h
  unfold Constant.WellTyped at hc
  unfold Constant.byteCount at hlen
  cases tag <;> cases value <;> simp only [] at h hc hlen <;> try (exact Except.noConfusion h)
  · rename_i v
    cases h
    obtain ⟨g1, g2⟩ := toInt32_ofInt32 v hc.1 hc.2
    refine ⟨[ConstTag.kInt.toByte] ++ [ofInt32 v / 2 ^ 24 % 256, ofInt32 v / 2 ^ 16 % 256,
      ofInt32 v / 2 ^ 8 % 256, ofInt32 v % 256], by rw [AppendU32_eq]; simp, ?_⟩
    intro rest
    simp only [read_constant, List.singleton_append, List.cons_append, List.nil_append,
      ReadU8_cons, bind, Except.bind, ConstTagFromByte_toByte, ReadI32Be]
    have := ReadU32Be_append (ofInt32 v) g2 rest
    simp only [List.cons_append, List.nil_append] at this
    rw [this]
    simp only [g1]
  · rename_i bits
    cases h
    refine ⟨[ConstTag.kFloat.toByte] ++ [bits / 2 ^ 56 % 256, bits / 2 ^ 48 % 256,
      bits / 2 ^ 40 % 256, bits / 2 ^ 32 % 256, bits / 2 ^ 24 % 256, bits / 2 ^ 16 % 256,
      bits / 2 ^ 8 % 256, bits / 2 ^ 0 % 256], by rw [AppendF64_eq]; simp, ?_⟩
    intro rest
    simp only [read_constant, List.singleton_append, List.cons_append, List.nil_append,
      ReadU8_cons, bind, Except.bind, ConstTagFromByte_toByte]
    have := ReadF64Be_append bits hc rest
    simp only [List.cons_append, List.nil_append] at this
    rw [this]
  · rename_i b
    cases h
    refine ⟨[ConstTag.kBool.toByte, if b then 1 else 0], by simp, ?_⟩
    intro rest
    simp only [read_constant, List.cons_append, List.nil_append, ReadU8_cons, bind,
      Except.bind, ConstTagFromByte_toByte]
    cases b <;> rfl
  · rename_i s
    cases h
    refine ⟨[ConstTag.kString.toByte] ++ ([s.length / 2 ^ 24 % 256, s.length / 2 ^ 16 % 256,
      s.length / 2 ^ 8 % 256, s.length % 256] ++ s), ?_, ?_⟩
    · simp only [AppendString, AppendU32_eq, Nat.mod_eq_of_lt hlen]
      simp
    · intro rest
      simp only [read_constant, List.singleton_append, List.cons_append, List.nil_append,
        ReadU8_cons, bind, Except.bind, ConstTagFromByte_toByte]
      have := ReadStringBe_append s rest hlen
      simp only [List.cons_append, List.nil_append, List.append_assoc] at this ⊢
      rw [this]

/-- The constants loop: what the encoder appends for a pool is read back as
the pool. -/
theorem read_constants_encode (cs : List Constant) :
    ∀ (out out1 : List Nat), (∀ c ∈ cs, c.WellTyped) → (∀ c ∈ cs, c.byteCount < 2 ^ 32) →
      cs.foldlM encode_constant out = .ok out1 →
      ∃ e, out1 = out ++ e ∧
        ∀ rest acc, read_constants cs.length (e ++ rest) acc = .ok (acc ++ cs, rest) := by
  induction cs with
  | nil =>
    intro out out1 _ _ h
    simp only [List.foldlM_nil, pure, Except.pure] at h
    cases h
    exact ⟨[], by simp, fun rest acc => by simp [read_constants]⟩
  | cons c cs ih =>
    intro out out1 hty hlen h
    simp only [List.foldlM_cons, bind, Except.bind] at h
    cases hc : encode_constant out c with
    | error e => rw [hc] at h; cases h
    | ok o =>
      rw [hc] at h
      obtain ⟨e1, g1, g2⟩ := read_constant_encode out o c (hty c (List.mem_cons_self _ _))
        (hlen c (List.mem_cons_self _ _)) hc
      obtain ⟨e2, k1, k2⟩ := ih o out1 (fun x hx => hty x (List.mem_cons_of_mem _ hx))
        (fun x hx => hlen x (List.mem_cons_of_mem _ hx)) h
      refine ⟨e1 ++ e2, by rw [k1, g1]; simp, ?_⟩
      intro rest acc
      simp only [List.length_cons, read_constants, List.append_assoc, g2, bind, Except.bind]
      rw [k2]
      simp

theorem param_types_encode (pts : List TypeTag) :
    ∀ out : List Nat, pts.foldl (fun o pt => o ++ [pt.toByte]) out = out ++ pts.map TypeTag.toByte := by
  induction pts with
  | nil => intro out; simp
  | cons p ps ih => intro out; simp [ih]

theorem read_param_types_encode (pts : List TypeTag) :
    ∀ rest acc, read_param_types pts.length (pts.map TypeTag.toByte ++ rest) acc
      = .ok (acc ++ pts, rest) := by
  induction pts with
  | nil => intro rest acc; simp [read_param_types]
  | cons p ps ih =>
    intro rest acc
    simp only [List.length_cons, List.map_cons, List.cons_append, read_param_types, ReadU8_cons,
      bind, Except.bind, TypeTagFromByte_toByte]
    rw [ih]
    simp

/-- One function descriptor: what the encoder appends is read back as the
descriptor. -/
theorem read_function_encode (out : List Nat) (f : FunctionInfo) (hf : f.WellTyped)
    (hp : f.param_types.length = f.param_count) :
    ∃ e, encode_function out f = out ++ e ∧ ∀ rest, read_function (e ++ rest) = .ok (f, rest) := by
  obtain ⟨nci, pc, lc, eip, rt, pts⟩ := f
  simp only at hp
  subst hp
  obtain ⟨h1, h2, h3, h4⟩ := hf
  simp only at h1 h2 h3 h4
  refine ⟨[nci / 2 ^ 24 % 256, nci / 2 ^ 16 % 256,
      nci / 2 ^ 8 % 256, nci % 256] ++
    ([pts.length / 2 ^ 8 % 256, pts.length % 256] ++
    ([lc / 2 ^ 8 % 256, lc % 256] ++
    ([eip / 2 ^ 24 % 256, eip / 2 ^ 16 % 256, eip / 2 ^ 8 % 256,
      eip % 256] ++
    ([rt.toByte] ++ pts.map TypeTag.toByte)))), ?_, ?_⟩
  · simp only [encode_function, AppendU32_eq, AppendU16_eq, param_types_encode]
    simp
  · intro rest
    unfold read_function
    simp only [List.append_assoc]
    rw [ReadU32Be_append _ h1]
    simp only [bind, Except.bind]
    rw [ReadU16Be_append _ h2]
    simp only []
    rw [ReadU16Be_append _ h3]
    simp only []
    rw [ReadU32Be_append _ h4]
    simp only [List.singleton_append, ReadU8_cons, TypeTagFromByte_toByte]
    rw [read_param_types_encode]
    simp only [List.nil_append]

theorem read_functions_encode (fs : List FunctionInfo) :
    ∀ (out : List Nat), (∀ f ∈ fs, f.WellTyped) →
      (∀ f ∈ fs, f.param_types.length = f.param_count) →
      ∃ e, fs.foldl encode_function out = out ++ e ∧
        ∀ rest acc, read_functions fs.length (e ++ rest) acc = .ok (acc ++ fs, rest) := by
  induction fs with
  | nil =>
    intro out _ _
    exact ⟨[], by simp, fun rest acc => by simp [read_functions]⟩
  | cons f fs ih =>
    intro out hty hp
    obtain ⟨e1, g1, g2⟩ := read_function_encode out f (hty f (List.mem_cons_self _ _))
      (hp f (List.mem_cons_self _ _))
    obtain ⟨e2, k1, k2⟩ := ih (out ++ e1) (fun x hx => hty x (List.mem_cons_of_mem _ hx))
      (fun x hx => hp x (List.mem_cons_of_mem _ hx))
    refine ⟨e1 ++ e2, by rw [List.foldl_cons, g1, k1]; simp, ?_⟩
    intro rest acc
    simp only [List.length_cons, read_functions, List.append_assoc, g2, bind, Except.bind]
    rw [k2]
    simp

/-- One instruction: what the encoder appends is read back as the
instruction. -/
theorem read_instruction_encode (out : List Nat) (ins : Instruction) (hi : ins.WellTyped)
    (ha : ins.has_a = false → ins.a = 0) (hb : ins.has_b = false → ins.b = 0) :
    ∃ e, encode_instruction out ins = out ++ e ∧
      ∀ rest, read_instruction (e ++ rest) = .ok (ins, rest) := by
  obtain ⟨op, a, b, has_a, has_b⟩ := ins
  obtain ⟨h1, h2⟩ := hi
  simp only at h1 h2 ha hb
  cases has_a <;> cases has_b
  · have ha0 : a = 0 := ha rfl
    have hb0 : b = 0 := hb rfl
    subst ha0 hb0
    refine ⟨[op.toByte, 0], by simp [encode_instruction], ?_⟩
    intro rest
    simp only [read_instruction, List.cons_append, List.nil_append, ReadU8_cons, bind,
      Except.bind, OpCodeFromByte_toByte]
    simp only [show decide ((0 : Nat) &&& 1 ≠ 0) = false by decide,
      show decide ((0 : Nat) &&& 2 ≠ 0) = false by decide, Bool.false_eq_true, if_false]
  · have ha0 : a = 0 := ha rfl
    subst ha0
    refine ⟨[op.toByte, 2] ++ [b / 2 ^ 8 % 256, b % 256],
      by simp [encode_instruction, AppendU16_eq], ?_⟩
    intro rest
    simp only [read_instruction, List.cons_append, List.nil_append, ReadU8_cons, bind,
      Except.bind, OpCodeFromByte_toByte]
    have := ReadU16Be_append b h2 rest
    simp only [List.cons_append, List.nil_append] at this
    simp only [show decide ((2 : Nat) &&& 1 ≠ 0) = false by decide,
      show decide ((2 : Nat) &&& 2 ≠ 0) = true by decide, if_true, Bool.false_eq_true, if_false,
      this]
  · have hb0 : b = 0 := hb rfl
    subst hb0
    refine ⟨[op.toByte, 1] ++ [a / 2 ^ 24 % 256, a / 2 ^ 16 % 256, a / 2 ^ 8 % 256, a % 256],
      by simp [encode_instruction, AppendU32_eq], ?_⟩
    intro rest
    simp only [read_instruction, List.cons_append, List.nil_append, ReadU8_cons, bind,
      Except.bind, OpCodeFromByte_toByte]
    have := ReadU32Be_append a h1 rest
    simp only [List.cons_append, List.nil_append] at this
    simp only [show decide ((1 : Nat) &&& 1 ≠ 0) = true by decide,
      show decide ((1 : Nat) &&& 2 ≠ 0) = false by decide, if_true, Bool.false_eq_true, if_false,
      this]
  · refine ⟨[op.toByte, 3] ++ ([a / 2 ^ 24 % 256, a / 2 ^ 16 % 256, a / 2 ^ 8 % 256, a % 256] ++
      [b / 2 ^ 8 % 256, b % 256]), by simp [encode_instruction, AppendU32_eq, AppendU16_eq], ?_⟩
    intro rest
    simp only [read_instruction, List.cons_append, List.nil_append, ReadU8_cons, bind,
      Except.bind, OpCodeFromByte_toByte]
    have g1 := ReadU32Be_append a h1 ([b / 2 ^ 8 % 256, b % 256] ++ rest)
    have g2 := ReadU16Be_append b h2 rest
    simp only [List.cons_append, List.nil_append] at g1 g2
    simp only [show decide ((3 : Nat) &&& 1 ≠ 0) = true by decide,
      show decide ((3 : Nat) &&& 2 ≠ 0) = true by decide, if_true, g1, g2]

theorem read_code_encode (is : List Instruction) :
    ∀ (out : List Nat), (∀ i ∈ is, i.WellTyped) →
      (∀ i ∈ is, (i.has_a = false → i.a = 0) ∧ (i.has_b = false → i.b = 0)) →
      ∃ e, is.foldl encode_instruction out = out ++ e ∧
        ∀ rest acc, read_code is.length (e ++ rest) acc = .ok (acc ++ is, rest) := by
  induction is with
  | nil =>
    intro out _ _
    exact ⟨[], by simp, fun rest acc => by simp [read_code]⟩
  | cons i is ih =>
    intro out hty hz
    obtain ⟨e1, g1, g2⟩ := read_instruction_encode out i (hty i (List.mem_cons_self _ _))
      (hz i (List.mem_cons_self _ _)).1 (hz i (List.mem_cons_self _ _)).2
    obtain ⟨e2, k1, k2⟩ := ih (out ++ e1) (fun x hx => hty x (List.mem_cons_of_mem _ hx))
      (fun x hx => hz x (List.mem_cons_of_mem _ hx))
    refine ⟨e1 ++ e2, by rw [List.foldl_cons, g1, k1]; simp, ?_⟩
    intro rest acc
    simp only [List.length_cons, read_code, List.append_assoc, g2, bind, Except.bind]
    rw [k2]
    simp

/-- Decoding the encoding of a module, followed by any further bytes, gives
the module back. -/
theorem load_encode (mem : Memory) (M : BytecodeModule) (bytes : List Nat) (hty : M.WellTyped)
    (hcnt : M.CountsFit) (hpar : M.ParamsMatch) (habs : M.AbsentOperandsZero)
    (hval : ValidateModule M = .ok ()) (henc : EncodeModule M 1 = .ok bytes)
    (hmem : mem.reserves M.const_pool.length M.functions.length M.code.length = true)
    (extra : List Nat) :
    load_frogc mem (bytes ++ extra) = .ok M := by
  obtain ⟨consts, funcs, code⟩ := M
  obtain ⟨ht1, ht2, ht3⟩ := hty
  obtain ⟨hc1, hc2, hc3, hc4⟩ := hcnt
  simp only at ht1 ht2 ht3 hc1 hc2 hc3 hc4
  unfold EncodeModule at henc
  simp only [bind, Except.bind, Nat.mod_eq_of_lt hc1, Nat.mod_eq_of_lt hc2,
    Nat.mod_eq_of_lt hc3] at henc
  cases h5 : List.foldlM encode_constant
      (AppendU32 (AppendU32 (AppendU32 (AppendU16 [70, 82, 79, 71] 1) consts.length)
        funcs.length) code.length) consts with
  | error e => rw [h5] at henc; cases henc
  | ok out5 =>
    rw [h5] at henc
    simp only [] at henc
    cases henc
    obtain ⟨e1, g1, g2⟩ := read_constants_encode consts _ out5 ht1 hc4 h5
    obtain ⟨e2, k1, k2⟩ := read_functions_encode funcs out5 ht2 hpar
    obtain ⟨e3, l1, l2⟩ := read_code_encode code (out5 ++ e2) ht3 habs
    rw [k1, l1, g1]
    have hhead : AppendU32 (AppendU32 (AppendU32 (AppendU16 [70, 82, 79, 71] 1) consts.length)
        funcs.length) code.length = [70, 82, 79, 71] ++ ([0, 1] ++
        ([consts.length / 2 ^ 24 % 256, consts.length / 2 ^ 16 % 256, consts.length / 2 ^ 8 % 256,
          consts.length % 256] ++
        ([funcs.length / 2 ^ 24 % 256, funcs.length / 2 ^ 16 % 256, funcs.length / 2 ^ 8 % 256,
          funcs.length % 256] ++
        [code.length / 2 ^ 24 % 256, code.length / 2 ^ 16 % 256, code.length / 2 ^ 8 % 256,
          code.length % 256]))) := by
      simp only [AppendU32_eq, AppendU16_eq]
      simp
    rw [hhead]
    unfold load_frogc decode_frogc
    simp only [List.append_assoc]
    have hm := ReadExact_append [70, 82, 79, 71]
    simp only [List.length_cons, List.length_nil] at hm
    rw [hm]
    simp only [bind, Except.bind, List.getD_cons_zero, List.getD_cons_succ, ne_eq,
      not_true_eq_false, or_self, if_false]
    have hv := ReadU16Be_append 1 (by decide)
    simp only [show (1 : Nat) / 2 ^ 8 % 256 = 0 by decide, show (1 : Nat) % 256 = 1 by decide] at hv
    rw [hv]
    simp only [not_true_eq_false, if_false]
    rw [ReadU32Be_append _ hc1]
    simp only []
    rw [ReadU32Be_append _ hc2]
    simp only []
    rw [ReadU32Be_append _ hc3]
    simp only [] at hmem ⊢
    rw [hmem]
    simp only [Bool.true_eq_false, if_false]
    rw [g2]
    simp only [List.nil_append]
    rw [k2]
    simp only [List.nil_append]
    rw [l2]
    simp only [List.nil_append, hval]

/-! ## Claim about the loader round trip -/

/-- C1. Loader round trip: let `M` be a module whose fields lie in the ranges
of their C++ types, that passes `ValidateModule`, whose functions carry exactly
`param_count` parameter types, whose absent operands are zero, and whose
counts (of constants, functions, instructions and of the bytes of each string
constant) fit in 32 bits. If `bytes` is the encoding of `M` written by the
tests' `EncodeModule` with version 1, then `load_frogc` decodes `bytes`
successfully to a module equal to `M` in `const_pool`, `functions` and `code`
(a `double` constant being compared by its bit pattern), in every memory
`mem` in which the three `reserve` calls for the counts of `M` return. -/
theorem loader_round_trip (mem : Memory) (M : BytecodeModule) (bytes : List Nat)
    (hty : M.WellTyped)
    (hcnt : M.CountsFit) (hpar : M.ParamsMatch) (habs : M.AbsentOperandsZero)
    (hval : ValidateModule M = .ok ()) (henc : EncodeModule M 1 = .ok bytes)
    (hmem : mem.reserves M.const_pool.length M.functions.length M.code.length = true) :
    load_frogc mem bytes = .ok M := by
  have := load_encode mem M bytes hty hcnt hpar habs hval henc hmem []
  rwa [List.append_nil] at this

set_option maxRecDepth 100000 in
theorem loader_round_trip_witness :
    MakeBaselineModule.WellTyped ∧ MakeBaselineModule.CountsFit ∧
    MakeBaselineModule.ParamsMatch ∧ MakeBaselineModule.AbsentOperandsZero ∧
    ValidateModule MakeBaselineModule = .ok () ∧
    EncodeModule MakeBaselineModule 1 = .ok
      [70, 82, 79, 71, 0, 1, 0, 0, 0, 6, 0, 0, 0, 2, 0, 0, 0, 7, 4, 0, 0, 0, 4, 109, 97, 105, 110,
       4, 0, 0, 0, 6, 104, 101, 108, 112, 101, 114, 4, 0, 0, 0, 3, 109, 115, 103, 1, 0, 0, 0, 42,
       2, 64, 12, 0, 0, 0, 0, 0, 0, 3, 1, 0, 0, 0, 0, 0, 2, 0, 2, 0, 0, 0, 0, 4, 1, 3, 0, 0, 0, 1,
       0, 1, 0, 1, 0, 0, 0, 3, 5, 2, 0, 1, 0, 0, 0, 3, 3, 1, 0, 0, 0, 2, 22, 3, 0, 0, 0, 1, 0, 1,
       21, 1, 0, 0, 0, 6, 4, 1, 0, 0, 0, 2, 27, 0, 0, 1, 0, 0, 0, 5] ∧
    (Memory.ofItems 15).reserves MakeBaselineModule.const_pool.length
      MakeBaselineModule.functions.length MakeBaselineModule.code.length = true ∧
    load_frogc (Memory.ofItems 15)
      [70, 82, 79, 71, 0, 1, 0, 0, 0, 6, 0, 0, 0, 2, 0, 0, 0, 7, 4, 0, 0, 0, 4, 109, 97, 105, 110,
       4, 0, 0, 0, 6, 104, 101, 108, 112, 101, 114, 4, 0, 0, 0, 3, 109, 115, 103, 1, 0, 0, 0, 42,
       2, 64, 12, 0, 0, 0, 0, 0, 0, 3, 1, 0, 0, 0, 0, 0, 2, 0, 2, 0, 0, 0, 0, 4, 1, 3, 0, 0, 0, 1,
       0, 1, 0, 1, 0, 0, 0, 3, 5, 2, 0, 1, 0, 0, 0, 3, 3, 1, 0, 0, 0, 2, 22, 3, 0, 0, 0, 1, 0, 1,
       21, 1, 0, 0, 0, 6, 4, 1, 0, 0, 0, 2, 27, 0, 0, 1, 0, 0, 0, 5] = .ok MakeBaselineModule :=
  ⟨by decide, by decide, by decide, by decide, by decide, by decide, by decide,
    loader_round_trip (Memory.ofItems 15) MakeBaselineModule _ (by decide) (by decide)
      (by decide) (by decide) (by decide) (by decide) (by decide)⟩

/-! ## Claim about the loader's header check -/

theorem ReadExact_of_le (inp : List Nat) (n : Nat) (h : n ≤ inp.length) :
    ReadExact inp n = .ok (inp.take n, inp.drop n) := by
  unfold ReadExact
  rw [if_neg (by omega)]

theorem decode_bad_magic (mem : Memory) (b0 b1 b2 b3 : Nat) (rest : List Nat)
    (h : [b0, b1, b2, b3] ≠ [70, 82, 79, 71]) :
    decode_frogc mem (b0 :: b1 :: b2 :: b3 :: rest) = .error "bad magic" := by
  have hm := ReadExact_append [b0, b1, b2, b3] rest
  simp only [List.length_cons, List.length_nil, List.cons_append, List.nil_append] at hm
  unfold decode_frogc
  rw [hm]
  simp only [bind, Except.bind, List.getD_cons_zero, List.getD_cons_succ]
  rw [if_pos]
  by_contra hc
  simp only [not_or, ne_eq, not_not] at hc
  obtain ⟨h0, h1, h2, h3⟩ := hc
  exact h (by rw [h0, h1, h2, h3])

theorem decode_bad_version (mem : Memory) (b4 b5 : Nat) (rest : List Nat) (h4 : b4 < 256)
    (h5 : b5 < 256) (h : b4 * 256 + b5 ≠ 1) :
    decode_frogc mem (70 :: 82 :: 79 :: 71 :: b4 :: b5 :: rest) = .error "unsupported version" := by
  have hm := ReadExact_append [70, 82, 79, 71] (b4 :: b5 :: rest)
  simp only [List.length_cons, List.length_nil, List.cons_append, List.nil_append] at hm
  have hv := ReadExact_append [b4, b5] rest
  simp only [List.length_cons, List.length_nil, List.cons_append, List.nil_append] at hv
  unfold decode_frogc
  rw [hm]
  simp only [bind, Except.bind, List.getD_cons_zero, List.getD_cons_succ, ne_eq,
    not_true_eq_false, or_self, if_false, ReadU16Be]
  rw [hv]
  simp only [List.getD_cons_zero, List.getD_cons_succ]
  rw [or_shift _ _ 8 (by omega), if_pos]
  rw [Nat.mod_eq_of_lt (by omega)]
  simpa using h

/-- C11. Loader header check: let `file` hold at least 6 bytes. If its first
four bytes are not `'F','R','O','G'` (70, 82, 79, 71), `load_frogc` fails with
"bad magic"; if they are, and the big-endian 16-bit number made of the two
bytes that follow is not 1, `load_frogc` fails with "unsupported version". In
both cases the result is an error, so no module is returned. This holds in
every memory `mem`: both checks come before the first allocation. -/
theorem loader_header_check (mem : Memory) (file : List Nat) (hlen : 6 ≤ file.length)
    (hbytes : ∀ b ∈ file, b < 256) :
    (file.take 4 ≠ [70, 82, 79, 71] → load_frogc mem file = .error "bad magic") ∧
    (file.take 4 = [70, 82, 79, 71] → file.getD 4 0 * 256 + file.getD 5 0 ≠ 1 →
      load_frogc mem file = .error "unsupported version") := by
  match file, hlen, hbytes with
  | b0 :: b1 :: b2 :: b3 :: b4 :: b5 :: rest, _, hbytes =>
    constructor
    · intro h
      unfold load_frogc
      rw [decode_bad_magic mem b0 b1 b2 b3 _ (by simpa using h)]
      rfl
    · intro h hv
      simp only [List.take_succ_cons, List.take_zero, List.cons.injEq, and_true] at h
      obtain ⟨h0, h1, h2, h3⟩ := h
      subst h0 h1 h2 h3
      simp only [List.getD_cons_zero, List.getD_cons_succ] at hv
      unfold load_frogc
      rw [decode_bad_version mem b4 b5 rest (hbytes b4 (by simp)) (hbytes b5 (by simp)) hv]
      rfl

theorem loader_header_check_witness :
    load_frogc Memory.ample [70, 82, 79, 70, 0, 1, 0] = .error "bad magic" ∧
    load_frogc Memory.ample [70, 82, 79, 71, 0, 2, 0] = .error "unsupported version" :=
  ⟨(loader_header_check Memory.ample [70, 82, 79, 70, 0, 1, 0] (by decide) (by decide)).1
     (by decide),
   (loader_header_check Memory.ample [70, 82, 79, 71, 0, 2, 0] (by decide) (by decide)).2
     (by decide) (by decide)⟩

/-! ## Loader: truncated input -/

theorem FrontReader.bind {α β : Type} (R1 : List Nat → Except String (α × List Nat))
    (R2 : α × List Nat → Except String (β × List Nat)) (h1 : FrontReader R1)
    (h2 : ∀ v, FrontReader (fun inp => R2 (v, inp))) :
    FrontReader (fun inp => R1 inp >>= fun r => R2 r) := by
  constructor
  · intro inp v rest h ext
    simp only [bind, Except.bind] at h ⊢
    cases h1r : R1 inp with
    | error e => rw [h1r] at h; cases h
    | ok r =>
      obtain ⟨v1, rest1⟩ := r
      rw [h1r] at h
      rw [h1.1 inp v1 rest1 h1r ext]
      exact (h2 v1).1 rest1 v rest h ext
  · intro inp e h
    simp only [bind, Except.bind] at h ⊢
    cases h1r : R1 inp with
    | error e1 =>
      rw [h1r] at h
      cases h
      rcases h1.2 inp e h1r with he | he
      · exact Or.inl he
      · right
        intro ext
        rw [he ext]
        rfl
    | ok r =>
      obtain ⟨v1, rest1⟩ := r
      rw [h1r] at h
      rcases (h2 v1).2 rest1 e h with he | he
      · exact Or.inl he
      · right
        intro ext
        rw [h1.1 inp v1 rest1 h1r ext]
        exact he ext

theorem FrontReader.ret {α : Type} (v : α) : FrontReader (fun inp => Except.ok (v, inp)) := by
  constructor
  · intro inp v1 rest h ext
    cases h
    rfl
  · intro inp e h
    cases h

theorem FrontReader.fail {α : Type} (e : String) :
    FrontReader (fun _ => (Except.error e : Except String (α × List Nat))) := by
  constructor
  · intro inp v1 rest h ext
    cases h
  · intro inp e1 h
    cases h
    exact Or.inr (fun _ => rfl)

theorem FrontReader.check {α β : Type} (c : Except String α)
    (R : α → List Nat → Except String (β × List Nat)) (h : ∀ t, FrontReader (R t)) :
    FrontReader (fun inp => c >>= fun t => R t inp) := by
  cases c with
  | error e => exact FrontReader.fail e
  | ok t => exact h t

theorem ReadExact_front (n : Nat) : FrontReader (fun inp => ReadExact inp n) := by
  constructor
  · intro inp v rest h ext
    dsimp only at h ⊢
    unfold ReadExact at h ⊢
    by_cases hl : inp.length < n
    · rw [if_pos hl] at h
      cases h
    · rw [if_neg hl] at h
      cases h
      rw [if_neg (by rw [List.length_append]; omega)]
      rw [List.take_append_of_le_length (by omega), List.drop_append_of_le_length (by omega)]
  · intro inp e h
    dsimp only at h
    unfold ReadExact at h
    by_cases hl : inp.length < n
    · rw [if_pos hl] at h
      cases h
      exact Or.inl rfl
    · rw [if_neg hl] at h
      cases h

theorem ReadU8_front : FrontReader ReadU8 :=
  FrontReader.bind _ _ (ReadExact_front 1) (fun _ => by dsimp only; exact FrontReader.ret _)

theorem ReadU16Be_front : FrontReader ReadU16Be :=
  FrontReader.bind _ _ (ReadExact_front 2) (fun _ => by dsimp only; exact FrontReader.ret _)

theorem ReadU32Be_front : FrontReader ReadU32Be :=
  FrontReader.bind _ _ (ReadExact_front 4) (fun _ => by dsimp only; exact FrontReader.ret _)

theorem ReadI32Be_front : FrontReader ReadI32Be :=
  FrontReader.bind _ _ ReadU32Be_front (fun _ => by dsimp only; exact FrontReader.ret _)

theorem ReadF64Be_front : FrontReader ReadF64Be :=
  FrontReader.bind _ _ (ReadExact_front 8) (fun _ => by dsimp only; exact FrontReader.ret _)

theorem ReadStringBe_front : FrontReader ReadStringBe := by
  refine FrontReader.bind _ _ ReadU32Be_front (fun v => ?_)
  dsimp only
  by_cases hv : v > 0
  · simp only [hv, if_true]
    exact ReadExact_front v
  · simp only [hv, if_false]
    exact FrontReader.ret _

theorem read_constant_front : FrontReader read_constant := by
  refine FrontReader.bind _ _ ReadU8_front (fun t => ?_)
  dsimp only
  refine FrontReader.check _ _ (fun tag => ?_)
  cases tag
  · exact FrontReader.bind _ _ ReadI32Be_front (fun _ => by dsimp only; exact FrontReader.ret _)
  · exact FrontReader.bind _ _ ReadF64Be_front (fun _ => by dsimp only; exact FrontReader.ret _)
  · exact FrontReader.bind _ _ ReadU8_front (fun _ => by dsimp only; exact FrontReader.ret _)
  · exact FrontReader.bind _ _ ReadStringBe_front (fun _ => by dsimp only; exact FrontReader.ret _)

theorem read_constants_front (n : Nat) (acc : List Constant) :
    FrontReader (fun inp => read_constants n inp acc) := by
  induction n generalizing acc with
  | zero => exact FrontReader.ret _
  | succ n ih =>
    exact FrontReader.bind _ _ read_constant_front (fun v => by dsimp only; exact ih _)

theorem read_param_types_front (n : Nat) (acc : List TypeTag) :
    FrontReader (fun inp => read_param_types n inp acc) := by
  induction n generalizing acc with
  | zero => exact FrontReader.ret _
  | succ n ih =>
    refine FrontReader.bind _ _ ReadU8_front (fun v => ?_)
    dsimp only
    exact FrontReader.check _ _ (fun t => ih _)

theorem read_function_front : FrontReader read_function := by
  refine FrontReader.bind _ _ ReadU32Be_front (fun v1 => ?_)
  dsimp only
  refine FrontReader.bind _ _ ReadU16Be_front (fun v2 => ?_)
  dsimp only
  refine FrontReader.bind _ _ ReadU16Be_front (fun v3 => ?_)
  dsimp only
  refine FrontReader.bind _ _ ReadU32Be_front (fun v4 => ?_)
  dsimp only
  refine FrontReader.bind _ _ ReadU8_front (fun v5 => ?_)
  dsimp only
  refine FrontReader.check _ _ (fun ret => ?_)
  exact FrontReader.bind _ _ (read_param_types_front _ _)
    (fun _ => by dsimp only; exact FrontReader.ret _)

theorem read_functions_front (n : Nat) (acc : List FunctionInfo) :
    FrontReader (fun inp => read_functions n inp acc) := by
  induction n generalizing acc with
  | zero => exact FrontReader.ret _
  | succ n ih =>
    exact FrontReader.bind _ _ read_function_front (fun v => by dsimp only; exact ih _)

theorem read_instruction_front : FrontReader read_instruction := by
  refine FrontReader.bind _ _ ReadU8_front (fun v1 => ?_)
  dsimp only
  refine FrontReader.check _ _ (fun op => ?_)
  refine FrontReader.bind _ _ ReadU8_front (fun v2 => ?_)
  dsimp only
  split
  · refine FrontReader.bind _ _ ReadU32Be_front (fun va => ?_)
    dsimp only
    split
    · exact FrontReader.bind _ _ ReadU16Be_front (fun _ => by dsimp only; exact FrontReader.ret _)
    · exact FrontReader.bind _ _ (FrontReader.ret _) (fun _ => by dsimp only; exact FrontReader.ret _)
  · refine FrontReader.bind _ _ (FrontReader.ret _) (fun va => ?_)
    dsimp only
    split
    · exact FrontReader.bind _ _ ReadU16Be_front (fun _ => by dsimp only; exact FrontReader.ret _)
    · exact FrontReader.bind _ _ (FrontReader.ret _) (fun _ => by dsimp only; exact FrontReader.ret _)

theorem read_code_front (n : Nat) (acc : List Instruction) :
    FrontReader (fun inp => read_code n inp acc) := by
  induction n generalizing acc with
  | zero => exact FrontReader.ret _
  | succ n ih =>
    exact FrontReader.bind _ _ read_instruction_front (fun v => by dsimp only; exact ih _)

theorem decode_frogc_front (mem : Memory) : FrontReader (decode_frogc mem) := by
  refine FrontReader.bind _ _ (ReadExact_front 4) (fun magic => ?_)
  dsimp only
  split
  · exact FrontReader.fail _
  · refine FrontReader.bind _ _ ReadU16Be_front (fun version => ?_)
    dsimp only
    split
    · exact FrontReader.fail _
    · refine FrontReader.bind _ _ ReadU32Be_front (fun cc => ?_)
      dsimp only
      refine FrontReader.bind _ _ ReadU32Be_front (fun fc => ?_)
      dsimp only
      refine FrontReader.bind _ _ ReadU32Be_front (fun cs => ?_)
      dsimp only
      split
      · exact FrontReader.fail _
      · refine FrontReader.bind _ _ (read_constants_front _ _) (fun consts => ?_)
        dsimp only
        refine FrontReader.bind _ _ (read_functions_front _ _) (fun funcs => ?_)
        dsimp only
        exact FrontReader.bind _ _ (read_code_front _ _)
          (fun _ => by dsimp only; exact FrontReader.ret _)

theorem decode_strict_front (mem : Memory) (file : List Nat) (m : BytecodeModule)
    (hall : decode_frogc mem file = .ok (m, [])) (p : List Nat) (hp : p <+: file)
    (hne : p ≠ file) :
    decode_frogc mem p = .error eofMsg := by
  obtain ⟨ext, rfl⟩ := hp
  have hext : ext ≠ [] := by
    intro h
    apply hne
    rw [h, List.append_nil]
  cases hd : decode_frogc mem p with
  | ok r =>
    obtain ⟨m1, rest⟩ := r
    have := (decode_frogc_front mem).1 p m1 rest hd ext
    rw [this] at hall
    have h := Except.ok.inj hall
    simp only [Prod.mk.injEq, List.append_eq_nil] at h
    exact absurd h.2.2 hext
  | error e =>
    rcases (decode_frogc_front mem).2 p e hd with he | he
    · rw [he]
    · rw [he ext] at hall
      cases hall

/-- C12. Loader truncation: let `file` be a byte string that `load_frogc`
decodes without trailing bytes, that is, its reads succeed, build a module `m`
and leave no byte unread (as they do whenever `load_frogc` returns a module
and has read the whole of `file`). Then on every strict prefix `p` of `file`,
the empty input included, `load_frogc` fails with "unexpected end of file"; in
particular it returns no module built from fewer bytes than the counts and
length fields of the file announce. The memory `mem` is any, the same for
`file` and `p`. -/
theorem loader_truncation (mem : Memory) (file : List Nat) (m : BytecodeModule)
    (hall : decode_frogc mem file = .ok (m, []))
    (p : List Nat) (hp : p <+: file) (hne : p ≠ file) :
    load_frogc mem p = .error eofMsg ∧ ∀ m1, load_frogc mem p ≠ .ok m1 := by
  have h := decode_strict_front mem file m hall p hp hne
  have h2 : load_frogc mem p = .error eofMsg := by
    unfold load_frogc
    rw [h]
    rfl
  refine ⟨h2, fun m1 hm => ?_⟩
  rw [h2] at hm
  cases hm

set_option maxRecDepth 100000 in
theorem loader_truncation_witness :
    load_frogc Memory.ample (kHelloModule.take 23) = .error eofMsg ∧
    ∀ m1, load_frogc Memory.ample (kHelloModule.take 23) ≠ .ok m1 :=
  loader_truncation Memory.ample kHelloModule
    { const_pool := [{ tag := .kString, value := .string [120] }, { tag := .kInt, value := .int 70 }],
      functions := [],
      code := [{ op := .kPushConst, a := 1, b := 0, has_a := true, has_b := false },
               { op := .kStoreGlobal, a := 0, b := 0, has_a := true, has_b := false }] }
    (by decide) (kHelloModule.take 23) (List.take_prefix 23 kHelloModule) (by decide)

/-! ## Loader: tag ranges -/

theorem ReadU32Be_cons4 (a b c d : Nat) (rest : List Nat) :
    ∃ v, ReadU32Be (a :: b :: c :: d :: rest) = .ok (v, rest) := by
  have := ReadExact_append [a, b, c, d] rest
  simp only [List.length_cons, List.length_nil, List.cons_append, List.nil_append] at this
  simp only [ReadU32Be, this, bind, Except.bind]
  exact ⟨_, rfl⟩

theorem ReadU16Be_cons2 (a b : Nat) (rest : List Nat) :
    ReadU16Be (a :: b :: rest) = .ok (((a <<< 8) ||| b) % 2 ^ 16, rest) := by
  have := ReadExact_append [a, b] rest
  simp only [List.length_cons, List.length_nil, List.cons_append, List.nil_append] at this
  simp only [ReadU16Be, this, bind, Except.bind, List.getD_cons_zero, List.getD_cons_succ]

theorem ConstTagFromByte_bad (t : Nat) (h : ¬ (1 ≤ t ∧ t ≤ 4)) :
    ConstTagFromByte t = .error "invalid const tag" := by
  match t, h with
  | 0, _ => rfl
  | 1, h => exact absurd (by decide) h
  | 2, h => exact absurd (by decide) h
  | 3, h => exact absurd (by decide) h
  | 4, h => exact absurd (by decide) h
  | _ + 5, _ => rfl

theorem TypeTagFromByte_bad (t : Nat) (h : ¬ (1 ≤ t ∧ t ≤ 6)) :
    TypeTagFromByte t = .error "invalid type tag" := by
  match t, h with
  | 0, _ => rfl
  | 1, h => exact absurd (by decide) h
  | 2, h => exact absurd (by decide) h
  | 3, h => exact absurd (by decide) h
  | 4, h => exact absurd (by decide) h
  | 5, h => exact absurd (by decide) h
  | 6, h => exact absurd (by decide) h
  | _ + 7, _ => rfl

theorem TypeTagFromByte_good (t : Nat) (h : 1 ≤ t ∧ t ≤ 6) :
    ∃ tag, TypeTagFromByte t = .ok tag := by
  match t, h with
  | 0, h => exact absurd h (by decide)
  | 1, _ => exact ⟨_, rfl⟩
  | 2, _ => exact ⟨_, rfl⟩
  | 3, _ => exact ⟨_, rfl⟩
  | 4, _ => exact ⟨_, rfl⟩
  | 5, _ => exact ⟨_, rfl⟩
  | 6, _ => exact ⟨_, rfl⟩
  | n + 7, h => exact absurd h.2 (by omega)

theorem OpCodeFromByte_bad (t : Nat) (h : 27 < t) : OpCodeFromByte t = .error "invalid opcode" := by
  unfold OpCodeFromByte
  rw [if_pos (by simpa [OpCode.toByte] using h)]

theorem read_constant_bad (t : Nat) (rest : List Nat) (h : ¬ (1 ≤ t ∧ t ≤ 4)) :
    read_constant (t :: rest) = .error "invalid const tag" := by
  unfold read_constant
  rw [ReadU8_cons]
  simp only [bind, Except.bind, ConstTagFromByte_bad t h]

theorem read_instruction_bad (t : Nat) (rest : List Nat) (h : 27 < t) :
    read_instruction (t :: rest) = .error "invalid opcode" := by
  unfold read_instruction
  rw [ReadU8_cons]
  simp only [bind, Except.bind, OpCodeFromByte_bad t h]

theorem read_param_types_bad (pts : List Nat) (t : Nat) (rest : List Nat) (n : Nat)
    (acc : List TypeTag) (hp : ∀ b ∈ pts, 1 ≤ b ∧ b ≤ 6) (hn : pts.length < n)
    (ht : ¬ (1 ≤ t ∧ t ≤ 6)) :
    read_param_types n (pts ++ t :: rest) acc = .error "invalid type tag" := by
  induction pts generalizing n acc with
  | nil =>
    obtain ⟨n1, rfl⟩ : ∃ n1, n = n1 + 1 := ⟨n - 1, by simp at hn; omega⟩
    simp only [List.nil_append, read_param_types, ReadU8_cons, bind, Except.bind,
      TypeTagFromByte_bad t ht]
  | cons b pts ih =>
    obtain ⟨n1, rfl⟩ : ∃ n1, n = n1 + 1 := ⟨n - 1, by simp at hn; omega⟩
    obtain ⟨tag, htag⟩ := TypeTagFromByte_good b (hp b (by simp))
    simp only [List.cons_append, read_param_types, ReadU8_cons, bind, Except.bind, htag]
    exact ih n1 _ (fun x hx => hp x (by simp [hx])) (by simp at hn; omega)

theorem read_function_bad_ret (hd : List Nat) (t : Nat) (rest : List Nat) (hl : hd.length = 12)
    (ht : ¬ (1 ≤ t ∧ t ≤ 6)) :
    read_function (hd ++ t :: rest) = .error "invalid type tag" := by
  match hd, hl with
  | [a0, a1, a2, a3, a4, a5, a6, a7, a8, a9, a10, a11], _ =>
    obtain ⟨v1, h1⟩ := ReadU32Be_cons4 a0 a1 a2 a3 (a4 :: a5 :: a6 :: a7 :: a8 :: a9 :: a10 :: a11 :: t :: rest)
    obtain ⟨v4, h4⟩ := ReadU32Be_cons4 a8 a9 a10 a11 (t :: rest)
    unfold read_function
    simp only [List.cons_append, List.nil_append, h1, bind, Except.bind, ReadU16Be_cons2, h4,
      ReadU8_cons, TypeTagFromByte_bad t ht]

theorem read_function_bad_param (hd : List Nat) (ret : Nat) (pts : List Nat) (t : Nat)
    (rest : List Nat) (hl : hd.length = 12) (hret : 1 ≤ ret ∧ ret ≤ 6)
    (hp : ∀ b ∈ pts, 1 ≤ b ∧ b ≤ 6)
    (hn : pts.length < ((hd.getD 4 0 <<< 8) ||| hd.getD 5 0) % 2 ^ 16)
    (ht : ¬ (1 ≤ t ∧ t ≤ 6)) :
    read_function (hd ++ ret :: (pts ++ t :: rest)) = .error "invalid type tag" := by
  match hd, hl, hn with
  | [a0, a1, a2, a3, a4, a5, a6, a7, a8, a9, a10, a11], _, hn =>
    obtain ⟨v1, h1⟩ := ReadU32Be_cons4 a0 a1 a2 a3
      (a4 :: a5 :: a6 :: a7 :: a8 :: a9 :: a10 :: a11 :: ret :: (pts ++ t :: rest))
    obtain ⟨v4, h4⟩ := ReadU32Be_cons4 a8 a9 a10 a11 (ret :: (pts ++ t :: rest))
    obtain ⟨tag, htag⟩ := TypeTagFromByte_good ret hret
    simp only [List.getD_cons_zero, List.getD_cons_succ] at hn
    unfold read_function
    simp only [List.cons_append, List.nil_append, h1, bind, Except.bind, ReadU16Be_cons2, h4,
      ReadU8_cons, htag, read_param_types_bad pts t rest _ [] hp hn ht]

theorem read_constants_split (k j : Nat) (inp : List Nat) (acc : List Constant) :
    read_constants (k + j) inp acc =
      read_constants k inp acc >>= fun r => read_constants j r.2 r.1 := by
  induction k generalizing inp acc with
  | zero => simp only [Nat.zero_add, read_constants, bind, Except.bind]
  | succ k ih =>
    rw [Nat.succ_add]
    simp only [read_constants, bind, Except.bind]
    cases read_constant inp with
    | error e => rfl
    | ok r => exact ih r.2 _

theorem read_functions_split (k j : Nat) (inp : List Nat) (acc : List FunctionInfo) :
    read_functions (k + j) inp acc =
      read_functions k inp acc >>= fun r => read_functions j r.2 r.1 := by
  induction k generalizing inp acc with
  | zero => simp only [Nat.zero_add, read_functions, bind, Except.bind]
  | succ k ih =>
    rw [Nat.succ_add]
    simp only [read_functions, bind, Except.bind]
    cases read_function inp with
    | error e => rfl
    | ok r => exact ih r.2 _

theorem read_code_split (k j : Nat) (inp : List Nat) (acc : List Instruction) :
    read_code (k + j) inp acc = read_code k inp acc >>= fun r => read_code j r.2 r.1 := by
  induction k generalizing inp acc with
  | zero => simp only [Nat.zero_add, read_code, bind, Except.bind]
  | succ k ih =>
    rw [Nat.succ_add]
    simp only [read_code, bind, Except.bind]
    cases read_instruction inp with
    | error e => rfl
    | ok r => exact ih r.2 _

theorem read_constants_stop (n k : Nat) (inp : List Nat) (acc acc1 : List Constant)
    (inp1 : List Nat) (e : String) (hk : k < n) (h : read_constants k inp acc = .ok (acc1, inp1))
    (he : read_constant inp1 = .error e) : read_constants n inp acc = .error e := by
  obtain ⟨j, rfl⟩ : ∃ j, n = k + (j + 1) := ⟨n - k - 1, by omega⟩
  rw [read_constants_split, h]
  simp only [bind, Except.bind, read_constants, he]

theorem read_functions_stop (n k : Nat) (inp : List Nat) (acc acc1 : List FunctionInfo)
    (inp1 : List Nat) (e : String) (hk : k < n) (h : read_functions k inp acc = .ok (acc1, inp1))
    (he : read_function inp1 = .error e) : read_functions n inp acc = .error e := by
  obtain ⟨j, rfl⟩ : ∃ j, n = k + (j + 1) := ⟨n - k - 1, by omega⟩
  rw [read_functions_split, h]
  simp only [bind, Except.bind, read_functions, he]

theorem read_code_stop (n k : Nat) (inp : List Nat) (acc acc1 : List Instruction)
    (inp1 : List Nat) (e : String) (hk : k < n) (h : read_code k inp acc = .ok (acc1, inp1))
    (he : read_instruction inp1 = .error e) : read_code n inp acc = .error e := by
  obtain ⟨j, rfl⟩ : ∃ j, n = k + (j + 1) := ⟨n - k - 1, by omega⟩
  rw [read_code_split, h]
  simp only [bind, Except.bind, read_code, he]

theorem decode_header (mem : Memory) (cc fc cs : Nat) (hcc : cc < 2 ^ 32) (hfc : fc < 2 ^ 32)
    (hcs : cs < 2 ^ 32) (body : List Nat) :
    decode_frogc mem (frogcHeader cc fc cs ++ body) =
      if mem.reserves cc fc cs = false then .error badAllocMsg
      else
        read_constants cc body [] >>= fun consts =>
        read_functions fc consts.2 [] >>= fun funcs =>
        read_code cs funcs.2 [] >>= fun code =>
        .ok ({ const_pool := consts.1, functions := funcs.1, code := code.1 }, code.2) := by
  have hhead : frogcHeader cc fc cs = [70, 82, 79, 71] ++ ([0, 1] ++
      ([cc / 2 ^ 24 % 256, cc / 2 ^ 16 % 256, cc / 2 ^ 8 % 256, cc % 256] ++
      ([fc / 2 ^ 24 % 256, fc / 2 ^ 16 % 256, fc / 2 ^ 8 % 256, fc % 256] ++
      [cs / 2 ^ 24 % 256, cs / 2 ^ 16 % 256, cs / 2 ^ 8 % 256, cs % 256]))) := by
    simp only [frogcHeader, AppendU32_eq, AppendU16_eq]
    simp
  rw [hhead]
  unfold decode_frogc
  simp only [List.append_assoc]
  have hm := ReadExact_append [70, 82, 79, 71]
  simp only [List.length_cons, List.length_nil] at hm
  rw [hm]
  simp only [bind, Except.bind, List.getD_cons_zero, List.getD_cons_succ, ne_eq,
    not_true_eq_false, or_self, if_false]
  have hv := ReadU16Be_append 1 (by decide)
  simp only [show (1 : Nat) / 2 ^ 8 % 256 = 0 by decide, show (1 : Nat) % 256 = 1 by decide] at hv
  rw [hv]
  simp only [not_true_eq_false, if_false]
  rw [ReadU32Be_append _ hcc]
  simp only []
  rw [ReadU32Be_append _ hfc]
  simp only []
  rw [ReadU32Be_append _ hcs]

theorem load_of_decode_error (mem : Memory) (file : List Nat) (e : String)
    (h : decode_frogc mem file = .error e) : load_frogc mem file = .error e := by
  unfold load_frogc
  rw [h]
  rfl

theorem ConstTagFromByte_ok (t : Nat) (tag : ConstTag) (h : ConstTagFromByte t = .ok tag) :
    (1 ≤ t ∧ t ≤ 4) ∧ tag.toByte = t := by
  match t, h with
  | 0, h => cases h
  | 1, h => cases h; exact ⟨by decide, rfl⟩
  | 2, h => cases h; exact ⟨by decide, rfl⟩
  | 3, h => cases h; exact ⟨by decide, rfl⟩
  | 4, h => cases h; exact ⟨by decide, rfl⟩
  | _ + 5, h => cases h

theorem TypeTagFromByte_ok (t : Nat) (tag : TypeTag) (h : TypeTagFromByte t = .ok tag) :
    (1 ≤ t ∧ t ≤ 6) ∧ tag.toByte = t := by
  match t, h with
  | 0, h => cases h
  | 1, h => cases h; exact ⟨by decide, rfl⟩
  | 2, h => cases h; exact ⟨by decide, rfl⟩
  | 3, h => cases h; exact ⟨by decide, rfl⟩
  | 4, h => cases h; exact ⟨by decide, rfl⟩
  | 5, h => cases h; exact ⟨by decide, rfl⟩
  | 6, h => cases h; exact ⟨by decide, rfl⟩
  | _ + 7, h => cases h

theorem OpCodeFromByte_ok (t : Nat) (op : OpCode) (h : OpCodeFromByte t = .ok op) :
    t ≤ 27 ∧ op.toByte = t := by
  by_cases ht : 27 < t
  · rw [OpCodeFromByte_bad t ht] at h
    cases h
  · have hall : ∀ u < 28, (OpCode.ofByte u).toByte = u := by decide
    unfold OpCodeFromByte at h
    rw [if_neg (by simpa [OpCode.toByte] using ht)] at h
    cases h
    exact ⟨by omega, hall t (by omega)⟩

/-- A constant that the loader has read: its tag byte is in range and is the
byte of its tag. -/
theorem read_constant_tag (t : Nat) (rest : List Nat) (c : Constant) (r : List Nat)
    (h : read_constant (t :: rest) = .ok (c, r)) : (1 ≤ t ∧ t ≤ 4) ∧ c.tag.toByte = t := by
  unfold read_constant at h
  rw [ReadU8_cons] at h
  simp only [bind, Except.bind] at h
  cases ht : ConstTagFromByte t with
  | error e =>
    rw [ht] at h
    cases h
  | ok tag =>
    rw [ht] at h
    obtain ⟨h1, h2⟩ := ConstTagFromByte_ok t tag ht
    refine ⟨h1, ?_⟩
    rw [← h2]
    cases tag <;> simp only at h
    · cases hr : ReadI32Be rest with
      | error e => rw [hr] at h; cases h
      | ok x => rw [hr] at h; cases h; rfl
    · cases hr : ReadF64Be rest with
      | error e => rw [hr] at h; cases h
      | ok x => rw [hr] at h; cases h; rfl
    · cases hr : ReadU8 rest with
      | error e => rw [hr] at h; cases h
      | ok x => rw [hr] at h; cases h; rfl
    · cases hr : ReadStringBe rest with
      | error e => rw [hr] at h; cases h
      | ok x => rw [hr] at h; cases h; rfl

theorem read_instruction_tag (t : Nat) (rest : List Nat) (ins : Instruction) (r : List Nat)
    (h : read_instruction (t :: rest) = .ok (ins, r)) : t ≤ 27 ∧ ins.op.toByte = t := by
  unfold read_instruction at h
  rw [ReadU8_cons] at h
  simp only [bind, Except.bind] at h
  cases ht : OpCodeFromByte t with
  | error e =>
    rw [ht] at h
    cases h
  | ok op =>
    rw [ht] at h
    obtain ⟨h1, h2⟩ := OpCodeFromByte_ok t op ht
    refine ⟨h1, ?_⟩
    rw [← h2]
    simp only at h
    cases h2r : ReadU8 rest with
    | error e => rw [h2r] at h; cases h
    | ok r2 =>
      rw [h2r] at h
      simp only at h
      repeat' split at h
      all_goals first | (cases h; rfl) | cases h

theorem read_constants_acc (n : Nat) (inp : List Nat) (acc r : List Constant) (inp1 : List Nat)
    (h : read_constants n inp acc = .ok (r, inp1)) : ∃ more, r = acc ++ more ∧ more.length = n := by
  induction n generalizing inp acc with
  | zero =>
    simp only [read_constants] at h
    cases h
    exact ⟨[], by simp, rfl⟩
  | succ n ih =>
    simp only [read_constants, bind, Except.bind] at h
    cases hc : read_constant inp with
    | error e => rw [hc] at h; cases h
    | ok x =>
      rw [hc] at h
      obtain ⟨more, h1, h2⟩ := ih _ _ h
      exact ⟨x.1 :: more, by rw [h1]; simp, by simp [h2]⟩

theorem read_functions_acc (n : Nat) (inp : List Nat) (acc r : List FunctionInfo)
    (inp1 : List Nat) (h : read_functions n inp acc = .ok (r, inp1)) :
    ∃ more, r = acc ++ more ∧ more.length = n := by
  induction n generalizing inp acc with
  | zero =>
    simp only [read_functions] at h
    cases h
    exact ⟨[], by simp, rfl⟩
  | succ n ih =>
    simp only [read_functions, bind, Except.bind] at h
    cases hc : read_function inp with
    | error e => rw [hc] at h; cases h
    | ok x =>
      rw [hc] at h
      obtain ⟨more, h1, h2⟩ := ih _ _ h
      exact ⟨x.1 :: more, by rw [h1]; simp, by simp [h2]⟩

theorem read_code_acc (n : Nat) (inp : List Nat) (acc r : List Instruction) (inp1 : List Nat)
    (h : read_code n inp acc = .ok (r, inp1)) : ∃ more, r = acc ++ more ∧ more.length = n := by
  induction n generalizing inp acc with
  | zero =>
    simp only [read_code] at h
    cases h
    exact ⟨[], by simp, rfl⟩
  | succ n ih =>
    simp only [read_code, bind, Except.bind] at h
    cases hc : read_instruction inp with
    | error e => rw [hc] at h; cases h
    | ok x =>
      rw [hc] at h
      obtain ⟨more, h1, h2⟩ := ih _ _ h
      exact ⟨x.1 :: more, by rw [h1]; simp, by simp [h2]⟩

theorem read_param_types_acc (n : Nat) (inp : List Nat) (acc r : List TypeTag) (inp1 : List Nat)
    (h : read_param_types n inp acc = .ok (r, inp1)) :
    ∃ more, r = acc ++ more ∧ more.length = n := by
  induction n generalizing inp acc with
  | zero =>
    simp only [read_param_types] at h
    cases h
    exact ⟨[], by simp, rfl⟩
  | succ n ih =>
    simp only [read_param_types, bind, Except.bind] at h
    cases hc : ReadU8 inp with
    | error e => rw [hc] at h; cases h
    | ok x =>
      rw [hc] at h
      simp only at h
      cases ht : TypeTagFromByte x.1 with
      | error e => rw [ht] at h; cases h
      | ok tag =>
        rw [ht] at h
        obtain ⟨more, h1, h2⟩ := ih _ _ h
        exact ⟨tag :: more, by rw [h1]; simp, by simp [h2]⟩

/-- The loop over the constants, where it returns: the constant it reads
after `k` others is entry `k` of what it returns. -/
theorem read_constants_at (n k : Nat) (body : List Nat) (consts cl : List Constant)
    (inp inp1 : List Nat) (hk : k < n) (h1 : read_constants k body [] = .ok (consts, inp))
    (h2 : read_constants n body [] = .ok (cl, inp1)) :
    ∃ c r, read_constant inp = .ok (c, r) ∧ cl.get? k = some c := by
  obtain ⟨j, rfl⟩ : ∃ j, n = k + (j + 1) := ⟨n - k - 1, by omega⟩
  rw [read_constants_split, h1] at h2
  simp only [bind, Except.bind, read_constants] at h2
  obtain ⟨more, e1, e2⟩ := read_constants_acc k body [] consts inp h1
  cases hc : read_constant inp with
  | error e => rw [hc] at h2; cases h2
  | ok x =>
    rw [hc] at h2
    obtain ⟨more2, e3, -⟩ := read_constants_acc j _ _ cl inp1 h2
    refine ⟨x.1, x.2, rfl, ?_⟩
    rw [e3, e1, List.nil_append, List.append_assoc, List.get?_eq_getElem?,
      List.getElem?_append_right (by omega), e2, Nat.sub_self]
    simp

theorem read_functions_at (n k : Nat) (body : List Nat) (funcs fl : List FunctionInfo)
    (inp inp1 : List Nat) (hk : k < n) (h1 : read_functions k body [] = .ok (funcs, inp))
    (h2 : read_functions n body [] = .ok (fl, inp1)) :
    ∃ f r, read_function inp = .ok (f, r) ∧ fl.get? k = some f := by
  obtain ⟨j, rfl⟩ : ∃ j, n = k + (j + 1) := ⟨n - k - 1, by omega⟩
  rw [read_functions_split, h1] at h2
  simp only [bind, Except.bind, read_functions] at h2
  obtain ⟨more, e1, e2⟩ := read_functions_acc k body [] funcs inp h1
  cases hc : read_function inp with
  | error e => rw [hc] at h2; cases h2
  | ok x =>
    rw [hc] at h2
    obtain ⟨more2, e3, -⟩ := read_functions_acc j _ _ fl inp1 h2
    refine ⟨x.1, x.2, rfl, ?_⟩
    rw [e3, e1, List.nil_append, List.append_assoc, List.get?_eq_getElem?,
      List.getElem?_append_right (by omega), e2, Nat.sub_self]
    simp

theorem read_code_at (n k : Nat) (body : List Nat) (code il : List Instruction)
    (inp inp1 : List Nat) (hk : k < n) (h1 : read_code k body [] = .ok (code, inp))
    (h2 : read_code n body [] = .ok (il, inp1)) :
    ∃ i r, read_instruction inp = .ok (i, r) ∧ il.get? k = some i := by
  obtain ⟨j, rfl⟩ : ∃ j, n = k + (j + 1) := ⟨n - k - 1, by omega⟩
  rw [read_code_split, h1] at h2
  simp only [bind, Except.bind, read_code] at h2
  obtain ⟨more, e1, e2⟩ := read_code_acc k body [] code inp h1
  cases hc : read_instruction inp with
  | error e => rw [hc] at h2; cases h2
  | ok x =>
    rw [hc] at h2
    obtain ⟨more2, e3, -⟩ := read_code_acc j _ _ il inp1 h2
    refine ⟨x.1, x.2, rfl, ?_⟩
    rw [e3, e1, List.nil_append, List.append_assoc, List.get?_eq_getElem?,
      List.getElem?_append_right (by omega), e2, Nat.sub_self]
    simp

/-- The loop over the parameter types, where it returns: the byte it reads
after the bytes `pts` is in range and is the byte of the entry it adds. -/
theorem read_param_types_at (pts : List Nat) (t : Nat) (rest : List Nat) (n : Nat)
    (acc r : List TypeTag) (inp1 : List Nat) (hn : pts.length < n)
    (h : read_param_types n (pts ++ t :: rest) acc = .ok (r, inp1)) :
    (1 ≤ t ∧ t ≤ 6) ∧
    (r.get? (acc.length + pts.length)).map TypeTag.toByte = some t := by
  induction pts generalizing n acc with
  | nil =>
    obtain ⟨n1, rfl⟩ : ∃ n1, n = n1 + 1 := ⟨n - 1, by simp at hn; omega⟩
    simp only [List.nil_append, read_param_types, ReadU8_cons, bind, Except.bind] at h
    cases ht : TypeTagFromByte t with
    | error e => rw [ht] at h; cases h
    | ok tag =>
      rw [ht] at h
      obtain ⟨g1, g2⟩ := TypeTagFromByte_ok t tag ht
      obtain ⟨more, e1, -⟩ := read_param_types_acc _ _ _ _ _ h
      refine ⟨g1, ?_⟩
      rw [e1, List.length_nil, Nat.add_zero, List.append_assoc, List.get?_eq_getElem?,
        List.getElem?_append_right (le_refl _), Nat.sub_self]
      simp [g2]
  | cons b pts ih =>
    obtain ⟨n1, rfl⟩ : ∃ n1, n = n1 + 1 := ⟨n - 1, by simp at hn; omega⟩
    simp only [List.cons_append, read_param_types, ReadU8_cons, bind, Except.bind] at h
    cases hb : TypeTagFromByte b with
    | error e => rw [hb] at h; cases h
    | ok tb =>
      rw [hb] at h
      have := ih n1 (acc ++ [tb]) (by simp at hn; omega) h
      rw [List.length_append, List.length_singleton] at this
      rw [List.length_cons]
      have e : acc.length + (pts.length + 1) = acc.length + 1 + pts.length := by omega
      rw [e]
      exact this

/-- A function descriptor that the loader has read: the return-type byte,
after the 12 bytes of the numeric fields, is in range and is the byte of the
return type. -/
theorem read_function_ret (hd : List Nat) (t : Nat) (rest : List Nat) (hl : hd.length = 12)
    (f : FunctionInfo) (r : List Nat) (h : read_function (hd ++ t :: rest) = .ok (f, r)) :
    (1 ≤ t ∧ t ≤ 6) ∧ f.return_type.toByte = t := by
  match hd, hl with
  | [a0, a1, a2, a3, a4, a5, a6, a7, a8, a9, a10, a11], _ =>
    obtain ⟨v1, h1⟩ := ReadU32Be_cons4 a0 a1 a2 a3 (a4 :: a5 :: a6 :: a7 :: a8 :: a9 :: a10 :: a11 :: t :: rest)
    obtain ⟨v4, h4⟩ := ReadU32Be_cons4 a8 a9 a10 a11 (t :: rest)
    unfold read_function at h
    simp only [List.cons_append, List.nil_append, h1, bind, Except.bind, ReadU16Be_cons2, h4,
      ReadU8_cons] at h
    cases ht : TypeTagFromByte t with
    | error e => rw [ht] at h; cases h
    | ok tag =>
      rw [ht] at h
      obtain ⟨g1, g2⟩ := TypeTagFromByte_ok t tag ht
      simp only at h
      cases hp : read_param_types (((a4 <<< 8) ||| a5) % 2 ^ 16) rest [] with
      | error e => rw [hp] at h; cases h
      | ok x =>
        rw [hp] at h
        cases h
        exact ⟨g1, g2⟩

/-- A function descriptor that the loader has read: a parameter-type byte is
in range and is the byte of the parameter type at its place. -/
theorem read_function_param (hd : List Nat) (ret : Nat) (pts : List Nat) (t : Nat)
    (rest : List Nat) (hl : hd.length = 12)
    (hn : pts.length < ((hd.getD 4 0 <<< 8) ||| hd.getD 5 0) % 2 ^ 16)
    (f : FunctionInfo) (r : List Nat)
    (h : read_function (hd ++ ret :: (pts ++ t :: rest)) = .ok (f, r)) :
    (1 ≤ t ∧ t ≤ 6) ∧ (f.param_types.get? pts.length).map TypeTag.toByte = some t := by
  match hd, hl, hn with
  | [a0, a1, a2, a3, a4, a5, a6, a7, a8, a9, a10, a11], _, hn =>
    obtain ⟨v1, h1⟩ := ReadU32Be_cons4 a0 a1 a2 a3
      (a4 :: a5 :: a6 :: a7 :: a8 :: a9 :: a10 :: a11 :: ret :: (pts ++ t :: rest))
    obtain ⟨v4, h4⟩ := ReadU32Be_cons4 a8 a9 a10 a11 (ret :: (pts ++ t :: rest))
    simp only [List.getD_cons_zero, List.getD_cons_succ] at hn
    unfold read_function at h
    simp only [List.cons_append, List.nil_append, h1, bind, Except.bind, ReadU16Be_cons2, h4,
      ReadU8_cons] at h
    cases ht : TypeTagFromByte ret with
    | error e => rw [ht] at h; cases h
    | ok tag =>
      rw [ht] at h
      simp only at h
      cases hp : read_param_types (((a4 <<< 8) ||| a5) % 2 ^ 16) (pts ++ t :: rest) [] with
      | error e => rw [hp] at h; cases h
      | ok x =>
        rw [hp] at h
        cases h
        have := read_param_types_at pts t rest _ [] x.1 x.2 hn hp
        simpa using this

/-- C13. Loader tag ranges. Take a file that starts with the header of a
version-1 module announcing `cc` constants, `fc` functions and `cs`
instructions, followed by `body`, and a memory `mem`. (0) If the three
`reserve` calls for these counts do not return in `mem`, `load_frogc` fails
with `std::bad_alloc`, whatever the bytes that follow. Let them return.
(1) If the loader has read `k < cc` constants and the tag byte `t` of the
next one is outside 1..4, `load_frogc` fails with "invalid const tag". (2) If
it has read all constants and `k < fc` functions and, after the 12 bytes of
the next function's four numeric fields, the return-type byte `t` is outside
1..6, it fails with "invalid type tag"; (3) so it does when the return-type
byte `ret` is in range and, after fewer parameter-type bytes `pts` (all in
range) than the function's parameter count, the next parameter-type byte `t`
is outside 1..6. (4) If it has read all constants and functions and `k < cs`
instructions and the opcode byte `t` of the next one is greater than 27, it
fails with "invalid opcode". (5) Conversely, if `load_frogc` returns a module
`m` for the file, then at each of these places the byte `t` is in range and
is the byte of the tag that `m` holds there: constant `k` has the tag of byte
`t`, function `k` the return type of byte `t` and, after the bytes `pts`, the
parameter type of byte `t` at place `|pts|`, and instruction `k` the opcode
of byte `t`. (6) Every module that `load_frogc` returns, from any file in any
memory, holds only constant tags of byte value 1..4, type tags of byte value
1..6 and opcodes of byte value 0..27: the tag types have no other values. -/
theorem loader_tag_ranges (mem : Memory) (cc fc cs : Nat) (hcc : cc < 2 ^ 32)
    (hfc : fc < 2 ^ 32) (hcs : cs < 2 ^ 32) (body : List Nat) :
    (mem.reserves cc fc cs = false →
      load_frogc mem (frogcHeader cc fc cs ++ body) = .error badAllocMsg) ∧
    (∀ k consts t rest, mem.reserves cc fc cs = true → k < cc →
      read_constants k body [] = .ok (consts, t :: rest) →
      ¬ (1 ≤ t ∧ t ≤ 4) →
      load_frogc mem (frogcHeader cc fc cs ++ body) = .error "invalid const tag") ∧
    (∀ consts inp1 k funcs hd t rest, mem.reserves cc fc cs = true →
      read_constants cc body [] = .ok (consts, inp1) → k < fc →
      read_functions k inp1 [] = .ok (funcs, hd ++ t :: rest) → hd.length = 12 →
      ¬ (1 ≤ t ∧ t ≤ 6) →
      load_frogc mem (frogcHeader cc fc cs ++ body) = .error "invalid type tag") ∧
    (∀ consts inp1 k funcs hd ret pts t rest, mem.reserves cc fc cs = true →
      read_constants cc body [] = .ok (consts, inp1) →
      k < fc → read_functions k inp1 [] = .ok (funcs, hd ++ ret :: (pts ++ t :: rest)) →
      hd.length = 12 → (1 ≤ ret ∧ ret ≤ 6) → (∀ b ∈ pts, 1 ≤ b ∧ b ≤ 6) →
      pts.length < ((hd.getD 4 0 <<< 8) ||| hd.getD 5 0) % 2 ^ 16 → ¬ (1 ≤ t ∧ t ≤ 6) →
      load_frogc mem (frogcHeader cc fc cs ++ body) = .error "invalid type tag") ∧
    (∀ consts inp1 funcs inp2 k code t rest, mem.reserves cc fc cs = true →
      read_constants cc body [] = .ok (consts, inp1) →
      read_functions fc inp1 [] = .ok (funcs, inp2) → k < cs →
      read_code k inp2 [] = .ok (code, t :: rest) → 27 < t →
      load_frogc mem (frogcHeader cc fc cs ++ body) = .error "invalid opcode") ∧
    (∀ m, load_frogc mem (frogcHeader cc fc cs ++ body) = .ok m →
      mem.reserves cc fc cs = true ∧
      (∀ k consts t rest, k < cc → read_constants k body [] = .ok (consts, t :: rest) →
        (1 ≤ t ∧ t ≤ 4) ∧ (m.const_pool.get? k).map (fun c => c.tag.toByte) = some t) ∧
      (∀ consts inp1 k funcs hd t rest, read_constants cc body [] = .ok (consts, inp1) →
        k < fc → read_functions k inp1 [] = .ok (funcs, hd ++ t :: rest) → hd.length = 12 →
        (1 ≤ t ∧ t ≤ 6) ∧
        (m.functions.get? k).map (fun f => f.return_type.toByte) = some t) ∧
      (∀ consts inp1 k funcs hd ret pts t rest, read_constants cc body [] = .ok (consts, inp1) →
        k < fc → read_functions k inp1 [] = .ok (funcs, hd ++ ret :: (pts ++ t :: rest)) →
        hd.length = 12 →
        pts.length < ((hd.getD 4 0 <<< 8) ||| hd.getD 5 0) % 2 ^ 16 →
        (1 ≤ t ∧ t ≤ 6) ∧
        ((m.functions.get? k).bind (fun f => f.param_types.get? pts.length)).map
          TypeTag.toByte = some t) ∧
      (∀ consts inp1 funcs inp2 k code t rest, read_constants cc body [] = .ok (consts, inp1) →
        read_functions fc inp1 [] = .ok (funcs, inp2) → k < cs →
        read_code k inp2 [] = .ok (code, t :: rest) →
        t ≤ 27 ∧ (m.code.get? k).map (fun i => i.op.toByte) = some t)) ∧
    (∀ mem1 file m, load_frogc mem1 file = .ok m →
      (∀ c ∈ m.const_pool, 1 ≤ c.tag.toByte ∧ c.tag.toByte ≤ 4) ∧
      (∀ f ∈ m.functions, (1 ≤ f.return_type.toByte ∧ f.return_type.toByte ≤ 6) ∧
        ∀ p ∈ f.param_types, 1 ≤ p.toByte ∧ p.toByte ≤ 6) ∧
      (∀ ins ∈ m.code, ins.op.toByte ≤ 27)) := by
  have htype : ∀ p : TypeTag, 1 ≤ p.toByte ∧ p.toByte ≤ 6 := by
    intro p
    cases p <;> exact ⟨by decide, by decide⟩
  have hdec := decode_header mem cc fc cs hcc hfc hcs body
  refine ⟨?_, ?_, ?_, ?_, ?_, ?_, ?_⟩
  · intro hres
    apply load_of_decode_error
    rw [hdec, if_pos hres]
  · intro k consts t rest hres hk hr ht
    apply load_of_decode_error
    rw [hdec, if_neg (by rw [hres]; decide),
      read_constants_stop cc k body [] consts (t :: rest) _ hk hr (read_constant_bad t rest ht)]
    rfl
  · intro consts inp1 k funcs hd t rest hres hc hk hr hl ht
    apply load_of_decode_error
    rw [hdec, if_neg (by rw [hres]; decide), hc]
    simp only [bind, Except.bind]
    rw [read_functions_stop fc k inp1 [] funcs _ _ hk hr (read_function_bad_ret hd t rest hl ht)]
  · intro consts inp1 k funcs hd ret pts t rest hres hc hk hr hl hret hp hn ht
    apply load_of_decode_error
    rw [hdec, if_neg (by rw [hres]; decide), hc]
    simp only [bind, Except.bind]
    rw [read_functions_stop fc k inp1 [] funcs _ _ hk hr
      (read_function_bad_param hd ret pts t rest hl hret hp hn ht)]
  · intro consts inp1 funcs inp2 k code t rest hres hc hf hk hr ht
    apply load_of_decode_error
    rw [hdec, if_neg (by rw [hres]; decide), hc]
    simp only [bind, Except.bind]
    rw [hf]
    simp only []
    rw [read_code_stop cs k inp2 [] code _ _ hk hr (read_instruction_bad t rest ht)]
  · intro m hm
    unfold load_frogc at hm
    rw [hdec] at hm
    by_cases hres : mem.reserves cc fc cs = false
    · rw [if_pos hres] at hm
      cases hm
    rw [if_neg hres] at hm
    simp only [bind, Except.bind] at hm
    cases hc : read_constants cc body [] with
    | error e => rw [hc] at hm; cases hm
    | ok xc =>
      rw [hc] at hm
      simp only at hm
      cases hf : read_functions fc xc.2 [] with
      | error e => rw [hf] at hm; cases hm
      | ok xf =>
        rw [hf] at hm
        simp only at hm
        cases hi : read_code cs xf.2 [] with
        | error e => rw [hi] at hm; cases hm
        | ok xi =>
          rw [hi] at hm
          simp only at hm
          cases hv : ValidateModule { const_pool := xc.1, functions := xf.1, code := xi.1 } with
          | error e => rw [hv] at hm; cases hm
          | ok u =>
            rw [hv] at hm
            cases hm
            refine ⟨by simpa using hres, ?_, ?_, ?_, ?_⟩
            · intro k consts t rest hk hr
              obtain ⟨c, r, h1, h2⟩ := read_constants_at cc k body consts xc.1 _ xc.2 hk hr hc
              obtain ⟨g1, g2⟩ := read_constant_tag t rest c r h1
              refine ⟨g1, ?_⟩
              simp only
              rw [h2]
              simp [g2]
            · intro consts inp1 k funcs hd t rest hc1 hk hr hl
              cases hc1
              obtain ⟨f, r, h1, h2⟩ := read_functions_at fc k _ funcs xf.1 _ xf.2 hk hr hf
              obtain ⟨g1, g2⟩ := read_function_ret hd t rest hl f r h1
              refine ⟨g1, ?_⟩
              simp only
              rw [h2]
              simp [g2]
            · intro consts inp1 k funcs hd ret pts t rest hc1 hk hr hl hn
              cases hc1
              obtain ⟨f, r, h1, h2⟩ := read_functions_at fc k _ funcs xf.1 _ xf.2 hk hr hf
              obtain ⟨g1, g2⟩ := read_function_param hd ret pts t rest hl hn f r h1
              refine ⟨g1, ?_⟩
              simp only
              rw [h2]
              exact g2
            · intro consts inp1 funcs inp2 k code t rest hc1 hf1 hk hr
              cases hc1
              have hf2 : Except.ok xf = Except.ok (funcs, inp2) := hf.symm.trans hf1
              cases hf2
              obtain ⟨i, r, h1, h2⟩ := read_code_at cs k _ code xi.1 _ xi.2 hk hr hi
              obtain ⟨g1, g2⟩ := read_instruction_tag t rest i r h1
              refine ⟨g1, ?_⟩
              simp only
              rw [h2]
              simp [g2]
  · intro mem1 file m _
    refine ⟨fun c _ => ?_, fun f _ => ⟨htype _, fun p _ => htype p⟩, fun ins _ => ?_⟩
    · cases c.tag <;> exact ⟨by decide, by decide⟩
    · cases ins.op <;> decide

theorem loader_tag_ranges_witness :
    load_frogc (Memory.ofItems 1000) (frogcHeader 0 0 2000 ++ [28]) = .error badAllocMsg ∧
    load_frogc (Memory.ofItems 1000) (frogcHeader 1 1 1 ++ [9]) = .error "invalid const tag" ∧
    load_frogc (Memory.ofItems 1000)
        (frogcHeader 1 1 1 ++ [3, 1, 0, 0, 0, 0, 0, 1, 0, 0, 0, 0, 0, 0, 5, 7]) =
      .error "invalid type tag" ∧
    load_frogc (Memory.ofItems 1000)
        (frogcHeader 1 1 1 ++ [3, 1, 0, 0, 0, 0, 0, 1, 0, 0, 0, 0, 0, 0, 5, 1, 28]) =
      .error "invalid opcode" :=
  ⟨(loader_tag_ranges (Memory.ofItems 1000) 0 0 2000 (by decide) (by decide) (by decide)
      [28]).1 (by decide),
   (loader_tag_ranges (Memory.ofItems 1000) 1 1 1 (by decide) (by decide) (by decide) [9]).2.1
      0 [] 9 [] (by decide) (by decide) (by decide) (by decide),
   (loader_tag_ranges (Memory.ofItems 1000) 1 1 1 (by decide) (by decide) (by decide)
      [3, 1, 0, 0, 0, 0, 0, 1, 0, 0, 0, 0, 0, 0, 5, 7]).2.2.2.1
      [{ tag := .kBool, value := .bool true }] [0, 0, 0, 0, 0, 1, 0, 0, 0, 0, 0, 0, 5, 7] 0 []
      [0, 0, 0, 0, 0, 1, 0, 0, 0, 0, 0, 0] 5 [] 7 [] (by decide) (by decide) (by decide)
      (by decide) (by decide) (by decide) (by decide) (by decide) (by decide),
   (loader_tag_ranges (Memory.ofItems 1000) 1 1 1 (by decide) (by decide) (by decide)
      [3, 1, 0, 0, 0, 0, 0, 1, 0, 0, 0, 0, 0, 0, 5, 1, 28]).2.2.2.2.1
      [{ tag := .kBool, value := .bool true }]
      [0, 0, 0, 0, 0, 1, 0, 0, 0, 0, 0, 0, 5, 1, 28]
      [{ name_const_index := 0, param_count := 1, local_count := 0, entry_ip := 0,
         return_type := .kVoid, param_types := [.kInt] }] [28] 0 [] 28 []
      (by decide) (by decide) (by decide) (by decide) (by decide) (by decide)⟩

/-- The claim C13 as it is worded fails on the 19-byte file that announces
4294967295 constants and has the byte 9 where the tag of the first constant
stands, in a memory that has no room for as many constants: the byte is
outside 1..4, and `load_frogc` fails with `std::bad_alloc`, thrown by
`m.const_pool.reserve(const_count)` before the byte is read, not with
"invalid const tag". -/
theorem loader_tag_ranges_counterexample :
    frogcHeader 4294967295 0 0 ++ [9] =
      [70, 82, 79, 71, 0, 1, 255, 255, 255, 255, 0, 0, 0, 0, 0, 0, 0, 0, 9] ∧
    ¬ (1 ≤ 9 ∧ 9 ≤ 4) ∧
    (Memory.ofItems 1000000000).reserves 4294967295 0 0 = false ∧
    load_frogc (Memory.ofItems 1000000000)
        [70, 82, 79, 71, 0, 1, 255, 255, 255, 255, 0, 0, 0, 0, 0, 0, 0, 0, 9] =
      .error "std::bad_alloc" ∧
    load_frogc (Memory.ofItems 1000000000)
        [70, 82, 79, 71, 0, 1, 255, 255, 255, 255, 0, 0, 0, 0, 0, 0, 0, 0, 9] ≠
      .error "invalid const tag" :=
  ⟨by decide, by decide, by decide, by decide, by decide⟩

/-! ## Loader: structural validation -/

theorem validate_instruction_error_iff (cc fc cs : Nat) (ins : Instruction) :
    (∃ e, validate_instruction cc fc cs ins = .error e) ↔ ins.BreaksRule cc fc cs := by
  obtain ⟨op, a, b, has_a, has_b⟩ := ins
  unfold Instruction.BreaksRule validate_instruction
  cases op <;> simp only [reduceCtorEq, false_or, or_false, false_and, and_false, true_and,
    or_self, exists_false, true_or, or_true] <;>
    (split <;> simp_all <;> tauto)

theorem validate_instruction_ok_or (cc fc cs : Nat) (ins : Instruction) :
    validate_instruction cc fc cs ins = .ok () ∨ ∃ e, validate_instruction cc fc cs ins = .error e := by
  cases h : validate_instruction cc fc cs ins with
  | ok u => exact Or.inl rfl
  | error e => exact Or.inr ⟨e, rfl⟩

theorem validate_code_error_iff (cc fc cs : Nat) (code : List Instruction) :
    (∃ e, validate_code cc fc cs code = .error e) ↔ ∃ ins ∈ code, ins.BreaksRule cc fc cs := by
  induction code with
  | nil => simp [validate_code]
  | cons ins rest ih =>
    simp only [validate_code, bind, Except.bind, List.mem_cons, exists_eq_or_imp]
    rw [← ih, ← validate_instruction_error_iff]
    cases h : validate_instruction cc fc cs ins with
    | ok u => simp
    | error e => simp

theorem validate_functions_error_iff (cc : Nat) (fs : List FunctionInfo) :
    (∃ e, validate_functions cc fs = .error e) ↔ ∃ f ∈ fs, f.name_const_index ≥ cc := by
  induction fs with
  | nil => simp [validate_functions]
  | cons f rest ih =>
    simp only [validate_functions, List.mem_cons, exists_eq_or_imp]
    rw [← ih]
    by_cases h : f.name_const_index ≥ cc
    · simp [h]
    · simp [h]

theorem ValidateModule_error_iff (m : BytecodeModule) :
    (∃ e, ValidateModule m = .error e) ↔
      (∃ ins ∈ m.code,
        ins.BreaksRule m.const_pool.length m.functions.length m.code.length) ∨
      (∃ f ∈ m.functions, f.name_const_index ≥ m.const_pool.length) := by
  rw [← validate_code_error_iff, ← validate_functions_error_iff]
  unfold ValidateModule
  simp only [bind, Except.bind]
  cases h : validate_code m.const_pool.length m.functions.length m.code.length m.code with
  | ok u => simp
  | error e => simp

theorem load_frogc_validated (mem : Memory) (file : List Nat) (m : BytecodeModule)
    (h : load_frogc mem file = .ok m) : ValidateModule m = .ok () := by
  unfold load_frogc at h
  simp only [bind, Except.bind] at h
  cases hd : decode_frogc mem file with
  | error e => rw [hd] at h; cases h
  | ok r =>
    rw [hd] at h
    simp only [] at h
    cases hv : ValidateModule r.1 with
    | error e => rw [hv] at h; cases h
    | ok u =>
      rw [hv] at h
      cases h
      exact hv

/-- C14. Structural validation is exact: for every module `m`,
`ValidateModule(m)` fails if and only if some instruction of `m.code` breaks
a rule (a PUSH_CONST, LOAD_GLOBAL or STORE_GLOBAL without operand `a` or with
`a >= |const_pool|`; a CALL without operand `a` or `b` or with
`a >= |functions|`; a JUMP or JUMP_FALSE without operand `a` or with
`a >= |code|`) or some function has `name_const_index >= |const_pool|`. Hence
every module that `load_frogc` returns, in any memory, has no such
instruction and no such function. -/
theorem validation_exact (m : BytecodeModule) :
    ((∃ e, ValidateModule m = .error e) ↔
      (∃ ins ∈ m.code,
        ins.BreaksRule m.const_pool.length m.functions.length m.code.length) ∨
      (∃ f ∈ m.functions, f.name_const_index ≥ m.const_pool.length)) ∧
    (∀ mem file, load_frogc mem file = .ok m →
      (∀ ins ∈ m.code,
        ¬ ins.BreaksRule m.const_pool.length m.functions.length m.code.length) ∧
      (∀ f ∈ m.functions, f.name_const_index < m.const_pool.length)) := by
  refine ⟨ValidateModule_error_iff m, fun mem file h => ?_⟩
  have hv := load_frogc_validated mem file m h
  have hno : ¬ ∃ e, ValidateModule m = .error e := by
    rintro ⟨e, he⟩
    rw [hv] at he
    cases he
  rw [ValidateModule_error_iff] at hno
  refine ⟨fun ins hi hb => hno (Or.inl ⟨ins, hi, hb⟩), fun f hf => ?_⟩
  by_contra hc
  exact hno (Or.inr ⟨f, hf, by omega⟩)

/-! ## Loader: opcode numbering -/

theorem OpCode.indexOf_declOrder (op : OpCode) : OpCode.declOrder.indexOf op = op.toByte := by
  cases op <;> decide

theorem OpCodeFromByte_ok_iff (op : OpCode) (b : Nat) :
    OpCodeFromByte b = .ok op ↔ b = op.toByte := by
  constructor
  · intro h
    unfold OpCodeFromByte at h
    by_cases hb : b > OpCode.kPop.toByte
    · rw [if_pos hb] at h
      cases h
    · rw [if_neg hb] at h
      have hb2 : b ≤ 27 := by simpa [OpCode.toByte] using hb
      have h2 : OpCode.ofByte b = op := by
        cases h
        rfl
      subst h2
      interval_cases b <;> rfl
  · intro h
    subst h
    exact OpCodeFromByte_toByte op

/-- C15 (amended). Opcode numbering: the byte value that the loader decodes to
each opcode equals that opcode's position, counted from 0, in the declaration
order of `enum class OpCode` (PUSH_CONST = 0, LOAD_LOCAL = 1, STORE_LOCAL = 2,
LOAD_GLOBAL = 3, STORE_GLOBAL = 4, ADD = 5, ..., STORE_INDEX = 26, POP = 27),
and no other byte decodes to it. That order is the order of the specification's
opcode table with POP moved from the second place to the last. -/
theorem opcode_numbering (op : OpCode) (b : Nat) :
    (OpCodeFromByte b = .ok op ↔ b = OpCode.declOrder.indexOf op) ∧
    OpCode.declOrder = specOpcodeTable.erase .kPop ++ [.kPop] := by
  rw [OpCode.indexOf_declOrder]
  exact ⟨OpCodeFromByte_ok_iff op b, by decide⟩

/-- In the specification's table POP stands at position 1 and LOAD_LOCAL at
position 2, but the loader decodes the byte 1 to LOAD_LOCAL, the byte 2 to
STORE_LOCAL, and POP from the byte 27. -/
theorem opcode_numbering_counterexample :
    specOpcodeTable.indexOf OpCode.kPop = 1 ∧ specOpcodeTable.indexOf OpCode.kLoadLocal = 2 ∧
    OpCodeFromByte 1 = .ok OpCode.kLoadLocal ∧ OpCodeFromByte 2 = .ok OpCode.kStoreLocal ∧
    OpCodeFromByte 27 = .ok OpCode.kPop := by
  decide

/-! ## Heap: pointers and mark bits -/

namespace Heap

theorem deref_eq_some_mem {objs : List (Nat × HeapObject)} {p : Nat} {o : HeapObject}
    (h : deref objs p = some o) : (p, o) ∈ objs := by
  unfold deref at h
  cases hf : objs.find? (fun o => decide (o.1 = p)) with
  | none => rw [hf] at h; cases h
  | some x =>
    rw [hf] at h
    simp only [Option.map_some', Option.some.injEq] at h
    have h1 := List.find?_some hf
    have h2 := List.mem_of_find?_eq_some hf
    simp only [decide_eq_true_eq] at h1
    obtain ⟨a, b⟩ := x
    simp only at h h1
    subst h h1
    exact h2

theorem deref_isSome_of_mem {objs : List (Nat × HeapObject)} {p : Nat}
    (h : p ∈ objs.map Prod.fst) : ∃ o, deref objs p = some o := by
  induction objs with
  | nil => simp at h
  | cons x rest ih =>
    unfold deref
    by_cases hx : x.1 = p
    · exact ⟨x.2, by simp [List.find?_cons, hx]⟩
    · simp only [List.map_cons, List.mem_cons] at h
      rcases h with h | h
      · exact absurd h.symm hx
      · obtain ⟨o, ho⟩ := ih h
        refine ⟨o, ?_⟩
        unfold deref at ho
        simp only [List.find?_cons, hx, decide_False]
        exact ho

theorem deref_of_mem_nodup {objs : List (Nat × HeapObject)} {p : Nat} {o : HeapObject}
    (hn : (objs.map Prod.fst).Nodup) (h : (p, o) ∈ objs) : deref objs p = some o := by
  induction objs with
  | nil => simp at h
  | cons x rest ih =>
    simp only [List.map_cons, List.nodup_cons] at hn
    simp only [List.mem_cons] at h
    unfold deref
    rcases h with h | h
    · subst h
      simp [List.find?_cons]
    · have hx : x.1 ≠ p := by
        intro hx
        apply hn.1
        rw [hx]
        exact List.mem_map.mpr ⟨(p, o), h, rfl⟩
      simp only [List.find?_cons, hx, decide_False]
      exact ih hn.2 h

theorem setMarked_map_fst (objs : List (Nat × HeapObject)) (p : Nat) (b : Bool) :
    (setMarked objs p b).map Prod.fst = objs.map Prod.fst := by
  unfold setMarked
  rw [List.map_map]
  apply List.map_congr_left
  intro o _
  simp only [Function.comp]
  split <;> rfl

theorem setMarked_map_unmark (objs : List (Nat × HeapObject)) (p : Nat) (b : Bool) :
    (setMarked objs p b).map unmark = objs.map unmark := by
  unfold setMarked
  rw [List.map_map]
  apply List.map_congr_left
  intro o _
  simp only [Function.comp, unmark]
  split <;> rfl

theorem deref_setMarked (objs : List (Nat × HeapObject)) (p q : Nat) (b : Bool) :
    deref (setMarked objs p b) q =
      (deref objs q).map (fun o => if q = p then { o with marked := b } else o) := by
  induction objs with
  | nil => rfl
  | cons x rest ih =>
    unfold deref at ih ⊢
    unfold setMarked at ih ⊢
    simp only [List.map_cons, List.find?_cons]
    by_cases hx : x.1 = q
    · by_cases hp : x.1 = p
      · have hqp : q = p := hx.symm.trans hp
        simp [hx, hp, hqp]
      · have hqp : ¬ q = p := fun h => hp (hx.trans h)
        simp [hx, hp, hqp]
    · have hx2 : ¬ (if x.1 = p then (x.1, { x.2 with marked := b }) else x).1 = q := by
        split <;> exact hx
      simp only [hx2, hx, decide_False]
      exact ih

theorem deref_map_unmark (objs : List (Nat × HeapObject)) (q : Nat) :
    deref (objs.map unmark) q = (deref objs q).map (fun o => { o with marked := false }) := by
  induction objs with
  | nil => rfl
  | cons x rest ih =>
    unfold deref at ih ⊢
    simp only [List.map_cons, List.find?_cons, unmark]
    by_cases hx : x.1 = q
    · simp [hx]
    · simp only [hx, decide_False]
      exact ih

theorem PointsInto.mem {addrs : List Nat} {v : Value} (h : PointsInto addrs v) (p : Nat)
    (hp : v.pointer = some p) (h0 : p ≠ 0) : p ∈ addrs := by
  unfold PointsInto at h
  rw [hp] at h
  rcases h with h | h
  · exact absurd h h0
  · exact h

theorem Closed.root {h : Heap} {roots : List Value} (hcl : Closed h roots) (v : Value)
    (hv : v ∈ roots) (p : Nat) (hp : v.pointer = some p) (h0 : p ≠ 0) : p ∈ h.addrs :=
  (hcl.1 v hv).mem p hp h0

theorem Closed.elem {h : Heap} {roots : List Value} (hcl : Closed h roots)
    (o : Nat × HeapObject) (ho : o ∈ h.objects_) (hk : o.2.kind = .kArray) (v : Value)
    (hv : v ∈ o.2.elements) (p : Nat) (hp : v.pointer = some p) (h0 : p ≠ 0) : p ∈ h.addrs :=
  (hcl.2 o ho hk v hv).mem p hp h0

end Heap

/-! ## Heap: marking one value -/

namespace Heap

theorem map_fst_of_map_unmark {a b : List (Nat × HeapObject)}
    (h : a.map unmark = b.map unmark) : a.map Prod.fst = b.map Prod.fst := by
  have := congrArg (List.map Prod.fst) h
  simpa [List.map_map, Function.comp, unmark] using this

theorem MarkStep.refl (st : MarkState) : MarkStep st st (fun _ => False) where
  shape := rfl
  marked := fun q => by simp
  pushed := ⟨[], rfl, fun q hq => by simp at hq⟩
  fresh := fun q h1 h2 => absurd h1 h2
  measure := Nat.le_refl _
  count := rfl

theorem MarkStep.congr {st st1 : MarkState} {N N1 : Nat → Prop} (h : MarkStep st st1 N)
    (hN : ∀ q, N q ↔ N1 q) : MarkStep st st1 N1 where
  shape := h.shape
  marked := fun q => by rw [h.marked q, hN q]
  pushed := by
    obtain ⟨new, h1, h2⟩ := h.pushed
    exact ⟨new, h1, fun q hq => ⟨(h2 q hq).1, (hN q).1 (h2 q hq).2⟩⟩
  fresh := h.fresh
  measure := h.measure
  count := h.count

theorem MarkStep.trans {st st1 st2 : MarkState} {N1 N2 : Nat → Prop}
    (h1 : MarkStep st st1 N1) (h2 : MarkStep st1 st2 N2) :
    MarkStep st st2 (fun q => N1 q ∨ N2 q) where
  shape := h2.shape.trans h1.shape
  marked := fun q => by rw [h2.marked q, h1.marked q, or_assoc]
  pushed := by
    obtain ⟨new1, e1, p1⟩ := h1.pushed
    obtain ⟨new2, e2, p2⟩ := h2.pushed
    refine ⟨new2 ++ new1, by rw [e2, e1, List.append_assoc], fun q hq => ?_⟩
    rcases List.mem_append.1 hq with hq | hq
    · exact ⟨fun hm => (p2 q hq).1 ((h1.marked q).2 (Or.inl hm)), Or.inr (p2 q hq).2⟩
    · exact ⟨(p1 q hq).1, Or.inl (p1 q hq).2⟩
  fresh := fun q hm hn => by
    by_cases hq : IsMarked st1.objects q
    · obtain ⟨new2, e2, _⟩ := h2.pushed
      rw [e2]
      exact List.mem_append_right _ (h1.fresh q hq hn)
    · exact h2.fresh q hm hq
  measure := Nat.le_trans h2.measure h1.measure
  count := h2.count.trans h1.count

theorem unmarkedCount_setMarked (objs : List (Nat × HeapObject)) (p : Nat) (o : HeapObject)
    (hn : (objs.map Prod.fst).Nodup) (hd : deref objs p = some o) (hm : o.marked = false) :
    unmarkedCount (setMarked objs p true) + 1 = unmarkedCount objs := by
  induction objs with
  | nil => cases hd
  | cons x rest ih =>
    simp only [List.map_cons, List.nodup_cons] at hn
    unfold unmarkedCount setMarked at ih ⊢
    unfold deref at hd ih
    simp only [List.find?_cons] at hd
    simp only [List.map_cons, List.filter_cons]
    by_cases hx : x.1 = p
    · simp only [hx, decide_True, Option.map_some', Option.some.injEq] at hd
      subst hd
      have hrest : List.map (fun o => if o.1 = p then (o.1, { o.2 with marked := true }) else o) rest
          = rest := by
        conv_rhs => rw [← List.map_id rest]
        apply List.map_congr_left
        intro y hy
        have : y.1 ≠ p := by
          intro h
          apply hn.1
          rw [hx, ← h]
          exact List.mem_map_of_mem _ hy
        simp [this]
      simp only [hx, if_true, Bool.not_true, hm, Bool.not_false, hrest]
      simp
    · simp only [hx, decide_False] at hd
      have := ih hn.2 hd
      simp only [hx, if_false]
      cases x.2.marked
      · simp only [Bool.not_false, if_true, List.length_cons]
        exact congrArg (fun n => n + 1) this
      · simp only [Bool.not_true]
        exact this

theorem MarkValue_spec (st : MarkState) (v : Value)
    (hn : (st.objects.map Prod.fst).Nodup)
    (hc : ∀ p, v.pointer = some p → p ≠ 0 → p ∈ st.objects.map Prod.fst) :
    ∃ st1, MarkValue st v = .ok st1 ∧ MarkStep st st1 (fun q => v.pointer = some q ∧ q ≠ 0) := by
  unfold MarkValue
  cases hp : v.pointer with
  | none =>
    have : MarkStep st st (fun q => (none : Option Nat) = some q ∧ q ≠ 0) :=
      (MarkStep.refl st).congr (fun q => by simp)
    split
    · exact ⟨st, rfl, this⟩
    · exact ⟨st, rfl, this⟩
  | some p =>
    have htag : ¬ (v.tag ≠ .kString ∧ v.tag ≠ .kArray) := by
      cases v <;> simp [Value.pointer, Value.tag] at hp ⊢
    rw [if_neg htag]
    simp only []
    by_cases h0 : p = 0
    · rw [if_pos h0]
      refine ⟨st, rfl, (MarkStep.refl st).congr (fun q => ?_)⟩
      simp only [Option.some.injEq, false_iff, not_and, not_not]
      intro h
      rw [← h, h0]
    · rw [if_neg h0]
      obtain ⟨o, ho⟩ := deref_isSome_of_mem (hc p hp h0)
      rw [ho]
      simp only []
      cases hm : o.marked with
      | true =>
        simp only [if_true]
        refine ⟨st, rfl, ?_⟩
        refine { shape := rfl, marked := fun q => ?_, pushed := ⟨[], rfl, fun q hq => by simp at hq⟩,
                 fresh := fun q h1 h2 => absurd h1 h2, measure := Nat.le_refl _, count := rfl }
        constructor
        · exact Or.inl
        · rintro (h | ⟨h, _⟩)
          · exact h
          · simp only [Option.some.injEq] at h
            subst h
            exact ⟨o, ho, hm⟩
      | false =>
        simp only [Bool.false_eq_true, if_false]
        refine ⟨_, rfl, ?_⟩
        have hcnt := unmarkedCount_setMarked st.objects p o hn ho hm
        have hnot : ¬ IsMarked st.objects p := by
          rintro ⟨o1, h1, h2⟩
          rw [ho] at h1
          cases h1
          rw [hm] at h2
          cases h2
        refine { shape := setMarked_map_unmark _ _ _, marked := fun q => ?_,
                 pushed := ⟨[p], rfl, fun q hq => ?_⟩, fresh := fun q h1 h2 => ?_,
                 measure := ?_, count := ?_ }
        · simp only [IsMarked, deref_setMarked, Option.some.injEq]
          constructor
          · rintro ⟨o1, h1, h2⟩
            by_cases hq : q = p
            · exact Or.inr ⟨by rw [hq], by rw [hq]; exact h0⟩
            · left
              cases hd : deref st.objects q with
              | none => rw [hd] at h1; cases h1
              | some o2 =>
                rw [hd] at h1
                simp only [Option.map_some', hq, if_false, Option.some.injEq] at h1
                subst h1
                exact ⟨o2, rfl, h2⟩
          · rintro (⟨o1, h1, h2⟩ | ⟨h, _⟩)
            · rw [h1]
              by_cases hq : q = p
              · exact ⟨_, by simp only [Option.map_some', hq, if_true]; rfl, rfl⟩
              · exact ⟨_, by simp only [Option.map_some', hq, if_false], h2⟩
            · subst h
              rw [ho]
              exact ⟨_, by simp only [Option.map_some', if_true]; rfl, rfl⟩
        · simp only [List.mem_singleton] at hq
          subst hq
          exact ⟨hnot, rfl, h0⟩
        · simp only [IsMarked, deref_setMarked] at h1
          by_cases hq : q = p
          · rw [hq]
            exact List.mem_cons_self _ _
          · exfalso
            apply h2
            obtain ⟨o1, h3, h4⟩ := h1
            cases hd : deref st.objects q with
            | none => rw [hd] at h3; cases h3
            | some o2 =>
              rw [hd] at h3
              simp only [Option.map_some', hq, if_false, Option.some.injEq] at h3
              subst h3
              exact ⟨o2, hd, h4⟩
        · simp only [List.length_cons]
          omega
        · simp only []
          omega

end Heap

/-! ## Heap: the marking loop -/

namespace Heap

theorem MarkValue_fold_spec (vs : List Value) (st : MarkState)
    (hn : (st.objects.map Prod.fst).Nodup)
    (hc : ∀ v ∈ vs, ∀ p, v.pointer = some p → p ≠ 0 → p ∈ st.objects.map Prod.fst) :
    ∃ st1, vs.foldlM MarkValue st = .ok st1 ∧
      MarkStep st st1 (fun q => ∃ v ∈ vs, v.pointer = some q ∧ q ≠ 0) := by
  induction vs generalizing st with
  | nil =>
    exact ⟨st, rfl, (MarkStep.refl st).congr (fun q => by simp)⟩
  | cons v vs ih =>
    obtain ⟨st1, h1, s1⟩ := MarkValue_spec st v hn (hc v (List.mem_cons_self _ _))
    have hfst := map_fst_of_map_unmark s1.shape
    obtain ⟨st2, h2, s2⟩ := ih st1 (by rw [hfst]; exact hn)
      (fun w hw p hp h0 => by rw [hfst]; exact hc w (List.mem_cons_of_mem _ hw) p hp h0)
    refine ⟨st2, ?_, (s1.trans s2).congr (fun q => ?_)⟩
    · rw [List.foldlM_cons, h1]
      exact h2
    · simp only [List.mem_cons, exists_eq_or_imp]

theorem deref_shape {a b : List (Nat × HeapObject)} (h : a.map unmark = b.map unmark) {p : Nat}
    {o : HeapObject} (hd : deref a p = some o) :
    ∃ o0, deref b p = some o0 ∧ o0.kind = o.kind ∧ o0.elements = o.elements ∧
      o0.size_bytes = o.size_bytes ∧ o0.value = o.value := by
  have h1 := deref_map_unmark a p
  rw [h, deref_map_unmark b p, hd] at h1
  cases hb : deref b p with
  | none => rw [hb] at h1; cases h1
  | some o0 =>
    rw [hb] at h1
    simp only [Option.map_some', Option.some.injEq, HeapObject.mk.injEq, true_and] at h1
    exact ⟨o0, rfl, h1.1, h1.2.2.2, h1.2.1, h1.2.2.1⟩

theorem mark_loop_spec (h : Heap) (roots : List Value) (hwf : h.addrs.Nodup)
    (hcl : Closed h roots) (fuel : Nat) (st : MarkState) (hinv : MarkInv h roots st)
    (hfuel : st.worklist.length + unmarkedCount st.objects < fuel) :
    ∃ st1, mark_loop fuel st = .ok st1 ∧ MarkInv h roots st1 ∧ st1.worklist = [] ∧
      st1.marked_count + unmarkedCount st1.objects =
        st.marked_count + unmarkedCount st.objects := by
  induction fuel generalizing st with
  | zero => omega
  | succ fuel ih =>
    obtain ⟨objects, worklist, marked_count⟩ := st
    cases worklist with
    | nil => exact ⟨_, rfl, hinv, rfl, rfl⟩
    | cons p rest =>
      have hfst : objects.map Prod.fst = h.addrs := map_fst_of_map_unmark hinv.shape
      have hnod : (objects.map Prod.fst).Nodup := by rw [hfst]; exact hwf
      obtain ⟨obj, hobj, hobjm⟩ := hinv.wl_marked p (List.mem_cons_self _ _)
      simp only at hobj
      obtain ⟨o0, ho0, hkind, helems, _, _⟩ := deref_shape hinv.shape hobj
      have hmem0 : (p, o0) ∈ h.objects_ := deref_eq_some_mem ho0
      have huniq : ∀ o, (p, o) ∈ h.objects_ → o = o0 := by
        intro o ho
        have := deref_of_mem_nodup hwf ho
        rw [ho0] at this
        exact (Option.some.inj this).symm
      simp only [List.length_cons] at hfuel
      unfold mark_loop
      simp only [hobj]
      by_cases hk : obj.kind = .kArray
      · rw [if_pos hk]
        obtain ⟨st2, h2, s2⟩ := MarkValue_fold_spec obj.elements
          { objects := objects, worklist := rest, marked_count := marked_count } hnod
          (fun v hv q hq h0 => by
            rw [hfst]
            exact hcl.elem (p, o0) hmem0 (hkind.trans hk) v (by rw [helems]; exact hv) q hq h0)
        simp only [bind, Except.bind, h2]
        obtain ⟨new, hnew, hnewp⟩ := s2.pushed
        simp only at hnew hnewp
        have hmono : ∀ q, IsMarked objects q → IsMarked st2.objects q :=
          fun q hq => (s2.marked q).2 (Or.inl hq)
        have hinv2 : MarkInv h roots st2 := by
          refine { shape := s2.shape.trans hinv.shape, wl_marked := fun q hq => ?_,
                   sound := fun q hq => ?_, roots := fun v hv q hq h0 => hmono q (hinv.roots v hv q hq h0),
                   closed := fun q hq hnw o v t ho hok hv ht ht0 => ?_ }
          · rw [hnew] at hq
            rcases List.mem_append.1 hq with hq | hq
            · exact (s2.marked q).2 (Or.inr (hnewp q hq).2)
            · exact hmono q (hinv.wl_marked q (List.mem_cons_of_mem _ hq))
          · rcases (s2.marked q).1 hq with hq | ⟨v, hv, hvq, hq0⟩
            · exact hinv.sound q hq
            · exact Reachable.elem p o0 v q (hinv.sound p ⟨obj, hobj, hobjm⟩) hmem0
                (hkind.trans hk) (by rw [helems]; exact hv) hvq hq0
          · by_cases hqp : q = p
            · subst hqp
              have := huniq o ho
              subst this
              exact (s2.marked t).2 (Or.inr ⟨v, by rw [← helems]; exact hv, ht, ht0⟩)
            · by_cases hqm : IsMarked objects q
              · have hq2 : q ∉ p :: rest := by
                  intro hc
                  rcases List.mem_cons.1 hc with hc | hc
                  · exact hqp hc
                  · apply hnw
                    rw [hnew]
                    exact List.mem_append_right _ hc
                exact hmono t (hinv.closed q hqm hq2 o v t ho hok hv ht ht0)
              · exact absurd (s2.fresh q hq hqm) hnw
        have hm := s2.measure
        have hc := s2.count
        simp only at hm hc
        obtain ⟨st3, h3, i3, w3, c3⟩ := ih st2 hinv2 (by omega)
        exact ⟨st3, h3, i3, w3, by omega⟩
      · rw [if_neg hk]
        have hinv2 : MarkInv h roots
            { objects := objects, worklist := rest, marked_count := marked_count } := by
          refine { shape := hinv.shape,
                   wl_marked := fun q hq => hinv.wl_marked q (List.mem_cons_of_mem _ hq),
                   sound := hinv.sound, roots := hinv.roots,
                   closed := fun q hq hnw o v t ho hok hv ht ht0 => ?_ }
          by_cases hqp : q = p
          · subst hqp
            have := huniq o ho
            subst this
            exact absurd (hkind.symm.trans hok) hk
          · have hq2 : q ∉ p :: rest := by
              intro hc
              rcases List.mem_cons.1 hc with hc | hc
              · exact hqp hc
              · exact hnw hc
            exact hinv.closed q hq hq2 o v t ho hok hv ht ht0
        obtain ⟨st3, h3, i3, w3, c3⟩ := ih _ hinv2 (by simp only; omega)
        exact ⟨st3, h3, i3, w3, c3⟩

end Heap

/-! ## Heap: marking from the roots, and sweeping -/

namespace Heap

theorem map_unmark_idem (l : List (Nat × HeapObject)) : (l.map unmark).map unmark = l.map unmark := by
  rw [List.map_map]
  rfl

theorem not_isMarked_map_unmark (l : List (Nat × HeapObject)) (p : Nat) :
    ¬ IsMarked (l.map unmark) p := by
  rintro ⟨o, h1, h2⟩
  rw [deref_map_unmark] at h1
  cases hd : deref l p with
  | none => rw [hd] at h1; cases h1
  | some o1 =>
    rw [hd] at h1
    simp only [Option.map_some', Option.some.injEq] at h1
    subst h1
    cases h2

theorem unmarkedCount_map_unmark (l : List (Nat × HeapObject)) :
    unmarkedCount (l.map unmark) = l.length := by
  unfold unmarkedCount
  rw [List.filter_eq_self.2, List.length_map]
  intro o ho
  obtain ⟨x, _, rfl⟩ := List.mem_map.1 ho
  rfl

theorem reachable_mem {h : Heap} {roots : List Value} (hcl : Closed h roots) {p : Nat}
    (hr : Reachable h roots p) : p ∈ h.addrs := by
  cases hr with
  | root v p hv hp h0 => exact hcl.root v hv p hp h0
  | elem q o v p _ ho hk hv hp h0 => exact hcl.elem (q, o) ho hk v hv p hp h0

theorem MarkFromRoots_spec (h : Heap) (roots : List Value) (hwf : h.addrs.Nodup)
    (hcl : Closed h roots) :
    ∃ st, MarkFromRoots (h.objects_.map unmark) roots = .ok st ∧
      st.objects.map unmark = h.objects_.map unmark ∧
      (∀ p, IsMarked st.objects p ↔ Reachable h roots p) ∧
      st.marked_count + unmarkedCount st.objects = h.objects_.length := by
  have hfst : (h.objects_.map unmark).map Prod.fst = h.addrs := by
    rw [List.map_map]
    rfl
  obtain ⟨st1, h1, s1⟩ := MarkValue_fold_spec roots
    { objects := h.objects_.map unmark, worklist := [], marked_count := 0 }
    (by rw [hfst]; exact hwf) (fun v hv p hp h0 => by rw [hfst]; exact hcl.root v hv p hp h0)
  have hno : ∀ q, ¬ IsMarked (h.objects_.map unmark) q := not_isMarked_map_unmark _
  obtain ⟨new, hnew, hnewp⟩ := s1.pushed
  simp only [List.append_nil] at hnew hnewp
  have hinv : MarkInv h roots st1 := by
    refine { shape := s1.shape.trans (map_unmark_idem _), wl_marked := fun q hq => ?_,
             sound := fun q hq => ?_, roots := fun v hv q hq h0 => ?_,
             closed := fun q hq hnw o v t ho hok hv ht ht0 => ?_ }
    · rw [hnew] at hq
      exact (s1.marked q).2 (Or.inr (hnewp q hq).2)
    · rcases (s1.marked q).1 hq with hq | ⟨v, hv, hvq, hq0⟩
      · exact absurd hq (hno q)
      · exact Reachable.root v q hv hvq hq0
    · exact (s1.marked q).2 (Or.inr ⟨v, hv, hq, h0⟩)
    · exact absurd (s1.fresh q hq (hno q)) hnw
  have hm := s1.measure
  have hc := s1.count
  simp only [List.length_nil, unmarkedCount_map_unmark, Nat.zero_add] at hm hc
  obtain ⟨st2, h2, i2, w2, c2⟩ := mark_loop_spec h roots hwf hcl ((h.objects_.map unmark).length + 1)
    st1 hinv (by rw [List.length_map]; omega)
  refine ⟨st2, ?_, i2.shape, fun p => ⟨i2.sound p, fun hr => ?_⟩, by omega⟩
  · unfold MarkFromRoots
    simp only [bind, Except.bind, h1]
    exact h2
  · induction hr with
    | root v p hv hp h0 => exact i2.roots v hv p hp h0
    | elem q o v p _ ho hk hv hp h0 ih =>
      exact i2.closed q ih (by rw [w2]; simp) o v p ho hk hv hp h0

theorem Sweep_fold (objs : List (Nat × HeapObject)) (st : SweepState) :
    objs.foldl Sweep_step st =
      { kept := st.kept ++ (objs.filter (fun o => o.2.marked)).map unmark,
        heap_bytes_ := sweptBytes st.heap_bytes_ (objs.filter (fun o => !o.2.marked)),
        freed_count := st.freed_count + (objs.filter (fun o => !o.2.marked)).length,
        deleted := st.deleted ++ (objs.filter (fun o => !o.2.marked)).map Prod.fst } := by
  induction objs generalizing st with
  | nil => simp [sweptBytes]
  | cons x rest ih =>
    rw [List.foldl_cons, ih]
    unfold Sweep_step
    cases hm : x.2.marked with
    | true =>
      simp only [Bool.not_true, Bool.false_eq_true, if_false, List.filter_cons, hm, if_true,
        List.map_cons, List.append_assoc, List.singleton_append]
      rfl
    | false =>
      simp only [Bool.not_false, if_true, List.filter_cons, hm, Bool.false_eq_true, if_false,
        List.map_cons, List.append_assoc, List.singleton_append, List.length_cons, sweptBytes,
        List.foldl_cons]
      congr 1
      omega

theorem Collect_eq (h : Heap) (roots : List Value) (hwf : h.addrs.Nodup)
    (hcl : Closed h roots) :
    ∃ st : MarkState, Collect h roots = .ok
        { heap := { objects_ := (st.objects.filter (fun o => o.2.marked)).map unmark,
                    heap_bytes_ := sweptBytes h.heap_bytes_ (st.objects.filter (fun o => !o.2.marked)),
                    threshold_ := h.threshold_ },
          marked_count := st.marked_count,
          freed_count := (st.objects.filter (fun o => !o.2.marked)).length,
          deleted := (st.objects.filter (fun o => !o.2.marked)).map Prod.fst } ∧
      st.objects.map unmark = h.objects_.map unmark ∧
      (∀ p, IsMarked st.objects p ↔ Reachable h roots p) ∧
      st.marked_count + unmarkedCount st.objects = h.objects_.length := by
  obtain ⟨st, h1, h2, h3, h4⟩ := MarkFromRoots_spec h roots hwf hcl
  refine ⟨st, ?_, h2, h3, h4⟩
  unfold Collect
  have : List.map (fun o => (o.1, { o.2 with marked := false })) h.objects_
      = h.objects_.map unmark := rfl
  simp only [this, bind, Except.bind, h1, Sweep, Sweep_fold, List.nil_append, Nat.zero_add]

end Heap

/-! ## Heap: what a collection leaves -/

namespace Heap

theorem isMarked_iff_of_mem {objs : List (Nat × HeapObject)} (hn : (objs.map Prod.fst).Nodup)
    {x : Nat × HeapObject} (hx : x ∈ objs) : IsMarked objs x.1 ↔ x.2.marked = true := by
  have hd : deref objs x.1 = some x.2 := deref_of_mem_nodup hn hx
  constructor
  · rintro ⟨o, h1, h2⟩
    rw [hd] at h1
    cases h1
    exact h2
  · intro h
    exact ⟨x.2, hd, h⟩

theorem unmark_fst (x : Nat × HeapObject) : (unmark x).1 = x.1 := rfl

theorem map_unmark_map_fst (l : List (Nat × HeapObject)) :
    (l.map unmark).map Prod.fst = l.map Prod.fst := by
  rw [List.map_map]
  rfl

theorem Collect_spec (h : Heap) (roots : List Value) (hwf : h.addrs.Nodup)
    (hcl : Closed h roots) :
    ∃ c, Collect h roots = .ok c ∧
      c.heap.objects_.Sublist (h.objects_.map unmark) ∧
      (∀ x, x ∈ c.heap.objects_ ↔ x ∈ h.objects_.map unmark ∧ Reachable h roots x.1) ∧
      c.deleted.Sublist h.addrs ∧
      (∀ p, p ∈ c.deleted ↔ p ∈ h.addrs ∧ ¬ Reachable h roots p) ∧
      c.freed_count = c.deleted.length ∧
      c.heap.threshold_ = h.threshold_ ∧
      (c.deleted = [] → c.heap.heap_bytes_ = h.heap_bytes_) ∧
      c.marked_count = c.heap.objects_.length := by
  obtain ⟨st, hc, hshape, hmk, hcount⟩ := Collect_eq h roots hwf hcl
  have hfst : st.objects.map Prod.fst = h.addrs := map_fst_of_map_unmark hshape
  have hnod : (st.objects.map Prod.fst).Nodup := by rw [hfst]; exact hwf
  refine ⟨_, hc, ?_, ?_, ?_, ?_, ?_, rfl, ?_, ?_⟩
  · simp only
    rw [← hshape]
    exact (List.filter_sublist _).map unmark
  · intro x
    simp only [List.mem_map, List.mem_filter]
    constructor
    · rintro ⟨y, ⟨hy, hym⟩, rfl⟩
      refine ⟨?_, ?_⟩
      · have : unmark y ∈ st.objects.map unmark := List.mem_map_of_mem _ hy
        rw [hshape] at this
        exact List.mem_map.1 this
      · exact (hmk y.1).1 ((isMarked_iff_of_mem hnod hy).2 hym)
    · rintro ⟨⟨z, hz, rfl⟩, hr⟩
      have : unmark z ∈ st.objects.map unmark := by
        rw [hshape]
        exact List.mem_map_of_mem _ hz
      obtain ⟨y, hy, hyz⟩ := List.mem_map.1 this
      refine ⟨y, ⟨hy, ?_⟩, hyz⟩
      have h1 : (unmark y).1 = (unmark z).1 := congrArg (fun t : Nat × HeapObject => t.1) hyz
      simp only [unmark_fst] at h1
      apply (isMarked_iff_of_mem hnod hy).1
      rw [h1]
      exact (hmk z.1).2 hr
  · simp only
    rw [← hfst]
    exact (List.filter_sublist _).map Prod.fst
  · intro p
    simp only [List.mem_map, List.mem_filter, Bool.not_eq_true']
    constructor
    · rintro ⟨y, ⟨hy, hym⟩, rfl⟩
      refine ⟨?_, fun hr => ?_⟩
      · rw [← hfst]
        exact List.mem_map_of_mem _ hy
      · have := (isMarked_iff_of_mem hnod hy).1 ((hmk y.1).2 hr)
        rw [hym] at this
        cases this
    · rintro ⟨hp, hr⟩
      rw [← hfst] at hp
      obtain ⟨y, hy, rfl⟩ := List.mem_map.1 hp
      refine ⟨y, ⟨hy, ?_⟩, rfl⟩
      cases hm : y.2.marked with
      | false => rfl
      | true => exact absurd ((hmk y.1).1 ((isMarked_iff_of_mem hnod hy).2 hm)) hr
  · simp only [List.length_map]
  · simp only [List.map_eq_nil_iff]
    intro hnil
    rw [hnil]
    rfl
  · simp only [List.length_map]
    have : unmarkedCount st.objects + (st.objects.filter (fun o => o.2.marked)).length
        = st.objects.length := by
      unfold unmarkedCount
      have := List.length_eq_length_filter_add (l := st.objects) (fun o => o.2.marked)
      simp only [Bool.not_eq_true'] at this ⊢
      have e : (List.filter (fun o => !o.2.marked) st.objects)
          = List.filter (fun o => !decide (o.2.marked = true)) st.objects := by
        congr 1
        funext o
        cases o.2.marked <;> rfl
      have e2 : (List.filter (fun o => o.2.marked) st.objects)
          = List.filter (fun o => decide (o.2.marked = true)) st.objects := by
        congr 1
        funext o
        cases o.2.marked <;> rfl
      omega
    have hl : st.objects.length = h.objects_.length := by
      have := congrArg List.length hshape
      simpa using this
    omega

end Heap

/-! ## Claims about collection -/

namespace Heap

theorem mem_addrs_iff {h : Heap} {p : Nat} : p ∈ h.addrs ↔ ∃ x ∈ h.objects_, x.1 = p := by
  unfold addrs
  simp only [List.mem_map]

theorem Collect_addrs {h : Heap} {roots : List Value} {c : Collected}
    (hsub : c.heap.objects_.Sublist (h.objects_.map unmark))
    (hmem : ∀ x, x ∈ c.heap.objects_ ↔ x ∈ h.objects_.map unmark ∧ Reachable h roots x.1)
    (hwf : h.addrs.Nodup) :
    c.heap.addrs.Nodup ∧ ∀ p, p ∈ c.heap.addrs ↔ p ∈ h.addrs ∧ Reachable h roots p := by
  constructor
  · have := hsub.map Prod.fst
    rw [map_unmark_map_fst] at this
    exact hwf.sublist this
  · intro p
    rw [mem_addrs_iff, mem_addrs_iff]
    constructor
    · rintro ⟨x, hx, rfl⟩
      obtain ⟨h1, h2⟩ := (hmem x).1 hx
      obtain ⟨z, hz, rfl⟩ := List.mem_map.1 h1
      exact ⟨⟨z, hz, rfl⟩, h2⟩
    · rintro ⟨⟨z, hz, rfl⟩, hr⟩
      exact ⟨unmark z, (hmem _).2 ⟨List.mem_map_of_mem _ hz, hr⟩, rfl⟩

/-- C18. Collection keeps exactly the reachable objects. Let the pointers of
the heap `h` be pairwise distinct and non-null, and let every pointer held by a
root value or by an element of an array of `h` be null or point to an object of
`h`. Then `Heap::Collect` returns, and afterwards the object list is a sublist
of the previous one (previous relative order, the objects unchanged but for a
cleared mark bit), holds each of its pointers once, and holds exactly the
pointers of the previously owned objects that are reachable from a root value
by following array elements; the pointers passed to `delete` are pairwise
distinct and are exactly those of the other previously owned objects. -/
theorem collect_keeps_reachable (h : Heap) (roots : List Value) (hwf : h.Wf)
    (hcl : h.Closed roots) :
    ∃ c, Collect h roots = .ok c ∧
      c.heap.objects_.Sublist (h.objects_.map unmark) ∧
      c.heap.addrs.Nodup ∧
      (∀ p, p ∈ c.heap.addrs ↔ p ∈ h.addrs ∧ Reachable h roots p) ∧
      c.deleted.Nodup ∧
      (∀ p, p ∈ c.deleted ↔ p ∈ h.addrs ∧ ¬ Reachable h roots p) := by
  obtain ⟨c, hc, hsub, hmem, hdsub, hdel, _, _, _, _⟩ := Collect_spec h roots hwf.1 hcl
  obtain ⟨hn, ha⟩ := Collect_addrs hsub hmem hwf.1
  exact ⟨c, hc, hsub, hn, ha, hwf.1.sublist hdsub, hdel⟩

theorem collect_keeps_reachable_witness :
    ∃ c, Collect sampleHeap sampleRoots = .ok c ∧
      c.heap.objects_.Sublist (sampleHeap.objects_.map unmark) ∧
      c.heap.addrs.Nodup ∧
      (∀ p, p ∈ c.heap.addrs ↔ p ∈ sampleHeap.addrs ∧ Reachable sampleHeap sampleRoots p) ∧
      c.deleted.Nodup ∧
      (∀ p, p ∈ c.deleted ↔ p ∈ sampleHeap.addrs ∧ ¬ Reachable sampleHeap sampleRoots p) :=
  collect_keeps_reachable sampleHeap sampleRoots (by decide) (by decide)

theorem reachable_collected {h : Heap} {roots : List Value} {c : Collected}
    (hmem : ∀ x, x ∈ c.heap.objects_ ↔ x ∈ h.objects_.map unmark ∧ Reachable h roots x.1)
    {p : Nat} (hr : Reachable h roots p) : Reachable c.heap roots p := by
  induction hr with
  | root v p hv hp h0 => exact Reachable.root v p hv hp h0
  | elem q o v p hq ho hk hv hp h0 ih =>
    exact Reachable.elem q { o with marked := false } v p ih
      ((hmem (unmark (q, o))).2 ⟨List.mem_map_of_mem _ ho, hq⟩) hk hv hp h0

theorem Collect_again (h : Heap) (roots : List Value) (hwf : h.Wf) (hcl : h.Closed roots)
    (c1 : Collected) (hc1 : Collect h roots = .ok c1) :
    ∃ c2, Collect c1.heap roots = .ok c2 ∧ c2.freed_count = 0 ∧ c2.deleted = [] ∧
      c2.heap = c1.heap := by
  obtain ⟨c, hc, hsub, hmem, hdsub, hdel, _, _, _, _⟩ := Collect_spec h roots hwf.1 hcl
  rw [hc1] at hc
  cases hc
  obtain ⟨hn1, ha1⟩ := Collect_addrs hsub hmem hwf.1
  have hunm : ∀ x ∈ c1.heap.objects_, unmark x = x := by
    intro x hx
    obtain ⟨z, _, rfl⟩ := List.mem_map.1 ((hmem x).1 hx).1
    rfl
  have hmapid : c1.heap.objects_.map unmark = c1.heap.objects_ := by
    conv_rhs => rw [← List.map_id c1.heap.objects_]
    exact List.map_congr_left (fun x hx => by rw [hunm x hx]; rfl)
  have hcl1 : c1.heap.Closed roots := by
    constructor
    · intro v hv
      unfold PointsInto
      cases hp : v.pointer with
      | none => trivial
      | some p =>
        by_cases h0 : p = 0
        · exact Or.inl h0
        · exact Or.inr ((ha1 p).2 ⟨hcl.root v hv p hp h0, Reachable.root v p hv hp h0⟩)
    · intro o ho hk v hv
      unfold PointsInto
      cases hp : v.pointer with
      | none => trivial
      | some p =>
        by_cases h0 : p = 0
        · exact Or.inl h0
        · obtain ⟨h1, h2⟩ := (hmem o).1 ho
          obtain ⟨z, hz, rfl⟩ := List.mem_map.1 h1
          have hr : Reachable h roots p := Reachable.elem z.1 z.2 v p h2 hz hk hv hp h0
          exact Or.inr ((ha1 p).2 ⟨reachable_mem hcl hr, hr⟩)
  have hall : ∀ p ∈ c1.heap.addrs, Reachable c1.heap roots p :=
    fun p hp => reachable_collected hmem ((ha1 p).1 hp).2
  obtain ⟨c2, hc2, hsub2, hmem2, _, hdel2, hfreed2, hthr2, hbytes2, _⟩ :=
    Collect_spec c1.heap roots hn1 hcl1
  have hd : c2.deleted = [] := by
    apply List.eq_nil_iff_forall_not_mem.2
    intro p hp
    obtain ⟨h1, h2⟩ := (hdel2 p).1 hp
    exact h2 (hall p h1)
  rw [hmapid] at hsub2 hmem2
  have hobj : c2.heap.objects_ = c1.heap.objects_ := by
    apply hsub2.eq_of_length_le
    have hnd : c1.heap.objects_.Nodup := List.Nodup.of_map Prod.fst hn1
    have hss : c1.heap.objects_ ⊆ c2.heap.objects_ := by
      intro x hx
      exact (hmem2 x).2 ⟨hx, hall x.1 (List.mem_map_of_mem _ hx)⟩
    exact (hnd.subperm hss).length_le
  refine ⟨c2, hc2, by rw [hfreed2, hd]; rfl, hd, ?_⟩
  have hb := hbytes2 hd
  cases hh2 : c2.heap with
  | mk o2 b2 t2 =>
    cases hh1 : c1.heap with
    | mk o1 b1 t1 =>
      rw [hh2, hh1] at hobj hthr2 hb
      simp only at hobj hthr2 hb
      rw [hobj, hthr2, hb]

/-- C20. Collection is idempotent. Let the pointers of the heap `h` be
pairwise distinct and non-null, and let every pointer held by a root value or
by an element of an array of `h` be null or point to an object of `h`. Then
`Heap::Collect` run twice in succession with the same roots returns both
times, and the second run frees no object (its `freed_count` is 0 and it
passes nothing to `delete`) and leaves the heap, that is the object list,
`heap_bytes_` and `threshold_`, exactly as the first run left it. -/
theorem collect_idempotent (h : Heap) (roots : List Value) (hwf : h.Wf) (hcl : h.Closed roots) :
    ∃ c1, Collect h roots = .ok c1 ∧
      ∃ c2, Collect c1.heap roots = .ok c2 ∧ c2.freed_count = 0 ∧ c2.deleted = [] ∧
        c2.heap.objects_ = c1.heap.objects_ ∧ c2.heap.heap_bytes_ = c1.heap.heap_bytes_ ∧
        c2.heap = c1.heap := by
  obtain ⟨c1, hc1, _⟩ := Collect_spec h roots hwf.1 hcl
  obtain ⟨c2, hc2, hf, hd, hh⟩ := Collect_again h roots hwf hcl c1 hc1
  exact ⟨c1, hc1, c2, hc2, hf, hd, by rw [hh], by rw [hh], hh⟩

theorem collect_idempotent_witness :
    ∃ c1, Collect sampleHeap sampleRoots = .ok c1 ∧
      ∃ c2, Collect c1.heap sampleRoots = .ok c2 ∧ c2.freed_count = 0 ∧ c2.deleted = [] ∧
        c2.heap.objects_ = c1.heap.objects_ ∧ c2.heap.heap_bytes_ = c1.heap.heap_bytes_ ∧
        c2.heap = c1.heap :=
  collect_idempotent sampleHeap sampleRoots (by decide) (by decide)

end Heap

/-! ## Claim about heap accounting -/

namespace Heap

theorem MarkValue_shape {st st1 : MarkState} {v : Value} (h : MarkValue st v = .ok st1) :
    st1.objects.map unmark = st.objects.map unmark := by
  unfold MarkValue at h
  split at h
  · cases h; rfl
  · split at h
    · cases h; rfl
    · split at h
      · cases h; rfl
      · split at h
        · cases h
        · split at h
          · cases h; rfl
          · cases h
            exact setMarked_map_unmark _ _ _

theorem MarkValue_fold_shape (vs : List Value) {st st1 : MarkState}
    (h : vs.foldlM MarkValue st = .ok st1) :
    st1.objects.map unmark = st.objects.map unmark := by
  induction vs generalizing st with
  | nil =>
    cases h
    rfl
  | cons v vs ih =>
    rw [List.foldlM_cons] at h
    cases hv : MarkValue st v with
    | error e => rw [hv] at h; cases h
    | ok st2 =>
      rw [hv] at h
      exact (ih h).trans (MarkValue_shape hv)

theorem mark_loop_shape (fuel : Nat) {st st1 : MarkState} (h : mark_loop fuel st = .ok st1) :
    st1.objects.map unmark = st.objects.map unmark := by
  induction fuel generalizing st with
  | zero => cases h
  | succ fuel ih =>
    unfold mark_loop at h
    split at h
    · cases h; rfl
    · split at h
      · cases h
      · split at h
        · simp only [bind, Except.bind] at h
          split at h
          · cases h
          · rename_i st2 hf
            have a := ih h
            have b := MarkValue_fold_shape _ hf
            exact a.trans b
        · have a := ih h
          exact a

theorem Collect_shape {h : Heap} {roots : List Value} {c : Collected}
    (hc : Collect h roots = .ok c) :
    ∃ objs : List (Nat × HeapObject), objs.map unmark = h.objects_.map unmark ∧
      c.heap.objects_ = (objs.filter (fun o => o.2.marked)).map unmark ∧
      c.heap.heap_bytes_ = sweptBytes h.heap_bytes_ (objs.filter (fun o => !o.2.marked)) := by
  unfold Collect at hc
  have e : List.map (fun o => (o.1, { o.2 with marked := false })) h.objects_
      = h.objects_.map unmark := rfl
  simp only [e, bind, Except.bind] at hc
  cases hm : MarkFromRoots (h.objects_.map unmark) roots with
  | error e => rw [hm] at hc; cases hc
  | ok st =>
    rw [hm] at hc
    simp only [Sweep, Sweep_fold, List.nil_append, Nat.zero_add] at hc
    cases hc
    refine ⟨st.objects, ?_, rfl, rfl⟩
    unfold MarkFromRoots at hm
    simp only [bind, Except.bind] at hm
    split at hm
    · cases hm
    · rename_i st1 hf
      have h1 := MarkValue_fold_shape _ hf
      have h2 := mark_loop_shape _ hm
      rw [h2, h1]
      exact map_unmark_idem _

theorem sumSizes_map_unmark (l : List (Nat × HeapObject)) : sumSizes (l.map unmark) = sumSizes l := by
  unfold sumSizes
  rw [List.map_map]
  rfl

theorem sumSizes_filter (l : List (Nat × HeapObject)) :
    sumSizes l = sumSizes (l.filter (fun o => o.2.marked)) +
      sumSizes (l.filter (fun o => !o.2.marked)) := by
  induction l with
  | nil => rfl
  | cons x rest ih =>
    unfold sumSizes at ih ⊢
    simp only [List.filter_cons]
    cases x.2.marked
    · simp only [Bool.false_eq_true, if_false, Bool.not_false, if_true, List.map_cons,
        List.sum_cons]
      omega
    · simp only [if_true, Bool.not_true, Bool.false_eq_true, if_false, List.map_cons,
        List.sum_cons]
      omega

theorem sweptBytes_spec (del : List (Nat × HeapObject)) (hb X : Nat)
    (h : hb = (X + sumSizes del) % 2 ^ 64) : sweptBytes hb del = X % 2 ^ 64 := by
  induction del generalizing hb with
  | nil =>
    simp only [sumSizes, List.map_nil, List.sum_nil, Nat.add_zero] at h
    exact h
  | cons x rest ih =>
    unfold sweptBytes
    rw [List.foldl_cons]
    apply ih
    simp only [sumSizes, List.map_cons, List.sum_cons] at h ⊢
    omega

theorem Collect_accounting {h : Heap} {roots : List Value} {c : Collected}
    (hc : Collect h roots = .ok c) (hb : h.heap_bytes_ = sumSizes h.objects_ % 2 ^ 64) :
    c.heap.heap_bytes_ = sumSizes c.heap.objects_ % 2 ^ 64 ∧
      ∀ o ∈ c.heap.objects_, o.2.marked = false := by
  obtain ⟨objs, hshape, hobj, hbytes⟩ := Collect_shape hc
  constructor
  · rw [hbytes, hobj, sumSizes_map_unmark]
    apply sweptBytes_spec
    rw [hb, ← sumSizes_map_unmark h.objects_, ← hshape, sumSizes_map_unmark, ← sumSizes_filter]
  · intro o ho
    rw [hobj] at ho
    obtain ⟨z, _, rfl⟩ := List.mem_map.1 ho
    rfl

theorem MaybeCollect_accounting {h h1 : Heap} {n : Nat} {roots : List Value}
    (hc : MaybeCollect h n roots = .ok h1) (hb : h.heap_bytes_ = sumSizes h.objects_ % 2 ^ 64)
    (hm : ∀ o ∈ h.objects_, o.2.marked = false) :
    h1.heap_bytes_ = sumSizes h1.objects_ % 2 ^ 64 ∧ ∀ o ∈ h1.objects_, o.2.marked = false := by
  unfold MaybeCollect at hc
  split at hc
  · simp only [bind, Except.bind] at hc
    split at hc
    · cases hc
    · rename_i c hcc
      cases hc
      exact Collect_accounting hcc hb
  · cases hc
    exact ⟨hb, hm⟩

theorem sumSizes_append_one (l : List (Nat × HeapObject)) (x : Nat × HeapObject) :
    sumSizes (l ++ [x]) = sumSizes l + x.2.size_bytes := by
  simp [sumSizes]

theorem Reached_accounting (P : Platform) (h : Heap) (hr : Reached P h) :
    h.heap_bytes_ = sumSizes h.objects_ % 2 ^ 64 ∧ ∀ o ∈ h.objects_, o.2.marked = false := by
  induction hr with
  | init => exact ⟨rfl, fun o ho => by cases ho⟩
  | string h h1 s roots p _ ha ih =>
    unfold AllocateString at ha
    simp only [bind, Except.bind] at ha
    split at ha
    · cases ha
    · rename_i h2 hmc
      obtain ⟨hb2, hm2⟩ := MaybeCollect_accounting hmc ih.1 ih.2
      cases ha
      constructor
      · simp only [sumSizes_append_one]
        omega
      · intro o ho
        rcases List.mem_append.1 ho with ho | ho
        · exact hm2 o ho
        · simp only [List.mem_singleton] at ho
          subst ho
          rfl
  | array h h1 n roots p _ ha ih =>
    unfold AllocateArray at ha
    simp only [bind, Except.bind] at ha
    split at ha
    · cases ha
    · rename_i h2 hmc
      obtain ⟨hb2, hm2⟩ := MaybeCollect_accounting hmc ih.1 ih.2
      cases ha
      constructor
      · simp only [sumSizes_append_one]
        omega
      · intro o ho
        rcases List.mem_append.1 ho with ho | ho
        · exact hm2 o ho
        · simp only [List.mem_singleton] at ho
          subst ho
          rfl
  | collect h roots c _ hc ih => exact Collect_accounting hc ih.1
  | store h p es _ ih =>
    unfold setElements
    constructor
    · have : sumSizes (h.objects_.map (fun o =>
          if o.1 = p ∧ o.2.kind = .kArray then (o.1, { o.2 with elements := es }) else o))
          = sumSizes h.objects_ := by
        unfold sumSizes
        rw [List.map_map]
        apply congrArg
        apply List.map_congr_left
        intro o _
        simp only [Function.comp]
        split <;> rfl
      simp only [this]
      exact ih.1
    · intro o ho
      simp only [List.mem_map] at ho
      obtain ⟨z, hz, rfl⟩ := ho
      split
      · exact ih.2 z hz
      · exact ih.2 z hz

/-- C19. Heap accounting invariant: in every heap state reachable from a
fresh heap by `AllocateString`, `AllocateArray` and `Collect` (and by
assignments to array elements in between), `heap_bytes_` equals the sum of
`size_bytes` over the objects in the object list, computed as a `std::size_t`,
hence equals that sum whenever the sum is below 2^64, as it is for objects that
lie in a 64-bit address space; and no object in the list has its mark bit set,
in particular after any collection. -/
theorem heap_accounting (P : Platform) (h : Heap) (hr : Reached P h) :
    h.heap_bytes_ = sumSizes h.objects_ % 2 ^ 64 ∧
    (sumSizes h.objects_ < 2 ^ 64 → h.heap_bytes_ = sumSizes h.objects_) ∧
    (∀ o ∈ h.objects_, o.2.marked = false) ∧
    (∀ roots c, Collect h roots = .ok c →
      (∀ o ∈ c.heap.objects_, o.2.marked = false) ∧
      c.heap.heap_bytes_ = sumSizes c.heap.objects_ % 2 ^ 64) := by
  obtain ⟨h1, h2⟩ := Reached_accounting P h hr
  refine ⟨h1, fun hlt => ?_, h2, fun roots c hc => ?_⟩
  · rw [h1, Nat.mod_eq_of_lt hlt]
  · obtain ⟨h3, h4⟩ := Collect_accounting hc h1
    exact ⟨h4, h3⟩

theorem heap_accounting_witness :
    sampleHeap.heap_bytes_ = sumSizes sampleHeap.objects_ % 2 ^ 64 ∧
    (sumSizes sampleHeap.objects_ < 2 ^ 64 →
      sampleHeap.heap_bytes_ = sumSizes sampleHeap.objects_) ∧
    (∀ o ∈ sampleHeap.objects_, o.2.marked = false) ∧
    (∀ roots c, Collect sampleHeap roots = .ok c →
      (∀ o ∈ c.heap.objects_, o.2.marked = false) ∧
      c.heap.heap_bytes_ = sumSizes c.heap.objects_ % 2 ^ 64) :=
  heap_accounting lp64 sampleHeap
    (Reached.string _ sampleHeap [100, 105, 115, 99, 97, 114, 100] [] 3
      (Reached.store _ 2 [Value.string 1]
        (Reached.array _ _ 1 [] 2
          (Reached.string Heap.init _ [110, 101, 115, 116, 101, 100] [] 1 Reached.init rfl) rfl))
      rfl)

end Heap

/-! ## Claim about the allocation protocol -/

namespace Heap

theorem Collect_bytes_le {h : Heap} {roots : List Value} {c : Collected}
    (hc : Collect h roots = .ok c) (hb : h.heap_bytes_ = sumSizes h.objects_)
    (hlt : h.heap_bytes_ < 2 ^ 64) :
    c.heap.heap_bytes_ = sumSizes c.heap.objects_ ∧ c.heap.heap_bytes_ ≤ h.heap_bytes_ ∧
      c.heap.threshold_ = h.threshold_ := by
  obtain ⟨objs, hshape, hobj, _⟩ := Collect_shape hc
  have hacc := (Collect_accounting hc (by rw [hb, Nat.mod_eq_of_lt (by rw [← hb]; exact hlt)])).1
  have hle : sumSizes c.heap.objects_ ≤ sumSizes h.objects_ := by
    rw [hobj, sumSizes_map_unmark, ← sumSizes_map_unmark h.objects_, ← hshape,
      sumSizes_map_unmark, sumSizes_filter objs]
    omega
  have hthr : c.heap.threshold_ = h.threshold_ := by
    unfold Collect at hc
    simp only [bind, Except.bind] at hc
    split at hc
    · cases hc
    · cases hc
      rfl
  rw [Nat.mod_eq_of_lt (by omega)] at hacc
  exact ⟨hacc, by omega, hthr⟩

/-- What `MaybeCollect` does for an allocation of `S` bytes on a heap whose
counters stay below 2^63. -/
theorem MaybeCollect_spec (h : Heap) (S : Nat) (roots : List Value) (hwf : h.Wf)
    (hcl : h.Closed roots) (hacc : h.heap_bytes_ = sumSizes h.objects_)
    (hsmall : h.heap_bytes_ + S < 2 ^ 63) (hthr : h.threshold_ < 2 ^ 63) :
    (h.heap_bytes_ + S > h.threshold_ →
      ∃ c, Collect h roots = .ok c ∧
        MaybeCollect h S roots = .ok { c.heap with
          threshold_ := max (2 * h.threshold_) (2 * c.heap.heap_bytes_) } ∧
        c.heap.heap_bytes_ ≤ h.heap_bytes_) ∧
    (¬ h.heap_bytes_ + S > h.threshold_ → MaybeCollect h S roots = .ok h) := by
  unfold MaybeCollect
  rw [Nat.mod_eq_of_lt (by omega)]
  constructor
  · intro hgt
    rw [if_pos hgt]
    obtain ⟨c, hc, _⟩ := Collect_spec h roots hwf.1 hcl
    obtain ⟨_, hle, ht⟩ := Collect_bytes_le hc hacc (by omega)
    refine ⟨c, hc, ?_, hle⟩
    simp only [hc, bind, Except.bind]
    rw [ht, Nat.mod_eq_of_lt (by omega), Nat.mod_eq_of_lt (by omega), Nat.mul_comm h.threshold_,
      Nat.mul_comm c.heap.heap_bytes_]
  · intro hle
    rw [if_neg hle]

/-- C21. Allocation protocol. The threshold of a fresh heap is 1 MiB
(1048576). Let `h` be a heap with pairwise distinct non-null pointers, all
pointers of the roots and of array elements null or owned, `heap_bytes_` the
sum of the sizes, and `heap_bytes_ + S` and the threshold below 2^63, where `S`
is the estimate of the allocation: `sizeof(StringObject) + |s|` for
`AllocateString` and `sizeof(ArrayObject) + sizeof(Value) * length` for
`AllocateArray`. Then the allocation returns; if `heap_bytes_ + S > threshold_`
a collection has run first and the threshold is
`max(2 * old threshold, 2 * heap_bytes_ after the collection)`, and otherwise
no collection has run and the threshold is unchanged, so that the threshold
has not decreased; and the object list is the list after that step with
exactly one object of `size_bytes = S` appended, and `heap_bytes_` is its
value after that step plus `S`. -/
theorem allocation_protocol (P : Platform) (h : Heap) (roots : List Value) (s : List Nat)
    (length : Nat) (hwf : h.Wf) (hcl : h.Closed roots)
    (hacc : h.heap_bytes_ = sumSizes h.objects_) (hthr : h.threshold_ < 2 ^ 63)
    (hs : h.heap_bytes_ + (P.sizeofStringObject + s.length) < 2 ^ 63)
    (ha : h.heap_bytes_ + (P.sizeofArrayObject + P.sizeofValue * length) < 2 ^ 63) :
    Heap.init.threshold_ = 1048576 ∧
    (∃ p h1 o h0, AllocateString P h s roots = .ok (p, h1) ∧
      (if h.heap_bytes_ + (P.sizeofStringObject + s.length) > h.threshold_ then
        ∃ c, Collect h roots = .ok c ∧ h0 = { c.heap with
          threshold_ := max (2 * h.threshold_) (2 * c.heap.heap_bytes_) }
       else h0 = h) ∧
      h1.objects_ = h0.objects_ ++ [(p, o)] ∧ o.size_bytes = P.sizeofStringObject + s.length ∧
      o.kind = .kString ∧ o.value = s ∧
      h1.heap_bytes_ = h0.heap_bytes_ + (P.sizeofStringObject + s.length) ∧
      h1.threshold_ = h0.threshold_ ∧ h.threshold_ ≤ h1.threshold_) ∧
    (∃ p h1 o h0, AllocateArray P h length roots = .ok (p, h1) ∧
      (if h.heap_bytes_ + (P.sizeofArrayObject + P.sizeofValue * length) > h.threshold_ then
        ∃ c, Collect h roots = .ok c ∧ h0 = { c.heap with
          threshold_ := max (2 * h.threshold_) (2 * c.heap.heap_bytes_) }
       else h0 = h) ∧
      h1.objects_ = h0.objects_ ++ [(p, o)] ∧
      o.size_bytes = P.sizeofArrayObject + P.sizeofValue * length ∧
      o.kind = .kArray ∧ o.elements = List.replicate length Value.null ∧
      h1.heap_bytes_ = h0.heap_bytes_ + (P.sizeofArrayObject + P.sizeofValue * length) ∧
      h1.threshold_ = h0.threshold_ ∧ h.threshold_ ≤ h1.threshold_) := by
  refine ⟨rfl, ?_, ?_⟩
  · obtain ⟨h1, h2⟩ := MaybeCollect_spec h _ roots hwf hcl hacc hs hthr
    unfold AllocateString
    rw [Nat.mod_eq_of_lt (by omega)]
    by_cases hgt : h.heap_bytes_ + (P.sizeofStringObject + s.length) > h.threshold_
    · obtain ⟨c, hc, hm, hle⟩ := h1 hgt
      simp only [hm, bind, Except.bind, if_pos hgt]
      refine ⟨_, _, _, _, rfl, ⟨c, hc, rfl⟩, rfl, rfl, rfl, rfl, ?_, rfl, ?_⟩
      · simp only
        rw [Nat.mod_eq_of_lt (by omega)]
      · simp only
        omega
    · simp only [h2 hgt, bind, Except.bind, if_neg hgt]
      refine ⟨_, _, _, _, rfl, rfl, rfl, rfl, rfl, rfl, ?_, rfl, Nat.le_refl _⟩
      simp only
      rw [Nat.mod_eq_of_lt (by omega)]
  · obtain ⟨h1, h2⟩ := MaybeCollect_spec h _ roots hwf hcl hacc ha hthr
    unfold AllocateArray
    rw [@Nat.mod_eq_of_lt (P.sizeofValue * length) (2 ^ 64) (by omega), Nat.mod_eq_of_lt (by omega)]
    by_cases hgt : h.heap_bytes_ + (P.sizeofArrayObject + P.sizeofValue * length) > h.threshold_
    · obtain ⟨c, hc, hm, hle⟩ := h1 hgt
      simp only [hm, bind, Except.bind, if_pos hgt]
      refine ⟨_, _, _, _, rfl, ⟨c, hc, rfl⟩, rfl, rfl, rfl, rfl, ?_, rfl, ?_⟩
      · simp only
        rw [Nat.mod_eq_of_lt (by omega)]
      · simp only
        omega
    · simp only [h2 hgt, bind, Except.bind, if_neg hgt]
      refine ⟨_, _, _, _, rfl, rfl, rfl, rfl, rfl, rfl, ?_, rfl, Nat.le_refl _⟩
      simp only
      rw [Nat.mod_eq_of_lt (by omega)]

theorem allocation_protocol_witness :
    Heap.init.threshold_ = 1048576 ∧
    (∃ p h1 o h0, AllocateString lp64 sampleHeap [1, 2, 3] sampleRoots = .ok (p, h1) ∧
      (if sampleHeap.heap_bytes_ + (lp64.sizeofStringObject + ([1, 2, 3] : List Nat).length) > sampleHeap.threshold_ then
        ∃ c, Collect sampleHeap sampleRoots = .ok c ∧ h0 = { c.heap with
          threshold_ := max (2 * sampleHeap.threshold_) (2 * c.heap.heap_bytes_) }
       else h0 = sampleHeap) ∧
      h1.objects_ = h0.objects_ ++ [(p, o)] ∧ o.size_bytes = lp64.sizeofStringObject + ([1, 2, 3] : List Nat).length ∧
      o.kind = .kString ∧ o.value = [1, 2, 3] ∧
      h1.heap_bytes_ = h0.heap_bytes_ + (lp64.sizeofStringObject + ([1, 2, 3] : List Nat).length) ∧
      h1.threshold_ = h0.threshold_ ∧ sampleHeap.threshold_ ≤ h1.threshold_) ∧
    (∃ p h1 o h0, AllocateArray lp64 sampleHeap 1048576 sampleRoots = .ok (p, h1) ∧
      (if sampleHeap.heap_bytes_ + (lp64.sizeofArrayObject + lp64.sizeofValue * 1048576) > sampleHeap.threshold_ then
        ∃ c, Collect sampleHeap sampleRoots = .ok c ∧ h0 = { c.heap with
          threshold_ := max (2 * sampleHeap.threshold_) (2 * c.heap.heap_bytes_) }
       else h0 = sampleHeap) ∧
      h1.objects_ = h0.objects_ ++ [(p, o)] ∧
      o.size_bytes = lp64.sizeofArrayObject + lp64.sizeofValue * 1048576 ∧
      o.kind = .kArray ∧ o.elements = List.replicate 1048576 Value.null ∧
      h1.heap_bytes_ = h0.heap_bytes_ + (lp64.sizeofArrayObject + lp64.sizeofValue * 1048576) ∧
      h1.threshold_ = h0.threshold_ ∧ sampleHeap.threshold_ ≤ h1.threshold_) :=
  allocation_protocol lp64 sampleHeap sampleRoots [1, 2, 3] 1048576 (by decide) (by decide)
    (by decide) (by decide) (by decide) (by decide)

end Heap

/-! ## Claim about tier-up -/

namespace Vm

theorem bind_apply {α β : Type} (x : VmM α) (f : α → VmM β) (vm : Vm) :
    (x >>= f) vm = match x vm with
      | Res.ok a vm1 => f a vm1
      | Res.throw msg vm1 => Res.throw msg vm1 := rfl

theorem pure_apply {α : Type} (a : α) (vm : Vm) : (pure a : VmM α) vm = Res.ok a vm := rfl

theorem self_apply (vm : Vm) : self vm = Res.ok vm vm := rfl

theorem update_apply (f : Vm → Vm) (vm : Vm) : update f vm = Res.ok () (f vm) := rfl

theorem raise_apply {α : Type} (msg : String) (vm : Vm) :
    (raise msg : VmM α) vm = Res.throw msg vm := rfl

theorem run_loop_succ (P : Platform) (fuel : Nat) (vm : Vm) :
    run_loop P (fuel + 1) vm =
      match vm.frames_.getLast? with
      | none => Res.ok () vm
      | some f =>
        if f.ip ≥ vm.module_.code.length then
          run_loop P fuel { vm with frames_ := vm.frames_.dropLast }
        else
          match vm.code_cache_.find? (fun e => e.1 = f.func_index) with
          | some e =>
            if f.func_index ≠ kGlobalFuncIndex then
              match run_jit P e.2 fuel vm with
              | Res.ok _ vm1 => run_loop P fuel vm1
              | Res.throw msg vm1 => Res.throw msg vm1
            else
              match step P vm with
              | Res.ok _ vm1 => run_loop P fuel vm1
              | Res.throw msg vm1 => Res.throw msg vm1
          | none =>
            match step P vm with
            | Res.ok _ vm1 => run_loop P fuel vm1
            | Res.throw msg vm1 => Res.throw msg vm1 := by
  rw [run_loop]
  simp only [bind_apply, self_apply]
  cases vm.frames_.getLast? with
  | none => rfl
  | some f =>
    simp only
    split
    · rfl
    · cases vm.code_cache_.find? (fun e => decide (e.1 = f.func_index)) with
      | none =>
        simp only [bind_apply]
        cases step P vm <;> rfl
      | some e =>
        simp only
        split
        · simp only [bind_apply]
          cases run_jit P e.2 fuel vm <;> rfl
        · simp only [bind_apply]
          cases step P vm <;> rfl

theorem run_jit_succ (P : Platform) (cf : CompiledFunc) (fuel : Nat) (vm : Vm) :
    run_jit P cf (fuel + 1) vm =
      match vm.frames_.getLast? with
      | none => Res.ok () vm
      | some cur =>
        if cur.func_index ≠ cf.func_index then Res.ok () vm
        else if cur.ip < cf.entry_ip ∨ cur.ip ≥ cf.end_ip then Res.ok () vm
        else
          match vm.module_.code.get? cur.ip with
          | none => Res.throw oobMsg vm
          | some ins =>
            match cf.handlers.get? (cur.ip - cf.entry_ip) with
            | none => Res.throw "jit handler out of range"
                (setFrame { cur with ip := (cur.ip + 1) % 2 ^ 32 } vm).state
            | some none => Res.throw "jit null handler"
                (setFrame { cur with ip := (cur.ip + 1) % 2 ^ 32 } vm).state
            | some (some h) =>
              match invoke P h ins (setFrame { cur with ip := (cur.ip + 1) % 2 ^ 32 } vm).state with
              | Res.ok _ vm1 => run_jit P cf fuel vm1
              | Res.throw msg vm1 => Res.throw msg vm1 := by
  rw [run_jit]
  simp only [bind_apply, self_apply]
  cases vm.frames_.getLast? with
  | none => rfl
  | some cur =>
    simp only
    split
    · rfl
    · split
      · rfl
      · cases vm.module_.code.get? cur.ip with
        | none => rfl
        | some ins =>
          simp only [bind_apply, setFrame, update_apply, Res.state]
          cases cf.handlers.get? (cur.ip - cf.entry_ip) with
          | none => rfl
          | some oh =>
            cases oh with
            | none => rfl
            | some h =>
              simp only [bind_apply]
              cases invoke P h ins _ <;> rfl

theorem run_jit_mono (P : Platform) (cf : CompiledFunc) (fuel j : Nat) (vm vm1 : Vm)
    (h : run_jit P cf fuel vm = Res.ok () vm1) : run_jit P cf (fuel + j) vm = Res.ok () vm1 := by
  induction fuel generalizing vm with
  | zero =>
    rw [run_jit] at h
    cases h
  | succ fuel ih =>
    rw [Nat.add_right_comm, run_jit_succ]
    rw [run_jit_succ] at h
    cases hf : vm.frames_.getLast? with
    | none => rw [hf] at h; exact h
    | some cur =>
      rw [hf] at h
      simp only at h ⊢
      split
      · rw [if_pos (by assumption)] at h
        exact h
      · rw [if_neg (by assumption)] at h
        split
        · rw [if_pos (by assumption)] at h
          exact h
        · rw [if_neg (by assumption)] at h
          cases hc : vm.module_.code.get? cur.ip with
          | none => rw [hc] at h; cases h
          | some ins =>
            rw [hc] at h
            simp only at h ⊢
            cases hh : cf.handlers.get? (cur.ip - cf.entry_ip) with
            | none => rw [hh] at h; cases h
            | some oh =>
              rw [hh] at h
              cases oh with
              | none => cases h
              | some hd =>
                simp only at h ⊢
                cases hi : invoke P hd ins (setFrame { cur with ip := (cur.ip + 1) % 2 ^ 32 } vm).state with
                | throw msg vm2 => rw [hi] at h; cases h
                | ok a vm2 =>
                  rw [hi] at h
                  exact ih vm2 h

theorem run_loop_mono (P : Platform) (fuel j : Nat) (vm vm1 : Vm)
    (h : run_loop P fuel vm = Res.ok () vm1) : run_loop P (fuel + j) vm = Res.ok () vm1 := by
  induction fuel generalizing vm with
  | zero =>
    rw [run_loop] at h
    cases h
  | succ fuel ih =>
    rw [Nat.add_right_comm, run_loop_succ]
    rw [run_loop_succ] at h
    cases hf : vm.frames_.getLast? with
    | none => rw [hf] at h; exact h
    | some f =>
      rw [hf] at h
      simp only at h ⊢
      split
      · rw [if_pos (by assumption)] at h
        exact ih _ h
      · rw [if_neg (by assumption)] at h
        cases hc : vm.code_cache_.find? (fun e => decide (e.1 = f.func_index)) with
        | none =>
          rw [hc] at h
          simp only at h ⊢
          cases hs : step P vm with
          | throw msg vm2 => rw [hs] at h; cases h
          | ok a vm2 =>
            rw [hs] at h
            exact ih vm2 h
        | some e =>
          rw [hc] at h
          simp only at h ⊢
          split
          · rw [if_pos (by assumption)] at h
            cases hs : run_jit P e.2 fuel vm with
            | throw msg vm2 => rw [hs] at h; cases h
            | ok a vm2 =>
              rw [hs] at h
              rw [run_jit_mono P e.2 fuel j vm vm2 hs]
              exact ih vm2 h
          · rw [if_neg (by assumption)] at h
            cases hs : step P vm with
            | throw msg vm2 => rw [hs] at h; cases h
            | ok a vm2 =>
              rw [hs] at h
              exact ih vm2 h

theorem plain_rounds_run_loop (P : Platform) (k : Nat) (vm vm1 : Vm)
    (h : plain_rounds P k vm = some vm1) (n : Nat) :
    run_loop P (k + n) vm = run_loop P n vm1 := by
  induction k generalizing vm with
  | zero =>
    cases h
    rw [Nat.zero_add]
  | succ k ih =>
    rw [Nat.add_right_comm, run_loop_succ]
    rw [plain_rounds] at h
    unfold plain_round at h
    cases hf : vm.frames_.getLast? with
    | none => rw [hf] at h; cases h
    | some f =>
      rw [hf] at h
      simp only at h ⊢
      split
      · rw [if_pos (by assumption)] at h
        exact ih _ h
      · rw [if_neg (by assumption)] at h
        cases hc : vm.code_cache_.find? (fun e => decide (e.1 = f.func_index)) with
        | none =>
          rw [hc] at h
          simp only at h ⊢
          cases hs : step P vm with
          | throw msg vm2 => rw [hs] at h; cases h
          | ok a vm2 =>
            rw [hs] at h
            exact ih vm2 h
        | some e =>
          rw [hc] at h
          simp only at h ⊢
          split
          · rw [if_pos (by assumption)] at h
            cases h
          · rw [if_neg (by assumption)] at h
            cases hs : step P vm with
            | throw msg vm2 => rw [hs] at h; cases h
            | ok a vm2 =>
              rw [hs] at h
              exact ih vm2 h

/-- A frame of a cached function whose ip lies in the code but outside the
cached range: `run_jit` returns at once, and the loop of `run` enters it
again, for ever. -/
theorem run_loop_stuck (P : Platform) (vm : Vm) (f : CallFrame) (e : Nat × CompiledFunc)
    (h1 : vm.frames_.getLast? = some f) (h2 : f.ip < vm.module_.code.length)
    (h3 : vm.code_cache_.find? (fun e => e.1 = f.func_index) = some e)
    (h4 : f.func_index ≠ kGlobalFuncIndex) (h5 : f.func_index = e.2.func_index)
    (h6 : f.ip < e.2.entry_ip ∨ f.ip ≥ e.2.end_ip) (fuel : Nat) :
    run_loop P fuel vm = Res.throw fuelMsg vm := by
  induction fuel with
  | zero => rfl
  | succ fuel ih =>
    rw [run_loop_succ, h1]
    simp only
    rw [if_neg (by omega), h3]
    simp only
    rw [if_pos h4]
    cases fuel with
    | zero => rfl
    | succ n =>
      rw [run_jit_succ, h1]
      simp only
      rw [if_neg (by simpa using h5), if_pos h6]
      exact ih

theorem Res.eq_ok_of_returned (r : Res Unit) (h : r.returned = true) : r = Res.ok () r.state := by
  cases r with
  | ok a vm => rfl
  | throw msg vm => cases h

theorem livelockHot_reached :
    plain_rounds lp64 149 (run_reset livelockVm) = some livelockHot := by
  have h : (plain_rounds lp64 149 (run_reset livelockVm)).isSome = true := by decide!
  unfold livelockHot
  cases hp : plain_rounds lp64 149 (run_reset livelockVm) with
  | none => rw [hp] at h; cases h
  | some vm => rfl

theorem run_loop_cached (P : Platform) (vm : Vm) (f : CallFrame) (e : Nat × CompiledFunc)
    (h1 : vm.frames_.getLast? = some f) (h2 : f.ip < vm.module_.code.length)
    (h3 : vm.code_cache_.find? (fun e => e.1 = f.func_index) = some e)
    (h4 : f.func_index ≠ kGlobalFuncIndex) (k : Nat) :
    run_loop P (k + 1) vm =
      match run_jit P e.2 k vm with
      | Res.ok _ vm1 => run_loop P k vm1
      | Res.throw msg vm1 => Res.throw msg vm1 := by
  rw [run_loop_succ, h1]
  simp only
  rw [if_neg (by omega), h3]
  simp only
  rw [if_pos h4]

theorem livelockHot_round (k : Nat) :
    run_loop lp64 (k + 1) livelockHot =
      match run_jit lp64 livelockEntry.2 k livelockHot with
      | Res.ok _ vm1 => run_loop lp64 k vm1
      | Res.throw msg vm1 => Res.throw msg vm1 :=
  run_loop_cached lp64 livelockHot
    { func_index := 0, ip := 53, return_ip := 52, base_stack_size := 0, locals := [] }
    livelockEntry (by decide!) (by decide!) (by decide!) (by decide!) k

theorem livelockStuck_reached :
    run_jit lp64 livelockEntry.2 2 livelockHot = Res.ok () livelockStuck := by
  have h : (run_jit lp64 livelockEntry.2 2 livelockHot).returned = true := by decide!
  exact Res.eq_ok_of_returned _ h

theorem livelockStuck_stuck (fuel : Nat) :
    run_loop lp64 fuel livelockStuck = Res.throw fuelMsg livelockStuck :=
  run_loop_stuck lp64 livelockStuck
    { func_index := 0, ip := 1, return_ip := 52, base_stack_size := 0, locals := [] }
    livelockEntry (by decide!) (by decide!) (by decide!) (by decide!) (by decide!)
    (Or.inl (by decide!)) fuel

theorem livelock_run_loop (n : Nat) :
    run_loop lp64 (152 + n) (run_reset livelockVm) = Res.throw fuelMsg livelockStuck := by
  have e : 152 + n = 149 + ((2 + n) + 1) := by omega
  rw [e, plain_rounds_run_loop lp64 149 _ _ livelockHot_reached, livelockHot_round,
    run_jit_mono lp64 _ 2 n _ _ livelockStuck_reached]
  exact livelockStuck_stuck _

theorem run_eq (P : Platform) (fuel : Nat) (vm : Vm) :
    run P fuel vm =
      match run_loop P fuel (run_reset vm) with
      | Res.ok _ vm1 => Res.ok 0 vm1
      | Res.throw msg vm1 => Res.throw msg vm1 := by
  unfold run
  simp only [bind_apply, update_apply]
  cases run_loop P fuel (run_reset vm) <;> rfl

/-- C17. Tier-up does not preserve the outcome of every module: the module
`livelockModule` passes `ValidateModule`, the constructor builds `livelockVm`
for it, the interpreter that executes every instruction through `step`
returns from it (within 200 rounds), and `run` with the handler cache does
not return from it, however many rounds it is allowed: from 152 rounds on it
is found in the state `livelockStuck`, in which `run_jit` returns at once
and is entered again. -/
theorem tier_up_livelock :
    ValidateModule livelockModule = .ok () ∧
    create lp64 livelockModule = .ok livelockVm ∧
    (run_step_only lp64 200 livelockVm).returned = true ∧
    (∀ fuel, (run lp64 fuel livelockVm).returned = false) ∧
    (∀ n, run lp64 (152 + n) livelockVm = Res.throw fuelMsg livelockStuck) := by
  have hn : ∀ n, run lp64 (152 + n) livelockVm = Res.throw fuelMsg livelockStuck := by
    intro n
    rw [run_eq, livelock_run_loop]
  refine ⟨by decide!, rfl, by decide!, ?_, hn⟩
  intro fuel
  cases hr : run_loop lp64 fuel (run_reset livelockVm) with
  | throw msg vm1 =>
    rw [run_eq, hr]
    rfl
  | ok a vm1 =>
    have h1 := run_loop_mono lp64 fuel (152 - fuel + 152) _ _ hr
    have e : fuel + (152 - fuel + 152) = 152 + (fuel + (152 - fuel)) := by omega
    rw [e, livelock_run_loop] at h1
    cases h1

end Vm

/-! ## The interpreter: outcomes of calls -/

namespace Vm

theorem Sat_ok {α : Type} (a : α) (vm : Vm) (Q : α → Vm → Prop) (E : String → Vm → Prop) :
    (Res.ok a vm).Sat Q E ↔ Q a vm := Iff.rfl

theorem Sat_throw {α : Type} (msg : String) (vm : Vm) (Q : α → Vm → Prop)
    (E : String → Vm → Prop) : (Res.throw msg vm : Res α).Sat Q E ↔ E msg vm := Iff.rfl

theorem Sat_bind {α β : Type} (x : VmM α) (f : α → VmM β) (vm : Vm) (Q : β → Vm → Prop)
    (E : String → Vm → Prop) :
    ((x >>= f) vm).Sat Q E ↔ (x vm).Sat (fun a vm1 => (f a vm1).Sat Q E) E := by
  rw [bind_apply]
  cases x vm <;> exact Iff.rfl

theorem Sat_mono {α : Type} {r : Res α} {Q Q1 : α → Vm → Prop} {E E1 : String → Vm → Prop}
    (h : r.Sat Q E) (hq : ∀ a vm, Q a vm → Q1 a vm) (he : ∀ m vm, E m vm → E1 m vm) :
    r.Sat Q1 E1 := by
  cases r with
  | ok a vm => exact hq a vm h
  | throw m vm => exact he m vm h

theorem Sat_pure {α : Type} (a : α) (vm : Vm) (Q : α → Vm → Prop) (E : String → Vm → Prop) :
    ((pure a : VmM α) vm).Sat Q E ↔ Q a vm := Iff.rfl

theorem Sat_raise {α : Type} (msg : String) (vm : Vm) (Q : α → Vm → Prop)
    (E : String → Vm → Prop) : ((raise msg : VmM α) vm).Sat Q E ↔ E msg vm := Iff.rfl

theorem Sat_self (vm : Vm) (Q : Vm → Vm → Prop) (E : String → Vm → Prop) :
    (self vm).Sat Q E ↔ Q vm vm := Iff.rfl

theorem Sat_update (f : Vm → Vm) (vm : Vm) (Q : Unit → Vm → Prop) (E : String → Vm → Prop) :
    (update f vm).Sat Q E ↔ Q () (f vm) := Iff.rfl

theorem Sat_lift {α : Type} (x : Except String α) (vm : Vm) (Q : α → Vm → Prop)
    (E : String → Vm → Prop) :
    (lift x vm).Sat Q E ↔ (∀ a, x = .ok a → Q a vm) ∧ (∀ m, x = .error m → E m vm) := by
  cases x with
  | ok a =>
    constructor
    · intro h
      exact ⟨fun b hb => (by cases hb; exact h), fun m hm => (by cases hm)⟩
    · intro h
      exact h.1 a rfl
  | error m =>
    constructor
    · intro h
      exact ⟨fun b hb => (by cases hb), fun m hm => (by cases hm; exact h)⟩
    · intro h
      exact h.2 m rfl

theorem Sat_push (v : Value) (vm : Vm) (Q : Unit → Vm → Prop) (E : String → Vm → Prop) :
    (push v vm).Sat Q E ↔ Q () { vm with stack_ := vm.stack_ ++ [v] } := Iff.rfl

theorem Sat_pop (vm : Vm) (Q : Value → Vm → Prop) (E : String → Vm → Prop) :
    (pop vm).Sat Q E ↔
      (vm.stack_ = [] → E "stack underflow" vm) ∧
      (∀ s v, vm.stack_ = s ++ [v] → Q v { vm with stack_ := s }) := by
  unfold pop
  rcases List.eq_nil_or_concat vm.stack_ with h | ⟨s, v, h⟩
  · rw [h]
    simp [Res.Sat]
  · rw [h]
    simp [Res.Sat, List.getLast?_concat, List.dropLast_concat]
    constructor
    · intro hq s1 v1 h1
      obtain ⟨rfl, h2⟩ := List.append_inj' h1 rfl
      cases h2
      exact hq
    · intro hq
      exact hq s v rfl

theorem Sat_frame (vm : Vm) (Q : CallFrame → Vm → Prop) (E : String → Vm → Prop) :
    (frame vm).Sat Q E ↔
      (vm.frames_ = [] → E "no current frame" vm) ∧
      (∀ fs f, vm.frames_ = fs ++ [f] → Q f vm) := by
  unfold frame
  rcases List.eq_nil_or_concat vm.frames_ with h | ⟨s, v, h⟩
  · rw [h]
    simp [Res.Sat]
  · rw [h]
    simp [Res.Sat, List.getLast?_concat]
    constructor
    · intro hq s1 v1 h1
      obtain ⟨rfl, h2⟩ := List.append_inj' h1 rfl
      cases h2
      exact hq
    · intro hq
      exact hq s v rfl

theorem Sat_setFrame (f : CallFrame) (vm : Vm) (Q : Unit → Vm → Prop) (E : String → Vm → Prop) :
    (setFrame f vm).Sat Q E ↔ Q () { vm with frames_ := vm.frames_.dropLast ++ [f] } := Iff.rfl

theorem Sat_TempRoots {α : Type} (values : List Value) (body : VmM α) (vm : Vm)
    (Q : α → Vm → Prop) (E : String → Vm → Prop) :
    (TempRoots values body vm).Sat Q E ↔
      (body { vm with temp_roots_ := vm.temp_roots_ ++ values }).Sat
        (fun a vm1 => Q a { vm1 with temp_roots_ := vm1.temp_roots_.take vm.temp_roots_.length })
        (fun m vm1 => E m { vm1 with temp_roots_ := vm1.temp_roots_.take vm.temp_roots_.length }) := by
  unfold TempRoots
  cases body { vm with temp_roots_ := vm.temp_roots_ ++ values } <;> exact Iff.rfl

theorem Sat_state {α : Type} (r : Res α) (p : Vm → Prop) :
    r.Sat (fun _ vm1 => p vm1) (fun _ vm1 => p vm1) ↔ p r.state := by
  cases r <;> exact Iff.rfl

theorem Sat_ite {α : Type} (c : Prop) [Decidable c] (x y : VmM α) (vm : Vm)
    (Q : α → Vm → Prop) (E : String → Vm → Prop) :
    ((if c then x else y) vm).Sat Q E ↔ (c → (x vm).Sat Q E) ∧ (¬ c → (y vm).Sat Q E) := by
  by_cases h : c
  · simp [h]
  · simp [h]

end Vm

/-! ## The interpreter: reading and writing arrays -/

namespace Heap

theorem deref_setElements (h : Heap) (p q : Nat) (es : List Value) :
    deref (setElements h p es).objects_ q =
      (deref h.objects_ q).map (fun o =>
        if q = p ∧ o.kind = .kArray then { o with elements := es } else o) := by
  unfold setElements deref
  simp only
  induction h.objects_ with
  | nil => rfl
  | cons x rest ih =>
    simp only [List.map_cons, List.find?_cons]
    by_cases hc : x.1 = p ∧ x.2.kind = ObjectKind.kArray
    · simp only [if_pos hc]
      by_cases hx : x.1 = q
      · subst hx
        simp only [decide_True, Option.map_some', if_pos hc]
      · simp only [hx, decide_False]
        exact ih
    · simp only [if_neg hc]
      by_cases hx : x.1 = q
      · subst hx
        simp only [decide_True, Option.map_some', if_neg hc]
      · simp only [hx, decide_False]
        exact ih

theorem elementsAt_setElements_same (h : Heap) (p : Nat) (es es1 : List Value)
    (he : elementsAt h p = .ok es) : elementsAt (setElements h p es1) p = .ok es1 := by
  unfold elementsAt at he ⊢
  rw [deref_setElements]
  cases hd : deref h.objects_ p with
  | none => rw [hd] at he; cases he
  | some o =>
    rw [hd] at he
    simp only at he
    by_cases hk : o.kind = .kArray
    · simp only [Option.map_some', hk, and_self, if_true]
    · rw [if_neg hk] at he
      cases he

theorem elementsAt_setElements_other (h : Heap) (p q : Nat) (es1 : List Value) (hq : q ≠ p) :
    elementsAt (setElements h p es1) q = elementsAt h q := by
  unfold elementsAt
  rw [deref_setElements]
  cases hd : deref h.objects_ q with
  | none => rfl
  | some o => simp only [Option.map_some', hq, false_and, if_false]

theorem stringAt_setElements (h : Heap) (p q : Nat) (es1 : List Value) :
    stringAt (setElements h p es1) q = stringAt h q := by
  unfold stringAt
  rw [deref_setElements]
  cases hd : deref h.objects_ q with
  | none => rfl
  | some o =>
    simp only [Option.map_some']
    split
    · rename_i hc
      simp only [hc.2]
    · rfl

theorem addrs_setElements (h : Heap) (p : Nat) (es : List Value) :
    (setElements h p es).addrs = h.addrs := by
  unfold setElements addrs
  simp only [List.map_map]
  apply List.map_congr_left
  intro x _
  simp only [Function.comp]
  split <;> rfl

theorem storeElement_eq (h : Heap) (p i : Nat) (v : Value) (es : List Value)
    (he : elementsAt h p = .ok es) (hi : i < es.length) :
    storeElement h p i v = .ok (setElements h p (es.set i v)) := by
  unfold storeElement
  simp only [he, bind, Except.bind, if_pos hi]

end Heap

namespace Vm

theorem pop_mk (m : BytecodeModule) (h : Heap) (c s g : List Value) (v : Value) (gs : List Nat)
    (f : List CallFrame) (t : List Value) (e hc : List Nat) (cc : List (Nat × CompiledFunc))
    (co : List Printed) :
    pop ⟨m, h, c, s ++ [v], g, gs, f, t, e, hc, cc, co⟩ =
      Res.ok v ⟨m, h, c, s, g, gs, f, t, e, hc, cc, co⟩ := by
  unfold pop
  simp only [List.getLast?_concat, List.dropLast_concat]

theorem lift_ok {α : Type} (a : α) (vm : Vm) : lift (Except.ok a) vm = Res.ok a vm := rfl

theorem lift_error {α : Type} (m : String) (vm : Vm) :
    (lift (Except.error m : Except String α)) vm = Res.throw m vm := rfl

end Vm

/-! ## The interpreter: what a call leaves as it is -/

namespace Vm

theorem quiet_refl (vm : Vm) : Quiet vm vm := ⟨rfl, rfl, rfl, rfl, rfl, rfl, rfl, rfl⟩

theorem quiet_trans {a b c : Vm} (h1 : Quiet a b) (h2 : Quiet b c) : Quiet a c := by
  obtain ⟨a1, a2, a3, a4, a5, a6, a7, a8⟩ := h1
  obtain ⟨b1, b2, b3, b4, b5, b6, b7, b8⟩ := h2
  exact ⟨b1.trans a1, b2.trans a2, b3.trans a3, b4.trans a4, b5.trans a5, b6.trans a6,
    b7.trans a7, b8.trans a8⟩

theorem quiet_bind {α β : Type} {x : VmM α} {f : α → VmM β} (hx : Keeps Quiet x)
    (hf : ∀ a, Keeps Quiet (f a)) : Keeps Quiet (x >>= f) := by
  constructor
  intro vm
  have h1 := hx.rel vm
  rw [bind_apply]
  cases hxv : x vm with
  | ok a vm1 =>
    rw [hxv] at h1
    exact quiet_trans h1 ((hf a).rel vm1)
  | throw m vm1 =>
    rw [hxv] at h1
    exact h1

theorem quiet_pure {α : Type} (a : α) : Keeps Quiet (pure a : VmM α) := ⟨fun vm => quiet_refl vm⟩

theorem quiet_raise {α : Type} (m : String) : Keeps Quiet (raise m : VmM α) :=
  ⟨fun vm => quiet_refl vm⟩

theorem quiet_self : Keeps Quiet self := ⟨fun vm => quiet_refl vm⟩

theorem quiet_lift {α : Type} (x : Except String α) : Keeps Quiet (lift x) := by
  constructor
  intro vm
  cases x <;> exact quiet_refl vm

theorem quiet_update (f : Vm → Vm) (h : ∀ vm, Quiet vm (f vm)) : Keeps Quiet (update f) := ⟨h⟩

theorem quiet_push (v : Value) : Keeps Quiet (push v) := ⟨fun vm => quiet_refl vm⟩

theorem quiet_pop : Keeps Quiet pop := by
  constructor
  intro vm
  unfold pop
  cases vm.stack_.getLast? <;> exact quiet_refl vm

theorem quiet_peek_args (argc : Nat) : Keeps Quiet (peek_args argc) := by
  constructor
  intro vm
  unfold peek_args
  split <;> exact quiet_refl vm

theorem quiet_frame : Keeps Quiet frame := by
  constructor
  intro vm
  unfold frame
  cases vm.frames_.getLast? <;> exact quiet_refl vm

theorem quiet_const_string_view (i : Nat) : Keeps Quiet (const_string_view i) := by
  constructor
  intro vm
  unfold const_string_view
  repeat' split
  all_goals exact quiet_refl vm

theorem quiet_func_name_view (i : Nat) : Keeps Quiet (func_name_view i) := by
  constructor
  intro vm
  unfold func_name_view
  split
  · exact quiet_refl vm
  · exact (quiet_const_string_view _).rel vm

theorem quiet_is_void_return (i : Nat) : Keeps Quiet (is_void_return i) := by
  constructor
  intro vm
  unfold is_void_return
  repeat' split
  all_goals exact quiet_refl vm

theorem quiet_TempRoots {α : Type} (values : List Value) {body : VmM α}
    (h : Keeps Quiet body) : Keeps Quiet (TempRoots values body) := by
  constructor
  intro vm
  have h1 := h.rel { vm with temp_roots_ := vm.temp_roots_ ++ values }
  unfold TempRoots
  cases hb : body { vm with temp_roots_ := vm.temp_roots_ ++ values } with
  | ok a vm1 =>
    rw [hb] at h1
    exact h1
  | throw m vm1 =>
    rw [hb] at h1
    exact h1

theorem quiet_add_values (P : Platform) (l r : Value) : Keeps Quiet (add_values P l r) := by
  unfold add_values
  split
  · exact quiet_bind (quiet_lift _) (fun _ => quiet_pure _)
  · exact quiet_pure _
  · exact quiet_TempRoots _ (quiet_bind quiet_self (fun _ => quiet_bind (quiet_lift _)
      (fun _ => quiet_bind (quiet_lift _) (fun _ => quiet_bind (quiet_lift _)
      (fun _ => quiet_bind (quiet_update _ (fun vm => quiet_refl vm)) (fun _ => quiet_pure _))))))
  · exact quiet_raise _

theorem quiet_binary {op : Value → Value → VmM Value} (h : ∀ l r, Keeps Quiet (op l r)) :
    Keeps Quiet (binary op) :=
  quiet_bind quiet_pop (fun _ => quiet_bind quiet_pop (fun _ => quiet_bind (h _ _)
    (fun _ => quiet_push _)))

theorem quiet_unary (op : Value → Except String Value) : Keeps Quiet (unary op) :=
  quiet_bind quiet_pop (fun _ => quiet_bind (quiet_lift _) (fun _ => quiet_push _))

theorem quiet_builtin_print (args : List Value) : Keeps Quiet (builtin_print args) := by
  unfold builtin_print
  repeat' first
    | exact quiet_raise _ | exact quiet_pure _ | exact quiet_self | exact quiet_lift _
    | exact quiet_push _ | exact quiet_pop | exact quiet_frame | exact quiet_peek_args _
    | exact quiet_const_string_view _ | exact quiet_func_name_view _
    | exact quiet_is_void_return _
    | exact quiet_update _ (fun vm => quiet_refl vm)
    | apply quiet_bind
    | split
    | intro _

theorem quiet_builtin_len (args : List Value) : Keeps Quiet (builtin_len args) := by
  unfold builtin_len
  repeat' first
    | exact quiet_raise _ | exact quiet_pure _ | exact quiet_self | exact quiet_lift _
    | exact quiet_push _ | exact quiet_pop | exact quiet_frame | exact quiet_peek_args _
    | exact quiet_const_string_view _ | exact quiet_func_name_view _
    | exact quiet_is_void_return _
    | exact quiet_update _ (fun vm => quiet_refl vm)
    | apply quiet_bind
    | split
    | intro _

theorem quiet_builtin_new_array_bool (P : Platform) (args : List Value) : Keeps Quiet (builtin_new_array_bool P args) := by
  unfold builtin_new_array_bool
  repeat' first
    | exact quiet_raise _ | exact quiet_pure _ | exact quiet_self | exact quiet_lift _
    | exact quiet_push _ | exact quiet_pop | exact quiet_frame | exact quiet_peek_args _
    | exact quiet_const_string_view _ | exact quiet_func_name_view _
    | exact quiet_is_void_return _
    | exact quiet_update _ (fun vm => quiet_refl vm)
    | apply quiet_bind
    | split
    | intro _

theorem quiet_builtin_push_int (P : Platform) (args : List Value) : Keeps Quiet (builtin_push_int P args) := by
  unfold builtin_push_int
  repeat' first
    | exact quiet_raise _ | exact quiet_pure _ | exact quiet_self | exact quiet_lift _
    | exact quiet_push _ | exact quiet_pop | exact quiet_frame | exact quiet_peek_args _
    | exact quiet_const_string_view _ | exact quiet_func_name_view _
    | exact quiet_is_void_return _
    | exact quiet_update _ (fun vm => quiet_refl vm)
    | apply quiet_bind
    | split
    | intro _

theorem quiet_call_builtin (P : Platform) (name : List Nat) (args : List Value) :
    Keeps Quiet (call_builtin P name args) := by
  unfold call_builtin
  repeat' first
    | exact quiet_raise _ | exact quiet_builtin_print _ | exact quiet_builtin_len _
    | exact quiet_builtin_new_array_bool _ _ | exact quiet_builtin_push_int _ _
    | split

theorem quiet_fill_array (arr n : Nat) : Keeps Quiet (fill_array arr n) := by
  induction n with
  | zero => exact quiet_pure _
  | succ n ih =>
    unfold fill_array
    exact quiet_bind quiet_pop (fun _ => quiet_bind quiet_self (fun _ => quiet_bind (quiet_lift _)
      (fun _ => quiet_bind (quiet_update _ (fun vm => quiet_refl vm)) (fun _ => ih))))

theorem quiet_H_NewArray (P : Platform) (ins : Instruction) : Keeps Quiet (H_NewArray P ins) := by
  unfold H_NewArray
  repeat' first
    | exact quiet_raise _ | exact quiet_pure _ | exact quiet_self | exact quiet_lift _
    | exact quiet_push _ | exact quiet_fill_array _ _
    | exact quiet_update _ (fun vm => quiet_refl vm)
    | apply quiet_bind
    | split
    | intro _

theorem quiet_H_LoadIndex : Keeps Quiet (H_LoadIndex) := by
  unfold H_LoadIndex
  repeat' first
    | exact quiet_raise _ | exact quiet_pure _ | exact quiet_self | exact quiet_lift _
    | exact quiet_push _ | exact quiet_pop | exact quiet_frame | exact quiet_peek_args _
    | exact quiet_const_string_view _ | exact quiet_func_name_view _
    | exact quiet_is_void_return _
    | exact quiet_update _ (fun vm => quiet_refl vm)
    | apply quiet_bind
    | split
    | intro _

theorem quiet_H_StoreIndex : Keeps Quiet (H_StoreIndex) := by
  unfold H_StoreIndex
  repeat' first
    | exact quiet_raise _ | exact quiet_pure _ | exact quiet_self | exact quiet_lift _
    | exact quiet_push _ | exact quiet_pop | exact quiet_frame | exact quiet_peek_args _
    | exact quiet_const_string_view _ | exact quiet_func_name_view _
    | exact quiet_is_void_return _
    | exact quiet_update _ (fun vm => quiet_refl vm)
    | apply quiet_bind
    | split
    | intro _

theorem quiet_H_PushConst (ins : Instruction) : Keeps Quiet (H_PushConst ins) := by
  unfold H_PushConst
  repeat' first
    | exact quiet_raise _ | exact quiet_pure _ | exact quiet_self | exact quiet_lift _
    | exact quiet_push _ | exact quiet_pop | exact quiet_frame | exact quiet_peek_args _
    | exact quiet_const_string_view _ | exact quiet_func_name_view _
    | exact quiet_is_void_return _
    | exact quiet_update _ (fun vm => quiet_refl vm)
    | apply quiet_bind
    | split
    | intro _

theorem quiet_H_Pop : Keeps Quiet (H_Pop) := by
  unfold H_Pop
  repeat' first
    | exact quiet_raise _ | exact quiet_pure _ | exact quiet_self | exact quiet_lift _
    | exact quiet_push _ | exact quiet_pop | exact quiet_frame | exact quiet_peek_args _
    | exact quiet_const_string_view _ | exact quiet_func_name_view _
    | exact quiet_is_void_return _
    | exact quiet_update _ (fun vm => quiet_refl vm)
    | apply quiet_bind
    | split
    | intro _

theorem quiet_H_LoadGlobal (ins : Instruction) : Keeps Quiet (H_LoadGlobal ins) := by
  unfold H_LoadGlobal
  repeat' first
    | exact quiet_raise _ | exact quiet_pure _ | exact quiet_self | exact quiet_lift _
    | exact quiet_push _ | exact quiet_pop | exact quiet_frame | exact quiet_peek_args _
    | exact quiet_const_string_view _ | exact quiet_func_name_view _
    | exact quiet_is_void_return _
    | exact quiet_update _ (fun vm => quiet_refl vm)
    | apply quiet_bind
    | split
    | intro _

theorem quiet_H_LoadLocal (ins : Instruction) : Keeps Quiet (H_LoadLocal ins) := by
  unfold H_LoadLocal
  repeat' first
    | exact quiet_raise _ | exact quiet_pure _ | exact quiet_self | exact quiet_lift _
    | exact quiet_push _ | exact quiet_pop | exact quiet_frame | exact quiet_peek_args _
    | exact quiet_const_string_view _ | exact quiet_func_name_view _
    | exact quiet_is_void_return _
    | exact quiet_update _ (fun vm => quiet_refl vm)
    | apply quiet_bind
    | split
    | intro _

end Vm

namespace Vm

theorem footprint_refl {R : Vm → Vm → Prop} (hR : Footprint R) (vm : Vm) : R vm vm :=
  hR.of_quiet vm vm (quiet_refl vm)

theorem Keeps.weaken {α : Type} {R : Vm → Vm → Prop} (hR : Footprint R) {x : VmM α}
    (h : Keeps Quiet x) : Keeps R x :=
  ⟨fun vm => hR.of_quiet _ _ (h.rel vm)⟩

theorem keeps_bind {α β : Type} {R : Vm → Vm → Prop} (hR : Footprint R) {x : VmM α}
    {f : α → VmM β} (hx : Keeps R x) (hf : ∀ a, Keeps R (f a)) : Keeps R (x >>= f) := by
  constructor
  intro vm
  have h1 := hx.rel vm
  rw [bind_apply]
  cases hxv : x vm with
  | ok a vm1 =>
    rw [hxv] at h1
    exact hR.trans _ _ _ h1 ((hf a).rel vm1)
  | throw m vm1 =>
    rw [hxv] at h1
    exact h1

theorem keeps_update {R : Vm → Vm → Prop} (f : Vm → Vm) (h : ∀ vm, R vm (f vm)) :
    Keeps R (update f) := ⟨h⟩

theorem keeps_setFrame {R : Vm → Vm → Prop} (f : CallFrame)
    (h : ∀ vm fs, R vm { vm with frames_ := fs }) : Keeps R (setFrame f) := ⟨fun vm => h vm _⟩

theorem SameGlobals.footprint : Footprint SameGlobals where
  of_quiet := fun _ _ h => ⟨h.2.2.1, h.2.2.2.1⟩
  trans := fun _ _ _ h1 h2 => ⟨h2.1.trans h1.1, h2.2.trans h1.2⟩

theorem sameGlobals_pop_args (n : Nat) (locals : List Value) :
    Keeps SameGlobals (pop_args n locals) := by
  induction n generalizing locals with
  | zero => exact Keeps.weaken SameGlobals.footprint (quiet_pure _)
  | succ n ih =>
    unfold pop_args
    refine keeps_bind SameGlobals.footprint (Keeps.weaken SameGlobals.footprint quiet_pop) ?_
    intro v
    split
    · exact ih _
    · exact Keeps.weaken SameGlobals.footprint (quiet_raise _)

theorem jit_compile_eq (i : Nat) (vm : Vm) :
    ∃ cc, (jit_compile i vm).2 = { vm with code_cache_ := cc } := by
  unfold jit_compile
  split
  · exact ⟨_, rfl⟩
  · split
    · exact ⟨_, rfl⟩
    · split
      · exact ⟨_, rfl⟩
      · dsimp only
        split
        · exact ⟨_, rfl⟩
        · split
          · exact ⟨_, rfl⟩
          · split
            · exact ⟨_, rfl⟩
            · exact ⟨_, rfl⟩

theorem maybe_jit_compile_eq (i : Nat) (vm : Vm) :
    ∃ hc cc, maybe_jit_compile i vm = { vm with hot_counters_ := hc, code_cache_ := cc } := by
  have e : maybe_jit_compile i vm =
      match vm.module_.functions.get? i with
      | none => vm
      | some fn =>
        if fn.entry_ip = kBuiltinEntryIp then vm
        else if (vm.hot_counters_.getD i 0 + 1) % 2 ^ 32 ≥ kHotFuncThreshold ∧
            (vm.code_cache_.find? (fun e => e.1 = i)).isNone then
          (jit_compile i { vm with
            hot_counters_ := vm.hot_counters_.set i ((vm.hot_counters_.getD i 0 + 1) % 2 ^ 32) }).2
        else { vm with
          hot_counters_ := vm.hot_counters_.set i ((vm.hot_counters_.getD i 0 + 1) % 2 ^ 32) } := rfl
  rw [e]
  split
  · exact ⟨_, _, rfl⟩
  · split
    · exact ⟨_, _, rfl⟩
    · split
      · obtain ⟨cc, h⟩ := jit_compile_eq i
          { vm with hot_counters_ := vm.hot_counters_.set i ((vm.hot_counters_.getD i 0 + 1) % 2 ^ 32) }
        rw [h]
        exact ⟨_, _, rfl⟩
      · exact ⟨_, _, rfl⟩

theorem sameGlobals_maybe_jit_compile (i : Nat) (vm : Vm) :
    SameGlobals vm (maybe_jit_compile i vm) := by
  obtain ⟨hc, cc, h⟩ := maybe_jit_compile_eq i vm
  rw [h]
  exact ⟨rfl, rfl⟩

theorem sameGlobals_call_function (P : Platform) (f argc : Nat) :
    Keeps SameGlobals (call_function P f argc) := by
  unfold call_function
  repeat' first
    | exact Keeps.weaken SameGlobals.footprint (quiet_raise _)
    | exact Keeps.weaken SameGlobals.footprint (quiet_pure _)
    | exact Keeps.weaken SameGlobals.footprint quiet_self
    | exact Keeps.weaken SameGlobals.footprint quiet_frame
    | exact Keeps.weaken SameGlobals.footprint (quiet_push _)
    | exact Keeps.weaken SameGlobals.footprint (quiet_peek_args _)
    | exact Keeps.weaken SameGlobals.footprint (quiet_func_name_view _)
    | exact Keeps.weaken SameGlobals.footprint (quiet_call_builtin _ _ _)
    | exact sameGlobals_pop_args _ _
    | exact keeps_update _ (sameGlobals_maybe_jit_compile _)
    | exact keeps_update _ (fun vm => ⟨rfl, rfl⟩)
    | exact Keeps.weaken SameGlobals.footprint (quiet_TempRoots _ (by
        repeat' first
          | exact quiet_raise _ | exact quiet_pure _ | exact quiet_push _
          | exact quiet_func_name_view _ | exact quiet_call_builtin _ _ _
          | exact quiet_update _ (fun vm => quiet_refl vm)
          | apply quiet_bind
          | split
          | intro _))
    | apply keeps_bind SameGlobals.footprint
    | split
    | dsimp only
    | intro _

theorem sameGlobals_ret_from_function : Keeps SameGlobals ret_from_function := by
  unfold ret_from_function
  repeat' first
    | exact Keeps.weaken SameGlobals.footprint (quiet_raise _)
    | exact Keeps.weaken SameGlobals.footprint (quiet_pure _)
    | exact Keeps.weaken SameGlobals.footprint quiet_self
    | exact Keeps.weaken SameGlobals.footprint quiet_pop
    | exact Keeps.weaken SameGlobals.footprint (quiet_push _)
    | exact Keeps.weaken SameGlobals.footprint (quiet_is_void_return _)
    | exact keeps_update _ (fun vm => ⟨rfl, rfl⟩)
    | exact keeps_setFrame _ (fun vm fs => ⟨rfl, rfl⟩)
    | apply keeps_bind SameGlobals.footprint
    | split
    | dsimp only
    | intro _

theorem sameGlobals_H_StoreLocal (ins : Instruction) : Keeps SameGlobals (H_StoreLocal ins) := by
  unfold H_StoreLocal
  repeat' first
    | exact Keeps.weaken SameGlobals.footprint (quiet_raise _)
    | exact Keeps.weaken SameGlobals.footprint quiet_frame
    | exact Keeps.weaken SameGlobals.footprint quiet_pop
    | exact keeps_setFrame _ (fun vm fs => ⟨rfl, rfl⟩)
    | apply keeps_bind SameGlobals.footprint
    | split
    | dsimp only
    | intro _

theorem sameGlobals_H_Jump (ins : Instruction) : Keeps SameGlobals (H_Jump ins) := by
  unfold H_Jump
  repeat' first
    | exact Keeps.weaken SameGlobals.footprint (quiet_raise _)
    | exact Keeps.weaken SameGlobals.footprint quiet_frame
    | exact Keeps.weaken SameGlobals.footprint quiet_self
    | exact keeps_setFrame _ (fun vm fs => ⟨rfl, rfl⟩)
    | apply keeps_bind SameGlobals.footprint
    | split
    | dsimp only
    | intro _

theorem sameGlobals_H_JumpFalse (ins : Instruction) : Keeps SameGlobals (H_JumpFalse ins) := by
  unfold H_JumpFalse
  repeat' first
    | exact Keeps.weaken SameGlobals.footprint (quiet_raise _)
    | exact Keeps.weaken SameGlobals.footprint (quiet_pure _)
    | exact Keeps.weaken SameGlobals.footprint quiet_frame
    | exact Keeps.weaken SameGlobals.footprint quiet_self
    | exact Keeps.weaken SameGlobals.footprint quiet_pop
    | exact keeps_setFrame _ (fun vm fs => ⟨rfl, rfl⟩)
    | apply keeps_bind SameGlobals.footprint
    | split
    | dsimp only
    | intro _

theorem quiet_invoke (P : Platform) (h : Handler) (ins : Instruction)
    (h1 : h ≠ .H_StoreGlobal) (h2 : h ≠ .H_StoreLocal) (h3 : h ≠ .H_Jump) (h4 : h ≠ .H_JumpFalse)
    (h5 : h ≠ .H_Call) (h6 : h ≠ .H_Ret) : Keeps Quiet (invoke P h ins) := by
  cases h <;> first
    | exact absurd rfl h1 | exact absurd rfl h2 | exact absurd rfl h3 | exact absurd rfl h4
    | exact absurd rfl h5 | exact absurd rfl h6
    | exact quiet_H_PushConst _ | exact quiet_H_Pop | exact quiet_H_LoadGlobal _
    | exact quiet_H_LoadLocal _ | exact quiet_H_NewArray _ _ | exact quiet_H_LoadIndex
    | exact quiet_H_StoreIndex
    | exact quiet_unary _
    | exact quiet_binary (quiet_add_values _)
    | exact quiet_binary (fun _ _ => quiet_lift _)
    | exact quiet_binary (fun _ _ => quiet_bind quiet_self (fun _ => quiet_lift _))

theorem sameGlobals_invoke (P : Platform) (h : Handler) (ins : Instruction)
    (h1 : h ≠ .H_StoreGlobal) : Keeps SameGlobals (invoke P h ins) := by
  by_cases h2 : h = .H_StoreLocal
  · subst h2
    exact sameGlobals_H_StoreLocal _
  by_cases h3 : h = .H_Jump
  · subst h3
    exact sameGlobals_H_Jump _
  by_cases h4 : h = .H_JumpFalse
  · subst h4
    exact sameGlobals_H_JumpFalse _
  by_cases h5 : h = .H_Call
  · subst h5
    unfold invoke H_Call
    simp only
    split
    · exact Keeps.weaken SameGlobals.footprint (quiet_raise _)
    · exact sameGlobals_call_function _ _ _
  by_cases h6 : h = .H_Ret
  · subst h6
    exact sameGlobals_ret_from_function
  exact Keeps.weaken SameGlobals.footprint (quiet_invoke P h ins h1 h2 h3 h4 h5 h6)

theorem Keeps.sat {α : Type} {R : Vm → Vm → Prop} {x : VmM α} (h : Keeps R x) (vm : Vm) :
    (x vm).Sat (fun _ vm1 => R vm vm1) (fun _ vm1 => R vm vm1) :=
  (Sat_state (x vm) (R vm)).2 (h.rel vm)

end Vm

/-! ## Heap: allocation on a heap without dangling pointers -/

namespace Heap

theorem elementsAt_of_mem {h : Heap} (hn : h.addrs.Nodup) {q : Nat} {o : HeapObject}
    (hm : (q, o) ∈ h.objects_) :
    elementsAt h q = if o.kind = .kArray then .ok o.elements else .error Vm.kindMsg := by
  unfold elementsAt
  rw [deref_of_mem_nodup hn hm]

theorem stringAt_of_mem {h : Heap} (hn : h.addrs.Nodup) {q : Nat} {o : HeapObject}
    (hm : (q, o) ∈ h.objects_) :
    stringAt h q = if o.kind = .kString then .ok o.value else .error Vm.kindMsg := by
  unfold stringAt
  rw [deref_of_mem_nodup hn hm]

/-- What `MaybeCollect` leaves of a well-formed closed heap: a well-formed
closed heap whose objects are objects of the old heap, the mark bit apart, and
among them every object that was reachable from the roots. -/
theorem MaybeCollect_heap (h : Heap) (S : Nat) (roots : List Value) (hwf : h.Wf)
    (hcl : h.Closed roots) :
    ∃ h0, MaybeCollect h S roots = .ok h0 ∧ h0.Wf ∧ h0.Closed roots ∧
      (∀ x ∈ h0.objects_, ∃ y ∈ h.objects_, x = y ∨ x = unmark y) ∧
      (∀ y ∈ h.objects_, Reachable h roots y.1 → y ∈ h0.objects_ ∨ unmark y ∈ h0.objects_) := by
  unfold MaybeCollect
  split
  · obtain ⟨c, hc, hsub, hmem, _⟩ := Collect_spec h roots hwf.1 hcl
    obtain ⟨hn, ha⟩ := Collect_addrs hsub hmem hwf.1
    simp only [hc, bind, Except.bind]
    refine ⟨_, rfl, ⟨hn, fun h0 => hwf.2 ((ha 0).1 h0).1⟩, ⟨?_, ?_⟩, ?_, ?_⟩
    · intro v hv
      have h1 := hcl.1 v hv
      unfold PointsInto at h1 ⊢
      cases hp : v.pointer with
      | none => trivial
      | some p =>
        rw [hp] at h1
        simp only at h1 ⊢
        rcases h1 with h1 | h1
        · exact Or.inl h1
        · by_cases h0 : p = 0
          · exact Or.inl h0
          · exact Or.inr ((ha p).2 ⟨h1, Reachable.root v p hv hp h0⟩)
    · intro o ho hk v hv
      obtain ⟨hou, hor⟩ := (hmem o).1 ho
      obtain ⟨y, hy, rfl⟩ := List.mem_map.1 hou
      have h1 := hcl.2 y hy hk v hv
      unfold PointsInto at h1 ⊢
      cases hp : v.pointer with
      | none => trivial
      | some p =>
        rw [hp] at h1
        simp only at h1 ⊢
        rcases h1 with h1 | h1
        · exact Or.inl h1
        · by_cases h0 : p = 0
          · exact Or.inl h0
          · exact Or.inr ((ha p).2 ⟨h1, Reachable.elem y.1 y.2 v p hor hy hk hv hp h0⟩)
    · intro x hx
      obtain ⟨hou, _⟩ := (hmem x).1 hx
      obtain ⟨y, hy, rfl⟩ := List.mem_map.1 hou
      exact ⟨y, hy, Or.inr rfl⟩
    · intro y hy hr
      exact Or.inr ((hmem (unmark y)).2 ⟨List.mem_map_of_mem _ hy, hr⟩)
  · exact ⟨h, rfl, hwf, hcl, fun x hx => ⟨x, hx, Or.inl rfl⟩, fun y hy _ => Or.inl hy⟩

end Heap

namespace Heap

theorem Owns.pointsInto {h : Heap} {v : Value} (hv : h.Owns v) : PointsInto h.addrs v := by
  unfold Owns at hv
  unfold PointsInto
  cases hp : v.pointer with
  | none => trivial
  | some p =>
    rw [hp] at hv
    exact Or.inr hv

theorem NoDangling.closed {h : Heap} {roots : List Value} (hs : h.NoDangling roots) :
    h.Closed roots :=
  ⟨fun v hv => (hs.2.1 v hv).pointsInto, fun o ho hk v hv => (hs.2.2 o ho hk v hv).pointsInto⟩

theorem Owns.of_pointsInto {h h0 : Heap} {v : Value} (hwf : h.Wf) (hv : h.Owns v)
    (hp : PointsInto h0.addrs v) : h0.Owns v := by
  unfold Owns at hv ⊢
  unfold PointsInto at hp
  cases hq : v.pointer with
  | none => trivial
  | some p =>
    rw [hq] at hv hp
    simp only at hv hp ⊢
    rcases hp with hp | hp
    · subst hp
      exact absurd hv hwf.2
    · exact hp

theorem Owns.mono {h h1 : Heap} {v : Value} (hv : h.Owns v) (hsub : ∀ p ∈ h.addrs, p ∈ h1.addrs) :
    h1.Owns v := by
  unfold Owns at hv ⊢
  cases hq : v.pointer with
  | none => trivial
  | some p =>
    rw [hq] at hv
    exact hsub p hv

theorem Owns.of_addrs {h h1 : Heap} {v : Value} (hv : h.Owns v) (he : h1.addrs = h.addrs) :
    h1.Owns v := by
  unfold Owns at hv ⊢
  rw [he]
  exact hv

/-- What `MaybeCollect` leaves of a heap without dangling pointers. -/
theorem MaybeCollect_noDangling (h : Heap) (S : Nat) (roots : List Value)
    (hs : h.NoDangling roots) :
    ∃ h0, MaybeCollect h S roots = .ok h0 ∧ h0.NoDangling roots ∧
      (∀ x ∈ h0.objects_, ∃ y ∈ h.objects_, x = y ∨ x = unmark y) ∧
      (∀ y ∈ h.objects_, Reachable h roots y.1 → y ∈ h0.objects_ ∨ unmark y ∈ h0.objects_) := by
  obtain ⟨h0, hm, hwf0, hcl0, hold, hkeep⟩ := MaybeCollect_heap h S roots hs.1 hs.closed
  refine ⟨h0, hm, ⟨hwf0, fun v hv => (hs.2.1 v hv).of_pointsInto hs.1 (hcl0.1 v hv), ?_⟩,
    hold, hkeep⟩
  intro o ho hk v hv
  obtain ⟨y, hy, hxy⟩ := hold o ho
  have hk2 : y.2.kind = .kArray := by
    rcases hxy with rfl | rfl
    · exact hk
    · exact hk
  have hv2 : v ∈ y.2.elements := by
    rcases hxy with rfl | rfl
    · exact hv
    · exact hv
  exact (hs.2.2 y hy hk2 v hv2).of_pointsInto hs.1 (hcl0.2 o ho hk v hv)

theorem mem_addrs_of_mem {h : Heap} {x : Nat × HeapObject} (hx : x ∈ h.objects_) :
    x.1 ∈ h.addrs := List.mem_map_of_mem _ hx

theorem Owns.reachable {h : Heap} {roots : List Value} (hwf : h.Wf) {v : Value} (hv : v ∈ roots)
    (ho : h.Owns v) (p : Nat) (hp : v.pointer = some p) : Reachable h roots p := by
  unfold Owns at ho
  rw [hp] at ho
  exact Reachable.root v p hv hp (fun h0 => hwf.2 (h0 ▸ ho))

/-- The heap after an allocation: `h0`, which `MaybeCollect` left, with the
object `o` appended at the fresh address `p`. -/
theorem append_noDangling {h0 : Heap} {roots : List Value} (hs : h0.NoDangling roots)
    (p : Nat) (o : HeapObject) (hb : Nat) (hp0 : p ≠ 0) (hp : p ∉ h0.addrs)
    (ho : ∀ v ∈ o.elements, v.pointer = none) :
    ({ h0 with objects_ := h0.objects_ ++ [(p, o)], heap_bytes_ := hb } : Heap).NoDangling
      roots := by
  have ha : ({ h0 with objects_ := h0.objects_ ++ [(p, o)], heap_bytes_ := hb } : Heap).addrs =
      h0.addrs ++ [p] := by
    simp [addrs]
  have hsub : ∀ q ∈ h0.addrs,
      q ∈ ({ h0 with objects_ := h0.objects_ ++ [(p, o)], heap_bytes_ := hb } : Heap).addrs := by
    intro q hq
    rw [ha]
    exact List.mem_append_left _ hq
  refine ⟨⟨?_, ?_⟩, fun v hv => (hs.2.1 v hv).mono hsub, ?_⟩
  · rw [ha]
    exact List.Nodup.append hs.1.1 (List.nodup_singleton p)
      (by
        intro q hq hq2
        rw [List.mem_singleton] at hq2
        subst hq2
        exact hp hq)
  · rw [ha]
    intro h0m
    rcases List.mem_append.1 h0m with h1 | h1
    · exact hs.1.2 h1
    · rw [List.mem_singleton] at h1
      exact hp0 h1.symm
  · intro x hx hk v hv
    simp only [List.mem_append, List.mem_singleton] at hx
    rcases hx with hx | hx
    · exact (hs.2.2 x hx hk v hv).mono hsub
    · subst hx
      unfold Owns
      rw [ho v hv]
      trivial

theorem deref_append_right {a b : List (Nat × HeapObject)} {q : Nat} (hq : q ∉ a.map Prod.fst) :
    deref (a ++ b) q = deref b q := by
  unfold deref
  rw [List.find?_append]
  have : a.find? (fun o => decide (o.1 = q)) = none := by
    rw [List.find?_eq_none]
    intro x hx hxq
    simp only [decide_eq_true_eq] at hxq
    exact hq (List.mem_map.2 ⟨x, hx, hxq⟩)
  rw [this]
  rfl

theorem deref_append_left {a b : List (Nat × HeapObject)} {q : Nat} (hq : q ∈ a.map Prod.fst) :
    deref (a ++ b) q = deref a q := by
  obtain ⟨o, ho⟩ := deref_isSome_of_mem hq
  unfold deref at ho ⊢
  rw [List.find?_append]
  cases hf : a.find? (fun o => decide (o.1 = q)) with
  | none => rw [hf] at ho; cases ho
  | some x => rfl

theorem elementsAt_unmark_eq {h h0 : Heap} (hn : h.addrs.Nodup) (hn0 : h0.addrs.Nodup)
    {x y : Nat × HeapObject} (hx : x ∈ h0.objects_) (hy : y ∈ h.objects_)
    (hxy : x = y ∨ x = unmark y) :
    elementsAt h0 x.1 = elementsAt h y.1 ∧ stringAt h0 x.1 = stringAt h y.1 := by
  rw [elementsAt_of_mem hn0 (o := x.2) hx, elementsAt_of_mem hn (o := y.2) hy,
    stringAt_of_mem hn0 (o := x.2) hx, stringAt_of_mem hn (o := y.2) hy]
  rcases hxy with rfl | rfl
  · exact ⟨rfl, rfl⟩
  · exact ⟨rfl, rfl⟩

/-- The heap `h0` that `MaybeCollect` left, with the object `o` appended at
the fresh address `p`, read through the pointers of `h0` and through `p`. -/
theorem append_reads (h h0 : Heap) (hwf : h.Wf) (hwf0 : h0.Wf)
    (hold : ∀ x ∈ h0.objects_, ∃ y ∈ h.objects_, x = y ∨ x = unmark y)
    (p : Nat) (o : HeapObject) (hb : Nat) (hp : p ∉ h0.addrs) :
    deref ({ h0 with objects_ := h0.objects_ ++ [(p, o)], heap_bytes_ := hb } : Heap).objects_ p
      = some o ∧
    (∀ q ∈ h0.addrs,
      elementsAt { h0 with objects_ := h0.objects_ ++ [(p, o)], heap_bytes_ := hb } q =
        elementsAt h q ∧
      stringAt { h0 with objects_ := h0.objects_ ++ [(p, o)], heap_bytes_ := hb } q =
        stringAt h q) ∧
    (∀ q ∈ h0.addrs, q ∈ h.addrs) := by
  refine ⟨?_, ?_, ?_⟩
  · simp only
    rw [deref_append_right hp]
    simp [deref]
  · intro q hq
    have e1 : elementsAt { h0 with objects_ := h0.objects_ ++ [(p, o)], heap_bytes_ := hb } q =
        elementsAt h0 q := by
      unfold elementsAt
      simp only
      rw [deref_append_left hq]
    have e2 : stringAt { h0 with objects_ := h0.objects_ ++ [(p, o)], heap_bytes_ := hb } q =
        stringAt h0 q := by
      unfold stringAt
      simp only
      rw [deref_append_left hq]
    rw [e1, e2]
    obtain ⟨x, hx, rfl⟩ := List.mem_map.1 hq
    obtain ⟨y, hy, hxy⟩ := hold x hx
    have hfst : x.1 = y.1 := by
      rcases hxy with rfl | rfl
      · rfl
      · rfl
    have := elementsAt_unmark_eq hwf.1 hwf0.1 hx hy hxy
    rw [← hfst] at this
    exact this
  · intro q hq
    obtain ⟨x, hx, rfl⟩ := List.mem_map.1 hq
    obtain ⟨y, hy, hxy⟩ := hold x hx
    rcases hxy with rfl | rfl
    · exact mem_addrs_of_mem hy
    · exact mem_addrs_of_mem (x := y) hy

theorem roots_kept {h h0 : Heap} {roots : List Value} (hs : h.NoDangling roots)
    (hkeep : ∀ y ∈ h.objects_, Reachable h roots y.1 → y ∈ h0.objects_ ∨ unmark y ∈ h0.objects_)
    (v : Value) (hv : v ∈ roots) (q : Nat) (hq : v.pointer = some q) : q ∈ h0.addrs := by
  have ho := hs.2.1 v hv
  have hr := ho.reachable hs.1 hv q hq
  unfold Owns at ho
  rw [hq] at ho
  obtain ⟨y, hy, rfl⟩ := List.mem_map.1 ho
  rcases hkeep y hy hr with h1 | h1
  · exact mem_addrs_of_mem h1
  · exact mem_addrs_of_mem (x := unmark y) h1

theorem AllocateArray_noDangling (P : Platform) (hP : P.Sound) (h : Heap) (n : Nat)
    (roots : List Value) (hs : h.NoDangling roots) :
    ∃ p h0 h1, AllocateArray P h n roots = .ok (p, h1) ∧
      MaybeCollect h ((P.sizeofArrayObject + (P.sizeofValue * n) % 2 ^ 64) % 2 ^ 64) roots
        = .ok h0 ∧
      h0.NoDangling roots ∧ p ≠ 0 ∧ p ∉ h0.addrs ∧ h1.addrs = h0.addrs ++ [p] ∧
      h1.NoDangling roots ∧ elementsAt h1 p = .ok (List.replicate n Value.null) ∧
      (∀ q ∈ h0.addrs, elementsAt h1 q = elementsAt h q ∧ stringAt h1 q = stringAt h q) ∧
      (∀ q ∈ h0.addrs, q ∈ h.addrs) ∧
      (∀ v ∈ roots, ∀ q, v.pointer = some q → q ∈ h0.addrs) := by
  obtain ⟨h0, hm, hs0, hold, hkeep⟩ := MaybeCollect_noDangling h
    ((P.sizeofArrayObject + (P.sizeofValue * n) % 2 ^ 64) % 2 ^ 64) roots hs
  obtain ⟨hp0, hpn⟩ := hP (h0.objects_.map Prod.fst)
  have hnull : ∀ v ∈ List.replicate n Value.null, v.pointer = none := by
    intro v hv
    rw [List.eq_of_mem_replicate hv]
    rfl
  obtain ⟨r1, r2, r3⟩ := append_reads h h0 hs.1 hs0.1 hold (P.newAddr (h0.objects_.map Prod.fst))
    { kind := .kArray, marked := false,
      size_bytes := (P.sizeofArrayObject + (P.sizeofValue * n) % 2 ^ 64) % 2 ^ 64, value := [],
      elements := List.replicate n Value.null }
    ((h0.heap_bytes_ + (P.sizeofArrayObject + (P.sizeofValue * n) % 2 ^ 64) % 2 ^ 64) % 2 ^ 64) hpn
  refine ⟨_, h0, _, ?_, hm, hs0, hp0, hpn, ?_, ?_, ?_, r2, r3, roots_kept hs hkeep⟩
  · unfold AllocateArray
    simp only [hm, bind, Except.bind]
  · simp [addrs]
  · exact append_noDangling hs0 _ _ _ hp0 hpn hnull
  · unfold elementsAt
    rw [r1]
    rfl

theorem AllocateString_noDangling (P : Platform) (hP : P.Sound) (h : Heap) (s : List Nat)
    (roots : List Value) (hs : h.NoDangling roots) :
    ∃ p h0 h1, AllocateString P h s roots = .ok (p, h1) ∧
      MaybeCollect h ((P.sizeofStringObject + s.length) % 2 ^ 64) roots = .ok h0 ∧
      h0.NoDangling roots ∧ p ≠ 0 ∧ p ∉ h0.addrs ∧ h1.addrs = h0.addrs ++ [p] ∧
      h1.NoDangling roots ∧ stringAt h1 p = .ok s ∧
      (∀ q ∈ h0.addrs, elementsAt h1 q = elementsAt h q ∧ stringAt h1 q = stringAt h q) ∧
      (∀ q ∈ h0.addrs, q ∈ h.addrs) ∧
      (∀ v ∈ roots, ∀ q, v.pointer = some q → q ∈ h0.addrs) := by
  obtain ⟨h0, hm, hs0, hold, hkeep⟩ := MaybeCollect_noDangling h
    ((P.sizeofStringObject + s.length) % 2 ^ 64) roots hs
  obtain ⟨hp0, hpn⟩ := hP (h0.objects_.map Prod.fst)
  obtain ⟨r1, r2, r3⟩ := append_reads h h0 hs.1 hs0.1 hold (P.newAddr (h0.objects_.map Prod.fst))
    { kind := .kString, marked := false,
      size_bytes := (P.sizeofStringObject + s.length) % 2 ^ 64, value := s, elements := [] }
    ((h0.heap_bytes_ + (P.sizeofStringObject + s.length) % 2 ^ 64) % 2 ^ 64) hpn
  refine ⟨_, h0, _, ?_, hm, hs0, hp0, hpn, ?_, ?_, ?_, r2, r3, roots_kept hs hkeep⟩
  · unfold AllocateString
    simp only [hm, bind, Except.bind]
  · simp [addrs]
  · exact append_noDangling hs0 _ _ _ hp0 hpn (fun v hv => by cases hv)
  · unfold stringAt
    rw [r1]
    rfl

end Heap

/-! ## The interpreter: built-ins, calls and returns -/

namespace Vm

theorem pop_nil (m : BytecodeModule) (h : Heap) (c g : List Value) (gs : List Nat)
    (f : List CallFrame) (t : List Value) (e hc : List Nat) (cc : List (Nat × CompiledFunc))
    (co : List Printed) :
    pop ⟨m, h, c, [], g, gs, f, t, e, hc, cc, co⟩ =
      Res.throw "stack underflow" ⟨m, h, c, [], g, gs, f, t, e, hc, cc, co⟩ := rfl

theorem le_foldl_max (l : List Nat) (a x : Nat) (h : x ∈ l ∨ x ≤ a) : x ≤ l.foldl max a := by
  induction l generalizing a with
  | nil =>
    rcases h with h | h
    · cases h
    · exact h
  | cons y rest ih =>
    simp only [List.foldl_cons]
    apply ih
    rcases h with h | h
    · rcases List.mem_cons.1 h with h | h
      · exact Or.inr (by rw [h]; exact le_max_right _ _)
      · exact Or.inl h
    · exact Or.inr (le_trans h (le_max_left _ _))

theorem lp64_sound : lp64.Sound := by
  intro used
  refine ⟨Nat.succ_ne_zero _, fun h => ?_⟩
  have := le_foldl_max used 0 _ (Or.inl h)
  simp only [lp64] at this
  omega

theorem drop_set_self (es : List Value) (n : Nat) (v : Value) (h : n < es.length) :
    (es.set n v).drop n = v :: es.drop (n + 1) := by
  induction es generalizing n with
  | nil => cases h
  | cons x rest ih =>
    cases n with
    | zero => rfl
    | succ n =>
      simp only [List.set_cons_succ, List.drop_succ_cons]
      exact ih n (by simpa using h)

end Vm

namespace Vm

theorem calm_refl (vm : Vm) : Calm vm vm := ⟨quiet_refl vm, rfl, rfl⟩

theorem calm_trans {a b c : Vm} (h1 : Calm a b) (h2 : Calm b c) : Calm a c :=
  ⟨quiet_trans h1.1 h2.1, h2.2.1.trans h1.2.1, h2.2.2.trans h1.2.2⟩

theorem calm_bind {α β : Type} {x : VmM α} {f : α → VmM β} (hx : Keeps Calm x)
    (hf : ∀ a, Keeps Calm (f a)) : Keeps Calm (x >>= f) := by
  constructor
  intro vm
  have h1 := hx.rel vm
  rw [bind_apply]
  cases hxv : x vm with
  | ok a vm1 =>
    rw [hxv] at h1
    exact calm_trans h1 ((hf a).rel vm1)
  | throw m vm1 =>
    rw [hxv] at h1
    exact h1

theorem calm_pure {α : Type} (a : α) : Keeps Calm (pure a : VmM α) := ⟨fun vm => calm_refl vm⟩

theorem calm_raise {α : Type} (m : String) : Keeps Calm (raise m : VmM α) :=
  ⟨fun vm => calm_refl vm⟩

theorem calm_self : Keeps Calm self := ⟨fun vm => calm_refl vm⟩

theorem calm_lift {α : Type} (x : Except String α) : Keeps Calm (lift x) := by
  constructor
  intro vm
  cases x <;> exact calm_refl vm

theorem calm_update (f : Vm → Vm) (h : ∀ vm, Calm vm (f vm)) : Keeps Calm (update f) := ⟨h⟩

theorem calm_const_string_view (i : Nat) : Keeps Calm (const_string_view i) := by
  constructor
  intro vm
  unfold const_string_view
  repeat' split
  all_goals exact calm_refl vm

theorem calm_func_name_view (i : Nat) : Keeps Calm (func_name_view i) := by
  constructor
  intro vm
  unfold func_name_view
  split
  · exact calm_refl vm
  · exact (calm_const_string_view _).rel vm

theorem calm_builtin_print (args : List Value) : Keeps Calm (builtin_print args) := by
  unfold builtin_print
  repeat' first
    | exact calm_raise _ | exact calm_pure _ | exact calm_self | exact calm_lift _
    | exact calm_update _ (fun vm => calm_refl vm)
    | apply calm_bind
    | split
    | intro _

theorem calm_builtin_len (args : List Value) : Keeps Calm (builtin_len args) := by
  unfold builtin_len
  repeat' first
    | exact calm_raise _ | exact calm_pure _ | exact calm_self | exact calm_lift _
    | exact calm_update _ (fun vm => calm_refl vm)
    | apply calm_bind
    | split
    | intro _

theorem calm_builtin_new_array_bool (P : Platform) (args : List Value) :
    Keeps Calm (builtin_new_array_bool P args) := by
  unfold builtin_new_array_bool
  repeat' first
    | exact calm_raise _ | exact calm_pure _ | exact calm_self | exact calm_lift _
    | exact calm_update _ (fun vm => calm_refl vm)
    | apply calm_bind
    | split
    | intro _

theorem calm_builtin_push_int (P : Platform) (args : List Value) :
    Keeps Calm (builtin_push_int P args) := by
  unfold builtin_push_int
  repeat' first
    | exact calm_raise _ | exact calm_pure _ | exact calm_self | exact calm_lift _
    | exact calm_update _ (fun vm => calm_refl vm)
    | apply calm_bind
    | split
    | intro _

/-- A built-in leaves the stack, the frames and the temporary roots as they
are. -/
theorem calm_call_builtin (P : Platform) (name : List Nat) (args : List Value) :
    Keeps Calm (call_builtin P name args) := by
  unfold call_builtin
  repeat' first
    | exact calm_raise _ | exact calm_builtin_print _ | exact calm_builtin_len _
    | exact calm_builtin_new_array_bool _ _ | exact calm_builtin_push_int _ _
    | split

theorem const_string_view_state (i : Nat) (vm : Vm) : (const_string_view i vm).state = vm := by
  unfold const_string_view
  repeat' split
  all_goals rfl

theorem Res.eq_ok_state {α : Type} {r : Res α} {a : α} {vm1 : Vm} (h : r = Res.ok a vm1) :
    r.state = vm1 := by
  rw [h]
  rfl

theorem func_name_view_state (i : Nat) (vm : Vm) : (func_name_view i vm).state = vm := by
  unfold func_name_view
  split
  · rfl
  · exact const_string_view_state _ _

end Vm

namespace Vm

/-- The loop of `call_function` on a stack that ends in the `n` arguments:
they are popped into the slots `n - 1` down to 0. -/
theorem pop_args_eq (n : Nat) (locals : List Value) (vm : Vm) (s args : List Value)
    (hs : vm.stack_ = s ++ args) (hn : args.length = n) (hle : n ≤ locals.length) :
    pop_args n locals vm = Res.ok (args ++ locals.drop n) { vm with stack_ := s } := by
  induction n generalizing vm args locals with
  | zero =>
    have : args = [] := List.length_eq_zero.1 hn
    subst this
    simp only [List.append_nil] at hs
    rw [← hs]
    rfl
  | succ n ih =>
    rcases List.eq_nil_or_concat args with h0 | ⟨a1, v, h0⟩
    · subst h0
      cases hn
    rw [List.concat_eq_append] at h0
    subst h0
    have hn1 : a1.length = n := by simpa using hn
    obtain ⟨m, h, c, st, g, gs, f, t, e, hc, cc, co⟩ := vm
    simp only at hs
    rw [← List.append_assoc] at hs
    subst hs
    unfold pop_args
    simp only [bind_apply, pop_mk]
    rw [if_pos (by omega)]
    rw [ih (locals.set n v) ⟨m, h, c, s ++ a1, g, gs, f, t, e, hc, cc, co⟩ a1 rfl hn1
      (by rw [List.length_set]; omega)]
    subst hn1
    rw [drop_set_self locals a1.length v (by omega)]
    simp only [List.append_assoc, List.singleton_append]

/-- The first round of the loop of `call_function` when there are more
arguments than locals: the assignment is past the end of `callee.locals`. -/
theorem pop_args_oob (i : Nat) (locals : List Value) (vm : Vm) (s : List Value) (v : Value)
    (hs : vm.stack_ = s ++ [v]) (hi : locals.length ≤ i) :
    pop_args (i + 1) locals vm = Res.throw oobMsg { vm with stack_ := s } := by
  obtain ⟨m, h, c, st, g, gs, f, t, e, hc, cc, co⟩ := vm
  simp only at hs
  subst hs
  unfold pop_args
  simp only [bind_apply, pop_mk]
  rw [if_neg (by omega)]
  rfl

theorem frame_eq (vm : Vm) (fs : List CallFrame) (f : CallFrame) (h : vm.frames_ = fs ++ [f]) :
    frame vm = Res.ok f vm := by
  unfold frame
  rw [h, List.getLast?_concat]

/-- `call_function` for a function of the module that is no built-in and
has at least as many locals as parameters, on a stack that ends in the
arguments. -/
theorem call_function_eq (P : Platform) (vm : Vm) (f argc : Nat) (fn : FunctionInfo)
    (s args : List Value) (fs : List CallFrame) (caller : CallFrame)
    (hf : vm.module_.functions.get? f = some fn) (hb : fn.entry_ip ≠ kBuiltinEntryIp)
    (hargc : argc = fn.param_count) (hloc : argc ≤ fn.local_count)
    (hs : vm.stack_ = s ++ args) (hn : args.length = argc) (hfr : vm.frames_ = fs ++ [caller])
    (hlen : vm.stack_.length < 2 ^ 64) :
    call_function P f argc vm =
      Res.ok () { (maybe_jit_compile f vm) with
        stack_ := s,
        frames_ := vm.frames_ ++
          [{ func_index := f, ip := fn.entry_ip % 2 ^ 32, return_ip := caller.ip,
             base_stack_size := s.length,
             locals := args ++ List.replicate (fn.local_count - argc) Value.null }] } := by
  obtain ⟨hc, cc, hm⟩ := maybe_jit_compile_eq f vm
  unfold call_function
  simp only [bind_apply, self_apply, hf]
  rw [if_neg (not_not.mpr hargc), if_neg hb]
  simp only [bind_apply, update_apply, hm]
  rw [frame_eq { vm with hot_counters_ := hc, code_cache_ := cc } fs caller hfr]
  simp only [self_apply]
  rw [pop_args_eq argc (List.replicate fn.local_count Value.null)
    { vm with hot_counters_ := hc, code_cache_ := cc } s args hs hn (by simpa using hloc)]
  simp only [update_apply, List.drop_replicate]
  have hbase : (vm.stack_.length + 2 ^ 64 - argc) % 2 ^ 64 = s.length := by
    have h1 : vm.stack_.length = s.length + argc := by rw [hs, List.length_append, hn]
    rw [h1] at hlen ⊢
    have : s.length + argc + 2 ^ 64 - argc = s.length + 2 ^ 64 := by omega
    rw [this, Nat.add_mod_right, Nat.mod_eq_of_lt (by omega)]
  rw [hbase]

end Vm

namespace Vm

theorem is_void_return_state (i : Nat) (vm : Vm) : (is_void_return i vm).state = vm := by
  unfold is_void_return
  repeat' split
  all_goals rfl

/-- `ret_from_function` once the frame at the back is known and
`is_void_return` has returned. -/
theorem ret_from_function_eq (vm : Vm) (fs : List CallFrame) (fin : CallFrame) (void : Bool)
    (hfr : vm.frames_ = fs ++ [fin])
    (hv : is_void_return fin.func_index vm = Res.ok void vm) :
    ret_from_function vm =
      match (if void then Res.ok Value.null vm else pop vm) with
      | Res.throw m vm1 => Res.throw m vm1
      | Res.ok ret vm1 =>
        if vm1.stack_.length < fin.base_stack_size then Res.throw "stack corrupted on return" vm1
        else
          match fs.getLast? with
          | none => Res.ok () { vm1 with
              stack_ := vm1.stack_.take fin.base_stack_size ++
                List.replicate (fin.base_stack_size - vm1.stack_.length) Value.null,
              frames_ := fs }
          | some caller => Res.ok () { vm1 with
              stack_ := vm1.stack_.take fin.base_stack_size ++
                List.replicate (fin.base_stack_size - vm1.stack_.length) Value.null ++
                (if void then [] else [ret]),
              frames_ := fs.dropLast ++ [{ caller with ip := fin.return_ip }] } := by
  have hq := quiet_pop.rel vm
  unfold ret_from_function
  simp only [bind_apply, self_apply, hfr, List.getLast?_concat, hv]
  cases void with
  | true =>
    simp only [Bool.not_true, Bool.false_eq_true, if_false, pure_apply, if_true, self_apply,
      bind_apply, ite_apply, raise_apply, update_apply, hfr, List.dropLast_concat]
    by_cases hlt : vm.stack_.length < fin.base_stack_size
    · simp only [if_pos hlt, raise_apply]
    · simp only [if_neg hlt, bind_apply, update_apply, self_apply, hfr, List.dropLast_concat]
      cases hl : fs.getLast? with
      | none => simp only [pure_apply]
      | some caller =>
        simp only [setFrame, update_apply, bind_apply, pure_apply, List.append_nil,
          List.dropLast_concat]
  | false =>
    simp only [Bool.not_false, if_true, Bool.false_eq_true, if_false, bind_apply]
    cases hp : pop vm with
    | throw m vm1 => rfl
    | ok ret vm1 =>
      rw [hp] at hq
      have hf1 : vm1.frames_ = fs ++ [fin] := by rw [← hfr]; exact hq.2.2.2.2.1
      simp only [self_apply, bind_apply, ite_apply, raise_apply, update_apply, hf1,
        List.dropLast_concat]
      by_cases hlt : vm1.stack_.length < fin.base_stack_size
      · simp only [if_pos hlt, raise_apply]
      · simp only [if_neg hlt, bind_apply, update_apply, self_apply, hf1, List.dropLast_concat]
        cases hl : fs.getLast? with
        | none => simp only [pure_apply]
        | some caller =>
          simp only [setFrame, update_apply, bind_apply, push, List.dropLast_concat]

theorem pop_inv (vm vm1 : Vm) (v : Value) (h : pop vm = Res.ok v vm1) :
    ∃ s, vm.stack_ = s ++ [v] ∧ vm1 = { vm with stack_ := s } := by
  rcases List.eq_nil_or_concat vm.stack_ with h0 | ⟨s, w, h0⟩
  · unfold pop at h
    simp only [h0, List.getLast?_nil] at h
    cases h
  · rw [List.concat_eq_append] at h0
    unfold pop at h
    simp only [h0, List.getLast?_concat, List.dropLast_concat] at h
    cases h
    exact ⟨s, h0, rfl⟩

/-- What a `RET` that returns has done. -/
theorem ret_from_function_inv (vm vm1 : Vm) (fs : List CallFrame) (fin : CallFrame)
    (hfr : vm.frames_ = fs ++ [fin]) (hr : ret_from_function vm = Res.ok () vm1) :
    ∃ void, is_void_return fin.func_index vm = Res.ok void vm ∧
      (∀ fn, fin.func_index ≠ kGlobalFuncIndex →
        vm.module_.functions.get? fin.func_index = some fn →
        void = decide (fn.return_type = .kVoid)) ∧
      fin.base_stack_size ≤ vm.stack_.length ∧
      vm1.stack_.take fin.base_stack_size = vm.stack_.take fin.base_stack_size ∧
      (void = true ∨ fs = [] → vm1.stack_.length = fin.base_stack_size) ∧
      (void = false → fs ≠ [] →
        vm1.stack_.length = fin.base_stack_size + 1 ∧
        vm1.stack_.getLast? = vm.stack_.getLast?) := by
  have hst := is_void_return_state fin.func_index vm
  cases hv : is_void_return fin.func_index vm with
  | throw m vm2 =>
    unfold ret_from_function at hr
    simp only [bind_apply, self_apply, hfr, List.getLast?_concat, hv] at hr
    cases hr
  | ok void vm2 =>
    rw [hv] at hst
    simp only [Res.state] at hst
    subst hst
    refine ⟨void, rfl, ?_, ?_⟩
    · intro fn hg hfn
      unfold is_void_return at hv
      rw [if_neg hg, hfn] at hv
      cases hv
      rfl
    rw [ret_from_function_eq vm2 fs fin void hfr hv] at hr
    cases void with
    | true =>
      simp only [if_true] at hr
      by_cases hlt : vm2.stack_.length < fin.base_stack_size
      · rw [if_pos hlt] at hr
        cases hr
      · rw [if_neg hlt] at hr
        have hz : fin.base_stack_size - vm2.stack_.length = 0 := by omega
        cases hl : fs.getLast? with
        | none =>
          rw [hl] at hr
          cases hr
          simp only [hz, List.replicate_zero, List.append_nil, List.take_take, min_self,
            List.length_take, true_or, forall_const, false_implies, and_true, true_and]
          simp only [Bool.true_eq_false, false_implies, and_true]
          omega
        | some caller =>
          rw [hl] at hr
          cases hr
          simp only [hz, List.replicate_zero, List.append_nil, List.take_take, min_self,
            List.length_take, true_or, forall_const, false_implies, and_true, true_and]
          simp only [Bool.true_eq_false, false_implies, and_true]
          omega
    | false =>
      simp only [Bool.false_eq_true, if_false] at hr
      cases hp : pop vm2 with
      | throw m vm3 =>
        rw [hp] at hr
        cases hr
      | ok ret vm3 =>
        rw [hp] at hr
        obtain ⟨s, hs, rfl⟩ := pop_inv vm2 vm3 ret hp
        simp only at hr
        by_cases hlt : s.length < fin.base_stack_size
        · rw [if_pos hlt] at hr
          cases hr
        · rw [if_neg hlt] at hr
          have hz : fin.base_stack_size - s.length = 0 := by omega
          have htake : (s ++ [ret]).take fin.base_stack_size = s.take fin.base_stack_size := by
            rw [List.take_append_of_le_length (by omega)]
          cases hl : fs.getLast? with
          | none =>
            rw [hl] at hr
            cases hr
            have hfs : fs = [] := List.getLast?_eq_none_iff.1 hl
            simp only [hs, hz, List.replicate_zero, List.append_nil, List.take_take, min_self,
              List.length_take, List.length_append, List.length_singleton, htake]
            refine ⟨by omega, trivial, fun _ => by omega, fun _ h => absurd hfs h⟩
          | some caller =>
            rw [hl] at hr
            cases hr
            have hfs : fs ≠ [] := by
              intro h
              rw [h] at hl
              cases hl
            simp only [hs, hz, List.replicate_zero, List.append_nil, List.length_take,
              List.length_append, List.length_singleton, htake, List.getLast?_concat]
            refine ⟨by omega, ?_, ?_, fun _ _ => ⟨by omega, trivial⟩⟩
            · rw [List.take_append_of_le_length (by simp; omega), List.take_take, min_self]
            · rintro (h | h)
              · cases h
              · exact absurd h hfs

theorem bases_dropLast_caller (fs : List CallFrame) (caller g : CallFrame)
    (hl : fs.getLast? = some caller) (hg : g.base_stack_size = caller.base_stack_size) :
    (fs.dropLast ++ [g]).map (fun x => x.base_stack_size) =
      fs.map (fun x => x.base_stack_size) := by
  rcases List.eq_nil_or_concat fs with h0 | ⟨fs1, c, h0⟩
  · subst h0
    cases hl
  · rw [List.concat_eq_append] at h0
    subst h0
    rw [List.getLast?_concat] at hl
    cases hl
    simp [List.dropLast_concat, hg]

/-- The frames that a `RET` that returns leaves: the frame at the back is
gone, and no other frame has changed its `base_stack_size`. -/
theorem ret_from_function_frames (vm vm1 : Vm) (fs : List CallFrame) (fin : CallFrame)
    (hfr : vm.frames_ = fs ++ [fin]) (hr : ret_from_function vm = Res.ok () vm1) :
    vm1.frames_.map (fun x => x.base_stack_size) = fs.map (fun x => x.base_stack_size) := by
  have hst := is_void_return_state fin.func_index vm
  cases hv : is_void_return fin.func_index vm with
  | throw m vm2 =>
    unfold ret_from_function at hr
    simp only [bind_apply, self_apply, hfr, List.getLast?_concat, hv] at hr
    cases hr
  | ok void vm2 =>
    rw [hv] at hst
    simp only [Res.state] at hst
    subst hst
    rw [ret_from_function_eq vm2 fs fin void hfr hv] at hr
    cases hp : (if void = true then Res.ok Value.null vm2 else pop vm2) with
    | throw m vm3 =>
      rw [hp] at hr
      cases hr
    | ok ret vm3 =>
      rw [hp] at hr
      simp only at hr
      split at hr
      · cases hr
      · cases hl : fs.getLast? with
        | none =>
          rw [hl] at hr
          cases hr
          rfl
        | some caller =>
          rw [hl] at hr
          cases hr
          exact bases_dropLast_caller fs caller _ hl rfl

end Vm

/-! ## Claim about the calling convention -/

namespace Vm

/-- `call_function` for a function of the module that is no built-in and
has fewer locals than parameters, on a stack that is not empty: the first
argument popped is assigned past the end of `callee.locals`. -/
theorem call_function_oob (P : Platform) (vm : Vm) (f argc : Nat) (fn : FunctionInfo)
    (s : List Value) (v : Value) (fs : List CallFrame) (caller : CallFrame)
    (hf : vm.module_.functions.get? f = some fn) (hb : fn.entry_ip ≠ kBuiltinEntryIp)
    (hargc : argc = fn.param_count) (hloc : fn.local_count < argc)
    (hs : vm.stack_ = s ++ [v]) (hfr : vm.frames_ = fs ++ [caller]) :
    call_function P f argc vm = Res.throw oobMsg { (maybe_jit_compile f vm) with stack_ := s } := by
  obtain ⟨hc, cc, hm⟩ := maybe_jit_compile_eq f vm
  obtain ⟨i, rfl⟩ : ∃ i, argc = i + 1 := ⟨argc - 1, by omega⟩
  unfold call_function
  simp only [bind_apply, self_apply, hf]
  rw [if_neg (not_not.mpr hargc), if_neg hb]
  simp only [bind_apply, update_apply, hm]
  rw [frame_eq { vm with hot_counters_ := hc, code_cache_ := cc } fs caller hfr]
  simp only [self_apply]
  rw [pop_args_oob i (List.replicate fn.local_count Value.null)
    { vm with hot_counters_ := hc, code_cache_ := cc } s v hs (by simp; omega)]

/-- C23. Calling convention for user functions, and where the code leaves
it. For a function that is no built-in, called with `argc == param_count`
arguments on top of the stack, `call_function` pushes a frame as the claim
says when `param_count <= local_count`: locals of length `local_count`, the
arguments in the slots 0 to `argc - 1`, null in the rest, `ip` the entry,
`return_ip` the ip of the caller, `base_stack_size` the depth without the
arguments, and the stack loses the arguments. When
`param_count > local_count` the loop assigns to `callee.locals[argc - 1]`
past the end of the vector. `ValidateModule` accepts such a module:
`badLocalsModule`, whose `f` has one parameter and no local, is validated,
the constructor builds its Vm, and `run` reaches the assignment. -/
theorem call_writes_past_locals :
    ValidateModule badLocalsModule = .ok () ∧
    create lp64 badLocalsModule = .ok (fSevenVm badLocalsModule 4) ∧
    (run lp64 10 (fSevenVm badLocalsModule 4)).message = some oobMsg ∧
    (∀ (P : Platform) (vm : Vm) (f argc : Nat) (fn : FunctionInfo) (s : List Value) (v : Value)
      (fs : List CallFrame) (caller : CallFrame),
      vm.module_.functions.get? f = some fn → fn.entry_ip ≠ kBuiltinEntryIp →
      argc = fn.param_count → fn.local_count < argc → vm.stack_ = s ++ [v] →
      vm.frames_ = fs ++ [caller] →
      call_function P f argc vm =
        Res.throw oobMsg { (maybe_jit_compile f vm) with stack_ := s }) ∧
    (∀ (P : Platform) (vm : Vm) (f argc : Nat) (fn : FunctionInfo) (s args : List Value)
      (fs : List CallFrame) (caller : CallFrame),
      vm.module_.functions.get? f = some fn → fn.entry_ip ≠ kBuiltinEntryIp →
      argc = fn.param_count → argc ≤ fn.local_count → vm.stack_ = s ++ args →
      args.length = argc → vm.frames_ = fs ++ [caller] → vm.stack_.length < 2 ^ 64 →
      call_function P f argc vm =
        Res.ok () { (maybe_jit_compile f vm) with
          stack_ := s,
          frames_ := vm.frames_ ++
            [{ func_index := f, ip := fn.entry_ip % 2 ^ 32, return_ip := caller.ip,
               base_stack_size := s.length,
               locals := args ++ List.replicate (fn.local_count - argc) Value.null }] }) :=
  ⟨by decide!, by decide!, by decide!,
    fun P vm f argc fn s v fs caller hf hb hargc hloc hs hfr =>
      call_function_oob P vm f argc fn s v fs caller hf hb hargc hloc hs hfr,
    fun P vm f argc fn s args fs caller hf hb hargc hloc hs hn hfr hlen =>
      call_function_eq P vm f argc fn s args fs caller hf hb hargc hloc hs hn hfr hlen⟩

end Vm

/-! ## Claim about the stack depth after RET -/

namespace Vm

/-- C24. Stack depth after RET. Let `RET` return, the frame at the back of
`frames_` being `fin`. Then `is_void_return` has returned `void` (for a
function of the module: whether its declared return type is void); the
stack was at least `fin.base_stack_size` deep, and below that depth it is
unchanged; if `void`, or if no frame is left, the depth is now
`fin.base_stack_size`; otherwise it is `fin.base_stack_size + 1` and the
value on top is the one that was on top, the returned value. The depth is
not `base_stack_size - argc`: `call_function` has already taken the `argc`
arguments off before it records the depth as `base_stack_size`. -/
theorem ret_stack_depth (vm vm1 : Vm) (fs : List CallFrame) (fin : CallFrame)
    (hfr : vm.frames_ = fs ++ [fin]) (hr : ret_from_function vm = Res.ok () vm1) :
    ∃ void, is_void_return fin.func_index vm = Res.ok void vm ∧
      (∀ fn, fin.func_index ≠ kGlobalFuncIndex →
        vm.module_.functions.get? fin.func_index = some fn →
        void = decide (fn.return_type = .kVoid)) ∧
      fin.base_stack_size ≤ vm.stack_.length ∧
      vm1.stack_.take fin.base_stack_size = vm.stack_.take fin.base_stack_size ∧
      (void = true ∨ fs = [] → vm1.stack_.length = fin.base_stack_size) ∧
      (void = false → fs ≠ [] →
        vm1.stack_.length = fin.base_stack_size + 1 ∧
        vm1.stack_.getLast? = vm.stack_.getLast?) := by
  exact ret_from_function_inv vm vm1 fs fin hfr hr

theorem ret_stack_depth_witness :
    ∃ void,
      is_void_return 0 retVm = Res.ok void retVm ∧
      (ret_from_function retVm).state.stack_.take 1 = retVm.stack_.take 1 ∧
      (void = true → (ret_from_function retVm).state.stack_.length = 1) :=
  let ⟨void, hv, _, _, ht, hl, _⟩ :=
    ret_stack_depth retVm (ret_from_function retVm).state
      [{ func_index := kGlobalFuncIndex, ip := 3, return_ip := 0, base_stack_size := 0,
         locals := [] }]
      { func_index := 0, ip := 4, return_ip := 3, base_stack_size := 1,
        locals := [Value.int (BigInt.ofLimbs false [7])] } rfl (by decide!)
  ⟨void, hv, ht, fun h => hl (Or.inl h)⟩

/-- The claim C24 as it is worded fails on `retModule`, which is validated:
when its void function `f`, of one parameter, is about to return, its frame
has `base_stack_size` 1; `RET` returns and leaves the stack 1 deep, and
`base_stack_size - argc` is 0. -/
theorem ret_stack_depth_counterexample :
    ValidateModule retModule = .ok () ∧
    create lp64 retModule = .ok (fSevenVm retModule 5) ∧
    plain_rounds lp64 3 (run_reset (fSevenVm retModule 5)) = some retVm ∧
    ∃ fin fn, retVm.frames_.getLast? = some fin ∧
      retVm.module_.functions.get? fin.func_index = some fn ∧ fn.return_type = .kVoid ∧
      (ret_from_function retVm).returned = true ∧
      (ret_from_function retVm).state.stack_.length = 1 ∧
      fin.base_stack_size - fn.param_count = 0 :=
  ⟨by decide!, by decide!, by decide!,
    { func_index := 0, ip := 4, return_ip := 3, base_stack_size := 1,
      locals := [Value.int (BigInt.ofLimbs false [7])] },
    { name_const_index := 0, param_count := 1, local_count := 1, entry_ip := 4,
      return_type := .kVoid, param_types := [.kInt] },
    by decide!, by decide!, by decide!, by decide!, by decide!, by decide!⟩

end Vm

/-! ## Claim about the stack base of a frame -/

namespace Vm

theorem bases_setFrame (fs : List CallFrame) (f g : CallFrame)
    (h : g.base_stack_size = f.base_stack_size) :
    ((fs ++ [f]).dropLast ++ [g]).map (fun x => x.base_stack_size) =
      (fs ++ [f]).map (fun x => x.base_stack_size) := by
  simp [List.dropLast_concat, h]

theorem bases_H_Jump (ins : Instruction) (vm : Vm) :
    (H_Jump ins vm).state.frames_.map (fun x => x.base_stack_size) =
      vm.frames_.map (fun x => x.base_stack_size) := by
  rw [← Sat_state (H_Jump ins vm)
    (fun vm1 => vm1.frames_.map (fun x => x.base_stack_size) =
      vm.frames_.map (fun x => x.base_stack_size))]
  unfold H_Jump
  simp only [Sat_ite, Sat_raise, Sat_bind, Sat_frame, Sat_self, Sat_setFrame, implies_true,
    true_and]
  intro _ fs f hf _
  rw [hf]
  exact bases_setFrame fs f _ rfl

theorem bases_H_JumpFalse (ins : Instruction) (vm : Vm) :
    (H_JumpFalse ins vm).state.frames_.map (fun x => x.base_stack_size) =
      vm.frames_.map (fun x => x.base_stack_size) := by
  rw [← Sat_state (H_JumpFalse ins vm)
    (fun vm1 => vm1.frames_.map (fun x => x.base_stack_size) =
      vm.frames_.map (fun x => x.base_stack_size))]
  unfold H_JumpFalse
  simp only [Sat_ite, Sat_raise, Sat_bind, Sat_frame, Sat_self, Sat_setFrame, Sat_pop,
    implies_true, true_and]
  intro _ fs f hf _ s v _
  split
  · simp only [Sat_ite, Sat_setFrame, Sat_pure, implies_true, and_true]
    intro _
    rw [hf]
    exact bases_setFrame fs f _ rfl
  · simp only [Sat_raise]

theorem bases_H_StoreLocal (ins : Instruction) (vm : Vm) :
    (H_StoreLocal ins vm).state.frames_.map (fun x => x.base_stack_size) =
      vm.frames_.map (fun x => x.base_stack_size) := by
  rw [← Sat_state (H_StoreLocal ins vm)
    (fun vm1 => vm1.frames_.map (fun x => x.base_stack_size) =
      vm.frames_.map (fun x => x.base_stack_size))]
  unfold H_StoreLocal
  simp only [Sat_ite, Sat_raise, Sat_bind, Sat_frame, Sat_self, Sat_setFrame, Sat_pop,
    implies_true, true_and]
  intro _ fs f hf _ s v _
  rw [hf]
  exact bases_setFrame fs f _ rfl

theorem bases_H_StoreGlobal (ins : Instruction) (vm : Vm) :
    (H_StoreGlobal ins vm).state.frames_ = vm.frames_ := by
  rw [← Sat_state (H_StoreGlobal ins vm) (fun vm1 => vm1.frames_ = vm.frames_)]
  unfold H_StoreGlobal
  have hc := const_string_view_state ins.a vm
  simp only [Sat_ite, Sat_raise, Sat_bind, Sat_self, Sat_pop, Sat_update, implies_true,
    true_and]
  intro _ _
  cases h : const_string_view ins.a vm with
  | throw m vm1 =>
    rw [h] at hc
    simp only [Res.state] at hc
    subst hc
    rfl
  | ok a vm1 =>
    rw [h] at hc
    simp only [Res.state] at hc
    subst hc
    simp only [Sat_ok, Sat_pop, implies_true, and_self]

/-- The loop of `call_function` returns only if the stack holds `n` values,
and then it has popped them and changed nothing else. -/
theorem pop_args_sat (n : Nat) (locals : List Value) (vm : Vm) :
    (pop_args n locals vm).Sat
      (fun _ vm1 => n ≤ vm.stack_.length ∧
        vm1 = { vm with stack_ := vm.stack_.take (vm.stack_.length - n) })
      (fun _ _ => True) := by
  induction n generalizing locals vm with
  | zero =>
    unfold pop_args
    simp only [Sat_pure, Nat.zero_le, Nat.sub_zero, List.take_length, true_and]
  | succ n ih =>
    unfold pop_args
    simp only [Sat_bind, Sat_pop, implies_true, true_and]
    intro s v hs
    simp only [Sat_ite, Sat_raise, implies_true, and_true]
    intro _
    refine Sat_mono (ih _ _) ?_ (fun _ _ _ => trivial)
    intro l vm1 ⟨h1, h2⟩
    simp only at h1 h2
    refine ⟨by rw [hs, List.length_append, List.length_singleton]; omega, ?_⟩
    rw [h2, hs]
    have e : (s ++ [v]).length - (n + 1) = s.length - n := by
      rw [List.length_append, List.length_singleton]
      omega
    rw [e, List.take_append_of_le_length (by omega)]

theorem bases_call_function (P : Platform) (f argc : Nat) (vm : Vm)
    (hlen : vm.stack_.length < 2 ^ 64) :
    (call_function P f argc vm).Sat
      (fun _ vm1 =>
        vm1.frames_.map (fun x => x.base_stack_size) =
          vm.frames_.map (fun x => x.base_stack_size) ∨
        vm1.frames_.map (fun x => x.base_stack_size) =
          vm.frames_.map (fun x => x.base_stack_size) ++ [vm1.stack_.length])
      (fun _ _ => True) := by
  unfold call_function
  simp only [Sat_bind, Sat_self]
  cases hfn : vm.module_.functions.get? f with
  | none => trivial
  | some fn =>
    simp only [Sat_ite, Sat_raise, implies_true, true_and]
    intro _
    constructor
    · intro _
      have hq : Keeps Quiet (peek_args argc >>= fun args => TempRoots args (do
          let name ← func_name_view f
          let out ← call_builtin P name args
          update fun vm => { vm with stack_ := vm.stack_.take (vm.stack_.length - argc) }
          if decide (fn.return_type ≠ .kVoid) = true then push out else pure ())) := by
        repeat' first
          | exact quiet_raise _ | exact quiet_pure _ | exact quiet_push _
          | exact quiet_peek_args _
          | exact quiet_func_name_view _ | exact quiet_call_builtin _ _ _
          | exact quiet_update _ (fun vm => quiet_refl vm)
          | apply quiet_bind
          | apply quiet_TempRoots
          | split
          | dsimp only
          | intro _
      refine Sat_mono (hq.sat vm) (fun _ vm1 h => Or.inl ?_) (fun _ _ _ => trivial)
      rw [h.2.2.2.2.1]
    · intro _
      obtain ⟨hc, cc, hm⟩ := maybe_jit_compile_eq f vm
      simp only [Sat_bind, Sat_update, hm, Sat_frame, Sat_self, implies_true, true_and]
      intro fs caller hfr
      refine Sat_mono (pop_args_sat _ _ _) ?_ (fun _ _ _ => trivial)
      intro l vm1 ⟨h1, h2⟩
      simp only at h1 h2
      subst h2
      simp only [Sat_update, List.map_append, List.map_cons, List.map_nil, List.length_take]
      refine Or.inr ?_
      congr 2
      have : vm.stack_.length + 2 ^ 64 - argc = (vm.stack_.length - argc) + 2 ^ 64 := by omega
      rw [this, Nat.add_mod_right, Nat.mod_eq_of_lt (by omega)]
      omega

theorem ret_from_function_nil (vm : Vm) (h : vm.frames_ = []) :
    ret_from_function vm = Res.throw "RET with no frame" vm := by
  unfold ret_from_function
  simp only [bind_apply, self_apply, h, List.getLast?_nil]
  rfl

theorem pop_concat (vm : Vm) (s : List Value) (v : Value) (h : vm.stack_ = s ++ [v]) :
    pop vm = Res.ok v { vm with stack_ := s } := by
  unfold pop
  simp only [h, List.getLast?_concat, List.dropLast_concat]

theorem pop_empty (vm : Vm) (h : vm.stack_ = []) : pop vm = Res.throw "stack underflow" vm := by
  unfold pop
  simp only [h, List.getLast?_nil]

/-- A `RET` that returns found the stack, the returned value taken off, at
least as deep as the `base_stack_size` of the frame it pops. -/
theorem ret_from_function_deep (vm vm1 : Vm) (fs : List CallFrame) (fin : CallFrame)
    (hfr : vm.frames_ = fs ++ [fin]) (hr : ret_from_function vm = Res.ok () vm1) :
    ∃ void, is_void_return fin.func_index vm = Res.ok void vm ∧
      fin.base_stack_size + (if void then 0 else 1) ≤ vm.stack_.length := by
  obtain ⟨void, hv, -, hb, -⟩ := ret_from_function_inv vm vm1 fs fin hfr hr
  refine ⟨void, hv, ?_⟩
  cases void with
  | true => exact hb
  | false =>
    rw [ret_from_function_eq vm fs fin false hfr hv] at hr
    simp only [Bool.false_eq_true, if_false] at hr
    rcases List.eq_nil_or_concat vm.stack_ with h0 | ⟨s, v, h0⟩
    · rw [pop_empty vm h0] at hr
      cases hr
    · rw [List.concat_eq_append] at h0
      rw [pop_concat vm s v h0] at hr
      simp only at hr
      split at hr
      · cases hr
      · rename_i hlt
        rw [h0, List.length_append, List.length_singleton]
        simp only [Bool.false_eq_true, if_false]
        omega

/-- A `RET` from a function that returns a value, on a stack that is, the
returned value taken off, less deep than the `base_stack_size` of the frame;
and on an empty stack. -/
theorem ret_from_function_shallow (vm : Vm) (fs : List CallFrame) (fin : CallFrame)
    (hfr : vm.frames_ = fs ++ [fin])
    (hv : is_void_return fin.func_index vm = Res.ok false vm) :
    (∀ s v, vm.stack_ = s ++ [v] → s.length < fin.base_stack_size →
      ret_from_function vm = Res.throw "stack corrupted on return" { vm with stack_ := s }) ∧
    (vm.stack_ = [] → ret_from_function vm = Res.throw "stack underflow" vm) := by
  rw [ret_from_function_eq vm fs fin false hfr hv]
  simp only [Bool.false_eq_true, if_false]
  refine ⟨fun s v h0 hlt => ?_, fun h0 => ?_⟩
  · rw [pop_concat vm s v h0]
    simp only [if_pos hlt]
  · rw [pop_empty vm h0]

/-- C25. The stack base of a frame. `call_function` records as
`base_stack_size` of the frame it pushes the depth of the stack once the
arguments are taken off (a stack is less than 2^64 deep), and no handler
changes the `base_stack_size` of a frame: a handler other than `CALL` and
`RET` leaves the list of the `base_stack_size`s as it is; a `CALL` that
returns leaves it as it is (a built-in) or has appended the depth of the
stack it leaves; a `RET` that returns has removed the last entry, and the
stack it leaves is at least as deep as that entry says, for it throws
"stack corrupted on return" when the stack, the returned value taken off, is
less deep. In between the stack can be less deep than the
`base_stack_size` of a frame: nothing keeps a function from popping what its
caller pushed. The check of `RET`, whatever the function returns: a `RET`
that returns found the stack, the returned value taken off (there is one
unless `is_void_return` says the function is void), at least
`base_stack_size` deep; a `RET` from a function that is not void, on a stack
that is less deep once the returned value is popped, throws "stack corrupted
on return" and leaves the value popped; on an empty stack it throws "stack
underflow". -/
theorem frame_base_protocol (P : Platform) (h : Handler) (ins : Instruction) (vm : Vm)
    (hlen : vm.stack_.length < 2 ^ 64) :
    (h ≠ .H_Call → h ≠ .H_Ret →
      (invoke P h ins vm).state.frames_.map (fun x => x.base_stack_size) =
        vm.frames_.map (fun x => x.base_stack_size)) ∧
    (h = .H_Call → ∀ vm1, invoke P h ins vm = Res.ok () vm1 →
      vm1.frames_.map (fun x => x.base_stack_size) =
        vm.frames_.map (fun x => x.base_stack_size) ∨
      vm1.frames_.map (fun x => x.base_stack_size) =
        vm.frames_.map (fun x => x.base_stack_size) ++ [vm1.stack_.length]) ∧
    (h = .H_Ret → ∀ vm1, invoke P h ins vm = Res.ok () vm1 →
      ∃ fs fin, vm.frames_ = fs ++ [fin] ∧
        vm1.frames_.map (fun x => x.base_stack_size) = fs.map (fun x => x.base_stack_size) ∧
        fin.base_stack_size ≤ vm1.stack_.length) ∧
    (h = .H_Ret → ∀ fs fin, vm.frames_ = fs ++ [fin] →
      is_void_return fin.func_index vm = Res.ok true vm →
      vm.stack_.length < fin.base_stack_size →
      invoke P h ins vm = Res.throw "stack corrupted on return" vm) ∧
    (h = .H_Ret → ∀ vm1, invoke P h ins vm = Res.ok () vm1 →
      ∃ fs fin void, vm.frames_ = fs ++ [fin] ∧
        is_void_return fin.func_index vm = Res.ok void vm ∧
        fin.base_stack_size + (if void then 0 else 1) ≤ vm.stack_.length) ∧
    (h = .H_Ret → ∀ fs fin s v, vm.frames_ = fs ++ [fin] →
      is_void_return fin.func_index vm = Res.ok false vm →
      vm.stack_ = s ++ [v] → s.length < fin.base_stack_size →
      invoke P h ins vm = Res.throw "stack corrupted on return" { vm with stack_ := s }) ∧
    (h = .H_Ret → ∀ fs fin, vm.frames_ = fs ++ [fin] →
      is_void_return fin.func_index vm = Res.ok false vm → vm.stack_ = [] →
      invoke P h ins vm = Res.throw "stack underflow" vm) := by
  refine ⟨?_, ?_, ?_, ?_, ?_, ?_, ?_⟩
  · intro h1 h2
    by_cases h3 : h = .H_StoreGlobal
    · subst h3
      exact congrArg _ (bases_H_StoreGlobal ins vm)
    by_cases h4 : h = .H_StoreLocal
    · subst h4
      exact bases_H_StoreLocal ins vm
    by_cases h5 : h = .H_Jump
    · subst h5
      exact bases_H_Jump ins vm
    by_cases h6 : h = .H_JumpFalse
    · subst h6
      exact bases_H_JumpFalse ins vm
    have hq := (quiet_invoke P h ins h3 h4 h5 h6 h1 h2).rel vm
    rw [hq.2.2.2.2.1]
  · rintro rfl vm1 hr
    unfold invoke H_Call at hr
    simp only at hr
    split at hr
    · cases hr
    · have hs := bases_call_function P ins.a ins.b vm hlen
      rw [hr] at hs
      exact hs
  · rintro rfl vm1 hr
    unfold invoke at hr
    simp only at hr
    rcases List.eq_nil_or_concat vm.frames_ with h0 | ⟨fs, fin, h0⟩
    · rw [ret_from_function_nil vm h0] at hr
      cases hr
    · rw [List.concat_eq_append] at h0
      obtain ⟨void, _, _, _, _, h5, h6⟩ := ret_from_function_inv vm vm1 fs fin h0 hr
      refine ⟨fs, fin, h0, ret_from_function_frames vm vm1 fs fin h0 hr, ?_⟩
      cases void with
      | true => rw [h5 (Or.inl rfl)]
      | false =>
        by_cases hfs : fs = []
        · rw [h5 (Or.inr hfs)]
        · rw [(h6 rfl hfs).1]
          omega
  · rintro rfl fs fin hfr hv hlt
    unfold invoke
    simp only
    rw [ret_from_function_eq vm fs fin true hfr hv]
    simp only [if_true, if_pos hlt]
  · rintro rfl vm1 hr
    rcases List.eq_nil_or_concat vm.frames_ with h0 | ⟨fs, fin, h0⟩
    · have hr1 : ret_from_function vm = Res.ok () vm1 := hr
      rw [ret_from_function_nil vm h0] at hr1
      cases hr1
    · rw [List.concat_eq_append] at h0
      obtain ⟨void, hv, hd⟩ := ret_from_function_deep vm vm1 fs fin h0 hr
      exact ⟨fs, fin, void, h0, hv, hd⟩
  · rintro rfl fs fin s v hfr hv hs hlt
    exact (ret_from_function_shallow vm fs fin hfr hv).1 s v hs hlt
  · rintro rfl fs fin hfr hv hs
    exact (ret_from_function_shallow vm fs fin hfr hv).2 hs

theorem frame_base_protocol_witness :
    (invoke lp64 .H_Pop { op := .kPop, a := 0, b := 0, has_a := false, has_b := false }
        retVm).state.frames_.map (fun x => x.base_stack_size) =
      retVm.frames_.map (fun x => x.base_stack_size) :=
  (frame_base_protocol lp64 .H_Pop { op := .kPop, a := 0, b := 0, has_a := false, has_b := false }
    retVm (by decide)).1 (by decide) (by decide)

/-- The claim C25 as it is worded fails on `popModule`, which is validated:
its run reaches the state `popVm`, where the frame of `f` has
`base_stack_size` 1 and the stack is empty; the `RET` that follows throws
"stack corrupted on return". -/
theorem frame_base_protocol_counterexample :
    ValidateModule popModule = .ok () ∧
    create lp64 popModule = .ok (fSevenVm popModule 5) ∧
    plain_rounds lp64 3 (run_reset (fSevenVm popModule 5)) = some popVm ∧
    (∃ fin ∈ popVm.frames_, popVm.stack_.length < fin.base_stack_size) ∧
    (run lp64 10 (fSevenVm popModule 5)).message = some "stack corrupted on return" :=
  ⟨by decide!, by decide!, by decide!,
    ⟨{ func_index := 0, ip := 4, return_ip := 2, base_stack_size := 1, locals := [] },
      by decide!, by decide!⟩,
    by decide!⟩

end Vm

/-! ## Claim about calls of built-ins -/

namespace Vm

/-- C26. Stack effect of a call of a built-in. Let function `f` of the
module be a built-in (`entry_ip` 0xFFFFFFFF) and let `CALL(f, argc)` return.
Then `argc` is the parameter count of `f` and at most the depth of the stack;
`call_builtin` was called with the name of `f` and with the top `argc`
values of the stack in the order in which they were pushed (these values
being temporary roots meanwhile) and returned a value `out`; no frame was
pushed and no frame was changed, so the ip of the caller is as the dispatch
loop left it; the stack is the old one without its top `argc` values,
followed by `out` if the declared return type of `f` is not void; the
temporary roots are as before. -/
theorem builtin_call_effect (P : Platform) (vm vm1 : Vm) (f argc : Nat) (fn : FunctionInfo)
    (hf : vm.module_.functions.get? f = some fn) (hb : fn.entry_ip = kBuiltinEntryIp)
    (hr : call_function P f argc vm = Res.ok () vm1) :
    argc = fn.param_count ∧ argc ≤ vm.stack_.length ∧
    ∃ name out vmb,
      func_name_view f vm = Res.ok name vm ∧
      call_builtin P name (vm.stack_.drop (vm.stack_.length - argc))
        { vm with temp_roots_ := vm.temp_roots_ ++ vm.stack_.drop (vm.stack_.length - argc) } =
          Res.ok out vmb ∧
      vm1.frames_ = vm.frames_ ∧
      vm1.stack_ = vm.stack_.take (vm.stack_.length - argc) ++
        (if fn.return_type ≠ .kVoid then [out] else []) ∧
      vm1.stack_.length = vm.stack_.length - argc + (if fn.return_type ≠ .kVoid then 1 else 0) ∧
      vm1.temp_roots_ = vm.temp_roots_ ∧ vm1.heap_ = vmb.heap_ ∧ vm1.cout = vmb.cout ∧
      Quiet vm vm1 := by
  unfold call_function at hr
  simp only [bind_apply, self_apply, hf] at hr
  by_cases hargc : argc = fn.param_count
  swap
  · rw [if_pos hargc] at hr
    cases hr
  rw [if_neg (not_not.mpr hargc), if_pos hb] at hr
  by_cases hlen : argc > vm.stack_.length
  · simp only [bind_apply, peek_args, if_pos hlen] at hr
    cases hr
  simp only [bind_apply, peek_args, if_neg hlen] at hr
  unfold TempRoots at hr
  simp only [bind_apply] at hr
  have hst := func_name_view_state f
    { vm with temp_roots_ := vm.temp_roots_ ++ vm.stack_.drop (vm.stack_.length - argc) }
  cases hn : func_name_view f
      { vm with temp_roots_ := vm.temp_roots_ ++ vm.stack_.drop (vm.stack_.length - argc) } with
  | throw m vm2 =>
    rw [hn] at hr
    cases hr
  | ok name vm2 =>
    rw [hn] at hr hst
    simp only [Res.state] at hst
    subst hst
    simp only at hr
    have hcalm := (calm_call_builtin P name (vm.stack_.drop (vm.stack_.length - argc))).rel
      { vm with temp_roots_ := vm.temp_roots_ ++ vm.stack_.drop (vm.stack_.length - argc) }
    cases hc : call_builtin P name (vm.stack_.drop (vm.stack_.length - argc))
        { vm with temp_roots_ := vm.temp_roots_ ++ vm.stack_.drop (vm.stack_.length - argc) } with
    | throw m vmb =>
      rw [hc] at hr
      cases hr
    | ok out vmb =>
      rw [hc] at hr hcalm
      obtain ⟨⟨q1, q2, q3, q4, q5, q6, q7, q8⟩, c1, c2⟩ := hcalm
      simp only [Res.state] at q1 q2 q3 q4 q5 q6 q7 q8 c1 c2
      have hname : func_name_view f vm = Res.ok name vm := by
        unfold func_name_view at hn ⊢
        simp only [hf] at hn ⊢
        unfold const_string_view at hn ⊢
        simp only at hn ⊢
        repeat' split at hn
        all_goals cases hn
        all_goals simp_all
      refine ⟨hargc, by omega, name, out, vmb, hname, hc, ?_⟩
      simp only [update_apply] at hr
      by_cases hv : fn.return_type ≠ .kVoid
      · have hd : decide (fn.return_type ≠ TypeTag.kVoid) = true := decide_eq_true hv
        rw [if_pos hd] at hr
        simp only [push, update_apply] at hr
        cases hr
        simp only [if_pos hv]
        refine ⟨q5, ?_, ?_, ?_, trivial, trivial, q1, q2, q3, q4, q5, q6, q7, q8⟩
        · rw [c1]
        · rw [c1]
          simp only [List.length_append, List.length_take, List.length_singleton]
          omega
        · rw [c2]
          simp
      · have hd : ¬ decide (fn.return_type ≠ TypeTag.kVoid) = true := by
          simpa using hv
        rw [if_neg hd] at hr
        simp only [pure_apply] at hr
        cases hr
        simp only [if_neg hv]
        refine ⟨q5, ?_, ?_, ?_, trivial, trivial, q1, q2, q3, q4, q5, q6, q7, q8⟩
        · rw [c1]
          simp
        · rw [c1]
          simp only [List.length_take]
          omega
        · rw [c2]
          simp

theorem builtin_call_effect_witness :
    (call_function lp64 0 1 lenVm).state.frames_ = lenVm.frames_ ∧
    (call_function lp64 0 1 lenVm).state.stack_.length =
      lenVm.stack_.length - 1 + (if TypeTag.kInt ≠ TypeTag.kVoid then 1 else 0) :=
  let ⟨_, _, _, _, _, _, _, hf, _, hl, _⟩ :=
    builtin_call_effect lp64 lenVm (call_function lp64 0 1 lenVm).state 0 1
      { name_const_index := 0, param_count := 1, local_count := 0, entry_ip := kBuiltinEntryIp,
        return_type := .kInt, param_types := [.kArray] } rfl rfl (by decide!)
  ⟨hf, hl⟩

end Vm

/-! ## Claim about push_int -/

namespace Vm

/-- The copy loop of `push_int` from the array at `old_arr` to a different
array at `out`: `n` elements from index `i` on are copied, and nothing else
is changed. -/
theorem copy_elements_eq (old_arr out : Nat) (hne : old_arr ≠ out) (n i : Nat) (h : Heap)
    (es eo : List Value) (he : Heap.elementsAt h old_arr = .ok es)
    (ho : Heap.elementsAt h out = .ok eo) (h1 : i + n ≤ es.length) (h2 : i + n ≤ eo.length) :
    ∃ hr e1, copy_elements old_arr out n i h = .ok hr ∧ hr.addrs = h.addrs ∧
      Heap.elementsAt hr out = .ok e1 ∧ e1.length = eo.length ∧
      (∀ j, e1.get? j = if i ≤ j ∧ j < i + n then es.get? j else eo.get? j) ∧
      (∀ q, q ≠ out → Heap.elementsAt hr q = Heap.elementsAt h q) ∧
      (∀ q, Heap.stringAt hr q = Heap.stringAt h q) := by
  induction n generalizing i h eo with
  | zero =>
    refine ⟨h, eo, rfl, rfl, ho, rfl, fun j => ?_, fun _ _ => rfl, fun _ => rfl⟩
    rw [if_neg (by omega)]
  | succ n ih =>
    have hi : i < es.length := by omega
    have hi2 : i < eo.length := by omega
    have hs := Heap.storeElement_eq h out i (es.get ⟨i, hi⟩) eo ho hi2
    have he1 : Heap.elementsAt (Heap.setElements h out (eo.set i (es.get ⟨i, hi⟩))) old_arr
        = .ok es := by
      rw [Heap.elementsAt_setElements_other _ _ _ _ hne]
      exact he
    have ho1 := Heap.elementsAt_setElements_same h out eo (eo.set i (es.get ⟨i, hi⟩)) ho
    obtain ⟨hr, e1, hc, ha, hel, hl, hg, hoth, hstr⟩ := ih (i + 1) _ (eo.set i (es.get ⟨i, hi⟩))
      he1 ho1 (by omega) (by rw [List.length_set]; omega)
    refine ⟨hr, e1, ?_, ?_, hel, ?_, ?_, ?_, ?_⟩
    · unfold copy_elements
      simp only [he, bind, Except.bind, List.get?_eq_getElem?, List.getElem?_eq_getElem hi]
      rw [List.get_eq_getElem] at hs
      simp only [hs]
      rw [List.get_eq_getElem] at hc
      exact hc
    · rw [ha]
      exact Heap.addrs_setElements _ _ _
    · rw [hl, List.length_set]
    · intro j
      rw [hg j]
      by_cases hj : j = i
      · subst hj
        rw [if_neg (by omega), if_pos (by omega)]
        simp only [List.get?_eq_getElem?, List.getElem?_set, hi2, if_true,
          List.getElem?_eq_getElem hi, List.get_eq_getElem]
      · by_cases hc2 : i + 1 ≤ j ∧ j < i + 1 + n
        · rw [if_pos hc2, if_pos (by omega)]
        · rw [if_neg hc2, if_neg (by omega)]
          simp only [List.get?_eq_getElem?, List.getElem?_set]
          rw [if_neg (fun h => hj h.symm)]
    · intro q hq
      rw [hoth q hq]
      exact Heap.elementsAt_setElements_other _ _ _ _ hq
    · intro q
      rw [hstr q]
      exact Heap.stringAt_setElements _ _ _ _

theorem call_builtin_push_int (P : Platform) (args : List Value) :
    call_builtin P pushIntName args = builtin_push_int P args := by
  unfold call_builtin
  rw [if_neg (by decide), if_neg (by decide), if_neg (by decide), if_pos rfl]

theorem set_last_eq (e1 es : List Value) (v : Value) (hl : e1.length = es.length + 1)
    (hg : ∀ j, j < es.length → e1.get? j = es.get? j) :
    e1.set es.length v = es ++ [v] := by
  apply List.ext_get?
  intro j
  simp only [List.get?_eq_getElem?, List.getElem?_set, List.getElem?_append]
  by_cases hj : es.length = j
  · subst hj
    simp [hl]
  · rw [if_neg hj]
    by_cases hj2 : j < es.length
    · have := hg j hj2
      simp only [List.get?_eq_getElem?] at this
      rw [this, if_pos hj2]
    · rw [if_neg hj2]
      have h1 : e1.length ≤ j := by omega
      rw [List.getElem?_eq_none h1]
      symm
      apply List.getElem?_eq_none
      simp only [List.length_singleton]
      omega

/-- C27. The built-in `push_int` is an immutable append. Let `new` be sound,
let the Vm hold no dangling pointer, and let `arr`, held by a root, point
to an array of elements `es`, with `|es| + 1` below 2^64. Then
`push_int(arr, x)` returns a pointer `p` to an array which is non-null, was
not in use after the collection step of the allocation and differs from
`arr`; its elements are `es` followed by the int `x`; the elements of `arr`
are `es` still, and every object that the collection step kept reads as
before. With a first argument that is no array or a second that is no int,
`push_int` throws "push_int type mismatch" and leaves the state as it is. -/
theorem push_int_appends (P : Platform) (hP : P.Sound) (vm : Vm) (arr : Nat) (x : BigInt)
    (es : List Value) (hs : vm.heap_.NoDangling vm.Roots) (hroot : Value.array arr ∈ vm.Roots)
    (he : Heap.elementsAt vm.heap_ arr = .ok es) (hlen : es.length + 1 < 2 ^ 64) :
    (∃ p h0 h2,
      call_builtin P pushIntName [Value.array arr, Value.int x] vm =
        Res.ok (Value.array p) { vm with heap_ := h2 } ∧
      Heap.MaybeCollect vm.heap_
        ((P.sizeofArrayObject + (P.sizeofValue * (es.length + 1)) % 2 ^ 64) % 2 ^ 64) vm.Roots
          = .ok h0 ∧
      p ≠ 0 ∧ p ∉ h0.addrs ∧ arr ∈ h0.addrs ∧ p ≠ arr ∧ h2.addrs = h0.addrs ++ [p] ∧
      Heap.elementsAt h2 p = .ok (es ++ [Value.int x]) ∧
      (es ++ [Value.int x]).length = es.length + 1 ∧
      Heap.elementsAt h2 arr = .ok es ∧
      (∀ q ∈ h0.addrs, Heap.elementsAt h2 q = Heap.elementsAt vm.heap_ q ∧
        Heap.stringAt h2 q = Heap.stringAt vm.heap_ q)) ∧
    (∀ a b, ((∀ q, a ≠ Value.array q) ∨ (∀ y, b ≠ Value.int y)) →
      call_builtin P pushIntName [a, b] vm = Res.throw "push_int type mismatch" vm) := by
  constructor
  · obtain ⟨p, h0, h1, hal, hm, _, hp0, hpn, ha1, _, hel, hrd, _, hk⟩ :=
      Heap.AllocateArray_noDangling P hP vm.heap_ (es.length + 1) vm.Roots hs
    have harr : arr ∈ h0.addrs := hk _ hroot arr rfl
    have hne : arr ≠ p := fun h => hpn (h ▸ harr)
    have he1 : Heap.elementsAt h1 arr = .ok es := by
      rw [(hrd arr harr).1]
      exact he
    obtain ⟨hr, e1, hc, ha, hel1, hl, hg, hoth, hstr⟩ := copy_elements_eq arr p hne es.length 0 h1
      es (List.replicate (es.length + 1) Value.null) he1 hel (by omega) (by simp)
    have hl1 : e1.length = es.length + 1 := by simpa using hl
    have hst := Heap.storeElement_eq hr p es.length (Value.int x) e1 hel1 (by omega)
    have hfin := set_last_eq e1 es (Value.int x) hl1 (fun j hj => by
      rw [hg j, if_pos (by omega)])
    refine ⟨p, h0, Heap.setElements hr p (e1.set es.length (Value.int x)), ?_, hm, hp0, hpn,
      harr, fun h => hne h.symm, ?_, ?_, by simp, ?_, ?_⟩
    · rw [call_builtin_push_int]
      unfold builtin_push_int
      simp only [List.length_cons, List.length_nil, ne_eq, not_true_eq_false, if_false,
        List.get?_cons_zero, List.get?_cons_succ, bind_apply, self_apply, he, lift_ok,
        Nat.mod_eq_of_lt hlen, hal, hc, hst, update_apply]
      rfl
    · rw [Heap.addrs_setElements, ha]
      exact ha1
    · rw [Heap.elementsAt_setElements_same _ _ _ _ hel1, hfin]
    · rw [Heap.elementsAt_setElements_other _ _ _ _ hne, hoth arr hne]
      exact he1
    · intro q hq
      have hqp : q ≠ p := fun h => hpn (h ▸ hq)
      rw [Heap.elementsAt_setElements_other _ _ _ _ hqp, hoth q hqp, Heap.stringAt_setElements,
        hstr q]
      exact hrd q hq
  · intro a b hab
    rw [call_builtin_push_int]
    unfold builtin_push_int
    simp only [List.length_cons, List.length_nil, ne_eq, not_true_eq_false, if_false,
      List.get?_cons_zero, List.get?_cons_succ]
    rcases hab with hab | hab
    · cases a with
      | array q => exact absurd rfl (hab q)
      | _ => rfl
    · cases b with
      | int y => exact absurd rfl (hab y)
      | _ => cases a <;> rfl

theorem push_int_appends_witness :
    ∃ p h2,
      call_builtin lp64 pushIntName [Value.array 2, Value.int (BigInt.ofLimbs false [7])]
          { sampleVm with stack_ := [Value.array 2] } =
        Res.ok (Value.array p) { sampleVm with stack_ := [Value.array 2], heap_ := h2 } ∧
      p ≠ 2 ∧
      Heap.elementsAt h2 p = .ok ([Value.string 1] ++ [Value.int (BigInt.ofLimbs false [7])]) ∧
      Heap.elementsAt h2 2 = .ok [Value.string 1] :=
  let ⟨p, _, h2, h, _, _, _, _, hne, _, he, _, ho, _⟩ :=
    (push_int_appends lp64 lp64_sound { sampleVm with stack_ := [Value.array 2] } 2
      (BigInt.ofLimbs false [7]) [Value.string 1] (by decide) (by decide) (by decide)
      (by decide)).1
  ⟨p, h2, h, hne, he, ho⟩

end Vm

/-! ## Claim about NEW_ARRAY -/

namespace Vm

/-- The loop of `H_NewArray` on a stack that ends in the `n` values `vs`:
they are popped and become the first `n` elements of the array, the first
popped going to slot `n - 1`. -/
theorem fill_array_eq (arr n : Nat) (vm : Vm) (s vs es : List Value)
    (hs : vm.stack_ = s ++ vs) (hn : vs.length = n) (hle : n ≤ es.length)
    (he : Heap.elementsAt vm.heap_ arr = .ok es) :
    ∃ h1, fill_array arr n vm = Res.ok () { vm with stack_ := s, heap_ := h1 } ∧
      h1.addrs = vm.heap_.addrs ∧
      Heap.elementsAt h1 arr = .ok (vs ++ es.drop n) ∧
      (∀ q, q ≠ arr → Heap.elementsAt h1 q = Heap.elementsAt vm.heap_ q) ∧
      (∀ q, Heap.stringAt h1 q = Heap.stringAt vm.heap_ q) := by
  induction n generalizing vm vs es with
  | zero =>
    have : vs = [] := List.length_eq_zero.1 hn
    subst this
    refine ⟨vm.heap_, ?_, rfl, ?_, fun _ _ => rfl, fun _ => rfl⟩
    · simp only [List.append_nil] at hs
      rw [← hs]
      rfl
    · simpa using he
  | succ n ih =>
    rcases List.eq_nil_or_concat vs with h0 | ⟨vs1, v, h0⟩
    · subst h0
      cases hn
    rw [List.concat_eq_append] at h0
    subst h0
    have hn1 : vs1.length = n := by simpa using hn
    obtain ⟨m, h, c, st, g, gs, f, t, e, hc, cc, co⟩ := vm
    simp only at hs he
    rw [← List.append_assoc] at hs
    subst hs
    have hlt : n < es.length := by omega
    have he1 := Heap.elementsAt_setElements_same h arr es (es.set n v) he
    obtain ⟨h1, hr, ha, hel, hoth, hstr⟩ := ih
      ⟨m, Heap.setElements h arr (es.set n v), c, s ++ vs1, g, gs, f, t, e, hc, cc, co⟩ vs1
      (es.set n v) rfl hn1 (by rw [List.length_set]; omega) he1
    refine ⟨h1, ?_, ?_, ?_, ?_, ?_⟩
    · unfold fill_array
      simp only [bind_apply, pop_mk, self_apply, Heap.storeElement_eq h arr n v es he hlt, lift_ok,
        update_apply]
      exact hr
    · rw [ha]
      exact Heap.addrs_setElements _ _ _
    · rw [hel, List.append_assoc]
      congr 1
      rw [drop_set_self es n v hlt]
      rfl
    · intro q hq
      rw [hoth q hq]
      exact Heap.elementsAt_setElements_other _ _ _ _ hq
    · intro q
      rw [hstr q]
      exact Heap.stringAt_setElements _ _ _ _

theorem fill_array_underflow (arr n : Nat) (vm : Vm) (es : List Value)
    (hlt : vm.stack_.length < n) (hle : n ≤ es.length)
    (he : Heap.elementsAt vm.heap_ arr = .ok es) :
    (fill_array arr n vm).message = some "stack underflow" := by
  induction n generalizing vm es with
  | zero => cases hlt
  | succ n ih =>
    obtain ⟨m, h, c, st, g, gs, f, t, e, hc, cc, co⟩ := vm
    simp only at hlt he
    rcases List.eq_nil_or_concat st with h0 | ⟨st1, v, h0⟩
    · subst h0
      unfold fill_array
      simp only [bind_apply, pop_nil]
      rfl
    · rw [List.concat_eq_append] at h0
      subst h0
      have hl : n < es.length := by omega
      unfold fill_array
      simp only [bind_apply, pop_mk, self_apply, Heap.storeElement_eq h arr n v es he hl, lift_ok,
        update_apply]
      exact ih _ (es.set n v) (by simpa using hlt) (by rw [List.length_set]; omega)
        (Heap.elementsAt_setElements_same h arr es (es.set n v) he)

/-- C28. NEW_ARRAY packs the top values in order. Let `new` be sound and the
Vm hold no dangling pointer. Without operand `b`, `NEW_ARRAY` throws
"NEW_ARRAY missing b" and leaves the state as it is. With `b = n` and fewer
than `n` values on the stack it throws "stack underflow". With `b = n` and a
stack `s ++ vs`, `vs` of length `n`, it returns with the stack
`s ++ [arr]`, where `arr` is a non-null pointer that was not in use after
the collection step of the allocation, and the elements of the array at
`arr` are `vs`, in order; the objects that the collection step kept read as
before. -/
theorem new_array_packs (P : Platform) (hP : P.Sound) (vm : Vm) (ins : Instruction)
    (hs : vm.heap_.NoDangling vm.Roots) :
    (ins.has_b = false → H_NewArray P ins vm = Res.throw "NEW_ARRAY missing b" vm) ∧
    (ins.has_b = true → vm.stack_.length < ins.b →
      (H_NewArray P ins vm).message = some "stack underflow") ∧
    (ins.has_b = true → ∀ s vs, vm.stack_ = s ++ vs → vs.length = ins.b →
      ∃ p h0 h2,
        H_NewArray P ins vm =
          Res.ok () { vm with stack_ := s ++ [Value.array p], heap_ := h2 } ∧
        Heap.MaybeCollect vm.heap_
          ((P.sizeofArrayObject + (P.sizeofValue * ins.b) % 2 ^ 64) % 2 ^ 64) vm.Roots = .ok h0 ∧
        p ≠ 0 ∧ p ∉ h0.addrs ∧ h2.addrs = h0.addrs ++ [p] ∧
        Heap.elementsAt h2 p = .ok vs ∧
        (∀ q ∈ h0.addrs, Heap.elementsAt h2 q = Heap.elementsAt vm.heap_ q ∧
          Heap.stringAt h2 q = Heap.stringAt vm.heap_ q)) := by
  obtain ⟨p, h0, h1, hal, hm, _, hp0, hpn, ha1, _, hel, hrd, _, _⟩ :=
    Heap.AllocateArray_noDangling P hP vm.heap_ ins.b vm.Roots hs
  refine ⟨?_, ?_, ?_⟩
  · intro hb
    unfold H_NewArray
    simp only [hb, Bool.not_false, if_true]
    rfl
  · intro hb hlt
    unfold H_NewArray
    simp only [hb, Bool.not_true, Bool.false_eq_true, if_false, bind_apply, self_apply, hal,
      lift_ok, update_apply]
    have hu := fill_array_underflow p ins.b { vm with heap_ := h1 } (List.replicate ins.b Value.null)
      hlt (by simp) hel
    cases hf : fill_array p ins.b { vm with heap_ := h1 } with
    | ok a vm2 => rw [hf] at hu; cases hu
    | throw m vm2 =>
      rw [hf] at hu
      exact hu
  · intro hb s vs hst hn
    obtain ⟨h2, hr, ha2, hel2, hoth, hstr⟩ := fill_array_eq p ins.b { vm with heap_ := h1 } s vs
      (List.replicate ins.b Value.null) hst hn (by simp) hel
    refine ⟨p, h0, h2, ?_, hm, hp0, hpn, by rw [ha2]; exact ha1, ?_, ?_⟩
    · unfold H_NewArray
      simp only [hb, Bool.not_true, Bool.false_eq_true, if_false, bind_apply, self_apply, hal,
        lift_ok, update_apply, hr]
      rfl
    · rw [hel2]
      simp
    · intro q hq
      have hqp : q ≠ p := fun h => hpn (h ▸ hq)
      rw [hoth q hqp, hstr q]
      exact hrd q hq

theorem new_array_packs_witness :
    ∃ p h2,
      H_NewArray lp64 { op := .kNewArray, a := 0, b := 2, has_a := false, has_b := true }
          { sampleVm with stack_ := [Value.bool true, Value.string 1, Value.array 2] } =
        Res.ok () { sampleVm with stack_ := [Value.bool true] ++ [Value.array p], heap_ := h2 } ∧
      Heap.elementsAt h2 p = .ok [Value.string 1, Value.array 2] :=
  let ⟨p, _, h2, h, _, _, _, _, he, _⟩ :=
    (new_array_packs lp64 lp64_sound
      { sampleVm with stack_ := [Value.bool true, Value.string 1, Value.array 2] }
      { op := .kNewArray, a := 0, b := 2, has_a := false, has_b := true } (by decide)).2.2 rfl
      [Value.bool true] [Value.string 1, Value.array 2] rfl rfl
  ⟨p, h2, h, he⟩

end Vm

/-! ## Claim about array bounds -/

namespace Vm

end Vm

/-! ## Claim about globals -/

namespace Vm

theorem H_StoreGlobal_eq (vm : Vm) (ins : Instruction) (name : List Nat) (s : List Value)
    (v : Value) (ha : ins.has_a = true) (hlt : ins.a < vm.globals_values_.length)
    (hname : const_string_view ins.a vm = Res.ok name vm) (hs : vm.stack_ = s ++ [v]) :
    H_StoreGlobal ins vm =
      Res.ok () { vm with stack_ := s, globals_values_ := vm.globals_values_.set ins.a v,
                          globals_set_ := vm.globals_set_.set ins.a 1 } := by
  obtain ⟨m, h, c, st, g, gs, f, t, e, hc, cc, co⟩ := vm
  simp only at hs hlt
  subst hs
  unfold H_StoreGlobal
  simp only [ha, Bool.not_true, Bool.false_eq_true, if_false, bind_apply, self_apply,
    if_neg (not_le.mpr hlt), hname, pop_mk, update_apply]

theorem H_StoreGlobal_inv (vm vm1 : Vm) (ins : Instruction)
    (h : H_StoreGlobal ins vm = Res.ok () vm1) :
    ins.has_a = true ∧ ins.a < vm.globals_values_.length ∧
    (∃ name, const_string_view ins.a vm = Res.ok name vm) ∧ ∃ s v, vm.stack_ = s ++ [v] ∧
      vm1 = { vm with stack_ := s, globals_values_ := vm.globals_values_.set ins.a v,
                      globals_set_ := vm.globals_set_.set ins.a 1 } := by
  have ha : ins.has_a = true := by
    cases hb : ins.has_a with
    | true => rfl
    | false =>
      unfold H_StoreGlobal at h
      simp only [hb, Bool.not_false, if_true] at h
      cases h
  have hlt : ins.a < vm.globals_values_.length := by
    by_contra hn
    unfold H_StoreGlobal at h
    simp only [ha, Bool.not_true, Bool.false_eq_true, if_false, bind_apply, self_apply,
      if_pos (not_lt.mp hn)] at h
    cases h
  cases hc : const_string_view ins.a vm with
  | throw m vm2 =>
    unfold H_StoreGlobal at h
    simp only [ha, Bool.not_true, Bool.false_eq_true, if_false, bind_apply, self_apply,
      if_neg (not_le.mpr hlt), hc] at h
    cases h
  | ok name vm2 =>
    have e2 : vm2 = vm := by
      have := const_string_view_state ins.a vm
      rw [hc] at this
      exact this
    subst e2
    rcases List.eq_nil_or_concat vm2.stack_ with h0 | ⟨s, v, h0⟩
    · unfold H_StoreGlobal at h
      simp only [ha, Bool.not_true, Bool.false_eq_true, if_false, bind_apply, self_apply,
        if_neg (not_le.mpr hlt), hc] at h
      unfold pop at h
      simp only [h0, List.getLast?_nil] at h
      cases h
    · rw [List.concat_eq_append] at h0
      refine ⟨ha, hlt, ⟨name, rfl⟩, s, v, h0, ?_⟩
      rw [H_StoreGlobal_eq vm2 ins name s v ha hlt hc h0] at h
      cases h
      rfl

theorem H_LoadGlobal_eq (vm : Vm) (ins : Instruction) (name : List Nat)
    (ha : ins.has_a = true) (hlt : ins.a < vm.globals_values_.length)
    (hname : const_string_view ins.a vm = Res.ok name vm) :
    H_LoadGlobal ins vm =
      if vm.globals_set_.getD ins.a 0 = 0 then
        Res.throw ("LOAD_GLOBAL unknown global: " ++ bytesToString name) vm
      else Res.ok () { vm with stack_ := vm.stack_ ++ [vm.globals_values_.getD ins.a Value.null] } := by
  unfold H_LoadGlobal
  simp only [ha, Bool.not_true, Bool.false_eq_true, if_false, bind_apply, self_apply,
    List.get?_eq_getElem?, List.getElem?_eq_getElem hlt, List.getD_eq_getElem?_getD,
    Option.getD_some]
  split
  · simp only [bind_apply, hname]
    rfl
  · rfl

theorem lookup_of_mem (st : List (Nat × Value)) (a : Nat) (h : ∃ v, (a, v) ∈ st) :
    ∃ v, st.lookup a = some v := by
  induction st with
  | nil =>
    obtain ⟨v, hv⟩ := h
    cases hv
  | cons x rest ih =>
    obtain ⟨k, w⟩ := x
    by_cases hk : a = k
    · subst hk
      exact ⟨w, by simp [List.lookup_cons]⟩
    · obtain ⟨v, hv⟩ := h
      simp only [List.mem_cons, Prod.mk.injEq] at hv
      rcases hv with hv | hv
      · exact absurd hv.1 hk
      · obtain ⟨v1, h1⟩ := ih ⟨v, hv⟩
        refine ⟨v1, ?_⟩
        simp only [List.lookup_cons]
        have : (a == k) = false := by simpa using hk
        rw [this]
        exact h1

theorem globalsRun_inv (P : Platform) (vm0 : Vm) (st : List (Nat × Value)) (vm : Vm)
    (hlen : vm0.globals_set_.length = vm0.globals_values_.length)
    (hr : GlobalsRun P vm0 st vm) :
    vm.globals_set_.length = vm.globals_values_.length ∧
    ∀ a, a < vm.globals_values_.length →
      (vm.globals_set_.getD a 0 ≠ 0 ↔ ∃ v, (a, v) ∈ st) ∧
      ∀ v, st.lookup a = some v → vm.globals_values_.getD a Value.null = v := by
  induction hr with
  | reset =>
    refine ⟨by simp [run_reset, hlen], fun a ha => ⟨?_, fun v hv => by cases hv⟩⟩
    simp only [run_reset, List.getD_eq_getElem?_getD, List.getElem?_map]
    constructor
    · intro h
      exfalso
      apply h
      cases vm0.globals_set_[a]? <;> rfl
    · rintro ⟨v, hv⟩
      cases hv
  | other st vm vm1 h ins hr hne hi ih =>
    have hs := (sameGlobals_invoke P h ins hne).rel vm
    rw [hi] at hs
    obtain ⟨h1, h2⟩ := hs
    simp only [Res.state] at h1 h2
    rw [h1, h2]
    exact ih
  | store st vm vm1 ins v hr hv hst ih =>
    obtain ⟨_, hlt, _, s, w, hs, rfl⟩ := H_StoreGlobal_inv vm vm1 ins hst
    have hwv : w = v := by
      rw [hs, List.getLast?_concat] at hv
      exact Option.some.inj hv
    subst hwv
    obtain ⟨il, ia⟩ := ih
    refine ⟨by simp [il], fun a ha => ?_⟩
    simp only [List.length_set] at ha
    obtain ⟨i1, i2⟩ := ia a ha
    by_cases hk : a = ins.a
    · subst hk
      refine ⟨?_, ?_⟩
      · simp only [List.getD_eq_getElem?_getD, List.getElem?_set, il, ha, if_true,
          Option.getD_some, ne_eq, one_ne_zero, not_false_eq_true, true_iff]
        exact ⟨w, List.mem_cons_self _ _⟩
      · intro v1 hv1
        simp only [List.lookup_cons, beq_self_eq_true, Option.some.injEq] at hv1
        subst hv1
        simp only [List.getD_eq_getElem?_getD, List.getElem?_set, ha, if_true, Option.getD_some]
    · have hk2 : ¬ ins.a = a := fun h => hk h.symm
      refine ⟨?_, ?_⟩
      · simp only [List.getD_eq_getElem?_getD, List.getElem?_set, hk2, if_false]
        simp only [List.getD_eq_getElem?_getD] at i1
        rw [i1]
        simp only [List.mem_cons, Prod.mk.injEq, hk, false_and, false_or]
      · intro v1 hv1
        simp only [List.lookup_cons] at hv1
        have : (a == ins.a) = false := by simpa using hk
        rw [this] at hv1
        simp only [List.getD_eq_getElem?_getD, List.getElem?_set, hk2, if_false]
        simp only [List.getD_eq_getElem?_getD] at i2
        exact i2 v1 hv1
  | frames st vm fs hr ih => exact ih

/-- C30. Globals. Let `vm` be a state of a run on `vm0` (whose vector of
set-bits is as long as its vector of slots), `st` what the `STORE_GLOBAL`s
that returned in this run have stored, the latest first, and `a` the operand
of an instruction, below the number of slots and naming the string constant
`name`. If no `STORE_GLOBAL a` has returned in the run, `LOAD_GLOBAL a`
throws "LOAD_GLOBAL unknown global: " followed by `name`, leaving the state
as it is; otherwise it returns, having pushed the value that the latest
`STORE_GLOBAL a` stored. `STORE_GLOBAL a` on a stack that ends in `v` returns,
having popped `v`, assigned it to slot `a` and set the bit of `a`, and this
is all it does when it returns: no other slot and no other bit is changed. -/
theorem globals_protocol (P : Platform) (vm0 : Vm) (st : List (Nat × Value)) (vm : Vm)
    (hlen : vm0.globals_set_.length = vm0.globals_values_.length)
    (hr : GlobalsRun P vm0 st vm) (ins : Instruction) (name : List Nat)
    (ha : ins.has_a = true) (hlt : ins.a < vm.globals_values_.length)
    (hname : const_string_view ins.a vm = Res.ok name vm) :
    ((∀ v, (ins.a, v) ∉ st) →
      H_LoadGlobal ins vm =
        Res.throw ("LOAD_GLOBAL unknown global: " ++ bytesToString name) vm) ∧
    ((∃ v, (ins.a, v) ∈ st) →
      ∃ v, st.lookup ins.a = some v ∧
        H_LoadGlobal ins vm = Res.ok () { vm with stack_ := vm.stack_ ++ [v] }) ∧
    (∀ s v, vm.stack_ = s ++ [v] →
      H_StoreGlobal ins vm =
        Res.ok () { vm with stack_ := s, globals_values_ := vm.globals_values_.set ins.a v,
                            globals_set_ := vm.globals_set_.set ins.a 1 } ∧
      (vm.globals_values_.set ins.a v).get? ins.a = some v ∧
      (vm.globals_set_.set ins.a 1).get? ins.a = some 1) ∧
    (∀ vm1, H_StoreGlobal ins vm = Res.ok () vm1 →
      ∃ s v, vm.stack_ = s ++ [v] ∧ vm1.stack_ = s ∧
        GlobalsRun P vm0 ((ins.a, v) :: st) vm1 ∧
        ∀ b, b ≠ ins.a → vm1.globals_values_.get? b = vm.globals_values_.get? b ∧
          vm1.globals_set_.get? b = vm.globals_set_.get? b) := by
  obtain ⟨il, ia⟩ := globalsRun_inv P vm0 st vm hlen hr
  obtain ⟨i1, i2⟩ := ia ins.a hlt
  have hL := H_LoadGlobal_eq vm ins name ha hlt hname
  refine ⟨?_, ?_, ?_, ?_⟩
  · intro hno
    have h0 : vm.globals_set_.getD ins.a 0 = 0 := by
      by_contra hc
      obtain ⟨v, hv⟩ := i1.1 hc
      exact hno v hv
    rw [hL, if_pos h0]
  · intro hex
    obtain ⟨v, hv⟩ := lookup_of_mem st ins.a hex
    refine ⟨v, hv, ?_⟩
    rw [hL, if_neg (i1.2 hex), i2 v hv]
  · intro s v hs
    refine ⟨H_StoreGlobal_eq vm ins name s v ha hlt hname hs, ?_, ?_⟩
    · simp only [List.get?_eq_getElem?, List.getElem?_set, hlt, if_true]
    · simp only [List.get?_eq_getElem?, List.getElem?_set, il, hlt, if_true]
  · intro vm1 h1
    obtain ⟨_, _, _, s, v, hs, rfl⟩ := H_StoreGlobal_inv vm _ ins h1
    refine ⟨s, v, hs, rfl, ?_, ?_⟩
    · exact GlobalsRun.store st vm _ ins v hr (by rw [hs, List.getLast?_concat]) h1
    · intro b hb
      have hb2 : ¬ ins.a = b := fun h => hb h.symm
      simp only [List.get?_eq_getElem?, List.getElem?_set, hb2, if_false, and_self]

theorem globals_protocol_witness :
    H_LoadGlobal { op := .kLoadGlobal, a := 0, b := 0, has_a := true, has_b := false }
        (run_reset globalVm) =
      Res.throw ("LOAD_GLOBAL unknown global: " ++ bytesToString [120]) (run_reset globalVm) :=
  (globals_protocol lp64 globalVm [] (run_reset globalVm) (by decide) GlobalsRun.reset
    { op := .kLoadGlobal, a := 0, b := 0, has_a := true, has_b := false } [120] rfl (by decide)
    rfl).1 (fun v hv => by cases hv)

end Vm

/-! ## The interpreter: messages of the defensive checks -/

namespace Vm

theorem avoidsE_ok {α : Type} (B : String → Prop) (a : α) : AvoidsE B (.ok a : Except String α) :=
  ⟨fun m h => by cases h⟩

theorem avoidsE_error {α : Type} (B : String → Prop) (m : String) (h : B m) :
    AvoidsE B (.error m : Except String α) :=
  ⟨fun m1 h1 => by cases h1; exact h⟩

theorem avoidsE_bind {α β : Type} {B : String → Prop} {x : Except String α}
    {f : α → Except String β} (hx : AvoidsE B x) (hf : ∀ a, AvoidsE B (f a)) :
    AvoidsE B (x >>= f) := by
  constructor
  intro m h
  cases x with
  | error e =>
    cases h
    exact hx.msgs _ rfl
  | ok a => exact (hf a).msgs m h

theorem avoidsE_map {α β : Type} {B : String → Prop} {x : Except String α} (f : α → β)
    (hx : AvoidsE B x) : AvoidsE B (x.map f) := by
  constructor
  intro m h
  cases x with
  | error e =>
    cases h
    exact hx.msgs _ rfl
  | ok a => cases h

theorem avoidsE_weaken {α : Type} {B C : String → Prop} {x : Except String α}
    (h : AvoidsE B x) (hbc : ∀ m, B m → C m) : AvoidsE C x :=
  ⟨fun m hm => hbc m (h.msgs m hm)⟩

theorem plain_assign_loop (fuel mag : Nat) (x : BigInt) :
    AvoidsE Plain (BigInt.assign_loop fuel mag x) := by
  induction fuel generalizing mag x with
  | zero => exact avoidsE_error _ _ (by decide)
  | succ fuel ih =>
    unfold BigInt.assign_loop
    split
    · split
      · exact avoidsE_error _ _ (by decide)
      · exact ih _ _
    · exact avoidsE_ok _ _

theorem plain_ofInt64 (v : Int) : AvoidsE Plain (BigInt.ofInt64 v) := by
  unfold BigInt.ofInt64 BigInt.assign
  split
  · exact avoidsE_ok _ _
  · split
    · exact plain_assign_loop _ _ _
    · exact plain_assign_loop _ _ _

theorem plain_add_abs_loop (a b : BigInt) (max_len fuel i carry : Nat) (out : BigInt) :
    AvoidsE Plain (BigInt.add_abs_loop a b max_len fuel i carry out) := by
  induction fuel generalizing i carry out with
  | zero => exact avoidsE_error _ _ (by decide)
  | succ fuel ih =>
    unfold BigInt.add_abs_loop
    split
    · split
      · exact avoidsE_error _ _ (by decide)
      · exact ih _ _ _
    · exact avoidsE_ok _ _

theorem plain_add (a b : BigInt) : AvoidsE Plain (BigInt.add a b) := by
  unfold BigInt.add BigInt.add_abs
  split
  · exact avoidsE_map _ (avoidsE_map _ (plain_add_abs_loop _ _ _ _ _ _ _))
  · dsimp only
    split
    · exact avoidsE_ok _ _
    · split
      · exact avoidsE_ok _ _
      · exact avoidsE_ok _ _

theorem plain_sub (a b : BigInt) : AvoidsE Plain (BigInt.sub a b) := plain_add _ _

theorem plain_FromInt (v : Int) : AvoidsE Plain (FromInt v) := by
  unfold FromInt
  exact avoidsE_bind (plain_ofInt64 v) (fun _ => avoidsE_ok _ _)

theorem plain_asInt64 (b : BigInt) : AvoidsE Plain (asInt64 b) := by
  unfold asInt64
  split
  · exact avoidsE_ok _ _
  · exact avoidsE_error _ _ (by decide)

theorem plain_div64 (a b : Int) : AvoidsE Plain (div64 a b) := by
  unfold div64
  split
  · exact avoidsE_error _ _ (by decide)
  · exact avoidsE_ok _ _

theorem plain_mod64 (a b : Int) : AvoidsE Plain (mod64 a b) := by
  unfold mod64
  split
  · exact avoidsE_error _ _ (by decide)
  · exact avoidsE_ok _ _

theorem plain_mul64 (a b : Int) : AvoidsE Plain (mul64 a b) := by
  unfold mul64
  split
  · exact avoidsE_error _ _ (by decide)
  · exact avoidsE_ok _ _

theorem plain_sub_values (l r : Value) : AvoidsE Plain (sub_values l r) := by
  unfold sub_values
  repeat' first
    | exact avoidsE_ok _ _ | exact avoidsE_error _ _ (by decide) | exact plain_sub _ _
    | apply avoidsE_bind
    | split
    | intro _

theorem plain_mul_values (l r : Value) : AvoidsE Plain (mul_values l r) := by
  unfold mul_values
  repeat' first
    | exact avoidsE_ok _ _ | exact avoidsE_error _ _ (by decide) | exact plain_asInt64 _
    | exact plain_div64 _ _ | exact plain_mul64 _ _ | exact plain_FromInt _
    | apply avoidsE_bind
    | split
    | intro _

theorem plain_div_values (l r : Value) : AvoidsE Plain (div_values l r) := by
  unfold div_values
  repeat' first
    | exact avoidsE_ok _ _ | exact avoidsE_error _ _ (by decide) | exact plain_asInt64 _
    | exact plain_div64 _ _ | exact plain_FromInt _
    | apply avoidsE_bind
    | split
    | intro _

theorem plain_mod_values (l r : Value) : AvoidsE Plain (mod_values l r) := by
  unfold mod_values
  repeat' first
    | exact avoidsE_ok _ _ | exact avoidsE_error _ _ (by decide) | exact plain_asInt64 _
    | exact plain_mod64 _ _ | exact plain_FromInt _
    | apply avoidsE_bind
    | split
    | intro _

theorem plain_neg_value (v : Value) : AvoidsE Plain (neg_value v) := by
  unfold neg_value
  repeat' first
    | exact avoidsE_ok _ _ | exact avoidsE_error _ _ (by decide)
    | split

theorem plain_lt_values (l r : Value) : AvoidsE Plain (lt_values l r) := by
  unfold lt_values
  repeat' first
    | exact avoidsE_ok _ _ | exact avoidsE_error _ _ (by decide)
    | split

theorem plain_le_values (l r : Value) : AvoidsE Plain (le_values l r) := by
  unfold le_values
  repeat' first
    | exact avoidsE_ok _ _ | exact avoidsE_error _ _ (by decide)
    | split

theorem plain_gt_values (l r : Value) : AvoidsE Plain (gt_values l r) := by
  unfold gt_values
  repeat' first
    | exact avoidsE_ok _ _ | exact avoidsE_error _ _ (by decide)
    | split

theorem plain_ge_values (l r : Value) : AvoidsE Plain (ge_values l r) := by
  unfold ge_values
  repeat' first
    | exact avoidsE_ok _ _ | exact avoidsE_error _ _ (by decide)
    | split

theorem plain_and_values (l r : Value) : AvoidsE Plain (and_values l r) := by
  unfold and_values
  repeat' first
    | exact avoidsE_ok _ _ | exact avoidsE_error _ _ (by decide)
    | split

theorem plain_or_values (l r : Value) : AvoidsE Plain (or_values l r) := by
  unfold or_values
  repeat' first
    | exact avoidsE_ok _ _ | exact avoidsE_error _ _ (by decide)
    | split

theorem plain_not_value (v : Value) : AvoidsE Plain (not_value v) := by
  unfold not_value
  repeat' first
    | exact avoidsE_ok _ _ | exact avoidsE_error _ _ (by decide)
    | split

end Vm

namespace Vm

theorem plain_undefended {m : String} (h : Plain m) : Undefended m := by
  unfold Plain at h
  unfold Undefended
  intro hm
  exact h (List.mem_cons_of_mem _ hm)

theorem avoidsE_undefended {α : Type} {x : Except String α} (h : AvoidsE Plain x) :
    AvoidsE Undefended x := avoidsE_weaken h (fun _ hm => plain_undefended hm)

theorem avoidsE_foldlM {α β : Type} {B : String → Prop} (f : β → α → Except String β)
    (hf : ∀ b a, AvoidsE B (f b a)) (l : List α) (b : β) : AvoidsE B (l.foldlM f b) := by
  induction l generalizing b with
  | nil => exact avoidsE_ok _ _
  | cons a rest ih =>
    rw [List.foldlM_cons]
    exact avoidsE_bind (hf b a) (fun b1 => ih b1)

theorem undefended_stringAt (h : Heap) (p : Nat) : AvoidsE Undefended (Heap.stringAt h p) := by
  unfold Heap.stringAt
  repeat' first
    | exact avoidsE_ok _ _ | exact avoidsE_error _ _ (by decide)
    | split

theorem undefended_elementsAt (h : Heap) (p : Nat) :
    AvoidsE Undefended (Heap.elementsAt h p) := by
  unfold Heap.elementsAt
  repeat' first
    | exact avoidsE_ok _ _ | exact avoidsE_error _ _ (by decide)
    | split

theorem undefended_storeElement (h : Heap) (p i : Nat) (v : Value) :
    AvoidsE Undefended (Heap.storeElement h p i v) := by
  unfold Heap.storeElement
  repeat' first
    | exact avoidsE_ok _ _ | exact avoidsE_error _ _ (by decide)
    | exact undefended_elementsAt _ _
    | apply avoidsE_bind
    | split
    | intro _

theorem undefended_copy_elements (old_arr out n i : Nat) (h : Heap) :
    AvoidsE Undefended (copy_elements old_arr out n i h) := by
  induction n generalizing i h with
  | zero => exact avoidsE_ok _ _
  | succ n ih =>
    unfold copy_elements
    refine avoidsE_bind (undefended_elementsAt _ _) (fun es => ?_)
    split
    · exact avoidsE_error _ _ (by decide)
    · exact avoidsE_bind (undefended_storeElement _ _ _ _) (fun h1 => ih _ _)

theorem undefended_MarkValue (st : Heap.MarkState) (v : Value) :
    AvoidsE Undefended (Heap.MarkValue st v) := by
  unfold Heap.MarkValue
  repeat' first
    | exact avoidsE_ok _ _ | exact avoidsE_error _ _ (by decide)
    | split

theorem undefended_mark_loop (fuel : Nat) (st : Heap.MarkState) :
    AvoidsE Undefended (Heap.mark_loop fuel st) := by
  induction fuel generalizing st with
  | zero => exact avoidsE_error _ _ (by decide)
  | succ fuel ih =>
    unfold Heap.mark_loop
    split
    · exact avoidsE_ok _ _
    · split
      · exact avoidsE_error _ _ (by decide)
      · split
        · exact avoidsE_bind (avoidsE_foldlM _ undefended_MarkValue _ _) (fun st2 => ih st2)
        · exact ih _

theorem undefended_Collect (h : Heap) (roots : List Value) :
    AvoidsE Undefended (Heap.Collect h roots) := by
  unfold Heap.Collect Heap.MarkFromRoots
  exact avoidsE_bind (avoidsE_bind (avoidsE_foldlM _ undefended_MarkValue _ _)
    (fun st => undefended_mark_loop _ st)) (fun _ => avoidsE_ok _ _)

theorem undefended_MaybeCollect (h : Heap) (n : Nat) (roots : List Value) :
    AvoidsE Undefended (Heap.MaybeCollect h n roots) := by
  unfold Heap.MaybeCollect
  split
  · exact avoidsE_bind (undefended_Collect _ _) (fun _ => avoidsE_ok _ _)
  · exact avoidsE_ok _ _

theorem undefended_AllocateString (P : Platform) (h : Heap) (s : List Nat) (roots : List Value) :
    AvoidsE Undefended (Heap.AllocateString P h s roots) := by
  unfold Heap.AllocateString
  exact avoidsE_bind (undefended_MaybeCollect _ _ _) (fun _ => avoidsE_ok _ _)

theorem undefended_AllocateArray (P : Platform) (h : Heap) (n : Nat) (roots : List Value) :
    AvoidsE Undefended (Heap.AllocateArray P h n roots) := by
  unfold Heap.AllocateArray
  exact avoidsE_bind (undefended_MaybeCollect _ _ _) (fun _ => avoidsE_ok _ _)

theorem undefended_eq_values (h : Heap) (l r : Value) :
    AvoidsE Undefended (eq_values h l r) := by
  unfold eq_values
  repeat' first
    | exact avoidsE_ok _ _ | exact avoidsE_error _ _ (by decide)
    | exact undefended_stringAt _ _
    | apply avoidsE_bind
    | split
    | intro _

theorem undefended_neq_values (h : Heap) (l r : Value) :
    AvoidsE Undefended (neq_values h l r) := by
  unfold neq_values
  repeat' first
    | exact avoidsE_ok _ _ | exact avoidsE_error _ _ (by decide)
    | exact undefended_eq_values _ _ _
    | apply avoidsE_bind
    | split
    | intro _

end Vm

namespace Vm

theorem avoids_bind {α β : Type} {B : String → Prop} {x : VmM α} {f : α → VmM β}
    (hx : Avoids B x) (hf : ∀ a, Avoids B (f a)) : Avoids B (x >>= f) := by
  constructor
  intro vm m h
  rw [bind_apply] at h
  cases hxv : x vm with
  | ok a vm1 =>
    rw [hxv] at h
    exact (hf a).msgs vm1 m h
  | throw m1 vm1 =>
    rw [hxv] at h
    exact hx.msgs vm m (by rw [hxv]; exact h)

theorem avoids_pure {α : Type} (B : String → Prop) (a : α) : Avoids B (pure a : VmM α) :=
  ⟨fun _ _ h => by cases h⟩

theorem avoids_raise {α : Type} (B : String → Prop) (m : String) (h : B m) :
    Avoids B (raise m : VmM α) :=
  ⟨fun _ _ h1 => by cases h1; exact h⟩

theorem avoids_self (B : String → Prop) : Avoids B self := ⟨fun _ _ h => by cases h⟩

theorem avoids_update (B : String → Prop) (f : Vm → Vm) : Avoids B (update f) :=
  ⟨fun _ _ h => by cases h⟩

theorem avoids_push (B : String → Prop) (v : Value) : Avoids B (push v) :=
  ⟨fun _ _ h => by cases h⟩

theorem avoids_setFrame (B : String → Prop) (f : CallFrame) : Avoids B (setFrame f) :=
  ⟨fun _ _ h => by cases h⟩

theorem avoids_lift {α : Type} {B : String → Prop} {x : Except String α} (hx : AvoidsE B x) :
    Avoids B (lift x) := by
  constructor
  intro vm m h
  cases x with
  | ok a => cases h
  | error e =>
    cases h
    exact hx.msgs _ rfl

theorem avoids_pop {B : String → Prop} (h : B "stack underflow") : Avoids B pop := by
  constructor
  intro vm m hm
  unfold pop at hm
  cases hs : vm.stack_.getLast? with
  | none =>
    rw [hs] at hm
    cases hm
    exact h
  | some v =>
    rw [hs] at hm
    cases hm

theorem avoids_peek_args {B : String → Prop} (h : B "stack underflow") (argc : Nat) :
    Avoids B (peek_args argc) := by
  constructor
  intro vm m hm
  unfold peek_args at hm
  split at hm
  · cases hm
    exact h
  · cases hm

theorem avoids_frame {B : String → Prop} (h : B "no current frame") : Avoids B frame := by
  constructor
  intro vm m hm
  unfold frame at hm
  cases hs : vm.frames_.getLast? with
  | none =>
    rw [hs] at hm
    cases hm
    exact h
  | some v =>
    rw [hs] at hm
    cases hm

theorem avoids_TempRoots {α : Type} {B : String → Prop} (values : List Value) {body : VmM α}
    (h : Avoids B body) : Avoids B (TempRoots values body) := by
  constructor
  intro vm m hm
  unfold TempRoots at hm
  cases hb : body { vm with temp_roots_ := vm.temp_roots_ ++ values } with
  | ok a vm1 =>
    rw [hb] at hm
    cases hm
  | throw m1 vm1 =>
    rw [hb] at hm
    cases hm
    exact h.msgs _ m (by rw [hb]; rfl)

theorem undefended_const_string_view (i : Nat) : Avoids Undefended (const_string_view i) := by
  constructor
  intro vm m hm
  unfold const_string_view at hm
  repeat' split at hm
  all_goals cases hm
  all_goals decide

theorem undefended_func_name_view (i : Nat) : Avoids Undefended (func_name_view i) := by
  constructor
  intro vm m hm
  unfold func_name_view at hm
  split at hm
  · cases hm
    decide
  · exact (undefended_const_string_view _).msgs vm m hm

theorem undefended_is_void_return (i : Nat) : Avoids Undefended (is_void_return i) := by
  constructor
  intro vm m hm
  unfold is_void_return at hm
  repeat' split at hm
  all_goals cases hm
  all_goals decide

theorem undefended_add_values (P : Platform) (l r : Value) :
    Avoids Undefended (add_values P l r) := by
  unfold add_values
  repeat' first
    | exact avoids_raise _ _ (by decide) | exact avoids_pure _ _ | exact avoids_self _
    | exact avoids_update _ _
    | exact avoids_lift (avoidsE_undefended (plain_add _ _))
    | exact avoids_lift (undefended_stringAt _ _)
    | exact avoids_lift (undefended_AllocateString _ _ _ _)
    | apply avoids_bind
    | apply avoids_TempRoots
    | split
    | intro _

theorem undefended_binary {op : Value → Value → VmM Value}
    (h : ∀ l r, Avoids Undefended (op l r)) : Avoids Undefended (binary op) :=
  avoids_bind (avoids_pop (by decide)) (fun _ => avoids_bind (avoids_pop (by decide))
    (fun _ => avoids_bind (h _ _) (fun _ => avoids_push _ _)))

theorem undefended_unary {op : Value → Except String Value}
    (h : ∀ v, AvoidsE Undefended (op v)) : Avoids Undefended (unary op) :=
  avoids_bind (avoids_pop (by decide)) (fun _ => avoids_bind (avoids_lift (h _))
    (fun _ => avoids_push _ _))

theorem undefended_builtin_print (args : List Value) :
    Avoids Undefended (builtin_print args) := by
  unfold builtin_print
  repeat' first
    | exact avoids_raise _ _ (by decide) | exact avoids_pure _ _ | exact avoids_self _
    | exact avoids_update _ _
    | exact avoids_lift (undefended_stringAt _ _)
    | apply avoids_bind
    | split
    | intro _

theorem undefended_builtin_len (args : List Value) : Avoids Undefended (builtin_len args) := by
  unfold builtin_len
  repeat' first
    | exact avoids_raise _ _ (by decide) | exact avoids_pure _ _ | exact avoids_self _
    | exact avoids_update _ _
    | exact avoids_lift (undefended_elementsAt _ _)
    | exact avoids_lift (avoidsE_undefended (plain_FromInt _))
    | apply avoids_bind
    | split
    | intro _

theorem undefended_builtin_new_array_bool (P : Platform) (args : List Value) :
    Avoids Undefended (builtin_new_array_bool P args) := by
  unfold builtin_new_array_bool
  repeat' first
    | exact avoids_raise _ _ (by decide) | exact avoids_pure _ _ | exact avoids_self _
    | exact avoids_update _ _
    | exact avoids_lift (avoidsE_undefended (plain_asInt64 _))
    | exact avoids_lift (undefended_AllocateArray _ _ _ _)
    | apply avoids_bind
    | split
    | intro _

theorem undefended_builtin_push_int (P : Platform) (args : List Value) :
    Avoids Undefended (builtin_push_int P args) := by
  unfold builtin_push_int
  repeat' first
    | exact avoids_raise _ _ (by decide) | exact avoids_pure _ _ | exact avoids_self _
    | exact avoids_update _ _
    | exact avoids_lift (undefended_elementsAt _ _)
    | exact avoids_lift (undefended_AllocateArray _ _ _ _)
    | exact avoids_lift (undefended_copy_elements _ _ _ _ _)
    | exact avoids_lift (undefended_storeElement _ _ _ _)
    | apply avoids_bind
    | split
    | intro _

theorem undefended_of_start (a s : String) (n : Nat) (hn : a.data.length = n)
    (h : ∀ d ∈ defensiveMsgs, d.data.take n ≠ a.data) : Undefended (a ++ s) := by
  intro hm
  apply h _ hm
  rw [String.data_append, List.take_left' hn]

theorem undefended_call_builtin (P : Platform) (name : List Nat) (args : List Value) :
    Avoids Undefended (call_builtin P name args) := by
  unfold call_builtin
  repeat' first
    | exact avoids_raise _ _ (undefended_of_start "unknown builtin: " _ 17 (by decide)
        (by decide))
    | exact undefended_builtin_print _ | exact undefended_builtin_len _
    | exact undefended_builtin_new_array_bool _ _ | exact undefended_builtin_push_int _ _
    | split

theorem undefended_fill_array (arr n : Nat) : Avoids Undefended (fill_array arr n) := by
  induction n with
  | zero => exact avoids_pure _ _
  | succ n ih =>
    unfold fill_array
    exact avoids_bind (avoids_pop (by decide)) (fun _ => avoids_bind (avoids_self _)
      (fun _ => avoids_bind (avoids_lift (undefended_storeElement _ _ _ _))
      (fun _ => avoids_bind (avoids_update _ _) (fun _ => ih))))

theorem undefended_pop_args (n : Nat) (locals : List Value) :
    Avoids Undefended (pop_args n locals) := by
  induction n generalizing locals with
  | zero => exact avoids_pure _ _
  | succ n ih =>
    unfold pop_args
    refine avoids_bind (avoids_pop (by decide)) (fun v => ?_)
    split
    · exact ih _
    · exact avoids_raise _ _ (by decide)

theorem undefended_H_NewArray (P : Platform) (ins : Instruction) :
    Avoids Undefended (H_NewArray P ins) := by
  unfold H_NewArray
  repeat' first
    | exact avoids_raise _ _ (by decide) | exact avoids_pure _ _ | exact avoids_self _
    | exact avoids_update _ _ | exact avoids_push _ _
    | exact undefended_fill_array _ _
    | exact avoids_lift (undefended_AllocateArray _ _ _ _)
    | apply avoids_bind
    | split
    | intro _

theorem undefended_H_LoadIndex : Avoids Undefended H_LoadIndex := by
  unfold H_LoadIndex
  repeat' first
    | exact avoids_raise _ _ (by decide) | exact avoids_pure _ _ | exact avoids_self _
    | exact avoids_update _ _ | exact avoids_push _ _ | exact avoids_pop (by decide)
    | exact avoids_lift (avoidsE_undefended (plain_asInt64 _))
    | exact avoids_lift (undefended_elementsAt _ _)
    | apply avoids_bind
    | split
    | intro _

theorem undefended_H_StoreIndex : Avoids Undefended H_StoreIndex := by
  unfold H_StoreIndex
  repeat' first
    | exact avoids_raise _ _ (by decide) | exact avoids_pure _ _ | exact avoids_self _
    | exact avoids_update _ _ | exact avoids_push _ _ | exact avoids_pop (by decide)
    | exact avoids_lift (avoidsE_undefended (plain_asInt64 _))
    | exact avoids_lift (undefended_elementsAt _ _)
    | exact avoids_lift (undefended_storeElement _ _ _ _)
    | apply avoids_bind
    | split
    | intro _

theorem undefended_H_Pop : Avoids Undefended H_Pop := by
  unfold H_Pop
  exact avoids_bind (avoids_pop (by decide)) (fun _ => avoids_pure _ _)

theorem undefended_H_StoreLocal (ins : Instruction) : Avoids Undefended (H_StoreLocal ins) := by
  unfold H_StoreLocal
  repeat' first
    | exact avoids_raise _ _ (by decide) | exact avoids_pop (by decide)
    | exact avoids_frame (by decide) | exact avoids_setFrame _ _
    | apply avoids_bind
    | split
    | intro _

theorem undefended_H_LoadLocal (ins : Instruction) : Avoids Undefended (H_LoadLocal ins) := by
  unfold H_LoadLocal
  repeat' first
    | exact avoids_raise _ _ (by decide) | exact avoids_push _ _
    | exact avoids_frame (by decide)
    | apply avoids_bind
    | split
    | intro _

theorem undefended_ret_from_function : Avoids Undefended ret_from_function := by
  unfold ret_from_function
  repeat' first
    | exact avoids_raise _ _ (by decide) | exact avoids_pure _ _ | exact avoids_self _
    | exact avoids_update _ _ | exact avoids_push _ _ | exact avoids_pop (by decide)
    | exact avoids_setFrame _ _ | exact undefended_is_void_return _
    | apply avoids_bind
    | split
    | dsimp only
    | intro _

end Vm

namespace Vm

theorem avoids_sat {α : Type} {B : String → Prop} {x : VmM α} (h : Avoids B x) (vm : Vm) :
    (x vm).Sat (fun _ _ => True) (fun m _ => B m) := by
  have h1 := h.msgs vm
  cases hx : x vm with
  | ok a vm1 => trivial
  | throw m vm1 =>
    rw [hx] at h1
    exact h1 m rfl

theorem Res.message_of_sat {α : Type} {B : String → Prop} {r : Res α}
    (h : r.Sat (fun _ _ => True) (fun m _ => B m)) (m : String) (hm : r.message = some m) :
    B m := by
  cases r with
  | ok a vm1 => cases hm
  | throw m1 vm1 =>
    cases hm
    exact h

theorem ValidateModule_rule (m : BytecodeModule) (h : ValidateModule m = .ok ())
    (ins : Instruction) (hi : ins ∈ m.code) :
    ¬ ins.BreaksRule m.const_pool.length m.functions.length m.code.length := by
  intro hb
  have h1 := (ValidateModule_error_iff m).2 (Or.inl ⟨ins, hi, hb⟩)
  obtain ⟨e, he⟩ := h1
  rw [h] at he
  cases he

theorem undefended_H_PushConst (ins : Instruction) (vm : Vm) (ha : ins.has_a = true)
    (hl : ins.a < vm.const_values_.length) :
    (H_PushConst ins vm).Sat (fun _ _ => True) (fun m _ => Undefended m) := by
  unfold H_PushConst
  obtain ⟨v, hv⟩ : ∃ v, vm.const_values_.get? ins.a = some v :=
    ⟨_, List.get?_eq_get hl⟩
  simp only [ha, Bool.not_true, Bool.false_eq_true, if_false, bind_apply, self_apply, hv]
  trivial

theorem undefended_H_LoadGlobal (ins : Instruction) (vm : Vm) (ha : ins.has_a = true)
    (hl : ins.a < vm.globals_values_.length) :
    (H_LoadGlobal ins vm).Sat (fun _ _ => True) (fun m _ => Undefended m) := by
  unfold H_LoadGlobal
  obtain ⟨v, hv⟩ : ∃ v, vm.globals_values_.get? ins.a = some v :=
    ⟨_, List.get?_eq_get hl⟩
  simp only [ha, Bool.not_true, Bool.false_eq_true, if_false, bind_apply, self_apply, hv]
  refine avoids_sat (x := if vm.globals_set_.getD ins.a 0 = 0 then _ else _) ?_ vm
  split
  · refine avoids_bind (undefended_const_string_view _) (fun name => ?_)
    exact avoids_raise _ _ (undefended_of_start "LOAD_GLOBAL unknown global: " _ 28 (by decide)
      (by decide))
  · exact avoids_push _ _

theorem undefended_H_StoreGlobal (ins : Instruction) (vm : Vm) (ha : ins.has_a = true)
    (hl : ins.a < vm.globals_values_.length) :
    (H_StoreGlobal ins vm).Sat (fun _ _ => True) (fun m _ => Undefended m) := by
  unfold H_StoreGlobal
  simp only [ha, Bool.not_true, Bool.false_eq_true, if_false, bind_apply, self_apply,
    ge_iff_le, if_neg (Nat.not_le.2 hl)]
  refine avoids_sat (x := const_string_view ins.a >>= fun _ => pop >>= fun v => update _) ?_ vm
  exact avoids_bind (undefended_const_string_view _) (fun _ =>
    avoids_bind (avoids_pop (by decide)) (fun _ => avoids_update _ _))

theorem undefended_H_Jump (ins : Instruction) (vm : Vm) (ha : ins.has_a = true)
    (hl : ins.a < vm.module_.code.length) :
    (H_Jump ins vm).Sat (fun _ _ => True) (fun m _ => Undefended m) := by
  unfold H_Jump
  simp only [ha, Bool.not_true, Bool.false_eq_true, if_false, Sat_bind, Sat_frame, Sat_self,
    Sat_ite, Sat_raise, Sat_setFrame, implies_true, and_true, ge_iff_le]
  refine ⟨fun _ => by decide, fun fs f _ hc => ?_⟩
  omega

theorem undefended_H_JumpFalse (ins : Instruction) (vm : Vm) (ha : ins.has_a = true)
    (hl : ins.a < vm.module_.code.length) :
    (H_JumpFalse ins vm).Sat (fun _ _ => True) (fun m _ => Undefended m) := by
  unfold H_JumpFalse
  simp only [ha, Bool.not_true, Bool.false_eq_true, if_false, Sat_bind, Sat_frame, Sat_self,
    Sat_ite, Sat_raise, ge_iff_le]
  refine ⟨fun _ => by decide, fun fs f _ => ⟨fun hc => by omega, fun _ => ?_⟩⟩
  rw [← Sat_bind]
  refine avoids_sat ?_ vm
  refine avoids_bind (avoids_pop (by decide)) (fun cond => ?_)
  split
  · split
    · exact avoids_setFrame _ _
    · exact avoids_pure _ _
  · exact avoids_raise _ _ (by decide)

theorem undefended_call_function (P : Platform) (f argc : Nat) (vm : Vm)
    (hl : f < vm.module_.functions.length) :
    (call_function P f argc vm).Sat (fun _ _ => True) (fun m _ => Undefended m) := by
  unfold call_function
  obtain ⟨fn, hfn⟩ : ∃ fn, vm.module_.functions.get? f = some fn :=
    ⟨_, List.get?_eq_get hl⟩
  simp only [bind_apply, self_apply, hfn]
  refine avoids_sat (x := if argc ≠ fn.param_count then _ else _) ?_ vm
  repeat' first
    | exact avoids_raise _ _ (by decide) | exact avoids_pure _ _ | exact avoids_self _
    | exact avoids_update _ _ | exact avoids_push _ _
    | exact avoids_frame (by decide) | exact avoids_peek_args (by decide) _
    | exact undefended_func_name_view _ | exact undefended_call_builtin _ _ _
    | exact undefended_pop_args _ _
    | apply avoids_bind
    | apply avoids_TempRoots
    | split
    | dsimp only
    | intro _

theorem undefended_H_Call (P : Platform) (ins : Instruction) (vm : Vm) (ha : ins.has_a = true)
    (hb : ins.has_b = true) (hl : ins.a < vm.module_.functions.length) :
    (H_Call P ins vm).Sat (fun _ _ => True) (fun m _ => Undefended m) := by
  unfold H_Call
  simp only [ha, hb, Bool.not_true, Bool.or_self, Bool.false_eq_true, if_false]
  exact undefended_call_function P _ _ vm hl

theorem Dispatch_inj (op : OpCode) (h : Handler) (hd : Dispatch op = some h) :
    (h = .H_PushConst → op = .kPushConst) ∧ (h = .H_LoadGlobal → op = .kLoadGlobal) ∧
    (h = .H_StoreGlobal → op = .kStoreGlobal) ∧ (h = .H_Jump → op = .kJump) ∧
    (h = .H_JumpFalse → op = .kJumpFalse) ∧ (h = .H_Call → op = .kCall) := by
  cases op <;> cases hd <;> simp

/-- A handler called on an instruction of a validated module, from the slot
of its opcode in the table, throws none of the defensive messages. -/
theorem undefended_invoke (P : Platform) (h : Handler) (ins : Instruction) (vm : Vm)
    (hm : ValidateModule vm.module_ = .ok ())
    (hc : vm.const_values_.length = vm.module_.const_pool.length)
    (hg : vm.globals_values_.length = vm.module_.const_pool.length)
    (hi : ins ∈ vm.module_.code) (hd : Dispatch ins.op = some h) :
    (invoke P h ins vm).Sat (fun _ _ => True) (fun m _ => Undefended m) := by
  have hr := ValidateModule_rule _ hm ins hi
  unfold Instruction.BreaksRule at hr
  simp only [not_or, not_and, not_le, Bool.not_eq_false] at hr
  obtain ⟨i1, i2, i3, i4, i5, i6⟩ := Dispatch_inj ins.op h hd
  cases h
  case H_PushConst =>
    have := hr.1 (Or.inl (i1 rfl))
    exact undefended_H_PushConst ins vm this.1 (by omega)
  case H_LoadGlobal =>
    have := hr.1 (Or.inr (Or.inl (i2 rfl)))
    exact undefended_H_LoadGlobal ins vm this.1 (by omega)
  case H_StoreGlobal =>
    have := hr.1 (Or.inr (Or.inr (i3 rfl)))
    exact undefended_H_StoreGlobal ins vm this.1 (by omega)
  case H_Jump =>
    have := hr.2.2 (Or.inl (i4 rfl))
    exact undefended_H_Jump ins vm this.1 this.2
  case H_JumpFalse =>
    have := hr.2.2 (Or.inr (i5 rfl))
    exact undefended_H_JumpFalse ins vm this.1 this.2
  case H_Call =>
    have := hr.2.1 (i6 rfl)
    exact undefended_H_Call P ins vm this.1 this.2.1 this.2.2
  all_goals
    refine avoids_sat ?_ vm
    first
    | exact undefended_H_Pop | exact undefended_H_StoreLocal _ | exact undefended_H_LoadLocal _
    | exact undefended_H_NewArray _ _ | exact undefended_H_LoadIndex
    | exact undefended_H_StoreIndex | exact undefended_ret_from_function
    | exact undefended_binary (undefended_add_values _)
    | exact undefended_unary (fun _ => (avoidsE_undefended (plain_neg_value _)))
    | exact undefended_unary (fun _ => (avoidsE_undefended (plain_not_value _)))
    | exact undefended_binary (fun _ _ => avoids_lift (avoidsE_undefended (plain_sub_values _ _)))
    | exact undefended_binary (fun _ _ => avoids_lift (avoidsE_undefended (plain_mul_values _ _)))
    | exact undefended_binary (fun _ _ => avoids_lift (avoidsE_undefended (plain_div_values _ _)))
    | exact undefended_binary (fun _ _ => avoids_lift (avoidsE_undefended (plain_mod_values _ _)))
    | exact undefended_binary (fun _ _ => avoids_lift (avoidsE_undefended (plain_lt_values _ _)))
    | exact undefended_binary (fun _ _ => avoids_lift (avoidsE_undefended (plain_le_values _ _)))
    | exact undefended_binary (fun _ _ => avoids_lift (avoidsE_undefended (plain_gt_values _ _)))
    | exact undefended_binary (fun _ _ => avoids_lift (avoidsE_undefended (plain_ge_values _ _)))
    | exact undefended_binary (fun _ _ => avoids_lift (avoidsE_undefended (plain_and_values _ _)))
    | exact undefended_binary (fun _ _ => avoids_lift (avoidsE_undefended (plain_or_values _ _)))
    | exact undefended_binary (fun _ _ => avoids_bind (avoids_self _)
        (fun _ => avoids_lift (undefended_eq_values _ _ _)))
    | exact undefended_binary (fun _ _ => avoids_bind (avoids_self _)
        (fun _ => avoids_lift (undefended_neq_values _ _ _)))

end Vm

namespace Vm

theorem static_footprint : Footprint Static where
  of_quiet := fun a b h => ⟨h.1, h.2.1, by rw [h.2.2.1], fun hc => by
    rw [h.2.2.2.2.2.2.2, h.1]
    exact hc⟩
  trans := fun _ _ _ h1 h2 =>
    ⟨h2.1.trans h1.1, h2.2.1.trans h1.2.1, h2.2.2.1.trans h1.2.2.1, fun hc => h2.2.2.2 (h1.2.2.2 hc)⟩

theorem static_frames (vm : Vm) (fs : List CallFrame) : Static vm { vm with frames_ := fs } :=
  ⟨rfl, rfl, rfl, id⟩

theorem static_validated {vm vm1 : Vm} (h : Static vm vm1) (hv : Validated vm) :
    Validated vm1 := by
  obtain ⟨h1, h2, h3, h4⟩ := h
  obtain ⟨v1, v2, v3, v4⟩ := hv
  refine ⟨by rw [h1]; exact v1, by rw [h1, h2]; exact v2, by rw [h1, h3]; exact v3, h4 v4⟩

theorem compile_handlers_ok (l : List Instruction) (hs : List (Option Handler))
    (h : compile_handlers l = some hs) (off : Nat) (hd : Handler)
    (ho : hs.get? off = some (some hd)) :
    ∃ ins, l.get? off = some ins ∧ Dispatch ins.op = some hd := by
  induction l generalizing hs off with
  | nil =>
    cases h
    cases ho
  | cons ins rest ih =>
    unfold compile_handlers at h
    cases hdi : Dispatch ins.op with
    | none =>
      rw [hdi] at h
      cases h
    | some h0 =>
      rw [hdi] at h
      cases hr : compile_handlers rest with
      | none =>
        rw [hr] at h
        cases h
      | some hs0 =>
        rw [hr] at h
        cases h
        cases off with
        | zero =>
          cases ho
          exact ⟨ins, rfl, hdi⟩
        | succ off => exact ih hs0 hr off ho

theorem get?_drop_take (code : List Instruction) (entry n off : Nat) (ins : Instruction)
    (h : ((code.drop entry).take n).get? off = some ins) : code.get? (entry + off) = some ins := by
  rw [List.get?_eq_getElem?] at h ⊢
  by_cases hlt : off < n
  · rw [List.getElem?_take_of_lt hlt, List.getElem?_drop] at h
    exact h
  · rw [List.getElem?_take_eq_none (by omega)] at h
    cases h

theorem static_jit_compile (i : Nat) (vm : Vm) : Static vm (jit_compile i vm).2 := by
  unfold jit_compile
  split
  · exact footprint_refl static_footprint _
  · split
    · exact footprint_refl static_footprint _
    · split
      · exact footprint_refl static_footprint _
      · dsimp only
        split
        · exact footprint_refl static_footprint _
        · split
          · exact footprint_refl static_footprint _
          · rename_i hs hc
            split
            · exact footprint_refl static_footprint _
            · refine ⟨rfl, rfl, rfl, fun hok e he => ?_⟩
              rcases List.mem_append.1 he with h1 | h1
              · exact hok e h1
              · rw [List.mem_singleton] at h1
                subst h1
                intro off h ho
                obtain ⟨ins, h2, h3⟩ := compile_handlers_ok _ _ hc off h ho
                exact ⟨ins, get?_drop_take _ _ _ _ _ h2, h3⟩

theorem static_maybe_jit_compile (i : Nat) (vm : Vm) : Static vm (maybe_jit_compile i vm) := by
  have e : maybe_jit_compile i vm =
      match vm.module_.functions.get? i with
      | none => vm
      | some fn =>
        if fn.entry_ip = kBuiltinEntryIp then vm
        else if (vm.hot_counters_.getD i 0 + 1) % 2 ^ 32 ≥ kHotFuncThreshold ∧
            (vm.code_cache_.find? (fun e => e.1 = i)).isNone then
          (jit_compile i { vm with
            hot_counters_ := vm.hot_counters_.set i ((vm.hot_counters_.getD i 0 + 1) % 2 ^ 32) }).2
        else { vm with
          hot_counters_ := vm.hot_counters_.set i ((vm.hot_counters_.getD i 0 + 1) % 2 ^ 32) } := rfl
  rw [e]
  split
  · exact footprint_refl static_footprint _
  · split
    · exact footprint_refl static_footprint _
    · split
      · exact static_footprint.trans _ _ _ ⟨rfl, rfl, rfl, id⟩ (static_jit_compile i _)
      · exact ⟨rfl, rfl, rfl, id⟩

theorem static_pop_args (n : Nat) (locals : List Value) : Keeps Static (pop_args n locals) := by
  induction n generalizing locals with
  | zero => exact Keeps.weaken static_footprint (quiet_pure _)
  | succ n ih =>
    unfold pop_args
    refine keeps_bind static_footprint (Keeps.weaken static_footprint quiet_pop) ?_
    intro v
    split
    · exact ih _
    · exact Keeps.weaken static_footprint (quiet_raise _)

theorem static_call_function (P : Platform) (f argc : Nat) :
    Keeps Static (call_function P f argc) := by
  unfold call_function
  repeat' first
    | exact Keeps.weaken static_footprint (quiet_raise _)
    | exact Keeps.weaken static_footprint (quiet_pure _)
    | exact Keeps.weaken static_footprint quiet_self
    | exact Keeps.weaken static_footprint quiet_frame
    | exact Keeps.weaken static_footprint (quiet_push _)
    | exact Keeps.weaken static_footprint (quiet_peek_args _)
    | exact Keeps.weaken static_footprint (quiet_func_name_view _)
    | exact Keeps.weaken static_footprint (quiet_call_builtin _ _ _)
    | exact static_pop_args _ _
    | exact keeps_update _ (static_maybe_jit_compile _)
    | exact keeps_update _ (fun vm => ⟨rfl, rfl, rfl, id⟩)
    | exact Keeps.weaken static_footprint (quiet_TempRoots _ (by
        repeat' first
          | exact quiet_raise _ | exact quiet_pure _ | exact quiet_push _
          | exact quiet_func_name_view _ | exact quiet_call_builtin _ _ _
          | exact quiet_update _ (fun vm => quiet_refl vm)
          | apply quiet_bind
          | split
          | intro _))
    | apply keeps_bind static_footprint
    | split
    | dsimp only
    | intro _

theorem static_ret_from_function : Keeps Static ret_from_function := by
  unfold ret_from_function
  repeat' first
    | exact Keeps.weaken static_footprint (quiet_raise _)
    | exact Keeps.weaken static_footprint (quiet_pure _)
    | exact Keeps.weaken static_footprint quiet_self
    | exact Keeps.weaken static_footprint quiet_pop
    | exact Keeps.weaken static_footprint (quiet_push _)
    | exact Keeps.weaken static_footprint (quiet_is_void_return _)
    | exact keeps_update _ (fun vm => ⟨rfl, rfl, rfl, id⟩)
    | exact keeps_setFrame _ (fun vm fs => ⟨rfl, rfl, rfl, id⟩)
    | apply keeps_bind static_footprint
    | split
    | dsimp only
    | intro _

theorem static_H_StoreLocal (ins : Instruction) : Keeps Static (H_StoreLocal ins) := by
  unfold H_StoreLocal
  repeat' first
    | exact Keeps.weaken static_footprint (quiet_raise _)
    | exact Keeps.weaken static_footprint quiet_frame
    | exact Keeps.weaken static_footprint quiet_pop
    | exact keeps_setFrame _ (fun vm fs => ⟨rfl, rfl, rfl, id⟩)
    | apply keeps_bind static_footprint
    | split
    | dsimp only
    | intro _

theorem static_H_StoreGlobal (ins : Instruction) : Keeps Static (H_StoreGlobal ins) := by
  unfold H_StoreGlobal
  repeat' first
    | exact Keeps.weaken static_footprint (quiet_raise _)
    | exact Keeps.weaken static_footprint quiet_self
    | exact Keeps.weaken static_footprint quiet_pop
    | exact Keeps.weaken static_footprint (quiet_const_string_view _)
    | exact keeps_update _ (fun vm => ⟨rfl, rfl, List.length_set _ _ _, id⟩)
    | apply keeps_bind static_footprint
    | split
    | dsimp only
    | intro _

theorem static_H_Jump (ins : Instruction) : Keeps Static (H_Jump ins) := by
  unfold H_Jump
  repeat' first
    | exact Keeps.weaken static_footprint (quiet_raise _)
    | exact Keeps.weaken static_footprint quiet_frame
    | exact Keeps.weaken static_footprint quiet_self
    | exact keeps_setFrame _ (fun vm fs => ⟨rfl, rfl, rfl, id⟩)
    | apply keeps_bind static_footprint
    | split
    | dsimp only
    | intro _

theorem static_H_JumpFalse (ins : Instruction) : Keeps Static (H_JumpFalse ins) := by
  unfold H_JumpFalse
  repeat' first
    | exact Keeps.weaken static_footprint (quiet_raise _)
    | exact Keeps.weaken static_footprint (quiet_pure _)
    | exact Keeps.weaken static_footprint quiet_frame
    | exact Keeps.weaken static_footprint quiet_self
    | exact Keeps.weaken static_footprint quiet_pop
    | exact keeps_setFrame _ (fun vm fs => ⟨rfl, rfl, rfl, id⟩)
    | apply keeps_bind static_footprint
    | split
    | dsimp only
    | intro _

theorem static_invoke (P : Platform) (h : Handler) (ins : Instruction) :
    Keeps Static (invoke P h ins) := by
  by_cases h1 : h = .H_StoreGlobal
  · subst h1
    exact static_H_StoreGlobal _
  by_cases h2 : h = .H_StoreLocal
  · subst h2
    exact static_H_StoreLocal _
  by_cases h3 : h = .H_Jump
  · subst h3
    exact static_H_Jump _
  by_cases h4 : h = .H_JumpFalse
  · subst h4
    exact static_H_JumpFalse _
  by_cases h5 : h = .H_Call
  · subst h5
    unfold invoke H_Call
    simp only
    split
    · exact Keeps.weaken static_footprint (quiet_raise _)
    · exact static_call_function _ _ _
  by_cases h6 : h = .H_Ret
  · subst h6
    exact static_ret_from_function
  exact Keeps.weaken static_footprint (quiet_invoke P h ins h1 h2 h3 h4 h5 h6)

theorem static_step (P : Platform) : Keeps Static (step P) := by
  unfold step
  repeat' first
    | exact Keeps.weaken static_footprint (quiet_raise _)
    | exact Keeps.weaken static_footprint quiet_frame
    | exact Keeps.weaken static_footprint quiet_self
    | exact static_invoke _ _ _
    | exact keeps_setFrame _ (fun vm fs => ⟨rfl, rfl, rfl, id⟩)
    | apply keeps_bind static_footprint
    | split
    | dsimp only
    | intro _

theorem static_run_jit (P : Platform) (cf : CompiledFunc) (fuel : Nat) :
    Keeps Static (run_jit P cf fuel) := by
  induction fuel with
  | zero => exact Keeps.weaken static_footprint (quiet_raise _)
  | succ fuel ih =>
    unfold run_jit
    repeat' first
      | exact Keeps.weaken static_footprint (quiet_raise _)
      | exact Keeps.weaken static_footprint (quiet_pure _)
      | exact Keeps.weaken static_footprint quiet_self
      | exact static_invoke _ _ _
      | exact ih
      | exact keeps_setFrame _ (fun vm fs => ⟨rfl, rfl, rfl, id⟩)
      | apply keeps_bind static_footprint
      | split
      | dsimp only
      | intro _

theorem static_run_loop (P : Platform) (fuel : Nat) : Keeps Static (run_loop P fuel) := by
  induction fuel with
  | zero => exact Keeps.weaken static_footprint (quiet_raise _)
  | succ fuel ih =>
    unfold run_loop
    repeat' first
      | exact Keeps.weaken static_footprint (quiet_raise _)
      | exact Keeps.weaken static_footprint (quiet_pure _)
      | exact Keeps.weaken static_footprint quiet_self
      | exact static_step _
      | exact static_run_jit _ _ _
      | exact ih
      | exact keeps_update _ (fun vm => ⟨rfl, rfl, rfl, id⟩)
      | apply keeps_bind static_footprint
      | split
      | dsimp only
      | intro _

theorem static_run_reset (vm : Vm) : Static vm (run_reset vm) :=
  ⟨rfl, rfl, List.length_map _ _, id⟩

theorem static_run (P : Platform) (fuel : Nat) : Keeps Static (run P fuel) := by
  unfold run
  exact keeps_bind static_footprint (keeps_update _ static_run_reset) (fun _ =>
    keeps_bind static_footprint (static_run_loop P fuel) (fun _ =>
      Keeps.weaken static_footprint (quiet_pure _)))

end Vm

namespace Vm

theorem Sat_and {α : Type} {r : Res α} {Q Q1 : α → Vm → Prop} {E E1 : String → Vm → Prop}
    (h : r.Sat Q E) (h1 : r.Sat Q1 E1) :
    r.Sat (fun a vm => Q a vm ∧ Q1 a vm) (fun m vm => E m vm ∧ E1 m vm) := by
  cases r with
  | ok a vm => exact ⟨h, h1⟩
  | throw m vm => exact ⟨h, h1⟩

/-- A handler called on an instruction of the module of a validated state:
it throws none of the defensive messages, and the state it leaves is
validated. -/
theorem validated_invoke (P : Platform) (h : Handler) (ins : Instruction) (vm : Vm)
    (hv : Validated vm) (hi : ins ∈ vm.module_.code) (hd : Dispatch ins.op = some h) :
    (invoke P h ins vm).Sat (fun _ vm1 => Static vm vm1) (fun m _ => Undefended m) := by
  refine Sat_mono (Sat_and ((static_invoke P h ins).sat vm)
    (undefended_invoke P h ins vm hv.1 hv.2.1 hv.2.2.1 hi hd)) (fun _ _ h => h.1) (fun _ _ h => h.2)

theorem undefended_step (P : Platform) (vm : Vm) (hv : Validated vm) :
    (step P vm).Sat (fun _ _ => True) (fun m _ => Undefended m) := by
  unfold step
  simp only [Sat_bind, Sat_frame, Sat_self]
  refine ⟨fun _ => by decide, fun fs f hf => ?_⟩
  cases hg : vm.module_.code.get? f.ip with
  | none =>
    simp only [Sat_raise]
    decide
  | some ins =>
    simp only [Sat_bind, Sat_setFrame]
    cases hd : Dispatch ins.op with
    | none =>
      simp only [Sat_raise]
      decide
    | some h =>
      simp only
      refine Sat_mono (validated_invoke P h ins _ (static_validated (static_frames vm _) hv)
        (List.get?_mem hg) hd) (fun _ _ _ => trivial) (fun _ _ h => h)

theorem undefended_run_jit (P : Platform) (cf : CompiledFunc) (fuel : Nat) (vm : Vm)
    (hv : Validated vm) (hc : CompiledOk vm.module_.code cf) :
    (run_jit P cf fuel vm).Sat (fun _ _ => True) (fun m _ => Undefended m) := by
  induction fuel generalizing vm with
  | zero =>
    unfold run_jit
    rw [Sat_raise]
    decide
  | succ fuel ih =>
    unfold run_jit
    simp only [Sat_bind, Sat_self]
    cases hf : vm.frames_.getLast? with
    | none => trivial
    | some cur =>
      simp only [Sat_ite, Sat_pure, implies_true, true_and]
      intro h1 h2
      cases hg : vm.module_.code.get? cur.ip with
      | none =>
        simp only [Sat_raise]
        decide
      | some ins =>
        simp only [Sat_bind, Sat_setFrame]
        cases ho : cf.handlers.get? (cur.ip - cf.entry_ip) with
        | none =>
          simp only [Sat_raise]
          decide
        | some oh =>
          cases oh with
          | none =>
            simp only [Sat_raise]
            decide
          | some h =>
            simp only [Sat_bind]
            obtain ⟨ins1, hi1, hd⟩ := hc _ _ ho
            have he : cf.entry_ip + (cur.ip - cf.entry_ip) = cur.ip := by omega
            rw [he, hg] at hi1
            cases hi1
            refine Sat_mono (validated_invoke P h ins _ (static_validated (static_frames vm _) hv)
              (List.get?_mem hg) hd) (fun _ vm1 hs => ?_) (fun _ _ h => h)
            refine ih vm1 (static_validated hs (static_validated (static_frames vm _) hv)) ?_
            rw [hs.1]
            exact hc

theorem undefended_run_loop (P : Platform) (fuel : Nat) (vm : Vm) (hv : Validated vm) :
    (run_loop P fuel vm).Sat (fun _ _ => True) (fun m _ => Undefended m) := by
  induction fuel generalizing vm with
  | zero =>
    unfold run_loop
    rw [Sat_raise]
    decide
  | succ fuel ih =>
    unfold run_loop
    simp only [Sat_bind, Sat_self]
    cases hf : vm.frames_.getLast? with
    | none => trivial
    | some f =>
      simp only [Sat_ite, Sat_bind, Sat_update]
      refine ⟨fun _ => ih _ (static_validated (static_frames vm _) hv), fun _ => ?_⟩
      have hstep : ((step P >>= fun _ => run_loop P fuel) vm).Sat (fun _ _ => True)
          (fun m _ => Undefended m) := by
        rw [Sat_bind]
        refine Sat_mono (Sat_and ((static_step P).sat vm) (undefended_step P vm hv))
          (fun _ vm1 h => ih vm1 (static_validated h.1 hv)) (fun _ _ h => h.2)
      cases hfind : vm.code_cache_.find? (fun e => e.1 = f.func_index) with
      | none => exact hstep
      | some e =>
        simp only [Sat_ite, Sat_bind]
        refine ⟨fun _ => ?_, fun _ => (Sat_bind _ _ _ _ _).1 hstep⟩
        have hc : CompiledOk vm.module_.code e.2 := hv.2.2.2 e (List.mem_of_find?_eq_some hfind)
        refine Sat_mono (Sat_and ((static_run_jit P e.2 fuel).sat vm)
          (undefended_run_jit P e.2 fuel vm hv hc))
          (fun _ vm1 h => ih vm1 (static_validated h.1 hv)) (fun _ _ h => h.2)

theorem undefended_run (P : Platform) (fuel : Nat) (vm : Vm) (hv : Validated vm) :
    (run P fuel vm).Sat (fun _ _ => True) (fun m _ => Undefended m) := by
  unfold run
  simp only [Sat_bind, Sat_update]
  exact Sat_mono (undefended_run_loop P fuel _ (static_validated (static_run_reset vm) hv))
    (fun _ _ _ => trivial) (fun _ _ h => h)

theorem BuildConstValues_step_static (P : Platform) (c : Constant) (vm : Vm) :
    (BuildConstValues_step P c vm).Sat
      (fun _ vm1 => vm1.module_ = vm.module_ ∧
        vm1.const_values_.length = vm.const_values_.length + 1 ∧
        vm1.code_cache_ = vm.code_cache_) (fun _ _ => True) := by
  unfold BuildConstValues_step
  obtain ⟨tag, value⟩ := c
  cases tag <;> cases value <;>
    simp only [Sat_bind, Sat_lift, Sat_update, Sat_self, Sat_raise, List.length_append,
      List.length_singleton, implies_true, and_self]

theorem BuildConstValues_static (P : Platform) (cs : List Constant) (vm : Vm) :
    (BuildConstValues P cs vm).Sat
      (fun _ vm1 => vm1.module_ = vm.module_ ∧
        vm1.const_values_.length = vm.const_values_.length + cs.length ∧
        vm1.code_cache_ = vm.code_cache_) (fun _ _ => True) := by
  induction cs generalizing vm with
  | nil => exact ⟨rfl, rfl, rfl⟩
  | cons c rest ih =>
    unfold BuildConstValues
    rw [Sat_bind]
    refine Sat_mono (BuildConstValues_step_static P c vm) (fun _ vm1 h => ?_) (fun _ _ h => h)
    refine Sat_mono (ih vm1) (fun _ vm2 h2 => ?_) (fun _ _ h => h)
    refine ⟨h2.1.trans h.1, ?_, h2.2.2.trans h.2.2⟩
    rw [h2.2.1, h.2.1, List.length_cons]
    omega

theorem create_validated (P : Platform) (m : BytecodeModule) (vm : Vm)
    (hm : ValidateModule m = .ok ()) (hc : create P m = .ok vm) : Validated vm := by
  unfold create at hc
  have h := BuildConstValues_static P m.const_pool
    { module_ := m, heap_ := Heap.init, const_values_ := [], stack_ := [], globals_values_ := [],
      globals_set_ := [], frames_ := [], temp_roots_ := [], func_end_ip_ := [],
      hot_counters_ := [], code_cache_ := [], cout := [] }
  simp only at hc
  cases hb : BuildConstValues P m.const_pool
    { module_ := m, heap_ := Heap.init, const_values_ := [], stack_ := [], globals_values_ := [],
      globals_set_ := [], frames_ := [], temp_roots_ := [], func_end_ip_ := [],
      hot_counters_ := [], code_cache_ := [], cout := [] } with
  | throw msg vm1 =>
    rw [hb] at hc
    cases hc
  | ok u vm1 =>
    rw [hb] at hc h
    cases hc
    obtain ⟨h1, h2, h3⟩ := h
    simp only at h1 h2 h3
    refine ⟨by simp only [h1]; exact hm, by simp only [h1, h2, List.length_nil, Nat.zero_add],
      by simp only [h1, List.length_replicate], ?_⟩
    intro e he
    simp only [h3] at he
    cases he

end Vm

/-! ## Claim about the defensive checks -/

namespace Vm

/-- C16. Validated modules never hit the defensive operand checks of the
interpreter. Let `ValidateModule` accept `m` and the constructor build `vm0`
for it. Then `vm0` is validated: its module passes `ValidateModule`, it has
one constant value and one global slot for every constant, and every cache
entry holds the handlers of the instructions of its range. From every
validated state, whatever the fuel, `run` leaves a validated state (so the
next `run` starts from one), and if it throws, its message is none of
"PUSH_CONST missing a", "PUSH_CONST const index out of range", "LOAD_GLOBAL
missing a", "STORE_GLOBAL missing a", "LOAD_GLOBAL const index out of range",
"STORE_GLOBAL const index out of range", "CALL missing operands", "CALL bad
func index", "JUMP missing a", "JUMP_FALSE missing a", "JUMP target out of
range", "JUMP_FALSE target out of range"; the same holds of one call of the
handler that `Dispatch` has for the opcode of an instruction of the module,
and of one `step`. In particular no `run` on `vm0` throws one of them. -/
theorem defensive_checks_unreachable (P : Platform) (m : BytecodeModule) (vm0 : Vm)
    (hm : ValidateModule m = .ok ()) (hc : create P m = .ok vm0) :
    Validated vm0 ∧
    (∀ vm, Validated vm → ∀ fuel,
      Validated (run P fuel vm).state ∧
      ∀ msg, (run P fuel vm).message = some msg → msg ∉ defensiveMsgs) ∧
    (∀ vm, Validated vm → ∀ h ins, ins ∈ vm.module_.code → Dispatch ins.op = some h →
      Validated (invoke P h ins vm).state ∧
      ∀ msg, (invoke P h ins vm).message = some msg → msg ∉ defensiveMsgs) ∧
    (∀ vm, Validated vm →
      Validated (step P vm).state ∧
      ∀ msg, (step P vm).message = some msg → msg ∉ defensiveMsgs) ∧
    ∀ fuel msg, (run P fuel vm0).message = some msg → msg ∉ defensiveMsgs := by
  have h0 := create_validated P m vm0 hm hc
  refine ⟨h0, fun vm hv fuel => ⟨static_validated ((static_run P fuel).rel vm) hv,
    Res.message_of_sat (undefended_run P fuel vm hv)⟩,
    fun vm hv h ins hi hd => ⟨static_validated ((static_invoke P h ins).rel vm) hv,
      Res.message_of_sat (undefended_invoke P h ins vm hv.1 hv.2.1 hv.2.2.1 hi hd)⟩,
    fun vm hv => ⟨static_validated ((static_step P).rel vm) hv,
      Res.message_of_sat (undefended_step P vm hv)⟩,
    fun fuel => Res.message_of_sat (undefended_run P fuel vm0 h0)⟩

theorem defensive_checks_unreachable_witness :
    ValidateModule badLocalsModule = .ok () ∧
    create lp64 badLocalsModule = .ok (fSevenVm badLocalsModule 4) ∧
    (run lp64 10 (fSevenVm badLocalsModule 4)).message = some oobMsg ∧
    oobMsg ∉ defensiveMsgs :=
  ⟨by decide!, by decide!, by decide!,
    (defensive_checks_unreachable lp64 badLocalsModule (fSevenVm badLocalsModule 4)
      (by decide!) (by decide!)).2.2.2.2 10 oobMsg (by decide!)⟩

end Vm

/-! ## Doubles: equality and the sum -/

namespace Double

theorem sign_iff (x : Nat) : sign x = true ↔ x / 2 ^ 63 % 2 = 1 := by
  simp [sign]

theorem isNaN_iff (x : Nat) : isNaN x = true ↔ expo x = 2047 ∧ frac x ≠ 0 := by
  simp [isNaN]

theorem isInf_iff (x : Nat) : isInf x = true ↔ expo x = 2047 ∧ frac x = 0 := by
  simp [isInf]

theorem isZero_iff (x : Nat) : isZero x = true ↔ expo x = 0 ∧ frac x = 0 := by
  simp [isZero]

theorem frac_lt (x : Nat) : frac x < 2 ^ 52 := Nat.mod_lt _ (by decide)

theorem expo_lt (x : Nat) : expo x < 2 ^ 11 := Nat.mod_lt _ (by decide)

/-- The low 63 bits of a pattern are its exponent and fraction fields. -/
theorem low_eq (x : Nat) : x % 2 ^ 63 = expo x * 2 ^ 52 + frac x := by
  unfold expo frac
  omega

theorem units_lt (x : Nat) : units x < 2 ^ 52 * 2 ^ expo x := by
  unfold units
  have hf := frac_lt x
  split
  · rename_i h
    rw [h]
    omega
  · rename_i h
    have e : expo x = (expo x - 1) + 1 := by omega
    have hp : 0 < 2 ^ (expo x - 1) := Nat.two_pow_pos _
    rw [e, pow_succ, Nat.add_sub_cancel]
    have h1 : (2 ^ 52 + frac x) * 2 ^ (expo x - 1) < (2 ^ 52 * 2) * 2 ^ (expo x - 1) :=
      Nat.mul_lt_mul_of_pos_right (by omega) hp
    calc (2 ^ 52 + frac x) * 2 ^ (expo x - 1) < (2 ^ 52 * 2) * 2 ^ (expo x - 1) := h1
      _ = 2 ^ 52 * (2 ^ (expo x - 1) * 2) := by ring

theorem units_ge (x : Nat) (h : expo x ≠ 0) : 2 ^ 52 * 2 ^ (expo x - 1) ≤ units x := by
  unfold units
  rw [if_neg h]
  exact Nat.mul_le_mul_right _ (by omega)

/-- Among finite doubles the magnitude grows with the low 63 bits. -/
theorem units_strictMono (x y : Nat) (h : x % 2 ^ 63 < y % 2 ^ 63) : units x < units y := by
  rw [low_eq, low_eq] at h
  have hfx := frac_lt x
  have hfy := frac_lt y
  rcases Nat.lt_trichotomy (expo x) (expo y) with he | he | he
  · have hy : expo y ≠ 0 := by omega
    have h1 := units_lt x
    have h2 := units_ge y hy
    have h3 : 2 ^ expo x ≤ 2 ^ (expo y - 1) := Nat.pow_le_pow_right (by decide) (by omega)
    have h4 : 2 ^ 52 * 2 ^ expo x ≤ 2 ^ 52 * 2 ^ (expo y - 1) := Nat.mul_le_mul_left _ h3
    omega
  · have hf : frac x < frac y := by
      rw [he] at h
      omega
    unfold units
    rw [he]
    split
    · exact hf
    · exact Nat.mul_lt_mul_of_pos_right (by omega) (Nat.two_pow_pos _)
  · exfalso
    have : (expo y + 1) * 2 ^ 52 ≤ expo x * 2 ^ 52 := Nat.mul_le_mul_right _ he
    omega

theorem units_inj (x y : Nat) (h : units x = units y) : x % 2 ^ 63 = y % 2 ^ 63 := by
  rcases Nat.lt_trichotomy (x % 2 ^ 63) (y % 2 ^ 63) with h1 | h1 | h1
  · have := units_strictMono x y h1
    omega
  · exact h1
  · have := units_strictMono y x h1
    omega

theorem units_eq_zero_iff (x : Nat) : units x = 0 ↔ x % 2 ^ 63 = 0 := by
  constructor
  · intro h
    have h0 : units 0 = 0 := by decide
    have := units_inj x 0 (h.trans h0.symm)
    simpa using this
  · intro h
    rw [low_eq] at h
    have hf : frac x = 0 := by omega
    have he : expo x = 0 := by
      have hpos : (0 : Nat) < 2 ^ 52 := by decide
      rcases Nat.eq_zero_or_pos (expo x) with h1 | h1
      · exact h1
      · have : 2 ^ 52 ≤ expo x * 2 ^ 52 := Nat.le_mul_of_pos_left _ h1
        omega
    unfold units
    rw [if_pos he, hf]

theorem isZero_iff_low (x : Nat) : isZero x = true ↔ x % 2 ^ 63 = 0 := by
  rw [isZero_iff, low_eq]
  have hf := frac_lt x
  constructor
  · rintro ⟨h1, h2⟩
    rw [h1, h2]
    rfl
  · intro h
    have hf0 : frac x = 0 := by omega
    refine ⟨?_, hf0⟩
    rcases Nat.eq_zero_or_pos (expo x) with h1 | h1
    · exact h1
    · have : 2 ^ 52 ≤ expo x * 2 ^ 52 := Nat.le_mul_of_pos_left _ h1
      omega

/-- The order key of two patterns of 64 bits is the same exactly when the
patterns are the same or both are zeros. -/
theorem key_eq_iff (a b : Nat) (ha : a < 2 ^ 64) (hb : b < 2 ^ 64) :
    key a = key b ↔ a = b ∨ (isZero a = true ∧ isZero b = true) := by
  rw [isZero_iff_low, isZero_iff_low]
  unfold key
  have sa := sign_iff a
  have sb := sign_iff b
  by_cases h1 : sign a = true <;> by_cases h2 : sign b = true
  · rw [if_pos h1, if_pos h2]
    have := sa.1 h1
    have := sb.1 h2
    omega
  · rw [if_pos h1, if_neg h2]
    have := sa.1 h1
    have : ¬ b / 2 ^ 63 % 2 = 1 := fun h => h2 (sb.2 h)
    omega
  · rw [if_neg h1, if_pos h2]
    have : ¬ a / 2 ^ 63 % 2 = 1 := fun h => h1 (sa.2 h)
    have := sb.1 h2
    omega
  · rw [if_neg h1, if_neg h2]
    have : ¬ a / 2 ^ 63 % 2 = 1 := fun h => h1 (sa.2 h)
    have : ¬ b / 2 ^ 63 % 2 = 1 := fun h => h2 (sb.2 h)
    omega

/-- `a == b` on doubles: neither is a NaN, and they are the same double or
both are zeros. -/
theorem eq_iff (a b : Nat) (ha : a < 2 ^ 64) (hb : b < 2 ^ 64) :
    eq a b = true ↔
      isNaN a = false ∧ isNaN b = false ∧ (a = b ∨ (isZero a = true ∧ isZero b = true)) := by
  unfold eq
  rw [Bool.and_eq_true, Bool.and_eq_true, decide_eq_true_iff, key_eq_iff a b ha hb]
  simp only [Bool.not_eq_true', and_assoc]

theorem units_congr (a b : Nat) (h : a % 2 ^ 63 = b % 2 ^ 63) : units a = units b := by
  have he : expo a = expo b := by
    unfold expo
    omega
  have hf : frac a = frac b := by
    unfold frac
    omega
  unfold units
  rw [he, hf]

/-- The keys of two doubles are the same exactly when their values are. -/
theorem key_eq_iff_value (a b : Nat) : key a = key b ↔ value a = value b := by
  unfold key value
  have ua := units_eq_zero_iff a
  have ub := units_eq_zero_iff b
  have h1 : units a = units b → a % 2 ^ 63 = b % 2 ^ 63 := units_inj a b
  have h2 : a % 2 ^ 63 = b % 2 ^ 63 → units a = units b := units_congr a b
  by_cases sa : sign a = true <;> by_cases sb : sign b = true
  · rw [if_pos sa, if_pos sb, if_pos sa, if_pos sb]
    constructor <;> intro h <;> omega
  · rw [if_pos sa, if_neg sb, if_pos sa, if_neg sb]
    constructor <;> intro h <;> omega
  · rw [if_neg sa, if_pos sb, if_neg sa, if_pos sb]
    constructor <;> intro h <;> omega
  · rw [if_neg sa, if_neg sb, if_neg sa, if_neg sb]
    constructor <;> intro h <;> omega

theorem finite_not_nan {x : Nat} (h : Finite x) : isNaN x = false := by
  cases hn : isNaN x with
  | false => rfl
  | true =>
    have := (isNaN_iff x).1 hn
    have := h.2
    omega

/-- `a == b` on finite doubles: they denote the same number. -/
theorem eq_iff_value (a b : Nat) (ha : Finite a) (hb : Finite b) :
    eq a b = true ↔ value a = value b := by
  unfold eq
  rw [finite_not_nan ha, finite_not_nan hb, ← key_eq_iff_value]
  simp

theorem eq_nan (a b : Nat) (h : isNaN a = true ∨ isNaN b = true) : eq a b = false := by
  unfold eq
  rcases h with h | h
  · rw [h]
    rfl
  · rw [h]
    simp

theorem signBit_cases (s : Bool) : (s = true ∧ signBit s = 2 ^ 63) ∨ (s = false ∧ signBit s = 0) := by
  cases s
  · exact Or.inr ⟨rfl, rfl⟩
  · exact Or.inl ⟨rfl, rfl⟩

/-- The fields of the pattern made of a sign, an exponent field and a
fraction field. -/
theorem fields_mk (s : Bool) (e f : Nat) (he : e < 2048) (hf : f < 2 ^ 52) :
    signBit s + e * 2 ^ 52 + f < 2 ^ 64 ∧ sign (signBit s + e * 2 ^ 52 + f) = s ∧
    expo (signBit s + e * 2 ^ 52 + f) = e ∧ frac (signBit s + e * 2 ^ 52 + f) = f := by
  cases s
  · have h2 : signBit false = 0 := rfl
    rw [h2]
    refine ⟨by omega, ?_, by unfold expo; omega, by unfold frac; omega⟩
    cases h : sign (0 + e * 2 ^ 52 + f) with
    | false => rfl
    | true =>
      rw [sign_iff] at h
      omega
  · have h2 : signBit true = 2 ^ 63 := rfl
    rw [h2]
    refine ⟨by omega, ?_, by unfold expo; omega, by unfold frac; omega⟩
    rw [sign_iff]
    omega

theorem log2_spec (n : Nat) (hn : n ≠ 0) : 2 ^ Nat.log2 n ≤ n ∧ n < 2 ^ (Nat.log2 n + 1) :=
  ⟨Nat.log2_self_le hn, Nat.lt_log2_self⟩

/-- What `roundHalfEven` returns: the multiple of `d` nearest to `a`, the even
one of two. -/
theorem roundHalfEven_spec (a d : Nat) (hd : 0 < d) :
    (roundHalfEven a d = a / d ∨ roundHalfEven a d = a / d + 1) ∧
    (roundHalfEven a d = a / d → 2 * (a % d) ≤ d) ∧
    (roundHalfEven a d = a / d + 1 → d ≤ 2 * (a % d)) ∧
    (2 * (a % d) = d → roundHalfEven a d % 2 = 0) := by
  unfold roundHalfEven
  simp only
  have hm := Nat.mod_lt a hd
  by_cases h1 : 2 * (a % d) < d
  · rw [if_pos h1]
    exact ⟨Or.inl rfl, fun _ => by omega, fun h => by omega, fun h => by omega⟩
  · rw [if_neg h1]
    by_cases h2 : 2 * (a % d) > d
    · rw [if_pos h2]
      exact ⟨Or.inr rfl, fun h => by omega, fun _ => by omega, fun h => by omega⟩
    · rw [if_neg h2]
      have e : 2 * (a % d) = d := by omega
      refine ⟨by omega, fun _ => by omega, fun _ => by omega, fun _ => by omega⟩

theorem units_mk (s : Bool) (e f : Nat) (he : e < 2048) (hf : f < 2 ^ 52) :
    units (signBit s + e * 2 ^ 52 + f) =
      if e = 0 then f else (2 ^ 52 + f) * 2 ^ (e - 1) := by
  obtain ⟨-, -, h3, h4⟩ := fields_mk s e f he hf
  unfold units
  rw [h3, h4]

theorem even_mk (s : Bool) (e f : Nat) : (signBit s + e * 2 ^ 52 + f) % 2 = f % 2 := by
  rcases signBit_cases s with ⟨-, h⟩ | ⟨-, h⟩ <;> rw [h] <;> omega

/-- The quotient that `round` rounds has at most 53 bits, and exactly 53 once
the number has. -/
theorem round_quotient (n p : Nat) (hn : 0 < n) (hp : p = Nat.log2 n - 52) :
    n / 2 ^ p < 2 ^ 53 ∧ (52 ≤ Nat.log2 n → 2 ^ 52 ≤ n / 2 ^ p) ∧
    (Nat.log2 n ≤ 52 → p = 0) := by
  obtain ⟨h1, h2⟩ := log2_spec n (by omega)
  have hpos : 0 < 2 ^ p := Nat.two_pow_pos p
  refine ⟨?_, fun h => ?_, fun h => by omega⟩
  · rw [Nat.div_lt_iff_lt_mul hpos, ← pow_add]
    exact lt_of_lt_of_le h2 (Nat.pow_le_pow_right (by decide) (by omega))
  · rw [Nat.le_div_iff_mul_le hpos, ← pow_add]
    exact le_trans (Nat.pow_le_pow_right (by decide) (by omega)) h1

/-- What `round` returns for a positive number `n` of units 2^-1074: with `m`
the quotient of `n` by `2 ^ p` rounded to the nearest integer, ties to even,
where `p` is the number of bits of `n` above 53, the finite double of units
`m * 2 ^ p` and the given sign if that is below 2^2098 (the pattern is even
if `m` is), and the infinity of that sign otherwise. -/
theorem round_spec (s : Bool) (n p m : Nat) (hn : 0 < n) (hp : p = Nat.log2 n - 52)
    (hm : m = roundHalfEven n (2 ^ p)) :
    (m * 2 ^ p < 2 ^ 52 * 2 ^ 2046 →
      Finite (round s n 1) ∧ sign (round s n 1) = s ∧ units (round s n 1) = m * 2 ^ p ∧
      (m % 2 = 0 → round s n 1 % 2 = 0)) ∧
    (2 ^ 52 * 2 ^ 2046 ≤ m * 2 ^ p → round s n 1 = inf s) := by
  have hpos : 0 < 2 ^ p := Nat.two_pow_pos p
  obtain ⟨hq1, hq2, hq3⟩ := round_quotient n p hn hp
  obtain ⟨r1, r2, r3, r4⟩ := roundHalfEven_spec n (2 ^ p) hpos
  rw [← hm] at r1 r2 r3 r4
  have hm53 : m ≤ 2 ^ 53 := by omega
  have hr : round s n 1 =
      if (if m = 2 ^ 53 then 2 ^ 52 else m) < 2 ^ 52 then
        signBit s + (if m = 2 ^ 53 then 2 ^ 52 else m)
      else if (if m = 2 ^ 53 then p + 1 else p) + 1 ≥ 2047 then inf s
      else signBit s + ((if m = 2 ^ 53 then p + 1 else p) + 1) * 2 ^ 52 +
        ((if m = 2 ^ 53 then 2 ^ 52 else m) - 2 ^ 52) := by
    unfold round
    rw [if_neg (by omega)]
    simp only [Nat.div_one, Nat.one_mul, ← hp, ← hm]
  rw [hr]
  by_cases h53 : m = 2 ^ 53
  · simp only [if_pos h53, lt_irrefl, if_false, Nat.sub_self, Nat.add_zero]
    have hM : m * 2 ^ p = 2 ^ 52 * 2 ^ (p + 1) := by
      rw [h53, pow_succ]
      ring
    rw [hM]
    by_cases hov : p + 1 + 1 ≥ 2047
    · rw [if_pos hov]
      refine ⟨fun h => ?_, fun _ => rfl⟩
      have : 2 ^ 2046 ≤ 2 ^ (p + 1) := Nat.pow_le_pow_right (by decide) (by omega)
      have := Nat.mul_le_mul_left (2 ^ 52) this
      omega
    · rw [if_neg hov]
      refine ⟨fun _ => ?_, fun h => ?_⟩
      · obtain ⟨f1, f2, f3, f4⟩ := fields_mk s (p + 1 + 1) 0 (by omega) (by decide)
        simp only [Nat.add_zero] at f1 f2 f3 f4
        refine ⟨⟨f1, by rw [f3]; omega⟩, f2, ?_, fun _ => ?_⟩
        · have := units_mk s (p + 1 + 1) 0 (by omega) (by decide)
          simp only [Nat.add_zero] at this
          rw [this, if_neg (by omega), Nat.add_sub_cancel]
        · have := even_mk s (p + 1 + 1) 0
          simp only [Nat.add_zero] at this
          rw [this]
      · exfalso
        have h1 : 2 ^ (p + 1) < 2 ^ 2046 := Nat.pow_lt_pow_right (by decide) (by omega)
        have := Nat.mul_lt_mul_of_pos_left h1 (show 0 < 2 ^ 52 by decide)
        omega
  · simp only [if_neg h53]
    have hlt : m < 2 ^ 53 := by omega
    by_cases hsub : m < 2 ^ 52
    · rw [if_pos hsub]
      have hk : ¬ 52 ≤ Nat.log2 n := fun h => by
        have := hq2 h
        omega
      have hp0 : p = 0 := hq3 (by omega)
      rw [hp0, pow_zero, Nat.mul_one]
      refine ⟨fun _ => ?_, fun h => ?_⟩
      · obtain ⟨f1, f2, f3, f4⟩ := fields_mk s 0 m (by decide) hsub
        simp only [Nat.zero_mul, Nat.add_zero] at f1 f2 f3 f4
        refine ⟨⟨f1, by rw [f3]; decide⟩, f2, ?_, fun he => ?_⟩
        · have := units_mk s 0 m (by decide) hsub
          simp only [Nat.zero_mul, Nat.add_zero, if_true] at this
          exact this
        · have := even_mk s 0 m
          simp only [Nat.zero_mul, Nat.add_zero] at this
          rw [this]
          exact he
      · exfalso
        have : (2 : Nat) ^ 52 * 1 ≤ 2 ^ 52 * 2 ^ 2046 :=
          Nat.mul_le_mul_left _ (Nat.one_le_two_pow)
        omega
    · rw [if_neg hsub]
      by_cases hov : p + 1 ≥ 2047
      · rw [if_pos hov]
        refine ⟨fun h => ?_, fun _ => rfl⟩
        have h1 : 2 ^ 2046 ≤ 2 ^ p := Nat.pow_le_pow_right (by decide) (by omega)
        have h2 : 2 ^ 52 * 2 ^ 2046 ≤ m * 2 ^ p :=
          Nat.mul_le_mul (by omega) h1
        omega
      · rw [if_neg hov]
        refine ⟨fun _ => ?_, fun h => ?_⟩
        · obtain ⟨f1, f2, f3, f4⟩ := fields_mk s (p + 1) (m - 2 ^ 52) (by omega) (by omega)
          refine ⟨⟨f1, by rw [f3]; omega⟩, f2, ?_, fun he => ?_⟩
          · rw [units_mk s (p + 1) (m - 2 ^ 52) (by omega) (by omega), if_neg (by omega),
              Nat.add_sub_cancel]
            have e : 2 ^ 52 + (m - 2 ^ 52) = m := by omega
            rw [e]
          · rw [even_mk]
            omega
        · exfalso
          have h1 : 2 ^ p ≤ 2 ^ 2045 := Nat.pow_le_pow_right (by decide) (by omega)
          have h2 : m * 2 ^ p < 2 ^ 53 * 2 ^ p := Nat.mul_lt_mul_of_pos_right hlt hpos
          have h3 : 2 ^ 53 * 2 ^ p ≤ 2 ^ 53 * 2 ^ 2045 := Nat.mul_le_mul_left _ h1
          have h4 : (2 : Nat) ^ 53 * 2 ^ 2045 = 2 ^ 52 * 2 ^ 2046 := by
            rw [← pow_add, ← pow_add]
          omega

/-- The multiple `m * D` that `roundHalfEven` chooses is at least as near to
`n` as any other multiple `j * D`, and nearer unless `n` is half way between
two multiples, in which case `m` is even. -/
theorem roundHalfEven_nearest (n D m j : Nat) (hD : 0 < D) (hm : m = roundHalfEven n D) :
    (((m * D : Nat) : Int) - n).natAbs ≤ (((j * D : Nat) : Int) - n).natAbs ∧
    (j * D ≠ m * D → (((j * D : Nat) : Int) - n).natAbs = (((m * D : Nat) : Int) - n).natAbs →
      m % 2 = 0) ∧
    2 * (((m * D : Nat) : Int) - n).natAbs ≤ D := by
  obtain ⟨r1, r2, r3, r4⟩ := roundHalfEven_spec n D hD
  rw [← hm] at r1 r2 r3 r4
  have hdm := Nat.div_add_mod n D
  have hr0 := Nat.mod_lt n hD
  rw [Nat.mul_comm] at hdm
  have hj : (j + 1) * D ≤ n / D * D ∨ j * D = n / D * D ∨ j * D = n / D * D + D ∨
      n / D * D + 2 * D ≤ j * D := by
    rcases Nat.lt_trichotomy j (n / D) with h | h | h
    · exact Or.inl (Nat.mul_le_mul_right D h)
    · exact Or.inr (Or.inl (by rw [h]))
    · rcases Nat.eq_or_lt_of_le (Nat.succ_le_of_lt h) with h1 | h1
      · refine Or.inr (Or.inr (Or.inl ?_))
        rw [← h1, Nat.succ_mul]
      · refine Or.inr (Or.inr (Or.inr ?_))
        have := Nat.mul_le_mul_right D (Nat.succ_le_of_lt h1)
        rw [Nat.succ_mul, Nat.succ_mul] at this
        omega
  rw [Nat.succ_mul] at hj
  have hM : (m * D = n / D * D ∧ 2 * (n % D) ≤ D) ∨
      (m * D = n / D * D + D ∧ D ≤ 2 * (n % D)) := by
    rcases r1 with h | h
    · exact Or.inl ⟨by rw [h], r2 h⟩
    · exact Or.inr ⟨by rw [h, Nat.succ_mul], r3 h⟩
  generalize n / D * D = Q at hdm hj hM
  generalize j * D = U at hj ⊢
  generalize m * D = M at hM ⊢
  generalize n % D = r0 at hdm hr0 r4 hM
  refine ⟨?_, ?_, ?_⟩
  · omega
  · intro hne heq
    apply r4
    omega
  · omega

/-- A double of magnitude at least `2 ^ k` has a magnitude that is a multiple
of `2 ^ (k - 52)`. -/
theorem units_multiple (d k : Nat) (h : 2 ^ k ≤ units d) : ∃ j, units d = j * 2 ^ (k - 52) := by
  by_cases hk : k ≤ 52
  · refine ⟨units d, ?_⟩
    rw [Nat.sub_eq_zero_of_le hk, pow_zero, Nat.mul_one]
  · have h1 := units_lt d
    rw [← pow_add] at h1
    have h2 : k < 52 + expo d := by
      by_contra hc
      have := Nat.pow_le_pow_right (show 2 > 0 by decide) (Nat.le_of_not_lt hc)
      omega
    have he : expo d ≠ 0 := by omega
    refine ⟨(2 ^ 52 + frac d) * 2 ^ (expo d - 1 - (k - 52)), ?_⟩
    unfold units
    rw [if_neg he, Nat.mul_assoc, ← pow_add]
    congr 2
    omega

/-- The arithmetic of `round_nearest`: `M` is the magnitude chosen for the
number `r`, `K` a power of two that is a multiple of the step and at most
the magnitude of `r`, `U` the magnitude of another double of sign `sd`. -/
theorem nearest_arith (r : Int) (M U K : Nat) (sd : Bool) (hK : 0 < K) (hk1 : K ≤ r.natAbs)
    (f1 : ((M : Int) - r.natAbs).natAbs ≤ ((K : Int) - r.natAbs).natAbs)
    (g : K ≤ U → ((M : Int) - r.natAbs).natAbs ≤ ((U : Int) - r.natAbs).natAbs) :
    ((if r < 0 then -(M : Int) else (M : Int)) - r).natAbs ≤
      ((if sd = true then -(U : Int) else (U : Int)) - r).natAbs ∧
    ((if sd = true then -(U : Int) else (U : Int)) ≠ (if r < 0 then -(M : Int) else (M : Int)) →
      ((if sd = true then -(U : Int) else (U : Int)) - r).natAbs =
        ((if r < 0 then -(M : Int) else (M : Int)) - r).natAbs →
      K ≤ U ∧ U ≠ M ∧ ((U : Int) - r.natAbs).natAbs = ((M : Int) - r.natAbs).natAbs) := by
  by_cases hb : K ≤ U
  · have g1 := g hb
    clear g
    by_cases h : r < 0 <;> by_cases h2 : sd = true
    · rw [if_pos h, if_pos h2]
      exact ⟨by omega, fun hne heq => ⟨hb, by omega, by omega⟩⟩
    · rw [if_pos h, if_neg h2]
      exact ⟨by omega, fun hne heq => ⟨hb, by omega, by omega⟩⟩
    · rw [if_neg h, if_pos h2]
      exact ⟨by omega, fun hne heq => ⟨hb, by omega, by omega⟩⟩
    · rw [if_neg h, if_neg h2]
      exact ⟨by omega, fun hne heq => ⟨hb, by omega, by omega⟩⟩
  · clear g
    by_cases h : r < 0 <;> by_cases h2 : sd = true
    · rw [if_pos h, if_pos h2]
      exact ⟨by omega, fun hne heq => by omega⟩
    · rw [if_pos h, if_neg h2]
      exact ⟨by omega, fun hne heq => by omega⟩
    · rw [if_neg h, if_pos h2]
      exact ⟨by omega, fun hne heq => by omega⟩
    · rw [if_neg h, if_neg h2]
      exact ⟨by omega, fun hne heq => by omega⟩

/-- The double that `round` returns when it returns a finite one is nearest
to the number rounded. -/
theorem round_nearest (r : Int) (hr : r ≠ 0) (p m : Nat) (hp : p = Nat.log2 r.natAbs - 52)
    (hm : m = roundHalfEven r.natAbs (2 ^ p)) (c : Nat) (hc : Finite c)
    (hs : sign c = decide (r < 0)) (hu : units c = m * 2 ^ p)
    (he : m % 2 = 0 → c % 2 = 0) : Nearest r c := by
  have hn : 0 < r.natAbs := Int.natAbs_pos.2 hr
  have hpos : 0 < 2 ^ p := Nat.two_pow_pos p
  obtain ⟨hk1, hk2⟩ := log2_spec r.natAbs (by omega)
  have hkp : 2 ^ Nat.log2 r.natAbs = 2 ^ (Nat.log2 r.natAbs - p) * 2 ^ p := by
    rw [← pow_add]
    congr 1
    omega
  have f1 := (roundHalfEven_nearest r.natAbs (2 ^ p) m (2 ^ (Nat.log2 r.natAbs - p)) hpos hm).1
  rw [← hkp] at f1
  have vc : value c = if r < 0 then -((m * 2 ^ p : Nat) : Int) else ((m * 2 ^ p : Nat) : Int) := by
    unfold value
    rw [hs, hu]
    by_cases h : r < 0
    · simp [h]
    · simp [h]
  have key : ∀ d, (value c - r).natAbs ≤ (value d - r).natAbs ∧
      (value d ≠ value c → (value d - r).natAbs = (value c - r).natAbs → m % 2 = 0) := by
    intro d
    have vd : value d = if sign d = true then -((units d : Nat) : Int) else ((units d : Nat) : Int) := rfl
    have g : 2 ^ Nat.log2 r.natAbs ≤ units d →
        (((m * 2 ^ p : Nat) : Int) - r.natAbs).natAbs ≤ (((units d : Nat) : Int) - r.natAbs).natAbs ∧
        (units d ≠ m * 2 ^ p →
          (((units d : Nat) : Int) - r.natAbs).natAbs = (((m * 2 ^ p : Nat) : Int) - r.natAbs).natAbs →
          m % 2 = 0) := by
      intro hbig
      obtain ⟨j, hj⟩ := units_multiple d _ hbig
      rw [← hp] at hj
      obtain ⟨g1, g2, -⟩ := roundHalfEven_nearest r.natAbs (2 ^ p) m j hpos hm
      rw [← hj] at g1 g2
      exact ⟨g1, g2⟩
    have h := nearest_arith r (m * 2 ^ p) (units d) (2 ^ Nat.log2 r.natAbs) (sign d)
      (Nat.two_pow_pos _) hk1 f1 (fun hb => (g hb).1)
    rw [vc, vd]
    exact ⟨h.1, fun hne heq => by
      obtain ⟨h1, h2, h3⟩ := h.2 hne heq
      exact (g h1).2 h2 h3⟩
  exact ⟨hc, fun d _ => (key d).1, fun d _ hne heq => he ((key d).2 hne heq)⟩

/-- The number that `round` rounds reaches `overflowUnits` exactly when the
rounded magnitude reaches 2^2098, the first that is no finite double. -/
theorem round_threshold (n p m : Nat) (hn : 0 < n) (hp : p = Nat.log2 n - 52)
    (hm : m = roundHalfEven n (2 ^ p)) :
    m * 2 ^ p < 2 ^ 52 * 2 ^ 2046 ↔ n < overflowUnits := by
  have hpos : 0 < 2 ^ p := Nat.two_pow_pos p
  obtain ⟨hk1, hk2⟩ := log2_spec n (by omega)
  obtain ⟨hq1, hq2, hq3⟩ := round_quotient n p hn hp
  obtain ⟨r1, r2, r3, r4⟩ := roundHalfEven_spec n (2 ^ p) hpos
  rw [← hm] at r1 r2 r3 r4
  obtain ⟨-, -, g3⟩ := roundHalfEven_nearest n (2 ^ p) m 0 hpos hm
  obtain ⟨E, hE⟩ : ∃ E, E = 2 ^ 2044 := ⟨_, rfl⟩
  have e46 : 2 ^ 2046 = 4 * E := by
    rw [hE, pow_succ, pow_succ]
    ring
  have e45 : 2 ^ 2045 = 2 * E := by
    rw [hE, pow_succ]
    ring
  have hEpos : 0 < E := by
    rw [hE]
    exact Nat.two_pow_pos _
  unfold overflowUnits
  rw [e46, ← hE]
  have hdm := Nat.div_add_mod n (2 ^ p)
  rw [Nat.mul_comm] at hdm
  have hr0 := Nat.mod_lt n hpos
  have hM : (m * 2 ^ p = n / 2 ^ p * 2 ^ p ∧ 2 * (n % 2 ^ p) ≤ 2 ^ p) ∨
      (m * 2 ^ p = n / 2 ^ p * 2 ^ p + 2 ^ p ∧ 2 ^ p ≤ 2 * (n % 2 ^ p)) := by
    rcases r1 with h | h
    · exact Or.inl ⟨by rw [h], r2 h⟩
    · exact Or.inr ⟨by rw [h, Nat.succ_mul], r3 h⟩
  constructor
  · intro hlt
    by_contra hge
    rcases Nat.lt_trichotomy p 2045 with h | h | h
    · have h1 : 2 ^ (Nat.log2 n + 1) ≤ 2 ^ 2044 * 2 ^ 53 := by
        rw [← pow_add]
        exact Nat.pow_le_pow_right (by decide) (by omega)
      rw [← hE] at h1
      omega
    · subst h
      simp only [e45] at hdm hr0 hM hlt r4 hq1 r1
      have hq : 2 ^ 53 - 1 ≤ n / (2 * E) := by
        rw [Nat.le_div_iff_mul_le (by omega)]
        omega
      have hq' : n / (2 * E) = 2 ^ 53 - 1 := by omega
      rw [hq'] at hdm hM r1
      rcases hM with ⟨h1, h2⟩ | ⟨h1, h2⟩
      · have ht : 2 * (n % (2 * E)) = 2 * E := by omega
        have hev := r4 ht
        rcases r1 with h3 | h3
        · rw [h3] at hev
          exact absurd hev (by decide)
        · rw [h3] at h1
          omega
      · omega
    · have hD : 2 ^ 2046 ≤ 2 ^ p := Nat.pow_le_pow_right (by decide) (by omega)
      rw [e46] at hD
      have hq := hq2 (by omega)
      have hQ : 2 ^ 52 * 2 ^ p ≤ n / 2 ^ p * 2 ^ p := Nat.mul_le_mul_right _ hq
      have hQ2 : 2 ^ 52 * (4 * E) ≤ 2 ^ 52 * 2 ^ p := Nat.mul_le_mul_left _ hD
      rcases hM with ⟨h1, -⟩ | ⟨h1, -⟩ <;> omega
  · intro hlt
    by_contra hge
    by_cases h : p ≤ 2045
    · have hD : 2 ^ p ≤ 2 ^ 2045 := Nat.pow_le_pow_right (by decide) h
      rw [e45] at hD
      generalize m * 2 ^ p = M at g3 hge
      generalize 2 ^ p = D at g3 hD
      omega
    · have hD : 2 ^ 2046 ≤ 2 ^ p := Nat.pow_le_pow_right (by decide) (by omega)
      rw [e46] at hD
      have hk : Nat.log2 n = 52 + p := by omega
      rw [hk, pow_add] at hk1
      have : 2 ^ 52 * (4 * E) ≤ 2 ^ 52 * 2 ^ p := Nat.mul_le_mul_left _ hD
      omega

/-- A NaN with its quiet bit set is a NaN. -/
theorem isNaN_quiet (x : Nat) (h : isNaN x = true) : isNaN (quiet x) = true := by
  rw [isNaN_iff] at h ⊢
  unfold quiet
  constructor
  · have e : (x ||| 2 ^ 51) / 2 ^ 52 = x / 2 ^ 52 := by
      apply Nat.eq_of_testBit_eq
      intro i
      rw [← Nat.shiftRight_eq_div_pow, ← Nat.shiftRight_eq_div_pow, Nat.testBit_shiftRight,
        Nat.testBit_shiftRight, Nat.testBit_or, Nat.testBit_two_pow]
      have : decide (51 = 52 + i) = false := by
        rw [decide_eq_false_iff_not]
        omega
      rw [this, Bool.or_false]
    unfold expo at h ⊢
    rw [e]
    exact h.1
  · intro hz
    unfold frac at hz
    have : Nat.testBit ((x ||| 2 ^ 51) % 2 ^ 52) 51 = true := by
      rw [Nat.testBit_mod_two_pow, Nat.testBit_or, Nat.testBit_two_pow]
      simp
    rw [hz, Nat.zero_testBit] at this
    cases this

theorem quiet_lt (x : Nat) (h : x < 2 ^ 64) : quiet x < 2 ^ 64 :=
  Nat.or_lt_two_pow h (by decide)

theorem finite_not_inf {x : Nat} (h : Finite x) : isInf x = false := by
  cases hn : isInf x with
  | false => rfl
  | true =>
    have := (isInf_iff x).1 hn
    have := h.2
    omega

theorem inf_not_nan {x : Nat} (h : isInf x = true) : isNaN x = false := by
  cases hn : isNaN x with
  | false => rfl
  | true =>
    have h1 := (isInf_iff x).1 h
    have h2 := (isNaN_iff x).1 hn
    exact absurd h1.2 h2.2

/-- A pattern of 64 bits is a NaN, an infinity or a finite double. -/
theorem classify (x : Nat) (hx : x < 2 ^ 64) : isNaN x = true ∨ isInf x = true ∨ Finite x := by
  rw [isNaN_iff, isInf_iff]
  unfold Finite
  have := expo_lt x
  by_cases h : expo x = 2047
  · by_cases h2 : frac x = 0
    · exact Or.inr (Or.inl ⟨h, h2⟩)
    · exact Or.inl ⟨h, h2⟩
  · exact Or.inr (Or.inr ⟨hx, by omega⟩)

/-- The sum of two finite doubles: the exact sum of the two numbers,
rounded. -/
theorem add_finite (a b : Nat) (ha : Finite a) (hb : Finite b) :
    add a b =
      if value a + value b = 0 then zero (sign a && sign b)
      else round (decide (value a + value b < 0)) (value a + value b).natAbs 1 := by
  unfold add
  rw [finite_not_nan ha, finite_not_nan hb, finite_not_inf ha, finite_not_inf hb]
  simp only [Bool.false_eq_true, or_self, if_false]
  rfl

/-- What `round` returns for the sign of a number that is not 0 and its
magnitude. -/
theorem round_isSum (r : Int) (hr : r ≠ 0) :
    round (decide (r < 0)) r.natAbs 1 < 2 ^ 64 ∧
    sign (round (decide (r < 0)) r.natAbs 1) = decide (r < 0) ∧
    (r.natAbs < overflowUnits → Nearest r (round (decide (r < 0)) r.natAbs 1)) ∧
    (overflowUnits ≤ r.natAbs → isInf (round (decide (r < 0)) r.natAbs 1) = true) := by
  have hn : 0 < r.natAbs := Int.natAbs_pos.2 hr
  obtain ⟨p, hp⟩ : ∃ p, p = Nat.log2 r.natAbs - 52 := ⟨_, rfl⟩
  obtain ⟨m, hm⟩ : ∃ m, m = roundHalfEven r.natAbs (2 ^ p) := ⟨_, rfl⟩
  obtain ⟨s1, s2⟩ := round_spec (decide (r < 0)) r.natAbs p m hn hp hm
  have ht := round_threshold r.natAbs p m hn hp hm
  have hinf : ∀ s : Bool, inf s < 2 ^ 64 ∧ sign (inf s) = s ∧ isInf (inf s) = true := by
    intro s
    cases s <;> decide
  by_cases hlt : r.natAbs < overflowUnits
  · obtain ⟨c1, c2, c3, c4⟩ := s1 (ht.2 hlt)
    exact ⟨c1.1, c2, fun _ => round_nearest r hr p m hp hm _ c1 c2 c3 c4,
      fun h => absurd hlt (by omega)⟩
  · have hge : 2 ^ 52 * 2 ^ 2046 ≤ m * 2 ^ p := by
      by_contra hc
      exact hlt (ht.1 (by omega))
    rw [s2 hge]
    exact ⟨(hinf _).1, (hinf _).2.1, fun h => absurd h hlt, fun _ => (hinf _).2.2⟩

/-- `a + b` on doubles is the sum that IEEE 754 defines. -/
theorem add_isSum (a b : Nat) (ha : a < 2 ^ 64) (hb : b < 2 ^ 64) : IsSum a b (add a b) := by
  have hzero : ∀ s : Bool, zero s < 2 ^ 64 ∧ isZero (zero s) = true ∧ sign (zero s) = s := by
    intro s
    cases s <;> decide
  refine ⟨?_, ?_, ?_, ?_, ?_, ?_, ?_⟩
  · by_cases hn : isNaN a = true ∨ isNaN b = true
    · unfold add
      rw [if_pos hn]
      unfold nanOf
      split
      · exact quiet_lt a ha
      · exact quiet_lt b hb
    · rcases classify a ha with h1 | h1 | h1
      · exact absurd (Or.inl h1) hn
      · unfold add
        rw [if_neg hn, if_pos h1]
        split
        · decide
        · exact ha
      · rcases classify b hb with h2 | h2 | h2
        · exact absurd (Or.inr h2) hn
        · unfold add
          rw [if_neg hn, finite_not_inf h1, h2]
          simp only [Bool.false_eq_true, if_false, if_true]
          exact hb
        · rw [add_finite a b h1 h2]
          split
          · exact (hzero _).1
          · rename_i h
            exact (round_isSum _ h).1
  · intro h
    unfold add
    rw [if_pos h]
    unfold nanOf
    split
    · rename_i h1
      exact isNaN_quiet a h1
    · rename_i h1
      exact isNaN_quiet b (by
        rcases h with h | h
        · exact absurd h h1
        · exact h)
  · intro h1 h2 h3
    unfold add
    rw [inf_not_nan h1, inf_not_nan h2, h1, h2]
    simp only [Bool.false_eq_true, or_self, if_false, if_true, true_and, ne_eq, h3,
      not_false_eq_true]
    decide
  · intro h1 h2 h3
    unfold add
    rw [inf_not_nan h1, inf_not_nan h2, h1, h2]
    simp only [Bool.false_eq_true, or_self, if_false, if_true, true_and, ne_eq, h3,
      not_true_eq_false]
  · intro h1 h2
    unfold add
    rw [inf_not_nan h1, finite_not_nan h2, h1, finite_not_inf h2]
    simp only [Bool.false_eq_true, or_self, if_false, if_true, false_and]
  · intro h1 h2
    unfold add
    rw [finite_not_nan h1, inf_not_nan h2, finite_not_inf h1, h2]
    simp only [Bool.false_eq_true, or_self, if_false, if_true]
  · intro h1 h2
    rw [add_finite a b h1 h2]
    refine ⟨fun h0 => ?_, fun h0 => ?_⟩
    · rw [if_pos h0]
      exact (hzero _).2
    · rw [if_neg h0]
      exact (round_isSum _ h0).2

theorem log2_unique (n k : Nat) (h1 : 2 ^ k ≤ n) (h2 : n < 2 ^ (k + 1)) : Nat.log2 n = k := by
  have hn : n ≠ 0 := by
    have := Nat.two_pow_pos k
    omega
  have a := (Nat.le_log2 hn).2 h1
  have b := (Nat.log2_lt hn).2 h2
  omega

/-- The sum of 2^-1021 + 2^-1073 and 2^-1074 is half way between two doubles
and is rounded to the even one. -/
theorem add_ties_to_even : add 0x0020000000000001 1 = 0x0020000000000002 := by
  have hl : Nat.log2 9007199254740995 = 53 := log2_unique _ _ (by decide) (by decide)
  have hv : value 0x0020000000000001 + value 1 = 9007199254740995 := by decide
  rw [add_finite _ _ ⟨by decide, by decide⟩ ⟨by decide, by decide⟩, hv, if_neg (by decide)]
  have hd : decide ((9007199254740995 : Int) < 0) = false := by decide
  have hn : (9007199254740995 : Int).natAbs = 9007199254740995 := rfl
  rw [hd, hn]
  unfold round
  simp only [Nat.div_one, hl]
  decide

/-- The sum of 2^-1022 and 2^-1022 is exact. -/
theorem add_exact : add 0x0010000000000000 0x0010000000000000 = 0x0020000000000000 := by
  have hl : Nat.log2 9007199254740992 = 53 := log2_unique _ _ (by decide) (by decide)
  have hv : value 0x0010000000000000 + value 0x0010000000000000 = 9007199254740992 := by decide
  rw [add_finite _ _ ⟨by decide, by decide⟩ ⟨by decide, by decide⟩, hv, if_neg (by decide)]
  have hd : decide ((9007199254740992 : Int) < 0) = false := by decide
  have hn : (9007199254740992 : Int).natAbs = 9007199254740992 := rfl
  rw [hd, hn]
  unfold round
  simp only [Nat.div_one, hl]
  decide

end Double

/-! ## The interpreter: binary handlers and the roots -/

namespace Vm

/-- The body shared by the handlers of the binary operators on a stack that
ends in the operands `l` and `r`: both are popped, and what `op` returns is
pushed. -/
theorem binary_eq (op : Value → Value → VmM Value) (vm : Vm) (s : List Value) (l r : Value)
    (hs : vm.stack_ = s ++ [l, r]) :
    binary op vm =
      match op l r { vm with stack_ := s } with
      | Res.ok v vm1 => Res.ok () { vm1 with stack_ := vm1.stack_ ++ [v] }
      | Res.throw m vm1 => Res.throw m vm1 := by
  obtain ⟨m, h, c, st, g, gs, f, t, e, hc, cc, co⟩ := vm
  simp only at hs
  subst hs
  have e1 : s ++ [l, r] = (s ++ [l]) ++ [r] := by simp
  unfold binary
  simp only [bind_apply]
  rw [e1, pop_mk]
  simp only
  rw [pop_mk]
  simp only
  cases op l r ⟨m, h, c, s, g, gs, f, t, e, hc, cc, co⟩ with
  | ok v vm1 => rfl
  | throw msg vm1 => rfl

theorem binary_lift_eq (op : Value → Value → Except String Value) (vm : Vm) (s : List Value)
    (l r : Value) (hs : vm.stack_ = s ++ [l, r]) :
    binary (fun l r => lift (op l r)) vm =
      match op l r with
      | .ok v => Res.ok () { vm with stack_ := s ++ [v] }
      | .error m => Res.throw m { vm with stack_ := s } := by
  rw [binary_eq _ vm s l r hs]
  cases op l r with
  | ok v => rfl
  | error m => rfl

theorem asInt64_zero (y : BigInt) (h : y.len_ = 0) : asInt64 y = .ok 0 := by
  unfold asInt64 BigInt.TryToInt64
  rw [if_pos h]

theorem mem_Roots (vm : Vm) (v : Value) :
    v ∈ vm.Roots ↔ v ∈ vm.const_values_ ∨ v ∈ vm.stack_ ∨ (∃ f ∈ vm.frames_, v ∈ f.locals) ∨
      v ∈ ((vm.globals_values_.zip vm.globals_set_).filter (fun g => g.2 ≠ 0)).map Prod.fst ∨
      v ∈ vm.temp_roots_ := by
  unfold Roots
  simp only [List.mem_append, List.mem_flatten, List.mem_map, or_assoc]
  constructor
  · rintro (h | h | ⟨l, ⟨f, hf, rfl⟩, hv⟩ | h | h)
    · exact Or.inl h
    · exact Or.inr (Or.inl h)
    · exact Or.inr (Or.inr (Or.inl ⟨f, hf, hv⟩))
    · exact Or.inr (Or.inr (Or.inr (Or.inl h)))
    · exact Or.inr (Or.inr (Or.inr (Or.inr h)))
  · rintro (h | h | ⟨f, hf, hv⟩ | h | h)
    · exact Or.inl h
    · exact Or.inr (Or.inl h)
    · exact Or.inr (Or.inr (Or.inl ⟨_, ⟨f, hf, rfl⟩, hv⟩))
    · exact Or.inr (Or.inr (Or.inr (Or.inl h)))
    · exact Or.inr (Or.inr (Or.inr (Or.inr h)))

end Vm

/-! ## Claim about ADD -/

namespace Vm

theorem add_values_mismatch (P : Platform) (l r : Value) (vm : Vm)
    (h : ¬ (l.tag = r.tag ∧ (l.tag = .kInt ∨ l.tag = .kFloat ∨ l.tag = .kString))) :
    add_values P l r vm = Res.throw "ADD type mismatch" vm := by
  cases l <;> cases r
  all_goals first
    | rfl
    | exact absurd (by simp [Value.tag]) h

/-- `add_values` on two strings, from a state without dangling pointers in
which the two operands are not on the stack any more. -/
theorem add_values_strings (P : Platform) (hP : P.Sound) (vm : Vm) (p q : Nat) (a b : List Nat)
    (hs : vm.heap_.NoDangling (vm.Roots ++ [Value.string p, Value.string q]))
    (ha : Heap.stringAt vm.heap_ p = .ok a) (hb : Heap.stringAt vm.heap_ q = .ok b) :
    ∃ o h1, add_values P (.string p) (.string q) vm =
        Res.ok (Value.string o) { vm with heap_ := h1 } ∧
      Heap.AllocateString P vm.heap_ (a ++ b) (vm.Roots ++ [Value.string p, Value.string q]) =
        .ok (o, h1) ∧
      o ≠ 0 ∧ o ≠ p ∧ o ≠ q ∧ Heap.stringAt h1 o = .ok (a ++ b) ∧
      Heap.stringAt h1 p = .ok a ∧ Heap.stringAt h1 q = .ok b ∧
      h1.NoDangling (vm.Roots ++ [Value.string o]) := by
  have hroots : ({ vm with temp_roots_ := vm.temp_roots_ ++ [Value.string p, Value.string q] } : Vm).Roots
      = vm.Roots ++ [Value.string p, Value.string q] := by
    simp only [Roots, List.append_assoc]
  obtain ⟨o, h0, h1, hal, _, _, ho0, hon, hadd, hnd, hread, hold, _, hkept⟩ :=
    Heap.AllocateString_noDangling P hP vm.heap_ (a ++ b)
      (vm.Roots ++ [Value.string p, Value.string q]) hs
  have hp : p ∈ h0.addrs := hkept (Value.string p) (by simp) p rfl
  have hq : q ∈ h0.addrs := hkept (Value.string q) (by simp) q rfl
  refine ⟨o, h1, ?_, hal, ho0, fun e => hon (e ▸ hp), fun e => hon (e ▸ hq), hread,
    by rw [(hold p hp).2, ha], by rw [(hold q hq).2, hb], ?_⟩
  · unfold add_values
    simp only [TempRoots, bind_apply, self_apply, ha, hb, lift_ok, hroots, hal, update_apply,
      pure_apply, List.take_left']
  · refine ⟨hnd.1, fun v hv => ?_, hnd.2.2⟩
    rcases List.mem_append.1 hv with h2 | h2
    · exact hnd.2.1 v (List.mem_append_left _ h2)
    · rw [List.mem_singleton] at h2
      subst h2
      show o ∈ h1.addrs
      rw [hadd]
      simp

/-- C31. ADD. Let the stack end in the operands `l` (pushed first) and `r`.
For two ints on which `operator+` of `BigInt` returns `c`, ADD returns with
the two operands replaced by the int `c`, and for canonical ints whose sum is
below `10^180` in magnitude `operator+` returns the canonical int that
denotes the sum. For two floats ADD returns with the two replaced by
`Double.add` of them, which for patterns of 64 bits is their sum as IEEE 754
defines it for rounding to nearest, ties to even (`Double.IsSum`): a NaN if
an operand is one or if the operands are infinities of opposite sign, the
infinite operand otherwise, and for finite operands the exact sum of the two
numbers rounded, that is a zero if it is 0, else a double of its sign, the
nearest finite one (the even one of two) below the magnitude that overflows
and the infinity from there on. For two strings whose pointers lead to string objects with
the characters `a` and `b`, in a state without dangling pointers and with a
sound `new`, ADD returns with the two replaced by a pointer to a string
object that `AllocateString` has just returned, different from both
operands, with the characters `a` followed by `b`; the operands still have
the characters `a` and `b`, and the state has no dangling pointer. For every
other combination of tags ADD throws "ADD type mismatch". Nothing else of
the state is changed. -/
theorem add_semantics (P : Platform) (vm : Vm) (s : List Value) (l r : Value)
    (ins : Instruction) (hs : vm.stack_ = s ++ [l, r]) :
    (∀ a b c, l = .int a → r = .int b → BigInt.add a b = .ok c →
      invoke P .H_Add ins vm = Res.ok () { vm with stack_ := s ++ [Value.int c] }) ∧
    (∀ a b, BigInt.Canonical a → BigInt.Canonical b → |a.value + b.value| < 10 ^ 180 →
      ∃ c, BigInt.add a b = .ok c ∧ BigInt.Canonical c ∧ c.value = a.value + b.value) ∧
    (∀ a b, l = .float a → r = .float b →
      invoke P .H_Add ins vm =
        Res.ok () { vm with stack_ := s ++ [Value.float (Double.add a b)] } ∧
      (a < 2 ^ 64 → b < 2 ^ 64 → Double.IsSum a b (Double.add a b))) ∧
    (∀ p q a b, l = .string p → r = .string q → P.Sound → vm.heap_.NoDangling vm.Roots →
      Heap.stringAt vm.heap_ p = .ok a → Heap.stringAt vm.heap_ q = .ok b →
      ∃ o h1, invoke P .H_Add ins vm =
          Res.ok () { vm with stack_ := s ++ [Value.string o], heap_ := h1 } ∧
        Heap.AllocateString P vm.heap_ (a ++ b)
          (({ vm with stack_ := s } : Vm).Roots ++ [Value.string p, Value.string q]) = .ok (o, h1) ∧
        o ≠ 0 ∧ o ≠ p ∧ o ≠ q ∧ Heap.stringAt h1 o = .ok (a ++ b) ∧
        Heap.stringAt h1 p = .ok a ∧ Heap.stringAt h1 q = .ok b ∧
        h1.NoDangling ({ vm with stack_ := s ++ [Value.string o], heap_ := h1 } : Vm).Roots) ∧
    (¬ (l.tag = r.tag ∧ (l.tag = .kInt ∨ l.tag = .kFloat ∨ l.tag = .kString)) →
      invoke P .H_Add ins vm = Res.throw "ADD type mismatch" { vm with stack_ := s }) := by
  have hinv : invoke P .H_Add ins vm = binary (add_values P) vm := rfl
  rw [hinv, binary_eq _ vm s l r hs]
  refine ⟨?_, ?_, ?_, ?_, ?_⟩
  · intro a b c hl hr hc
    subst hl hr
    simp only [add_values, bind_apply, hc, lift_ok, pure_apply]
  · intro a b ha hb hlt
    rw [← BigInt.cap_eq] at hlt
    rcases BigInt.add_spec a b ha hb with ⟨c, h1, h2, h3, _⟩ | ⟨_, h2⟩
    · exact ⟨c, h1, h2, h3⟩
    · omega
  · intro a b hl hr
    subst hl hr
    exact ⟨rfl, Double.add_isSum a b⟩
  · intro p q a b hl hr hP hnd ha hb
    subst hl hr
    have hnd1 : ({ vm with stack_ := s } : Vm).heap_.NoDangling
        (({ vm with stack_ := s } : Vm).Roots ++ [Value.string p, Value.string q]) := by
      refine ⟨hnd.1, fun v hv => hnd.2.1 v ?_, hnd.2.2⟩
      rw [mem_Roots]
      rcases List.mem_append.1 hv with h2 | h2
      · rw [mem_Roots] at h2
        simp only at h2
        rcases h2 with h3 | h3 | h3 | h3 | h3
        · exact Or.inl h3
        · exact Or.inr (Or.inl (by rw [hs]; exact List.mem_append_left _ h3))
        · exact Or.inr (Or.inr (Or.inl h3))
        · exact Or.inr (Or.inr (Or.inr (Or.inl h3)))
        · exact Or.inr (Or.inr (Or.inr (Or.inr h3)))
      · exact Or.inr (Or.inl (by rw [hs]; exact List.mem_append_right _ h2))
    obtain ⟨o, h1, he, hal, h0, hop, hoq, r1, r2, r3, hnd2⟩ :=
      add_values_strings P hP { vm with stack_ := s } p q a b hnd1 ha hb
    refine ⟨o, h1, ?_, hal, h0, hop, hoq, r1, r2, r3, ?_⟩
    · rw [he]
    · refine ⟨hnd2.1, fun v hv => hnd2.2.1 v ?_, hnd2.2.2⟩
      rw [mem_Roots] at hv
      simp only [List.mem_append, List.mem_singleton] at hv
      rw [List.mem_append, mem_Roots, List.mem_singleton]
      simp only
      rcases hv with h3 | (h3 | h3) | h3 | h3 | h3
      · exact Or.inl (Or.inl h3)
      · exact Or.inl (Or.inr (Or.inl h3))
      · exact Or.inr h3
      · exact Or.inl (Or.inr (Or.inr (Or.inl h3)))
      · exact Or.inl (Or.inr (Or.inr (Or.inr (Or.inl h3))))
      · exact Or.inl (Or.inr (Or.inr (Or.inr (Or.inr h3))))
  · intro h
    rw [add_values_mismatch P l r _ h]

theorem add_semantics_witness :
    (∃ o h1,
      invoke lp64 .H_Add { op := .kAdd, a := 0, b := 0, has_a := false, has_b := false }
          { sampleVm with stack_ := [Value.string 1, Value.string 3] } =
        Res.ok () { sampleVm with stack_ := [] ++ [Value.string o], heap_ := h1 } ∧
      Heap.stringAt h1 o =
        .ok ([110, 101, 115, 116, 101, 100] ++ [100, 105, 115, 99, 97, 114, 100])) ∧
    invoke lp64 .H_Add { op := .kAdd, a := 0, b := 0, has_a := false, has_b := false }
        { sampleVm with stack_ := [Value.float 0x0020000000000001, Value.float 1] } =
      Res.ok () { sampleVm with stack_ := [] ++ [Value.float 0x0020000000000002] } ∧
    Double.IsSum 0x0020000000000001 1 0x0020000000000002 :=
  ⟨(let ⟨o, h1, he, _, _, _, _, r1, _⟩ :=
      (add_semantics lp64 { sampleVm with stack_ := [Value.string 1, Value.string 3] } []
        (Value.string 1) (Value.string 3)
        { op := .kAdd, a := 0, b := 0, has_a := false, has_b := false } rfl).2.2.2.1
        1 3 [110, 101, 115, 116, 101, 100] [100, 105, 115, 99, 97, 114, 100] rfl rfl lp64_sound
        (by decide) (by decide) (by decide)
    ⟨o, h1, he, r1⟩),
   (by
    have h := (add_semantics lp64
      { sampleVm with stack_ := [Value.float 0x0020000000000001, Value.float 1] } []
      (Value.float 0x0020000000000001) (Value.float 1)
      { op := .kAdd, a := 0, b := 0, has_a := false, has_b := false } rfl).2.2.1
      0x0020000000000001 1 rfl rfl
    rw [Double.add_ties_to_even] at h
    exact ⟨h.1, h.2 (by decide) (by decide)⟩)⟩

end Vm

/-! ## Claim about integer MUL -/

namespace Vm

/-- C32. Where integer MUL differs from multiplication up to capacity. For
operands that narrow to the 64-bit integers `a < -1` and `0 < b` with
`b < INT64_MIN / a` (the quotient truncated; it is positive), `mul_values`
throws "integer overflow", whatever the product: so for `-2` and `3`, whose
product `-6` fits in 64 bits, while for `2` and `-3` it returns `-6`. For
`2^32` and `2^32` it throws "integer overflow" although `operator*` of
`BigInt` returns their product `2^64`. On a stack that ends in `-2` and `3`
MUL throws "integer overflow" with both popped. -/
theorem mul_overflow_on_small_products (P : Platform) (ins : Instruction) :
    (∀ x y a b, asInt64 x = .ok a → asInt64 y = .ok b → a < -1 → 0 < b →
      b < Int.tdiv INT64_MIN a →
      mul_values (.int x) (.int y) = .error "integer overflow") ∧
    asInt64 (BigInt.ofLimbs true [2]) = .ok (-2) ∧ asInt64 (BigInt.ofLimbs false [3]) = .ok 3 ∧
    (BigInt.ofLimbs true [2]).value * (BigInt.ofLimbs false [3]).value = -6 ∧
    mul_values (.int (BigInt.ofLimbs true [2])) (.int (BigInt.ofLimbs false [3])) =
      .error "integer overflow" ∧
    mul_values (.int (BigInt.ofLimbs false [2])) (.int (BigInt.ofLimbs true [3])) =
      .ok (.int (BigInt.ofLimbs true [6])) ∧
    BigInt.mul (BigInt.ofLimbs true [2]) (BigInt.ofLimbs false [3]) =
      .ok (BigInt.ofLimbs true [6]) ∧
    mul_values (.int (BigInt.ofLimbs false [294967296, 4]))
        (.int (BigInt.ofLimbs false [294967296, 4])) = .error "integer overflow" ∧
    (BigInt.ofLimbs false [294967296, 4]).value = 2 ^ 32 ∧
    BigInt.mul (BigInt.ofLimbs false [294967296, 4]) (BigInt.ofLimbs false [294967296, 4]) =
      .ok (BigInt.ofLimbs false [709551616, 446744073, 18]) ∧
    (BigInt.ofLimbs false [709551616, 446744073, 18]).value = 2 ^ 64 ∧
    invoke P .H_Mul ins
        { sampleVm with stack_ := [Value.int (BigInt.ofLimbs true [2]),
                                   Value.int (BigInt.ofLimbs false [3])] } =
      Res.throw "integer overflow" { sampleVm with stack_ := [] } := by
  refine ⟨?_, by decide, by decide, by decide, by decide, by decide, by decide, by decide,
    by decide, by decide, by decide, ?_⟩
  · intro x y a b hx hy ha hb hlt
    unfold mul_values
    simp only [hx, hy, bind, Except.bind]
    rw [if_neg (by omega), if_neg (by omega), if_pos (by omega)]
    have hd : div64 INT64_MIN a = .ok (Int.tdiv INT64_MIN a) := by
      unfold div64
      rw [if_neg (by omega)]
    simp only [hd, if_pos hlt]
  · show binary (fun l r => lift (mul_values l r)) _ = _
    rw [binary_lift_eq mul_values _ [] _ _ rfl]
    have : mul_values (.int (BigInt.ofLimbs true [2])) (.int (BigInt.ofLimbs false [3])) =
        .error "integer overflow" := by decide
    rw [this]

end Vm

/-! ## Claim about zero divisors and negative sizes -/

namespace Vm

theorem func_name_view_module (f : Nat) (vm vm1 : Vm) (h : vm1.module_ = vm.module_) :
    func_name_view f vm1 =
      match func_name_view f vm with
      | Res.ok n _ => Res.ok n vm1
      | Res.throw m _ => Res.throw m vm1 := by
  unfold func_name_view const_string_view
  rw [h]
  repeat' split
  all_goals first
    | rfl
    | simp_all

theorem mod_values_requires_int (l r : Value) (h : (∀ a, l ≠ .int a) ∨ (∀ b, r ≠ .int b)) :
    mod_values l r = .error "MOD requires int" := by
  unfold mod_values
  split
  · rename_i x y
    rcases h with h | h
    · exact absurd rfl (h x)
    · exact absurd rfl (h y)
  · rfl

/-- C33. Zero divisors and negative sizes. On a stack that ends in the
operands `l` and `r`: DIV with two ints of which `r` is zero, and DIV with
two floats of which `r` is a zero, throws "division by zero"; MOD with two
ints of which `r` is zero throws "modulo by zero"; MOD with an operand that
is not an int throws "MOD requires int"; in each case the two operands have
been popped and nothing has been pushed. The built-in `new_array_bool(n, b)`
with an `n` that narrows to a negative 64-bit integer throws
"new_array_bool negative size" and leaves the state as it was, and so does
the `CALL` of a built-in of that name with these two arguments on top of the
stack: no result is pushed. -/
theorem zero_divisors_and_negative_sizes (P : Platform) (vm : Vm) (s : List Value)
    (ins : Instruction) :
    (∀ x y : BigInt, BigInt.Canonical y → y.value = 0 →
      vm.stack_ = s ++ [Value.int x, Value.int y] →
      invoke P .H_Div ins vm = Res.throw "division by zero" { vm with stack_ := s }) ∧
    (∀ a d : Nat, Double.isZero d = true → vm.stack_ = s ++ [Value.float a, Value.float d] →
      invoke P .H_Div ins vm = Res.throw "division by zero" { vm with stack_ := s }) ∧
    (∀ x y : BigInt, BigInt.Canonical y → y.value = 0 →
      vm.stack_ = s ++ [Value.int x, Value.int y] →
      invoke P .H_Mod ins vm = Res.throw "modulo by zero" { vm with stack_ := s }) ∧
    (∀ l r : Value, (∀ a, l ≠ .int a) ∨ (∀ b, r ≠ .int b) → vm.stack_ = s ++ [l, r] →
      invoke P .H_Mod ins vm = Res.throw "MOD requires int" { vm with stack_ := s }) ∧
    (∀ (b : BigInt) (fill : Bool) (n : Int), asInt64 b = .ok n → n < 0 →
      call_builtin P newArrayBoolName [Value.int b, Value.bool fill] vm =
        Res.throw "new_array_bool negative size" vm ∧
      ∀ f fn, vm.module_.functions.get? f = some fn → fn.entry_ip = kBuiltinEntryIp →
        fn.param_count = 2 → func_name_view f vm = Res.ok newArrayBoolName vm →
        vm.stack_ = s ++ [Value.int b, Value.bool fill] →
        call_function P f 2 vm = Res.throw "new_array_bool negative size" vm) := by
  refine ⟨?_, ?_, ?_, ?_, ?_⟩
  · intro x y hy hv hs
    have h0 : y.len_ = 0 := hy.2.1.2 hv
    show binary (fun l r => lift (div_values l r)) vm = _
    rw [binary_lift_eq div_values vm s _ _ hs]
    simp only [div_values, asInt64_zero y h0, bind, Except.bind, if_true]
  · intro a d hd hs
    show binary (fun l r => lift (div_values l r)) vm = _
    rw [binary_lift_eq div_values vm s _ _ hs]
    simp only [div_values, hd, if_true]
  · intro x y hy hv hs
    have h0 : y.len_ = 0 := hy.2.1.2 hv
    show binary (fun l r => lift (mod_values l r)) vm = _
    rw [binary_lift_eq mod_values vm s _ _ hs]
    simp only [mod_values, asInt64_zero y h0, bind, Except.bind, if_true]
  · intro l r h hs
    show binary (fun l r => lift (mod_values l r)) vm = _
    rw [binary_lift_eq mod_values vm s _ _ hs, mod_values_requires_int l r h]
  · intro b fill n hb hn
    have hcb : ∀ vm0 : Vm, call_builtin P newArrayBoolName [Value.int b, Value.bool fill] vm0 =
        Res.throw "new_array_bool negative size" vm0 := by
      intro vm0
      unfold call_builtin
      rw [if_neg (by decide), if_neg (by decide), if_pos rfl]
      unfold builtin_new_array_bool
      simp only [List.length_cons, List.length_nil, ne_eq, not_true_eq_false, if_false,
        List.get?, bind_apply, hb, lift_ok, if_pos hn, raise_apply]
    refine ⟨hcb vm, ?_⟩
    intro f fn hf hbi hpc hname hs
    unfold call_function
    simp only [bind_apply, self_apply, hf]
    rw [if_neg (by rw [hpc]; simp), if_pos hbi]
    have hlen : ¬ 2 > vm.stack_.length := by
      rw [hs]
      simp
    have hdrop : vm.stack_.drop (vm.stack_.length - 2) = [Value.int b, Value.bool fill] := by
      rw [hs]
      simp
    simp only [bind_apply, peek_args, if_neg hlen, hdrop]
    unfold TempRoots
    simp only [bind_apply]
    rw [func_name_view_module f vm
      { vm with temp_roots_ := vm.temp_roots_ ++ [Value.int b, Value.bool fill] } rfl, hname]
    simp only
    rw [hcb]
    simp only [List.take_left']

theorem zero_divisors_and_negative_sizes_witness :
    invoke lp64 .H_Div { op := .kDiv, a := 0, b := 0, has_a := false, has_b := false }
        { sampleVm with stack_ := [Value.null, Value.int (BigInt.ofLimbs false [10]),
                                   Value.int BigInt.zero] } =
      Res.throw "division by zero" { sampleVm with stack_ := [Value.null] } :=
  (zero_divisors_and_negative_sizes lp64
    { sampleVm with stack_ := [Value.null, Value.int (BigInt.ofLimbs false [10]),
                               Value.int BigInt.zero] } [Value.null]
    { op := .kDiv, a := 0, b := 0, has_a := false, has_b := false }).1
    (BigInt.ofLimbs false [10]) BigInt.zero (by decide) (by decide) rfl

end Vm

/-! ## Claim about JUMP_FALSE -/

namespace Vm

/-- One `step` at a `JUMP_FALSE` with operand `a` present: the ip of the
frame has been advanced, and `H_JumpFalse` runs in that state. -/
theorem step_jump_false_eq (P : Platform) (vm : Vm) (fs : List CallFrame) (f : CallFrame)
    (ins : Instruction) (hfr : vm.frames_ = fs ++ [f])
    (hins : vm.module_.code.get? f.ip = some ins) (hop : ins.op = .kJumpFalse) :
    step P vm =
      H_JumpFalse ins { vm with frames_ := fs ++ [{ f with ip := (f.ip + 1) % 2 ^ 32 }] } := by
  unfold step
  simp only [bind_apply, frame_eq vm fs f hfr, self_apply, hins, setFrame, update_apply, hop,
    Dispatch, invoke, hfr, List.dropLast_concat]

theorem H_JumpFalse_eq (vm : Vm) (fs : List CallFrame) (f : CallFrame) (ins : Instruction)
    (s : List Value) (v : Value) (hfr : vm.frames_ = fs ++ [f]) (hs : vm.stack_ = s ++ [v])
    (ha : ins.has_a = true) (ht : ins.a < vm.module_.code.length) :
    H_JumpFalse ins vm =
      match v with
      | .bool b =>
        if !b then Res.ok () { vm with stack_ := s, frames_ := fs ++ [{ f with ip := ins.a }] }
        else Res.ok () { vm with stack_ := s }
      | _ => Res.throw "JUMP_FALSE expects bool" { vm with stack_ := s } := by
  obtain ⟨m, h, c, st, g, gs, fr, t, e, hc, cc, co⟩ := vm
  simp only at hfr hs ht
  subst hfr hs
  have hf := frame_eq ⟨m, h, c, s ++ [v], g, gs, fs ++ [f], t, e, hc, cc, co⟩ fs f rfl
  unfold H_JumpFalse
  simp only [ha, Bool.not_true, Bool.false_eq_true, if_false, bind_apply,
    hf, self_apply, ge_iff_le, if_neg (Nat.not_le.2 ht), pop_mk]
  cases v with
  | bool b =>
    cases b
    · simp only [Bool.not_false, if_true, setFrame, update_apply, List.dropLast_concat]
    · simp only [Bool.not_true, Bool.false_eq_true, if_false, pure_apply]
  | _ => rfl

/-- C34. JUMP_FALSE. Let the frame at the back be at the instruction index
`p` with `p + 1 < 2^32`, let the instruction there be a `JUMP_FALSE` with the
target `t` below the number of instructions, and let the stack end in `v`.
Then one step pops `v` and leaves the rest of the stack, the other frames
and the other members of the frame as they were: if `v` is the bool false it
returns with the ip of the frame at `t`; if `v` is the bool true it returns
with the ip at `p + 1`; and if `v` is not a bool it throws
"JUMP_FALSE expects bool". -/
theorem jump_false_semantics (P : Platform) (vm : Vm) (fs : List CallFrame) (f : CallFrame)
    (ins : Instruction) (s : List Value) (v : Value) (hfr : vm.frames_ = fs ++ [f])
    (hp : f.ip + 1 < 2 ^ 32) (hins : vm.module_.code.get? f.ip = some ins)
    (hop : ins.op = .kJumpFalse) (ha : ins.has_a = true) (ht : ins.a < vm.module_.code.length)
    (hs : vm.stack_ = s ++ [v]) :
    (v = .bool false →
      step P vm = Res.ok () { vm with stack_ := s, frames_ := fs ++ [{ f with ip := ins.a }] }) ∧
    (v = .bool true →
      step P vm = Res.ok () { vm with stack_ := s, frames_ := fs ++ [{ f with ip := f.ip + 1 }] }) ∧
    ((∀ b, v ≠ .bool b) →
      step P vm = Res.throw "JUMP_FALSE expects bool"
        { vm with stack_ := s, frames_ := fs ++ [{ f with ip := f.ip + 1 }] }) := by
  rw [step_jump_false_eq P vm fs f ins hfr hins hop,
    H_JumpFalse_eq { vm with frames_ := fs ++ [{ f with ip := (f.ip + 1) % 2 ^ 32 }] } fs
      { f with ip := (f.ip + 1) % 2 ^ 32 } ins s v rfl hs ha ht,
    Nat.mod_eq_of_lt hp]
  refine ⟨?_, ?_, ?_⟩
  · intro hv
    subst hv
    rfl
  · intro hv
    subst hv
    rfl
  · intro hv
    cases v with
    | bool b => exact absurd rfl (hv b)
    | _ => rfl

theorem jump_false_semantics_witness :
    step lp64
      { sampleVm with
        module_ := { const_pool := [], functions := [],
                     code := [{ op := .kJumpFalse, a := 0, b := 0, has_a := true, has_b := false }] },
        stack_ := [Value.null, Value.bool false],
        frames_ := [{ func_index := kGlobalFuncIndex, ip := 0, return_ip := 0,
                      base_stack_size := 0, locals := [] }] } =
      Res.ok ()
        { sampleVm with
          module_ := { const_pool := [], functions := [],
                       code := [{ op := .kJumpFalse, a := 0, b := 0, has_a := true, has_b := false }] },
          stack_ := [Value.null],
          frames_ := [{ func_index := kGlobalFuncIndex, ip := 0, return_ip := 0,
                        base_stack_size := 0, locals := [] }] } :=
  (jump_false_semantics lp64
    { sampleVm with
      module_ := { const_pool := [], functions := [],
                   code := [{ op := .kJumpFalse, a := 0, b := 0, has_a := true, has_b := false }] },
      stack_ := [Value.null, Value.bool false],
      frames_ := [{ func_index := kGlobalFuncIndex, ip := 0, return_ip := 0,
                    base_stack_size := 0, locals := [] }] }
    [] { func_index := kGlobalFuncIndex, ip := 0, return_ip := 0, base_stack_size := 0,
         locals := [] }
    { op := .kJumpFalse, a := 0, b := 0, has_a := true, has_b := false } [Value.null]
    (Value.bool false) rfl (by decide) rfl rfl rfl (by decide) rfl).1 rfl

end Vm

/-! ## Claim about the progress of the run loop -/

namespace Vm

/-- `run_jit` entered with the frame at the back outside the range of the
entry returns at once. -/
theorem run_jit_outside (P : Platform) (cf : CompiledFunc) (vm : Vm) (f : CallFrame)
    (h1 : vm.frames_.getLast? = some f) (h6 : f.ip < cf.entry_ip ∨ f.ip ≥ cf.end_ip) (k : Nat) :
    run_jit P cf (k + 1) vm = Res.ok () vm := by
  rw [run_jit]
  simp only [bind_apply, self_apply, h1]
  by_cases h5 : f.func_index ≠ cf.func_index
  · rw [if_pos h5]
    rfl
  · rw [if_neg h5, if_pos h6]
    rfl

/-- C35. A round of the loop of `run` that makes no progress. Let the frame
at the back be of a function other than the script, with its ip below the
number of instructions, let the function have a cache entry, and let the ip
lie outside the range of the entry. Then the round enters `run_jit`, which
returns at once with the state as it found it: no frame is popped and no
instruction is executed, and the next round finds the same state, so that
the loop throws the fuel message, whatever the fuel, where `step` would have
executed the instruction. `run` on `livelockVm`, which the constructor
builds for the module `livelockModule` that `ValidateModule` accepts,
reaches such a state, `livelockStuck`, in 152 rounds. -/
theorem run_loop_round_without_progress :
    (∀ (P : Platform) (vm : Vm) (f : CallFrame) (e : Nat × CompiledFunc),
      vm.frames_.getLast? = some f → f.ip < vm.module_.code.length →
      vm.code_cache_.find? (fun e => e.1 = f.func_index) = some e →
      f.func_index ≠ kGlobalFuncIndex → f.func_index = e.2.func_index →
      (f.ip < e.2.entry_ip ∨ f.ip ≥ e.2.end_ip) →
      ∀ k, run_jit P e.2 (k + 1) vm = Res.ok () vm ∧
        run_loop P (k + 2) vm = run_loop P (k + 1) vm ∧
        run_loop P k vm = Res.throw fuelMsg vm) ∧
    ValidateModule livelockModule = .ok () ∧
    create lp64 livelockModule = .ok livelockVm ∧
    (∀ n, run lp64 (152 + n) livelockVm = Res.throw fuelMsg livelockStuck) ∧
    livelockStuck.frames_.getLast? =
      some { func_index := 0, ip := 1, return_ip := 52, base_stack_size := 0, locals := [] } ∧
    1 < livelockStuck.module_.code.length ∧
    livelockStuck.code_cache_.find? (fun e => e.1 = 0) = some livelockEntry ∧
    livelockEntry.2.entry_ip = 53 ∧
    (∀ k, run_jit lp64 livelockEntry.2 (k + 1) livelockStuck = Res.ok () livelockStuck) ∧
    (step lp64 livelockStuck).returned = true ∧
    (step lp64 livelockStuck).state ≠ livelockStuck := by
  refine ⟨?_, by decide!, by decide!, ?_, by decide!, by decide!, by decide!, rfl, ?_,
    by decide!, by decide!⟩
  · intro P vm f e h1 h2 h3 h4 h5 h6 k
    have hj := run_jit_outside P e.2 vm f h1 h6
    refine ⟨hj k, ?_, run_loop_stuck P vm f e h1 h2 h3 h4 h5 h6 k⟩
    rw [run_loop_cached P vm f e h1 h2 h3 h4 (k + 1), hj k]
  · intro n
    rw [run_eq, livelock_run_loop]
  · intro k
    exact run_jit_outside lp64 livelockEntry.2 livelockStuck
      { func_index := 0, ip := 1, return_ip := 52, base_stack_size := 0, locals := [] }
      (by decide!) (Or.inl (by decide!)) k

end Vm

/-! ## The interpreter: function code ranges -/

namespace Vm

end Vm

/-! ## Claim about function code ranges -/

namespace Vm

end Vm

/-! ## Claim about EQ and NEQ -/

namespace Vm

theorem eq_values_string (h : Heap) (p q : Nat) :
    eq_values h (.string p) (.string q) =
      match Heap.stringAt h p, Heap.stringAt h q with
      | .ok a, .ok b => .ok (Value.bool (decide (a = b)))
      | .ok _, .error m => .error m
      | .error m, _ => .error m := by
  unfold eq_values
  rw [if_neg (by simp [Value.tag])]
  cases hp : Heap.stringAt h p with
  | error m => simp only [hp, bind, Except.bind]
  | ok a =>
    cases hq : Heap.stringAt h q with
    | error m => simp only [hp, hq, bind, Except.bind]
    | ok b => simp only [hp, hq, bind, Except.bind]

theorem stringAt_error_msg (h : Heap) (p : Nat) (m : String) (he : Heap.stringAt h p = .error m) :
    m = Heap.danglingMsg ∨ m = kindMsg := by
  unfold Heap.stringAt at he
  split at he
  · cases he
    exact Or.inl rfl
  · split at he
    · cases he
    · cases he
      exact Or.inr rfl

theorem eq_values_bool (h : Heap) (l r v : Value) (he : eq_values h l r = .ok v) :
    ∃ b, v = .bool b := by
  cases l <;> cases r
  case string.string p q =>
    rw [eq_values_string] at he
    split at he
    · cases he
      exact ⟨_, rfl⟩
    · cases he
    · cases he
  all_goals first
    | (simp only [eq_values, Value.tag, ne_eq, reduceCtorEq, not_false_eq_true,
        not_true_eq_false, if_true, if_false, Except.ok.injEq] at he
       exact ⟨_, he.symm⟩)
    | simp only [eq_values, Value.tag, ne_eq, reduceCtorEq, not_false_eq_true,
        not_true_eq_false, if_true, if_false, Except.ok.injEq] at he

theorem eq_values_mismatch_iff (h : Heap) (l r : Value) :
    eq_values h l r = .error "EQ type mismatch" ↔ l.tag ≠ r.tag := by
  constructor
  · intro he
    intro hc
    cases l <;> cases r
    case string.string p q =>
      rw [eq_values_string] at he
      split at he
      · cases he
      · rename_i m hm
        cases he
        rcases stringAt_error_msg h q _ hm with h1 | h1
        · exact absurd h1 (by decide)
        · exact absurd h1 (by decide)
      · rename_i m hm
        cases he
        rcases stringAt_error_msg h p _ hm with h1 | h1
        · exact absurd h1 (by decide)
        · exact absurd h1 (by decide)
    all_goals
      simp only [eq_values, Value.tag, ne_eq, reduceCtorEq, not_false_eq_true,
        not_true_eq_false, if_true, if_false] at he hc
  · intro hc
    unfold eq_values
    rw [if_pos hc]

theorem neq_values_eq (h : Heap) (l r : Value) :
    neq_values h l r =
      match eq_values h l r with
      | .ok (.bool b) => .ok (Value.bool (!b))
      | .ok _ => .error "expected bool"
      | .error m => .error m := by
  unfold neq_values
  cases he : eq_values h l r with
  | error m => rfl
  | ok v =>
    cases v <;> rfl

/-- C37. EQ and NEQ. `eq_values` fails with "EQ type mismatch" if and only if
the tags of the operands differ. With equal tags it returns a bool: for two
ints whether `operator==` of `BigInt` holds, which for canonical ints is
whether they denote the same integer; for two floats `Double.eq` of them,
which for patterns of 64 bits holds exactly when neither is a NaN and they
are the same double or both are zeros (of either sign), and for finite
doubles exactly when they denote the same number; for two bools whether they
are equal; for two strings whose
pointers lead to string objects whether the characters are the same, be the
objects the same or not; for two arrays whether the pointers are the same, so
that two different arrays compare false whatever their elements; for two
nulls true. Whenever `eq_values` returns, it returns a bool, and
`neq_values` returns its negation; `neq_values` throws exactly when
`eq_values` throws, and the same message. On a stack that ends in `l` and
`r`, EQ and NEQ pop both and push that result, or throw with both popped. -/
theorem eq_neq_semantics (P : Platform) (vm : Vm) (s : List Value) (l r : Value)
    (ins : Instruction) :
    (eq_values vm.heap_ l r = .error "EQ type mismatch" ↔ l.tag ≠ r.tag) ∧
    (∀ a b, eq_values vm.heap_ (.int a) (.int b) = .ok (.bool (BigInt.eq a b)) ∧
      (BigInt.Canonical a → BigInt.Canonical b → (BigInt.eq a b = true ↔ a.value = b.value))) ∧
    (∀ a b, eq_values vm.heap_ (.float a) (.float b) = .ok (.bool (Double.eq a b)) ∧
      (a < 2 ^ 64 → b < 2 ^ 64 →
        (Double.eq a b = true ↔
          Double.isNaN a = false ∧ Double.isNaN b = false ∧
            (a = b ∨ (Double.isZero a = true ∧ Double.isZero b = true)))) ∧
      (Double.Finite a → Double.Finite b →
        (Double.eq a b = true ↔ Double.value a = Double.value b))) ∧
    (∀ a b : Bool, eq_values vm.heap_ (.bool a) (.bool b) = .ok (.bool (decide (a = b)))) ∧
    (∀ p q a b, Heap.stringAt vm.heap_ p = .ok a → Heap.stringAt vm.heap_ q = .ok b →
      eq_values vm.heap_ (.string p) (.string q) = .ok (.bool (decide (a = b)))) ∧
    (∀ p q, eq_values vm.heap_ (.array p) (.array q) = .ok (.bool (decide (p = q)))) ∧
    eq_values vm.heap_ .null .null = .ok (.bool true) ∧
    (∀ v, eq_values vm.heap_ l r = .ok v →
      ∃ b, v = .bool b ∧ neq_values vm.heap_ l r = .ok (.bool (!b))) ∧
    (∀ m, neq_values vm.heap_ l r = .error m ↔ eq_values vm.heap_ l r = .error m) ∧
    (vm.stack_ = s ++ [l, r] →
      invoke P .H_Eq ins vm =
        (match eq_values vm.heap_ l r with
         | .ok v => Res.ok () { vm with stack_ := s ++ [v] }
         | .error m => Res.throw m { vm with stack_ := s }) ∧
      invoke P .H_Neq ins vm =
        (match neq_values vm.heap_ l r with
         | .ok v => Res.ok () { vm with stack_ := s ++ [v] }
         | .error m => Res.throw m { vm with stack_ := s })) := by
  refine ⟨eq_values_mismatch_iff _ l r, fun a b => ⟨rfl, fun ha hb => BigInt.eq_spec a b ha hb⟩,
    fun a b => ⟨rfl, Double.eq_iff a b, Double.eq_iff_value a b⟩, ?_, ?_, fun p q => rfl, rfl,
    ?_, ?_, ?_⟩
  · intro a b
    cases a <;> cases b <;> rfl
  · intro p q a b ha hb
    rw [eq_values_string, ha, hb]
  · intro v hv
    obtain ⟨b, rfl⟩ := eq_values_bool _ l r v hv
    refine ⟨b, rfl, ?_⟩
    rw [neq_values_eq, hv]
  · intro m
    rw [neq_values_eq]
    cases he : eq_values vm.heap_ l r with
    | error m1 => exact Iff.rfl
    | ok v =>
      obtain ⟨b, rfl⟩ := eq_values_bool _ l r v he
      simp only
      constructor <;> intro h <;> cases h
  · intro hs
    constructor
    · show binary (fun l r => do
        let vm ← self
        lift (eq_values vm.heap_ l r)) vm = _
      rw [binary_eq _ vm s l r hs]
      simp only [bind_apply, self_apply]
      cases eq_values vm.heap_ l r with
      | ok v => rfl
      | error m => rfl
    · show binary (fun l r => do
        let vm ← self
        lift (neq_values vm.heap_ l r)) vm = _
      rw [binary_eq _ vm s l r hs]
      simp only [bind_apply, self_apply]
      cases neq_values vm.heap_ l r with
      | ok v => rfl
      | error m => rfl

theorem eq_neq_semantics_witness :
    (invoke lp64 .H_Eq { op := .kEq, a := 0, b := 0, has_a := false, has_b := false }
        { sampleVm with stack_ := [Value.string 1, Value.string 3] } =
      Res.ok () { sampleVm with stack_ := [Value.bool false] } ∧
    invoke lp64 .H_Neq { op := .kNeq, a := 0, b := 0, has_a := false, has_b := false }
        { sampleVm with stack_ := [Value.string 1, Value.string 3] } =
      Res.ok () { sampleVm with stack_ := [Value.bool true] }) ∧
    (invoke lp64 .H_Eq { op := .kEq, a := 0, b := 0, has_a := false, has_b := false }
        { sampleVm with stack_ := [Value.float 0, Value.float 0x8000000000000000] } =
      Res.ok () { sampleVm with stack_ := [Value.bool true] } ∧
    invoke lp64 .H_Neq { op := .kNeq, a := 0, b := 0, has_a := false, has_b := false }
        { sampleVm with stack_ := [Value.float 0, Value.float 0x8000000000000000] } =
      Res.ok () { sampleVm with stack_ := [Value.bool false] }) ∧
    (invoke lp64 .H_Eq { op := .kEq, a := 0, b := 0, has_a := false, has_b := false }
        { sampleVm with stack_ := [Value.float 0x7FF8000000000000,
                                   Value.float 0x7FF8000000000000] } =
      Res.ok () { sampleVm with stack_ := [Value.bool false] } ∧
    invoke lp64 .H_Neq { op := .kNeq, a := 0, b := 0, has_a := false, has_b := false }
        { sampleVm with stack_ := [Value.float 0x7FF8000000000000,
                                   Value.float 0x7FF8000000000000] } =
      Res.ok () { sampleVm with stack_ := [Value.bool true] }) :=
  ⟨(eq_neq_semantics lp64 { sampleVm with stack_ := [Value.string 1, Value.string 3] } []
      (Value.string 1) (Value.string 3)
      { op := .kEq, a := 0, b := 0, has_a := false, has_b := false }).2.2.2.2.2.2.2.2.2 rfl,
   (eq_neq_semantics lp64
      { sampleVm with stack_ := [Value.float 0, Value.float 0x8000000000000000] } []
      (Value.float 0) (Value.float 0x8000000000000000)
      { op := .kEq, a := 0, b := 0, has_a := false, has_b := false }).2.2.2.2.2.2.2.2.2 rfl,
   (eq_neq_semantics lp64
      { sampleVm with stack_ := [Value.float 0x7FF8000000000000,
                                 Value.float 0x7FF8000000000000] } []
      (Value.float 0x7FF8000000000000) (Value.float 0x7FF8000000000000)
      { op := .kEq, a := 0, b := 0, has_a := false, has_b := false }).2.2.2.2.2.2.2.2.2 rfl⟩

end Vm

/-! ## Claim about overflow in division -/

namespace BigInt

theorem bigLoopAt_inv (a b : BigInt) (ha : MagOk a) (hb : MagOk b) (hb0 : b.len_ ≠ 0)
    (i : Nat) (st : BigInt × BigInt) (h : BigLoopAt a b i st) :
    i ≤ a.len_ ∧ MagOk st.2 ∧ st.2.mag < b.mag ∧ st.2.mag < kBase ^ (kMaxDigits - i) := by
  have hbpos : 0 < b.mag := by
    have := hb.len_eq_zero_iff
    omega
  induction h with
  | start =>
    refine ⟨le_refl _, zero_magOk, by rw [zero_mag]; exact hbpos, ?_⟩
    rw [zero_mag]
    exact pow_kBase_pos _
  | round i st st1 _ hstep ih =>
    obtain ⟨hi, hr, hrb, hrc⟩ := ih
    obtain ⟨q, r⟩ := st
    simp only at hr hrb hrc
    have hal := ha.2.1
    have hrl : r.len_ < kMaxDigits := by
      have := len_le_of_mag_lt r hr _ hrc
      omega
    have hai : a.digit i < kBase := ha.2.2.1 i (by omega)
    obtain ⟨best, r1, h1, h2, h3, h4, h5⟩ := divmod_big_step_spec a b hb i hai q r hr hrb hrl
    rw [h1] at hstep
    cases hstep
    refine ⟨by omega, h3, h4, ?_⟩
    show r1.mag < kBase ^ (kMaxDigits - i)
    have e : kMaxDigits - i = (kMaxDigits - (i + 1)) + 1 := by omega
    rw [e, pow_succ]
    have h6 : (r.mag + 1) * kBase ≤ kBase ^ (kMaxDigits - (i + 1)) * kBase :=
      Nat.mul_le_mul_right _ hrc
    rw [Nat.add_mul] at h6
    have h8 : r1.mag ≤ r.mag * kBase + a.digit i := by omega
    omega

/-- One round of the multi-limb loop from a state of the loop: the
remainder has fewer than `kMaxDigits` limbs, so `shift_base_add` returns; the
search returns a limb; and the product of the divisor and that limb fits. -/
theorem bigLoopAt_round (a b : BigInt) (ha : MagOk a) (hb : MagOk b) (hb0 : b.len_ ≠ 0)
    (i : Nat) (st : BigInt × BigInt) (h : BigLoopAt a b (i + 1) st) :
    st.2.len_ < kMaxDigits ∧
    ∃ r best st1, shift_base_add st.2 (a.digit i) = .ok r ∧
      div_search b r (kBase + 1) 0 (kBase - 1) 0 = .ok best ∧
      (mul_uint_abs_no_throw b best).1 = true ∧
      divmod_big_step a b i st = .ok st1 := by
  obtain ⟨hi, hr, hrb, hrc⟩ := bigLoopAt_inv a b ha hb hb0 (i + 1) st h
  obtain ⟨q, r⟩ := st
  simp only at hr hrb hrc ⊢
  have hal := ha.2.1
  have hrl : r.len_ < kMaxDigits := by
    have := len_le_of_mag_lt r hr _ hrc
    omega
  have hai : a.digit i < kBase := ha.2.2.1 i (by omega)
  obtain ⟨s, hs1, hs2, hs3⟩ := shift_base_add_spec r hr (a.digit i) hai hrl
  have hslt : s.mag < b.mag * kBase := by
    rw [hs3]
    have : (r.mag + 1) * kBase ≤ b.mag * kBase := Nat.mul_le_mul_right _ hrb
    rw [Nat.add_mul] at this
    omega
  obtain ⟨best, hq1, hq2, hq3, hq4⟩ := div_search_spec b s hb hs2 (kBase + 1) 0 (kBase - 1) 0
    (by have := kBase_pos; omega) (by omega) (by have := kBase_pos; omega) (by simp)
    (Or.inr ⟨rfl, rfl⟩)
    (fun m hm => lt_of_lt_of_le hslt (Nat.mul_le_mul_left _ (by have := kBase_pos; omega)))
  obtain ⟨best1, r1, h1, _⟩ := divmod_big_step_spec a b hb i hai q r hr hrb hrl
  refine ⟨hrl, s, best, _, hs1, hq1, ?_, h1⟩
  rcases mul_uint_spec b hb best hq2 with ⟨p, g1, _, _⟩ | ⟨_, g2⟩
  · rw [g1]
  · exfalso
    have := hs2.mag_lt_cap
    omega

/-- C38. BigInt division never overflows. For canonical `a` and `b` with
`b` not zero, `a / b` and `a % b` return, so neither throws
"integer overflow". In the multi-limb loop of `divmod_abs` on magnitudes `a`
and `b` in canonical form, `b` not zero, every state `(q, r)` that the loop
reaches before a round has `r` of fewer than 20 limbs, so that
`shift_base_add` returns; the binary search returns a limb `best`; the
product `b * best` fits in 20 limbs (`mul_uint_abs_no_throw` returns true);
and the round returns. The whole loop returns from its first state. -/
theorem division_never_overflows (a b : BigInt) (ha : Canonical a) (hb : Canonical b)
    (hb0 : b.value ≠ 0) :
    (∃ q r, div a b = .ok q ∧ mod a b = .ok r) ∧
    div a b ≠ .error overflowMsg ∧ mod a b ≠ .error overflowMsg ∧
    overflowMsg = "integer overflow" ∧ kMaxDigits = 20 ∧
    (∀ i st, BigLoopAt { a with negative_ := false } { b with negative_ := false } (i + 1) st →
      st.2.len_ < kMaxDigits ∧
      ∃ r best st1, shift_base_add st.2 (a.digit i) = .ok r ∧
        div_search { b with negative_ := false } r (kBase + 1) 0 (kBase - 1) 0 = .ok best ∧
        (mul_uint_abs_no_throw { b with negative_ := false } best).1 = true ∧
        divmod_big_step { a with negative_ := false } { b with negative_ := false } i st =
          .ok st1) ∧
    (∃ st, divmod_big_loop { a with negative_ := false } { b with negative_ := false } a.len_
      ({ zero with len_ := a.len_ }, zero) = .ok st) := by
  have hbl : b.len_ ≠ 0 := hb.len_ne_zero_iff.mpr hb0
  obtain ⟨q, r, h1, _⟩ := divmod_spec a b ha hb hbl
  have hd : div a b = .ok q := by simp only [div, h1]; rfl
  have hm : mod a b = .ok r := by simp only [mod, h1]; rfl
  have hbpos : 0 < b.mag := by
    have := hb.1.len_eq_zero_iff
    omega
  refine ⟨⟨q, r, hd, hm⟩, (by rw [hd]; intro h; cases h), (by rw [hm]; intro h; cases h), rfl, rfl,
    fun i st hst => bigLoopAt_round _ _ (ha.1.with_negative false) (hb.1.with_negative false)
      hbl i st hst, ?_⟩
  obtain ⟨q1, r1, g1, _⟩ := divmod_big_loop_spec { a with negative_ := false }
    { b with negative_ := false } (hb.1.with_negative false) a.len_
    { zero with len_ := a.len_ } zero ha.1.2.1 (fun k hk => ha.1.2.2.1 k hk) zero_magOk
    (by rw [zero_mag]; exact hbpos) (by rw [zero_mag]; exact pow_kBase_pos _) rfl
  exact ⟨_, g1⟩

theorem division_never_overflows_witness :
    Canonical (ofLimbs true (List.replicate 20 999999999)) ∧
    Canonical (ofLimbs false (List.replicate 19 999999999 ++ [1])) ∧
    (ofLimbs true (List.replicate 20 999999999)).len_ = 20 ∧
    (ofLimbs false (List.replicate 19 999999999 ++ [1])).len_ = 20 ∧
    div (ofLimbs true (List.replicate 20 999999999))
      (ofLimbs false (List.replicate 19 999999999 ++ [1])) ≠ .error overflowMsg ∧
    mod (ofLimbs true (List.replicate 20 999999999))
      (ofLimbs false (List.replicate 19 999999999 ++ [1])) ≠ .error overflowMsg :=
  ⟨by decide!, by decide!, rfl, rfl,
    (division_never_overflows (ofLimbs true (List.replicate 20 999999999))
      (ofLimbs false (List.replicate 19 999999999 ++ [1])) (by decide!) (by decide!)
      (by decide!)).2.1,
    (division_never_overflows (ofLimbs true (List.replicate 20 999999999))
      (ofLimbs false (List.replicate 19 999999999 ++ [1])) (by decide!) (by decide!)
      (by decide!)).2.2.1⟩

end BigInt

/-! ## Claim about the slots that CALL writes -/

namespace Vm

/-- C39. Where CALL writes past the locals of the callee. The loop of
`call_function` assigns the argument popped in round `i` to
`callee.locals[i - 1]`: with `n` arguments on the stack and
`n <= |locals|` it fills the slots `n - 1` down to 0, and with
`|locals| < i` its first round assigns past the end of the vector. The
loader accepts a file whose function has `param_count == 1` and
`local_count == 0`: `load_frogc` returns `badLocalsModule` for its encoding
(in a memory with room for its 7 items),
the constructor builds a Vm for it, and the second step of `run`, the CALL
with `argc == param_count == 1`, assigns to `callee.locals[0]` of a vector of
length 0. -/
theorem call_argument_past_locals :
    (∀ (n : Nat) (locals : List Value) (vm : Vm) (s args : List Value),
      vm.stack_ = s ++ args → args.length = n → n ≤ locals.length →
      pop_args n locals vm = Res.ok (args ++ locals.drop n) { vm with stack_ := s }) ∧
    (∀ (i : Nat) (locals : List Value) (vm : Vm) (s : List Value) (v : Value),
      vm.stack_ = s ++ [v] → locals.length ≤ i →
      pop_args (i + 1) locals vm = Res.throw oobMsg { vm with stack_ := s }) ∧
    load_frogc (Memory.ofItems 7)
      [70, 82, 79, 71, 0, 1, 0, 0, 0, 2, 0, 0, 0, 1, 0, 0, 0, 4, 4, 0, 0, 0, 1, 102, 1, 0, 0, 0,
       7, 0, 0, 0, 0, 0, 1, 0, 0, 0, 0, 0, 3, 5, 1, 0, 1, 0, 0, 0, 1, 22, 3, 0, 0, 0, 0, 0, 1, 23,
       0, 23, 0] = .ok badLocalsModule ∧
    badLocalsModule.functions.map (fun f => (f.param_count, f.local_count, f.entry_ip)) =
      [(1, 0, 3)] ∧
    badLocalsModule.code.get? 1 =
      some { op := .kCall, a := 0, b := 1, has_a := true, has_b := true } ∧
    create lp64 badLocalsModule = .ok (fSevenVm badLocalsModule 4) ∧
    plain_rounds lp64 1 (run_reset (fSevenVm badLocalsModule 4)) =
      some { run_reset (fSevenVm badLocalsModule 4) with
        stack_ := [Value.int (BigInt.ofLimbs false [7])],
        frames_ := [{ func_index := kGlobalFuncIndex, ip := 1, return_ip := 0,
                      base_stack_size := 0, locals := [] }] } ∧
    step lp64 { run_reset (fSevenVm badLocalsModule 4) with
        stack_ := [Value.int (BigInt.ofLimbs false [7])],
        frames_ := [{ func_index := kGlobalFuncIndex, ip := 1, return_ip := 0,
                      base_stack_size := 0, locals := [] }] } =
      Res.throw oobMsg { run_reset (fSevenVm badLocalsModule 4) with
        stack_ := [],
        frames_ := [{ func_index := kGlobalFuncIndex, ip := 2, return_ip := 0,
                      base_stack_size := 0, locals := [] }],
        hot_counters_ := [1] } :=
  ⟨fun n locals vm s args hs hn hle => pop_args_eq n locals vm s args hs hn hle,
    fun i locals vm s v hs hi => pop_args_oob i locals vm s v hs hi,
    by decide!, by decide!, by decide!, by decide!, by decide!, by decide!⟩

end Vm

/-! ## Claim about marking -/

namespace Heap

theorem mark_loop_worklist (fuel : Nat) (st st1 : MarkState) (h : mark_loop fuel st = .ok st1) :
    st1.worklist = [] := by
  induction fuel generalizing st with
  | zero => cases h
  | succ fuel ih =>
    rw [mark_loop] at h
    cases hw : st.worklist with
    | nil =>
      rw [hw] at h
      cases h
      exact hw
    | cons p rest =>
      rw [hw] at h
      simp only at h
      cases hd : deref st.objects p with
      | none =>
        rw [hd] at h
        cases h
      | some obj =>
        rw [hd] at h
        simp only at h
        split at h
        · cases hf : obj.elements.foldlM MarkValue { st with worklist := rest } with
          | error m =>
            rw [hf] at h
            cases h
          | ok st2 =>
            rw [hf] at h
            exact ih st2 h
        · exact ih _ h

theorem MarkFromRoots_worklist (objects : List (Nat × HeapObject)) (roots : List Value)
    (st : MarkState) (h : MarkFromRoots objects roots = .ok st) : st.worklist = [] := by
  unfold MarkFromRoots at h
  cases hf : roots.foldlM MarkValue { objects := objects, worklist := [], marked_count := 0 } with
  | error m =>
    rw [hf] at h
    cases h
  | ok st0 =>
    rw [hf] at h
    exact mark_loop_worklist _ st0 st h

/-- What one call of `MarkValue` that returns does: nothing, or it finds the
object at the pointer unmarked, marks it, increments `marked_count` and
pushes the pointer on the worklist. -/
theorem MarkValue_push (st st1 : MarkState) (v : Value) (h : MarkValue st v = .ok st1) :
    st1 = st ∨
    ∃ p obj, v.pointer = some p ∧ p ≠ 0 ∧ deref st.objects p = some obj ∧ obj.marked = false ∧
      st1 = { objects := setMarked st.objects p true, worklist := p :: st.worklist,
              marked_count := st.marked_count + 1 } := by
  unfold MarkValue at h
  split at h
  · cases h
    exact Or.inl rfl
  · cases hp : v.pointer with
    | none =>
      rw [hp] at h
      cases h
      exact Or.inl rfl
    | some p =>
      rw [hp] at h
      simp only at h
      split at h
      · cases h
        exact Or.inl rfl
      · rename_i hp0
        cases hd : deref st.objects p with
        | none =>
          rw [hd] at h
          cases h
        | some obj =>
          rw [hd] at h
          simp only at h
          split at h
          · cases h
            exact Or.inl rfl
          · rename_i hm
            cases h
            exact Or.inr ⟨p, obj, rfl, hp0, hd, by simpa using hm, rfl⟩

theorem length_filter_marked (l : List (Nat × HeapObject)) :
    (l.filter (fun o => o.2.marked)).length + unmarkedCount l = l.length := by
  unfold unmarkedCount
  induction l with
  | nil => rfl
  | cons x rest ih =>
    simp only [List.filter_cons]
    cases x.2.marked
    · simp only [Bool.false_eq_true, if_false, Bool.not_false, if_true, List.length_cons]
      omega
    · simp only [if_true, Bool.not_true, Bool.false_eq_true, if_false, List.length_cons]
      omega

theorem map_unmark_of_unmarked (l : List (Nat × HeapObject))
    (h : ∀ o ∈ l, o.2.marked = false) : l.map unmark = l := by
  induction l with
  | nil => rfl
  | cons x rest ih =>
    rw [List.map_cons, ih (fun o ho => h o (List.mem_cons_of_mem _ ho))]
    have hx := h x (List.mem_cons_self _ _)
    obtain ⟨p, o⟩ := x
    obtain ⟨k, m, sz, v, es⟩ := o
    simp only at hx
    subst hx
    rfl

/-- C40. Marking terminates on cyclic heaps. Let the pointers of the heap
`h` be pairwise distinct, let every pointer held by a root or by an element
of an array be null or point to an object of the heap, and let no object be
marked; arrays may hold themselves, directly or through other arrays. Then
`MarkFromRoots` returns within the `|objects| + 1` rounds its loop is
given, with an empty worklist; the objects are the same apart from their
mark bits; an object is marked if and only if it is reachable from the
roots; and `marked_count` is the number of marked objects, that is of the
distinct reachable ones, which is at most the number of objects. A call of
`MarkValue` pushes a pointer only when it finds the object unmarked, and it
marks it and counts it in the same call, so that no object is pushed twice:
the pushes are as many as the marked objects. -/
theorem marking_terminates (h : Heap) (roots : List Value) (hwf : h.addrs.Nodup)
    (hcl : h.Closed roots) (hun : ∀ o ∈ h.objects_, o.2.marked = false) :
    (∃ st, MarkFromRoots h.objects_ roots = .ok st ∧ st.worklist = [] ∧
      st.objects.map unmark = h.objects_ ∧
      st.objects.map Prod.fst = h.addrs ∧
      (∀ p, IsMarked st.objects p ↔ Reachable h roots p) ∧
      (∀ o ∈ st.objects, o.2.marked = true ↔ Reachable h roots o.1) ∧
      st.marked_count = (st.objects.filter (fun o => o.2.marked)).length ∧
      st.marked_count ≤ h.objects_.length) ∧
    (∀ st st1 v, MarkValue st v = .ok st1 →
      st1 = st ∨
      ∃ p obj, v.pointer = some p ∧ p ≠ 0 ∧ deref st.objects p = some obj ∧
        obj.marked = false ∧
        st1 = { objects := setMarked st.objects p true, worklist := p :: st.worklist,
                marked_count := st.marked_count + 1 }) := by
  have hid := map_unmark_of_unmarked h.objects_ hun
  obtain ⟨st, h1, h2, h3, h4⟩ := MarkFromRoots_spec h roots hwf hcl
  rw [hid] at h1 h2
  have hfst : st.objects.map Prod.fst = h.addrs := by
    have := map_fst_of_map_unmark (h2.trans hid.symm)
    exact this
  have hnod : (st.objects.map Prod.fst).Nodup := by
    rw [hfst]
    exact hwf
  have hlen : st.objects.length = h.objects_.length := by
    have := congrArg List.length h2
    rw [List.length_map] at this
    exact this
  have hcnt := length_filter_marked st.objects
  refine ⟨⟨st, h1, MarkFromRoots_worklist _ _ _ h1, h2, hfst, h3, ?_, by omega, by omega⟩,
    fun st st1 v hv => MarkValue_push st st1 v hv⟩
  intro o ho
  rw [← isMarked_iff_of_mem hnod ho]
  exact h3 o.1

theorem marking_terminates_witness :
    cyclicHeap.addrs.Nodup ∧ cyclicHeap.Closed cyclicRoots ∧
    (∃ st, MarkFromRoots cyclicHeap.objects_ cyclicRoots = .ok st ∧ st.worklist = [] ∧
      st.marked_count = (st.objects.filter (fun o => o.2.marked)).length ∧
      st.marked_count ≤ cyclicHeap.objects_.length) ∧
    (MarkFromRoots cyclicHeap.objects_ cyclicRoots).map (fun st => st.marked_count) = .ok 4 :=
  ⟨by decide, by decide,
    let ⟨st, h1, h2, _, _, _, _, h7, h8⟩ :=
      (marking_terminates cyclicHeap cyclicRoots (by decide) (by decide) (by decide)).1
    ⟨st, h1, h2, h7, h8⟩,
    by decide⟩

end Heap

/-! ## Heap: pointers within a set of addresses -/

namespace Heap

theorem within_flat (A : List Nat) {v : Value} (h : v.pointer = none) : Within A v := by
  unfold Within
  rw [h]
  trivial

theorem within_pointer {A : List Nat} {v : Value} {p : Nat} (h : v.pointer = some p)
    (hp : p ∈ A) : Within A v := by
  unfold Within
  rw [h]
  exact hp

theorem mem_of_within {A : List Nat} {v : Value} {p : Nat} (hw : Within A v)
    (h : v.pointer = some p) : p ∈ A := by
  unfold Within at hw
  rw [h] at hw
  exact hw

theorem within_mono {A B : List Nat} {v : Value} (hw : Within A v) (h : ∀ p ∈ A, p ∈ B) :
    Within B v := by
  unfold Within at hw ⊢
  cases hp : v.pointer with
  | none => trivial
  | some p =>
    rw [hp] at hw
    exact h p hw

theorem within_null (A : List Nat) : Within A Value.null := within_flat A rfl

theorem good_noDangling {A : List Nat} {h : Heap} {roots : List Value} (hg : Good A h)
    (hr : ∀ v ∈ roots, Within A v) : h.NoDangling roots := by
  obtain ⟨ha, hwf, he⟩ := hg
  subst ha
  exact ⟨hwf, hr, he⟩

theorem noDangling_good {h : Heap} {roots : List Value} (hs : h.NoDangling roots) :
    Good h.addrs h ∧ ∀ v ∈ roots, Within h.addrs v :=
  ⟨⟨rfl, hs.1, hs.2.2⟩, hs.2.1⟩

theorem elementsAt_ok_mem {h : Heap} {p : Nat} {es : List Value}
    (he : elementsAt h p = .ok es) :
    ∃ o, (p, o) ∈ h.objects_ ∧ o.kind = .kArray ∧ o.elements = es := by
  unfold elementsAt at he
  cases hd : deref h.objects_ p with
  | none =>
    rw [hd] at he
    cases he
  | some o =>
    rw [hd] at he
    simp only at he
    split at he
    · rename_i hk
      cases he
      exact ⟨o, deref_eq_some_mem hd, hk, rfl⟩
    · cases he

theorem elementsAt_within {A : List Nat} {h : Heap} (hg : Good A h) {p : Nat} {es : List Value}
    (he : elementsAt h p = .ok es) : ∀ v ∈ es, Within A v := by
  obtain ⟨o, ho, hk, rfl⟩ := elementsAt_ok_mem he
  exact hg.2.2 (p, o) ho hk

theorem elementsAt_error {A : List Nat} {h : Heap} (hg : Good A h) {p : Nat} (hp : p ∈ A)
    {m : String} (he : elementsAt h p = .error m) : m ≠ danglingMsg := by
  unfold elementsAt at he
  rw [← hg.1] at hp
  obtain ⟨o, ho⟩ := deref_isSome_of_mem hp
  rw [ho] at he
  simp only at he
  split at he
  · cases he
  · cases he
    decide

theorem stringAt_error {A : List Nat} {h : Heap} (hg : Good A h) {p : Nat} (hp : p ∈ A)
    {m : String} (he : stringAt h p = .error m) : m ≠ danglingMsg := by
  unfold stringAt at he
  rw [← hg.1] at hp
  obtain ⟨o, ho⟩ := deref_isSome_of_mem hp
  rw [ho] at he
  simp only at he
  split at he
  · cases he
  · cases he
    decide

theorem good_setElements {A : List Nat} {h : Heap} (hg : Good A h) (p : Nat) {es : List Value}
    (hes : ∀ v ∈ es, Within A v) : Good A (setElements h p es) := by
  obtain ⟨ha, hwf, he⟩ := hg
  have hadd := addrs_setElements h p es
  refine ⟨hadd.trans ha, ?_, ?_⟩
  · unfold Wf
    rw [hadd]
    exact hwf
  · intro o ho hk v hv
    unfold setElements at ho
    simp only [List.mem_map] at ho
    obtain ⟨o0, ho0, rfl⟩ := ho
    split at hv
    · exact hes v hv
    · rename_i hc
      split at hk
      · rename_i hc1
        exact absurd hc1 hc
      · exact he o0 ho0 hk v hv

theorem good_storeElement {A : List Nat} {h h1 : Heap} (hg : Good A h) {p i : Nat} {v : Value}
    (hv : Within A v) (hs : storeElement h p i v = .ok h1) : Good A h1 := by
  unfold storeElement at hs
  cases he : elementsAt h p with
  | error m =>
    rw [he] at hs
    cases hs
  | ok es =>
    rw [he] at hs
    simp only [bind, Except.bind] at hs
    split at hs
    · cases hs
      refine good_setElements hg p (fun x hx => ?_)
      rcases List.mem_or_eq_of_mem_set hx with h1 | h1
      · exact elementsAt_within hg he x h1
      · rw [h1]
        exact hv
    · cases hs

theorem storeElement_error {A : List Nat} {h : Heap} (hg : Good A h) {p i : Nat} {v : Value}
    (hp : p ∈ A) {m : String} (hs : storeElement h p i v = .error m) : m ≠ danglingMsg := by
  unfold storeElement at hs
  cases he : elementsAt h p with
  | error m1 =>
    rw [he] at hs
    cases hs
    exact elementsAt_error hg hp he
  | ok es =>
    rw [he] at hs
    simp only [bind, Except.bind] at hs
    split at hs
    · cases hs
    · cases hs
      decide

end Heap

/-! ## The interpreter: calls that keep a state safe -/

namespace Vm

open Heap

theorem safe_iff_inv (vm : Vm) : Safe vm ↔ Inv vm.heap_.addrs vm := by
  constructor
  · intro h
    exact noDangling_good h
  · intro h
    exact good_noDangling h.1 h.2

theorem inv_safe {A : List Nat} {vm : Vm} (h : Inv A vm) : Safe vm :=
  good_noDangling h.1 h.2

theorem inv_sub {A : List Nat} {vm vm1 : Vm} (h : Inv A vm) (hg : Good A vm1.heap_)
    (hr : ∀ v ∈ vm1.Roots, v ∈ vm.Roots ∨ Within A v) : Inv A vm1 :=
  ⟨hg, fun v hv => (hr v hv).elim (h.2 v) id⟩

theorem inv_stack {A : List Nat} {vm : Vm} (h : Inv A vm) {v : Value} (hv : v ∈ vm.stack_) :
    Within A v := h.2 v ((mem_Roots vm v).2 (Or.inr (Or.inl hv)))

theorem inv_const {A : List Nat} {vm : Vm} (h : Inv A vm) {v : Value}
    (hv : v ∈ vm.const_values_) : Within A v := h.2 v ((mem_Roots vm v).2 (Or.inl hv))

theorem inv_locals {A : List Nat} {vm : Vm} (h : Inv A vm) {f : CallFrame} (hf : f ∈ vm.frames_)
    {v : Value} (hv : v ∈ f.locals) : Within A v :=
  h.2 v ((mem_Roots vm v).2 (Or.inr (Or.inr (Or.inl ⟨f, hf, hv⟩))))

theorem inv_temp {A : List Nat} {vm : Vm} (h : Inv A vm) {v : Value}
    (hv : v ∈ vm.temp_roots_) : Within A v :=
  h.2 v ((mem_Roots vm v).2 (Or.inr (Or.inr (Or.inr (Or.inr hv)))))

theorem tidy_bind {α β : Type} {A : List Nat} {G : α → Prop} {G1 : β → Prop} {x : VmM α}
    {f : α → VmM β} (hx : Tidy A G x) (hf : ∀ a, G a → Tidy A G1 (f a)) :
    Tidy A G1 (x >>= f) := by
  constructor
  intro vm hi
  rw [Sat_bind]
  exact Sat_mono (hx.sat vm hi) (fun a vm1 h => (hf a h.2).sat vm1 h.1) (fun _ _ h => h)

theorem tidy_weaken {α : Type} {A : List Nat} {G G1 : α → Prop} {x : VmM α} (hx : Tidy A G x)
    (h : ∀ a, G a → G1 a) : Tidy A G1 x :=
  ⟨fun vm hi => Sat_mono (hx.sat vm hi) (fun a _ h1 => ⟨h1.1, h a h1.2⟩) (fun _ _ h => h)⟩

theorem tidy_pure {α : Type} (A : List Nat) {G : α → Prop} (a : α) (h : G a) :
    Tidy A G (pure a : VmM α) := ⟨fun _ hi => ⟨hi, h⟩⟩

theorem tidy_raise {α : Type} (A : List Nat) (G : α → Prop) (m : String)
    (h : m ≠ danglingMsg) : Tidy A G (raise m : VmM α) := ⟨fun _ hi => ⟨hi, h⟩⟩

theorem tidy_self (A : List Nat) : Tidy A (fun vm => Inv A vm) self := ⟨fun _ hi => ⟨hi, hi⟩⟩

theorem tidy_lift {α : Type} (A : List Nat) {G : α → Prop} {x : Except String α}
    (he : ∀ m, x = .error m → m ≠ danglingMsg) (hv : ∀ a, x = .ok a → G a) :
    Tidy A G (lift x) := by
  constructor
  intro vm hi
  rw [Sat_lift]
  exact ⟨fun a ha => ⟨hi, hv a ha⟩, fun m hm => ⟨hi, he m hm⟩⟩

theorem tidy_update (A : List Nat) (f : Vm → Vm) (h : ∀ vm, Inv A vm → Inv A (f vm)) :
    Tidy A (fun _ => True) (update f) := ⟨fun vm hi => ⟨h vm hi, trivial⟩⟩

theorem tidy_pop (A : List Nat) : Tidy A (Within A) pop := by
  constructor
  intro vm hi
  rw [Sat_pop]
  refine ⟨fun _ => ⟨hi, by decide⟩, fun s v hs => ?_⟩
  have hv : Within A v := inv_stack hi (by rw [hs]; exact List.mem_append_right _ (List.mem_singleton_self v))
  refine ⟨inv_sub hi hi.1 (fun x hx => ?_), hv⟩
  rw [mem_Roots] at hx ⊢
  simp only at hx
  rw [hs]
  rcases hx with h | h | h | h | h
  · exact Or.inl (Or.inl h)
  · exact Or.inl (Or.inr (Or.inl (List.mem_append_left _ h)))
  · exact Or.inl (Or.inr (Or.inr (Or.inl h)))
  · exact Or.inl (Or.inr (Or.inr (Or.inr (Or.inl h))))
  · exact Or.inl (Or.inr (Or.inr (Or.inr (Or.inr h))))

theorem inv_push {A : List Nat} {vm : Vm} (hi : Inv A vm) {v : Value} (hv : Within A v) :
    Inv A { vm with stack_ := vm.stack_ ++ [v] } := by
  refine inv_sub hi hi.1 (fun x hx => ?_)
  rw [mem_Roots] at hx ⊢
  simp only [List.mem_append, List.mem_singleton] at hx
  rcases hx with h | (h | h) | h | h | h
  · exact Or.inl (Or.inl h)
  · exact Or.inl (Or.inr (Or.inl h))
  · rw [h]
    exact Or.inr hv
  · exact Or.inl (Or.inr (Or.inr (Or.inl h)))
  · exact Or.inl (Or.inr (Or.inr (Or.inr (Or.inl h))))
  · exact Or.inl (Or.inr (Or.inr (Or.inr (Or.inr h))))

theorem tidy_push (A : List Nat) {v : Value} (hv : Within A v) :
    Tidy A (fun _ => True) (push v) := ⟨fun _ hi => ⟨inv_push hi hv, trivial⟩⟩

theorem tidy_frame (A : List Nat) : Tidy A (fun f => ∀ v ∈ f.locals, Within A v) frame := by
  constructor
  intro vm hi
  rw [Sat_frame]
  refine ⟨fun _ => ⟨hi, by decide⟩, fun fs f hf => ⟨hi, fun v hv => ?_⟩⟩
  exact inv_locals hi (by rw [hf]; exact List.mem_append_right _ (List.mem_singleton_self f)) hv

theorem inv_frames {A : List Nat} {vm : Vm} (hi : Inv A vm) (fs : List CallFrame)
    (h : ∀ f ∈ fs, ∀ v ∈ f.locals, v ∈ vm.Roots ∨ Within A v) :
    Inv A { vm with frames_ := fs } := by
  refine inv_sub hi hi.1 (fun x hx => ?_)
  rw [mem_Roots] at hx
  simp only at hx
  rcases hx with h1 | h1 | ⟨f, hf, hv⟩ | h1 | h1
  · exact Or.inl ((mem_Roots _ _).2 (Or.inl h1))
  · exact Or.inl ((mem_Roots _ _).2 (Or.inr (Or.inl h1)))
  · exact h f hf x hv
  · exact Or.inl ((mem_Roots _ _).2 (Or.inr (Or.inr (Or.inr (Or.inl h1)))))
  · exact Or.inl ((mem_Roots _ _).2 (Or.inr (Or.inr (Or.inr (Or.inr h1)))))

theorem inv_setFrame {A : List Nat} {vm : Vm} (hi : Inv A vm) (f : CallFrame)
    (h : ∀ v ∈ f.locals, Within A v) :
    Inv A { vm with frames_ := vm.frames_.dropLast ++ [f] } := by
  refine inv_frames hi _ (fun g hg v hv => ?_)
  rcases List.mem_append.1 hg with h1 | h1
  · exact Or.inr (inv_locals hi (List.mem_of_mem_dropLast h1) hv)
  · rw [List.mem_singleton] at h1
    subst h1
    exact Or.inr (h v hv)

theorem tidy_setFrame (A : List Nat) (f : CallFrame) (h : ∀ v ∈ f.locals, Within A v) :
    Tidy A (fun _ => True) (setFrame f) := ⟨fun _ hi => ⟨inv_setFrame hi f h, trivial⟩⟩

theorem tidy_peek_args (A : List Nat) (n : Nat) :
    Tidy A (fun args => ∀ v ∈ args, Within A v) (peek_args n) := by
  constructor
  intro vm hi
  unfold peek_args
  split
  · exact ⟨hi, by decide⟩
  · exact ⟨hi, fun v hv => inv_stack hi (List.mem_of_mem_drop hv)⟩

theorem inv_temp_roots {A : List Nat} {vm : Vm} (hi : Inv A vm) (t : List Value)
    (h : ∀ v ∈ t, v ∈ vm.Roots ∨ Within A v) : Inv A { vm with temp_roots_ := t } := by
  refine inv_sub hi hi.1 (fun x hx => ?_)
  rw [mem_Roots] at hx
  simp only at hx
  rcases hx with h1 | h1 | h1 | h1 | h1
  · exact Or.inl ((mem_Roots _ _).2 (Or.inl h1))
  · exact Or.inl ((mem_Roots _ _).2 (Or.inr (Or.inl h1)))
  · exact Or.inl ((mem_Roots _ _).2 (Or.inr (Or.inr (Or.inl h1))))
  · exact Or.inl ((mem_Roots _ _).2 (Or.inr (Or.inr (Or.inr (Or.inl h1)))))
  · exact h x h1

theorem inv_stack_set {A : List Nat} {vm : Vm} (hi : Inv A vm) (s : List Value)
    (h : ∀ v ∈ s, v ∈ vm.Roots ∨ Within A v) : Inv A { vm with stack_ := s } := by
  refine inv_sub hi hi.1 (fun x hx => ?_)
  rw [mem_Roots] at hx
  simp only at hx
  rcases hx with h1 | h1 | h1 | h1 | h1
  · exact Or.inl ((mem_Roots _ _).2 (Or.inl h1))
  · exact h x h1
  · exact Or.inl ((mem_Roots _ _).2 (Or.inr (Or.inr (Or.inl h1))))
  · exact Or.inl ((mem_Roots _ _).2 (Or.inr (Or.inr (Or.inr (Or.inl h1)))))
  · exact Or.inl ((mem_Roots _ _).2 (Or.inr (Or.inr (Or.inr (Or.inr h1)))))

theorem inv_heap {A : List Nat} {vm : Vm} (hi : Inv A vm) {h : Heap} (hg : Good A h) :
    Inv A { vm with heap_ := h } := ⟨hg, hi.2⟩

theorem inv_cout {A : List Nat} {vm : Vm} (hi : Inv A vm) (c : List Printed) :
    Inv A { vm with cout := c } := ⟨hi.1, hi.2⟩

theorem tidy_TempRoots {α : Type} (A : List Nat) {G : α → Prop} (values : List Value)
    (hv : ∀ v ∈ values, Within A v) {body : VmM α} (hb : Tidy A G body) :
    Tidy A G (TempRoots values body) := by
  constructor
  intro vm hi
  rw [Sat_TempRoots]
  have h1 : Inv A { vm with temp_roots_ := vm.temp_roots_ ++ values } :=
    inv_temp_roots hi _ (fun v hm => (List.mem_append.1 hm).elim
      (fun h => Or.inr (inv_temp hi h)) (fun h => Or.inr (hv v h)))
  refine Sat_mono (hb.sat _ h1) (fun a vm1 h => ⟨?_, h.2⟩) (fun m vm1 h => ⟨?_, h.2⟩)
  · exact inv_temp_roots h.1 _ (fun v hm => Or.inr (inv_temp h.1 (List.mem_of_mem_take hm)))
  · exact inv_temp_roots h.1 _ (fun v hm => Or.inr (inv_temp h.1 (List.mem_of_mem_take hm)))

theorem tidy_const_string_view (A : List Nat) (i : Nat) :
    Tidy A (fun _ => True) (const_string_view i) := by
  constructor
  intro vm hi
  unfold const_string_view
  repeat' split
  all_goals first
    | exact ⟨hi, trivial⟩
    | exact ⟨hi, by decide⟩

theorem tidy_func_name_view (A : List Nat) (i : Nat) :
    Tidy A (fun _ => True) (func_name_view i) := by
  constructor
  intro vm hi
  unfold func_name_view
  split
  · exact ⟨hi, by decide⟩
  · exact (tidy_const_string_view A _).sat vm hi

theorem tidy_is_void_return (A : List Nat) (i : Nat) :
    Tidy A (fun _ => True) (is_void_return i) := by
  constructor
  intro vm hi
  unfold is_void_return
  repeat' split
  all_goals first
    | exact ⟨hi, trivial⟩
    | exact ⟨hi, by decide⟩

end Vm

/-! ## The interpreter: value operations and simple handlers keep a state safe -/

namespace Vm

open Heap

theorem yieldsE_ok {α : Type} (Q : α → Prop) (a : α) (h : Q a) :
    YieldsE Q (.ok a : Except String α) := ⟨fun b hb => by cases hb; exact h⟩

theorem yieldsE_error {α : Type} (Q : α → Prop) (m : String) :
    YieldsE Q (.error m : Except String α) := ⟨fun b hb => by cases hb⟩

theorem yieldsE_bind {α β : Type} {Q : β → Prop} {x : Except String α}
    {f : α → Except String β} (hf : ∀ a, YieldsE Q (f a)) : YieldsE Q (x >>= f) := by
  constructor
  intro b hb
  cases x with
  | error e => cases hb
  | ok a => exact (hf a).vals b hb

theorem flat_FromInt (v : Int) : YieldsE (fun x => x.pointer = none) (FromInt v) := by
  unfold FromInt
  exact yieldsE_bind (fun _ => yieldsE_ok _ _ rfl)

theorem flat_sub_values (l r : Value) : YieldsE (fun x => x.pointer = none) (sub_values l r) := by
  unfold sub_values
  repeat' first
    | exact yieldsE_ok _ _ rfl | exact yieldsE_error _ _ | exact flat_FromInt _
    | apply yieldsE_bind
    | split
    | intro _

theorem flat_mul_values (l r : Value) : YieldsE (fun x => x.pointer = none) (mul_values l r) := by
  unfold mul_values
  repeat' first
    | exact yieldsE_ok _ _ rfl | exact yieldsE_error _ _ | exact flat_FromInt _
    | apply yieldsE_bind
    | split
    | intro _

theorem flat_div_values (l r : Value) : YieldsE (fun x => x.pointer = none) (div_values l r) := by
  unfold div_values
  repeat' first
    | exact yieldsE_ok _ _ rfl | exact yieldsE_error _ _ | exact flat_FromInt _
    | apply yieldsE_bind
    | split
    | intro _

theorem flat_mod_values (l r : Value) : YieldsE (fun x => x.pointer = none) (mod_values l r) := by
  unfold mod_values
  repeat' first
    | exact yieldsE_ok _ _ rfl | exact yieldsE_error _ _ | exact flat_FromInt _
    | apply yieldsE_bind
    | split
    | intro _

theorem flat_neg_value (v : Value) : YieldsE (fun x => x.pointer = none) (neg_value v) := by
  unfold neg_value
  repeat' first
    | exact yieldsE_ok _ _ rfl | exact yieldsE_error _ _
    | split

theorem flat_not_value (v : Value) : YieldsE (fun x => x.pointer = none) (not_value v) := by
  unfold not_value
  repeat' first
    | exact yieldsE_ok _ _ rfl | exact yieldsE_error _ _
    | split

theorem flat_lt_values (l r : Value) : YieldsE (fun x => x.pointer = none) (lt_values l r) := by
  unfold lt_values
  repeat' first
    | exact yieldsE_ok _ _ rfl | exact yieldsE_error _ _
    | split

theorem flat_le_values (l r : Value) : YieldsE (fun x => x.pointer = none) (le_values l r) := by
  unfold le_values
  repeat' first
    | exact yieldsE_ok _ _ rfl | exact yieldsE_error _ _
    | split

theorem flat_gt_values (l r : Value) : YieldsE (fun x => x.pointer = none) (gt_values l r) := by
  unfold gt_values
  repeat' first
    | exact yieldsE_ok _ _ rfl | exact yieldsE_error _ _
    | split

theorem flat_ge_values (l r : Value) : YieldsE (fun x => x.pointer = none) (ge_values l r) := by
  unfold ge_values
  repeat' first
    | exact yieldsE_ok _ _ rfl | exact yieldsE_error _ _
    | split

theorem flat_and_values (l r : Value) : YieldsE (fun x => x.pointer = none) (and_values l r) := by
  unfold and_values
  repeat' first
    | exact yieldsE_ok _ _ rfl | exact yieldsE_error _ _
    | split

theorem flat_or_values (l r : Value) : YieldsE (fun x => x.pointer = none) (or_values l r) := by
  unfold or_values
  repeat' first
    | exact yieldsE_ok _ _ rfl | exact yieldsE_error _ _
    | split

theorem flat_eq_values (h : Heap) (l r : Value) :
    YieldsE (fun x => x.pointer = none) (eq_values h l r) := by
  unfold eq_values
  repeat' first
    | exact yieldsE_ok _ _ rfl | exact yieldsE_error _ _
    | apply yieldsE_bind
    | split
    | intro _

theorem flat_neq_values (h : Heap) (l r : Value) :
    YieldsE (fun x => x.pointer = none) (neq_values h l r) := by
  unfold neq_values
  repeat' first
    | exact yieldsE_ok _ _ rfl | exact yieldsE_error _ _
    | apply yieldsE_bind
    | split
    | intro _

theorem plain_ne_dangling {m : String} (h : Plain m) : m ≠ danglingMsg := by
  intro e
  exact h (by rw [e]; exact List.mem_cons_self _ _)

/-- A value operation that reads no heap object, under a binary handler. -/
theorem tidy_lift_plain (A : List Nat) {x : Except String Value} (hp : AvoidsE Plain x)
    (hf : YieldsE (fun v => v.pointer = none) x) : Tidy A (Within A) (lift x) :=
  tidy_lift A (fun m hm => plain_ne_dangling (hp.msgs m hm))
    (fun a ha => within_flat A (hf.vals a ha))

theorem tidy_binary (A : List Nat) {op : Value → Value → VmM Value}
    (h : ∀ l r, Within A l → Within A r → Tidy A (Within A) (op l r)) :
    Tidy A (fun _ => True) (binary op) := by
  unfold binary
  exact tidy_bind (tidy_pop A) (fun r hr => tidy_bind (tidy_pop A) (fun l hl =>
    tidy_bind (h l r hl hr) (fun v hv => tidy_push A hv)))

theorem tidy_unary (A : List Nat) {op : Value → Except String Value}
    (hp : ∀ v, AvoidsE Plain (op v)) (hf : ∀ v, YieldsE (fun x => x.pointer = none) (op v)) :
    Tidy A (fun _ => True) (unary op) := by
  unfold unary
  exact tidy_bind (tidy_pop A) (fun x _ => tidy_bind (tidy_lift_plain A (hp x) (hf x))
    (fun v hv => tidy_push A hv))

theorem eq_values_error {A : List Nat} {h : Heap} (hg : Good A h) {l r : Value}
    (hl : Within A l) (hr : Within A r) {m : String} (he : eq_values h l r = .error m) :
    m ≠ danglingMsg := by
  cases l <;> cases r
  case string.string p q =>
    have hp : p ∈ A := mem_of_within hl rfl
    have hq : q ∈ A := mem_of_within hr rfl
    rw [eq_values_string] at he
    split at he
    · cases he
    · rename_i m1 hm
      cases he
      exact stringAt_error hg hq hm
    · rename_i m1 hm
      cases he
      exact stringAt_error hg hp hm
  all_goals first
    | (simp only [eq_values, Value.tag, ne_eq, reduceCtorEq, not_false_eq_true,
        not_true_eq_false, if_true, if_false, Except.error.injEq] at he
       rw [← he]
       decide)
    | simp only [eq_values, Value.tag, ne_eq, reduceCtorEq, not_false_eq_true,
        not_true_eq_false, if_true, if_false, Except.error.injEq] at he

theorem neq_values_error {A : List Nat} {h : Heap} (hg : Good A h) {l r : Value}
    (hl : Within A l) (hr : Within A r) {m : String} (he : neq_values h l r = .error m) :
    m ≠ danglingMsg := by
  unfold neq_values at he
  cases hq : eq_values h l r with
  | error m1 =>
    rw [hq] at he
    cases he
    exact eq_values_error hg hl hr hq
  | ok v =>
    rw [hq] at he
    simp only [bind, Except.bind] at he
    split at he
    · cases he
    · cases he
      decide

theorem tidy_H_Pop (A : List Nat) : Tidy A (fun _ => True) H_Pop := by
  unfold H_Pop
  exact tidy_bind (tidy_pop A) (fun _ _ => tidy_pure A _ trivial)

theorem tidy_H_PushConst (A : List Nat) (ins : Instruction) :
    Tidy A (fun _ => True) (H_PushConst ins) := by
  unfold H_PushConst
  split
  · exact tidy_raise A _ _ (by decide)
  · refine tidy_bind (tidy_self A) (fun vm hi => ?_)
    cases hc : vm.const_values_.get? ins.a with
    | none => exact tidy_raise A _ _ (by decide)
    | some v => exact tidy_push A (inv_const hi (List.get?_mem hc))

theorem tidy_H_LoadLocal (A : List Nat) (ins : Instruction) :
    Tidy A (fun _ => True) (H_LoadLocal ins) := by
  unfold H_LoadLocal
  split
  · exact tidy_raise A _ _ (by decide)
  · refine tidy_bind (tidy_frame A) (fun f hf => ?_)
    cases hc : f.locals.get? ins.b with
    | none => exact tidy_raise A _ _ (by decide)
    | some v => exact tidy_push A (hf v (List.get?_mem hc))

theorem tidy_H_StoreLocal (A : List Nat) (ins : Instruction) :
    Tidy A (fun _ => True) (H_StoreLocal ins) := by
  unfold H_StoreLocal
  split
  · exact tidy_raise A _ _ (by decide)
  · refine tidy_bind (tidy_frame A) (fun f hf => ?_)
    split
    · exact tidy_raise A _ _ (by decide)
    · refine tidy_bind (tidy_pop A) (fun v hv => ?_)
      refine tidy_setFrame A _ (fun x hx => ?_)
      rcases List.mem_or_eq_of_mem_set hx with h | h
      · exact hf x h
      · rw [h]
        exact hv

theorem tidy_H_Jump (A : List Nat) (ins : Instruction) :
    Tidy A (fun _ => True) (H_Jump ins) := by
  unfold H_Jump
  split
  · exact tidy_raise A _ _ (by decide)
  · refine tidy_bind (tidy_frame A) (fun f hf => ?_)
    refine tidy_bind (tidy_self A) (fun vm _ => ?_)
    split
    · exact tidy_raise A _ _ (by decide)
    · exact tidy_setFrame A _ hf

theorem tidy_H_JumpFalse (A : List Nat) (ins : Instruction) :
    Tidy A (fun _ => True) (H_JumpFalse ins) := by
  unfold H_JumpFalse
  split
  · exact tidy_raise A _ _ (by decide)
  · refine tidy_bind (tidy_frame A) (fun f hf => ?_)
    refine tidy_bind (tidy_self A) (fun vm _ => ?_)
    split
    · exact tidy_raise A _ _ (by decide)
    · refine tidy_bind (tidy_pop A) (fun c _ => ?_)
      split
      · split
        · exact tidy_setFrame A _ hf
        · exact tidy_pure A _ trivial
      · exact tidy_raise A _ _ (by decide)

end Vm

/-! ## The interpreter: globals, arrays and returns keep a state safe -/

namespace Vm

open Heap

theorem mem_set_globals (gv : List Value) (gs : List Nat) (x : Value) :
    x ∈ ((gv.zip gs).filter (fun g => g.2 ≠ 0)).map Prod.fst ↔
      ∃ (i : Nat) (s : Nat), gv[i]? = some x ∧ gs[i]? = some s ∧ s ≠ 0 := by
  constructor
  · intro h
    obtain ⟨⟨a, b⟩, hab, rfl⟩ := List.mem_map.1 h
    have hf := List.mem_filter.1 hab
    obtain ⟨i, hi⟩ := List.mem_iff_getElem?.1 hf.1
    rw [List.getElem?_zip_eq_some] at hi
    exact ⟨i, b, hi.1, hi.2, by simpa using hf.2⟩
  · rintro ⟨i, s, h1, h2, h3⟩
    exact List.mem_map.2 ⟨(x, s), List.mem_filter.2
      ⟨List.mem_iff_getElem?.2 ⟨i, List.getElem?_zip_eq_some.2 ⟨h1, h2⟩⟩, by simpa using h3⟩, rfl⟩

theorem inv_globals {A : List Nat} {vm : Vm} (hi : Inv A vm) (gv : List Value) (gs : List Nat)
    (h : ∀ x ∈ ((gv.zip gs).filter (fun g => g.2 ≠ 0)).map Prod.fst, x ∈ vm.Roots ∨ Within A x) :
    Inv A { vm with globals_values_ := gv, globals_set_ := gs } := by
  refine inv_sub hi hi.1 (fun x hx => ?_)
  rw [mem_Roots] at hx
  simp only at hx
  rcases hx with h1 | h1 | h1 | h1 | h1
  · exact Or.inl ((mem_Roots _ _).2 (Or.inl h1))
  · exact Or.inl ((mem_Roots _ _).2 (Or.inr (Or.inl h1)))
  · exact Or.inl ((mem_Roots _ _).2 (Or.inr (Or.inr (Or.inl h1))))
  · exact h x h1
  · exact Or.inl ((mem_Roots _ _).2 (Or.inr (Or.inr (Or.inr (Or.inr h1)))))

theorem inv_global_get {A : List Nat} {vm : Vm} (hi : Inv A vm) {a : Nat} {v : Value}
    (hv : vm.globals_values_.get? a = some v) (hs : vm.globals_set_.getD a 0 ≠ 0) :
    Within A v := by
  refine hi.2 v ((mem_Roots vm v).2 (Or.inr (Or.inr (Or.inr (Or.inl ?_)))))
  rw [mem_set_globals]
  rw [List.get?_eq_getElem?] at hv
  rw [List.getD_eq_getElem?_getD] at hs
  cases hg : vm.globals_set_[a]? with
  | none =>
    rw [hg] at hs
    exact absurd rfl hs
  | some s =>
    rw [hg] at hs
    exact ⟨a, s, hv, hg, hs⟩

theorem inv_global_set {A : List Nat} {vm : Vm} (hi : Inv A vm) (a : Nat) {v : Value}
    (hv : Within A v) :
    Inv A { vm with globals_values_ := vm.globals_values_.set a v,
                    globals_set_ := vm.globals_set_.set a 1 } := by
  refine inv_globals hi _ _ (fun x hx => ?_)
  rw [mem_set_globals] at hx
  obtain ⟨i, s, h1, h2, h3⟩ := hx
  rw [List.getElem?_set] at h1 h2
  by_cases hia : a = i
  · rw [if_pos hia] at h1
    split at h1
    · cases h1
      exact Or.inr hv
    · cases h1
  · rw [if_neg hia] at h1 h2
    exact Or.inl ((mem_Roots vm x).2 (Or.inr (Or.inr (Or.inr (Or.inl
      ((mem_set_globals _ _ _).2 ⟨i, s, h1, h2, h3⟩))))))

theorem tidy_H_StoreGlobal (A : List Nat) (ins : Instruction) :
    Tidy A (fun _ => True) (H_StoreGlobal ins) := by
  unfold H_StoreGlobal
  split
  · exact tidy_raise A _ _ (by decide)
  · refine tidy_bind (tidy_self A) (fun vm _ => ?_)
    split
    · exact tidy_raise A _ _ (by decide)
    · refine tidy_bind (tidy_const_string_view A _) (fun _ _ => ?_)
      refine tidy_bind (tidy_pop A) (fun v hv => ?_)
      exact tidy_update A _ (fun vm1 hi1 => inv_global_set hi1 _ hv)

theorem ne_dangling_of_start (a s : String) (n : Nat) (hn : a.data.length = n)
    (h : danglingMsg.data.take n ≠ a.data) : a ++ s ≠ danglingMsg := by
  intro e
  apply h
  rw [← e, String.data_append, List.take_left' hn]

theorem tidy_H_LoadGlobal (A : List Nat) (ins : Instruction) :
    Tidy A (fun _ => True) (H_LoadGlobal ins) := by
  unfold H_LoadGlobal
  split
  · exact tidy_raise A _ _ (by decide)
  · refine tidy_bind (tidy_self A) (fun vm hi => ?_)
    cases hc : vm.globals_values_.get? ins.a with
    | none => exact tidy_raise A _ _ (by decide)
    | some v =>
      simp only
      split
      · refine tidy_bind (tidy_const_string_view A _) (fun name _ => ?_)
        exact tidy_raise A _ _ (ne_dangling_of_start "LOAD_GLOBAL unknown global: " _ 28
          (by decide) (by decide))
      · rename_i hs
        exact tidy_push A (inv_global_get hi hc hs)

theorem tidy_H_LoadIndex (A : List Nat) : Tidy A (fun _ => True) H_LoadIndex := by
  unfold H_LoadIndex
  refine tidy_bind (tidy_pop A) (fun idx _ => ?_)
  refine tidy_bind (tidy_pop A) (fun arrv harr => ?_)
  split
  · split
    · rename_i arr
      have ha : arr ∈ A := mem_of_within harr rfl
      refine tidy_bind (G := fun _ => True) (tidy_lift A
        (fun m hm => plain_ne_dangling ((plain_asInt64 _).msgs m hm)) (fun _ _ => trivial))
        (fun i _ => ?_)
      refine tidy_bind (tidy_self A) (fun vm hi => ?_)
      refine tidy_bind (G := fun es => ∀ v ∈ es, Within A v) (tidy_lift A
        (fun m hm => elementsAt_error hi.1 ha hm) (fun es hes => elementsAt_within hi.1 hes))
        (fun es hes => ?_)
      split
      · exact tidy_raise A _ _ (by decide)
      · cases hg : es.get? i.toNat with
        | none => exact tidy_raise A _ _ (by decide)
        | some v => exact tidy_push A (hes v (List.get?_mem hg))
    · exact tidy_raise A _ _ (by decide)
  · exact tidy_raise A _ _ (by decide)

theorem tidy_H_StoreIndex (A : List Nat) : Tidy A (fun _ => True) H_StoreIndex := by
  unfold H_StoreIndex
  refine tidy_bind (tidy_pop A) (fun val hval => ?_)
  refine tidy_bind (tidy_pop A) (fun idx _ => ?_)
  refine tidy_bind (tidy_pop A) (fun arrv harr => ?_)
  split
  · split
    · rename_i arr
      have ha : arr ∈ A := mem_of_within harr rfl
      refine tidy_bind (G := fun _ => True) (tidy_lift A
        (fun m hm => plain_ne_dangling ((plain_asInt64 _).msgs m hm)) (fun _ _ => trivial))
        (fun i _ => ?_)
      refine tidy_bind (tidy_self A) (fun vm hi => ?_)
      refine tidy_bind (G := fun _ => True) (tidy_lift A
        (fun m hm => elementsAt_error hi.1 ha hm) (fun _ _ => trivial))
        (fun es _ => ?_)
      split
      · exact tidy_raise A _ _ (by decide)
      · refine tidy_bind (G := fun h => Good A h) (tidy_lift A
          (fun m hm => storeElement_error hi.1 ha hm)
          (fun h hh => good_storeElement hi.1 hval hh)) (fun h hh => ?_)
        exact tidy_update A _ (fun vm1 hi1 => inv_heap hi1 hh)
    · exact tidy_raise A _ _ (by decide)
  · exact tidy_raise A _ _ (by decide)

theorem tidy_ret_from_function (A : List Nat) : Tidy A (fun _ => True) ret_from_function := by
  unfold ret_from_function
  refine tidy_bind (tidy_self A) (fun vm _ => ?_)
  cases hl : vm.frames_.getLast? with
  | none => exact tidy_raise A _ _ (by decide)
  | some finished =>
    simp only
    refine tidy_bind (tidy_is_void_return A _) (fun void _ => ?_)
    have rest : ∀ ret : Value, Within A ret → Tidy A (fun _ => True) (do
        let vm1 ← self
        if vm1.stack_.length < finished.base_stack_size then raise "stack corrupted on return"
        else do
          update fun vm => { vm with
            stack_ := vm.stack_.take finished.base_stack_size ++
              List.replicate (finished.base_stack_size - vm.stack_.length) Value.null,
            frames_ := vm.frames_.dropLast }
          let vm2 ← self
          match vm2.frames_.getLast? with
          | none => pure ()
          | some caller => do
            setFrame { caller with ip := finished.return_ip }
            if (!void) = true then push ret else pure ()) := by
      intro ret hret
      refine tidy_bind (tidy_self A) (fun vm1 _ => ?_)
      split
      · exact tidy_raise A _ _ (by decide)
      · refine tidy_bind (tidy_update A _ (fun vm2 hi2 => ?_)) (fun _ _ => ?_)
        · refine inv_sub hi2 hi2.1 (fun x hx => ?_)
          rw [mem_Roots] at hx
          simp only at hx
          rcases hx with h1 | h1 | ⟨f, hf, hv⟩ | h1 | h1
          · exact Or.inl ((mem_Roots _ _).2 (Or.inl h1))
          · rcases List.mem_append.1 h1 with h | h
            · exact Or.inr (inv_stack hi2 (List.mem_of_mem_take h))
            · rw [(List.mem_replicate.1 h).2]
              exact Or.inr (within_null A)
          · exact Or.inr (inv_locals hi2 (List.mem_of_mem_dropLast hf) hv)
          · exact Or.inl ((mem_Roots _ _).2 (Or.inr (Or.inr (Or.inr (Or.inl h1)))))
          · exact Or.inl ((mem_Roots _ _).2 (Or.inr (Or.inr (Or.inr (Or.inr h1)))))
        · refine tidy_bind (tidy_self A) (fun vm2 hi2 => ?_)
          cases hc : vm2.frames_.getLast? with
          | none => exact tidy_pure A _ trivial
          | some caller =>
            simp only
            refine tidy_bind (tidy_setFrame A _ (fun v hv =>
              inv_locals hi2 (List.mem_of_getLast?_eq_some hc) hv)) (fun _ _ => ?_)
            split
            · exact tidy_push A hret
            · exact tidy_pure A _ trivial
    by_cases hv : (!void) = true
    · rw [if_pos hv]
      exact tidy_bind (tidy_pop A) (fun ret hret => rest ret hret)
    · rw [if_neg hv]
      exact tidy_bind (tidy_pure A _ (within_null A)) (fun ret hret => rest ret hret)

theorem tidy_pop_args (A : List Nat) (n : Nat) (locals : List Value)
    (hl : ∀ v ∈ locals, Within A v) :
    Tidy A (fun ls => ∀ v ∈ ls, Within A v) (pop_args n locals) := by
  induction n generalizing locals with
  | zero => exact tidy_pure A _ hl
  | succ n ih =>
    unfold pop_args
    refine tidy_bind (tidy_pop A) (fun v hv => ?_)
    split
    · refine ih _ (fun x hx => ?_)
      rcases List.mem_or_eq_of_mem_set hx with h | h
      · exact hl x h
      · rw [h]
        exact hv
    · exact tidy_raise A _ _ (by decide)

theorem inv_maybe_jit_compile {A : List Nat} {vm : Vm} (hi : Inv A vm) (f : Nat) :
    Inv A (maybe_jit_compile f vm) := by
  obtain ⟨hc, cc, h⟩ := maybe_jit_compile_eq f vm
  rw [h]
  exact ⟨hi.1, hi.2⟩

end Vm

/-! ## The interpreter: allocating handlers keep a state safe -/

namespace Vm

open Heap

theorem moves_of_tidy {α : Type} {A : List Nat} {G : α → Prop} {x : VmM α} (h : Tidy A G x) :
    Moves A (fun A1 a => A1 = A ∧ G a) x :=
  ⟨fun vm hi => Sat_mono (h.sat vm hi) (fun _ _ h1 => ⟨A, h1.1, rfl, h1.2⟩)
    (fun _ _ h1 => ⟨⟨A, h1.1⟩, h1.2⟩)⟩

theorem moves_weaken {α : Type} {A : List Nat} {G G1 : List Nat → α → Prop} {x : VmM α}
    (hx : Moves A G x) (h : ∀ A1 a, G A1 a → G1 A1 a) : Moves A G1 x :=
  ⟨fun vm hi => Sat_mono (hx.sat vm hi) (fun a _ h1 => by
    obtain ⟨A1, h2, h3⟩ := h1
    exact ⟨A1, h2, h A1 a h3⟩) (fun _ _ h1 => h1)⟩

theorem moves_bind {α β : Type} {A : List Nat} {G : List Nat → α → Prop}
    {G1 : List Nat → β → Prop} {x : VmM α} {f : α → VmM β} (hx : Moves A G x)
    (hf : ∀ A1 a, G A1 a → Moves A1 G1 (f a)) : Moves A G1 (x >>= f) := by
  constructor
  intro vm hi
  rw [Sat_bind]
  refine Sat_mono (hx.sat vm hi) (fun a vm1 h1 => ?_) (fun _ _ h1 => h1)
  obtain ⟨A1, h2, h3⟩ := h1
  exact (hf A1 a h3).sat vm1 h2

theorem moves_plain {α : Type} {A : List Nat} {G : α → Prop} {x : VmM α} (h : Tidy A G x) :
    Moves A (fun _ _ => True) x := moves_weaken (moves_of_tidy h) (fun _ _ _ => trivial)

theorem moves_raise {α : Type} (A : List Nat) (G : List Nat → α → Prop) (m : String)
    (h : m ≠ danglingMsg) : Moves A G (raise m : VmM α) := ⟨fun _ hi => ⟨⟨A, hi⟩, h⟩⟩

/-- The allocation of a string from a safe state, with the roots of the
state: it returns, the heap it returns makes the state safe, and the new
pointer is one of its addresses. -/
theorem alloc_string_inv (P : Platform) (hP : P.Sound) {A : List Nat} {vm : Vm} (hi : Inv A vm)
    (s : List Nat) :
    ∃ p h1, AllocateString P vm.heap_ s vm.Roots = .ok (p, h1) ∧ p ∈ h1.addrs ∧
      Inv h1.addrs { vm with heap_ := h1 } := by
  obtain ⟨p, h0, h1, ha, -, -, -, -, hadd, hs1, -⟩ :=
    AllocateString_noDangling P hP vm.heap_ s vm.Roots (inv_safe hi)
  refine ⟨p, h1, ha, ?_, noDangling_good hs1⟩
  rw [hadd]
  exact List.mem_append_right _ (List.mem_singleton_self p)

/-- The allocation of an array from a safe state, with the roots of the
state. -/
theorem alloc_array_inv (P : Platform) (hP : P.Sound) {A : List Nat} {vm : Vm} (hi : Inv A vm)
    (n : Nat) :
    ∃ p h1, AllocateArray P vm.heap_ n vm.Roots = .ok (p, h1) ∧ p ∈ h1.addrs ∧
      Inv h1.addrs { vm with heap_ := h1 } := by
  obtain ⟨p, h0, h1, ha, -, -, -, -, hadd, hs1, -⟩ :=
    AllocateArray_noDangling P hP vm.heap_ n vm.Roots (inv_safe hi)
  refine ⟨p, h1, ha, ?_, noDangling_good hs1⟩
  rw [hadd]
  exact List.mem_append_right _ (List.mem_singleton_self p)

theorem moves_add_values (P : Platform) (hP : P.Sound) (A : List Nat) (l r : Value)
    (hl : Within A l) (hr : Within A r) :
    Moves A (fun A1 v => Within A1 v) (add_values P l r) := by
  cases l <;> cases r
  case int.int a b =>
    refine moves_weaken (moves_of_tidy (G := Within A) ?_) (fun A1 v h => by rw [h.1]; exact h.2)
    unfold add_values
    refine tidy_bind (G := fun _ => True) (tidy_lift A
      (fun m hm => plain_ne_dangling ((plain_add a b).msgs m hm)) (fun _ _ => trivial))
      (fun s _ => tidy_pure A _ (within_flat A rfl))
  case float.float a b =>
    exact moves_weaken (moves_of_tidy (G := Within A) (tidy_pure A _ (within_flat A rfl)))
      (fun A1 v h => by rw [h.1]; exact h.2)
  case string.string p q =>
    have hp : p ∈ A := mem_of_within hl rfl
    have hq : q ∈ A := mem_of_within hr rfl
    constructor
    intro vm hi
    unfold add_values
    rw [Sat_TempRoots]
    have h1 : Inv A { vm with temp_roots_ := vm.temp_roots_ ++ [Value.string p, Value.string q] } := by
      refine inv_temp_roots hi _ (fun v hv => ?_)
      rcases List.mem_append.1 hv with h | h
      · exact Or.inr (inv_temp hi h)
      · simp only [List.mem_cons, List.mem_singleton, List.not_mem_nil, or_false] at h
        rcases h with h | h
        · rw [h]
          exact Or.inr hl
        · rw [h]
          exact Or.inr hr
    simp only [Sat_bind, Sat_self, Sat_lift, Sat_update, Sat_pure]
    refine ⟨fun a _ => ⟨fun b _ => ?_, fun m hm => ⟨⟨A, inv_temp_roots h1 _ (fun v hv =>
        Or.inl ((mem_Roots _ v).2 (Or.inr (Or.inr (Or.inr (Or.inr
          (List.mem_of_mem_take hv)))))))⟩, stringAt_error h1.1 hq hm⟩⟩,
      fun m hm => ⟨⟨A, inv_temp_roots h1 _ (fun v hv =>
        Or.inl ((mem_Roots _ v).2 (Or.inr (Or.inr (Or.inr (Or.inr
          (List.mem_of_mem_take hv)))))))⟩, stringAt_error h1.1 hp hm⟩⟩
    obtain ⟨o, hh, ha, ho, h2⟩ := alloc_string_inv P hP h1 (a ++ b)
    refine ⟨fun res hres => ?_, fun m hm => ?_⟩
    · rw [ha] at hres
      cases hres
      refine ⟨hh.addrs, inv_temp_roots h2 _ (fun v hv =>
        Or.inl ((mem_Roots _ v).2 (Or.inr (Or.inr (Or.inr (Or.inr
          (List.mem_of_mem_take hv))))))), ?_⟩
      exact within_pointer rfl ho
    · rw [ha] at hm
      cases hm
  all_goals exact moves_raise A _ _ (by decide)

theorem moves_binary (A : List Nat) {op : Value → Value → VmM Value}
    (h : ∀ l r, Within A l → Within A r → Moves A (fun A1 v => Within A1 v) (op l r)) :
    Moves A (fun _ _ => True) (binary op) := by
  unfold binary
  refine moves_bind (moves_of_tidy (tidy_pop A)) (fun A1 r hr => ?_)
  obtain ⟨rfl, hr⟩ := hr
  refine moves_bind (moves_of_tidy (tidy_pop A1)) (fun A2 l hl => ?_)
  obtain ⟨rfl, hl⟩ := hl
  refine moves_bind (h l r hl hr) (fun A3 v hv => ?_)
  exact moves_plain (tidy_push A3 hv)

theorem tidy_fill_array (A : List Nat) (arr : Nat) (ha : arr ∈ A) (n : Nat) :
    Tidy A (fun _ => True) (fill_array arr n) := by
  induction n with
  | zero => exact tidy_pure A _ trivial
  | succ n ih =>
    unfold fill_array
    refine tidy_bind (tidy_pop A) (fun v hv => ?_)
    refine tidy_bind (tidy_self A) (fun vm hi => ?_)
    refine tidy_bind (G := fun h => Good A h) (tidy_lift A
      (fun m hm => storeElement_error hi.1 ha hm)
      (fun h hh => good_storeElement hi.1 hv hh)) (fun h hh => ?_)
    exact tidy_bind (tidy_update A _ (fun vm1 hi1 => inv_heap hi1 hh)) (fun _ _ => ih)

theorem moves_H_NewArray (P : Platform) (hP : P.Sound) (A : List Nat) (ins : Instruction) :
    Moves A (fun _ _ => True) (H_NewArray P ins) := by
  unfold H_NewArray
  split
  · exact moves_raise A _ _ (by decide)
  · constructor
    intro vm hi
    obtain ⟨o, hh, ha, ho, h2⟩ := alloc_array_inv P hP hi ins.b
    rw [Sat_bind, Sat_self, Sat_bind, Sat_lift]
    refine ⟨fun res hres => ?_, fun m hm => ?_⟩
    · rw [ha] at hres
      cases hres
      rw [Sat_bind, Sat_update]
      have h3 := (tidy_bind (tidy_fill_array hh.addrs o ho ins.b)
        (fun _ _ => tidy_push hh.addrs (v := Value.array o) (within_pointer rfl ho))).sat _ h2
      exact Sat_mono h3 (fun _ _ h => ⟨hh.addrs, h.1, trivial⟩) (fun _ _ h => ⟨⟨hh.addrs, h.1⟩, h.2⟩)
    · rw [ha] at hm
      cases hm

end Vm

/-! ## The interpreter: built-ins and calls keep a state safe -/

namespace Vm

open Heap

theorem tidy_builtin_print (A : List Nat) (args : List Value) (ha : ∀ v ∈ args, Within A v) :
    Tidy A (Within A) (builtin_print args) := by
  unfold builtin_print
  split
  · exact tidy_raise A _ _ (by decide)
  · split
    · exact tidy_bind (tidy_update A _ (fun vm hi => inv_cout hi _))
        (fun _ _ => tidy_pure A _ (within_null A))
    · exact tidy_bind (tidy_update A _ (fun vm hi => inv_cout hi _))
        (fun _ _ => tidy_pure A _ (within_null A))
    · exact tidy_bind (tidy_update A _ (fun vm hi => inv_cout hi _))
        (fun _ _ => tidy_pure A _ (within_null A))
    · rename_i p hp
      have hm : p ∈ A := mem_of_within (ha _ (List.mem_of_mem_head? hp)) rfl
      refine tidy_bind (tidy_self A) (fun vm hi => ?_)
      refine tidy_bind (G := fun _ => True) (tidy_lift A
        (fun m hm1 => stringAt_error hi.1 hm hm1) (fun _ _ => trivial)) (fun s _ => ?_)
      exact tidy_bind (tidy_update A _ (fun vm hi => inv_cout hi _))
        (fun _ _ => tidy_pure A _ (within_null A))
    · exact tidy_raise A _ _ (by decide)

theorem tidy_builtin_len (A : List Nat) (args : List Value) (ha : ∀ v ∈ args, Within A v) :
    Tidy A (Within A) (builtin_len args) := by
  unfold builtin_len
  split
  · exact tidy_raise A _ _ (by decide)
  · split
    · rename_i p hp
      have hm : p ∈ A := mem_of_within (ha _ (List.mem_of_mem_head? hp)) rfl
      refine tidy_bind (tidy_self A) (fun vm hi => ?_)
      refine tidy_bind (G := fun _ => True) (tidy_lift A
        (fun m hm1 => elementsAt_error hi.1 hm hm1) (fun _ _ => trivial)) (fun s _ => ?_)
      exact tidy_lift_plain A (plain_FromInt _) (flat_FromInt _)
    · exact tidy_raise A _ _ (by decide)

theorem moves_builtin_new_array_bool (P : Platform) (hP : P.Sound) (A : List Nat)
    (args : List Value) :
    Moves A (fun A1 v => Within A1 v) (builtin_new_array_bool P args) := by
  unfold builtin_new_array_bool
  split
  · exact moves_raise A _ _ (by decide)
  · split
    · rename_i b fill _ _
      refine moves_bind (moves_of_tidy (G := fun _ => True) (tidy_lift A
        (fun m hm => plain_ne_dangling ((plain_asInt64 _).msgs m hm)) (fun _ _ => trivial)))
        (fun A1 n hn => ?_)
      obtain ⟨rfl, -⟩ := hn
      split
      · exact moves_raise A1 _ _ (by decide)
      · constructor
        intro vm hi
        obtain ⟨o, hh, ha, ho, h2⟩ := alloc_array_inv P hP hi n.toNat
        rw [Sat_bind, Sat_self, Sat_bind, Sat_lift]
        refine ⟨fun res hres => ?_, fun m hm => ?_⟩
        · rw [ha] at hres
          cases hres
          rw [Sat_bind, Sat_update, Sat_pure]
          refine ⟨hh.addrs, inv_heap h2 (good_setElements h2.1 o (fun v hv => ?_)),
            within_pointer rfl ho⟩
          rw [(List.mem_replicate.1 hv).2]
          exact within_flat _ rfl
        · rw [ha] at hm
          cases hm
    · exact moves_raise A _ _ (by decide)

theorem good_copy_elements {A : List Nat} (old out : Nat) (hold : old ∈ A) (hout : out ∈ A) :
    ∀ (n i : Nat) (h : Heap), Good A h →
      (∀ h1, copy_elements old out n i h = .ok h1 → Good A h1) ∧
      (∀ m, copy_elements old out n i h = .error m → m ≠ danglingMsg) := by
  intro n
  induction n with
  | zero =>
    intro i h hg
    unfold copy_elements
    exact ⟨fun h1 e => (by cases e; exact hg), fun m e => (by cases e)⟩
  | succ n ih =>
    intro i h hg
    unfold copy_elements
    cases he : elementsAt h old with
    | error m1 =>
      simp only [bind, Except.bind]
      exact ⟨fun h1 e => (by cases e), fun m e => (by cases e; exact elementsAt_error hg hold he)⟩
    | ok es =>
      simp only [bind, Except.bind]
      cases hg1 : es.get? i with
      | none =>
        simp only
        exact ⟨fun h1 e => (by cases e), fun m e => (by cases e; decide)⟩
      | some v =>
        simp only
        cases hs : storeElement h out i v with
        | error m1 =>
          simp only
          exact ⟨fun h1 e => (by cases e),
            fun m e => (by cases e; exact storeElement_error hg hout hs)⟩
        | ok h2 =>
          simp only
          exact ih (i + 1) h2 (good_storeElement hg
            (elementsAt_within hg he v (List.get?_mem hg1)) hs)

theorem movesFrom_of_moves {α : Type} {A : List Nat} {G : List Nat → α → Prop} {x : VmM α}
    (h : Moves A G x) (K : List Value) : MovesFrom A K G x := ⟨fun vm hi _ => h.sat vm hi⟩

theorem movesFrom_raise {α : Type} (A : List Nat) (K : List Value) (G : List Nat → α → Prop)
    (m : String) (h : m ≠ danglingMsg) : MovesFrom A K G (raise m : VmM α) :=
  ⟨fun _ hi _ => ⟨⟨A, hi⟩, h⟩⟩

theorem movesFrom_builtin_push_int (P : Platform) (hP : P.Sound) (A : List Nat)
    (args : List Value) :
    MovesFrom A args (fun A1 v => Within A1 v) (builtin_push_int P args) := by
  unfold builtin_push_int
  split
  · exact movesFrom_raise A _ _ _ (by decide)
  · split
    · rename_i old_arr x h0 _
      constructor
      intro vm hi ha
      have hr : Value.array old_arr ∈ vm.Roots := ha _ (List.get?_mem h0)
      have hold : old_arr ∈ A := mem_of_within (hi.2 _ hr) rfl
      simp only [Sat_bind, Sat_self, Sat_lift, Sat_update, Sat_pure]
      refine ⟨fun es _ => ?_, fun m hm => ⟨⟨A, hi⟩, elementsAt_error hi.1 hold hm⟩⟩
      obtain ⟨o, hh, hal, ho, h2⟩ := alloc_array_inv P hP hi ((es.length + 1) % 2 ^ 64)
      have hold1 : old_arr ∈ hh.addrs := mem_of_within (h2.2 _ hr) rfl
      refine ⟨fun res hres => ?_, fun m hm => ?_⟩
      · rw [hal] at hres
        cases hres
        obtain ⟨c1, c2⟩ := good_copy_elements old_arr o hold1 ho es.length 0 hh h2.1
        refine ⟨fun h1 hc => ⟨fun h3 hs => ?_, fun m hm => ?_⟩, fun m hm => ⟨⟨A, hi⟩, c2 m hm⟩⟩
        · exact ⟨hh.addrs, inv_heap h2 (good_storeElement (c1 h1 hc)
            (within_flat _ (v := Value.int x) rfl) hs),
            within_pointer rfl ho⟩
        · exact ⟨⟨A, hi⟩, storeElement_error (c1 h1 hc) ho hm⟩
      · rw [hal] at hm
        cases hm
    · exact movesFrom_raise A _ _ _ (by decide)

theorem movesFrom_call_builtin (P : Platform) (hP : P.Sound) (A : List Nat) (name : List Nat)
    (args : List Value) :
    MovesFrom A args (fun A1 v => Within A1 v) (call_builtin P name args) := by
  have tidy : ∀ {x : VmM Value}, ((∀ v ∈ args, Within A v) → Tidy A (Within A) x) →
      MovesFrom A args (fun A1 v => Within A1 v) x := fun h =>
    ⟨fun vm hi ha => Sat_mono ((h (fun v hv => hi.2 v (ha v hv))).sat vm hi)
      (fun _ _ h => ⟨A, h⟩) (fun _ _ h => ⟨⟨A, h.1⟩, h.2⟩)⟩
  unfold call_builtin
  split
  · exact tidy (tidy_builtin_print A args)
  · split
    · exact tidy (tidy_builtin_len A args)
    · split
      · exact movesFrom_of_moves (moves_builtin_new_array_bool P hP A args) _
      · split
        · exact movesFrom_builtin_push_int P hP A args
        · exact movesFrom_raise A _ _ _
            (ne_dangling_of_start "unknown builtin: " _ 17 (by decide) (by decide))

theorem func_name_view_sat {A : List Nat} {vm : Vm} (hi : Inv A vm) (f : Nat)
    (Q : List Nat → Vm → Prop) (E : String → Vm → Prop) (hq : ∀ name, Q name vm)
    (he : ∀ m, m ≠ danglingMsg → E m vm) : (func_name_view f vm).Sat Q E := by
  have h1 := (tidy_func_name_view A f).sat vm hi
  have h2 := func_name_view_state f vm
  cases h : func_name_view f vm with
  | ok name vm1 =>
    rw [h] at h2
    cases h2
    exact hq name
  | throw m vm1 =>
    rw [h] at h1 h2
    cases h2
    exact he m h1.2

theorem moves_call_function (P : Platform) (hP : P.Sound) (A : List Nat) (f argc : Nat) :
    Moves A (fun _ _ => True) (call_function P f argc) := by
  constructor
  intro vm hi
  unfold call_function
  rw [Sat_bind, Sat_self]
  cases hf : vm.module_.functions.get? f with
  | none => exact ⟨⟨A, hi⟩, by decide⟩
  | some fn =>
    simp only
    split
    · exact ⟨⟨A, hi⟩, by decide⟩
    · split
      · rw [Sat_bind]
        unfold peek_args
        split
        · exact ⟨⟨A, hi⟩, by decide⟩
        · show (TempRoots _ _ vm).Sat _ _
          rw [Sat_TempRoots]
          have h1 := inv_temp_roots hi (vm.temp_roots_ ++ vm.stack_.drop (vm.stack_.length - argc))
            (fun v hv => by
              rcases List.mem_append.1 hv with h | h
              · exact Or.inr (inv_temp hi h)
              · exact Or.inr (inv_stack hi (List.mem_of_mem_drop h)))
          have back : ∀ {B : List Nat} {vm1 : Vm}, Inv B vm1 →
              Inv B { vm1 with temp_roots_ := vm1.temp_roots_.take vm.temp_roots_.length } :=
            fun h => inv_temp_roots h _ (fun v hv =>
              Or.inl ((mem_Roots _ v).2 (Or.inr (Or.inr (Or.inr (Or.inr
                (List.mem_of_mem_take hv)))))))
          rw [Sat_bind]
          refine func_name_view_sat h1 f _ _ (fun name => ?_) (fun m hm => ⟨⟨A, back h1⟩, hm⟩)
          rw [Sat_bind]
          refine Sat_mono ((movesFrom_call_builtin P hP A name _).sat _ h1 (fun v hv =>
            (mem_Roots _ v).2 (Or.inr (Or.inr (Or.inr (Or.inr (List.mem_append_right _ hv)))))))
            (fun out vm1 h => ?_) (fun m vm1 h => ⟨⟨h.1.choose, back h.1.choose_spec⟩, h.2⟩)
          obtain ⟨A1, h2, hout⟩ := h
          rw [Sat_bind, Sat_update]
          have h3 : Inv A1 { vm1 with stack_ := vm1.stack_.take (vm1.stack_.length - argc) } :=
            inv_stack_set h2 _ (fun v hv => Or.inr (inv_stack h2 (List.mem_of_mem_take hv)))
          split
          · exact ⟨A1, back (inv_push h3 hout), trivial⟩
          · exact ⟨A1, back h3, trivial⟩
      · refine Sat_mono ((tidy_bind (tidy_update A _ (fun vm1 hi1 => inv_maybe_jit_compile hi1 f))
          (fun _ _ => tidy_bind (tidy_frame A) (fun caller _ => tidy_bind (tidy_self A)
            (fun vm1 _ => tidy_bind (tidy_pop_args A argc _ (fun v hv => by
                rw [(List.mem_replicate.1 hv).2]
                exact within_null A))
              (fun locals hl => tidy_update A _ (fun vm2 hi2 => inv_frames hi2 _ (fun g hg v hv => by
                rcases List.mem_append.1 hg with h | h
                · exact Or.inr (inv_locals hi2 h hv)
                · rw [List.mem_singleton] at h
                  rw [h] at hv
                  exact Or.inr (hl v hv)))))))).sat vm hi)
          (fun _ _ h => ⟨A, h.1, trivial⟩) (fun _ _ h => ⟨⟨A, h.1⟩, h.2⟩)

theorem moves_invoke (P : Platform) (hP : P.Sound) (A : List Nat) (h : Handler)
    (ins : Instruction) : Moves A (fun _ _ => True) (invoke P h ins) := by
  cases h
  case H_PushConst => exact moves_plain (tidy_H_PushConst A ins)
  case H_Pop => exact moves_plain (tidy_H_Pop A)
  case H_StoreGlobal => exact moves_plain (tidy_H_StoreGlobal A ins)
  case H_LoadGlobal => exact moves_plain (tidy_H_LoadGlobal A ins)
  case H_StoreLocal => exact moves_plain (tidy_H_StoreLocal A ins)
  case H_LoadLocal => exact moves_plain (tidy_H_LoadLocal A ins)
  case H_Add => exact moves_binary A (fun l r hl hr => moves_add_values P hP A l r hl hr)
  case H_Sub => exact moves_plain (tidy_binary A (fun l r _ _ =>
      tidy_lift_plain A (plain_sub_values l r) (flat_sub_values l r)))
  case H_Mul => exact moves_plain (tidy_binary A (fun l r _ _ =>
      tidy_lift_plain A (plain_mul_values l r) (flat_mul_values l r)))
  case H_Div => exact moves_plain (tidy_binary A (fun l r _ _ =>
      tidy_lift_plain A (plain_div_values l r) (flat_div_values l r)))
  case H_Mod => exact moves_plain (tidy_binary A (fun l r _ _ =>
      tidy_lift_plain A (plain_mod_values l r) (flat_mod_values l r)))
  case H_Neg => exact moves_plain (tidy_unary A plain_neg_value flat_neg_value)
  case H_Eq => exact moves_plain (tidy_binary A (fun l r hl hr =>
      tidy_bind (tidy_self A) (fun vm hi => tidy_lift A
        (fun m hm => eq_values_error hi.1 hl hr hm)
        (fun a ha => within_flat A ((flat_eq_values vm.heap_ l r).vals a ha)))))
  case H_Neq => exact moves_plain (tidy_binary A (fun l r hl hr =>
      tidy_bind (tidy_self A) (fun vm hi => tidy_lift A
        (fun m hm => neq_values_error hi.1 hl hr hm)
        (fun a ha => within_flat A ((flat_neq_values vm.heap_ l r).vals a ha)))))
  case H_Lt => exact moves_plain (tidy_binary A (fun l r _ _ =>
      tidy_lift_plain A (plain_lt_values l r) (flat_lt_values l r)))
  case H_Le => exact moves_plain (tidy_binary A (fun l r _ _ =>
      tidy_lift_plain A (plain_le_values l r) (flat_le_values l r)))
  case H_Gt => exact moves_plain (tidy_binary A (fun l r _ _ =>
      tidy_lift_plain A (plain_gt_values l r) (flat_gt_values l r)))
  case H_Ge => exact moves_plain (tidy_binary A (fun l r _ _ =>
      tidy_lift_plain A (plain_ge_values l r) (flat_ge_values l r)))
  case H_And => exact moves_plain (tidy_binary A (fun l r _ _ =>
      tidy_lift_plain A (plain_and_values l r) (flat_and_values l r)))
  case H_Or => exact moves_plain (tidy_binary A (fun l r _ _ =>
      tidy_lift_plain A (plain_or_values l r) (flat_or_values l r)))
  case H_Not => exact moves_plain (tidy_unary A plain_not_value flat_not_value)
  case H_Jump => exact moves_plain (tidy_H_Jump A ins)
  case H_JumpFalse => exact moves_plain (tidy_H_JumpFalse A ins)
  case H_Call =>
    show Moves A _ (H_Call P ins)
    unfold H_Call
    split
    · exact moves_raise A _ _ (by decide)
    · exact moves_call_function P hP A _ _
  case H_Ret => exact moves_plain (tidy_ret_from_function A)
  case H_NewArray => exact moves_H_NewArray P hP A ins
  case H_LoadIndex => exact moves_plain (tidy_H_LoadIndex A)
  case H_StoreIndex => exact moves_plain (tidy_H_StoreIndex A)

end Vm

/-! ## The interpreter: the run loop and the constructor keep a state safe -/

namespace Vm

open Heap

theorem moves_pure {α : Type} (A : List Nat) (a : α) :
    Moves A (fun _ _ => True) (pure a : VmM α) := ⟨fun _ hi => ⟨A, hi, trivial⟩⟩

theorem moves_step (P : Platform) (hP : P.Sound) (A : List Nat) :
    Moves A (fun _ _ => True) (step P) := by
  unfold step
  refine moves_bind (moves_of_tidy (tidy_frame A)) (fun A1 f hf => ?_)
  obtain ⟨rfl, hf⟩ := hf
  refine moves_bind (moves_of_tidy (tidy_self A1)) (fun A2 vm h => ?_)
  obtain ⟨rfl, -⟩ := h
  split
  · exact moves_raise _ _ _ (by decide)
  · refine moves_bind (moves_of_tidy (tidy_setFrame A2 _ hf)) (fun A3 _ h => ?_)
    obtain ⟨rfl, -⟩ := h
    split
    · exact moves_raise _ _ _ (by decide)
    · exact moves_invoke P hP _ _ _

theorem moves_run_jit (P : Platform) (hP : P.Sound) (cf : CompiledFunc) (fuel : Nat) :
    ∀ A, Moves A (fun _ _ => True) (run_jit P cf fuel) := by
  induction fuel with
  | zero =>
    intro A
    exact moves_raise _ _ _ (by decide)
  | succ fuel ih =>
    intro A
    unfold run_jit
    refine moves_bind (moves_of_tidy (tidy_self A)) (fun A1 vm h => ?_)
    obtain ⟨rfl, hi⟩ := h
    cases hl : vm.frames_.getLast? with
    | none => exact moves_pure _ _
    | some cur =>
      simp only
      split
      · exact moves_pure _ _
      · split
        · exact moves_pure _ _
        · split
          · exact moves_raise _ _ _ (by decide)
          · refine moves_bind (moves_of_tidy (tidy_setFrame A1 _ (fun v hv =>
              inv_locals hi (List.mem_of_getLast?_eq_some hl) hv))) (fun A2 _ h => ?_)
            obtain ⟨rfl, -⟩ := h
            split
            · exact moves_raise _ _ _ (by decide)
            · exact moves_raise _ _ _ (by decide)
            · exact moves_bind (moves_invoke P hP _ _ _) (fun A3 _ _ => ih A3)

theorem moves_run_loop (P : Platform) (hP : P.Sound) (fuel : Nat) :
    ∀ A, Moves A (fun _ _ => True) (run_loop P fuel) := by
  induction fuel with
  | zero =>
    intro A
    exact moves_raise _ _ _ (by decide)
  | succ fuel ih =>
    intro A
    unfold run_loop
    refine moves_bind (moves_of_tidy (tidy_self A)) (fun A1 vm h => ?_)
    obtain ⟨rfl, hi⟩ := h
    cases hl : vm.frames_.getLast? with
    | none => exact moves_pure _ _
    | some f =>
      simp only
      split
      · refine moves_bind (moves_of_tidy (tidy_update A1 _ (fun vm1 hi1 =>
          inv_frames hi1 _ (fun g hg v hv =>
            Or.inr (inv_locals hi1 (List.mem_of_mem_dropLast hg) hv))))) (fun A2 _ h => ?_)
        exact ih A2
      · split
        · split
          · exact moves_bind (moves_run_jit P hP _ fuel A1) (fun A2 _ _ => ih A2)
          · exact moves_bind (moves_step P hP A1) (fun A2 _ _ => ih A2)
        · exact moves_bind (moves_step P hP A1) (fun A2 _ _ => ih A2)

theorem inv_run_reset {A : List Nat} {vm : Vm} (hi : Inv A vm) : Inv A (run_reset vm) := by
  refine inv_sub hi hi.1 (fun x hx => ?_)
  rw [mem_Roots] at hx
  simp only [run_reset, List.not_mem_nil, List.mem_singleton, exists_eq_left, false_or,
    or_false] at hx
  rcases hx with h1 | h1
  · exact Or.inl ((mem_Roots _ _).2 (Or.inl h1))
  · rw [mem_set_globals] at h1
    obtain ⟨i, s, -, h2, h3⟩ := h1
    rw [List.getElem?_map] at h2
    cases hg : vm.globals_set_[i]? with
    | none =>
      rw [hg] at h2
      cases h2
    | some a =>
      rw [hg] at h2
      cases h2
      exact absurd rfl h3

theorem moves_run (P : Platform) (hP : P.Sound) (fuel : Nat) (A : List Nat) :
    Moves A (fun _ _ => True) (run P fuel) := by
  unfold run
  refine moves_bind (moves_of_tidy (tidy_update A _ (fun vm hi => inv_run_reset hi)))
    (fun A1 _ _ => ?_)
  exact moves_bind (moves_run_loop P hP fuel A1) (fun A2 _ _ => moves_pure _ _)

theorem inv_const_append {A : List Nat} {vm : Vm} (hi : Inv A vm) {v : Value}
    (hv : Within A v) : Inv A { vm with const_values_ := vm.const_values_ ++ [v] } := by
  refine inv_sub hi hi.1 (fun x hx => ?_)
  rw [mem_Roots] at hx
  simp only [List.mem_append, List.mem_singleton] at hx
  rcases hx with (h1 | h1) | h1 | h1 | h1 | h1
  · exact Or.inl ((mem_Roots _ _).2 (Or.inl h1))
  · rw [h1]
    exact Or.inr hv
  · exact Or.inl ((mem_Roots _ _).2 (Or.inr (Or.inl h1)))
  · exact Or.inl ((mem_Roots _ _).2 (Or.inr (Or.inr (Or.inl h1))))
  · exact Or.inl ((mem_Roots _ _).2 (Or.inr (Or.inr (Or.inr (Or.inl h1)))))
  · exact Or.inl ((mem_Roots _ _).2 (Or.inr (Or.inr (Or.inr (Or.inr h1)))))

theorem moves_BuildConstValues_step (P : Platform) (hP : P.Sound) (A : List Nat)
    (c : Constant) : Moves A (fun _ _ => True) (BuildConstValues_step P c) := by
  obtain ⟨tag, value⟩ := c
  cases tag <;> cases value
  case kInt.int v =>
    simp only [BuildConstValues_step]
    refine moves_plain (tidy_bind (tidy_lift_plain A (plain_FromInt v) (flat_FromInt v))
      (fun x hx => tidy_update A _ (fun vm hi => inv_const_append hi hx)))
  case kFloat.float d =>
    simp only [BuildConstValues_step]
    exact moves_plain (tidy_update A _ (fun vm hi => inv_const_append hi (within_flat A rfl)))
  case kBool.bool b =>
    simp only [BuildConstValues_step]
    exact moves_plain (tidy_update A _ (fun vm hi => inv_const_append hi (within_flat A rfl)))
  case kString.string s =>
    simp only [BuildConstValues_step]
    constructor
    intro vm hi
    obtain ⟨o, hh, ha, ho, h2⟩ := alloc_string_inv P hP hi s
    rw [Sat_bind, Sat_self, Sat_bind, Sat_lift]
    refine ⟨fun res hres => ?_, fun m hm => ?_⟩
    · rw [ha] at hres
      cases hres
      rw [Sat_update]
      exact ⟨hh.addrs, inv_const_append h2 (within_pointer rfl ho), trivial⟩
    · rw [ha] at hm
      cases hm
  all_goals
    simp only [BuildConstValues_step]
    exact moves_raise A _ _ (by decide)

theorem moves_BuildConstValues (P : Platform) (hP : P.Sound) (cs : List Constant) :
    ∀ A, Moves A (fun _ _ => True) (BuildConstValues P cs) := by
  induction cs with
  | nil =>
    intro A
    exact moves_pure _ _
  | cons c rest ih =>
    intro A
    unfold BuildConstValues
    exact moves_bind (moves_BuildConstValues_step P hP A c) (fun A1 _ _ => ih A1)

/-- What a call that is `Moves` does to a safe state. -/
theorem moves_safe {α : Type} {G : List Nat → α → Prop} {x : VmM α}
    (h : ∀ A, Moves A G x) (vm : Vm) (hs : Safe vm) :
    Safe (x vm).state ∧ (x vm).message ≠ some danglingMsg := by
  have h1 := (h _).sat vm ((safe_iff_inv vm).1 hs)
  cases hx : x vm with
  | ok a vm1 =>
    rw [hx] at h1
    obtain ⟨A1, h2, -⟩ := h1
    exact ⟨inv_safe h2, by simp [Res.message]⟩
  | throw m vm1 =>
    rw [hx] at h1
    obtain ⟨⟨A1, h2⟩, h3⟩ := h1
    refine ⟨inv_safe h2, ?_⟩
    intro e
    simp only [Res.message, Option.some.injEq] at e
    exact h3 e

theorem create_safe (P : Platform) (hP : P.Sound) (m : BytecodeModule) :
    (∀ vm, create P m = .ok vm → Safe vm) ∧ ∀ msg, create P m = .error msg → msg ≠ danglingMsg := by
  have h0 : Inv []
      { module_ := m, heap_ := Heap.init, const_values_ := [], stack_ := [], globals_values_ := [],
        globals_set_ := [], frames_ := [], temp_roots_ := [], func_end_ip_ := [],
        hot_counters_ := [], code_cache_ := [], cout := [] } := by
    refine ⟨⟨rfl, ⟨List.nodup_nil, List.not_mem_nil 0⟩, fun o ho => ?_⟩, fun v hv => ?_⟩
    · cases ho
    · cases hv
  have h := (moves_BuildConstValues P hP m.const_pool []).sat _ h0
  unfold create
  simp only
  cases hb : BuildConstValues P m.const_pool
    { module_ := m, heap_ := Heap.init, const_values_ := [], stack_ := [], globals_values_ := [],
      globals_set_ := [], frames_ := [], temp_roots_ := [], func_end_ip_ := [],
      hot_counters_ := [], code_cache_ := [], cout := [] } with
  | throw msg vm1 =>
    rw [hb] at h
    exact ⟨fun vm e => (by cases e), fun msg1 e => (by cases e; exact h.2)⟩
  | ok u vm1 =>
    rw [hb] at h
    obtain ⟨A1, h1, -⟩ := h
    refine ⟨fun vm e => ?_, fun msg1 e => (by cases e)⟩
    cases e
    refine inv_safe (A := A1) (inv_sub h1 h1.1 (fun x hx => ?_))
    rw [mem_Roots] at hx
    simp only at hx
    rcases hx with h2 | h2 | h2 | h2 | h2
    · exact Or.inl ((mem_Roots _ _).2 (Or.inl h2))
    · exact Or.inl ((mem_Roots _ _).2 (Or.inr (Or.inl h2)))
    · exact Or.inl ((mem_Roots _ _).2 (Or.inr (Or.inr (Or.inl h2))))
    · rw [mem_set_globals] at h2
      obtain ⟨i, s, -, h3, h4⟩ := h2
      rw [List.getElem?_replicate] at h3
      split at h3
      · cases h3
        exact absurd rfl h4
      · cases h3
    · exact Or.inl ((mem_Roots _ _).2 (Or.inr (Or.inr (Or.inr (Or.inr h2)))))

end Vm

/-! ## Claim about dangling references -/

namespace Vm

open Heap

/-- C22. No dangling references. A state is `Safe` when the pointers of the
objects of its heap are pairwise distinct and non-null and every string or
array reference held by a value that `Roots()` enumerates (the constants, the
operand stack, the locals of every frame, the set global slots, the temporary
roots) or by an element of an array of the heap points to an object that the
heap owns; where the code goes through a pointer to no object of the heap,
the model throws `danglingMsg`. On a platform whose allocator returns a
non-null address that no live object has: the state that the constructor
builds is safe, and the constructor does not throw `danglingMsg`; from every
safe state, the loop of `BuildConstValues` over any constants, one call of
any handler on any instruction, one `step`, and `run` with any fuel (so up to
every round of its loop) leave a safe state, whether they return or throw,
and do not throw `danglingMsg`: so what the handlers of string ADD,
NEW_ARRAY, `new_array_bool`, `push_int` and the construction of a string
constant use after their allocation was not freed by the collection in
it. -/
theorem no_dangling_references (P : Platform) (hP : P.Sound) :
    (∀ m vm0, create P m = .ok vm0 → Safe vm0) ∧
    (∀ m msg, create P m = .error msg → msg ≠ danglingMsg) ∧
    (∀ vm, Safe vm → ∀ cs,
      Safe (BuildConstValues P cs vm).state ∧
      (BuildConstValues P cs vm).message ≠ some danglingMsg) ∧
    (∀ vm, Safe vm → ∀ h ins,
      Safe (invoke P h ins vm).state ∧ (invoke P h ins vm).message ≠ some danglingMsg) ∧
    (∀ vm, Safe vm → Safe (step P vm).state ∧ (step P vm).message ≠ some danglingMsg) ∧
    (∀ vm, Safe vm → ∀ fuel,
      Safe (run P fuel vm).state ∧ (run P fuel vm).message ≠ some danglingMsg) :=
  ⟨fun m => (create_safe P hP m).1, fun m => (create_safe P hP m).2,
    fun vm hs cs => moves_safe (moves_BuildConstValues P hP cs) vm hs,
    fun vm hs h ins => moves_safe (fun A => moves_invoke P hP A h ins) vm hs,
    fun vm hs => moves_safe (moves_step P hP) vm hs,
    fun vm hs fuel => moves_safe (moves_run P hP fuel) vm hs⟩

theorem no_dangling_references_witness :
    lp64.Sound ∧ Safe tightVm ∧
    Safe (invoke lp64 .H_Add { op := .kAdd, a := 0, b := 0, has_a := false, has_b := false }
      tightVm).state ∧
    (invoke lp64 .H_Add { op := .kAdd, a := 0, b := 0, has_a := false, has_b := false }
      tightVm).state.heap_.addrs = [1, 3, 4] ∧
    (invoke lp64 .H_Add { op := .kAdd, a := 0, b := 0, has_a := false, has_b := false }
      tightVm).state.stack_ = [Value.string 4] :=
  ⟨lp64_sound, by decide,
    ((no_dangling_references lp64 lp64_sound).2.2.2.1 tightVm (by decide) .H_Add
      { op := .kAdd, a := 0, b := 0, has_a := false, has_b := false }).1,
    by decide!, by decide!⟩

end Vm

end Frogito
